import Mathlib

/-!
# oovm: a verification development

A shallow embedding of the OVM runtime library (`src/oovm.c`, `src/oovm.h`,
`src/oovm_internal.h`, `src/oovm_types.h`, `src/oovm_thread.h`,
`src/oovm_dllist.h`) and theorems about it.

Conventions of the embedding.

* A pointer is a natural number; `0` is the null pointer (`OVM_NIL`).  Cell
  pointers count in cells, frame pointers in bytes.
* `unsigned` arithmetic is written with an explicit `% 4294967296`.
* A function that does not return normally yields `Except.error`: an
  exception raised through one of the `ovm_except_*` functions (`raised`), a
  thread terminated by `ovm_thread_fatal` (`fatal`), or behaviour that C
  leaves undefined, a failed assertion, or a loop bound of the model that
  ran out (`undefined`).
* Two views of the heap are used.  The collector and the reference counts
  are stated over the object graph (`ovm_heap`): every object with its
  header and the pointers its class walks.  Dictionaries, classes and method
  lookup are stated over the contents of the containers (`ovm_obj_set`): a
  bucket is the list of the items of its list cells.
-/

namespace Oovm

/-! ## Part I: definitions -/

/-! ### Strings (`struct ovm_obj_str`) -/

/-- A String object: `size` counts the terminating NUL, `data` holds the
`size - 1` bytes in front of it. -/
structure ovm_obj_str where
  size : Nat
  data : List Char
  deriving DecidableEq, Repr

/-- The NUL byte. -/
def NUL : Char := Char.ofNat 0

/-- What `strcmp` looks at: the bytes up to the first NUL. -/
def c_str (data : List Char) : List Char := data.takeWhile (fun ch => ch != NUL)

/-- `data[i]` of a NUL-terminated buffer holding `data`. -/
def c_at (data : List Char) (i : Nat) : Char := data.getD i NUL

/-- `str_equalc`: `s->size == size && strcmp(s->data, data) == 0`. -/
def str_equalc (s : ovm_obj_str) (size : Nat) (data : List Char) : Bool :=
  s.size == size && c_str s.data == c_str data

/-- `str_equal`. -/
def str_equal (s1 s2 : ovm_obj_str) : Bool := str_equalc s1 s2.size s2.data

/-! ### Cells (`struct ovm_inst`) -/

/-- The union of a cell.  A cell of type `OVM_INST_TYPE_OBJ` is `objval` or
`strval`; `strval obj s` is a pointer `obj` to a String object, carried
together with the contents `s` of that object (Strings are immutable). -/
inductive ovm_val where
  | objval (obj : Nat)
  | strval (obj : Nat) (s : ovm_obj_str)
  | boolval (b : Bool)
  | intval (i : Int)
  | floatval (f : Int)
  | codemethodval (f : Nat)
  | methodval (m : Nat)
  deriving DecidableEq, Repr

/-- The cell type tags of oovm_types.h. -/
inductive ovm_inst_type where
  | OBJ | BOOL | INT | FLOAT | CODEMETHOD | METHOD
  deriving DecidableEq, Repr

/-- A cell: cached hash with its validity flag, and the value. -/
structure ovm_inst where
  hash_valid : Bool
  hash : Nat
  val : ovm_val
  deriving DecidableEq, Repr

/-- The field `inst->type`. -/
def ovm_inst.type (i : ovm_inst) : ovm_inst_type :=
  match i.val with
  | .objval _ => .OBJ
  | .strval _ _ => .OBJ
  | .boolval _ => .BOOL
  | .intval _ => .INT
  | .floatval _ => .FLOAT
  | .codemethodval _ => .CODEMETHOD
  | .methodval _ => .METHOD

/-- The field `inst->objval` of a cell of type OBJ (`0` otherwise). -/
def ovm_inst.objval (i : ovm_inst) : Nat :=
  match i.val with
  | .objval obj => obj
  | .strval obj _ => obj
  | _ => 0

/-- `OVM_INST_INIT(dst, OVM_INST_TYPE_OBJ, objval, obj)` for a non-String. -/
def inst_obj (obj : Nat) : ovm_inst := { hash_valid := false, hash := 0, val := .objval obj }

/-- The cell `str_newc` leaves in its destination: a new String at `obj`. -/
def inst_str (obj : Nat) (size : Nat) (data : List Char) : ovm_inst :=
  { hash_valid := false, hash := 0, val := .strval obj { size := size, data := data } }

/-- `ovm_inst_is_nil`. -/
def ovm_inst_is_nil (i : ovm_inst) : Bool :=
  match i.val with
  | .objval obj => obj == 0
  | _ => false

/-! ### The constants table (`struct ovm_consts`) -/

/-- Addresses of the built-in classes. -/
structure ovm_consts where
  Metaclass : Nat
  Object : Nat
  Boolean : Nat
  Integer : Nat
  Float : Nat
  Method : Nat
  Codemethod : Nat
  String : Nat
  Pair : Nat
  List : Nat
  Array : Nat
  Carray : Nat
  Bytearray : Nat
  Cbytearray : Nat
  Slice : Nat
  Cslice : Nat
  Byteslice : Nat
  Cbyteslice : Nat
  Set : Nat
  Cset : Nat
  Dictionary : Nat
  Cdictionary : Nat
  Namespace : Nat
  File : Nat
  Module : Nat
  Exception : Nat
  System : Nat
  User : Nat
  Environment : Nat
  deriving DecidableEq, Repr

/-- The table read as an array of object pointers, as `collect` does. -/
def ovm_consts_list (c : ovm_consts) : List Nat :=
  [c.Metaclass, c.Object, c.Boolean, c.Integer, c.Float, c.Method, c.Codemethod,
   c.String, c.Pair, c.List, c.Array, c.Carray, c.Bytearray, c.Cbytearray,
   c.Slice, c.Cslice, c.Byteslice, c.Cbyteslice, c.Set, c.Cset, c.Dictionary,
   c.Cdictionary, c.Namespace, c.File, c.Module, c.Exception, c.System, c.User,
   c.Environment]

/-- `ovm_inst_of_raw`: the raw class of a cell.  `inst_of` is the header
field `obj->inst_of` of the objects that are not Strings. -/
def ovm_inst_of_raw (c : ovm_consts) (inst_of : Nat → Nat) (i : ovm_inst) : Nat :=
  match i.val with
  | .objval obj => if obj = 0 then c.Object else inst_of obj
  | .strval _ _ => c.String
  | .boolval _ => c.Boolean
  | .intval _ => c.Integer
  | .floatval _ => c.Float
  | .methodval _ => c.Method
  | .codemethodval _ => c.Codemethod

/-! ### Outcomes -/

/-- A value stored in a field of an exception: a copy of a cell, or a String
made for the purpose with `str_newc`. -/
inductive ovm_field where
  | inst (i : ovm_inst)
  | newstr (size : Nat) (data : List Char)
  deriving DecidableEq, Repr

/-- An exception as the `ovm_except_*` functions build it: `except_newc`
with the `type`, then one `dict_ats_put` per field, in order. -/
structure ovm_exception where
  type : String
  fields : List (String × ovm_field)
  deriving DecidableEq, Repr

/-- Ways of not returning. -/
inductive ovm_stop where
  | raised (x : ovm_exception)
  | fatal (exit_code : Nat)
  | undefined
  deriving DecidableEq, Repr

def OVM_THREAD_FATAL_STACK_OVERFLOW : Nat := 227
def OVM_THREAD_FATAL_STACK_UNDERFLOW : Nat := 228
def OVM_THREAD_FATAL_FRAME_STACK_OVERFLOW : Nat := 229
def OVM_THREAD_FATAL_FRAME_STACK_UNDERFLOW : Nat := 230
def OVM_THREAD_FATAL_NO_FRAME : Nat := 231
def OVM_THREAD_FATAL_UNCAUGHT_EXCEPT : Nat := 232
def OVM_THREAD_FATAL_DOUBLE_EXCEPT : Nat := 233

/-- `ovm_except_no_methodc`. -/
def ovm_except_no_methodc (recvr : ovm_inst) (sel_size : Nat) (sel : List Char) : ovm_exception :=
  { type := "system.no-method",
    fields := [("receiver", .inst recvr), ("selector", .newstr sel_size sel)] }

/-- `ovm_except_modify_const`. -/
def ovm_except_modify_const (inst : ovm_inst) (key : ovm_field) : ovm_exception :=
  { type := "system.modify-constant",
    fields := [("instance", .inst inst), ("key", key)] }

/-- `ovm_except_key_not_found`. -/
def ovm_except_key_not_found (inst : ovm_inst) (key : ovm_inst) : ovm_exception :=
  { type := "system.key-not-found",
    fields := [("instance", .inst inst), ("key", .inst key)] }

/-! ### Sets and dictionaries (`struct ovm_obj_set`) -/

/-- A Pair object. -/
structure ovm_obj_pair where
  first : ovm_inst
  second : ovm_inst
  deriving DecidableEq, Repr

/-- A Set or Dictionary object: table size, element count and the buckets.
A bucket is the list of the items of its list cells, head first; the items
of a Dictionary are Pairs. -/
structure ovm_obj_set (α : Type) where
  size : Nat
  cnt : Nat
  data : List (List α)
  deriving DecidableEq, Repr

abbrev ovm_dict := ovm_obj_set ovm_obj_pair

/-- The bucket index `hash & (s->size - 1)`, in `unsigned` arithmetic. -/
def bucket_index (hash size : Nat) : Nat :=
  Nat.land (hash % 4294967296) ((size + 4294967295) % 4294967296)

/-- The probe loop of `dict_finds` over one bucket: the position of the first
cell whose key is a String equal to `(size, data)`. -/
def dict_finds_loop (size : Nat) (data : List Char) : List ovm_obj_pair → Option Nat
  | [] => none
  | pr :: rest =>
    match pr.first.val with
    | .strval _ s =>
      if str_equalc s size data then some 0
      else (dict_finds_loop size data rest).map (fun n => n + 1)
    | _ => (dict_finds_loop size data rest).map (fun n => n + 1)

/-- `dict_finds`: the bucket, and the position in it of the cell found. -/
def dict_finds (s : ovm_dict) (size : Nat) (data : List Char) (hash : Nat) :
    Except ovm_stop (Nat × Option Nat) :=
  let b := bucket_index hash s.size
  match s.data.get? b with
  | none => .error .undefined
  | some bucket => .ok (b, dict_finds_loop size data bucket)

/-- `dict_ats`: the Pair found, if any. -/
def dict_ats (s : ovm_dict) (size : Nat) (data : List Char) (hash : Nat) :
    Except ovm_stop (Option ovm_obj_pair) :=
  match dict_finds s size data hash with
  | .error e => .error e
  | .ok (b, p) =>
    match p with
    | none => .ok none
    | some n => .ok ((s.data.getD b []).get? n)

/-- The key's own `hash` and `equal` methods, as `dict_find` calls them. -/
structure key_methods where
  hash : ovm_inst → Nat
  equal : ovm_inst → ovm_inst → Bool

/-- The hash `dict_find` uses: the cached one when valid, else the result of
the key's `hash` method, converted to `unsigned`. -/
def key_hash (km : key_methods) (key : ovm_inst) : Nat :=
  if key.hash_valid then key.hash else km.hash key % 4294967296

/-- The key cell once `dict_find` has filled in its hash cache. -/
def key_cached (km : key_methods) (key : ovm_inst) : ovm_inst :=
  { key with hash_valid := true, hash := key_hash km key }

/-- The probe loop of `dict_find` over one bucket: the position of the first
cell on whose key the `equal` method of `key` answers true. -/
def dict_find_loop (km : key_methods) (key : ovm_inst) : List ovm_obj_pair → Option Nat
  | [] => none
  | pr :: rest =>
    if km.equal key pr.first then some 0
    else (dict_find_loop km key rest).map (fun n => n + 1)

/-- `dict_find`. -/
def dict_find (km : key_methods) (s : ovm_dict) (key : ovm_inst) :
    Except ovm_stop (Nat × Option Nat) :=
  let b := bucket_index (key_hash km key) s.size
  match s.data.get? b with
  | none => .error .undefined
  | some bucket => .ok (b, dict_find_loop km (key_cached km key) bucket)

/-- `dict_at`. -/
def dict_at (km : key_methods) (s : ovm_dict) (key : ovm_inst) :
    Except ovm_stop (Option ovm_obj_pair) :=
  match dict_find km s key with
  | .error e => .error e
  | .ok (b, p) =>
    match p with
    | none => .ok none
    | some n => .ok ((s.data.getD b []).get? n)

/-- `ovm_obj_assign(bucket, list_new(item, *bucket))`: a new cell in front of
bucket `b`. -/
def bucket_prepend {α : Type} (s : ovm_obj_set α) (b : Nat) (item : α) : ovm_obj_set α :=
  { s with data := s.data.set b (item :: s.data.getD b []) }

/-- `ovm_obj_assign(p, li->next)`: the cell at position `n` of bucket `b`
unlinked. -/
def bucket_unlink {α : Type} (s : ovm_obj_set α) (b n : Nat) : ovm_obj_set α :=
  { s with data := s.data.set b ((s.data.getD b []).eraseIdx n) }

/-- The test `size > 2 && data[0] == '#'` of `dict_ats_put` and
`dict_at_put`; `size` counts the terminating NUL. -/
def is_const_name (size : Nat) (data : List Char) : Bool :=
  decide (size > 2) && c_at data 0 == '#'

/-- `dict_at_put`, for the Dictionary at address `base`.  The result is the
Dictionary as the function leaves it, and how the function ended (`none`
for a normal return). -/
def dict_at_put (km : key_methods) (base : Nat) (s : ovm_dict) (key val : ovm_inst) :
    ovm_dict × Option ovm_stop :=
  match dict_find km s key with
  | .error e => (s, some e)
  | .ok (b, p) =>
    let key1 := key_cached km key
    match p with
    | none =>
      let cnt1 := (s.cnt + 1) % 4294967296
      if cnt1 = 0 then (s, some .undefined)
      else (bucket_prepend { s with cnt := cnt1 } b { first := key1, second := val }, none)
    | some n =>
      match key1.val with
      | .strval _ ks =>
        if is_const_name ks.size ks.data then
          (s, some (.raised (ovm_except_modify_const (inst_obj base) (.inst key1))))
        else (bucket_prepend (bucket_unlink s b n) b { first := key1, second := val }, none)
      | _ => (bucket_prepend (bucket_unlink s b n) b { first := key1, second := val }, none)

/-- `dict_ats_put`, for the Dictionary at address `base`; `newstr` is the
address of the String that `str_newc` makes for a key not yet there. -/
def dict_ats_put (base : Nat) (s : ovm_dict) (size : Nat) (data : List Char) (hash : Nat)
    (val : ovm_inst) (newstr : Nat) : ovm_dict × Option ovm_stop :=
  match dict_finds s size data hash with
  | .error e => (s, some e)
  | .ok (b, p) =>
    match p with
    | none =>
      let cnt1 := (s.cnt + 1) % 4294967296
      if cnt1 = 0 then (s, some .undefined)
      else (bucket_prepend { s with cnt := cnt1 } b
              { first := inst_str newstr size data, second := val }, none)
    | some n =>
      if is_const_name size data then
        (s, some (.raised (ovm_except_modify_const (inst_obj base) (.newstr size data))))
      else
        match (s.data.getD b []).get? n with
        | none => (s, some .undefined)
        | some li =>
          (bucket_prepend (bucket_unlink s b n) b { first := li.first, second := val }, none)

/-- `dict_del`. -/
def dict_del (km : key_methods) (s : ovm_dict) (key : ovm_inst) : ovm_dict × Option ovm_stop :=
  match dict_find km s key with
  | .error e => (s, some e)
  | .ok (b, p) =>
    match p with
    | none => (s, none)
    | some n =>
      if s.cnt = 0 then (s, some .undefined)
      else ({ bucket_unlink s b n with cnt := s.cnt - 1 }, none)

/-- Method `Dictionary.at`: the Pair found, or nil (`none`). -/
def Dictionary_at (km : key_methods) (s : ovm_dict) (key : ovm_inst) :
    Except ovm_stop (Option ovm_obj_pair) :=
  dict_at km s key

/-- Method `Dictionary.ate`: the second of the Pair found, else the
key-not-found exception. -/
def Dictionary_ate (km : key_methods) (recvr : ovm_inst) (s : ovm_dict) (key : ovm_inst) :
    Except ovm_stop ovm_inst :=
  match dict_at km s key with
  | .error e => .error e
  | .ok none => .error (.raised (ovm_except_key_not_found recvr key))
  | .ok (some pr) => .ok pr.second

/-- Method `Dictionary.atput`: `dict_at_put`, the result being the value. -/
def Dictionary_atput (km : key_methods) (base : Nat) (s : ovm_dict) (key val : ovm_inst) :
    ovm_dict × Except ovm_stop ovm_inst :=
  match dict_at_put km base s key val with
  | (s1, none) => (s1, .ok val)
  | (s1, some e) => (s1, .error e)

/-- Method `Dictionary.atputnew`: `dict_at_put` unless the key is there. -/
def Dictionary_atputnew (km : key_methods) (base : Nat) (s : ovm_dict) (key val : ovm_inst) :
    ovm_dict × Except ovm_stop ovm_inst :=
  match dict_at km s key with
  | .error e => (s, .error e)
  | .ok (some _) => (s, .ok val)
  | .ok none =>
    match dict_at_put km base s (key_cached km key) val with
    | (s1, none) => (s1, .ok val)
    | (s1, some e) => (s1, .error e)

/-- Method `Dictionary.del`. -/
def Dictionary_del (km : key_methods) (s : ovm_dict) (key : ovm_inst) :
    ovm_dict × Except ovm_stop ovm_inst :=
  match dict_del km s key with
  | (s1, none) => (s1, .ok key)
  | (s1, some e) => (s1, .error e)

/-! ### Threads and frames (`struct ovm_thread`, `struct ovm_frame_*`) -/

/-- A frame on the frame stack, with its `size` in bytes. -/
inductive ovm_frame where
  | ns (size prev ns : Nat)
  | mc (size prev cl method dst bp argc ap : Nat)
  | xc (size prev arg : Nat) (arg_valid : Bool) (sp pc : Nat)
  deriving DecidableEq, Repr

/-- The field `fr->size`. -/
def ovm_frame.size : ovm_frame → Nat
  | .ns size _ _ => size
  | .mc size _ _ _ _ _ _ _ => size
  | .xc size _ _ _ _ _ => size

/-- A thread: the registers of `struct ovm_thread`, the memory of cells and
the memory of frames. -/
structure ovm_thread where
  stack : Nat
  stack_top : Nat
  sp : Nat
  frame_stack : Nat
  frame_stack_top : Nat
  fp : Nat
  nsfp : Nat
  mcfp : Nat
  except_lvl : Nat
  xfp : Nat
  exceptf : Bool
  pc : Nat
  cells : Nat → ovm_inst
  frames : Nat → Option ovm_frame
  fatal_lvl : Nat

/-- The loop of `class_up`, from frame `fr`. -/
def class_up_loop : Nat → ovm_thread → Nat → Nat → Except ovm_stop Nat
  | 0, _, _, _ => .error .undefined
  | fuel + 1, th, fr, n =>
    if fr = 0 then .ok 0
    else
      match th.frames fr with
      | some (.mc _ prev cl _ _ _ _ _) =>
        if cl = 0 then class_up_loop fuel th prev n
        else if n = 0 then .ok cl
        else class_up_loop fuel th prev (n - 1)
      | _ => .error .undefined

/-- `class_up`: the class of the `n`-th enclosing method call that has one;
`thread_mcfp` makes a thread without a method-call frame fatal. -/
def class_up (fuel : Nat) (th : ovm_thread) (n : Nat) : Except ovm_stop Nat :=
  if th.mcfp = 0 then .error (.fatal OVM_THREAD_FATAL_NO_FRAME)
  else class_up_loop fuel th th.mcfp n

/-! ### Classes and method lookup -/

/-- The pointer fields of a class object (`struct ovm_obj_class`). -/
structure ovm_obj_class where
  name : Nat
  parent : Nat
  ns : Nat
  cl_vars : Nat
  cl_methods : Nat
  inst_methods : Nat
  deriving DecidableEq, Repr

/-- The objects method lookup reads: the header field `inst_of` of every
object, the class objects, and the Dictionary objects (user instances and
the dictionaries of the classes). -/
structure ovm_store where
  inst_of : Nat → Nat
  classes : Nat → Option ovm_obj_class
  dicts : Nat → Option ovm_dict

/-- The two offsets `cl_dict` is called with. -/
inductive cl_dict_ofs where
  | CL_OFS_CL_METHODS_DICT
  | CL_OFS_INST_METHODS_DICT
  deriving DecidableEq, Repr

/-- `cl_dict`. -/
def cl_dict (cl : ovm_obj_class) : cl_dict_ofs → Nat
  | .CL_OFS_CL_METHODS_DICT => cl.cl_methods
  | .CL_OFS_INST_METHODS_DICT => cl.inst_methods

/-- `str_hashc`, over the external `mem_hash` (zlib crc32). -/
def str_hashc (mem_hash : Nat → List Char → Nat) (size : Nat) (data : List Char) : Nat :=
  mem_hash (size - 1) data

/-- The test of the `switch` in `method_findc1_unsafe`. -/
def is_method (f : ovm_inst) : Bool :=
  match f.val with
  | .codemethodval _ => true
  | .methodval _ => true
  | _ => false

/-- `method_findc1_unsafe`: the method found and the class it was found in,
or `none` for the result `false`. -/
def method_findc1_unsafe : Nat → ovm_store → Nat → cl_dict_ofs → Nat → List Char → Nat →
    Except ovm_stop (Option (ovm_inst × Nat))
  | 0, _, _, _, _, _, _ => .error .undefined
  | fuel + 1, st, search_cl, ofs, sel_size, sel, sel_hash =>
    if search_cl = 0 then .ok none
    else
      match st.classes search_cl with
      | none => .error .undefined
      | some cl =>
        match st.dicts (cl_dict cl ofs) with
        | none => .error .undefined
        | some d =>
          match dict_ats d sel_size sel sel_hash with
          | .error e => .error e
          | .ok none => method_findc1_unsafe fuel st cl.parent ofs sel_size sel sel_hash
          | .ok (some pr) =>
            if is_method pr.second then .ok (some (pr.second, search_cl))
            else method_findc1_unsafe fuel st cl.parent ofs sel_size sel sel_hash

/-- The bytes of the literal `"__instanceof__"`. -/
def INSTANCEOF : List Char := "__instanceof__".toList

/-- `ovm_inst_of` followed by `ovm_inst_classval_nochk`: the resolved class of
a cell.  For an instance of the User class it is the value under
`__instanceof__` (`user_obj_inst_get`, whose lookup is asserted to succeed). -/
def ovm_inst_of (c : ovm_consts) (mem_hash : Nat → List Char → Nat) (st : ovm_store)
    (src : ovm_inst) : Except ovm_stop Nat :=
  let cl := ovm_inst_of_raw c st.inst_of src
  if cl ≠ c.User then .ok cl
  else
    match st.dicts src.objval with
    | none => .error .undefined
    | some d =>
      match dict_ats d 15 INSTANCEOF (str_hashc mem_hash 15 INSTANCEOF) with
      | .error e => .error e
      | .ok none => .error .undefined
      | .ok (some pr) => .ok pr.second.objval

/-- The privacy test `sel_size > 2 && sel[0] == '_' && sel[1] != '_'`. -/
def is_private_sel (sel_size : Nat) (sel : List Char) : Bool :=
  decide (sel_size > 2) && c_at sel 0 == '_' && c_at sel 1 != '_'

/-- `method_findc_noexcept_unsafe`. -/
def method_findc_noexcept_unsafe (fuel : Nat) (c : ovm_consts)
    (mem_hash : Nat → List Char → Nat) (st : ovm_store) (th : ovm_thread) (recvr : ovm_inst)
    (sel_size : Nat) (sel : List Char) (sel_hash : Nat) :
    Except ovm_stop (Option (ovm_inst × Nat)) :=
  match ovm_inst_of c mem_hash st recvr with
  | .error e => .error e
  | .ok cl =>
    let allowed : Except ovm_stop Bool :=
      if !is_private_sel sel_size sel then .ok true
      else
        match class_up fuel th 0 with
        | .error e => .error e
        | .ok up => .ok (up == cl)
    match allowed with
    | .error e => .error e
    | .ok false => .ok none
    | .ok true =>
      let viacl : Except ovm_stop (Option (ovm_inst × Nat)) :=
        if cl = 0 ∨ cl = c.Metaclass then
          ( method_findc1_unsafe fuel st recvr.objval .CL_OFS_CL_METHODS_DICT sel_size sel sel_hash)
        else .ok none
      match viacl with
      | .error e => .error e
      | .ok (some r) => .ok (some r)
      | .ok none =>
        ( method_findc1_unsafe fuel st cl .CL_OFS_INST_METHODS_DICT sel_size sel sel_hash)

/-- `method_findc_unsafe`: the method and the class it was found in, or the
no-method exception. -/
def method_findc_unsafe (fuel : Nat) (c : ovm_consts)
    (mem_hash : Nat → List Char → Nat) (st : ovm_store) (th : ovm_thread) (recvr : ovm_inst)
    (sel_size : Nat) (sel : List Char) (sel_hash : Nat) : Except ovm_stop (ovm_inst × Nat) :=
  match ( method_findc_noexcept_unsafe fuel c mem_hash st th recvr sel_size sel sel_hash) with
  | .error e => .error e
  | .ok (some r) => .ok r
  | .ok none => .error (.raised (ovm_except_no_methodc recvr sel_size sel))

/-- The list `chain` is the parent chain of `cl`: `cl`, its parent, and so
on up to the class whose parent is null. -/
def is_parent_chain (st : ovm_store) : Nat → List Nat → Bool
  | cl, [] => cl == 0
  | cl, x :: rest =>
    cl != 0 && cl == x &&
      match st.classes cl with
      | some c => is_parent_chain st c.parent rest
      | none => false

/-- The class `cl` and its chosen method dictionary are there, and the
dictionary has the bucket the selector hashes to. -/
def class_dict_ok (st : ovm_store) (ofs : cl_dict_ofs) (sel_hash : Nat) (cl : Nat) : Bool :=
  match st.classes cl with
  | none => false
  | some c =>
    match st.dicts (cl_dict c ofs) with
    | none => false
    | some d => (d.data.get? (bucket_index sel_hash d.size)).isSome

/-- The method that class `cl` itself maps the selector to in its chosen
dictionary: the second of the Pair stored under the selector, when that is a
code method or a byte-code method. -/
def class_method (st : ovm_store) (ofs : cl_dict_ofs) (sel_size : Nat) (sel : List Char)
    (sel_hash : Nat) (cl : Nat) : Option ovm_inst :=
  match st.classes cl with
  | none => none
  | some c =>
    match st.dicts (cl_dict c ofs) with
    | none => none
    | some d =>
      match dict_ats d sel_size sel sel_hash with
      | .ok (some pr) => if is_method pr.second then some pr.second else none
      | _ => none

/-- The method of the nearest class of `chain` that maps the selector to a
method, with that class. -/
def nearest_method (st : ovm_store) (ofs : cl_dict_ofs) (sel_size : Nat) (sel : List Char)
    (sel_hash : Nat) (chain : List Nat) : Option (ovm_inst × Nat) :=
  chain.findSome? (fun cl =>
    (class_method st ofs sel_size sel sel_hash cl).map (fun m => (m, cl)))

/-! ### Sample states for method lookup -/

/-- A one-bucket dictionary holding `sel ↦ f` with the key String at `key`. -/
def sample_dict1 (key : Nat) (sel : List Char) (f : ovm_inst) : ovm_dict :=
  { size := 1, cnt := 1,
    data := [[{ first := inst_str key (sel.length + 1) sel, second := f }]] }

/-- An empty one-bucket dictionary. -/
def sample_dict0 : ovm_dict := { size := 1, cnt := 0, data := [[]] }

/-- A code method cell. -/
def inst_codemethod (f : Nat) : ovm_inst :=
  { hash_valid := false, hash := 0, val := .codemethodval f }

/-- An Integer cell. -/
def inst_int (i : Int) : ovm_inst :=
  { hash_valid := false, hash := 0, val := .intval i }

/-- Addresses 1 to 29 for the built-in classes. -/
def sample_consts : ovm_consts :=
  { Metaclass := 1, Object := 2, Boolean := 3, Integer := 4, Float := 5, Method := 6,
    Codemethod := 7, String := 8, Pair := 9, List := 10, Array := 11, Carray := 12,
    Bytearray := 13, Cbytearray := 14, Slice := 15, Cslice := 16, Byteslice := 17,
    Cbyteslice := 18, Set := 19, Cset := 20, Dictionary := 21, Cdictionary := 22,
    Namespace := 23, File := 24, Module := 25, Exception := 26, System := 27, User := 28,
    Environment := 29 }

/-- A store with the Metaclass (1), Object (2) and two classes 40 and 50
whose parent is Object.  Class 40 has the instance methods `_hid` (code
method 77) and `size` (an Integer, not a method); Object has the instance
method `size` (code method 66); the Metaclass has the instance methods `name`
(code method 99) and `_hid` (code method 55); class 50 has the class method
`_hid` (code method 88).  Object 60 is an instance of class 40. -/
def sample_store : ovm_store :=
  { inst_of := fun obj =>
      if obj = 1 then 0 else if obj = 2 ∨ obj = 40 ∨ obj = 50 then 1
      else if obj = 60 then 40 else 0,
    classes := fun obj =>
      if obj = 1 then some { name := 100, parent := 2, ns := 0, cl_vars := 101,
                             cl_methods := 102, inst_methods := 103 }
      else if obj = 2 then some { name := 200, parent := 0, ns := 0, cl_vars := 201,
                                  cl_methods := 202, inst_methods := 203 }
      else if obj = 40 then some { name := 400, parent := 2, ns := 0, cl_vars := 401,
                                   cl_methods := 402, inst_methods := 403 }
      else if obj = 50 then some { name := 500, parent := 2, ns := 0, cl_vars := 501,
                                   cl_methods := 502, inst_methods := 503 }
      else none,
    dicts := fun obj =>
      if obj = 102 ∨ obj = 202 ∨ obj = 402 ∨ obj = 503 then some sample_dict0
      else if obj = 103 then
        some { size := 1, cnt := 2,
               data := [[{ first := inst_str 104 5 "name".toList, second := inst_codemethod 99 },
                         { first := inst_str 105 5 "_hid".toList, second := inst_codemethod 55 }]] }
      else if obj = 203 then some (sample_dict1 204 "size".toList (inst_codemethod 66))
      else if obj = 403 then
        some { size := 1, cnt := 2,
               data := [[{ first := inst_str 404 5 "_hid".toList, second := inst_codemethod 77 },
                         { first := inst_str 405 5 "size".toList, second := inst_int 3 }]] }
      else if obj = 502 then some (sample_dict1 504 "_hid".toList (inst_codemethod 88))
      else none }

/-- A thread whose only frame is a method-call frame, at address 900, of a
method dispatched through class `cl`. -/
def sample_thread (cl : Nat) : ovm_thread :=
  { stack := 0, stack_top := 64, sp := 60, frame_stack := 100, frame_stack_top := 1000,
    fp := 900, nsfp := 0, mcfp := 900, except_lvl := 0, xfp := 0, exceptf := false, pc := 0,
    cells := fun _ => inst_obj 0,
    frames := fun a => if a = 900 then some (.mc 64 0 cl 59 58 60 1 60) else none,
    fatal_lvl := 0 }

/-- The external hash, for the samples. -/
def sample_hash : Nat → List Char → Nat := fun _ _ => 0


/-! ### Sequences of Dictionary operations -/

/-- The mutating methods of a Dictionary that name one key. -/
inductive dict_op where
  | atput (key val : ovm_inst)
  | atputnew (key val : ovm_inst)
  | put (pr : ovm_obj_pair)
  | del (key : ovm_inst)
  deriving DecidableEq, Repr

/-- The key an operation names. -/
def dict_op.key : dict_op → ovm_inst
  | .atput key _ => key
  | .atputnew key _ => key
  | .put pr => pr.first
  | .del key => key

/-- One method call on the Dictionary at `base`: the Dictionary afterwards,
and how the call ended. -/
def dict_step (km : key_methods) (base : Nat) (s : ovm_dict) : dict_op → ovm_dict × Option ovm_stop
  | .atput key val => dict_at_put km base s key val
  | .atputnew key val =>
    match dict_at km s key with
    | .error e => (s, some e)
    | .ok (some _) => (s, none)
    | .ok none => dict_at_put km base s (key_cached km key) val
  | .put pr => dict_at_put km base s pr.first pr.second
  | .del key => dict_del km s key

/-- A sequence of method calls, an exception raised by one of them being
caught by the caller; `none` when a call does not end by returning or
raising. -/
def dict_run (km : key_methods) (base : Nat) : ovm_dict → List dict_op → Option ovm_dict
  | s, [] => some s
  | s, op :: rest =>
    match dict_step km base s op with
    | (s1, none) => dict_run km base s1 rest
    | (s1, some (.raised _)) => dict_run km base s1 rest
    | (_, some _) => none

/-- The number of list cells in the buckets. -/
def dict_entries {α : Type} (s : ovm_obj_set α) : Nat := (s.data.map List.length).sum

/-- A well-formed table: `size` buckets, `size` a positive `unsigned`, and
`cnt`, an `unsigned`, the number of entries. -/
def set_wf {α : Type} (s : ovm_obj_set α) : Prop :=
  0 < s.size ∧ s.size < 4294967296 ∧ s.data.length = s.size ∧ s.cnt = dict_entries s
    ∧ s.cnt < 4294967296

/-- Keys for the samples: Integers hash to their absolute value, Strings
to their length; a key equals the cells that hold the same value. -/
def sample_km : key_methods :=
  { hash := fun k =>
      match k.val with
      | .intval i => i.natAbs
      | .strval _ s => s.data.length
      | _ => 0,
    equal := fun k1 k2 =>
      match k1.val, k2.val with
      | .intval i, .intval j => i == j
      | .strval _ s1, .strval _ s2 => str_equal s1 s2
      | _, _ => false }

/-- A four-bucket Dictionary at address 700 holding `7 ↦ 70` and
`"#K" ↦ 1`, `"ab" ↦ 2` (both Strings of length 2 in bucket 2). -/
def sample_dict : ovm_dict :=
  { size := 4, cnt := 3,
    data := [[], [],
             [{ first := { hash_valid := true, hash := 2,
                           val := .strval 710 { size := 3, data := "#K".toList } },
                second := inst_int 1 },
              { first := { hash_valid := true, hash := 2,
                           val := .strval 711 { size := 3, data := "ab".toList } },
                second := inst_int 2 }],
             [{ first := { hash_valid := true, hash := 7, val := .intval 7 },
                second := inst_int 70 }]] }


/-- The probe for the key cell `kq` stops at the entry `e` of bucket `b0`:
the cells in front of `e` hold keys on which the `equal` method of `kq`
answers false. -/
def probe_stops_at (km : key_methods) (kq : ovm_inst) (e : ovm_obj_pair) (b0 : Nat)
    (s : ovm_dict) : Prop :=
  b0 < s.data.length ∧
    ∃ pre post, s.data.getD b0 [] = pre ++ e :: post
      ∧ ∀ x ∈ pre, km.equal kq x.first = false


/-! ### The value stack and the frame stack -/

/-- `sizeof(struct ovm_frame_ns)`, `sizeof(struct ovm_frame_mc)` and
`sizeof(struct ovm_frame_except)` on an LP64 target. -/
def SIZEOF_FRAME_NS : Nat := 24
def SIZEOF_FRAME_MC : Nat := 64
def SIZEOF_FRAME_EXCEPT : Nat := 248

/-- `_ovm_stack_alloc`: the new stack pointer, `n` cells further down. -/
def _ovm_stack_alloc (th : ovm_thread) (n : Nat) : Except ovm_stop Nat :=
  if th.sp < th.stack + n then .error (.fatal OVM_THREAD_FATAL_STACK_OVERFLOW)
  else .ok (th.sp - n)

/-- `ovm_stack_alloc`: the `n` new cells are zeroed, which makes them nil;
the result is the stack pointer before the allocation. -/
def ovm_stack_alloc (th : ovm_thread) (n : Nat) : Except ovm_stop (ovm_thread × Nat) :=
  match _ovm_stack_alloc th n with
  | .error e => .error e
  | .ok p =>
    .ok ({ th with sp := p,
                   cells := fun a => if p ≤ a ∧ a < p + n then inst_obj 0 else th.cells a },
         th.sp)

/-- `ovm_stack_unwind`: the stack pointer is set to `p`.  The cells popped are
released, which acts on the reference counts of the heap and leaves the cells
as they are; `DEBUG_ASSERT(p >= q)` is an assertion of the model. -/
def ovm_stack_unwind (th : ovm_thread) (p : Nat) : Except ovm_stop ovm_thread :=
  if p > th.stack_top then .error (.fatal OVM_THREAD_FATAL_STACK_UNDERFLOW)
  else if p < th.sp then .error .undefined
  else .ok { th with sp := p }

/-- `ovm_stack_free`. -/
def ovm_stack_free (th : ovm_thread) (n : Nat) : Except ovm_stop ovm_thread :=
  ovm_stack_unwind th (th.sp + n)

/-- `ovm_inst_assign(dst, src)` on the cell memory: the cell is copied.  (The
retain and the release act on the heap.) -/
def cell_assign (th : ovm_thread) (dst src : Nat) : ovm_thread :=
  { th with cells := fun a => if a = dst then th.cells src else th.cells a }

/-- `frame_push`, given the frame to be written: the new frame pointer. -/
def frame_push (th : ovm_thread) (fr : ovm_frame) : Except ovm_stop ovm_thread :=
  if th.fp < th.frame_stack + fr.size then
    .error (.fatal OVM_THREAD_FATAL_FRAME_STACK_OVERFLOW)
  else
    .ok { th with fp := th.fp - fr.size,
                  frames := fun a => if a = th.fp - fr.size then some fr else th.frames a }

/-- `frame_ns_push`. -/
def frame_ns_push (th : ovm_thread) (ns : Nat) : Except ovm_stop ovm_thread :=
  match frame_push th (.ns SIZEOF_FRAME_NS th.nsfp ns) with
  | .error e => .error e
  | .ok th1 => .ok { th1 with nsfp := th1.fp }

/-- `frame_mc_push`. -/
def frame_mc_push (th : ovm_thread) (dst cl method argc argv : Nat) :
    Except ovm_stop ovm_thread :=
  match frame_push th (.mc SIZEOF_FRAME_MC th.mcfp cl method dst th.sp argc argv) with
  | .error e => .error e
  | .ok th1 => .ok { th1 with mcfp := th1.fp }

/-- `ovm_frame_except_push`: the catch frame records the destination cell
`arg`, the stack pointer and the byte-code pointer. -/
def ovm_frame_except_push (th : ovm_thread) (arg : Nat) : Except ovm_stop ovm_thread :=
  match frame_push th (.xc SIZEOF_FRAME_EXCEPT th.xfp arg false th.sp th.pc) with
  | .error e => .error e
  | .ok th1 => .ok { th1 with xfp := th1.fp }

/-- `frame_pop1`. -/
def frame_pop1 (th : ovm_thread) : Except ovm_stop ovm_thread :=
  match th.frames th.fp with
  | none => .error .undefined
  | some fr =>
    if th.fp + fr.size > th.frame_stack_top then
      .error (.fatal OVM_THREAD_FATAL_FRAME_STACK_UNDERFLOW)
    else
      match fr with
      | .ns _ prev _ => .ok { th with nsfp := prev, fp := th.fp + fr.size }
      | .mc _ prev _ _ _ bp _ _ =>
        match ovm_stack_unwind th bp with
        | .error e => .error e
        | .ok th1 => .ok { th1 with mcfp := prev, fp := th.fp + fr.size }
      | .xc _ prev _ _ sp _ =>
        match ovm_stack_unwind th sp with
        | .error e => .error e
        | .ok th1 => .ok { th1 with xfp := prev, fp := th.fp + fr.size }

/-- The loop `while (th->fp < fp) frame_pop1(th)`. -/
def frame_unwind_loop : Nat → ovm_thread → Nat → Except ovm_stop ovm_thread
  | 0, _, _ => .error .undefined
  | fuel + 1, th, fp =>
    if th.fp < fp then
      match frame_pop1 th with
      | .error e => .error e
      | .ok th1 => frame_unwind_loop fuel th1 fp
    else .ok th

/-- `frame_unwind`. -/
def frame_unwind (fuel : Nat) (th : ovm_thread) (fp : Nat) : Except ovm_stop ovm_thread :=
  if th.fp ≥ th.frame_stack_top then .error (.fatal OVM_THREAD_FATAL_FRAME_STACK_UNDERFLOW)
  else frame_unwind_loop fuel th fp

/-! ### Fatal errors -/

/-- `backtrace`: a work cell is allocated, the method-call frames are printed
from `th->mcfp` on, and the work cell is popped.  The loop over the frames,
which calls `method_write` for the method of a frame and the method `write`
of each of its arguments, is `bt`. -/
def backtrace (bt : ovm_thread → Except ovm_stop ovm_thread) (th : ovm_thread) :
    Except ovm_stop ovm_thread :=
  match ovm_stack_alloc th 1 with
  | .error e => .error e
  | .ok (th1, work) =>
    match bt th1 with
    | .error e => .error e
    | .ok th2 => ovm_stack_unwind th2 work

/-- `ovm_thread_fatal(th, exit_code)`, which does not return: the message is
printed, `fatal_lvl` goes up, the backtrace is printed when `fatal_lvl` is 1,
and the thread ends with `exit_code`.  When the backtrace does not return,
the thread is left the way the backtrace is: a fatal error in it, `fatal_lvl`
being 2 by then, ends the thread with its own exit code.  The functions of
the value stack and of the frame stack, which call `ovm_thread_fatal` as
well, are given with the exit code they pass to it. -/
def ovm_thread_fatal (bt : ovm_thread → Except ovm_stop ovm_thread) (th : ovm_thread)
    (exit_code : Nat) : ovm_stop :=
  let th1 := { th with fatal_lvl := (th.fatal_lvl + 1) % 4294967296 }
  if th1.fatal_lvl = 1 then
    match backtrace bt th1 with
    | .error e => e
    | .ok _ => .fatal exit_code
  else .fatal exit_code

/-! ### Raising -/

/-- `except_raise1`: the nesting counter goes up, and a second raise is
fatal. -/
def except_raise1 (bt : ovm_thread → Except ovm_stop ovm_thread) (th : ovm_thread) :
    Except ovm_stop ovm_thread :=
  let lvl := (th.except_lvl + 1) % 4294967296
  if lvl > 1 then
    .error (ovm_thread_fatal bt { th with except_lvl := lvl } OVM_THREAD_FATAL_DOUBLE_EXCEPT)
  else .ok { th with except_lvl := lvl }

/-- `ovm_stack_push(th, inst)`: the cell `inst` is copied to a new cell. -/
def ovm_stack_push (th : ovm_thread) (inst : Nat) : Except ovm_stop ovm_thread :=
  match _ovm_stack_alloc th 1 with
  | .error e => .error e
  | .ok p =>
    .ok { th with sp := p, cells := fun a => if a = p then th.cells inst else th.cells a }

/-- `except_uncaught`, which does not return: the exception is pushed, the call
of its method `write` and the print of the String it leaves are `pr`, the cell
is popped and `ovm_thread_fatal` is called with
`OVM_THREAD_FATAL_UNCAUGHT_EXCEPT`. -/
def except_uncaught (bt pr : ovm_thread → Except ovm_stop ovm_thread) (th : ovm_thread)
    (x : Nat) : ovm_stop :=
  match ovm_stack_push th x with
  | .error e => e
  | .ok th1 =>
    match pr th1 with
    | .error e => e
    | .ok th2 =>
      match ovm_stack_free th2 1 with
      | .error e => e
      | .ok th3 => ovm_thread_fatal bt th3 OVM_THREAD_FATAL_UNCAUGHT_EXCEPT

/-- What `dict_ats_put` does to the thread: a work cell is allocated, left
holding the new bucket cell `w`, and popped. -/
def dict_ats_put_work (th : ovm_thread) (w : Nat) : Except ovm_stop ovm_thread :=
  match ovm_stack_alloc th 1 with
  | .error e => .error e
  | .ok (th1, work) =>
    ovm_stack_unwind
      { th1 with cells := fun a => if a = work - 1 then inst_obj w else th1.cells a } work

/-- The first two statements of `except_longjmp`, for the catch frame at
`xfr` with the fields given: `ovm_inst_assign(xfr->arg, arg)` and
`xfr->arg_valid = true`. -/
def catch_store (th : ovm_thread) (xfr size prev xarg xsp xpc arg : Nat) : ovm_thread :=
  { cell_assign th xarg arg with
    frames := fun a =>
      if a = xfr then some (ovm_frame.xc size prev xarg true xsp xpc) else th.frames a }

/-- `except_longjmp`: the thread as `longjmp` finds it. -/
def except_longjmp (fuel : Nat) (th : ovm_thread) (xfr : Nat) (arg : Nat) :
    Except ovm_stop ovm_thread :=
  match th.frames xfr with
  | some (.xc size prev xarg _ xsp xpc) =>
    match frame_unwind fuel (catch_store th xfr size prev xarg xsp xpc arg) xfr with
    | .error e => .error e
    | .ok th3 =>
      match ovm_stack_unwind th3 xsp with
      | .error e => .error e
      | .ok th4 => .ok { th4 with pc := xpc, exceptf := true }
  | _ => .error .undefined

/-- `except_raise2`: the method `m` is stored in the exception (`w` is the
bucket cell that makes), then the jump to the innermost catch frame; without
one, `except_uncaught`. -/
def except_raise2 (bt pr : ovm_thread → Except ovm_stop ovm_thread) (fuel : Nat)
    (th : ovm_thread) (x w : Nat) : Except ovm_stop ovm_thread :=
  match dict_ats_put_work th w with
  | .error e => .error e
  | .ok th1 =>
    if th1.xfp = 0 then .error (except_uncaught bt pr th1 x)
    else except_longjmp fuel th1 th1.xfp x

/-- `ovm_except_raise(th, x)`, `x` the cell that holds the exception. -/
def ovm_except_raise (bt pr : ovm_thread → Except ovm_stop ovm_thread) (fuel : Nat)
    (th : ovm_thread) (x w : Nat) : Except ovm_stop ovm_thread :=
  match except_raise1 bt th with
  | .error e => .error e
  | .ok th1 =>
    if th1.mcfp = 0 then .error .undefined
    else
      match th1.frames th1.mcfp with
      | some (.mc _ _ _ _ _ _ _ _) => except_raise2 bt pr fuel th1 x w
      | _ => .error .undefined

/-- The frames from `fp` up to the catch frame `X` are namespace and
method-call frames as pushes made after `X` leave them: each is the current
frame of its kind, its `prev` is the one current before it, back to `ns0` and
`mc0`, the ones current when `X` was pushed; and the stack pointer is no
higher than the base of the innermost method call, the bases no higher than
the stack pointer `sp0` saved in `X`. -/
inductive frames_above (th : ovm_thread) (X ns0 mc0 sp0 : Nat) : Nat → Nat → Nat → Nat → Prop where
  | base (sp : Nat) : sp ≤ sp0 → frames_above th X ns0 mc0 sp0 X ns0 mc0 sp
  | ns (fp size prev ns mcfp sp : Nat) :
      th.frames fp = some (.ns size prev ns) → 0 < size →
      frames_above th X ns0 mc0 sp0 (fp + size) prev mcfp sp →
      frames_above th X ns0 mc0 sp0 fp fp mcfp sp
  | mc (fp size prev cl method dst bp argc ap nsfp sp : Nat) :
      th.frames fp = some (.mc size prev cl method dst bp argc ap) → 0 < size →
      sp ≤ bp → bp ≤ th.stack_top →
      frames_above th X ns0 mc0 sp0 (fp + size) nsfp prev bp →
      frames_above th X ns0 mc0 sp0 fp nsfp fp sp


/-! ### Sample thread inside a `try` block -/

/-- The pushes that lead to the sample: from a thread in a method of class 40,
with an object in cell 61 and byte-code pointer 7, a catch frame with
destination cell 62 is pushed, then a namespace frame, two cells, and the frame
of a method call. -/
def sample_catch_run : Except ovm_stop ovm_thread := do
  let t0 : ovm_thread :=
    { sample_thread 40 with
      pc := 7
      cells := fun a => if a = 61 then inst_obj 300 else inst_obj 0 }
  let t1 ← ovm_frame_except_push t0 62
  let t2 ← frame_ns_push t1 11
  let (t3, _) ← ovm_stack_alloc t2 2
  frame_mc_push t3 59 40 58 1 58

/-- The thread these pushes produce. -/
def sample_catch_thread : ovm_thread :=
  match sample_catch_run with
  | .ok t => t
  | .error _ => sample_thread 40


/-! ### The object graph (`struct ovm_obj` and the structures behind it) -/

/-- The functions that occur as `cl->mark`. -/
inductive mark_fn where
  | class_mark | pair_mark | list_mark | array_mark | slice_mark | set_mark | file_mark
  | ns_mark | module_mark | process_mark
  deriving DecidableEq, Repr

/-- The functions that occur as `cl->free`. -/
inductive free_fn where
  | class_free | pair_free | list_free | array_free | slice_free | set_free | file_free
  | ns_free | module_free | process_free
  | regexp_cleanup | socket_cleanup | thread_cleanup | mutex_cleanup
  deriving DecidableEq, Repr

/-- The functions that occur as `cl->cleanup`. -/
inductive cleanup_fn where
  | file_cleanup | module_cleanup | process_cleanup
  | regexp_cleanup | socket_cleanup | thread_cleanup | mutex_cleanup
  deriving DecidableEq, Repr

/-- What follows the header `struct ovm_obj` in an object, as far as it holds
cells and object pointers: `struct ovm_obj_pair`, `ovm_obj_list`,
`ovm_obj_array`, `ovm_obj_slice`, `ovm_obj_set`, `ovm_obj_file`, `ovm_obj_ns`,
`ovm_obj_module`, `ovm_obj_class`, `ovm_obj_proc`; `raw` is an object that
holds neither (a String, a Bytearray, a Regexp).  A Set or Dictionary is
given with its fields `size` and `cnt` and the heads of its buckets. -/
inductive ovm_body where
  | raw
  | pair (first second : ovm_inst)
  | list (item : ovm_inst) (next : Nat)
  | array (data : List ovm_inst)
  | slice (underlying : Nat)
  | set (size cnt : Nat) (data : List Nat)
  | file (filename mode : Nat)
  | ns (name parent dict : Nat)
  | module (name parent dict filename sha1 : Nat)
  | cls (name parent ns cl_vars cl_methods inst_methods : Nat)
      (mark : Option mark_fn) (free : Option free_fn) (cleanup : Option cleanup_fn)
  | proc (argv stdin stdout stderr : Nat)
  deriving DecidableEq, Repr

/-- What the collector and the finalizer do that is seen from outside. -/
inductive gc_event where
  | cleanup (f : cleanup_fn) (obj : Nat)
  | destroy (obj : Nat)
  deriving DecidableEq, Repr

/-- The heap: for each address the body of the object there (`none` where no
object is), the header fields `inst_of` and `ref_cnt`, the two object lists
in list order, the two flags of the collector, and the events so far. -/
structure ovm_heap where
  body : Nat → Option ovm_body
  inst_of : Nat → Nat
  ref_cnt : Nat → Nat
  white : List Nat
  grey : List Nat
  collectingf : Bool
  collect_againf : Bool
  trace : List gc_event

/-- The object `ovm_inst_mark`, `ovm_inst_retain` and `ovm_inst_release` pass
on to `ovm_obj_mark`, `ovm_obj_retain` and `ovm_obj_release`: the `objval` of
a cell of type OBJ.  For another cell they do nothing, as the callee does for
the null pointer. -/
def inst_target (i : ovm_inst) : Nat := if i.type = .OBJ then i.objval else 0

/-- The object pointers a body holds, in the order of the fields. -/
def body_refs : ovm_body → List Nat
  | .raw => []
  | .pair first second => [inst_target first, inst_target second]
  | .list item next => [inst_target item, next]
  | .array data => data.map inst_target
  | .slice underlying => [underlying]
  | .set _ _ data => data
  | .file filename mode => [filename, mode]
  | .ns name parent dict => [name, parent, dict]
  | .module name parent dict filename sha1 => [name, parent, dict, filename, sha1]
  | .cls name parent ns cl_vars cl_methods inst_methods _ _ _ =>
    [name, parent, ns, cl_vars, cl_methods, inst_methods]
  | .proc argv stdin stdout stderr => [argv, stdin, stdout, stderr]

/-- The `*_walk` functions (`pair_walk`, `array_walk`, `set_walk`,
`file_walk`, `ns_walk`, `module_walk`, `class_walk`, `process_walk`) and the
bodies of `slice_mark` and `list_mark`: the pointers the mark function `f`
visits in an object with body `b`, in order.  `none`: `f` is applied to an
object of another layout. -/
def mark_walk : mark_fn → ovm_body → Option (List Nat)
  | .class_mark, .cls name parent ns cl_vars cl_methods inst_methods _ _ _ =>
    some [name, parent, ns, cl_vars, cl_methods, inst_methods]
  | .pair_mark, .pair first second => some [inst_target first, inst_target second]
  | .list_mark, .list item next => some [inst_target item, next]
  | .array_mark, .array data => some (data.map inst_target)
  | .slice_mark, .slice underlying => some [underlying]
  | .set_mark, .set _ _ data => some data
  | .file_mark, .file filename mode => some [filename, mode]
  | .ns_mark, .ns name parent dict => some [name, parent, dict]
  | .ns_mark, .module name parent dict _ _ => some [name, parent, dict]
  | .module_mark, .module name parent dict filename sha1 =>
    some [name, parent, dict, filename, sha1]
  | .process_mark, .proc argv stdin stdout stderr => some [argv, stdin, stdout, stderr]
  | _, _ => none

/-- The function `(cl == 0) ? class_mark : cl->mark` of `ovm_obj_mark`;
`none` when `cl` does not point to a class. -/
def class_mark_of (h : ovm_heap) (cl : Nat) : Option (Option mark_fn) :=
  if cl = 0 then some (some .class_mark)
  else
    match h.body cl with
    | some (.cls _ _ _ _ _ _ mark _ _) => some mark
    | _ => none

/-- `++obj->ref_cnt`. -/
def ref_cnt_incr (h : ovm_heap) (obj : Nat) : ovm_heap :=
  { h with ref_cnt := fun a => if a = obj then (h.ref_cnt obj + 1) % 4294967296 else h.ref_cnt a }

/-- `ovm_dllist_erase(obj->list_node)` and
`ovm_dllist_insert(obj->list_node, ovm_dllist_end(obj_list_white))`. -/
def to_white (h : ovm_heap) (obj : Nat) : ovm_heap :=
  { h with white := h.white.erase obj ++ [obj], grey := h.grey.erase obj }

/-- A loop that hands the pointers `ps` to `mark`, in order. -/
def mark_each (mark : ovm_heap → Nat → Except ovm_stop ovm_heap) :
    List Nat → ovm_heap → Except ovm_stop ovm_heap
  | [], h => .ok h
  | p :: ps, h =>
    match mark h p with
    | .error e => .error e
    | .ok h1 => mark_each mark ps h1

/-- The loop of `list_mark` from `obj = li->next` on, `mark` being
`ovm_obj_mark`: the cells of a list are marked without recursion. -/
def list_mark_loop (mark : ovm_heap → Nat → Except ovm_stop ovm_heap) :
    Nat → ovm_heap → Nat → Except ovm_stop ovm_heap
  | 0, _, _ => .error .undefined
  | n + 1, h, obj =>
    if obj = 0 then .ok h
    else
      match h.body obj with
      | some (.list item next) =>
        let h1 := ref_cnt_incr h obj
        if h1.ref_cnt obj > 1 then .ok h1
        else
          let h2 := to_white h1 obj
          match mark h2 (h2.inst_of obj) with
          | .error e => .error e
          | .ok h3 =>
            match mark h3 (inst_target item) with
            | .error e => .error e
            | .ok h4 => list_mark_loop mark n h4 next
      | _ => .error .undefined

/-- `ovm_obj_mark`.  The recursion of the C function is bounded by `fuel`. -/
def ovm_obj_mark : Nat → ovm_heap → Nat → Except ovm_stop ovm_heap
  | fuel, h, obj =>
    if obj = 0 then .ok h
    else
      match fuel with
      | 0 => .error .undefined
      | fuel + 1 =>
        match h.body obj with
        | none => .error .undefined
        | some b =>
          let h1 := ref_cnt_incr h obj
          if h1.ref_cnt obj > 1 then .ok h1
          else
            let h2 := to_white h1 obj
            let cl := h2.inst_of obj
            match ovm_obj_mark fuel h2 cl with
            | .error e => .error e
            | .ok h3 =>
              match class_mark_of h3 cl with
              | none => .error .undefined
              | some none => .ok h3
              | some (some f) =>
                if f = .list_mark then
                  match b with
                  | .list item next =>
                    match ovm_obj_mark fuel h3 (inst_target item) with
                    | .error e => .error e
                    | .ok h4 => list_mark_loop (ovm_obj_mark fuel) fuel h4 next
                  | _ => .error .undefined
                else
                  match mark_walk f b with
                  | none => .error .undefined
                  | some ps => mark_each (ovm_obj_mark fuel) ps h3

/-- `obj_destroy`: the buffer of the object goes back to the allocator. -/
def obj_destroy (h : ovm_heap) (obj : Nat) : ovm_heap :=
  { h with body := fun a => if a = obj then none else h.body a
           trace := h.trace ++ [.destroy obj] }

/-- The function `cl->cleanup` the sweep of `collect` reads for an object of
class `cl`; `none` when `cl` does not point to a class, as after the class was
destroyed. -/
def class_cleanup_of (h : ovm_heap) (cl : Nat) : Option (Option cleanup_fn) :=
  if cl = 0 then some none
  else
    match h.body cl with
    | some (.cls _ _ _ _ _ _ _ _ cleanup) => some cleanup
    | _ => none

/-- A call of the cleanup function `f`, if there is one, on `obj`.  What the
function does (closing a file, a socket or a library, waiting for a process)
is outside the heap. -/
def run_cleanup (h : ovm_heap) (f : Option cleanup_fn) (obj : Nat) : ovm_heap :=
  match f with
  | none => h
  | some f => { h with trace := h.trace ++ [.cleanup f obj] }

/-- The sweep of `collect`: while the grey list is not empty, its first
object is cleaned up, unlinked and destroyed. -/
def collect_sweep : Nat → ovm_heap → Except ovm_stop ovm_heap
  | n, h =>
    match h.grey with
    | [] => .ok h
    | obj :: _ =>
      match n with
      | 0 => .error .undefined
      | n + 1 =>
        match class_cleanup_of h (h.inst_of obj) with
        | none => .error .undefined
        | some f =>
          let h1 := run_cleanup h f obj
          collect_sweep n (obj_destroy { h1 with grey := h1.grey.erase obj } obj)

/-- The globals `collect` starts from: `ovm_consts`, `ns_main` and
`thread_list`. -/
structure ovm_roots where
  consts : ovm_consts
  ns_main : Nat
  thread_list : List ovm_thread

/-- The objects in the cells from `th->sp` up to `th->stack_top`. -/
def stack_targets (th : ovm_thread) : List Nat :=
  (List.range' th.sp (th.stack_top - th.sp)).map (fun q => inst_target (th.cells q))

/-- The loop of `collect` over the threads and their stacks. -/
def mark_threads (mark : ovm_heap → Nat → Except ovm_stop ovm_heap) :
    List ovm_thread → ovm_heap → Except ovm_stop ovm_heap
  | [], h => .ok h
  | th :: ths, h =>
    match mark_each mark (stack_targets th) h with
    | .error e => .error e
    | .ok h1 => mark_threads mark ths h1

/-- The lists are swapped and the counts of the objects, now all grey, are
set to 0. -/
def collect_swap (h : ovm_heap) : ovm_heap :=
  { h with collect_againf := false
           white := h.grey
           grey := h.white
           ref_cnt := fun a => if a ∈ h.white then 0 else h.ref_cnt a }

/-- One turn of the loop of `collect`. -/
def collect_pass (fuel : Nat) (r : ovm_roots) (h : ovm_heap) : Except ovm_stop ovm_heap :=
  match mark_each (ovm_obj_mark fuel) (ovm_consts_list r.consts) (collect_swap h) with
  | .error e => .error e
  | .ok h1 =>
    match ovm_obj_mark fuel h1 r.ns_main with
    | .error e => .error e
    | .ok h2 =>
      match mark_threads (ovm_obj_mark fuel) r.thread_list h2 with
      | .error e => .error e
      | .ok h3 => collect_sweep fuel h3

/-- The loop `do ... while (collect_againf)`. -/
def collect_loop : Nat → Nat → ovm_roots → ovm_heap → Except ovm_stop ovm_heap
  | 0, _, _, _ => .error .undefined
  | n + 1, fuel, r, h =>
    match collect_pass fuel r h with
    | .error e => .error e
    | .ok h1 => if h1.collect_againf then collect_loop n fuel r h1 else .ok h1

/-- `collect`. -/
def collect (fuel : Nat) (r : ovm_roots) (h : ovm_heap) : Except ovm_stop ovm_heap :=
  match collect_loop fuel fuel r { h with collectingf := true } with
  | .error e => .error e
  | .ok h1 => .ok { h1 with collectingf := false }

/-! ### What the collector is to achieve -/

/-- The pointers an object holds: its class and those of its body. -/
def obj_refs (h : ovm_heap) (p : Nat) : List Nat :=
  match h.body p with
  | none => []
  | some b => h.inst_of p :: body_refs b

/-- The root pointers, one for each root cell: the constants table, the main
namespace and the cells in use of the stacks of the threads. -/
def collect_roots (r : ovm_roots) : List Nat :=
  ovm_consts_list r.consts ++ r.ns_main :: (r.thread_list.map stack_targets).flatten

/-- An object is reachable: a root cell points to it, or a reachable object
does, through a cell or field of its body or as its class. -/
inductive reachable (h : ovm_heap) (roots : List Nat) : Nat → Prop where
  | root (q : Nat) : q ∈ roots → q ≠ 0 → reachable h roots q
  | step (p q : Nat) : reachable h roots p → q ∈ obj_refs h p → q ≠ 0 → reachable h roots q

/-- The number of references to `q` held by the objects `ps`. -/
def refs_from (h : ovm_heap) (ps : List Nat) (q : Nat) : Nat :=
  (ps.map (fun p => (obj_refs h p).count q)).sum

/-- The mark function of the class of `p` visits the pointers of its body. -/
def mark_matches (h : ovm_heap) (p : Nat) : Bool :=
  match h.body p, class_mark_of h (h.inst_of p) with
  | some b, some none => decide (body_refs b = [])
  | some b, some (some f) => decide (mark_walk f b = some (body_refs b))
  | _, _ => false

/-- The cell after a list cell is a list cell. -/
def list_next_ok (h : ovm_heap) (p : Nat) : Bool :=
  match h.body p with
  | some (.list _ next) =>
    next == 0 || (match h.body next with
                  | some (.list _ _) => true
                  | _ => false)
  | _ => true

/-- The graph of the objects `L` of a heap, with the root pointers `roots`, is
well-formed: `L` holds each object once; every pointer of a root or an object
is null or points to an object; the layout of every object is the one its class
walks; and the references to an object are fewer than `2^32`. -/
def graph_wf (h : ovm_heap) (roots : List Nat) (L : List Nat) : Prop :=
  L.Nodup ∧ 0 ∉ L
  ∧ (∀ q ∈ roots, q = 0 ∨ q ∈ L)
  ∧ (∀ p ∈ L, ∀ q ∈ obj_refs h p, q = 0 ∨ q ∈ L)
  ∧ (∀ p ∈ L, mark_matches h p = true)
  ∧ (∀ p ∈ L, list_next_ok h p = true)
  ∧ (∀ q ∈ L, roots.count q + refs_from h L q < 4294967296)

/-- A heap between two collections: the grey list is empty and the white
list holds the objects, of a well-formed graph. -/
def heap_wf (h : ovm_heap) (roots : List Nat) : Prop :=
  h.grey = [] ∧ graph_wf h roots h.white

/-- The invariant of the marking, with the pointers `work` that the calls in
progress have still to visit: nothing but counts and lists has changed since
the heap `G`; the lists hold the objects `L`, the grey ones in their old order
with count 0, the white ones with a count above 0; the count of an object and
its pending visits make up the references from the roots and from the white
objects; what a root or a white object points to is white or pending; and
white and pending objects are reachable. -/
structure mark_inv (G : ovm_heap) (roots L : List Nat) (h : ovm_heap) (work : List Nat) :
    Prop where
  body_eq : h.body = G.body
  inst_eq : h.inst_of = G.inst_of
  trace_eq : h.trace = G.trace
  flag_eq : h.collectingf = G.collectingf ∧ h.collect_againf = G.collect_againf
  perm : (h.white ++ h.grey).Perm L
  grey_eq : h.grey = L.filter (fun q => decide (q ∉ h.white))
  grey_cnt : ∀ p ∈ h.grey, h.ref_cnt p = 0
  white_cnt : ∀ p ∈ h.white, 1 ≤ h.ref_cnt p
  count : ∀ q ∈ L, h.ref_cnt q + work.count q = roots.count q + refs_from G h.white q
  closed : ∀ p ∈ h.white, ∀ q ∈ obj_refs G p, q = 0 ∨ q ∈ h.white ∨ q ∈ work
  roots_in : ∀ q ∈ roots, q = 0 ∨ q ∈ h.white ∨ q ∈ work
  white_reach : ∀ p ∈ h.white, reachable G roots p
  work_reach : ∀ q ∈ work, q = 0 ∨ reachable G roots q

/-- The events of the sweep of one object. -/
def sweep_events (h : ovm_heap) (obj : Nat) : List gc_event :=
  (match class_cleanup_of h (h.inst_of obj) with
   | some (some f) => [gc_event.cleanup f obj]
   | _ => []) ++ [gc_event.destroy obj]


/-- What the marking lemmas ask of a mark function, for heaps with fewer than
`n` grey objects: a visit of `p` returns, keeps the invariant with `p` no
longer pending, and adds no grey object. -/
def marks_ok (G : ovm_heap) (roots L : List Nat)
    (mark : ovm_heap → Nat → Except ovm_stop ovm_heap) (n : Nat) : Prop :=
  ∀ h p rs, mark_inv G roots L h (p :: rs) → h.grey.length < n →
    ∃ h1, mark h p = .ok h1 ∧ mark_inv G roots L h1 rs ∧ h1.grey.length ≤ h.grey.length


/-! ### A sample heap -/

/-- A constants table for the sample heap: the classes it uses. -/
def sample_gc_consts : ovm_consts :=
  { Metaclass := 1, Object := 2, Boolean := 0, Integer := 0, Float := 0, Method := 0,
    Codemethod := 0, String := 0, Pair := 9, List := 10, Array := 0, Carray := 0,
    Bytearray := 0, Cbytearray := 0, Slice := 0, Cslice := 0, Byteslice := 0,
    Cbyteslice := 0, Set := 0, Cset := 0, Dictionary := 0, Cdictionary := 0,
    Namespace := 23, File := 24, Module := 0, Exception := 0, System := 0, User := 0,
    Environment := 0 }

/-- The objects of the sample heap.  The classes `Metaclass` (1), `Object`
(2), `Pair` (9), `List` (10), `Namespace` (23) and `File` (24); the main
namespace (60); a pair (40) and two list cells (41, 42), the pair and the
first cell pointing to each other; two pairs (50, 51) that point to each other
and that nothing else points to; and a file (52) that only the pair 51 points
to. -/
def sample_heap_body (a : Nat) : Option ovm_body :=
  if a = 1 then some (.cls 0 2 60 0 0 0 (some .class_mark) (some .class_free) none)
  else if a = 2 then some (.cls 0 0 60 0 0 0 none none none)
  else if a = 9 then some (.cls 0 2 60 0 0 0 (some .pair_mark) (some .pair_free) none)
  else if a = 10 then some (.cls 0 2 60 0 0 0 (some .list_mark) (some .list_free) none)
  else if a = 23 then some (.cls 0 2 60 0 0 0 (some .ns_mark) (some .ns_free) none)
  else if a = 24 then
    some (.cls 0 2 60 0 0 0 (some .file_mark) (some .file_free) (some .file_cleanup))
  else if a = 60 then some (.ns 0 0 0)
  else if a = 40 then some (.pair (inst_obj 41) (inst_int 5))
  else if a = 41 then some (.list (inst_obj 40) 42)
  else if a = 42 then some (.list (inst_int 1) 0)
  else if a = 50 then some (.pair (inst_obj 51) (inst_obj 50))
  else if a = 51 then some (.pair (inst_obj 50) (inst_obj 52))
  else if a = 52 then some (.file 0 0)
  else none

/-- The sample heap, between two collections. -/
def sample_heap : ovm_heap :=
  { body := sample_heap_body
    inst_of := fun a =>
      if a = 1 then 0
      else if a = 60 then 23
      else if a = 40 ∨ a = 50 ∨ a = 51 then 9
      else if a = 41 ∨ a = 42 then 10
      else if a = 52 then 24
      else 1
    ref_cnt := fun a =>
      if a = 1 then 6 else if a = 2 then 6 else if a = 9 then 4 else if a = 10 then 3
      else if a = 23 then 2 else if a = 24 then 2 else if a = 60 then 7
      else if a = 40 then 2 else if a = 50 then 2 else 1
    white := [1, 2, 9, 10, 23, 24, 60, 40, 41, 42, 50, 51, 52]
    grey := []
    collectingf := false
    collect_againf := false
    trace := [] }

/-- The roots of the sample: one thread, with the pair 40 and an Integer on
its stack. -/
def sample_gc_roots : ovm_roots :=
  { consts := sample_gc_consts
    ns_main := 60
    thread_list :=
      [{ sample_thread 9 with
         sp := 62
         cells := fun a => if a = 62 then inst_obj 40 else inst_int 3 }] }


/-! ### Reference counts outside a collection -/

/-- The function `(cl == 0) ? class_free : cl->free` of `_ovm_obj_free`;
`none` when `cl` does not point to a class, as after the class was
destroyed. -/
def class_free_of (h : ovm_heap) (cl : Nat) : Option (Option free_fn) :=
  if cl = 0 then some (some .class_free)
  else
    match h.body cl with
    | some (.cls _ _ _ _ _ _ _ free _) => some free
    | _ => none

/-- The pointers the free function `f` releases in an object with body `b`,
in order (the `*_walk` functions again, and the bodies of `slice_free` and
`list_free`); the functions of the Regexp, Socket, Thread and Mutex classes
release none.  `none`: `f` is applied to an object of another layout. -/
def free_walk : free_fn → ovm_body → Option (List Nat)
  | .class_free, .cls name parent ns cl_vars cl_methods inst_methods _ _ _ =>
    some [name, parent, ns, cl_vars, cl_methods, inst_methods]
  | .pair_free, .pair first second => some [inst_target first, inst_target second]
  | .list_free, .list item next => some [inst_target item, next]
  | .array_free, .array data => some (data.map inst_target)
  | .slice_free, .slice underlying => some [underlying]
  | .set_free, .set _ _ data => some data
  | .file_free, .file filename mode => some [filename, mode]
  | .ns_free, .ns name parent dict => some [name, parent, dict]
  | .ns_free, .module name parent dict _ _ => some [name, parent, dict]
  | .module_free, .module name parent dict filename sha1 =>
    some [name, parent, dict, filename, sha1]
  | .process_free, .proc argv stdin stdout stderr => some [argv, stdin, stdout, stderr]
  | .regexp_cleanup, .raw => some []
  | .socket_cleanup, .raw => some []
  | .thread_cleanup, .raw => some []
  | .mutex_cleanup, .raw => some []
  | _, _ => none

/-- The cleanup function a free function ends with (`file_free`,
`module_free`, `process_free`) or is (`regexp_cleanup`, `socket_cleanup`,
`thread_cleanup`, `mutex_cleanup`). -/
def free_cleanup : free_fn → Option cleanup_fn
  | .file_free => some .file_cleanup
  | .module_free => some .module_cleanup
  | .process_free => some .process_cleanup
  | .regexp_cleanup => some .regexp_cleanup
  | .socket_cleanup => some .socket_cleanup
  | .thread_cleanup => some .thread_cleanup
  | .mutex_cleanup => some .mutex_cleanup
  | _ => none

/-- `--obj->ref_cnt`. -/
def ref_cnt_decr (h : ovm_heap) (obj : Nat) : ovm_heap :=
  { h with ref_cnt := fun a =>
             if a = obj then (h.ref_cnt obj + 4294967295) % 4294967296 else h.ref_cnt a }

/-- `ovm_dllist_erase(obj->list_node)`. -/
def obj_unlink (h : ovm_heap) (obj : Nat) : ovm_heap :=
  { h with white := h.white.erase obj, grey := h.grey.erase obj }

/-- `ovm_obj_retain`; `DEBUG_ASSERT(obj->ref_cnt != 0)`. -/
def ovm_obj_retain (h : ovm_heap) (obj : Nat) : Except ovm_stop ovm_heap :=
  if obj = 0 then .ok h
  else
    match h.body obj with
    | none => .error .undefined
    | some _ =>
      let h1 := ref_cnt_incr h obj
      if h1.ref_cnt obj = 0 then .error .undefined else .ok h1

/-- A loop that hands the pointers `ps` to `release`, in order. -/
def release_each (release : ovm_heap → Nat → Except ovm_stop ovm_heap) :
    List Nat → ovm_heap → Except ovm_stop ovm_heap
  | [], h => .ok h
  | p :: ps, h =>
    match release h p with
    | .error e => .error e
    | .ok h1 => release_each release ps h1

/-- The loop of `list_free` from `obj = li->next` on, `release` being
`ovm_obj_release`: the cells of a list are freed without recursion. -/
def list_free_loop (release : ovm_heap → Nat → Except ovm_stop ovm_heap) :
    Nat → ovm_heap → Nat → Except ovm_stop ovm_heap
  | 0, _, _ => .error .undefined
  | n + 1, h, obj =>
    if obj = 0 then .ok h
    else
      match h.body obj with
      | some (.list item next) =>
        let h1 := ref_cnt_decr h obj
        if h1.ref_cnt obj > 0 then .ok h1
        else
          let h2 := obj_unlink h1 obj
          match release h2 (h2.inst_of obj) with
          | .error e => .error e
          | .ok h3 =>
            match release h3 (inst_target item) with
            | .error e => .error e
            | .ok h4 => list_free_loop release n (obj_destroy h4 obj) next
      | _ => .error .undefined

/-- `_ovm_obj_free`, `release` being `ovm_obj_release` and `n` the bound for
the loop of `list_free`. -/
def _ovm_obj_free (release : ovm_heap → Nat → Except ovm_stop ovm_heap) (n : Nat)
    (h : ovm_heap) (obj : Nat) : Except ovm_stop ovm_heap :=
  if h.collectingf then .ok { h with collect_againf := true }
  else
    match h.body obj with
    | none => .error .undefined
    | some b =>
      let h2 := obj_unlink h obj
      let cl := h2.inst_of obj
      match release h2 cl with
      | .error e => .error e
      | .ok h3 =>
        match class_free_of h3 cl with
        | none => .error .undefined
        | some none => .ok (obj_destroy h3 obj)
        | some (some f) =>
          if f = .list_free then
            match b with
            | .list item next =>
              match release h3 (inst_target item) with
              | .error e => .error e
              | .ok h4 =>
                match list_free_loop release n h4 next with
                | .error e => .error e
                | .ok h5 => .ok (obj_destroy h5 obj)
            | _ => .error .undefined
          else
            match free_walk f b with
            | none => .error .undefined
            | some ps =>
              match release_each release ps h3 with
              | .error e => .error e
              | .ok h4 => .ok (obj_destroy (run_cleanup h4 (free_cleanup f) obj) obj)

/-- `ovm_obj_release`; `DEBUG_ASSERT(obj->ref_cnt != 0)`.  The recursion of
the C function is bounded by `fuel`. -/
def ovm_obj_release : Nat → ovm_heap → Nat → Except ovm_stop ovm_heap
  | fuel, h, obj =>
    if obj = 0 then .ok h
    else
      match fuel with
      | 0 => .error .undefined
      | fuel + 1 =>
        match h.body obj with
        | none => .error .undefined
        | some _ =>
          if h.ref_cnt obj = 0 then .error .undefined
          else
            let h1 := ref_cnt_decr h obj
            if h1.ref_cnt obj > 0 then .ok h1
            else _ovm_obj_free (ovm_obj_release fuel) fuel h1 obj

/-- `ovm_inst_assign(dst, src)`, on a heap and a memory of cells: the old
object of `dst` is noted, the cell is copied, the new object retained and the
old one released. -/
def ovm_inst_assign (fuel : Nat) (h : ovm_heap) (cells : Nat → ovm_inst) (dst src : Nat) :
    Except ovm_stop (ovm_heap × (Nat → ovm_inst)) :=
  let old := inst_target (cells dst)
  let cells1 := fun a => if a = dst then cells src else cells a
  match ovm_obj_retain h (inst_target (cells1 dst)) with
  | .error e => .error e
  | .ok h1 =>
    match ovm_obj_release fuel h1 old with
    | .error e => .error e
    | .ok h2 => .ok (h2, cells1)

/-- The free function of the class of `p` releases the pointers of its
body. -/
def free_matches (h : ovm_heap) (p : Nat) : Bool :=
  match h.body p, class_free_of h (h.inst_of p) with
  | some b, some none => decide (body_refs b = [])
  | some b, some (some f) => decide (free_walk f b = some (body_refs b))
  | _, _ => false

/-- A heap outside a collection, for an assignment to a cell that holds `old`
of a cell that holds `new`: the grey list is empty and the white list holds
each object once; `old`, `new` and every pointer of an object are null or
point to an object; the layout of every object is the one its class frees;
the count of an object covers the references to it from the objects and from
the cell assigned to; the class of an object has a reference besides these;
and the counts are below `2^32 - 1`. -/
def assign_wf (h : ovm_heap) (old new : Nat) : Prop :=
  h.collectingf = false ∧ h.grey = [] ∧ h.white.Nodup ∧ 0 ∉ h.white
  ∧ (old = 0 ∨ old ∈ h.white) ∧ (new = 0 ∨ new ∈ h.white)
  ∧ (∀ p ∈ h.white, ∀ q ∈ obj_refs h p, q = 0 ∨ q ∈ h.white)
  ∧ (∀ p ∈ h.white, free_matches h p = true)
  ∧ (∀ p ∈ h.white, list_next_ok h p = true)
  ∧ (∀ q ∈ h.white, refs_from h h.white q + [old].count q ≤ h.ref_cnt q)
  ∧ (∀ p ∈ h.white, h.inst_of p = 0
      ∨ refs_from h h.white (h.inst_of p) + [old].count (h.inst_of p)
          < h.ref_cnt (h.inst_of p))
  ∧ (∀ q ∈ h.white, h.ref_cnt q < 4294967295)

/-- The part of `assign_wf` that the releases do not change, for a heap `G`
with objects `G.white`. -/
def release_wf (G : ovm_heap) : Prop :=
  G.white.Nodup ∧ 0 ∉ G.white
  ∧ (∀ p ∈ G.white, ∀ q ∈ obj_refs G p, q = 0 ∨ q ∈ G.white)
  ∧ (∀ p ∈ G.white, free_matches G p = true)
  ∧ (∀ p ∈ G.white, list_next_ok G p = true)
  ∧ (∀ q ∈ G.white, G.ref_cnt q < 4294967296)

/-- The invariant of a release, with the pointers `work` that the calls in
progress have still to release and the objects `F` unlinked so far, since the
heap `G` with the pointers `iw` to release: the white list holds the other
objects, unchanged; the count of an object covers the references to it from
the white objects and the pending releases, with one to spare for the class of
an object; the counts have gone down by the releases done; and no white object
and no pending release points to an unlinked object. -/
structure release_inv (G : ovm_heap) (iw : List Nat) (h : ovm_heap) (work F : List Nat) :
    Prop where
  inst_eq : h.inst_of = G.inst_of
  body_eq : ∀ a ∈ h.white, h.body a = G.body a
  grey_eq : h.grey = []
  flag_eq : h.collectingf = false
  white_eq : h.white = G.white.filter (fun q => decide (q ∉ F))
  cnt_eq : ∀ q ∈ h.white, h.ref_cnt q + refs_from G F q + iw.count q = G.ref_cnt q + work.count q
  le_start : ∀ q ∈ h.white, h.ref_cnt q ≤ G.ref_cnt q
  cover : ∀ q ∈ h.white, refs_from G h.white q + work.count q ≤ h.ref_cnt q
  pinned : ∀ p ∈ G.white, G.inst_of p = 0
    ∨ (G.inst_of p ∈ h.white
        ∧ refs_from G h.white (G.inst_of p) + work.count (G.inst_of p)
            < h.ref_cnt (G.inst_of p))
  work_alive : ∀ q ∈ work, q = 0 ∨ q ∈ h.white
  dead : ∀ q ∈ F, q ∈ G.white ∧ refs_from G h.white q = 0

/-- What the release lemmas ask of a release function, for heaps with fewer
than `n` objects: a release of `p` returns, keeps the invariant with `p` no
longer pending, unlinks `p` exactly when its count was 1, and leaves the
objects it unlinked destroyed and the bodies of the others as they were. -/
def releases_ok (G : ovm_heap) (iw : List Nat)
    (release : ovm_heap → Nat → Except ovm_stop ovm_heap) (n : Nat) : Prop :=
  ∀ h p rs F, release_inv G iw h (p :: rs) F → h.white.length < n →
    ∃ h1 F1, release h p = .ok h1 ∧ release_inv G iw h1 rs F1
      ∧ h1.white.length ≤ h.white.length
      ∧ (∀ q ∈ F, q ∈ F1)
      ∧ ((p ≠ 0 ∧ h.ref_cnt p = 1) → p ∈ F1)
      ∧ (¬ (p ≠ 0 ∧ h.ref_cnt p = 1) → F1 = F)
      ∧ (∀ a, h1.body a = if a ∈ F1 ∧ a ∉ F then none else h.body a)


/-- The sample heap with three more objects: a pair (70) that only a cell of
the stack points to, and two list cells (71, 72) behind it. -/
def sample_assign_heap : ovm_heap :=
  { sample_heap with
    body := fun a =>
      if a = 70 then some (.pair (inst_obj 71) (inst_int 0))
      else if a = 71 then some (.list (inst_int 1) 72)
      else if a = 72 then some (.list (inst_obj 40) 0)
      else sample_heap_body a
    inst_of := fun a =>
      if a = 70 then 9 else if a = 71 ∨ a = 72 then 10 else sample_heap.inst_of a
    ref_cnt := fun a =>
      if a = 9 then 5 else if a = 10 then 5 else if a = 40 then 3
      else if a = 70 ∨ a = 71 ∨ a = 72 then 1 else sample_heap.ref_cnt a
    white := [1, 2, 9, 10, 23, 24, 60, 40, 41, 42, 50, 51, 52, 70, 71, 72] }

/-- Cells of a stack over the sample heap: cell 61 holds the pair 70, cell 62
the pair 40, the others the Integer 3. -/
def sample_cells : Nat → ovm_inst :=
  fun a => if a = 61 then inst_obj 70 else if a = 62 then inst_obj 40 else inst_int 3


/-! ### Utility functions: table sizes and slices -/

/-- The loop of `round_up_to_power_of_2` on the variables `val` and `result`,
in `unsigned` arithmetic; `DEBUG_ASSERT(result != 0)` is the assertion after
the shift. -/
def round_up_loop : Nat → Nat → Nat → Except ovm_stop Nat
  | 0, _, _ => .error .undefined
  | fuel + 1, val, result =>
    let k := Nat.land val ((val + 4294967295) % 4294967296)
    if k = 0 then .ok result
    else
      let result1 := (k * 2) % 4294967296
      if result1 = 0 then .error .undefined
      else round_up_loop fuel k result1

/-- `round_up_to_power_of_2`. -/
def round_up_to_power_of_2 (fuel : Nat) (val : Nat) : Except ovm_stop Nat :=
  round_up_loop fuel val val

/-- `sizeof(struct ovm_obj_set)` on a 64-bit target: the object header of 80
bytes (list node, `size`, `inst_of`, `ref_cnt`, mutex) and the fields `size`
and `cnt`; the buckets follow it, 8 bytes each. -/
def SIZEOF_OBJ_SET : Nat := 88

/-- The memory that `set_newc` asks for holds the table: `ovm_obj_alloc`
takes the number of bytes `sizeof(struct ovm_obj_set) + size * 8` in a
parameter of type `unsigned`, and `set_obj_init` clears `size * 8` bytes
behind the header. -/
def set_alloc_fits (size : Nat) : Bool :=
  SIZEOF_OBJ_SET + size * 8 ≤ (SIZEOF_OBJ_SET + size * 8) % 4294967296

/-- `set_newc`: the Set or Dictionary that `set_obj_init` leaves in the
cleared memory of the new object; when the number of bytes does not fit the
`unsigned` parameter of `ovm_obj_alloc`, `set_obj_init` writes past the
memory of the object. -/
def set_newc {α : Type} (fuel : Nat) (size : Nat) : Except ovm_stop (ovm_obj_set α) :=
  match round_up_to_power_of_2 fuel size with
  | .error e => .error e
  | .ok size1 =>
    if set_alloc_fits size1 then .ok { size := size1, cnt := 0, data := List.replicate size1 [] }
    else .error .undefined

/-- `ovm_except_inv_value`. -/
def ovm_except_inv_value (inst : ovm_inst) : ovm_exception :=
  { type := "system.invalid-value", fields := [("value", .inst inst)] }

/-- Methods `Set.new` and `Dictionary.new` called with an Integer argument
`i`: the `ovm_intval_t` is converted to the `unsigned` parameter of
`set_newc`. -/
def Set_new {α : Type} (fuel : Nat) (i : Int) : Except ovm_stop (ovm_obj_set α) :=
  if i < 1 then .error (.raised (ovm_except_inv_value (inst_int i)))
  else set_newc fuel (i.toNat % 4294967296)

/-- Method `Dictionary.new` with an Integer argument. -/
def Dictionary_new (fuel : Nat) (i : Int) : Except ovm_stop ovm_dict :=
  if i < 1 then .error (.raised (ovm_except_inv_value (inst_int i)))
  else set_newc fuel (i.toNat % 4294967296)

/-- A value of type `ovm_intval_t` (`long long`): the representative of `x`
modulo 2^64 in the range of a signed 64-bit integer. -/
def wrap64 (x : Int) : Int :=
  (x + 9223372036854775808) % 18446744073709551616 - 9223372036854775808

/-- The values of type `ovm_intval_t`. -/
def in64 (x : Int) : Prop := -9223372036854775808 ≤ x ∧ x < 9223372036854775808

instance (x : Int) : Decidable (in64 x) := by unfold in64; infer_instance

/-- `slice`, its additions and its negation taken modulo 2^64: `none` for
`false`, else the values stored through `pofs` and `plen`. -/
def slice (ofs len size : Int) : Option (Int × Int) :=
  let ofs1 := if ofs < 0 then wrap64 (ofs + size) else ofs
  let ofs2 := if len < 0 then wrap64 (ofs1 + len) else ofs1
  let len2 := if len < 0 then wrap64 (-len) else len
  if ofs2 < 0 ∨ wrap64 (ofs2 + len2) > size then none else some (ofs2, len2)

/-- `slice1`. -/
def slice1 (ofs size : Int) : Option Int :=
  (slice ofs 1 size).map Prod.fst

/-- `ovm_except_idx_range`. -/
def ovm_except_idx_range (inst idx : ovm_inst) : ovm_exception :=
  { type := "system.index-range", fields := [("instance", .inst inst), ("index", .inst idx)] }

/-- `str_slicec`, that is `str_newc(dst, len + 1, &s->data[ofs])`, in
`unsigned` arithmetic: a new String of the `len` bytes from offset `ofs` on.
The buffer of `s` has `s->size` bytes, the last one the NUL; a read past it
is undefined. -/
def str_slicec (s : ovm_obj_str) (ofs len : Nat) : Except ovm_stop ovm_obj_str :=
  let size := (len + 1) % 4294967296
  if size = 0 then .error .undefined
  else if ofs + (size - 1) ≤ s.size then
    .ok { size := size, data := ((s.data ++ [NUL]).drop ofs).take (size - 1) }
  else .error .undefined

/-- Method `String.slice` on the String `s` with the Integer arguments `ofs`
and `len`; the results of `slice` are converted to the `unsigned` parameters
of `str_slicec`. -/
def String_slice (s : ovm_obj_str) (ofs len : Int) : Except ovm_stop ovm_obj_str :=
  match slice ofs len (((s.size + 4294967295) % 4294967296 : Nat) : Int) with
  | none => .error (.raised (ovm_except_idx_range (inst_int ofs) (inst_int len)))
  | some (ofs1, len1) =>
    str_slicec s (ofs1 % 4294967296).toNat (len1 % 4294967296).toNat

/-- The String "abcdef". -/
def sample_str : ovm_obj_str := { size := 7, data := "abcdef".toList }

/-- The pair `(o2, l2)` that the specification of `slice` names, computed in
the integers: `o1 = ofs + n` if `ofs < 0` else `ofs`, and
`(o2, l2) = (o1 + len, -len)` if `len < 0` else `(o1, len)`. -/
def slice_spec (ofs len n : Int) : Int × Int :=
  let o1 := if ofs < 0 then ofs + n else ofs
  if len < 0 then (o1 + len, -len) else (o1, len)

/-- No sum and no negation of the specification of `slice` leaves the range
of `ovm_intval_t`. -/
def slice_in_range (ofs len n : Int) : Prop :=
  in64 (if ofs < 0 then ofs + n else ofs) ∧ in64 (slice_spec ofs len n).1
    ∧ in64 (slice_spec ofs len n).2
    ∧ in64 ((slice_spec ofs len n).1 + (slice_spec ofs len n).2)

instance (ofs len n : Int) : Decidable (slice_in_range ofs len n) := by
  unfold slice_in_range; infer_instance

/-! ### Hash and equality of Strings -/

/-- One bit of the CRC-32 of zlib (reflected polynomial `0xEDB88320`). -/
def crc32_bit (crc : Nat) : Nat :=
  if crc % 2 = 1 then Nat.xor (crc / 2) 3988292384 else crc / 2

/-- One byte of the CRC-32. -/
def crc32_byte (crc : Nat) (b : Nat) : Nat :=
  crc32_bit (crc32_bit (crc32_bit (crc32_bit (crc32_bit (crc32_bit (crc32_bit (crc32_bit
    (Nat.xor crc (b % 256)))))))))

/-- The function `crc32(crc, buf, len)` of zlib, which `mem_hash` calls: the
running value is complemented on entry and on exit. -/
def crc32 (crc : Nat) (buf : List Char) (len : Nat) : Nat :=
  Nat.xor ((buf.take len).foldl (fun r ch => crc32_byte r ch.toNat)
    (Nat.xor (crc % 4294967296) 4294967295)) 4294967295

/-- `mem_hash` of oovm_hash.h: `crc32(-1, data, size)`. -/
def mem_hash (size : Nat) (data : List Char) : Nat := crc32 4294967295 data size

/-- `str_hash`. -/
def str_hash (mem_hash : Nat → List Char → Nat) (s : ovm_obj_str) : Nat :=
  str_hashc mem_hash s.size s.data

/-- `str_inst_hash` on a String cell: the cell with its cache filled, from
which the function returns the field `hash`. -/
def str_inst_hash (mem_hash : Nat → List Char → Nat) (inst : ovm_inst) :
    Except ovm_stop ovm_inst :=
  match inst.val with
  | .strval _ s =>
    if inst.hash_valid then .ok inst
    else .ok { inst with hash_valid := true, hash := str_hash mem_hash s % 4294967296 }
  | _ => .error .undefined

/-- Method `String.hash`: the Integer returned. -/
def String_hash (mem_hash : Nat → List Char → Nat) (recvr : ovm_inst) : Except ovm_stop Int :=
  match str_inst_hash mem_hash recvr with
  | .error e => .error e
  | .ok recvr1 => .ok (recvr1.hash : Int)

/-- Method `String.equal`: the Boolean returned. -/
def String_equal (c : ovm_consts) (inst_of : Nat → Nat) (recvr arg : ovm_inst) :
    Except ovm_stop Bool :=
  match recvr.val with
  | .strval _ s =>
    if ovm_inst_of_raw c inst_of arg = c.String then
      match arg.val with
      | .strval _ s2 => .ok (str_equal s s2)
      | _ => .error .undefined
    else .ok false
  | _ => .error (.raised (ovm_except_inv_value recvr))

/-! ### Objects by address: allocation and list cells -/

/-- The objects in memory by address, for the functions that build objects:
the header field `inst_of`, the body, whether the object's mutex is held by
the running thread, and `free`, the addresses that `ovm_mem_alloc` returns
to the next requests, in order.  Reference counts are treated in the section
on releases and left out here: every object these functions release stays
referenced from a cell or another object. -/
structure ovm_objs where
  inst_of : Nat → Nat
  body : Nat → Option ovm_body
  locked : Nat → Bool
  free : List Nat

/-- `ovm_obj_alloc`: the new object of class `cl`, as `init` leaves it, is
put at the address that `ovm_mem_alloc` returns; its mutex is initialised.
Without memory the process exits with code 1 (`fatal("Out of memory")`). -/
def ovm_obj_alloc (s : ovm_objs) (cl : Nat) (b : ovm_body) : Except ovm_stop (ovm_objs × Nat) :=
  match s.free with
  | [] => .error (.fatal 1)
  | a :: rest =>
    .ok ({ inst_of := fun p => if p = a then cl else s.inst_of p,
           body := fun p => if p = a then some b else s.body p,
           locked := fun p => if p = a then false else s.locked p,
           free := rest }, a)

/-- `list_new`: a new list cell. -/
def list_new (c : ovm_consts) (s : ovm_objs) (item : ovm_inst) (next : Nat) :
    Except ovm_stop (ovm_objs × Nat) :=
  ovm_obj_alloc s c.List (.list item next)

/-- `pair_new`: a new Pair. -/
def pair_new (c : ovm_consts) (s : ovm_objs) (first second : ovm_inst) :
    Except ovm_stop (ovm_objs × Nat) :=
  ovm_obj_alloc s c.Pair (.pair first second)

/-- `ovm_inst_listval`: the list of a cell that holds nil or a List. -/
def ovm_inst_listval (c : ovm_consts) (s : ovm_objs) (inst : ovm_inst) : Except ovm_stop Nat :=
  match inst.val with
  | .objval obj =>
    if obj = 0 ∨ s.inst_of obj = c.List then .ok obj
    else .error (.raised (ovm_except_inv_value inst))
  | _ => .error (.raised (ovm_except_inv_value inst))

/-- The loop of `list_reverse_unsafe`; `dst` is the `objval` of the
destination cell.  The cell `li` is read before the allocation. -/
def list_reverse_loop (c : ovm_consts) : Nat → ovm_objs → Nat → Nat →
    Except ovm_stop (ovm_objs × Nat)
  | 0, _, _, _ => .error .undefined
  | fuel + 1, s, li, dst =>
    if li = 0 then .ok (s, dst)
    else
      match s.body li with
      | some (.list item next) =>
        match list_new c s item dst with
        | .error e => .error e
        | .ok (s1, r) => list_reverse_loop c fuel s1 next r
      | _ => .error .undefined

/-- `list_reverse_unsafe`: the store and the list left in `dst`. -/
def list_reverse_unsafe (c : ovm_consts) (fuel : Nat) (s : ovm_objs) (li : Nat) :
    Except ovm_stop (ovm_objs × Nat) :=
  list_reverse_loop c fuel s li 0

/-- Method `List.reverse`: the store and the cell assigned to `dst`. -/
def List_reverse (c : ovm_consts) (fuel : Nat) (s : ovm_objs) (recvr : ovm_inst) :
    Except ovm_stop (ovm_objs × ovm_inst) :=
  match ovm_inst_listval c s recvr with
  | .error e => .error e
  | .ok li =>
    match list_reverse_unsafe c fuel s li with
    | .error e => .error e
    | .ok (s1, r) => .ok (s1, inst_obj r)

/-- The assignment `*ctxt->p = li` of `list_newlc_concat`.  The context
`ctxt` is `none` when `ctxt->p` points to the `objval` of the destination
cell (`list_newlc_init`), and `some a` when it points to the field `next` of
the list cell `a`.  The result is the store and the `objval` of the
destination cell. -/
def list_newlc_store (s : ovm_objs) (dst : Nat) (ctxt : Option Nat) (li : Nat) :
    Except ovm_stop (ovm_objs × Nat) :=
  match ctxt with
  | none => .ok (s, li)
  | some a =>
    match s.body a with
    | some (.list item _) =>
      .ok ({ s with body := fun p => if p = a then some (.list item li) else s.body p }, dst)
    | _ => .error .undefined

/-- The loop of `list_newlc_concat` that walks `li` to its last cell. -/
def list_newlc_last : Nat → ovm_objs → Nat → Except ovm_stop Nat
  | 0, _, _ => .error .undefined
  | fuel + 1, s, li =>
    match s.body li with
    | some (.list _ next) => if next = 0 then .ok li else list_newlc_last fuel s next
    | _ => .error .undefined

/-- `list_newlc_concat`: the store, the `objval` of the destination cell and
the new context. -/
def list_newlc_concat (fuel : Nat) (s : ovm_objs) (dst : Nat) (ctxt : Option Nat) (li : Nat) :
    Except ovm_stop (ovm_objs × Nat × Option Nat) :=
  match list_newlc_store s dst ctxt li with
  | .error e => .error e
  | .ok (s1, dst1) =>
    match list_newlc_last fuel s1 li with
    | .error e => .error e
    | .ok last => .ok (s1, dst1, some last)

/-- The loop of `list_concat_unsafe` over the cells of `li1`. -/
def list_concat_loop (c : ovm_consts) : Nat → ovm_objs → Nat → Nat → Option Nat →
    Except ovm_stop (ovm_objs × Nat × Option Nat)
  | 0, _, _, _, _ => .error .undefined
  | fuel + 1, s, li1, dst, ctxt =>
    if li1 = 0 then .ok (s, dst, ctxt)
    else
      match s.body li1 with
      | some (.list item next) =>
        match list_new c s item 0 with
        | .error e => .error e
        | .ok (s1, w) =>
          match list_newlc_concat (fuel + 1) s1 dst ctxt w with
          | .error e => .error e
          | .ok (s2, dst2, ctxt2) => list_concat_loop c fuel s2 next dst2 ctxt2
      | _ => .error .undefined

/-- `list_concat_unsafe`: the store and the list left in `dst`. -/
def list_concat_unsafe (c : ovm_consts) (fuel : Nat) (s : ovm_objs) (li1 li2 : Nat) :
    Except ovm_stop (ovm_objs × Nat) :=
  if li2 = 0 then .ok (s, li1)
  else
    match list_concat_loop c fuel s li1 0 none with
    | .error e => .error e
    | .ok (s1, dst1, ctxt1) =>
      match list_newlc_concat fuel s1 dst1 ctxt1 li2 with
      | .error e => .error e
      | .ok (s2, dst2, _) => .ok (s2, dst2)

/-- Method `List.concat`: the store and the cell assigned to `dst`. -/
def List_concat (c : ovm_consts) (fuel : Nat) (s : ovm_objs) (recvr arg : ovm_inst) :
    Except ovm_stop (ovm_objs × ovm_inst) :=
  match ovm_inst_listval c s recvr with
  | .error e => .error e
  | .ok li1 =>
    match ovm_inst_listval c s arg with
    | .error e => .error e
    | .ok li2 =>
      match list_concat_unsafe c fuel s li1 li2 with
      | .error e => .error e
      | .ok (s1, r) => .ok (s1, inst_obj r)

/-- The chain of list cells from `p` up to the pointer `q`: the cells with
their addresses and items, in order. -/
def list_seg (s : ovm_objs) : Nat → List (Nat × ovm_inst) → Nat → Bool
  | p, [], q => p == q
  | p, (a, x) :: rest, q =>
    p == a && a != 0 &&
      match s.body a with
      | some (.list item next) => item == x && list_seg s next rest q
      | _ => false

/-- The list at `p` consists of the cells `cells`. -/
def list_at (s : ovm_objs) (p : Nat) (cells : List (Nat × ovm_inst)) : Bool :=
  list_seg s p cells 0

/-- The free addresses are distinct, not null, and hold no object. -/
def free_ok (s : ovm_objs) : Prop :=
  s.free.Nodup ∧ 0 ∉ s.free ∧ ∀ a ∈ s.free, s.body a = none

instance (s : ovm_objs) : Decidable (free_ok s) := by unfold free_ok; infer_instance

/-- A store with the list `(1, 2, 3)` in the cells 100, 101, 102, the list
`(4)` in the cell 103, and the free addresses 200 to 209. -/
def sample_objs : ovm_objs :=
  { inst_of := fun p => if 100 ≤ p ∧ p ≤ 103 then 10 else 0,
    body := fun p =>
      if p = 100 then some (.list (inst_int 1) 101)
      else if p = 101 then some (.list (inst_int 2) 102)
      else if p = 102 then some (.list (inst_int 3) 0)
      else if p = 103 then some (.list (inst_int 4) 0)
      else none,
    locked := fun _ => false,
    free := [200, 201, 202, 203, 204, 205, 206, 207, 208, 209] }

/-- The state of a list under construction with a `list_newlc_ctxt`: the
destination holds the list of the cells `built`, which are distinct, and the
context points to the field `next` of the last of them (to the destination
when there is none). -/
def list_newlc_ok (s : ovm_objs) (dst : Nat) (ctxt : Option Nat)
    (built : List (Nat × ovm_inst)) : Prop :=
  list_at s dst built = true ∧ (built.map Prod.fst).Nodup
    ∧ ctxt = built.getLast?.map Prod.fst

/-! ### Dictionaries as objects -/

/-- A pointer to an object pointer (`ovm_obj_t *`) as `dict_find` uses it: a
slot of the bucket array of the Set or Dictionary at `base`, or the field
`next` of a list cell. -/
inductive obj_slot where
  | bucket (base : Nat) (i : Nat)
  | next (cell : Nat)
  deriving DecidableEq, Repr

/-- The read `*p` of a slot. -/
def slot_read (s : ovm_objs) : obj_slot → Except ovm_stop Nat
  | .bucket base i =>
    match s.body base with
    | some (.set _ _ data) =>
      match data.get? i with
      | some head => .ok head
      | none => .error .undefined
    | _ => .error .undefined
  | .next cell =>
    match s.body cell with
    | some (.list _ next) => .ok next
    | _ => .error .undefined

/-- The store `ovm_obj_assign(p, obj)` into a slot. -/
def slot_write (s : ovm_objs) : obj_slot → Nat → Except ovm_stop ovm_objs
  | .bucket base i, obj =>
    match s.body base with
    | some (.set size cnt data) =>
      if i < data.length then
        .ok { s with body := fun p =>
                if p = base then some (.set size cnt (data.set i obj)) else s.body p }
      else .error .undefined
    | _ => .error .undefined
  | .next cell, obj =>
    match s.body cell with
    | some (.list item _) =>
      .ok { s with body := fun p => if p = cell then some (.list item obj) else s.body p }
    | _ => .error .undefined

/-- The probe loop of `dict_find` on the objects: from the slot `p` on, the
slot that points to the first cell on whose key the `equal` method of `key`
answers true. -/
def obj_dict_find_loop (km : key_methods) (key : ovm_inst) :
    Nat → ovm_objs → obj_slot → Except ovm_stop (Option obj_slot)
  | 0, _, _ => .error .undefined
  | fuel + 1, s, p =>
    match slot_read s p with
    | .error e => .error e
    | .ok li =>
      if li = 0 then .ok none
      else
        match s.body li with
        | some (.list item _) =>
          match s.body item.objval with
          | some (.pair first _) =>
            if km.equal key first then .ok (some p)
            else obj_dict_find_loop km key fuel s (.next li)
          | _ => .error .undefined
        | _ => .error .undefined

/-- The first part of `dict_at_put` on the objects, for the Dictionary at
`base` with table size `size` and count `cnt`: a key not found is counted,
the cell of a key found is unlinked, unless the key is the name of a
constant. -/
def obj_dict_at_put_unlink (s : ovm_objs) (base : Nat) (key1 : ovm_inst)
    (p : Option obj_slot) : Except ovm_stop ovm_objs :=
  match p with
  | none =>
    match s.body base with
    | some (.set size cnt data) =>
      let cnt1 := (cnt + 1) % 4294967296
      if cnt1 = 0 then .error .undefined
      else .ok { s with body := fun a =>
                   if a = base then some (.set size cnt1 data) else s.body a }
    | _ => .error .undefined
  | some p =>
    let const : Bool :=
      match key1.val with
      | .strval _ ks => is_const_name ks.size ks.data
      | _ => false
    if const then .error (.raised (ovm_except_modify_const (inst_obj base) (.inst key1)))
    else
      match slot_read s p with
      | .error e => .error e
      | .ok li =>
        match s.body li with
        | some (.list _ next) => slot_write s p next
        | _ => .error .undefined

/-- `dict_at_put` on the objects: the Dictionary at `base` is locked (the
program aborts when the running thread holds the lock already), the key is
looked up, its cell unlinked if there is one, and a new cell with a new Pair
of `key` and `val` linked in front of the bucket; then the lock is
dropped. -/
def obj_dict_at_put (km : key_methods) (c : ovm_consts) (fuel : Nat) (s : ovm_objs)
    (base : Nat) (key val : ovm_inst) : Except ovm_stop ovm_objs :=
  if s.locked base then .error .undefined
  else
    match s.body base with
    | some (.set size _ _) =>
      let key1 := key_cached km key
      let bucket := obj_slot.bucket base (bucket_index key1.hash size)
      match obj_dict_find_loop km key1 fuel s bucket with
      | .error e => .error e
      | .ok p =>
        match obj_dict_at_put_unlink s base key1 p with
        | .error e => .error e
        | .ok s1 =>
          match pair_new c s1 key1 val with
          | .error e => .error e
          | .ok (s2, pr) =>
            match slot_read s2 bucket with
            | .error e => .error e
            | .ok head =>
              match list_new c s2 (inst_obj pr) head with
              | .error e => .error e
              | .ok (s3, cell) => slot_write s3 bucket cell
    | _ => .error .undefined

/-- An entry of a bucket: the address of its list cell, the item of the
cell (a cell that points to the Pair) and the two cells of the Pair. -/
structure dict_entry where
  cell : Nat
  item : ovm_inst
  first : ovm_inst
  second : ovm_inst
  deriving DecidableEq, Repr

/-- The bucket that starts at `head` consists of the entries `es`. -/
def bucket_at (s : ovm_objs) (head : Nat) (es : List dict_entry) : Prop :=
  list_at s head (es.map (fun e => (e.cell, e.item))) = true
    ∧ ∀ e ∈ es, s.body e.item.objval = some (.pair e.first e.second)

instance (s : ovm_objs) (head : Nat) (es : List dict_entry) : Decidable (bucket_at s head es) := by
  unfold bucket_at; infer_instance

/-- A store with the two-bucket Dictionary 300 (class 21) that holds
`7 ↦ 70` (Pair 320 in cell 310) and `5 ↦ 50` (Pair 321 in cell 311), in this
order in bucket 1, and the free addresses 400 to 403. -/
def sample_dict_objs : ovm_objs :=
  { inst_of := fun p =>
      if p = 300 then 21 else if p = 310 ∨ p = 311 then 10
      else if p = 320 ∨ p = 321 then 9 else 0,
    body := fun p =>
      if p = 300 then some (.set 2 2 [0, 310])
      else if p = 310 then some (.list (inst_obj 320) 311)
      else if p = 311 then some (.list (inst_obj 321) 0)
      else if p = 320 then some (.pair { hash_valid := true, hash := 7, val := .intval 7 }
                                        (inst_int 70))
      else if p = 321 then some (.pair { hash_valid := true, hash := 5, val := .intval 5 }
                                        (inst_int 50))
      else none,
    locked := fun _ => false,
    free := [400, 401, 402, 403] }

/-- The entry `7 ↦ 70` of the sample Dictionary 300. -/
def sample_entry_7 : dict_entry :=
  { cell := 310, item := inst_obj 320,
    first := { hash_valid := true, hash := 7, val := .intval 7 }, second := inst_int 70 }

/-- The entry `5 ↦ 50` of the sample Dictionary 300. -/
def sample_entry_5 : dict_entry :=
  { cell := 311, item := inst_obj 321,
    first := { hash_valid := true, hash := 5, val := .intval 5 }, second := inst_int 50 }

/-! ### Descent through containers: locks and `write` -/

/-- `ovm_except_descent_loop`. -/
def ovm_except_descent_loop : ovm_exception :=
  { type := "system.descent-loop", fields := [] }

/-- `obj_lock_loop_chk`: the mutex of an object is of type
`PTHREAD_MUTEX_ERRORCHECK`, so a lock that the running thread holds already
gives `EDEADLK`, upon which `system.descent-loop` is raised.  Without an
object at `obj` the call is undefined. -/
def obj_lock_loop_chk (s : ovm_objs) (obj : Nat) : Except ovm_stop ovm_objs :=
  match s.body obj with
  | none => .error .undefined
  | some _ =>
    if s.locked obj then .error (.raised ovm_except_descent_loop)
    else .ok { s with locked := fun p => if p = obj then true else s.locked p }

/-- `obj_unlock`. -/
def obj_unlock (s : ovm_objs) (obj : Nat) : Except ovm_stop ovm_objs :=
  match s.body obj with
  | none => .error .undefined
  | some _ => .ok { s with locked := fun p => if p = obj then false else s.locked p }

/-- `str_joinc_size`: the String of size `size` made of the leader, the
parts separated by the separator, and the trailer. -/
def str_joinc_size (size : Nat) (ldr sep trlr : List Char) (parts : List ovm_obj_str) :
    ovm_obj_str :=
  { size := size, data := ldr ++ sep.intercalate (parts.map (fun p => p.data)) ++ trlr }

/-- The loop of `List.write` over the cells from `p` on: `write` is the call
of the method `write` on an item, `f`, `size` and `parts` are the flag, the
size counted so far and the Strings collected so far.  The cells visited are
neither locked nor checked. -/
def List_write_loop (write : ovm_objs → ovm_inst → Except ovm_stop (ovm_objs × ovm_obj_str)) :
    Nat → ovm_objs → Nat → Bool → Nat → List ovm_obj_str →
    Except ovm_stop (ovm_objs × Nat × List ovm_obj_str)
  | 0, _, _, _, _, _ => .error .undefined
  | fuel + 1, s, p, f, size, parts =>
    if p = 0 then .ok (s, size, parts)
    else
      match s.body p with
      | some (.list item _) =>
        let size1 := if f then (size + 2) % 4294967296 else size
        match write s item with
        | .error e => .error e
        | .ok (s1, str) =>
          let size2 := (size1 + (str.size + 4294967295) % 4294967296) % 4294967296
          match s1.body p with
          | some (.list _ next) => List_write_loop write fuel s1 next true size2 (parts ++ [str])
          | _ => .error .undefined
      | _ => .error .undefined

/-- Method `List.write`: the list of the receiver is locked with
`obj_lock_loop_chk`, the items are written in turn and joined between
parentheses, and the list is unlocked. -/
def List_write (c : ovm_consts)
    (write : ovm_objs → ovm_inst → Except ovm_stop (ovm_objs × ovm_obj_str))
    (fuel : Nat) (s : ovm_objs) (recvr : ovm_inst) : Except ovm_stop (ovm_objs × ovm_obj_str) :=
  match ovm_inst_listval c s recvr with
  | .error e => .error e
  | .ok li =>
    match obj_lock_loop_chk s li with
    | .error e => .error e
    | .ok s1 =>
      match List_write_loop write fuel s1 li false 3 [] with
      | .error e => .error e
      | .ok (s2, size, parts) =>
        match obj_unlock s2 li with
        | .error e => .error e
        | .ok s3 => .ok (s3, str_joinc_size size ['('] [',', ' '] [')'] parts)

/-- The loop of `array_write_unsafe` over the cells `data` of the Array. -/
def array_write_loop
    (write : ovm_objs → ovm_inst → Except ovm_stop (ovm_objs × ovm_obj_str)) :
    List ovm_inst → ovm_objs → Bool → Nat → List ovm_obj_str →
    Except ovm_stop (ovm_objs × Nat × List ovm_obj_str)
  | [], s, _, size, parts => .ok (s, size, parts)
  | item :: rest, s, f, size, parts =>
    let size1 := if f then (size + 2) % 4294967296 else size
    match write s item with
    | .error e => .error e
    | .ok (s1, str) =>
      let size2 := (size1 + (str.size + 4294967295) % 4294967296) % 4294967296
      array_write_loop write rest s1 true size2 (parts ++ [str])

/-- Method `Array.write` with `array_write_unsafe`. -/
def Array_write (c : ovm_consts)
    (write : ovm_objs → ovm_inst → Except ovm_stop (ovm_objs × ovm_obj_str))
    (s : ovm_objs) (recvr : ovm_inst) : Except ovm_stop (ovm_objs × ovm_obj_str) :=
  if ovm_inst_of_raw c s.inst_of recvr ≠ c.Array then
    .error (.raised (ovm_except_inv_value recvr))
  else
    match s.body recvr.objval with
    | some (.array data) =>
      match obj_lock_loop_chk s recvr.objval with
      | .error e => .error e
      | .ok s1 =>
        match array_write_loop write data s1 false 3 [] with
        | .error e => .error e
        | .ok (s2, size, parts) =>
          match obj_unlock s2 recvr.objval with
          | .error e => .error e
          | .ok s3 => .ok (s3, str_joinc_size size ['['] [',', ' '] [']'] parts)
    | _ => .error .undefined

/-- The call of the method `write` on a cell, as the method tables of the
built-in classes resolve it: `List.write` for a List, `Array.write` for an
Array; `atom` stands for the `write` methods of the other classes. -/
def ovm_write (c : ovm_consts) (atom : ovm_inst → Except ovm_stop ovm_obj_str) :
    Nat → ovm_objs → ovm_inst → Except ovm_stop (ovm_objs × ovm_obj_str)
  | 0, _, _ => .error .undefined
  | fuel + 1, s, inst =>
    if ovm_inst_of_raw c s.inst_of inst = c.List then
      List_write c (ovm_write c atom fuel) (fuel + 1) s inst
    else if ovm_inst_of_raw c s.inst_of inst = c.Array then
      Array_write c (ovm_write c atom fuel) s inst
    else
      match atom inst with
      | .error e => .error e
      | .ok str => .ok (s, str)

/-- A `write` for the atoms of the sample stores: every atom is written
as `1`. -/
def sample_atom_write : ovm_inst → Except ovm_stop ovm_obj_str :=
  fun _ => .ok { size := 2, data := ['1'] }

/-- A store with the list cell 500 (class 10) whose item is the Integer 1
and whose tail is the cell 500 itself. -/
def sample_tail_loop_objs : ovm_objs :=
  { inst_of := fun p => if p = 500 then 10 else 0,
    body := fun p => if p = 500 then some (.list (inst_int 1) 500) else none,
    locked := fun _ => false,
    free := [] }

/-- A store with the list cell 500 (class 10) whose item is the Array 510
(class 11), and the Array holds the list 500. -/
def sample_item_loop_objs : ovm_objs :=
  { inst_of := fun p => if p = 500 then 10 else if p = 510 then 11 else 0,
    body := fun p =>
      if p = 500 then some (.list (inst_obj 510) 0)
      else if p = 510 then some (.array [inst_obj 500])
      else none,
    locked := fun _ => false,
    free := [] }

/-- The list `(1, 1)` in the cells 500 and 501 (class 10). -/
def sample_write_objs : ovm_objs :=
  { inst_of := fun p => if p = 500 ∨ p = 501 then 10 else 0,
    body := fun p =>
      if p = 500 then some (.list (inst_int 1) 501)
      else if p = 501 then some (.list (inst_int 1) 0)
      else none,
    locked := fun _ => false,
    free := [] }

/-! ### Deep copies and equality -/

/-- The nil cell. -/
def inst_nil : ovm_inst := inst_obj 0

/-- `pair_copydeep`; `copydeep` is the call of the method `copydeep` on a
cell.  The variable `pr` is the new Pair when `obj_unlock` is reached. -/
def pair_copydeep (c : ovm_consts)
    (copydeep : ovm_objs → ovm_inst → Except ovm_stop (ovm_objs × ovm_inst))
    (s : ovm_objs) (pr : Nat) : Except ovm_stop (ovm_objs × ovm_inst) :=
  match obj_lock_loop_chk s pr with
  | .error e => .error e
  | .ok s1 =>
    match s1.body pr with
    | some (.pair first _) =>
      match copydeep s1 first with
      | .error e => .error e
      | .ok (s2, w1) =>
        match s2.body pr with
        | some (.pair _ second) =>
          match copydeep s2 second with
          | .error e => .error e
          | .ok (s3, w2) =>
            match pair_new c s3 w1 w2 with
            | .error e => .error e
            | .ok (s4, pr1) =>
              match obj_unlock s4 pr1 with
              | .error e => .error e
              | .ok s5 => .ok (s5, inst_obj pr1)
        | _ => .error .undefined
    | _ => .error .undefined

/-- The loop of `array_copydeep_unsafe`: `n` cells of the Array `a` are
still to be copied, the next one is the cell `i`; each is read from `a` and
the result of the call goes to the cell `i` of the new Array `aa`. -/
def array_copydeep_loop
    (copydeep : ovm_objs → ovm_inst → Except ovm_stop (ovm_objs × ovm_inst)) (a aa : Nat) :
    Nat → Nat → ovm_objs → Except ovm_stop ovm_objs
  | 0, _, s => .ok s
  | n + 1, i, s =>
    match s.body a with
    | some (.array data) =>
      match data.get? i with
      | none => .error .undefined
      | some p =>
        match copydeep s p with
        | .error e => .error e
        | .ok (s1, w) =>
          match s1.body aa with
          | some (.array d) =>
            array_copydeep_loop copydeep a aa n (i + 1)
              { s1 with body := fun x => if x = aa then some (.array (d.set i w)) else s1.body x }
          | _ => .error .undefined
    | _ => .error .undefined

/-- `array_copydeep_unsafe` for the Array at `a`, of class `cl`: the new
Array is made by `array_newc` with nil cells before the cells are copied. -/
def array_copydeep_unsafe
    (copydeep : ovm_objs → ovm_inst → Except ovm_stop (ovm_objs × ovm_inst))
    (s : ovm_objs) (cl : Nat) (a : Nat) : Except ovm_stop (ovm_objs × ovm_inst) :=
  match obj_lock_loop_chk s a with
  | .error e => .error e
  | .ok s1 =>
    match s1.body a with
    | some (.array data) =>
      match ovm_obj_alloc s1 cl (.array (List.replicate data.length inst_nil)) with
      | .error e => .error e
      | .ok (s2, aa) =>
        match array_copydeep_loop copydeep a aa data.length 0 s2 with
        | .error e => .error e
        | .ok s3 =>
          match obj_unlock s3 a with
          | .error e => .error e
          | .ok s4 => .ok (s4, inst_obj aa)
    | _ => .error .undefined

/-- The loop of `list_copydeep_unsafe` over the cells of `li`. -/
def list_copydeep_loop (c : ovm_consts)
    (copydeep : ovm_objs → ovm_inst → Except ovm_stop (ovm_objs × ovm_inst)) :
    Nat → ovm_objs → Nat → Nat → Option Nat → Except ovm_stop (ovm_objs × Nat × Option Nat)
  | 0, _, _, _, _ => .error .undefined
  | fuel + 1, s, li, dst, ctxt =>
    if li = 0 then .ok (s, dst, ctxt)
    else
      match s.body li with
      | some (.list item _) =>
        match copydeep s item with
        | .error e => .error e
        | .ok (s1, w) =>
          match list_new c s1 w 0 with
          | .error e => .error e
          | .ok (s2, cell) =>
            match list_newlc_concat (fuel + 1) s2 dst ctxt cell with
            | .error e => .error e
            | .ok (s3, dst3, ctxt3) =>
              match s3.body li with
              | some (.list _ next) => list_copydeep_loop c copydeep fuel s3 next dst3 ctxt3
              | _ => .error .undefined
      | _ => .error .undefined

/-- `list_copydeep_unsafe`: `li->base` is locked, the loop runs until `li`
is the null pointer, and `obj_unlock(li->base)` is called with that `li`. -/
def list_copydeep_unsafe (c : ovm_consts)
    (copydeep : ovm_objs → ovm_inst → Except ovm_stop (ovm_objs × ovm_inst))
    (fuel : Nat) (s : ovm_objs) (li : Nat) : Except ovm_stop (ovm_objs × ovm_inst) :=
  match obj_lock_loop_chk s li with
  | .error e => .error e
  | .ok s1 =>
    match list_copydeep_loop c copydeep fuel s1 li 0 none with
    | .error e => .error e
    | .ok (s2, dst, _) =>
      match obj_unlock s2 0 with
      | .error e => .error e
      | .ok s3 => .ok (s3, inst_obj dst)

/-- The call of the method `copydeep` on a cell, as the method tables of the
built-in classes resolve it: `copy`, which assigns the receiver, for a
Boolean, an Integer and a String; `Pair.copydeep`, `List.copydeep` and
`Array.copydeep`; `Object.copydeep` for nil; `other` stands for the methods
of the other classes. -/
def ovm_copydeep (c : ovm_consts)
    (other : ovm_objs → ovm_inst → Except ovm_stop (ovm_objs × ovm_inst)) :
    Nat → ovm_objs → ovm_inst → Except ovm_stop (ovm_objs × ovm_inst)
  | 0, _, _ => .error .undefined
  | fuel + 1, s, inst =>
    match inst.val with
    | .boolval _ => .ok (s, inst)
    | .intval _ => .ok (s, inst)
    | .strval _ _ => .ok (s, inst)
    | .objval obj =>
      if obj = 0 then .ok (s, inst)
      else if s.inst_of obj = c.Pair then pair_copydeep c (ovm_copydeep c other fuel) s obj
      else if s.inst_of obj = c.List then
        list_copydeep_unsafe c (ovm_copydeep c other fuel) (fuel + 1) s obj
      else if s.inst_of obj = c.Array then
        array_copydeep_unsafe (ovm_copydeep c other fuel) s (s.inst_of obj) obj
      else other s inst
    | _ => other s inst

/-- `ovm_is_subclass_of`. -/
def ovm_is_subclass_of : Nat → ovm_objs → Nat → Nat → Except ovm_stop Bool
  | 0, _, _, _ => .error .undefined
  | fuel + 1, s, cl1, cl2 =>
    if cl1 = 0 then .ok false
    else if cl1 = cl2 then .ok true
    else
      match s.body cl1 with
      | some (.cls _ parent _ _ _ _ _ _ _) => ovm_is_subclass_of fuel s parent cl2
      | _ => .error .undefined

/-- Method `Boolean.equal`. -/
def Boolean_equal (recvr arg : ovm_inst) : Except ovm_stop Bool :=
  match recvr.val with
  | .boolval b =>
    match arg.val with
    | .boolval b2 => .ok (b2 == b)
    | _ => .ok false
  | _ => .error (.raised (ovm_except_inv_value recvr))

/-- Method `Integer.equal`. -/
def Integer_equal (recvr arg : ovm_inst) : Except ovm_stop Bool :=
  match recvr.val with
  | .intval i =>
    match arg.val with
    | .intval i2 => .ok (i2 == i)
    | _ => .ok false
  | _ => .error (.raised (ovm_except_inv_value recvr))

/-- Method `Object.equal`: the same object. -/
def Object_equal (recvr arg : ovm_inst) : Bool :=
  recvr.type == .OBJ && arg.type == .OBJ && recvr.objval == arg.objval

/-- Method `Pair.equal` on the Pair at `pr`; `equal` is the call of the
method `equal` on a cell. -/
def Pair_equal (c : ovm_consts) (equal : ovm_inst → ovm_inst → Except ovm_stop Bool)
    (s : ovm_objs) (pr : Nat) (arg : ovm_inst) : Except ovm_stop Bool :=
  if ovm_inst_of_raw c s.inst_of arg = c.Pair then
    match s.body pr, s.body arg.objval with
    | some (.pair f1 g1), some (.pair f2 g2) =>
      match equal f1 f2 with
      | .error e => .error e
      | .ok true => equal g1 g2
      | .ok false => .ok false
    | _, _ => .error .undefined
  else .ok false

/-- The loop of `Array.equal` over the cells of the two Arrays. -/
def array_equal_loop (equal : ovm_inst → ovm_inst → Except ovm_stop Bool) :
    List ovm_inst → List ovm_inst → Except ovm_stop Bool
  | p :: ps, q :: qs =>
    match equal p q with
    | .error e => .error e
    | .ok true => array_equal_loop equal ps qs
    | .ok false => .ok false
  | [], _ => .ok true
  | _ :: _, [] => .error .undefined

/-- Method `Array.equal` on the Array at `a`. -/
def Array_equal (c : ovm_consts) (equal : ovm_inst → ovm_inst → Except ovm_stop Bool)
    (fuel : Nat) (s : ovm_objs) (a : Nat) (arg : ovm_inst) : Except ovm_stop Bool :=
  match ovm_is_subclass_of fuel s (ovm_inst_of_raw c s.inst_of arg) c.Array with
  | .error e => .error e
  | .ok false => .ok false
  | .ok true =>
    match s.body a, s.body arg.objval with
    | some (.array d1), some (.array d2) =>
      if d2.length = d1.length then array_equal_loop equal d1 d2 else .ok false
    | _, _ => .error .undefined

/-- The call of the method `equal` on a cell with one argument, as the
method tables of the built-in classes resolve it: `Boolean.equal`,
`Integer.equal`, `String.equal`, `Pair.equal`, `Array.equal`, and
`Object.equal` for nil, a Set and a Dictionary, which have none of their
own; `other` stands for the methods of the other classes. -/
def ovm_equal (c : ovm_consts) (other : ovm_objs → ovm_inst → ovm_inst → Except ovm_stop Bool) :
    Nat → ovm_objs → ovm_inst → ovm_inst → Except ovm_stop Bool
  | 0, _, _, _ => .error .undefined
  | fuel + 1, s, recvr, arg =>
    match recvr.val with
    | .boolval _ => Boolean_equal recvr arg
    | .intval _ => Integer_equal recvr arg
    | .strval _ _ => String_equal c s.inst_of recvr arg
    | .objval obj =>
      if obj = 0 then .ok (Object_equal recvr arg)
      else if s.inst_of obj = c.Pair then Pair_equal c (ovm_equal c other fuel s) s obj arg
      else if s.inst_of obj = c.Array then
        Array_equal c (ovm_equal c other fuel s) (fuel + 1) s obj arg
      else if s.inst_of obj = c.Set ∨ s.inst_of obj = c.Dictionary then
        .ok (Object_equal recvr arg)
      else other s recvr arg
    | _ => other s recvr arg

/-- The cell `v` holds a value built from Integers, Booleans, Strings, Pairs
and Arrays, of depth at most `d`, in which no Pair or Array lies below
itself; `anc` lists the Pairs and Arrays above `v`. -/
def built_from (c : ovm_consts) (s : ovm_objs) : Nat → List Nat → ovm_inst → Bool
  | 0, _, _ => false
  | d + 1, anc, v =>
    match v.val with
    | .intval _ => true
    | .boolval _ => true
    | .strval _ _ => true
    | .objval obj =>
      obj != 0 && !anc.contains obj &&
        match s.body obj with
        | some (.pair f g) =>
          s.inst_of obj == c.Pair && built_from c s d (obj :: anc) f
            && built_from c s d (obj :: anc) g
        | some (.array data) =>
          s.inst_of obj == c.Array && data.all (fun x => built_from c s d (obj :: anc) x)
        | _ => false
    | _ => false

/-- The Pairs and Arrays of the value in `v`, down to depth `d`, each as
often as it occurs. -/
def containers_of (s : ovm_objs) : Nat → ovm_inst → List Nat
  | 0, _ => []
  | d + 1, v =>
    match v.val with
    | .objval obj =>
      match s.body obj with
      | some (.pair f g) => obj :: (containers_of s d f ++ containers_of s d g)
      | some (.array data) => obj :: data.flatMap (fun x => containers_of s d x)
      | _ => []
    | _ => []

/-- The Pairs of the value in `v`, down to depth `d`, each as often as it
occurs. -/
def pairs_of (s : ovm_objs) : Nat → ovm_inst → List Nat
  | 0, _ => []
  | d + 1, v =>
    match v.val with
    | .objval obj =>
      match s.body obj with
      | some (.pair f g) => obj :: (pairs_of s d f ++ pairs_of s d g)
      | some (.array data) => data.flatMap (fun x => pairs_of s d x)
      | _ => []
    | _ => []

/-- The Strings of the value in `v`, down to depth `d`. -/
def strings_of (s : ovm_objs) : Nat → ovm_inst → List Nat
  | 0, _ => []
  | d + 1, v =>
    match v.val with
    | .strval obj _ => [obj]
    | .objval obj =>
      match s.body obj with
      | some (.pair f g) => strings_of s d f ++ strings_of s d g
      | some (.array data) => data.flatMap (fun x => strings_of s d x)
      | _ => []
    | _ => []

/-- The cell `w` holds a deep copy of the value in `v`: the same Integers,
Booleans and Strings (the same String objects), and for each Pair and Array
of `v` an object of its own among `new`, of the same class, holding the
copies. -/
def deep_copy (c : ovm_consts) (s : ovm_objs) (new : List Nat) : Nat → ovm_inst → ovm_inst → Prop
  | 0, _, _ => False
  | d + 1, v, w =>
    match v.val with
    | .intval _ => w = v
    | .boolval _ => w = v
    | .strval _ _ => w = v
    | .objval obj =>
      match s.body obj with
      | some (.pair f g) =>
        ∃ obj1 f1 g1, w = inst_obj obj1 ∧ obj1 ∈ new ∧ obj1 ≠ 0 ∧ s.inst_of obj1 = c.Pair
          ∧ s.body obj1 = some (.pair f1 g1)
          ∧ deep_copy c s new d f f1 ∧ deep_copy c s new d g g1
      | some (.array data) =>
        ∃ obj1 data1, w = inst_obj obj1 ∧ obj1 ∈ new ∧ obj1 ≠ 0 ∧ s.inst_of obj1 = c.Array
          ∧ s.body obj1 = some (.array data1)
          ∧ List.Forall₂ (deep_copy c s new d) data data1
      | _ => False
    | _ => False

/-- A store with the Array 610 (class 11) that holds the Integer 7, the
String "ab" (object 620) and the Pair 611 (class 9) of the Boolean true and
the String "ab" again; the free addresses are 700 to 703. -/
def sample_copy_objs : ovm_objs :=
  { inst_of := fun p => if p = 610 then 11 else if p = 611 then 9 else if p = 620 then 8 else 0,
    body := fun p =>
      if p = 610 then some (.array [inst_int 7, inst_str 620 3 "ab".toList, inst_obj 611])
      else if p = 611 then
        some (.pair { hash_valid := false, hash := 0, val := .boolval true }
                (inst_str 620 3 "ab".toList))
      else if p = 620 then some .raw
      else none,
    locked := fun _ => false,
    free := [700, 701, 702, 703] }

/-- Methods of other classes, which the samples do not call. -/
def sample_other_copydeep : ovm_objs → ovm_inst → Except ovm_stop (ovm_objs × ovm_inst) :=
  fun _ _ => .error .undefined

/-- Methods of other classes, which the samples do not call. -/
def sample_other_equal : ovm_objs → ovm_inst → ovm_inst → Except ovm_stop Bool :=
  fun _ _ _ => .error .undefined

/-- The store `s1` keeps the objects of `s`: their bodies and classes. -/
def objs_kept (s s1 : ovm_objs) : Prop :=
  ∀ a, s.body a ≠ none → s1.body a = s.body a ∧ s1.inst_of a = s.inst_of a

/-- What a call `copydeep` of the method `copydeep` achieves on the values
of depth at most `d` whose Pairs and Arrays are not locked and whose Pairs
occur once, given memory for the copies: it returns a deep copy made of the
next free addresses, leaves every other object as it was, and changes no
lock but those of the Pairs of the value. -/
def copydeep_ok (c : ovm_consts)
    (copydeep : ovm_objs → ovm_inst → Except ovm_stop (ovm_objs × ovm_inst)) (d : Nat) : Prop :=
  ∀ (s : ovm_objs) (anc : List Nat) (v : ovm_inst),
    built_from c s d anc v = true → free_ok s →
    (containers_of s d v).length ≤ s.free.length →
    (∀ a ∈ containers_of s d v, s.locked a = false) →
    (pairs_of s d v).Nodup →
    ∃ s1 w, copydeep s v = .ok (s1, w)
      ∧ s1.free = s.free.drop (containers_of s d v).length
      ∧ free_ok s1
      ∧ (∀ a, a ∉ s.free.take (containers_of s d v).length →
          s1.body a = s.body a ∧ s1.inst_of a = s.inst_of a)
      ∧ (∀ a, a ∉ s.free.take (containers_of s d v).length → a ∉ pairs_of s d v →
          s1.locked a = s.locked a)
      ∧ deep_copy c s1 (s.free.take (containers_of s d v).length) d v w

/-! ### Checks on the number of arguments -/

/-- `thread_mcfp`: the current method-call frame; without one the thread
ends. -/
def thread_mcfp (th : ovm_thread) : Except ovm_stop Nat :=
  if th.mcfp = 0 then .error (.fatal OVM_THREAD_FATAL_NO_FRAME) else .ok th.mcfp

/-- The exception `ovm_except_num_args` builds: `expected` is its argument
and `got` the field `argc` of the current method-call frame, both stored
with `ovm_int_newc`. -/
def ovm_except_num_args (expected got : Nat) : ovm_exception :=
  { type := "system.number-of-arguments",
    fields := [("expected", .inst (inst_int (expected : Int))),
               ("got", .inst (inst_int (got : Int)))] }

/-- `ovm_method_argc_chk_exact`, `expected` being an `unsigned`; the result
is the thread as the function leaves it on return. -/
def ovm_method_argc_chk_exact (th : ovm_thread) (expected : Nat) : Except ovm_stop ovm_thread :=
  match thread_mcfp th with
  | .error e => .error e
  | .ok fr =>
    match th.frames fr with
    | some (.mc _ _ _ _ _ _ argc _) =>
      if argc % 4294967296 ≠ expected % 4294967296 then
        .error (.raised (ovm_except_num_args (expected % 4294967296) (argc % 4294967296)))
      else .ok th
    | _ => .error .undefined

/-- The sample thread in a method called with one argument (`argc` is 1 in
its frame at 900). -/
def sample_argc_thread : ovm_thread := sample_thread 40

/-! ### Free followed by allocation on the value stack -/

/-- The call `ovm_obj_release` that `ovm_inst_release` and the assignment
functions make for the old value of a cell: the object of a cell of type OBJ
that is not nil. -/
def cell_release (i : ovm_inst) : List Nat :=
  if inst_target i = 0 then [] else [inst_target i]

/-- The objects `ovm_stack_unwind` releases when it pops `n` cells from
`p`, in order. -/
def stack_released (th : ovm_thread) (p n : Nat) : List Nat :=
  (List.range n).flatMap (fun k => cell_release (th.cells (p + k)))

/-- `ovm_inst_assign_obj(dst, obj)` on the cell memory: `OVM_INST_INIT` sets
the type, the object and `hash_valid`, and leaves the field `hash`. -/
def cell_assign_obj (th : ovm_thread) (dst obj : Nat) : ovm_thread :=
  { th with cells := fun a =>
      if a = dst then { hash_valid := false, hash := (th.cells dst).hash, val := .objval obj }
      else th.cells a }

/-- The loops `for (...; n > 0; --n, ++p) ovm_inst_assign_obj(p, 0)` of
`ovm_stack_free_alloc`: the thread, the final `p`, and the objects released,
after those in `rel`. -/
def free_alloc_loop : Nat → Nat → ovm_thread → List Nat → ovm_thread × Nat × List Nat
  | 0, p, th, rel => (th, p, rel)
  | n + 1, p, th, rel =>
    free_alloc_loop n (p + 1) (cell_assign_obj th p 0) (rel ++ cell_release (th.cells p))

/-- `ovm_stack_free_alloc`: the thread, the pointer returned and the objects
released. -/
def ovm_stack_free_alloc (th : ovm_thread) (size_free size_alloc : Nat) :
    Except ovm_stop (ovm_thread × Nat × List Nat) :=
  if th.sp + size_free > th.stack_top then .error (.fatal OVM_THREAD_FATAL_STACK_UNDERFLOW)
  else if size_alloc ≥ size_free then
    match free_alloc_loop size_free th.sp th [] with
    | (th1, p, rel) =>
      match ovm_stack_alloc th1 (size_alloc - size_free) with
      | .error e => .error e
      | .ok (th2, _) => .ok (th2, p, rel)
  else
    match ovm_stack_free th (size_free - size_alloc) with
    | .error e => .error e
    | .ok th1 =>
      .ok (free_alloc_loop size_alloc th1.sp th1 (stack_released th th.sp (size_free - size_alloc)))

/-- The sequence the specification compares with: `ovm_stack_free(th, f)`
followed by `ovm_stack_alloc(th, a)`; the pointer returned by the
allocation, and the objects the free releases. -/
def stack_free_then_alloc (th : ovm_thread) (size_free size_alloc : Nat) :
    Except ovm_stop (ovm_thread × Nat × List Nat) :=
  match ovm_stack_free th size_free with
  | .error e => .error e
  | .ok th1 =>
    match ovm_stack_alloc th1 size_alloc with
    | .error e => .error e
    | .ok (th2, p) => .ok (th2, p, stack_released th th.sp size_free)

/-- Two cells hold the same value: the same union, the same `hash_valid`,
and the same `hash` when it is valid. -/
def cell_same (x y : ovm_inst) : Prop :=
  x.val = y.val ∧ x.hash_valid = y.hash_valid ∧ (x.hash_valid = true → x.hash = y.hash)

/-- Two threads agree: the same registers and frames, and cells that hold
the same values. -/
def thread_same (t u : ovm_thread) : Prop :=
  t.stack = u.stack ∧ t.stack_top = u.stack_top ∧ t.sp = u.sp
    ∧ t.frame_stack = u.frame_stack ∧ t.frame_stack_top = u.frame_stack_top ∧ t.fp = u.fp
    ∧ t.nsfp = u.nsfp ∧ t.mcfp = u.mcfp ∧ t.except_lvl = u.except_lvl ∧ t.xfp = u.xfp
    ∧ t.exceptf = u.exceptf ∧ t.pc = u.pc ∧ t.frames = u.frames
    ∧ t.fatal_lvl = u.fatal_lvl
    ∧ ∀ a, cell_same (t.cells a) (u.cells a)

/-- A thread with four cells in use, at 60 to 63: the objects 300 and 301,
the Integer 5 with a cached hash, and nil. -/
def sample_stack_thread : ovm_thread :=
  { sample_thread 40 with
    cells := fun a =>
      if a = 60 then inst_obj 300
      else if a = 61 then { hash_valid := true, hash := 9, val := .objval 301 }
      else if a = 62 then { hash_valid := true, hash := 5, val := .intval 5 }
      else inst_obj 0 }

/-! ### Operands of the byte code: variable-length integers -/

/-- The byte `*th->pc` of the code at `pc` (an `unsigned char`); reading
past the code is undefined. -/
def code_byte (code : List Nat) (pc : Nat) : Except ovm_stop Nat :=
  match code.get? pc with
  | none => .error .undefined
  | some b => .ok (b % 256)

/-- The loop `for (...; n > 0; --n, ++th->pc) result = (result << 8) | *th->pc`
of `_interp_intval`; `result`, a `long long`, is held as its 64-bit
pattern. -/
def interp_intval_loop (code : List Nat) : Nat → Nat → Nat → Except ovm_stop (Nat × Nat)
  | 0, pc, result => .ok (result, pc)
  | n + 1, pc, result =>
    match code_byte code pc with
    | .error e => .error e
    | .ok b =>
      interp_intval_loop code n (pc + 1) (Nat.lor ((result <<< 8) % 18446744073709551616) b)

/-- `_interp_intval`: the `long long` returned and the new `th->pc`.  The
shifts `1 << initial_bits` of an `int` and `1LL << sign_bit` are defined for
results in range only. -/
def _interp_intval (code : List Nat) (pc : Nat) (initial_bits : Nat) (unsignedf : Bool) :
    Except ovm_stop (Int × Nat) :=
  match code_byte code pc with
  | .error e => .error e
  | .ok op =>
    let n := op >>> 5
    if n = 7 then
      match interp_intval_loop code 8 (pc + 1) 0 with
      | .error e => .error e
      | .ok (result, pc1) => .ok (wrap64 (result : Int), pc1)
    else if initial_bits ≥ 31 then .error .undefined
    else
      let sign_bit := (initial_bits + (n <<< 3) + 4294967295) % 4294967296
      match interp_intval_loop code n (pc + 1) (Nat.land op ((1 <<< initial_bits) - 1)) with
      | .error e => .error e
      | .ok (result, pc1) =>
        if unsignedf then .ok (wrap64 (result : Int), pc1)
        else if sign_bit ≥ 63 then .error .undefined
        else
          let m := 1 <<< sign_bit
          if Nat.land result m ≠ 0 then
            .ok (wrap64 ((Nat.lor result (18446744073709551616 - m) : Nat) : Int), pc1)
          else .ok (wrap64 (result : Int), pc1)

/-- `interp_intval`. -/
def interp_intval (code : List Nat) (pc : Nat) : Except ovm_stop (Int × Nat) :=
  _interp_intval code pc 5 false

/-- `interp_uintval`: the result converted to `unsigned long long`. -/
def interp_uintval (code : List Nat) (pc : Nat) : Except ovm_stop (Nat × Nat) :=
  match _interp_intval code pc 5 true with
  | .error e => .error e
  | .ok (result, pc1) => .ok ((result % 18446744073709551616).toNat, pc1)

/-- The big-endian number made of the bytes `bs`, after the number `acc`. -/
def big_endian (acc : Nat) (bs : List Nat) : Nat :=
  bs.foldl (fun r b => r * 256 + b % 256) acc

/-- The `n` bytes of the code from `pc`, when the code has them. -/
def code_bytes (code : List Nat) (pc n : Nat) : Option (List Nat) :=
  if pc + n ≤ code.length then some ((code.drop pc).take n) else none

/-! ### Parsing Integers -/

/-- The byte a `char` holds for the character `c`. -/
def char_byte (c : Char) : Nat := c.toNat % 256

/-- `toupper` in the "C" locale, on a byte. -/
def toupper (v : Nat) : Nat := if 97 ≤ v ∧ v ≤ 122 then v - 32 else v

/-- `parse_digit`: the digit, or -1.  A `char` is signed, so the bytes from
128 on are below `'0'`. -/
def parse_digit (c : Char) (base : Nat) : Int :=
  let v := char_byte c
  if v ≥ 128 then -1
  else if v < 48 then -1
  else if v ≤ 57 then (if v - 48 ≥ base then -1 else ((v - 48 : Nat) : Int))
  else
    let u := toupper v
    if u < 65 then -1
    else if u - 65 + 10 ≥ base then -1 else ((u - 65 + 10 : Nat) : Int)

/-- The loop of `parse_int_base` over `size` characters from `data`: `i`
counts the characters done, `val` is an `ovm_intval_t`; `none` is the result
`false`. -/
def parse_int_base_loop (base : Nat) (allow_negf : Bool) :
    Nat → Nat → List Char → Int → Bool → Option (Int × Bool)
  | 0, _, _, val, negf => some (val, negf)
  | size + 1, i, data, val, negf =>
    let c := c_at data 0
    if c = '-' ∧ i = 0 ∧ allow_negf = true then
      parse_int_base_loop base allow_negf size (i + 1) (data.drop 1) val true
    else
      let d := parse_digit c base
      if d < 0 then none
      else
        parse_int_base_loop base allow_negf size (i + 1) (data.drop 1)
          (wrap64 ((base : Int) * val + d)) negf

/-- `parse_int_base`: the Integer stored in `dst`, or `none` for `false`. -/
def parse_int_base (size : Nat) (data : List Char) (base : Nat) (allow_negf : Bool) :
    Option Int :=
  match parse_int_base_loop base allow_negf size 0 data 0 false with
  | none => none
  | some (val, negf) => some (if negf then wrap64 (-val) else val)

/-- `parse_int`. -/
def parse_int (size : Nat) (data : List Char) : Option Int :=
  let prefixed : Option (Option Int) :=
    if size ≥ 3 ∧ c_at data 0 = '0' then
      if toupper (char_byte (c_at data 1)) = 66 then
        some (parse_int_base (size - 2) (data.drop 2) 2 false)
      else if toupper (char_byte (c_at data 1)) = 88 then
        some (parse_int_base (size - 2) (data.drop 2) 16 false)
      else none
    else none
  match prefixed with
  | some r => r
  | none =>
    if size ≥ 2 ∧ c_at data 0 = '0' then parse_int_base (size - 1) (data.drop 1) 8 false
    else parse_int_base size data 10 true

/-- Method `String.Integer` with the receiver `recvr` and the base argument
`arg`, if one is given: `ovm_inst_strval`, `ovm_inst_intval`, the test of
the base, and the parse. -/
def String_Integer (recvr : ovm_inst) (arg : Option ovm_inst) : Except ovm_stop Int :=
  match recvr.val with
  | .strval _ s =>
    match arg with
    | some a =>
      match a.val with
      | .intval base =>
        if base < 2 ∨ base > 16 then .error (.raised (ovm_except_inv_value a))
        else
          match parse_int_base (s.size - 1) s.data (base.toNat % 4294967296) true with
          | some v => .ok v
          | none => .error (.raised (ovm_except_inv_value recvr))
      | _ => .error (.raised (ovm_except_inv_value a))
    | none =>
      match parse_int (s.size - 1) s.data with
      | some v => .ok v
      | none => .error (.raised (ovm_except_inv_value recvr))
  | _ => .error (.raised (ovm_except_inv_value recvr))

/-- The digit a character stands for: `0` to `9`, and the letters, of
either case, from 10 on. -/
def spec_digit (c : Char) : Option Nat :=
  if 48 ≤ c.toNat ∧ c.toNat ≤ 57 then some (c.toNat - 48)
  else if 97 ≤ c.toNat ∧ c.toNat ≤ 122 then some (c.toNat - 97 + 10)
  else if 65 ≤ c.toNat ∧ c.toNat ≤ 90 then some (c.toNat - 65 + 10)
  else none

/-- The digits of the characters `cs` when each is a digit of the base. -/
def spec_digits (base : Nat) : List Char → Option (List Nat)
  | [] => some []
  | c :: cs =>
    match spec_digit c with
    | some d => if d < base then (spec_digits base cs).map (fun ds => d :: ds) else none
    | none => none

/-- The positional value of the digits `ds` in the base, after the value
`acc`. -/
def positional (base : Nat) (acc : Nat) (ds : List Nat) : Nat :=
  ds.foldl (fun v d => base * v + d) acc

/-- Digits in the base with, if allowed, a leading `-`: the value. -/
def spec_parse (base : Nat) (allow_neg : Bool) (cs : List Char) : Option Int :=
  if cs.head? = some '-' then
    if allow_neg then (spec_digits base cs.tail).map (fun ds => -(positional base 0 ds : Int))
    else none
  else (spec_digits base cs).map (fun ds => (positional base 0 ds : Int))

/-- What the specification has `String.Integer` without a base do with the
characters `cs`: `0x` or `0X` and at least one more character, base 16;
`0b` or `0B` and at least one more, base 2; `0` and at least one more, base
8; else base 10 with an optional `-`. -/
def spec_Integer (cs : List Char) : Option Int :=
  if cs.length ≥ 3 ∧ cs.head? = some '0' ∧ (cs.get? 1 = some 'x' ∨ cs.get? 1 = some 'X') then
    spec_parse 16 false (cs.drop 2)
  else if cs.length ≥ 3 ∧ cs.head? = some '0'
      ∧ (cs.get? 1 = some 'b' ∨ cs.get? 1 = some 'B') then
    spec_parse 2 false (cs.drop 2)
  else if cs.length ≥ 2 ∧ cs.head? = some '0' then spec_parse 8 false (cs.drop 1)
  else spec_parse 10 true cs

/-- The String cell with the characters `cs`, at address 620. -/
def sample_str_inst (cs : String) : ovm_inst := inst_str 620 (cs.length + 1) cs.toList

/-! ### Memory: size classes and buffers -/

/-- The loop of `ulog2`. -/
def ulog2_loop : Nat → Nat → Nat → Except ovm_stop Nat
  | 0, _, _ => .error .undefined
  | fuel + 1, val, k => if val ≠ 0 then ulog2_loop fuel (val >>> 1) (k + 1) else .ok k

/-- `ulog2`, on an `unsigned`; the assertion wants a power of two. -/
def ulog2 (val : Nat) : Except ovm_stop Nat :=
  if val = 0 ∨ Nat.land val (val - 1) ≠ 0 then .error .undefined
  else
    match ulog2_loop 34 val 0 with
    | .error e => .error e
    | .ok k => .ok ((k + 4294967295) % 4294967296)

def OVM_MEM_MIN_BUF_SIZE_LOG2 : Nat := 6
def OVM_MEM_MIN_BUF_SIZE : Nat := 1 <<< OVM_MEM_MIN_BUF_SIZE_LOG2

/-- `sizeof(struct mem_buf_page)` on an LP64 target: the list node and two
`unsigned`. -/
def SIZEOF_MEM_BUF_PAGE : Nat := 24

/-- The state of the allocator: the variables `mem_page_size`,
`ovm_mem_max_buf_size` and `mem_buf_tbl_size`, the field `buf_size` of the
entries of `mem_buf_tbl`, their lists `free_buf_list` in list order, and
`pages`, the addresses `mmap` returns to the next requests. -/
structure mem_state where
  mem_page_size : Nat
  ovm_mem_max_buf_size : Nat
  mem_buf_tbl_size : Nat
  buf_size : List Nat
  free_buf_list : List (List Nat)
  pages : List Nat
  deriving DecidableEq, Repr

/-- The loop of `mem_init` that fills the table, `buf_size` being an
`unsigned`. -/
def mem_init_loop (max : Nat) : Nat → Nat → List Nat → Except ovm_stop (List Nat)
  | 0, _, _ => .error .undefined
  | fuel + 1, buf_size, tbl =>
    if buf_size ≤ max then mem_init_loop max fuel ((buf_size <<< 1) % 4294967296) (tbl ++ [buf_size])
    else .ok tbl

/-- `mem_init`, for the page size that `sysconf` reports; a table with more
entries than were allocated is undefined. -/
def mem_init (page_size : Nat) (pages : List Nat) : Except ovm_stop mem_state :=
  match ulog2 (page_size % 4294967296) with
  | .error e => .error e
  | .ok log2 =>
    let max := (page_size >>> 2) % 4294967296
    let tbl_size := (log2 + 18446744073709551616 - 2 + 1 - OVM_MEM_MIN_BUF_SIZE_LOG2) % 4294967296
    match mem_init_loop max 34 OVM_MEM_MIN_BUF_SIZE [] with
    | .error e => .error e
    | .ok tbl =>
      if tbl.length > tbl_size then .error .undefined
      else
        .ok { mem_page_size := page_size, ovm_mem_max_buf_size := max,
              mem_buf_tbl_size := tbl_size, buf_size := tbl,
              free_buf_list := List.replicate tbl.length [], pages := pages }

/-- The binary search of `ovm_mem_alloc`: the final `i` and `cmp`. -/
def mem_search_loop (tbl : List Nat) (size : Nat) :
    Nat → Nat → Nat → Nat → Int → Except ovm_stop (Nat × Int)
  | 0, _, _, _, _ => .error .undefined
  | fuel + 1, a, b, i, cmp =>
    if b > a then
      match tbl.get? ((a + b) / 2) with
      | none => .error .undefined
      | some bs =>
        if size = bs then .ok ((a + b) / 2, 0)
        else if size < bs then mem_search_loop tbl size fuel a ((a + b) / 2) ((a + b) / 2) (-1)
        else mem_search_loop tbl size fuel ((a + b) / 2 + 1) b ((a + b) / 2) 1
    else .ok (i, cmp)

/-- The choice of the entry `i` of `mem_buf_tbl` in `ovm_mem_alloc`, for a
request of at most `ovm_mem_max_buf_size` bytes with the hint `hint`. -/
def mem_class (st : mem_state) (size : Nat) (hint : Int) : Except ovm_stop Nat :=
  if hint ≥ 0 ∧ hint.toNat < st.mem_buf_tbl_size
      ∧ (match st.buf_size.get? hint.toNat with
         | some bs => decide (size ≤ bs)
         | none => false) = true then
    .ok hint.toNat
  else
    match mem_search_loop st.buf_size size (st.mem_buf_tbl_size + 1) 0 st.mem_buf_tbl_size 0 0 with
    | .error e => .error e
    | .ok (i, cmp) => .ok (if cmp > 0 then i + 1 else i)

/-- The loop of `ovm_mem_alloc` that cuts a new page into buffers: the free
list with the new buffers at its end. -/
def mem_carve (buf_size : Nat) : Nat → Nat → Nat → List Nat → Except ovm_stop (List Nat)
  | 0, _, _, _ => .error .undefined
  | fuel + 1, p, rem, free =>
    if rem ≥ buf_size then mem_carve buf_size fuel (p + buf_size) (rem - buf_size) (free ++ [p])
    else .ok free

/-- `mem_pages_alloc`: the address `mmap` returns; if it fails twice the
process exits with code 1. -/
def mem_pages_alloc (st : mem_state) : Except ovm_stop (mem_state × Nat) :=
  match st.pages with
  | [] => .error (.fatal 1)
  | a :: rest => .ok ({ st with pages := rest }, a)

/-- `ovm_mem_alloc`: the buffer returned.  (The collection every 1000000
calls acts on the objects and is left out.) -/
def ovm_mem_alloc (st : mem_state) (size : Nat) (hint : Int) : Except ovm_stop (mem_state × Nat) :=
  if size > st.ovm_mem_max_buf_size then mem_pages_alloc st
  else
    match mem_class st size hint with
    | .error e => .error e
    | .ok i =>
      match st.buf_size.get? i, st.free_buf_list.get? i with
      | some bs, some free =>
        let filled : Except ovm_stop (mem_state × List Nat) :=
          if free = [] then
            match mem_pages_alloc st with
            | .error e => .error e
            | .ok (st1, page) =>
              match mem_carve bs st.mem_page_size (page + SIZEOF_MEM_BUF_PAGE)
                  (st.mem_page_size - SIZEOF_MEM_BUF_PAGE) free with
              | .error e => .error e
              | .ok free1 => .ok (st1, free1)
          else .ok (st, free)
        match filled with
        | .error e => .error e
        | .ok (st1, free1) =>
          match free1.getLast? with
          | none => .error .undefined
          | some b =>
            .ok ({ st1 with free_buf_list := st1.free_buf_list.set i free1.dropLast }, b)
      | _, _ => .error .undefined

/-- The buffer at `b` of the entry `i` lies in one page, behind the page
header. -/
def buf_in_page (st : mem_state) (i b : Nat) : Prop :=
  SIZEOF_MEM_BUF_PAGE ≤ b % st.mem_page_size
    ∧ b % st.mem_page_size + st.buf_size.getD i 0 ≤ st.mem_page_size

/-- The allocator as `mem_init` and the allocations leave it, for pages of
2^p bytes: the table holds the sizes 64, 128, ... up to a quarter of a page,
the free lists hold whole buffers of their entry, and `mmap` returns
addresses of pages. -/
def mem_wf (st : mem_state) (p : Nat) : Prop :=
  8 ≤ p ∧ p ≤ 31 ∧ st.mem_page_size = 2 ^ p ∧ st.ovm_mem_max_buf_size = 2 ^ (p - 2)
    ∧ st.mem_buf_tbl_size = p - 7
    ∧ st.buf_size = (List.range (p - 7)).map (fun i => 64 * 2 ^ i)
    ∧ st.free_buf_list.length = p - 7
    ∧ (∀ i free, st.free_buf_list.get? i = some free → ∀ b ∈ free, buf_in_page st i b)
    ∧ (∀ a ∈ st.pages, a % 2 ^ p = 0)

/-- The allocator after `mem_init` with pages of 4096 bytes; `mmap` will
return the pages at 40960 and 81920. -/
def sample_mem : mem_state :=
  match mem_init 4096 [40960, 81920] with
  | .ok st => st
  | .error _ =>
    { mem_page_size := 0, ovm_mem_max_buf_size := 0, mem_buf_tbl_size := 0, buf_size := [],
      free_buf_list := [], pages := [] }

/-! ### Re-raising, leaving a `try` block, the operations of a thread -/

/-- `ovm_except_reraise`: the thread as `longjmp` finds it, or the way the
function is left through `ovm_thread_fatal` or `except_uncaught`. -/
def ovm_except_reraise (bt pr : ovm_thread → Except ovm_stop ovm_thread) (fuel : Nat)
    (th : ovm_thread) : Except ovm_stop ovm_thread :=
  if th.xfp = 0 then .error (ovm_thread_fatal bt th OVM_THREAD_FATAL_NO_FRAME)
  else
    match th.frames th.xfp with
    | some (.xc _ prev arg arg_valid _ _) =>
      if !arg_valid then .error (ovm_thread_fatal bt th OVM_THREAD_FATAL_NO_FRAME)
      else if prev = 0 then .error (except_uncaught bt pr th arg)
      else except_longjmp fuel { th with xfp := prev } prev arg
    | _ => .error .undefined

/-- The loop of `ovm_frame_except_pop`: frames are popped until `n` exception
frames have been. -/
def frame_except_pop_loop : Nat → ovm_thread → Nat → Except ovm_stop ovm_thread
  | 0, _, _ => .error .undefined
  | fuel + 1, th, n =>
    if n > 0 then
      match frame_pop1 th with
      | .error e => .error e
      | .ok th1 =>
        match th.frames th.fp with
        | some (.xc _ _ _ _ _ _) => frame_except_pop_loop fuel th1 (n - 1)
        | _ => frame_except_pop_loop fuel th1 n
    else .ok th

/-- `ovm_frame_except_pop`; `DEBUG_ASSERT(th->except_lvl == 0)` is an
assertion of the model. -/
def ovm_frame_except_pop (fuel : Nat) (th : ovm_thread) (n : Nat) : Except ovm_stop ovm_thread :=
  let th1 := if th.except_lvl > 0 then { th with except_lvl := th.except_lvl - 1 } else th
  if th1.except_lvl ≠ 0 then .error .undefined
  else if th1.fp ≥ th1.frame_stack_top then
    .error (.fatal OVM_THREAD_FATAL_FRAME_STACK_UNDERFLOW)
  else frame_except_pop_loop fuel th1 n

/-- The loop `while (th->fp <= fp) frame_pop1(th)`. -/
def frame_pop_loop : Nat → ovm_thread → Nat → Except ovm_stop ovm_thread
  | 0, _, _ => .error .undefined
  | fuel + 1, th, fp =>
    if th.fp ≤ fp then
      match frame_pop1 th with
      | .error e => .error e
      | .ok th1 => frame_pop_loop fuel th1 fp
    else .ok th

/-- `frame_pop`. -/
def frame_pop (fuel : Nat) (th : ovm_thread) (fp : Nat) : Except ovm_stop ovm_thread :=
  if th.fp ≥ th.frame_stack_top then .error (.fatal OVM_THREAD_FATAL_FRAME_STACK_UNDERFLOW)
  else frame_pop_loop fuel th fp

/-- `ovm_except_inv_value`, as the thread sees it, and like it the other
functions that raise a system exception: the counter, a work cell for the new
exception `xo`, `dict_ats_put` for its field, then `except_raise2`. -/
def ovm_except_inv_value_thread (bt pr : ovm_thread → Except ovm_stop ovm_thread)
    (fuel : Nat) (th : ovm_thread) (xo w1 w : Nat) : Except ovm_stop ovm_thread :=
  match except_raise1 bt th with
  | .error e => .error e
  | .ok th1 =>
    match ovm_stack_alloc th1 1 with
    | .error e => .error e
    | .ok (th2, work) =>
      match dict_ats_put_work (cell_assign_obj th2 (work - 1) xo) w1 with
      | .error e => .error e
      | .ok th3 =>
        if th3.mcfp = 0 then .error .undefined
        else
          match th3.frames th3.mcfp with
          | some (.mc _ _ _ _ _ _ _ _) => except_raise2 bt pr fuel th3 (work - 1) w
          | _ => .error .undefined

/-- `ovm_except_chk`: the flag is read and cleared. -/
def ovm_except_chk (th : ovm_thread) : ovm_thread × Bool :=
  ({ th with exceptf := false }, th.exceptf)

/-- `ovm_thread_create`, the registers: the structure is allocated cleared,
the two stacks are empty. -/
def ovm_thread_create (stack stack_size frame_stack frame_stack_size : Nat) : ovm_thread :=
  { stack := stack, stack_top := stack + stack_size, sp := stack + stack_size,
    frame_stack := frame_stack, frame_stack_top := frame_stack + frame_stack_size,
    fp := frame_stack + frame_stack_size, nsfp := 0, mcfp := 0, except_lvl := 0, xfp := 0,
    exceptf := false, pc := 0, cells := fun _ => inst_obj 0, frames := fun _ => none,
    fatal_lvl := 0 }

/-- The operations that act on a thread. -/
inductive thread_op where
  | stack_alloc (n : Nat)
  | stack_free (n : Nat)
  | stack_unwind (p : Nat)
  | stack_push (x : Nat)
  | free_alloc (size_free size_alloc : Nat)
  | assign (dst src : Nat)
  | assign_obj (dst obj : Nat)
  | ns_push (ns : Nat)
  | mc_push (dst cl method argc argv : Nat)
  | frame_pop (fp : Nat)
  | except_push (arg : Nat)
  | except_pop (n : Nat)
  | except_chk
  | set_pc (pc : Nat)
  | raise (x w : Nat)
  | raise_sys (xo w1 w : Nat)
  | reraise
  deriving DecidableEq, Repr

/-- One operation. -/
def thread_step (bt pr : ovm_thread → Except ovm_stop ovm_thread) (fuel : Nat)
    (th : ovm_thread) : thread_op → Except ovm_stop ovm_thread
  | .stack_alloc n => (ovm_stack_alloc th n).map Prod.fst
  | .stack_free n => ovm_stack_free th n
  | .stack_unwind p => ovm_stack_unwind th p
  | .stack_push x => ovm_stack_push th x
  | .free_alloc f a => (ovm_stack_free_alloc th f a).map Prod.fst
  | .assign dst src => .ok (cell_assign th dst src)
  | .assign_obj dst obj => .ok (cell_assign_obj th dst obj)
  | .ns_push ns => frame_ns_push th ns
  | .mc_push dst cl method argc argv => frame_mc_push th dst cl method argc argv
  | .frame_pop fp => frame_pop fuel th fp
  | .except_push arg => ovm_frame_except_push th arg
  | .except_pop n => ovm_frame_except_pop fuel th n
  | .except_chk => .ok (ovm_except_chk th).1
  | .set_pc pc => .ok { th with pc := pc }
  | .raise x w => ovm_except_raise bt pr fuel th x w
  | .raise_sys xo w1 w => ovm_except_inv_value_thread bt pr fuel th xo w1 w
  | .reraise => ovm_except_reraise bt pr fuel th

/-- A sequence of operations, as long as the thread goes on. -/
def thread_run (bt pr : ovm_thread → Except ovm_stop ovm_thread) (fuel : Nat) :
    ovm_thread → List thread_op → Except ovm_stop ovm_thread
  | th, [] => .ok th
  | th, op :: ops =>
    match thread_step bt pr fuel th op with
    | .error e => .error e
    | .ok th1 => thread_run bt pr fuel th1 ops

/-- A thread created with 64 cells and 900 bytes of frames, and the
operations that take it into the handler of a `try` block: the frame of a
method call, a catch frame with destination cell 62, and a raise of the
object put in cell 61. -/
def sample_handler_ops : List thread_op :=
  [.stack_alloc 4, .assign_obj 61 300, .mc_push 63 40 62 1 60, .except_push 62, .ns_push 11,
   .raise 61 301]

/-- The thread in the handler. -/
def sample_handler_thread : ovm_thread :=
  match thread_run (fun t => .ok t) (fun t => .ok t) 100 (ovm_thread_create 0 64 100 900)
      sample_handler_ops with
  | .ok t => t
  | .error _ => ovm_thread_create 0 64 100 900


/-- The operations that take a new thread into the handler of a `try` block
nested in another: the enclosing catch frame (destination cell 62) is pushed
at byte-code pointer 7, the inner one (destination cell 60) at 9; the raise of
the object in cell 61 is delivered to the inner frame, and the handler has
pushed a namespace frame. -/
def sample_nested_ops : List thread_op :=
  [.stack_alloc 5, .assign_obj 61 300, .mc_push 63 40 62 1 59, .set_pc 7, .except_push 62,
   .ns_push 11, .set_pc 9, .except_push 60, .ns_push 12, .raise 61 301, .ns_push 13]

/-- The thread in the inner handler. -/
def sample_nested_thread : ovm_thread :=
  match thread_run (fun t => .ok t) (fun t => .ok t) 100 (ovm_thread_create 0 64 100 900)
      sample_nested_ops with
  | .ok t => t
  | .error _ => ovm_thread_create 0 64 100 900

/-! ### Classes: `cl_init_tbl`, `classes_init`, `class_new` -/

/-- The fields of `ovm_consts` that `cl_init_tbl` names. -/
inductive cl_id where
  | Metaclass | Object | Boolean | Integer | Float | Method | Codemethod | String | Pair | List
  | Array | Carray | Bytearray | Cbytearray | Slice | Cslice | Set | Cset | Dictionary
  | Cdictionary | Namespace | Module | User | File | Exception | System | Environment
  deriving DecidableEq, Repr

/-- An entry of `cl_init_tbl` (the hook `init` is with `classes_env`). -/
structure cl_init_entry where
  dst : cl_id
  name : String
  parent : Option cl_id
  mark : Option mark_fn
  free : Option free_fn
  cleanup : Option cleanup_fn
  deriving DecidableEq, Repr

/-- `cl_init_tbl`. -/
def cl_init_tbl : List cl_init_entry :=
  [ { dst := .Metaclass, name := "#Metaclass", parent := some .Object,
      mark := some .class_mark, free := some .class_free, cleanup := none },
    { dst := .Object, name := "#Object", parent := none,
      mark := none, free := none, cleanup := none },
    { dst := .Boolean, name := "#Boolean", parent := some .Object,
      mark := none, free := none, cleanup := none },
    { dst := .Integer, name := "#Integer", parent := some .Object,
      mark := none, free := none, cleanup := none },
    { dst := .Float, name := "#Float", parent := some .Object,
      mark := none, free := none, cleanup := none },
    { dst := .Method, name := "#Method", parent := some .Object,
      mark := none, free := none, cleanup := none },
    { dst := .Codemethod, name := "#Codemethod", parent := some .Object,
      mark := none, free := none, cleanup := none },
    { dst := .String, name := "#String", parent := some .Object,
      mark := none, free := none, cleanup := none },
    { dst := .Pair, name := "#Pair", parent := some .Object,
      mark := some .pair_mark, free := some .pair_free, cleanup := none },
    { dst := .List, name := "#List", parent := some .Object,
      mark := some .list_mark, free := some .list_free, cleanup := none },
    { dst := .Array, name := "#Array", parent := some .Object,
      mark := some .array_mark, free := some .array_free, cleanup := none },
    { dst := .Carray, name := "#Carray", parent := some .Array,
      mark := some .array_mark, free := some .array_free, cleanup := none },
    { dst := .Bytearray, name := "#Bytearray", parent := some .Object,
      mark := none, free := none, cleanup := none },
    { dst := .Cbytearray, name := "#Cbytearray", parent := some .Bytearray,
      mark := none, free := none, cleanup := none },
    { dst := .Slice, name := "#Slice", parent := some .Object,
      mark := some .slice_mark, free := some .slice_free, cleanup := none },
    { dst := .Cslice, name := "#Cslice", parent := some .Slice,
      mark := some .slice_mark, free := some .slice_free, cleanup := none },
    { dst := .Set, name := "#Set", parent := some .Object,
      mark := some .set_mark, free := some .set_free, cleanup := none },
    { dst := .Cset, name := "#Cset", parent := some .Set,
      mark := some .set_mark, free := some .set_free, cleanup := none },
    { dst := .Dictionary, name := "#Dictionary", parent := some .Object,
      mark := some .set_mark, free := some .set_free, cleanup := none },
    { dst := .Cdictionary, name := "#Cdictionary", parent := some .Dictionary,
      mark := some .set_mark, free := some .set_free, cleanup := none },
    { dst := .Namespace, name := "#Namespace", parent := some .Object,
      mark := some .ns_mark, free := some .ns_free, cleanup := none },
    { dst := .Module, name := "#Module", parent := some .Namespace,
      mark := some .module_mark, free := some .module_free, cleanup := some .module_cleanup },
    { dst := .User, name := "#__User_Class", parent := some .Object,
      mark := some .set_mark, free := some .set_free, cleanup := none },
    { dst := .File, name := "#File", parent := some .Object,
      mark := some .file_mark, free := some .file_free, cleanup := some .file_cleanup },
    { dst := .Exception, name := "#Exception", parent := some .User,
      mark := some .set_mark, free := some .set_free, cleanup := none },
    { dst := .System, name := "#System", parent := some .Object,
      mark := none, free := none, cleanup := none },
    { dst := .Environment, name := "#Environment", parent := some .Object,
      mark := none, free := none, cleanup := none } ]

/-- The constants table with the fields of `tbl`; `Byteslice` and
`Cbyteslice`, which no entry of `cl_init_tbl` names, stay 0. -/
def consts_of (tbl : cl_id → Nat) : ovm_consts :=
  { Metaclass := tbl .Metaclass, Object := tbl .Object, Boolean := tbl .Boolean,
    Integer := tbl .Integer, Float := tbl .Float, Method := tbl .Method,
    Codemethod := tbl .Codemethod, String := tbl .String, Pair := tbl .Pair, List := tbl .List,
    Array := tbl .Array, Carray := tbl .Carray, Bytearray := tbl .Bytearray,
    Cbytearray := tbl .Cbytearray, Slice := tbl .Slice, Cslice := tbl .Cslice,
    Byteslice := 0, Cbyteslice := 0, Set := tbl .Set, Cset := tbl .Cset,
    Dictionary := tbl .Dictionary, Cdictionary := tbl .Cdictionary, Namespace := tbl .Namespace,
    File := tbl .File, Module := tbl .Module, Exception := tbl .Exception, System := tbl .System,
    User := tbl .User, Environment := tbl .Environment }

/-- The store before `classes_init`: no object, and the addresses `free` for
the allocations to come. -/
def objs_init (free : List Nat) : ovm_objs :=
  { inst_of := fun _ => 0, body := fun _ => none, locked := fun _ => false, free := free }

/-- `class_alloc`: a class object with cleared fields, instance of what
`OVM_METACLASS` is at that moment. -/
def class_alloc (s : ovm_objs) (metaclass : Nat) : Except ovm_stop (ovm_objs × Nat) :=
  ovm_obj_alloc s metaclass (.cls 0 0 0 0 0 0 none none none)

/-- `str_newc`, as to the object: a new String object. -/
def obj_str_newc (s : ovm_objs) (string_cl : Nat) : Except ovm_stop (ovm_objs × Nat) :=
  ovm_obj_alloc s string_cl .raw

/-- `set_newc`, as to the object: a new Set or Dictionary with empty buckets. -/
def obj_set_newc (s : ovm_objs) (cl : Nat) (size : Nat) : Except ovm_stop (ovm_objs × Nat) :=
  match round_up_to_power_of_2 34 size with
  | .error e => .error e
  | .ok n =>
    if set_alloc_fits n then ovm_obj_alloc s cl (.set n 0 (List.replicate n 0))
    else .error .undefined

/-- The field `parent` of the class at `a`. -/
def cls_parent (s : ovm_objs) (a : Nat) : Option Nat :=
  match s.body a with
  | some (.cls _ parent _ _ _ _ _ _ _) => some parent
  | _ => none

/-- `cl_dict` on the class object at `cl`. -/
def obj_cl_dict (s : ovm_objs) (cl : Nat) (ofs : cl_dict_ofs) : Except ovm_stop Nat :=
  match s.body cl with
  | some (.cls _ _ _ _ cl_methods inst_methods _ _ _) =>
    match ofs with
    | .CL_OFS_CL_METHODS_DICT => .ok cl_methods
    | .CL_OFS_INST_METHODS_DICT => .ok inst_methods
  | _ => .error .undefined

/-- An entry of `method_init_tbl`. -/
structure method_init_entry where
  cl : cl_id
  dict_ofs : cl_dict_ofs
  sel : String
  func : Nat
  deriving DecidableEq, Repr

/-- What `classes_init` and `class_new` use without acting on a class object
themselves: `dict_ats_put` on a dictionary (which makes a String, a Pair and a
list cell), the table of methods, and the two class hooks of `cl_init_tbl`,
`module_cl_init` and `file_cl_init` (which make Strings, Files and a
Dictionary and put them in the class variables). -/
structure classes_env where
  dict_ats_put : ovm_objs → Nat → List Char → ovm_inst → Except ovm_stop ovm_objs
  method_init_tbl : List method_init_entry
  module_cl_init : ovm_objs → Nat → Except ovm_stop ovm_objs
  file_cl_init : ovm_objs → Nat → Except ovm_stop ovm_objs

/-- Pass 1 of `classes_init`: the classes are allocated as instances of the
metaclass. -/
def classes_pass1 : List cl_init_entry → ovm_objs → (cl_id → Nat) →
    Except ovm_stop (ovm_objs × (cl_id → Nat))
  | [], s, tbl => .ok (s, tbl)
  | e :: es, s, tbl =>
    match class_alloc s (tbl .Metaclass) with
    | .error err => .error err
    | .ok (s1, a) => classes_pass1 es s1 (fun i => if i = e.dst then a else tbl i)

/-- Pass 2 of `classes_init`: names, parents, handlers and dictionaries. -/
def classes_pass2 : List cl_init_entry → ovm_objs → (cl_id → Nat) → Except ovm_stop ovm_objs
  | [], s, _ => .ok s
  | e :: es, s, tbl =>
    match obj_str_newc s (tbl .String) with
    | .error err => .error err
    | .ok (s1, name) =>
      match obj_set_newc s1 (tbl .Dictionary) 16 with
      | .error err => .error err
      | .ok (s2, cl_vars) =>
        match obj_set_newc s2 (tbl .Dictionary) 128 with
        | .error err => .error err
        | .ok (s3, cl_methods) =>
          match obj_set_newc s3 (tbl .Dictionary) 128 with
          | .error err => .error err
          | .ok (s4, inst_methods) =>
            match s4.body (tbl e.dst) with
            | some (.cls _ parent ns _ _ _ _ _ _) =>
              classes_pass2 es
                { s4 with body := fun p =>
                    if p = tbl e.dst then
                      some (.cls name
                        (match e.parent with
                         | some q => tbl q
                         | none => parent)
                        ns cl_vars cl_methods inst_methods e.mark e.free e.cleanup)
                    else s4.body p }
                tbl
            | _ => .error .undefined

/-- Pass 3 of `classes_init`: the methods are put in the dictionaries of their
classes. -/
def classes_pass3 (env : classes_env) : List method_init_entry → ovm_objs → (cl_id → Nat) →
    Except ovm_stop ovm_objs
  | [], s, _ => .ok s
  | m :: ms, s, tbl =>
    match obj_cl_dict s (tbl m.cl) m.dict_ofs with
    | .error err => .error err
    | .ok d =>
      match env.dict_ats_put s d m.sel.toList (inst_codemethod m.func) with
      | .error err => .error err
      | .ok s1 => classes_pass3 env ms s1 tbl

/-- Pass 5 of `classes_init`: every class is given the main namespace and
entered in it. -/
def classes_pass5 (env : classes_env) (ns_main main_dict : Nat) :
    List cl_init_entry → ovm_objs → (cl_id → Nat) → Except ovm_stop ovm_objs
  | [], s, _ => .ok s
  | e :: es, s, tbl =>
    match s.body (tbl e.dst) with
    | some (.cls name parent _ cl_vars cl_methods inst_methods mark free cleanup) =>
      match env.dict_ats_put
          { s with body := fun p =>
              if p = tbl e.dst then
                some (.cls name parent ns_main cl_vars cl_methods inst_methods mark free cleanup)
              else s.body p }
          main_dict e.name.toList (inst_obj (tbl e.dst)) with
      | .error err => .error err
      | .ok s1 => classes_pass5 env ns_main main_dict es s1 tbl
    | _ => .error .undefined

/-- `classes_init`, as to the objects (the work cells and the namespace frame
of pass 6 are with the thread): the store and the constants table it leaves. -/
def classes_init (env : classes_env) (s : ovm_objs) : Except ovm_stop (ovm_objs × ovm_consts) :=
  match class_alloc s 0 with
  | .error err => .error err
  | .ok (s0, metaclass) =>
    match classes_pass1 cl_init_tbl.tail s0
        (fun i => if i = cl_id.Metaclass then metaclass else 0) with
    | .error err => .error err
    | .ok (s1, tbl) =>
      match classes_pass2 cl_init_tbl s1 tbl with
      | .error err => .error err
      | .ok s2 =>
        match classes_pass3 env env.method_init_tbl s2 tbl with
        | .error err => .error err
        | .ok s3 =>
          match obj_set_newc s3 (tbl .Dictionary) 64 with
          | .error err => .error err
          | .ok (s4, main_dict) =>
            match obj_str_newc s4 (tbl .String) with
            | .error err => .error err
            | .ok (s5, str) =>
              match ovm_obj_alloc s5 (tbl .Namespace) (.ns str 0 main_dict) with
              | .error err => .error err
              | .ok (s6, ns_main) =>
                match env.dict_ats_put s6 main_dict "main".toList (inst_obj ns_main) with
                | .error err => .error err
                | .ok s7 =>
                  match classes_pass5 env ns_main main_dict cl_init_tbl s7 tbl with
                  | .error err => .error err
                  | .ok s8 =>
                    match env.module_cl_init s8 (tbl .Module) with
                    | .error err => .error err
                    | .ok s9 =>
                      match env.file_cl_init s9 (tbl .File) with
                      | .error err => .error err
                      | .ok s10 => .ok (s10, consts_of tbl)

/-- `ovm_inst_classval`: the class a cell holds, for a cell of type OBJ whose
raw class is the metaclass or 0. -/
def ovm_inst_classval (c : ovm_consts) (s : ovm_objs) (inst : ovm_inst) : Except ovm_stop Nat :=
  match inst.val with
  | .objval obj =>
    if ovm_inst_of_raw c s.inst_of inst = c.Metaclass ∨ ovm_inst_of_raw c s.inst_of inst = 0
    then .ok obj
    else .error (.raised (ovm_except_inv_value inst))
  | .strval obj _ =>
    if ovm_inst_of_raw c s.inst_of inst = c.Metaclass ∨ ovm_inst_of_raw c s.inst_of inst = 0
    then .ok obj
    else .error (.raised (ovm_except_inv_value inst))
  | _ => .error (.raised (ovm_except_inv_value inst))

/-- `ovm_inst_nsval`: the namespace a cell holds (a class is a subclass of
Namespace within `fuel` steps of its parent chain). -/
def ovm_inst_nsval (c : ovm_consts) (fuel : Nat) (s : ovm_objs) (inst : ovm_inst) :
    Except ovm_stop Nat :=
  match inst.val with
  | .objval obj =>
    match ovm_is_subclass_of fuel s (ovm_inst_of_raw c s.inst_of inst) c.Namespace with
    | .error e => .error e
    | .ok true => .ok obj
    | .ok false => .error (.raised (ovm_except_inv_value inst))
  | .strval obj _ =>
    match ovm_is_subclass_of fuel s (ovm_inst_of_raw c s.inst_of inst) c.Namespace with
    | .error e => .error e
    | .ok true => .ok obj
    | .ok false => .error (.raised (ovm_except_inv_value inst))
  | _ => .error (.raised (ovm_except_inv_value inst))

/-- `class_new`, as to the objects: the name, the three dictionaries and the
class are allocated, then the class is entered in the namespace `ns`
(`ns_ats_put`, which is `dict_ats_put` on `ns->dict`).  The name and the
dictionaries are arguments of one call, which C evaluates in an order of its
choice; here they are allocated from left to right. -/
def class_new (env : classes_env) (c : ovm_consts) (s : ovm_objs) (ns : Nat) (name : List Char)
    (parent : Nat) (mark : Option mark_fn) (free : Option free_fn)
    (cleanup : Option cleanup_fn) : Except ovm_stop (ovm_objs × Nat) :=
  match obj_str_newc s c.String with
  | .error err => .error err
  | .ok (s1, str) =>
    match obj_set_newc s1 c.Dictionary 16 with
    | .error err => .error err
    | .ok (s2, cl_vars) =>
      match obj_set_newc s2 c.Dictionary 128 with
      | .error err => .error err
      | .ok (s3, cl_methods) =>
        match obj_set_newc s3 c.Dictionary 128 with
        | .error err => .error err
        | .ok (s4, inst_methods) =>
          match ovm_obj_alloc s4 c.Metaclass
              (.cls str parent ns cl_vars cl_methods inst_methods mark free cleanup) with
          | .error err => .error err
          | .ok (s5, cl) =>
            match s5.body ns with
            | some (.ns _ _ dict) =>
              match env.dict_ats_put s5 dict name (inst_obj cl) with
              | .error err => .error err
              | .ok s6 => .ok (s6, cl)
            | some (.module _ _ dict _ _) =>
              match env.dict_ats_put s5 dict name (inst_obj cl) with
              | .error err => .error err
              | .ok s6 => .ok (s6, cl)
            | _ => .error .undefined

/-- `ovm_class_new`: the parent is the cell on top of the stack, the
namespace the cell below it (both are checked in the arguments of one call;
here the namespace first). -/
def ovm_class_new (env : classes_env) (c : ovm_consts) (fuel : Nat) (s : ovm_objs)
    (parent_inst ns_inst : ovm_inst) (name : List Char) (mark : Option mark_fn)
    (free : Option free_fn) (cleanup : Option cleanup_fn) : Except ovm_stop (ovm_objs × Nat) :=
  match ovm_inst_nsval c fuel s ns_inst with
  | .error err => .error err
  | .ok ns =>
    match ovm_inst_classval c s parent_inst with
    | .error err => .error err
    | .ok parent => class_new env c s ns name parent mark free cleanup

/-- `ovm_except_num_args_range`. -/
def ovm_except_num_args_range (min max got : Nat) : ovm_exception :=
  { type := "system.number-of-arguments",
    fields := [("minimum", .inst (inst_int min)), ("maximum", .inst (inst_int max)),
               ("got", .inst (inst_int got))] }

/-- Method `Metaclass.new` on the arguments `argv`, `ns_up` being the
namespace `ns_up(th, 1)` that is used without a fourth argument: the new class
has the handlers of a user class and the class method `__alloc__`. -/
def Metaclass_new (env : classes_env) (c : ovm_consts) (fuel : Nat) (s : ovm_objs)
    (argv : List ovm_inst) (ns_up : Nat) : Except ovm_stop (ovm_objs × Nat) :=
  if argv.length < 3 ∨ argv.length > 4 then
    .error (.raised (ovm_except_num_args_range 3 4 argv.length))
  else
    match (argv.getD 1 inst_nil).val with
    | .strval _ nm =>
      match ovm_inst_classval c s (argv.getD 2 inst_nil) with
      | .error err => .error err
      | .ok parent =>
        match (if argv.length = 4 then ovm_inst_nsval c fuel s (argv.getD 3 inst_nil)
               else .ok ns_up) with
        | .error err => .error err
        | .ok ns =>
          match class_new env c s ns nm.data parent (some .set_mark) (some .set_free) none with
          | .error err => .error err
          | .ok (s1, cl) =>
            match obj_cl_dict s1 cl .CL_OFS_CL_METHODS_DICT with
            | .error err => .error err
            | .ok d =>
              match env.dict_ats_put s1 d "__alloc__".toList (inst_codemethod 0) with
              | .error err => .error err
              | .ok s2 => .ok (s2, cl)
    | _ => .error (.raised (ovm_except_inv_value (argv.getD 1 inst_nil)))

/-- The allocator's addresses are distinct, not 0, and hold no object; no
object is at address 0. -/
def objs_wf (s : ovm_objs) : Prop :=
  s.free.Nodup ∧ (∀ a ∈ s.free, a ≠ 0 ∧ s.body a = none) ∧ s.body 0 = none

/-- The parent chain of the class at `a` ends at Object. -/
inductive reaches_object (c : ovm_consts) (s : ovm_objs) : Nat → Prop where
  | object : reaches_object c s c.Object
  | parent (a p : Nat) : a ≠ 0 → cls_parent s a = some p → reaches_object c s p →
      reaches_object c s a

/-- The state of the classes: the constants used are set and differ from the
metaclass, the objects whose raw class is the metaclass or 0 are class
objects, and the parent chain of every class object ends at Object. -/
def classes_ok (c : ovm_consts) (s : ovm_objs) : Prop :=
  objs_wf s
    ∧ c.Object ≠ 0 ∧ c.Metaclass ≠ 0 ∧ c.String ≠ 0 ∧ c.Dictionary ≠ 0
    ∧ c.Object ≠ c.Metaclass ∧ c.String ≠ c.Metaclass ∧ c.Dictionary ≠ c.Metaclass
    ∧ (∀ a, a ≠ 0 → s.body a ≠ none → (s.inst_of a = c.Metaclass ∨ s.inst_of a = 0) →
        cls_parent s a ≠ none)
    ∧ (∀ a, cls_parent s a ≠ none → reaches_object c s a)

/-- What an operation on other objects leaves of the classes: the class
objects and their parents are as before, none is made, and an object it makes
is an instance of a class other than the metaclass. -/
def classes_kept (c : ovm_consts) (s s1 : ovm_objs) : Prop :=
  (objs_wf s → objs_wf s1)
    ∧ (∀ a, cls_parent s1 a = cls_parent s a)
    ∧ (∀ a, a ≠ 0 → s1.body a ≠ none → cls_parent s1 a = none →
        (s.body a ≠ none ∧ s1.inst_of a = s.inst_of a)
          ∨ (s1.inst_of a ≠ c.Metaclass ∧ s1.inst_of a ≠ 0))

/-- The operations of `env` act on other objects than the classes. -/
def env_keeps (c : ovm_consts) (env : classes_env) : Prop :=
  (∀ s d k v s1, env.dict_ats_put s d k v = .ok s1 → classes_kept c s s1)
    ∧ (∀ s cl s1, env.module_cl_init s cl = .ok s1 → classes_kept c s s1)
    ∧ (∀ s cl s1, env.file_cl_init s cl = .ok s1 → classes_kept c s s1)

/-- The cell does not hold a pointer to freed memory. -/
def cell_live (s : ovm_objs) (inst : ovm_inst) : Prop :=
  ∀ obj, inst.val = .objval obj → obj ≠ 0 → s.body obj ≠ none

/-- The state during pass 1 of `classes_init`: the classes of `ids` are
allocated, with cleared fields, at distinct addresses, the other fields of the
table are 0, and there is no other object. -/
def pass1_state (s : ovm_objs) (tbl : cl_id → Nat) (ids : List cl_id) (m : Nat) : Prop :=
  objs_wf s
    ∧ (∀ i ∈ ids, tbl i ≠ 0 ∧ cls_parent s (tbl i) = some 0)
    ∧ (∀ i, i ∉ ids → tbl i = 0)
    ∧ (∀ i ∈ ids, ∀ j ∈ ids, tbl i = tbl j → i = j)
    ∧ (∀ a, s.body a ≠ none → ∃ i ∈ ids, a = tbl i)
    ∧ tbl .Metaclass = m

/-- The state during pass 2: the class objects are those of the table, and
the other objects are no instances of the metaclass. -/
def pass2_state (s : ovm_objs) (tbl : cl_id → Nat) : Prop :=
  objs_wf s
    ∧ (∀ i, tbl i ≠ 0 ∧ cls_parent s (tbl i) ≠ none)
    ∧ (∀ a, cls_parent s a ≠ none → ∃ i, a = tbl i)
    ∧ (∀ a, a ≠ 0 → s.body a ≠ none →
        (s.inst_of a = tbl .Metaclass ∨ s.inst_of a = 0) → cls_parent s a ≠ none)

/-- The parent pass 2 gives the class of entry `e`. -/
def parent_addr (tbl : cl_id → Nat) (e : cl_init_entry) : Nat :=
  match e.parent with
  | some q => tbl q
  | none => 0

/-- An environment for the samples: the dictionaries are left as they are. -/
def sample_classes_env : classes_env :=
  { dict_ats_put := fun s _ _ _ => .ok s, method_init_tbl := [],
    module_cl_init := fun s _ => .ok s, file_cl_init := fun s _ => .ok s }

/-- The store and the constants after `classes_init`, the allocator handing
out the addresses from 1000 on. -/
def sample_classes : ovm_objs × ovm_consts :=
  match classes_init sample_classes_env (objs_init (List.range' 1000 200)) with
  | .ok r => r
  | .error _ => (objs_init [], sample_consts)

/-! ### The Environment (`ovm_environ_atc`, `ovm_environ_atcput`) -/

/-- `ovm_except_no_var`. -/
def ovm_except_no_var (var : ovm_inst) : ovm_exception :=
  { type := "system.no-variable", fields := [("name", .inst var)] }

/-- The namespaces a method of Environment sees: `ns_up(th, 1)`, the
namespace of the caller; the namespace of the module it belongs to
(`module_cur(ns)->base`); the main namespace; and for a namespace its
dictionary `ns->dict` and the address of that dictionary. -/
structure ovm_environ where
  ns : Nat
  module_ns : Nat
  ns_main : Nat
  dict : Nat → ovm_dict
  dict_addr : Nat → Nat

/-- `ns_ats`. -/
def ns_ats (e : ovm_environ) (ns : Nat) (size : Nat) (data : List Char) (hash : Nat) :
    Except ovm_stop (Option ovm_obj_pair) :=
  dict_ats (e.dict ns) size data hash

/-- `ns_ats_put`: the environment with the dictionary of `ns` as
`dict_ats_put` leaves it. -/
def ns_ats_put (e : ovm_environ) (ns : Nat) (size : Nat) (data : List Char) (hash : Nat)
    (val : ovm_inst) (newstr : Nat) : Except ovm_stop ovm_environ :=
  match dict_ats_put (e.dict_addr ns) (e.dict ns) size data hash val newstr with
  | (_, some err) => .error err
  | (d, none) => .ok { e with dict := fun a => if a = ns then d else e.dict a }

/-- `environ_at`: the Pair found for the name in the cell `nm`, in the
namespace of the caller, else in the module's, else in the main one. -/
def environ_at (mem_hash : Nat → List Char → Nat) (e : ovm_environ) (nm : ovm_inst) :
    Except ovm_stop (Option ovm_obj_pair) :=
  match nm.val with
  | .strval _ s =>
    match str_inst_hash mem_hash nm with
    | .error err => .error err
    | .ok nm1 =>
      match ns_ats e e.ns s.size s.data nm1.hash with
      | .error err => .error err
      | .ok (some pr) => .ok (some pr)
      | .ok none =>
        match (if e.module_ns ≠ e.ns then ns_ats e e.module_ns s.size s.data nm1.hash
               else .ok none) with
        | .error err => .error err
        | .ok (some pr) => .ok (some pr)
        | .ok none => ns_ats e e.ns_main s.size s.data nm1.hash
  | _ => .error (.raised (ovm_except_inv_value nm))

/-- Class method `Environment.ate` on the arguments `argv`: what is assigned
to `dst`. -/
def Environment_ate (mem_hash : Nat → List Char → Nat) (e : ovm_environ) (argv : List ovm_inst) :
    Except ovm_stop ovm_inst :=
  if argv.length ≠ 2 then .error (.raised (ovm_except_num_args 2 argv.length))
  else
    match environ_at mem_hash e (argv.getD 1 inst_nil) with
    | .error err => .error err
    | .ok none =>
      match str_inst_hash mem_hash (argv.getD 1 inst_nil) with
      | .error err => .error err
      | .ok nm1 => .error (.raised (ovm_except_no_var nm1))
    | .ok (some pr) => .ok pr.second

/-- Class method `Environment.atput` on the arguments `argv`: the
environment it leaves and what is assigned to `dst`. -/
def Environment_atput (mem_hash : Nat → List Char → Nat) (e : ovm_environ)
    (argv : List ovm_inst) (newstr : Nat) : Except ovm_stop (ovm_environ × ovm_inst) :=
  if argv.length ≠ 3 then .error (.raised (ovm_except_num_args 3 argv.length))
  else
    match (argv.getD 1 inst_nil).val with
    | .strval _ s =>
      match str_inst_hash mem_hash (argv.getD 1 inst_nil) with
      | .error err => .error err
      | .ok arg1 =>
        match ns_ats_put e e.ns s.size s.data arg1.hash (argv.getD 2 inst_nil) newstr with
        | .error err => .error err
        | .ok e1 => .ok (e1, argv.getD 2 inst_nil)
    | _ => .error (.raised (ovm_except_inv_value (argv.getD 1 inst_nil)))

/-- `ovm_str_newch(dst, size, data, hash)` on the cell at `dst`, the new
String object being at `obj`. -/
def ovm_str_newch (th : ovm_thread) (dst : Nat) (size : Nat) (data : List Char) (hash : Nat)
    (obj : Nat) : ovm_thread :=
  { th with cells := fun a =>
      if a = dst then
        { hash_valid := true, hash := hash, val := .strval obj { size := size, data := data } }
      else th.cells a }

/-- The arguments of a call with `argc` arguments: the cells from `th->sp`
on (`ovm_method_callsch` has `argv = th->sp`). -/
def callsch_argv (th : ovm_thread) (argc : Nat) : List ovm_inst :=
  (List.range argc).map (fun k => th.cells (th.sp + k))

/-- `ovm_environ_atc(th, dst, nm)`: the receiver Environment and the name are
put in two work cells and the class method `ate` of Environment is called on
them (the dispatch and the frames of the call are left out). -/
def ovm_environ_atc (mem_hash : Nat → List Char → Nat) (c : ovm_consts) (th : ovm_thread)
    (e : ovm_environ) (dst : Nat) (nm_size : Nat) (nm : List Char) (hash : Nat) (strobj : Nat) :
    Except ovm_stop ovm_thread :=
  match ovm_stack_alloc th 2 with
  | .error err => .error err
  | .ok (th1, work) =>
    let th2 := cell_assign_obj th1 (work - 2) c.Environment
    let th3 := ovm_str_newch th2 (work - 1) nm_size nm hash strobj
    match Environment_ate mem_hash e (callsch_argv th3 2) with
    | .error err => .error err
    | .ok r =>
      ovm_stack_unwind
        { th3 with cells := fun a => if a = dst then r else th3.cells a } work

/-- `ovm_environ_atcput(th, nm, val)`, `val` the address of the cell with the
value: three work cells, the class method `atput` of Environment called on
them with `&th->sp[2]` as destination. -/
def ovm_environ_atcput (mem_hash : Nat → List Char → Nat) (c : ovm_consts) (th : ovm_thread)
    (e : ovm_environ) (nm_size : Nat) (nm : List Char) (hash : Nat) (val : Nat)
    (strobj newstr : Nat) : Except ovm_stop (ovm_thread × ovm_environ) :=
  match ovm_stack_alloc th 3 with
  | .error err => .error err
  | .ok (th1, work) =>
    let th2 := cell_assign_obj th1 (work - 3) c.Environment
    let th3 := ovm_str_newch th2 (work - 2) nm_size nm hash strobj
    let th4 := cell_assign th3 (work - 2) val
    match Environment_atput mem_hash e (callsch_argv th4 3) newstr with
    | .error err => .error err
    | .ok (e1, r) =>
      match ovm_stack_unwind
          { th4 with cells := fun a => if a = th4.sp + 2 then r else th4.cells a } work with
      | .error err => .error err
      | .ok th5 => .ok (th5, e1)

/-- A thread in a method, with the Integer 1 in cell 61 and the String `v` in
cell 62. -/
def sample_environ_thread : ovm_thread :=
  { sample_thread 40 with
    cells := fun a =>
      if a = 61 then inst_int 1
      else if a = 62 then inst_str 640 2 "v".toList
      else inst_obj 0 }

/-- Three namespaces with empty dictionaries of four buckets: the caller's at
801, its module's at 802, the main one at 803. -/
def sample_environ : ovm_environ :=
  { ns := 801, module_ns := 802, ns_main := 803,
    dict := fun _ => { size := 4, cnt := 0, data := [[], [], [], []] },
    dict_addr := fun a => a + 100 }

/-! ### Mutating methods and the constant containers -/

/-- `struct ovm_obj_slice`. -/
structure ovm_obj_slice where
  underlying : Nat
  ofs : Nat
  size : Nat
  deriving DecidableEq, Repr

/-- The containers: the store of classes and dictionaries, the Arrays with
their items, the Slices. -/
structure ovm_containers where
  st : ovm_store
  arrays : Nat → Option (List ovm_inst)
  slices : Nat → Option ovm_obj_slice

/-- `ovm_is_subclass_of` on the classes of a store. -/
def store_is_subclass_of : Nat → ovm_store → Nat → Nat → Except ovm_stop Bool
  | 0, _, _, _ => .error .undefined
  | fuel + 1, st, cl1, cl2 =>
    if cl1 = 0 then .ok false
    else if cl1 = cl2 then .ok true
    else
      match st.classes cl1 with
      | some cl => store_is_subclass_of fuel st cl.parent cl2
      | none => .error .undefined

/-- The accessors `ovm_inst_dictval`, `ovm_inst_sliceval`, ...: the object of
a cell of type OBJ whose raw class is a subclass of `cl`. -/
def ovm_inst_val_of (fuel : Nat) (c : ovm_consts) (st : ovm_store) (cl : Nat)
    (inst : ovm_inst) : Except ovm_stop Nat :=
  match inst.val with
  | .objval obj =>
    match store_is_subclass_of fuel st (ovm_inst_of_raw c st.inst_of inst) cl with
    | .error e => .error e
    | .ok true => .ok obj
    | .ok false => .error (.raised (ovm_except_inv_value inst))
  | .strval obj _ =>
    match store_is_subclass_of fuel st (ovm_inst_of_raw c st.inst_of inst) cl with
    | .error e => .error e
    | .ok true => .ok obj
    | .ok false => .error (.raised (ovm_except_inv_value inst))
  | _ => .error (.raised (ovm_except_inv_value inst))

/-- `ovm_inst_dictval`. -/
def ovm_inst_dictval (fuel : Nat) (c : ovm_consts) (st : ovm_store) (inst : ovm_inst) :
    Except ovm_stop Nat :=
  ovm_inst_val_of fuel c st c.Dictionary inst

/-- `ovm_inst_sliceval`. -/
def ovm_inst_sliceval (fuel : Nat) (c : ovm_consts) (st : ovm_store) (inst : ovm_inst) :
    Except ovm_stop Nat :=
  ovm_inst_val_of fuel c st c.Slice inst

/-- `ovm_inst_intval`. -/
def ovm_inst_intval (inst : ovm_inst) : Except ovm_stop Int :=
  match inst.val with
  | .intval i => .ok i
  | _ => .error (.raised (ovm_except_inv_value inst))

/-- The store with the Dictionary at `d` replaced. -/
def containers_set_dict (cs : ovm_containers) (d : Nat) (s : ovm_dict) : ovm_containers :=
  { cs with st := { cs.st with dicts := fun a => if a = d then some s else cs.st.dicts a } }

/-- The code method `main$Dictionary$atput` on the arguments `argv`. -/
def main_Dictionary_atput (km : key_methods) (fuel : Nat) (c : ovm_consts)
    (cs : ovm_containers) (argv : List ovm_inst) : ovm_containers × Except ovm_stop ovm_inst :=
  if argv.length ≠ 3 then (cs, .error (.raised (ovm_except_num_args 3 argv.length)))
  else
    match ovm_inst_dictval fuel c cs.st (argv.getD 0 inst_nil) with
    | .error e => (cs, .error e)
    | .ok d =>
      match cs.st.dicts d with
      | none => (cs, .error .undefined)
      | some s =>
        match Dictionary_atput km d s (argv.getD 1 inst_nil) (argv.getD 2 inst_nil) with
        | (s1, r) => (containers_set_dict cs d s1, r)

/-- The code method `main$Dictionary$atputnew`. -/
def main_Dictionary_atputnew (km : key_methods) (fuel : Nat) (c : ovm_consts)
    (cs : ovm_containers) (argv : List ovm_inst) : ovm_containers × Except ovm_stop ovm_inst :=
  if argv.length ≠ 3 then (cs, .error (.raised (ovm_except_num_args 3 argv.length)))
  else
    match ovm_inst_dictval fuel c cs.st (argv.getD 0 inst_nil) with
    | .error e => (cs, .error e)
    | .ok d =>
      match cs.st.dicts d with
      | none => (cs, .error .undefined)
      | some s =>
        match Dictionary_atputnew km d s (argv.getD 1 inst_nil) (argv.getD 2 inst_nil) with
        | (s1, r) => (containers_set_dict cs d s1, r)

/-- The code method `main$Dictionary$del`: the receiver has to be of the
class Dictionary itself. -/
def main_Dictionary_del (km : key_methods) (c : ovm_consts) (cs : ovm_containers)
    (argv : List ovm_inst) : ovm_containers × Except ovm_stop ovm_inst :=
  if argv.length ≠ 2 then (cs, .error (.raised (ovm_except_num_args 2 argv.length)))
  else if ovm_inst_of_raw c cs.st.inst_of (argv.getD 0 inst_nil) ≠ c.Dictionary then
    (cs, .error (.raised (ovm_except_inv_value (argv.getD 0 inst_nil))))
  else
    match (argv.getD 0 inst_nil).val with
    | .objval d =>
      match cs.st.dicts d with
      | none => (cs, .error .undefined)
      | some s =>
        match Dictionary_del km s (argv.getD 1 inst_nil) with
        | (s1, r) => (containers_set_dict cs d s1, r)
    | _ => (cs, .error .undefined)

/-- `array_at_put` on the items of an Array: `none` for `false`. -/
def array_at_put (data : List ovm_inst) (idx : Int) (val : ovm_inst) : Option (List ovm_inst) :=
  match slice1 idx data.length with
  | none => none
  | some i => some (data.set i.toNat val)

/-- The code method `main$Array$atput`: the receiver has to be of the class
Array itself. -/
def main_Array_atput (c : ovm_consts) (cs : ovm_containers) (argv : List ovm_inst) :
    ovm_containers × Except ovm_stop ovm_inst :=
  if argv.length ≠ 3 then (cs, .error (.raised (ovm_except_num_args 3 argv.length)))
  else if ovm_inst_of_raw c cs.st.inst_of (argv.getD 0 inst_nil) ≠ c.Array then
    (cs, .error (.raised (ovm_except_inv_value (argv.getD 0 inst_nil))))
  else
    match (argv.getD 0 inst_nil).val with
    | .objval a =>
      match cs.arrays a with
      | none => (cs, .error .undefined)
      | some data =>
        match ovm_inst_intval (argv.getD 1 inst_nil) with
        | .error e => (cs, .error e)
        | .ok idx =>
          match array_at_put data idx (argv.getD 2 inst_nil) with
          | none =>
            (cs, .error (.raised
              (ovm_except_idx_range (argv.getD 0 inst_nil) (argv.getD 1 inst_nil))))
          | some data1 =>
            ({ cs with arrays := fun p => if p = a then some data1 else cs.arrays p },
             .ok (argv.getD 2 inst_nil))
    | _ => (cs, .error .undefined)

/-- The code method `main$Slice$atput`; `call` is
`ovm_method_callsch(th, dst, "atput", 3)` on the three work cells, the call of
the method `atput` of the underlying container. -/
def main_Slice_atput
    (call : ovm_containers → List ovm_inst → ovm_containers × Except ovm_stop ovm_inst)
    (fuel : Nat) (c : ovm_consts) (cs : ovm_containers) (argv : List ovm_inst) :
    ovm_containers × Except ovm_stop ovm_inst :=
  if argv.length ≠ 3 then (cs, .error (.raised (ovm_except_num_args 3 argv.length)))
  else
    match ovm_inst_sliceval fuel c cs.st (argv.getD 0 inst_nil) with
    | .error e => (cs, .error e)
    | .ok obj =>
      match cs.slices obj with
      | none => (cs, .error .undefined)
      | some sl =>
        match ovm_inst_intval (argv.getD 1 inst_nil) with
        | .error e => (cs, .error e)
        | .ok idx =>
          match slice1 idx sl.size with
          | none =>
            (cs, .error (.raised
              (ovm_except_idx_range (argv.getD 0 inst_nil) (argv.getD 1 inst_nil))))
          | some idx1 =>
            call cs [inst_obj sl.underlying, inst_int (wrap64 (sl.ofs + idx1)),
                     argv.getD 2 inst_nil]

/-- A one-bucket dictionary of methods: each selector with its code method,
the key Strings from address `key` on. -/
def sample_methods (key : Nat) (ms : List (String × Nat)) : ovm_dict :=
  { size := 1, cnt := ms.length,
    data := [ms.enum.map (fun p =>
      { first := inst_str (key + p.1) (p.2.1.length + 1) p.2.1.toList,
        second := inst_codemethod p.2.2 })] }

/-- The classes Object, Array, Slice, Cslice, Dictionary and Cdictionary of
`sample_consts` with their parents and, of their instance methods in
`method_init_tbl`, those that write and a few others (a code method is named
by the line of oovm.c it starts at); the Cdictionary 900 with the contents of
`sample_dict`, the Dictionary 901 with the same contents, the Array 910 of
10, 20, 30, and the Cslice 920 of its last two items. -/
def sample_containers : ovm_containers :=
  { st :=
      { inst_of := fun obj =>
          if obj = 900 then 22 else if obj = 901 then 21 else if obj = 910 then 11
          else if obj = 920 then 16 else if obj = 1 then 0 else 1,
        classes := fun obj =>
          if obj = 2 then some { name := 200, parent := 0, ns := 0, cl_vars := 201,
                                 cl_methods := 202, inst_methods := 203 }
          else if obj = 11 then some { name := 1100, parent := 2, ns := 0, cl_vars := 1101,
                                       cl_methods := 1102, inst_methods := 1103 }
          else if obj = 15 then some { name := 1500, parent := 2, ns := 0, cl_vars := 1501,
                                       cl_methods := 1502, inst_methods := 1503 }
          else if obj = 16 then some { name := 1600, parent := 15, ns := 0, cl_vars := 1601,
                                       cl_methods := 1602, inst_methods := 1603 }
          else if obj = 21 then some { name := 2100, parent := 2, ns := 0, cl_vars := 2101,
                                       cl_methods := 2102, inst_methods := 2103 }
          else if obj = 22 then some { name := 2200, parent := 21, ns := 0, cl_vars := 2201,
                                       cl_methods := 2202, inst_methods := 2203 }
          else none,
        dicts := fun obj =>
          if obj = 900 ∨ obj = 901 then some sample_dict
          else if obj = 1103 then some (sample_methods 11030 [("at", 5530), ("atput", 5539)])
          else if obj = 1503 then some (sample_methods 15030 [("at", 6056), ("atput", 6070)])
          else if obj = 1603 then some (sample_methods 16030 [("write", 6193)])
          else if obj = 2103 then
            some (sample_methods 21030
              [("atput", 6661), ("atputnew", 6669), ("del", 6684), ("delall", 6693),
               ("put", 6702)])
          else if obj = 2203 then
            some (sample_methods 22030 [("copy", 6812), ("copydeep", 6818), ("write", 6840)])
          else some sample_dict0 },
    arrays := fun obj => if obj = 910 then some [inst_int 10, inst_int 20, inst_int 30] else none,
    slices := fun obj =>
      if obj = 920 then some { underlying := 910, ofs := 1, size := 2 } else none }

/-! ### Operand cells of the interpreter -/

def OVM_THREAD_FATAL_INVALID_OPCODE : Nat := 226

/-- `interp_invalid_opcode`: the thread ends with the code for an invalid
instruction. -/
def interp_invalid_opcode : ovm_stop := .fatal OVM_THREAD_FATAL_INVALID_OPCODE

/-- The number of cells an address space of 64 bits holds: a cell, a
`struct ovm_inst`, has 32 bytes (two bytes and an `unsigned`, then a union
aligned for its `long double`). -/
def CELL_SPACE : Nat := 576460752303423488

/-- The pointer `p + ofs` for a pointer to cells `p` and a `long long`
`ofs`.  A cell is named by its address divided by the size of a cell; the
address computed is `p + 32 * ofs` on 64 bits, so the cell is the sum modulo
`CELL_SPACE`. -/
def cell_add (p : Nat) (ofs : Int) : Nat :=
  (((p : Int) + ofs) % (CELL_SPACE : Int)).toNat

/-- `interp_base_ofs`: the cell an operand of the code at `th->pc` names, and
the new `th->pc`.  The operand is read before the frame is asked for. -/
def interp_base_ofs (code : List Nat) (th : ovm_thread) : Except ovm_stop (Nat × Nat) :=
  match code_byte code th.pc with
  | .error e => .error e
  | .ok op =>
    let n := op >>> 5
    match _interp_intval code th.pc 3 false with
    | .error e => .error e
    | .ok (ofs, pc1) =>
      match thread_mcfp th with
      | .error e => .error e
      | .ok mcfp =>
        match th.frames mcfp with
        | some (.mc _ _ _ _ dst bp argc ap) =>
          if Nat.land op 24 = 0 then
            if ofs < 0 then .error interp_invalid_opcode
            else
              let result := cell_add th.sp ofs
              if result ≥ bp then .error interp_invalid_opcode else .ok (result, pc1)
          else if Nat.land op 24 = 8 then
            if ofs ≥ 0 then .error interp_invalid_opcode
            else
              let result := cell_add bp ofs
              if result < th.sp then .error interp_invalid_opcode else .ok (result, pc1)
          else if Nat.land op 24 = 16 then
            if ofs < 0 ∨ ofs ≥ (argc : Int) then .error interp_invalid_opcode
            else .ok (cell_add ap ofs, pc1)
          else
            if n ≠ 0 ∨ ofs ≠ 0 then .error interp_invalid_opcode
            else .ok (dst, pc1)
        | _ => .error .undefined

/-- The sample thread with four cells between its stack pointer, 56, and
the base pointer of its frame, 60. -/
def sample_operand_thread : ovm_thread := { sample_thread 40 with sp := 56 }

/-- An operand on the base `sp` with eight bytes of offset, `2^59 - 1`. -/
def sample_operand_sp : List Nat := [224, 7, 255, 255, 255, 255, 255, 255, 255]

/-- An operand on the base `bp` with eight bytes of offset, `- 2^59`. -/
def sample_operand_bp : List Nat := [232, 248, 0, 0, 0, 0, 0, 0, 0]

/-! ### Sets: put, del, delall, size and the conversion to an Array -/

/-- The probe loop of `set_find` over one bucket: the position of the first
cell on whose item the `equal` method of `key` answers true. -/
def set_find_loop (km : key_methods) (key : ovm_inst) : List ovm_inst → Option Nat
  | [] => none
  | item :: rest =>
    if km.equal key item then some 0
    else (set_find_loop km key rest).map (fun n => n + 1)

/-- `set_find`: the bucket, and the position in it of the cell found. -/
def set_find (km : key_methods) (s : ovm_obj_set ovm_inst) (key : ovm_inst) :
    Except ovm_stop (Nat × Option Nat) :=
  let b := bucket_index (key_hash km key) s.size
  match s.data.get? b with
  | none => .error .undefined
  | some bucket => .ok (b, set_find_loop km (key_cached km key) bucket)

/-- `set_put`: a key not found is put in front of its bucket and `++s->cnt`
counts it (an `unsigned`, no assertion here). -/
def set_put (km : key_methods) (s : ovm_obj_set ovm_inst) (key : ovm_inst) :
    ovm_obj_set ovm_inst × Option ovm_stop :=
  match set_find km s key with
  | .error e => (s, some e)
  | .ok (b, p) =>
    match p with
    | none =>
      (bucket_prepend { s with cnt := (s.cnt + 1) % 4294967296 } b (key_cached km key), none)
    | some _ => (s, none)

/-- `set_del`: the cell found is unlinked and `--s->cnt` after
`DEBUG_ASSERT(s->cnt > 0)`. -/
def set_del (km : key_methods) (s : ovm_obj_set ovm_inst) (key : ovm_inst) :
    ovm_obj_set ovm_inst × Option ovm_stop :=
  match set_find km s key with
  | .error e => (s, some e)
  | .ok (b, p) =>
    match p with
    | none => (s, none)
    | some n =>
      if s.cnt = 0 then (s, some .undefined)
      else ({ bucket_unlink s b n with cnt := s.cnt - 1 }, none)

/-- `set_clear`: the heads of the `s->size` buckets are set to the null
pointer; no other field of the Set is written. -/
def set_clear {α : Type} (s : ovm_obj_set α) : ovm_obj_set α :=
  { s with data := List.replicate (min s.size s.data.length) [] ++ s.data.drop s.size }

/-- Methods `Set.size` and `Dictionary.size`: `ovm_int_newc(dst, s->cnt)`. -/
def Set_size {α : Type} (s : ovm_obj_set α) : Int := (s.cnt : Int)

/-- Methods `Set.delall` and `Dictionary.delall` on a receiver of the class
itself: `set_clear`. -/
def Set_delall {α : Type} (s : ovm_obj_set α) : ovm_obj_set α := set_clear s

/-- The inner loop of `set_to_array_unsafe` over the cells of one bucket:
`ovm_inst_assign(q, li->item); ++q`, with `a` the cells of the Array and `q`
the index written next.  A write past the Array is undefined. -/
def set_to_array_bucket : List ovm_inst → List ovm_inst → Nat →
    Except ovm_stop (List ovm_inst × Nat)
  | [], a, q => .ok (a, q)
  | item :: rest, a, q =>
    if q < a.length then set_to_array_bucket rest (a.set q item) (q + 1)
    else .error .undefined

/-- The outer loop of `set_to_array_unsafe` over the buckets. -/
def set_to_array_loop : List (List ovm_inst) → List ovm_inst → Nat →
    Except ovm_stop (List ovm_inst)
  | [], a, _ => .ok a
  | bucket :: rest, a, q =>
    match set_to_array_bucket bucket a q with
    | .error e => .error e
    | .ok (a1, q1) => set_to_array_loop rest a1 q1

/-- `set_to_array_unsafe`: the cells of the new Array, which `array_newc`
makes with `s->size` cells, all nil. -/
def set_to_array_unsafe (s : ovm_obj_set ovm_inst) : Except ovm_stop (List ovm_inst) :=
  set_to_array_loop (s.data.take s.size) (List.replicate s.size inst_nil) 0

/-- Methods `Set.Array` and `Set.Carray`: the cells of the Array returned,
whose field `size` is their number. -/
def Set_Array (s : ovm_obj_set ovm_inst) : Except ovm_stop (List ovm_inst) :=
  set_to_array_unsafe s

/-- A Set as `Set.new(4)` and `put(1)` leave it. -/
def sample_set : ovm_obj_set ovm_inst :=
  { size := 4, cnt := 1, data := [[], [key_cached sample_km (inst_int 1)], [], []] }

/-- A Set with one bucket and the elements 1 and 2. -/
def sample_set_full : ovm_obj_set ovm_inst :=
  { size := 1, cnt := 2,
    data := [[key_cached sample_km (inst_int 2), key_cached sample_km (inst_int 1)]] }

/-! ### Writing Integers -/

/-- The read `digits[i]` of `static const char digits[] = "0123456789ABCDEF"`
with an index of type `ovm_intval_t`; outside the seventeen bytes of the
array the read is undefined. -/
def write_digit (i : Int) : Except ovm_stop Char :=
  if 0 ≤ i ∧ i < 17 then .ok (c_at "0123456789ABCDEF".toList i.toNat)
  else .error .undefined

/-- The loop `while (val != 0) { *--p = digits[val % base]; val /= base; }`
of `Integer.write`: `%` and `/` of C truncate towards zero; `room` is the
number of bytes of `buf` still free in front of `p`, and `text` the
characters from `p` to the NUL. -/
def Integer_write_loop (base : Int) : Nat → Int → List Char → Except ovm_stop (List Char)
  | room, val, text =>
    if val = 0 then .ok text
    else
      match room with
      | 0 => .error .undefined
      | room1 + 1 =>
        match write_digit (Int.tmod val base) with
        | .error e => .error e
        | .ok d => Integer_write_loop base room1 (Int.tdiv val base) (d :: text)

/-- The text `snprintf(buf, sizeof(buf), "%lld", val)` leaves in `buf`. -/
def lld_text (val : Int) : List Char :=
  if val < 0 then '-' :: Nat.toDigits 10 val.natAbs else Nat.toDigits 10 val.natAbs

/-- Method `Integer.write` with the receiver `recvr` and the base argument
`arg`, if one is given: the String returned.  `buf` has 65 bytes, the last
of which holds the NUL. -/
def Integer_write (recvr : ovm_inst) (arg : Option ovm_inst) : Except ovm_stop ovm_obj_str :=
  match ovm_inst_intval recvr with
  | .error e => .error e
  | .ok val =>
    match arg with
    | none => .ok { size := (lld_text val).length + 1, data := lld_text val }
    | some a =>
      match ovm_inst_intval a with
      | .error e => .error e
      | .ok base =>
        if base < 2 ∨ base > 16 then .error (.raised (ovm_except_inv_value a))
        else if val = 0 then .ok { size := 2, data := ['0'] }
        else
          match Integer_write_loop base 64 val [] with
          | .error e => .error e
          | .ok text => .ok { size := text.length + 1, data := text }

/-! ### Writing and parsing Strings -/

/-- `isprint` in the "C" locale, on a byte. -/
def isprint (v : Nat) : Bool := decide (32 ≤ v ∧ v ≤ 126)

/-- `isspace` in the "C" locale, on a byte. -/
def isspace (v : Nat) : Bool := decide (v = 32 ∨ (9 ≤ v ∧ v ≤ 13))

/-- `isdigit`, on a byte. -/
def isdigit (v : Nat) : Bool := decide (48 ≤ v ∧ v ≤ 57)

/-- The double quote. -/
def DQUOTE : Char := Char.ofNat 34

/-- The backslash. -/
def BACKSLASH : Char := Char.ofNat 92

/-- A digit of the conversion `%02x`. -/
def hex_lower (d : Nat) : Char := c_at "0123456789abcdef".toList d

/-- `barray_write` on `size` bytes from `data`: the characters appended to
the clist.  A double quote is written behind a backslash, another printable
byte as it is, and any other byte as `\x` and two hexadecimal digits. -/
def barray_write : Nat → List Char → List Char
  | 0, _ => []
  | size + 1, data =>
    let c := c_at data 0
    if char_byte c = 34 then BACKSLASH :: DQUOTE :: barray_write size (data.drop 1)
    else if isprint (char_byte c) then c :: barray_write size (data.drop 1)
    else
      BACKSLASH :: 'x' :: hex_lower (char_byte c / 16) :: hex_lower (char_byte c % 16)
        :: barray_write size (data.drop 1)

/-- `ovm_inst_strval`: the String of a cell that holds one. -/
def ovm_inst_strval (inst : ovm_inst) : Except ovm_stop ovm_obj_str :=
  match inst.val with
  | .strval _ s => .ok s
  | _ => .error (.raised (ovm_except_inv_value inst))

/-- Method `String.write`: the String that `str_new_clist` makes of the
clist, a double quote, the bytes written by `barray_write` and a double
quote. -/
def String_write (recvr : ovm_inst) : Except ovm_stop ovm_obj_str :=
  match ovm_inst_strval recvr with
  | .error e => .error e
  | .ok s =>
    let n := if s.size > 0 then s.size - 1 else 0
    let text := DQUOTE :: (barray_write n s.data ++ [DQUOTE])
    .ok { size := text.length + 1, data := text }

/-- What `parse` stores in its destination: nil, a Boolean, an Integer, a
Float (given by the text handed to `sscanf`), a String, or the result of one
of the parsers for containers and objects. -/
inductive parse_val where
  | nil
  | bool (b : Bool)
  | int (i : Int)
  | float (text : List Char)
  | str (s : ovm_obj_str)
  | other (obj : Nat)
  deriving DecidableEq, Repr

/-- The first loop of `parse_trim`: `n` and `p` behind the leading space. -/
def parse_trim_lead : Nat → List Char → Nat × List Char
  | 0, p => (0, p)
  | n + 1, p =>
    if isspace (char_byte (c_at p 0)) then parse_trim_lead n (p.drop 1) else (n + 1, p)

/-- The second loop of `parse_trim`: `n` without the trailing space; `end`
is `p + n`. -/
def parse_trim_tail : Nat → List Char → Nat
  | 0, _ => 0
  | n + 1, p => if isspace (char_byte (c_at p n)) then parse_trim_tail n p else n + 1

/-- `parse_trim`: the new `size` and `data`. -/
def parse_trim (size : Nat) (data : List Char) : Nat × List Char :=
  match parse_trim_lead size data with
  | (n, p) => (parse_trim_tail n p, p)

/-- `strncmp(data, lit, n) == 0` for a literal `lit` of `n` characters, none
of them NUL. -/
def strncmp_eq (data lit : List Char) : Bool :=
  (List.range lit.length).all (fun i => c_at data i == c_at lit i)

/-- `parse_nil`. -/
def parse_nil (size : Nat) (data : List Char) : Bool :=
  decide (size = 4) && strncmp_eq data "#nil".toList

/-- `parse_bool`: the Boolean stored, or `none` for `false`. -/
def parse_bool (size : Nat) (data : List Char) : Option Bool :=
  if size = 5 ∧ strncmp_eq data "#true".toList = true then some true
  else if size = 6 ∧ strncmp_eq data "#false".toList = true then some false
  else none

/-- A loop `for (k = 0; n > 0; --n, ++p, ++k)` of `parse_float` that leaves
at a character on which `stop` answers and returns `false`, here `none`, at
any other character that is no digit: `k`, `n`, `p` and the last character
read, `c`, when the loop is left. -/
def parse_float_digits (stop : Nat → Bool) :
    Nat → List Char → Nat → Char → Option (Nat × Nat × List Char × Char)
  | 0, p, k, c => some (k, 0, p, c)
  | n + 1, p, k, _ =>
    let c := c_at p 0
    if stop (char_byte c) then some (k, n + 1, p, c)
    else if isdigit (char_byte c) then parse_float_digits stop n (p.drop 1) (k + 1) c
    else none

/-- `parse_float`: whether the text is accepted; the Float stored is what
`sscanf` reads from the `size` characters. -/
def parse_float (size : Nat) (data : List Char) : Bool :=
  let np : Nat × List Char :=
    if size ≥ 1 ∧ char_byte (c_at data 0) = 45 then (size - 1, data.drop 1) else (size, data)
  match parse_float_digits (fun v => v = 46 || toupper v = 69) np.1 np.2 0 NUL with
  | none => false
  | some (k, n, p, c) =>
    if k = 0 then false
    else
      let frac : Option (Nat × List Char × Char) :=
        if n > 0 ∧ char_byte c = 46 then
          match parse_float_digits (fun v => toupper v = 69) (n - 1) (p.drop 1) 0 c with
          | none => none
          | some (k1, n1, p1, c1) => if k1 = 0 then none else some (n1, p1, c1)
        else some (n, p, c)
      match frac with
      | none => false
      | some (n1, p1, c1) =>
        if n1 > 0 ∧ toupper (char_byte c1) = 69 then
          let n2 := n1 - 1
          let p2 := p1.drop 1
          let np3 : Nat × List Char :=
            if n2 > 0 ∧ (char_byte (c_at p2 0) = 43 ∨ char_byte (c_at p2 0) = 45) then
              (n2 - 1, p2.drop 1)
            else (n2, p2)
          match parse_float_digits (fun _ => false) np3.1 np3.2 0 c1 with
          | none => false
          | some (k3, _, _, _) => decide (k3 ≠ 0)
        else true

/-- `_parse_string` on `size` characters from `data`, `cl` being the
characters appended to the clist so far; `none` is the result `false`.
`size` is an `unsigned`: after `\x` with fewer than two characters left the
backslash is appended and the loop goes on, and with none left its `--size`
wraps.  `data` holds the bytes up to the NUL of the String; the loop cannot
go on behind them. -/
def _parse_string : Nat → Nat → List Char → List Char → Except ovm_stop (Option (List Char))
  | 0, _, _, _ => .error .undefined
  | fuel + 1, size, data, cl =>
    if size = 0 then .ok (some cl)
    else if data = [] then .error .undefined
    else
      let c := c_at data 0
      if char_byte c = 34 then .ok none
      else if char_byte c = 92 then
        let size1 := size - 1
        let data1 := data.drop 1
        if size1 = 0 then .ok none
        else
          let e := char_byte (c_at data1 0)
          if e = 92 then _parse_string fuel (size1 - 1) (data1.drop 1) (cl ++ [BACKSLASH])
          else if e = 34 then _parse_string fuel (size1 - 1) (data1.drop 1) (cl ++ [DQUOTE])
          else if e = 110 then
            _parse_string fuel (size1 - 1) (data1.drop 1) (cl ++ [Char.ofNat 10])
          else if e = 114 then
            _parse_string fuel (size1 - 1) (data1.drop 1) (cl ++ [Char.ofNat 13])
          else if e = 116 then
            _parse_string fuel (size1 - 1) (data1.drop 1) (cl ++ [Char.ofNat 9])
          else if e = 120 then
            let size2 := size1 - 1
            let data2 := data1.drop 1
            if size2 < 2 then
              _parse_string fuel ((size2 + 4294967295) % 4294967296) (data2.drop 1)
                (cl ++ [c])
            else
              let d1 := parse_digit (c_at data2 0) 16
              if d1 < 0 then .ok none
              else
                let d2 := parse_digit (c_at data2 1) 16
                if d2 < 0 then .ok none
                else
                  _parse_string fuel (size2 - 2) (data2.drop 2)
                    (cl ++ [Char.ofNat ((d1.toNat * 16 + d2.toNat) % 256)])
          else .ok none
      else _parse_string fuel (size - 1) (data.drop 1) (cl ++ [c])

/-- `parse_string`: the String that `str_new_clist` makes of the clist. -/
def parse_string (size : Nat) (data : List Char) : Except ovm_stop (Option ovm_obj_str) :=
  if size < 2 ∨ char_byte (c_at data 0) ≠ 34 ∨ char_byte (c_at data (size - 1)) ≠ 34 then
    .ok none
  else
    match _parse_string (data.length + 1) (size - 2) (data.drop 1) [] with
    | .error e => .error e
    | .ok none => .ok none
    | .ok (some cl) => .ok (some { size := cl.length + 1, data := cl })

/-- `parse`: the alternatives are tried in turn; `rest` stands for those
behind `parse_string`, the parsers of Pairs, Lists, Arrays, Dictionaries,
Sets and objects. -/
def parse (rest : Nat → List Char → Except ovm_stop (Option parse_val))
    (size : Nat) (data : List Char) : Except ovm_stop (Option parse_val) :=
  match parse_trim size data with
  | (size1, data1) =>
    if size1 = 0 then .ok none
    else if parse_nil size1 data1 then .ok (some .nil)
    else
      match parse_bool size1 data1 with
      | some b => .ok (some (.bool b))
      | none =>
        match parse_int size1 data1 with
        | some i => .ok (some (.int i))
        | none =>
          if parse_float size1 data1 then .ok (some (.float (data1.take size1)))
          else
            match parse_string size1 data1 with
            | .error e => .error e
            | .ok (some s) => .ok (some (.str s))
            | .ok none => rest size1 data1

/-- Method `String.parse`. -/
def String_parse (rest : Nat → List Char → Except ovm_stop (Option parse_val))
    (recvr : ovm_inst) : Except ovm_stop parse_val :=
  match ovm_inst_strval recvr with
  | .error e => .error e
  | .ok s =>
    match parse rest (s.size - 1) s.data with
    | .error e => .error e
    | .ok (some v) => .ok v
    | .ok none => .error (.raised (ovm_except_inv_value recvr))

/-- The String of the two characters backslash and `n`. -/
def sample_backslash_n : ovm_obj_str := { size := 3, data := [BACKSLASH, 'n'] }

/-- The String of the one character backslash. -/
def sample_backslash : ovm_obj_str := { size := 2, data := [BACKSLASH] }

/-! ### `write` on an instance of a user class -/

/-- `str_newv_size`: the String of size `size` into which `size - 1` bytes of
each item of `a` are copied in turn (`str_newv_obj_init`). -/
def str_newv_size (size : Nat) (a : List ovm_obj_str) : ovm_obj_str :=
  { size := size,
    data := a.flatMap (fun i => i.data.take (if i.size > 0 then i.size - 1 else 0)) }

/-- The opening brace. -/
def LBRACE : Char := Char.ofNat 123

/-- The closing brace. -/
def RBRACE : Char := Char.ofNat 125

/-- `obj_lock`: a lock that cannot be taken ends the process (`abort`, or the
assertion of the debug build). -/
def obj_lock (s : ovm_objs) (obj : Nat) : Except ovm_stop ovm_objs :=
  match s.body obj with
  | none => .error .undefined
  | some _ =>
    if s.locked obj then .error .undefined
    else .ok { s with locked := fun p => if p = obj then true else s.locked p }

/-- The inner loop of `user_write_unsafe` over the cells of one bucket, from
`li` on: `f`, `size` and `parts` are the flag, the size counted so far and
the Strings collected so far.  The step `li = ovm_list_next(li), f = true` of
the loop is made after every cell, also after the `continue` for the key
`__instanceof__`. -/
def user_write_loop (write : ovm_objs → ovm_inst → Except ovm_stop (ovm_objs × ovm_obj_str)) :
    Nat → ovm_objs → Nat → Bool → Nat → List ovm_obj_str →
    Except ovm_stop (ovm_objs × Bool × Nat × List ovm_obj_str)
  | 0, _, _, _, _, _ => .error .undefined
  | fuel + 1, s, li, f, size, parts =>
    if li = 0 then .ok (s, f, size, parts)
    else
      match s.body li with
      | some (.list item next) =>
        match s.body item.objval with
        | some (.pair k v) =>
          match k.val with
          | .strval _ ks =>
            if str_equalc ks 15 INSTANCEOF then user_write_loop write fuel s next true size parts
            else
              let size1 := if f then (size + 2) % 4294967296 else size
              match write s v with
              | .error e => .error e
              | .ok (s1, vs) =>
                let size2 :=
                  (5 + (ks.size + 4294967295) % 4294967296
                     + (vs.size + 4294967295) % 4294967296) % 4294967296
                let ss :=
                  str_newv_size size2
                    [{ size := 2, data := [DQUOTE] }, ks, { size := 4, data := [DQUOTE, ':', ' '] }, vs]
                let size3 := (size1 + (ss.size + 4294967295) % 4294967296) % 4294967296
                match s1.body li with
                | some (.list _ next1) =>
                  user_write_loop write fuel s1 next1 true size3 (parts ++ [ss])
                | _ => .error .undefined
          | _ => .error .undefined
        | _ => .error .undefined
      | _ => .error .undefined

/-- The outer loop of `user_write_unsafe` over the buckets of the Set at
`obj`: `n` buckets are still to be visited, the next one is the bucket `i`. -/
def user_write_buckets
    (write : ovm_objs → ovm_inst → Except ovm_stop (ovm_objs × ovm_obj_str))
    (fuel : Nat) (obj : Nat) :
    Nat → Nat → ovm_objs → Bool → Nat → List ovm_obj_str →
    Except ovm_stop (ovm_objs × Nat × List ovm_obj_str)
  | 0, _, s, _, size, parts => .ok (s, size, parts)
  | n + 1, i, s, f, size, parts =>
    match s.body obj with
    | some (.set _ _ data) =>
      match data.get? i with
      | none => .error .undefined
      | some li =>
        match user_write_loop write fuel s li f size parts with
        | .error e => .error e
        | .ok (s1, f1, size1, parts1) =>
          user_write_buckets write fuel obj n (i + 1) s1 f1 size1 parts1
    | _ => .error .undefined

/-- `user_write_unsafe` for the instance at `obj`, a Set of Pairs: the
attributes other than `__instanceof__` are written as `"key": value` and
joined between braces with `str_joinc_size`, the size being the one counted
in the loop, which starts at `sizeof(ldr) + sizeof(trlr) - 1`. -/
def user_write_unsafe
    (write : ovm_objs → ovm_inst → Except ovm_stop (ovm_objs × ovm_obj_str))
    (fuel : Nat) (s : ovm_objs) (obj : Nat) : Except ovm_stop (ovm_objs × ovm_obj_str) :=
  match obj_lock s obj with
  | .error e => .error e
  | .ok s1 =>
    match s1.body obj with
    | some (.set n _ _) =>
      match user_write_buckets write fuel obj n 0 s1 false 3 [] with
      | .error e => .error e
      | .ok (s2, size, parts) =>
        match obj_unlock s2 obj with
        | .error e => .error e
        | .ok s3 => .ok (s3, str_joinc_size size [LBRACE] [',', ' '] [RBRACE] parts)
    | _ => .error .undefined

/-- `obj_write_unsafe` for an object that is not nil: the name of its class,
`@`, and the text `ptr` that `snprintf` makes of its address with `%p`. -/
def obj_write_unsafe (name : ovm_obj_str) (ptr : List Char) : ovm_obj_str :=
  str_newv_size ((1 + (name.size + 4294967295) % 4294967296 + 1 + ptr.length) % 4294967296)
    [name, { size := 2, data := ['@'] }, { size := ptr.length + 1, data := ptr }]

/-- Method `Object.write`.  `class_name` gives the String `name` of the class
that `ovm_obj_inst_of` finds for an object, and `ptr_text` the text of an
address. -/
def main_Object_write (c : ovm_consts)
    (write : ovm_objs → ovm_inst → Except ovm_stop (ovm_objs × ovm_obj_str))
    (class_name : ovm_objs → Nat → Except ovm_stop ovm_obj_str) (ptr_text : Nat → List Char)
    (fuel : Nat) (s : ovm_objs) (recvr : ovm_inst) : Except ovm_stop (ovm_objs × ovm_obj_str) :=
  if recvr.type ≠ .OBJ then .error (.raised (ovm_except_inv_value recvr))
  else if recvr.objval = 0 then .ok (s, { size := 5, data := ['#', 'n', 'i', 'l'] })
  else
    match class_name s recvr.objval with
    | .error e => .error e
    | .ok name =>
      let s1 := obj_write_unsafe name (ptr_text recvr.objval)
      if ovm_inst_of_raw c s.inst_of recvr ≠ c.User then .ok (s, s1)
      else
        match user_write_unsafe write fuel s recvr.objval with
        | .error e => .error e
        | .ok (st, s2) =>
          .ok (st, str_newv_size ((s1.size + s2.size + 4294967295) % 4294967296) [s1, s2])

/-- An instance of a user class at 800 (class 28, `User`), a table of 16
buckets: the entry `__instanceof__`, whose hash ends in 8, in bucket 8 and
the attribute `key`, with the Integer 1, in bucket `b`. -/
def sample_user_objs (key : String) (b : Nat) : ovm_objs :=
  { inst_of := fun p =>
      if p = 800 then 28 else if p = 810 ∨ p = 811 then 10
      else if p = 820 ∨ p = 821 then 9 else 0,
    body := fun p =>
      if p = 800 then
        some (.set 16 2 (((List.replicate 16 0).set 8 810).set b 811))
      else if p = 810 then some (.list (inst_obj 820) 0)
      else if p = 811 then some (.list (inst_obj 821) 0)
      else if p = 820 then some (.pair (inst_str 830 15 INSTANCEOF) (inst_obj 40))
      else if p = 821 then some (.pair (inst_str 831 (key.length + 1) key.toList) (inst_int 1))
      else none,
    locked := fun _ => false,
    free := [] }

/-- The name of the class of the sample instance. -/
def sample_class_name : ovm_objs → Nat → Except ovm_stop ovm_obj_str :=
  fun _ _ => .ok { size := 4, data := ['F', 'o', 'o'] }

/-- The text of an address, for the sample. -/
def sample_ptr_text : Nat → List Char := fun _ => ['0', 'x', '3', '2', '0']

/-- The text of the sample instance with its attribute `key`. -/
def sample_user_text (key : Char) : List Char :=
  ['F', 'o', 'o', '@', '0', 'x', '3', '2', '0', LBRACE, DQUOTE, key, DQUOTE, ':', ' ', '1',
   RBRACE]

/-! ### Splitting Strings -/

/-- Whether the characters `needle` stand at the start of `hay`. -/
def starts_with : List Char → List Char → Bool
  | [], _ => true
  | _ :: _, [] => false
  | a :: rest, b :: hay => a == b && starts_with rest hay

/-- The search of `strstr` in the characters `hay`: the offset of the first
place where `needle` stands. -/
def strstr_loop (needle : List Char) : List Char → Option Nat
  | [] => if needle = [] then some 0 else none
  | c :: hay =>
    if starts_with needle (c :: hay) then some 0
    else (strstr_loop needle hay).map (fun r => r + 1)

/-- `strstr(data, delim)`, as the offset `r - data`; `none` is the null
pointer.  Both arguments are read up to their first NUL. -/
def strstr (data delim : List Char) : Option Nat :=
  strstr_loop (c_str delim) (c_str data)

/-- The loop of `str_splitc_unsafe`, `parts` being the Strings appended to
the list so far, in order (the allocations of the Strings and of the list
cells are taken to succeed).  `size` and `k` are `unsigned`.  With `k` 0 the
next round starts with the `size` and `data` of this one, and so does every
round after it; each appends a new String, so the loop ends when
`ovm_mem_alloc` finds no memory and the process exits with code 1.  With `k`
above `size` the subtraction wraps and `data` points behind the String. -/
def str_splitc_loop (delim_size : Nat) (delim : List Char) :
    Nat → Nat → List Char → List ovm_obj_str → Except ovm_stop (List ovm_obj_str)
  | 0, size, _, parts => if size = 0 then .ok parts else .error .undefined
  | fuel + 1, size, data, parts =>
    if size = 0 then .ok parts
    else
      match strstr data delim with
      | none => .ok (parts ++ [{ size := size + 1, data := data.take size }])
      | some r =>
        let k := (r + (delim_size + 4294967295) % 4294967296) % 4294967296
        if k = 0 then .error (.fatal 1)
        else if k > size then .error .undefined
        else
          str_splitc_loop delim_size delim fuel (size - k) (data.drop k)
            (parts ++ [{ size := r + 1, data := data.take r }])

/-- `str_splitc_unsafe`: the Strings of the list returned.  Every round but
the ones that end the loop takes at least one character, so `size` rounds
are enough. -/
def str_splitc_unsafe (size : Nat) (data : List Char) (delim_size : Nat) (delim : List Char) :
    Except ovm_stop (List ovm_obj_str) :=
  str_splitc_loop delim_size delim ((size + 4294967295) % 4294967296)
    ((size + 4294967295) % 4294967296) data []

/-- Method `String.split`. -/
def String_split (recvr arg : ovm_inst) : Except ovm_stop (List ovm_obj_str) :=
  match ovm_inst_strval recvr with
  | .error e => .error e
  | .ok s =>
    match ovm_inst_strval arg with
    | .error e => .error e
    | .ok d => str_splitc_unsafe s.size s.data d.size d.data

/-! ### Shallow copies: `Object.copy` on an instance of a user class -/

/-- `list_size`. -/
def list_size : Nat → ovm_objs → Nat → Except ovm_stop Nat
  | 0, _, _ => .error .undefined
  | fuel + 1, s, li =>
    if li = 0 then .ok 0
    else
      match s.body li with
      | some (.list _ next) =>
        match list_size fuel s next with
        | .error e => .error e
        | .ok n => .ok ((n + 1) % 4294967296)
      | _ => .error .undefined

/-- The loop `for (; idx > 0; --idx, li = ovm_list_next(li))` of
`list_slicec_unsafe`. -/
def list_slicec_skip : Nat → ovm_objs → Nat → Except ovm_stop Nat
  | 0, _, li => .ok li
  | idx + 1, s, li =>
    match s.body li with
    | some (.list _ next) => list_slicec_skip idx s next
    | _ => .error .undefined

/-- The loop of `list_slicec_unsafe` that copies `len` cells from `li` on:
the store and the `objval` of the destination cell. -/
def list_slicec_loop (c : ovm_consts) :
    Nat → ovm_objs → Nat → Nat → Option Nat → Except ovm_stop (ovm_objs × Nat)
  | 0, s, _, dst, _ => .ok (s, dst)
  | len + 1, s, li, dst, ctxt =>
    match s.body li with
    | some (.list item _) =>
      match list_new c s item 0 with
      | .error e => .error e
      | .ok (s1, cell) =>
        match list_newlc_concat 1 s1 dst ctxt cell with
        | .error e => .error e
        | .ok (s2, dst2, ctxt2) =>
          match s2.body li with
          | some (.list _ next) => list_slicec_loop c len s2 next dst2 ctxt2
          | _ => .error .undefined
    | _ => .error .undefined

/-- `list_slicec_unsafe(th, dst, li, idx, len)` for `idx` and `len` that are
not negative, `dst` being the address of the destination cell: one work
cell is taken from the stack and given back. -/
def list_slicec_unsafe (c : ovm_consts) (th : ovm_thread) (s : ovm_objs) (dst li idx len : Nat) :
    Except ovm_stop (ovm_thread × ovm_objs × Nat) :=
  match list_slicec_skip idx s li with
  | .error e => .error e
  | .ok li1 =>
    match ovm_stack_alloc th 1 with
    | .error e => .error e
    | .ok (th1, work) =>
      match list_slicec_loop c len s li1 0 none with
      | .error e => .error e
      | .ok (s1, head) =>
        match ovm_stack_unwind (cell_assign_obj th1 dst head) work with
        | .error e => .error e
        | .ok th2 => .ok (th2, s1, head)

/-- `list_copy_unsafe`. -/
def list_copy_unsafe (c : ovm_consts) (fuel : Nat) (th : ovm_thread) (s : ovm_objs)
    (dst li : Nat) : Except ovm_stop (ovm_thread × ovm_objs × Nat) :=
  match list_size fuel s li with
  | .error e => .error e
  | .ok n => list_slicec_unsafe c th s dst li 0 n

/-- The loop of `set_copy_unsafe` over the buckets `heads` of the Set
copied, the next one being the bucket `i`: the copy of the list of a bucket
is made in the cell `w` and assigned to the bucket `i` of the new Set `ss`. -/
def set_copy_loop (c : ovm_consts) (fuel : Nat) (ss w : Nat) :
    List Nat → Nat → ovm_thread → ovm_objs → Except ovm_stop (ovm_thread × ovm_objs)
  | [], _, th, s => .ok (th, s)
  | p :: rest, i, th, s =>
    match list_copy_unsafe c fuel th s w p with
    | .error e => .error e
    | .ok (th1, s1, head) =>
      match s1.body ss with
      | some (.set n cnt d) =>
        set_copy_loop c fuel ss w rest (i + 1) th1
          { s1 with body := fun x => if x = ss then some (.set n cnt (d.set i head)) else s1.body x }
      | _ => .error .undefined

/-- `set_copy_unsafe(th, dst, cl, s)` for the Set at `obj`, `dst` being the
address of the destination cell: the thread, the store and the new Set. -/
def set_copy_unsafe (c : ovm_consts) (fuel : Nat) (th : ovm_thread) (s : ovm_objs)
    (dst cl obj : Nat) : Except ovm_stop (ovm_thread × ovm_objs × Nat) :=
  match obj_lock_loop_chk s obj with
  | .error e => .error e
  | .ok s1 =>
    match s1.body obj with
    | some (.set size cnt data) =>
      match obj_set_newc s1 cl size with
      | .error e => .error e
      | .ok (s2, ss) =>
        match ovm_stack_alloc (cell_assign_obj th dst ss) 1 with
        | .error e => .error e
        | .ok (th1, work) =>
          match set_copy_loop c fuel ss (work - 1) (data.take size) 0 th1 s2 with
          | .error e => .error e
          | .ok (th2, s3) =>
            match s3.body ss with
            | some (.set n _ d) =>
              match ovm_stack_unwind th2 work with
              | .error e => .error e
              | .ok th3 =>
                match obj_unlock
                    { s3 with body := fun x => if x = ss then some (.set n cnt d) else s3.body x }
                    obj with
                | .error e => .error e
                | .ok s4 => .ok (th3, s4, ss)
            | _ => .error .undefined
    | _ => .error .undefined

/-- The code method `main$Object$copy`, called with the destination cell
`dst` and the arguments from the cell `argv` on.  For an instance of the
User class the copy is made in the work cell `work[-1]`, and the cell
assigned to the destination is `work[1]`. -/
def main_Object_copy (c : ovm_consts) (fuel : Nat) (th : ovm_thread) (s : ovm_objs)
    (dst argv : Nat) : Except ovm_stop (ovm_thread × ovm_objs) :=
  match ovm_method_argc_chk_exact th 1 with
  | .error e => .error e
  | .ok th0 =>
    if ovm_inst_is_nil (th0.cells argv) then .ok (cell_assign th0 dst argv, s)
    else if ovm_inst_of_raw c s.inst_of (th0.cells argv) = c.User then
      match ovm_stack_alloc th0 1 with
      | .error e => .error e
      | .ok (th1, work) =>
        match set_copy_unsafe c fuel th1 s (work - 1) c.User (th0.cells argv).objval with
        | .error e => .error e
        | .ok (th2, s2, _) => .ok (cell_assign th2 dst (work + 1), s2)
    else .error (.raised (ovm_except_inv_value (th0.cells argv)))

/-- `ovm_method_callsch(th, dst, sel, argc)` from the point where
`method_findc_unsafe` has found the code method `m` in the class `cl`: the
two work cells hold the method and the class, `method_run` pushes the frame
of the call and, for a class with a namespace, a namespace frame, calls the
code method `run` with the destination and the arguments, which start at
the stack pointer of the caller, and pops the frames; the work cells are
given back. -/
def callsch_codemethod (fuel : Nat) (th : ovm_thread) (s : ovm_objs) (dst cl : Nat)
    (m : ovm_inst) (argc : Nat)
    (run : ovm_thread → ovm_objs → Nat → Nat → Except ovm_stop (ovm_thread × ovm_objs)) :
    Except ovm_stop (ovm_thread × ovm_objs) :=
  match ovm_stack_alloc th 2 with
  | .error e => .error e
  | .ok (th1, work) =>
    let th2 : ovm_thread :=
      { th1 with cells := fun a =>
          if a = work - 1 then m else if a = work - 2 then inst_obj cl else th1.cells a }
    match frame_mc_push th2 dst cl (work - 1) argc th.sp with
    | .error e => .error e
    | .ok th3 =>
      match s.body cl with
      | some (.cls _ _ ns _ _ _ _ _ _) =>
        match (if ns ≠ 0 then frame_ns_push th3 ns else .ok th3) with
        | .error e => .error e
        | .ok th4 =>
          match run th4 s dst th.sp with
          | .error e => .error e
          | .ok (th5, s5) =>
            match frame_pop fuel th5 th3.fp with
            | .error e => .error e
            | .ok th6 =>
              match ovm_stack_unwind th6 work with
              | .error e => .error e
              | .ok th7 => .ok (th7, s5)
      | _ => .error .undefined

/-- The store of the sample instance 800 of a user class, with its
attribute `b`, the class Object (2) with the namespace 860, and free
addresses from 840 on. -/
def sample_copy_user_objs : ovm_objs :=
  { sample_user_objs "b" 11 with
    body := fun p =>
      if p = 2 then some (.cls 0 0 860 0 0 0 none none none)
      else (sample_user_objs "b" 11).body p,
    free := [840, 841, 842, 843, 844] }

/-- The sample thread, in a method, with the instance 800 pushed as the
receiver of a call, in the cell 59; the cell 62 is to take the result. -/
def sample_copy_thread : ovm_thread :=
  { sample_thread 40 with
    sp := 59,
    cells := fun a => if a = 59 then inst_obj 800 else inst_obj 0 }

/-- An unreachable object whose class is unreachable too and comes before it
in the list of the objects: the sweep of `collect`, which takes the objects in
list order, destroys the class before it reads its field `cleanup` for the
object. -/
def class_swept_first (h : ovm_heap) (roots : List Nat) : Prop :=
  ∃ l1 p l2, h.white = l1 ++ p :: l2 ∧ ¬ reachable h roots p
    ∧ h.inst_of p ∈ l1 ∧ ¬ reachable h roots (h.inst_of p)

/-! ### A sample heap with a class that no root reaches -/

/-- A constants table for the sample: the classes it uses. -/
def sample_class_consts : ovm_consts :=
  { sample_gc_consts with Pair := 0, List := 0, File := 0, Array := 11 }

/-- The objects of the sample.  The classes `Metaclass` (1), `Object` (2),
`Array` (11) and `Namespace` (23); the main namespace (60); a class (30) as
`ovm_class_new` makes it for the Regexp module (no mark function,
`regexp_cleanup` as free and as cleanup function), which no namespace binds
any more; an instance (53) of that class; and an Array (54) that holds
itself and the instance, and that nothing else points to. -/
def sample_class_body (a : Nat) : Option ovm_body :=
  if a = 1 then some (.cls 0 2 60 0 0 0 (some .class_mark) (some .class_free) none)
  else if a = 2 then some (.cls 0 0 60 0 0 0 none none none)
  else if a = 11 then some (.cls 0 2 60 0 0 0 (some .array_mark) (some .array_free) none)
  else if a = 23 then some (.cls 0 2 60 0 0 0 (some .ns_mark) (some .ns_free) none)
  else if a = 30 then
    some (.cls 0 2 60 0 0 0 none (some .regexp_cleanup) (some .regexp_cleanup))
  else if a = 60 then some (.ns 0 0 0)
  else if a = 53 then some .raw
  else if a = 54 then some (.array [inst_obj 54, inst_obj 53])
  else none

/-- The sample, between two collections, its objects in the order of their
allocation: the class 30 before the Array and the instance. -/
def sample_class_heap : ovm_heap :=
  { body := sample_class_body
    inst_of := fun a =>
      if a = 1 then 0
      else if a = 60 then 23
      else if a = 54 then 11
      else if a = 53 then 30
      else 1
    ref_cnt := fun a =>
      if a = 1 then 5 else if a = 2 then 5 else if a = 11 then 2 else if a = 23 then 2
      else if a = 60 then 6 else 1
    white := [1, 2, 11, 23, 60, 30, 54, 53]
    grey := []
    collectingf := false
    collect_againf := false
    trace := [] }

/-- The same objects with the class 30 last in the list, as when it was
marked after its instance in an earlier collection. -/
def sample_class_heap_late : ovm_heap :=
  { sample_class_heap with white := [1, 2, 11, 23, 60, 54, 53, 30] }

/-- The roots of the sample: one thread, with an Integer on its stack. -/
def sample_class_roots : ovm_roots :=
  { consts := sample_class_consts
    ns_main := 60
    thread_list :=
      [{ sample_thread 11 with
         sp := 63
         cells := fun _ => inst_int 3 }] }

/-- The sample without the Array: the instance 53 of the class 30 is held by
one cell of a stack, and the class 30, which no namespace binds any more, by
its instance alone. -/
def sample_release_heap : ovm_heap :=
  { sample_class_heap with
    body := fun a => if a = 54 then none else sample_class_body a
    ref_cnt := fun a => if a = 11 then 1 else sample_class_heap.ref_cnt a
    white := [1, 2, 11, 23, 60, 30, 53] }

/-- Cells of a stack over `sample_release_heap`: cell 61 holds the instance
53, the others the Integer 3. -/
def sample_release_cells : Nat → ovm_inst :=
  fun a => if a = 61 then inst_obj 53 else inst_int 3

/-! ## Part II: theorems -/

/-! ### Method lookup -/

theorem dict_ats_ok_of_bucket (d : ovm_dict) (size : Nat) (data : List Char) (hash : Nat)
    (h : (d.data.get? (bucket_index hash d.size)).isSome = true) :
    ∃ r, dict_ats d size data hash = .ok r := by
  cases hb : d.data.get? (bucket_index hash d.size) with
  | none => rw [hb] at h; simp at h
  | some bucket =>
    cases hl : dict_finds_loop size data bucket with
    | none => exact ⟨none, by simp only [dict_ats, dict_finds, hb, hl]⟩
    | some n =>
      exact ⟨(d.data.getD (bucket_index hash d.size) []).get? n,
        by simp only [dict_ats, dict_finds, hb, hl]⟩

theorem findc1_eq_nearest (st : ovm_store) (ofs : cl_dict_ofs) (sel_size : Nat)
    (sel : List Char) (sel_hash : Nat) :
    ∀ (chain : List Nat) (search_cl fuel : Nat),
      is_parent_chain st search_cl chain = true →
      (∀ cl ∈ chain, class_dict_ok st ofs sel_hash cl = true) →
      chain.length < fuel →
      method_findc1_unsafe fuel st search_cl ofs sel_size sel sel_hash
        = .ok (nearest_method st ofs sel_size sel sel_hash chain) := by
  intro chain
  induction chain with
  | nil =>
    intro search_cl fuel hc _ hf
    cases fuel with
    | zero => omega
    | succ fuel =>
      simp [is_parent_chain] at hc
      simp [ method_findc1_unsafe, hc, nearest_method]
  | cons x rest ih =>
    intro search_cl fuel hc hok hf
    cases fuel with
    | zero => omega
    | succ fuel =>
      simp only [is_parent_chain, Bool.and_eq_true, bne_iff_ne, ne_eq, beq_iff_eq] at hc
      obtain ⟨⟨hne, hx⟩, hrest⟩ := hc
      subst hx
      have hokx := hok search_cl (List.mem_cons_self _ _)
      unfold class_dict_ok at hokx
      cases hcl : st.classes search_cl with
      | none => rw [hcl] at hokx; simp at hokx
      | some c =>
        rw [hcl] at hokx hrest
        simp only [] at hokx hrest
        cases hd : st.dicts (cl_dict c ofs) with
        | none => rw [hd] at hokx; simp at hokx
        | some d =>
          rw [hd] at hokx
          simp only [] at hokx
          obtain ⟨r, hr⟩ := dict_ats_ok_of_bucket d sel_size sel sel_hash hokx
          have hrec := ih c.parent fuel hrest
            (fun cl hcl2 => hok cl (List.mem_cons_of_mem _ hcl2))
            (by simp at hf; omega)
          unfold method_findc1_unsafe
          simp only [hne, if_false, hcl, hd, hr]
          unfold nearest_method at hrec ⊢
          rw [List.findSome?_cons]
          cases r with
          | none =>
            have hcm : class_method st ofs sel_size sel sel_hash search_cl = none := by
              simp only [class_method, hcl, hd, hr]
            simpa [hcm] using hrec
          | some pr =>
            by_cases hm : is_method pr.second = true
            · have hcm : class_method st ofs sel_size sel sel_hash search_cl
                  = some pr.second := by
                simp only [class_method, hcl, hd, hr, hm, if_true]
              simp [hcm, hm]
            · have hcm : class_method st ofs sel_size sel sel_hash search_cl = none := by
                simp [class_method, hcl, hd, hr, hm]
              simp only [hm, if_false]
              simpa [hcm] using hrec

theorem nearest_method_some (st : ovm_store) (ofs : cl_dict_ofs) (sel_size : Nat)
    (sel : List Char) (sel_hash : Nat) :
    ∀ (chain : List Nat) (m : ovm_inst) (cl : Nat),
      nearest_method st ofs sel_size sel sel_hash chain = some (m, cl) →
      ∃ pre post, chain = pre ++ cl :: post
        ∧ class_method st ofs sel_size sel sel_hash cl = some m
        ∧ ∀ x ∈ pre, class_method st ofs sel_size sel sel_hash x = none := by
  intro chain
  induction chain with
  | nil => intro m cl h; simp [nearest_method] at h
  | cons x rest ih =>
    intro m cl h
    unfold nearest_method at h
    rw [List.findSome?_cons] at h
    cases hx : class_method st ofs sel_size sel sel_hash x with
    | none =>
      rw [hx] at h
      simp only [Option.map_none'] at h
      obtain ⟨pre, post, hc, hm, hpre⟩ := ih m cl h
      refine ⟨x :: pre, post, by simp [hc], hm, ?_⟩
      intro y hy
      rcases List.mem_cons.mp hy with rfl | hy
      · exact hx
      · exact hpre y hy
    | some m1 =>
      rw [hx] at h
      simp only [Option.map_some'] at h
      have h2 : (m1, x) = (m, cl) := Option.some.inj h
      have hm : m1 = m := congrArg Prod.fst h2
      have hc : x = cl := congrArg Prod.snd h2
      subst hm; subst hc
      exact ⟨[], rest, rfl, hx, by simp⟩

theorem nearest_method_isSome (st : ovm_store) (ofs : cl_dict_ofs) (sel_size : Nat)
    (sel : List Char) (sel_hash : Nat) (chain : List Nat) :
    (nearest_method st ofs sel_size sel sel_hash chain).isSome = true
      ↔ ∃ cl ∈ chain, (class_method st ofs sel_size sel sel_hash cl).isSome = true := by
  induction chain with
  | nil => simp [nearest_method]
  | cons x rest ih =>
    unfold nearest_method at ih ⊢
    rw [List.findSome?_cons]
    cases hx : class_method st ofs sel_size sel sel_hash x with
    | none =>
      simp only [Option.map_none']
      rw [ih]
      constructor
      · rintro ⟨cl, hcl, h⟩
        exact ⟨cl, List.mem_cons_of_mem _ hcl, h⟩
      · rintro ⟨cl, hcl, h⟩
        rcases List.mem_cons.mp hcl with rfl | hcl
        · rw [hx] at h; simp at h
        · exact ⟨cl, hcl, h⟩
    | some m1 =>
      simp only [Option.map_some', Option.isSome_some, true_iff]
      exact ⟨x, List.mem_cons_self _ _, by rw [hx]; rfl⟩

/-- C5: with `chain` the parent chain that starts at `search_cl`,
`method_findc1_unsafe` returns; it returns true (a method) exactly when some
class of the chain maps the selector, in the chosen method dictionary, to a
code method or a byte-code method; the method returned is then the one of the
nearest such class and `found_cl` is that class: no class before it on the
chain maps the selector to a method, an entry of another kind being passed
over. -/
theorem method_findc1_unsafe_nearest (st : ovm_store) (ofs : cl_dict_ofs) (sel_size : Nat)
    (sel : List Char) (sel_hash : Nat) (chain : List Nat) (search_cl fuel : Nat)
    (hchain : is_parent_chain st search_cl chain = true)
    (hok : ∀ cl ∈ chain, class_dict_ok st ofs sel_hash cl = true)
    (hfuel : chain.length < fuel) :
    ∃ r, method_findc1_unsafe fuel st search_cl ofs sel_size sel sel_hash = .ok r
      ∧ (r.isSome = true
          ↔ ∃ cl ∈ chain, (class_method st ofs sel_size sel sel_hash cl).isSome = true)
      ∧ ∀ m found_cl, r = some (m, found_cl) →
          ∃ pre post, chain = pre ++ found_cl :: post
            ∧ class_method st ofs sel_size sel sel_hash found_cl = some m
            ∧ ∀ x ∈ pre, class_method st ofs sel_size sel sel_hash x = none :=
  ⟨nearest_method st ofs sel_size sel sel_hash chain,
   findc1_eq_nearest st ofs sel_size sel sel_hash chain search_cl fuel hchain hok hfuel,
   nearest_method_isSome st ofs sel_size sel sel_hash chain,
   nearest_method_some st ofs sel_size sel sel_hash chain⟩

/-- Witness of C5: the lookup of `size` from class 40 of the sample store,
where class 40 stores an Integer under `size` and Object a code method. -/
theorem method_findc1_unsafe_nearest_witness :
    ∃ r, method_findc1_unsafe 3 sample_store 40 .CL_OFS_INST_METHODS_DICT 5 "size".toList 0
        = .ok r
      ∧ (r.isSome = true ↔ ∃ cl ∈ [40, 2],
          (class_method sample_store .CL_OFS_INST_METHODS_DICT 5 "size".toList 0 cl).isSome
            = true)
      ∧ ∀ m found_cl, r = some (m, found_cl) →
          ∃ pre post, [40, 2] = pre ++ found_cl :: post
            ∧ class_method sample_store .CL_OFS_INST_METHODS_DICT 5 "size".toList 0 found_cl
                = some m
            ∧ ∀ x ∈ pre,
                class_method sample_store .CL_OFS_INST_METHODS_DICT 5 "size".toList 0 x = none :=
  method_findc1_unsafe_nearest sample_store .CL_OFS_INST_METHODS_DICT 5 "size".toList 0
    [40, 2] 40 3 (by decide) (by decide) (by decide)


theorem findc_noexcept_denied (fuel : Nat) (c : ovm_consts) (mem_hash : Nat → List Char → Nat)
    (st : ovm_store) (th : ovm_thread) (recvr : ovm_inst) (sel_size : Nat) (sel : List Char)
    (sel_hash cl up : Nat)
    (hrecv : ovm_inst_of c mem_hash st recvr = .ok cl)
    (hpriv : is_private_sel sel_size sel = true)
    (hup : class_up fuel th 0 = .ok up) (hne : up ≠ cl) :
    method_findc_noexcept_unsafe fuel c mem_hash st th recvr sel_size sel sel_hash
      = .ok none := by
  have hb : (up == cl) = false := by simpa using hne
  simp [ method_findc_noexcept_unsafe, hrecv, hpriv, hup, hb]

theorem findc_noexcept_allowed (fuel : Nat) (c : ovm_consts)
    (mem_hash : Nat → List Char → Nat)
    (st : ovm_store) (th : ovm_thread) (recvr : ovm_inst) (sel_size : Nat) (sel : List Char)
    (sel_hash cl : Nat)
    (hrecv : ovm_inst_of c mem_hash st recvr = .ok cl)
    (hallowed : is_private_sel sel_size sel = false ∨ class_up fuel th 0 = .ok cl) :
    method_findc_noexcept_unsafe fuel c mem_hash st th recvr sel_size sel sel_hash
      = match (if cl = 0 ∨ cl = c.Metaclass then
                ( method_findc1_unsafe fuel st recvr.objval .CL_OFS_CL_METHODS_DICT
                    sel_size sel sel_hash)
               else .ok none) with
        | .error e => .error e
        | .ok (some r) => .ok (some r)
        | .ok none =>
          ( method_findc1_unsafe fuel st cl .CL_OFS_INST_METHODS_DICT sel_size sel sel_hash) := by
  rcases hallowed with hp | hup
  · simp [ method_findc_noexcept_unsafe, hrecv, hp]
  · by_cases hp : is_private_sel sel_size sel = true
    · simp [ method_findc_noexcept_unsafe, hrecv, hp, hup]
    · have hp2 : is_private_sel sel_size sel = false := by simpa using hp
      simp [ method_findc_noexcept_unsafe, hrecv, hp2]

theorem findc1_at_head (st : ovm_store) (ofs : cl_dict_ofs) (sel_size : Nat)
    (sel : List Char) (sel_hash cl fuel : Nat) (m : ovm_inst) (hcl : cl ≠ 0)
    (hdef : class_method st ofs sel_size sel sel_hash cl = some m) :
    method_findc1_unsafe (fuel + 1) st cl ofs sel_size sel sel_hash = .ok (some (m, cl)) := by
  unfold class_method at hdef
  unfold method_findc1_unsafe
  simp only [hcl, if_false]
  cases hc : st.classes cl with
  | none => rw [hc] at hdef; simp at hdef
  | some c0 =>
    rw [hc] at hdef
    simp only [] at hdef ⊢
    cases hd : st.dicts (cl_dict c0 ofs) with
    | none => rw [hd] at hdef; simp at hdef
    | some d =>
      rw [hd] at hdef
      simp only [] at hdef ⊢
      cases hr : dict_ats d sel_size sel sel_hash with
      | error e => rw [hr] at hdef; simp at hdef
      | ok r =>
        cases r with
        | none => rw [hr] at hdef; simp at hdef
        | some pr =>
          rw [hr] at hdef
          simp only [] at hdef ⊢
          by_cases hm : is_method pr.second = true
          · simp only [hm, if_true] at hdef ⊢
            have : pr.second = m := Option.some.inj hdef
            rw [this]
          · simp [hm] at hdef

theorem class_up_ok_fuel (fuel : Nat) (th : ovm_thread) (n cl : Nat)
    (h : class_up fuel th n = .ok cl) : 0 < fuel := by
  cases fuel with
  | zero =>
    unfold class_up at h
    by_cases hm : th.mcfp = 0
    · simp [hm] at h
    · simp [hm, class_up_loop] at h
  | succ k => omega

theorem is_private_sel_of (sel_size : Nat) (sel : List Char)
    (hsize : sel_size = sel.length + 1) (hlen : 2 < sel.length)
    (h0 : c_at sel 0 = '_') (h1 : c_at sel 1 ≠ '_') :
    is_private_sel sel_size sel = true := by
  unfold is_private_sel
  have : sel_size > 2 := by omega
  simp [this, h0, h1]

/-- C6 (amended): for a selector of length above 2 that begins with one
underscore only, classes `A ≠ B`, `A` not the metaclass and defining the selector as
an instance method `m`, and a receiver whose resolved class is `A`: lookup from
a method dispatched through `B` raises `system.no-method` (receiver and
selector recorded), and lookup from a method dispatched through `A` finds `m`
in `A`. -/
theorem private_selector_dispatch (fuel : Nat) (c : ovm_consts)
    (mem_hash : Nat → List Char → Nat) (st : ovm_store) (th_B th_A : ovm_thread)
    (recvr : ovm_inst) (sel_size : Nat) (sel : List Char) (sel_hash A B : Nat) (m : ovm_inst)
    (hsize : sel_size = sel.length + 1) (hlen : 2 < sel.length)
    (h0 : c_at sel 0 = '_') (h1 : c_at sel 1 ≠ '_')
    (hAB : A ≠ B) (hA0 : A ≠ 0) (hAmeta : A ≠ c.Metaclass)
    (hdef : class_method st .CL_OFS_INST_METHODS_DICT sel_size sel sel_hash A = some m)
    (hrecv : ovm_inst_of c mem_hash st recvr = .ok A)
    (hB : class_up fuel th_B 0 = .ok B)
    (hA : class_up fuel th_A 0 = .ok A) :
    method_findc_unsafe fuel c mem_hash st th_B recvr sel_size sel sel_hash
        = .error (.raised (ovm_except_no_methodc recvr sel_size sel))
      ∧ (ovm_except_no_methodc recvr sel_size sel).type = "system.no-method"
      ∧ (ovm_except_no_methodc recvr sel_size sel).fields
          = [("receiver", .inst recvr), ("selector", .newstr sel_size sel)]
      ∧ method_findc_unsafe fuel c mem_hash st th_A recvr sel_size sel sel_hash
          = .ok (m, A) := by
  have hpriv := is_private_sel_of sel_size sel hsize hlen h0 h1
  refine ⟨?_, rfl, rfl, ?_⟩
  · unfold method_findc_unsafe
    rw [findc_noexcept_denied fuel c mem_hash st th_B recvr sel_size sel sel_hash A B
      hrecv hpriv hB (fun h => hAB h.symm)]
  · have hf := class_up_ok_fuel fuel th_A 0 A hA
    obtain ⟨k, rfl⟩ : ∃ k, fuel = k + 1 := ⟨fuel - 1, by omega⟩
    unfold method_findc_unsafe
    rw [findc_noexcept_allowed (k + 1) c mem_hash st th_A recvr sel_size sel sel_hash A
      hrecv (Or.inr hA)]
    have hno : ¬ (A = 0 ∨ A = c.Metaclass) := by
      rintro (h | h)
      · exact hA0 h
      · exact hAmeta h
    simp only [hno, if_false]
    rw [findc1_at_head st .CL_OFS_INST_METHODS_DICT sel_size sel sel_hash A k m hA0 hdef]

/-- Witness of C6 (amended): `_hid` on object 60, an instance of class 40 of
the sample store, from class 50 and from class 40. -/
theorem private_selector_dispatch_witness :
    method_findc_unsafe 2 sample_consts sample_hash sample_store (sample_thread 50)
        (inst_obj 60) 5 "_hid".toList 0
        = .error (.raised (ovm_except_no_methodc (inst_obj 60) 5 "_hid".toList))
      ∧ (ovm_except_no_methodc (inst_obj 60) 5 "_hid".toList).type = "system.no-method"
      ∧ (ovm_except_no_methodc (inst_obj 60) 5 "_hid".toList).fields
          = [("receiver", .inst (inst_obj 60)), ("selector", .newstr 5 "_hid".toList)]
      ∧ method_findc_unsafe 2 sample_consts sample_hash sample_store (sample_thread 40)
          (inst_obj 60) 5 "_hid".toList 0
          = .ok (inst_codemethod 77, 40) :=
  private_selector_dispatch 2 sample_consts sample_hash sample_store (sample_thread 50)
    (sample_thread 40) (inst_obj 60) 5 "_hid".toList 0 40 50 (inst_codemethod 77)
    (by decide) (by decide) (by decide) (by decide) (by decide) (by decide) (by decide)
    (by decide) rfl rfl rfl

/-- C6, counterexample to the claim as stated: in the sample store the
metaclass (1) defines `_hid` as an instance method (code method 55); class
50, an instance of the metaclass, has a class method `_hid` (code method 88).
Dispatching `_hid` on class 50 from a method of the metaclass finds the class
method of class 50, not the instance method of the metaclass. -/
theorem private_selector_dispatch_counterexample :
    (5 = "_hid".toList.length + 1 ∧ 2 < "_hid".toList.length
        ∧ c_at "_hid".toList 0 = '_' ∧ c_at "_hid".toList 1 ≠ '_')
      ∧ class_method sample_store .CL_OFS_INST_METHODS_DICT 5 "_hid".toList 0
          sample_consts.Metaclass = some (inst_codemethod 55)
      ∧ ovm_inst_of sample_consts sample_hash sample_store (inst_obj 50)
          = .ok sample_consts.Metaclass
      ∧ class_up 2 (sample_thread sample_consts.Metaclass) 0 = .ok sample_consts.Metaclass
      ∧ method_findc_unsafe 2 sample_consts sample_hash sample_store
          (sample_thread sample_consts.Metaclass) (inst_obj 50) 5 "_hid".toList 0
          = .ok (inst_codemethod 88, 50)
      ∧ method_findc_unsafe 2 sample_consts sample_hash sample_store
          (sample_thread sample_consts.Metaclass) (inst_obj 50) 5 "_hid".toList 0
          ≠ .ok (inst_codemethod 55, sample_consts.Metaclass) := by
  have hres : method_findc_unsafe 2 sample_consts sample_hash sample_store
      (sample_thread sample_consts.Metaclass) (inst_obj 50) 5 "_hid".toList 0
      = .ok (inst_codemethod 88, 50) := rfl
  refine ⟨by decide, by decide, rfl, rfl, hres, ?_⟩
  rw [hres]
  intro h
  injection h with h
  have h2 := congrArg Prod.snd h
  revert h2
  decide


/-- C7 (amended): for a receiver whose resolved class `cl` is not null, a
selector that is not private or a caller dispatched through `cl`, and with
`mchain` the parent chain of `cl`: when `cl` is the metaclass, lookup first
takes the nearest class method along the receiver's own parent chain
`rchain`; when there is none it falls back on the nearest instance method
along the parent chain of the metaclass, and raises `system.no-method` only
when that fails too.  When `cl` is not the metaclass only the instance-method
dictionaries along `mchain` are consulted. -/
theorem metaclass_receiver_lookup (fuel : Nat) (c : ovm_consts)
    (mem_hash : Nat → List Char → Nat) (st : ovm_store) (th : ovm_thread)
    (recvr : ovm_inst) (sel_size : Nat) (sel : List Char) (sel_hash cl : Nat)
    (rchain mchain : List Nat)
    (hrecv : ovm_inst_of c mem_hash st recvr = .ok cl)
    (hallowed : is_private_sel sel_size sel = false ∨ class_up fuel th 0 = .ok cl)
    (hcl0 : cl ≠ 0)
    (hmchain : is_parent_chain st cl mchain = true)
    (hmok : ∀ x ∈ mchain, class_dict_ok st .CL_OFS_INST_METHODS_DICT sel_hash x = true)
    (hmfuel : mchain.length < fuel)
    (hrchain : cl = c.Metaclass → is_parent_chain st recvr.objval rchain = true)
    (hrok : cl = c.Metaclass →
      ∀ x ∈ rchain, class_dict_ok st .CL_OFS_CL_METHODS_DICT sel_hash x = true)
    (hrfuel : cl = c.Metaclass → rchain.length < fuel) :
    (cl = c.Metaclass →
      method_findc_unsafe fuel c mem_hash st th recvr sel_size sel sel_hash
        = match nearest_method st .CL_OFS_CL_METHODS_DICT sel_size sel sel_hash rchain with
          | some r => .ok r
          | none =>
            match nearest_method st .CL_OFS_INST_METHODS_DICT sel_size sel sel_hash mchain with
            | some r => .ok r
            | none => .error (.raised (ovm_except_no_methodc recvr sel_size sel)))
    ∧ (cl ≠ c.Metaclass →
      method_findc_unsafe fuel c mem_hash st th recvr sel_size sel sel_hash
        = match nearest_method st .CL_OFS_INST_METHODS_DICT sel_size sel sel_hash mchain with
          | some r => .ok r
          | none => .error (.raised (ovm_except_no_methodc recvr sel_size sel))) := by
  have hinst := findc1_eq_nearest st .CL_OFS_INST_METHODS_DICT sel_size sel sel_hash
    mchain cl fuel hmchain hmok hmfuel
  have hall := findc_noexcept_allowed fuel c mem_hash st th recvr sel_size sel sel_hash cl
    hrecv hallowed
  constructor
  · intro hmeta
    have hcls := findc1_eq_nearest st .CL_OFS_CL_METHODS_DICT sel_size sel sel_hash
      rchain recvr.objval fuel (hrchain hmeta) (hrok hmeta) (hrfuel hmeta)
    unfold method_findc_unsafe
    rw [hall]
    have hyes : cl = 0 ∨ cl = c.Metaclass := Or.inr hmeta
    simp only [hyes, if_true, hcls, hinst]
    cases nearest_method st .CL_OFS_CL_METHODS_DICT sel_size sel sel_hash rchain with
    | some r => rfl
    | none =>
      simp only []
      cases nearest_method st .CL_OFS_INST_METHODS_DICT sel_size sel sel_hash mchain <;> rfl
  · intro hmeta
    unfold method_findc_unsafe
    rw [hall]
    have hno : ¬ (cl = 0 ∨ cl = c.Metaclass) := by
      rintro (h | h)
      · exact hcl0 h
      · exact hmeta h
    simp only [hno, if_false, hinst]
    cases nearest_method st .CL_OFS_INST_METHODS_DICT sel_size sel sel_hash mchain <;> rfl

/-- Witness of C7 (amended): `name` sent to class 50 of the sample store. -/
theorem metaclass_receiver_lookup_witness :
    (sample_consts.Metaclass = sample_consts.Metaclass →
      method_findc_unsafe 3 sample_consts sample_hash sample_store (sample_thread 40)
          (inst_obj 50) 5 "name".toList 0
        = match nearest_method sample_store .CL_OFS_CL_METHODS_DICT 5 "name".toList 0
                  [50, 2] with
          | some r => .ok r
          | none =>
            match nearest_method sample_store .CL_OFS_INST_METHODS_DICT 5 "name".toList 0
                    [1, 2] with
            | some r => .ok r
            | none => .error (.raised (ovm_except_no_methodc (inst_obj 50) 5 "name".toList)))
    ∧ (sample_consts.Metaclass ≠ sample_consts.Metaclass →
      method_findc_unsafe 3 sample_consts sample_hash sample_store (sample_thread 40)
          (inst_obj 50) 5 "name".toList 0
        = match nearest_method sample_store .CL_OFS_INST_METHODS_DICT 5 "name".toList 0
                  [1, 2] with
          | some r => .ok r
          | none => .error (.raised (ovm_except_no_methodc (inst_obj 50) 5 "name".toList))) :=
  metaclass_receiver_lookup 3 sample_consts sample_hash sample_store (sample_thread 40)
    (inst_obj 50) 5 "name".toList 0 sample_consts.Metaclass [50, 2] [1, 2]
    rfl (Or.inl (by decide)) (by decide) (by decide) (by decide) (by decide)
    (fun _ => by decide) (fun _ => by decide) (fun _ => by decide)

/-- C7, counterexample to the claim as stated: class 50 of the sample store
is a receiver whose resolved class is the metaclass, and no class on its
parent chain (50, Object) defines `name` as a class method; the lookup does
not fail: it returns the instance method `name` of the metaclass, found in an
instance-method dictionary. -/
theorem metaclass_receiver_lookup_counterexample :
    ovm_inst_of sample_consts sample_hash sample_store (inst_obj 50)
        = .ok sample_consts.Metaclass
      ∧ is_parent_chain sample_store 50 [50, 2] = true
      ∧ (∀ cl ∈ [50, 2],
          class_method sample_store .CL_OFS_CL_METHODS_DICT 5 "name".toList 0 cl = none)
      ∧ method_findc_unsafe 3 sample_consts sample_hash sample_store (sample_thread 40)
          (inst_obj 50) 5 "name".toList 0
          = .ok (inst_codemethod 99, sample_consts.Metaclass)
      ∧ class_method sample_store .CL_OFS_INST_METHODS_DICT 5 "name".toList 0
          sample_consts.Metaclass = some (inst_codemethod 99)
      ∧ method_findc_unsafe 3 sample_consts sample_hash sample_store (sample_thread 40)
          (inst_obj 50) 5 "name".toList 0
          ≠ .error (.raised (ovm_except_no_methodc (inst_obj 50) 5 "name".toList)) := by
  have hres : method_findc_unsafe 3 sample_consts sample_hash sample_store (sample_thread 40)
      (inst_obj 50) 5 "name".toList 0
      = .ok (inst_codemethod 99, sample_consts.Metaclass) := rfl
  refine ⟨rfl, by decide, by decide, hres, by decide, ?_⟩
  rw [hres]
  intro h
  cases h


/-! ### Dictionaries -/

theorem bucket_index_lt (hash size : Nat) (h0 : 0 < size) (h1 : size < 4294967296) :
    bucket_index hash size < size := by
  unfold bucket_index
  have hm : (size + 4294967295) % 4294967296 = size - 1 := by omega
  rw [hm]
  have := @Nat.and_le_right (hash % 4294967296) (size - 1)
  have h2 : Nat.land (hash % 4294967296) (size - 1) = (hash % 4294967296) &&& (size - 1) := rfl
  omega

theorem getD_set_same {α : Type} (l : List (List α)) (b : Nat) (x : List α)
    (h : b < l.length) : (l.set b x).getD b [] = x := by
  simp [List.getD_eq_getElem?_getD, h]

theorem getD_set_other {α : Type} (l : List (List α)) (b b2 : Nat) (x : List α)
    (h : b ≠ b2) : (l.set b x).getD b2 [] = l.getD b2 [] := by
  simp [List.getD_eq_getElem?_getD, List.getElem?_set_ne h]

theorem get?_eq_getD {α : Type} (l : List (List α)) (b : Nat) (h : b < l.length) :
    l.get? b = some (l.getD b []) := by
  simp [List.getD_eq_getElem?_getD, h]

theorem sum_length_set {α : Type} :
    ∀ (l : List (List α)) (b : Nat) (x : List α), b < l.length →
      ((l.set b x).map List.length).sum + (l.getD b []).length
        = (l.map List.length).sum + x.length := by
  intro l
  induction l with
  | nil => intro b x h; simp at h
  | cons y ys ih =>
    intro b x h
    cases b with
    | zero => simp; omega
    | succ b =>
      have hb : b < ys.length := by simpa using h
      have := ih b x hb
      simp only [List.set_cons_succ, List.map_cons, List.sum_cons, List.getD_cons_succ]
      omega

theorem dict_find_ok (km : key_methods) (s : ovm_dict) (key : ovm_inst)
    (h0 : 0 < s.size) (h1 : s.size < 4294967296) (hlen : s.data.length = s.size) :
    bucket_index (key_hash km key) s.size < s.data.length
      ∧ dict_find km s key
          = .ok (bucket_index (key_hash km key) s.size,
                 dict_find_loop km (key_cached km key)
                   (s.data.getD (bucket_index (key_hash km key) s.size) [])) := by
  have hb : bucket_index (key_hash km key) s.size < s.data.length := by
    rw [hlen]; exact bucket_index_lt _ _ h0 h1
  refine ⟨hb, ?_⟩
  unfold dict_find
  simp only [get?_eq_getD s.data _ hb]

theorem dict_find_loop_some (km : key_methods) (key : ovm_inst) :
    ∀ (bucket : List ovm_obj_pair) (n : Nat), dict_find_loop km key bucket = some n →
      ∃ pre e post, bucket = pre ++ e :: post ∧ pre.length = n
        ∧ km.equal key e.first = true ∧ ∀ x ∈ pre, km.equal key x.first = false := by
  intro bucket
  induction bucket with
  | nil => intro n h; simp [dict_find_loop] at h
  | cons pr rest ih =>
    intro n h
    unfold dict_find_loop at h
    by_cases he : km.equal key pr.first = true
    · simp only [he, if_true] at h
      have hn : n = 0 := (Option.some.inj h).symm
      exact ⟨[], pr, rest, rfl, by simp [hn], he, by simp⟩
    · simp only [he, if_false] at h
      cases hr : dict_find_loop km key rest with
      | none => rw [hr] at h; simp at h
      | some m =>
        rw [hr] at h
        simp only [Option.map_some'] at h
        have hn : m + 1 = n := Option.some.inj h
        obtain ⟨pre, e, post, hb, hl, hq, hp⟩ := ih m hr
        refine ⟨pr :: pre, e, post, by simp [hb], by simp [hl, hn], hq, ?_⟩
        intro x hx
        rcases List.mem_cons.mp hx with rfl | hx
        · simpa using he
        · exact hp x hx

theorem dict_find_loop_append (km : key_methods) (key : ovm_inst) (e : ovm_obj_pair)
    (post : List ovm_obj_pair) (he : km.equal key e.first = true) :
    ∀ (pre : List ovm_obj_pair), (∀ x ∈ pre, km.equal key x.first = false) →
      dict_find_loop km key (pre ++ e :: post) = some pre.length := by
  intro pre
  induction pre with
  | nil => intro _; simp [dict_find_loop, he]
  | cons x xs ih =>
    intro h
    have hx : km.equal key x.first = false := h x (List.mem_cons_self _ _)
    have := ih (fun y hy => h y (List.mem_cons_of_mem _ hy))
    simp [dict_find_loop, hx, this]

theorem dict_find_loop_none (km : key_methods) (key : ovm_inst) :
    ∀ (bucket : List ovm_obj_pair), dict_find_loop km key bucket = none →
      ∀ x ∈ bucket, km.equal key x.first = false := by
  intro bucket
  induction bucket with
  | nil => intro _ x hx; simp at hx
  | cons pr rest ih =>
    intro h x hx
    unfold dict_find_loop at h
    by_cases he : km.equal key pr.first = true
    · simp [he] at h
    · simp only [he, if_false] at h
      cases hr : dict_find_loop km key rest with
      | some m => rw [hr] at h; simp at h
      | none =>
        rcases List.mem_cons.mp hx with rfl | hx
        · simpa using he
        · exact ih hr x hx

theorem entries_prepend {α : Type} (s : ovm_obj_set α) (b : Nat) (x : α)
    (hb : b < s.data.length) : dict_entries (bucket_prepend s b x) = dict_entries s + 1 := by
  unfold dict_entries bucket_prepend
  have := sum_length_set s.data b (x :: s.data.getD b []) hb
  simp only [List.length_cons] at this
  simp only []
  omega

theorem entries_unlink {α : Type} (s : ovm_obj_set α) (b n : Nat)
    (hb : b < s.data.length) (hn : n < (s.data.getD b []).length) :
    dict_entries (bucket_unlink s b n) + 1 = dict_entries s := by
  unfold dict_entries bucket_unlink
  have := sum_length_set s.data b ((s.data.getD b []).eraseIdx n) hb
  rw [List.length_eraseIdx] at this
  simp only [hn, if_true] at this
  simp only []
  omega

theorem probe_prepend (km : key_methods) (kq : ovm_inst) (e : ovm_obj_pair) (b0 : Nat)
    (s : ovm_dict) (b : Nat) (x : ovm_obj_pair)
    (hx : km.equal kq x.first = false) (h : probe_stops_at km kq e b0 s) :
    probe_stops_at km kq e b0 (bucket_prepend s b x) := by
  obtain ⟨hb0, pre, post, hbk, hpre⟩ := h
  unfold probe_stops_at bucket_prepend
  simp only [List.length_set]
  refine ⟨hb0, ?_⟩
  by_cases hbb : b = b0
  · subst hbb
    rw [getD_set_same _ _ _ hb0, hbk]
    refine ⟨x :: pre, post, rfl, ?_⟩
    intro y hy
    rcases List.mem_cons.mp hy with rfl | hy
    · exact hx
    · exact hpre y hy
  · rw [getD_set_other _ _ _ _ hbb]
    exact ⟨pre, post, hbk, hpre⟩

theorem probe_unlink (km : key_methods) (kq k2 : ovm_inst) (e : ovm_obj_pair) (b0 : Nat)
    (s : ovm_dict) (b n : Nat)
    (hfind : dict_find_loop km k2 (s.data.getD b []) = some n)
    (hne : km.equal k2 e.first = false) (h : probe_stops_at km kq e b0 s) :
    probe_stops_at km kq e b0 (bucket_unlink s b n) := by
  obtain ⟨hb0, pre, post, hbk, hpre⟩ := h
  unfold probe_stops_at bucket_unlink
  simp only [List.length_set]
  refine ⟨hb0, ?_⟩
  by_cases hbb : b = b0
  · subst hbb
    rw [getD_set_same _ _ _ hb0]
    obtain ⟨pre2, e2, post2, hbk2, hl2, heq2, hpre2⟩ := dict_find_loop_some km k2 _ n hfind
    rw [hbk] at hbk2 ⊢
    -- the cell found is not the cell of `e`
    have hnlen : n ≠ pre.length := by
      intro hn
      have hlen : pre.length = pre2.length := by omega
      have h1 := List.append_inj_left hbk2 hlen
      have h2 := List.append_inj_right hbk2 hlen
      have h3 : e = e2 := by injection h2
      rw [h3, heq2] at hne
      exact Bool.noConfusion hne
    rcases Nat.lt_or_gt_of_ne hnlen with hlt | hgt
    · rw [List.eraseIdx_append_of_lt_length hlt]
      refine ⟨pre.eraseIdx n, post, rfl, ?_⟩
      intro y hy
      exact hpre y (List.mem_of_mem_eraseIdx hy)
    · rw [List.eraseIdx_append_of_length_le (Nat.le_of_lt hgt)]
      obtain ⟨m, hm⟩ : ∃ m, n - pre.length = m + 1 := ⟨n - pre.length - 1, by omega⟩
      rw [hm, List.eraseIdx_cons_succ]
      exact ⟨pre, post.eraseIdx m, rfl, hpre⟩
  · rw [getD_set_other _ _ _ _ hbb]
    exact ⟨pre, post, hbk, hpre⟩

theorem key_cached_idem (km : key_methods) (key : ovm_inst) :
    key_cached km (key_cached km key) = key_cached km key := by
  simp [key_cached, key_hash]

theorem key_hash_cached (km : key_methods) (key : ovm_inst) :
    key_hash km (key_cached km key) = key_hash km key := by
  simp [key_cached, key_hash]

theorem find_loop_lt (km : key_methods) (key : ovm_inst) (bucket : List ovm_obj_pair) (n : Nat)
    (h : dict_find_loop km key bucket = some n) : n < bucket.length := by
  obtain ⟨pre, e, post, hb, hl, _, _⟩ := dict_find_loop_some km key bucket n h
  rw [hb]; simp; omega

/-- What `dict_at_put` does to a well-formed Dictionary with room for one
more entry, for a key other than the one of the entry `e`. -/
theorem dict_at_put_keeps (km : key_methods) (base : Nat) (kq : ovm_inst) (e : ovm_obj_pair)
    (b0 : Nat) (s : ovm_dict) (key val : ovm_inst)
    (hwf : set_wf s) (hroom : s.cnt + 1 < 4294967296)
    (hinv : probe_stops_at km kq e b0 s)
    (h1 : km.equal (key_cached km key) e.first = false)
    (h2 : km.equal kq (key_cached km key) = false) :
    ∃ s1 r, dict_at_put km base s key val = (s1, r)
      ∧ (r = none ∨ ∃ x, r = some (.raised x))
      ∧ set_wf s1 ∧ s1.cnt ≤ s.cnt + 1 ∧ probe_stops_at km kq e b0 s1
      ∧ s1.size = s.size := by
  obtain ⟨h0, hlt, hlen, hcnt, hcb⟩ := hwf
  obtain ⟨hb, hfind⟩ := dict_find_ok km s key h0 hlt hlen
  unfold dict_at_put
  rw [hfind]
  simp only []
  cases hl : dict_find_loop km (key_cached km key)
      (s.data.getD (bucket_index (key_hash km key) s.size) []) with
  | none =>
    simp only []
    have hc : (s.cnt + 1) % 4294967296 = s.cnt + 1 := Nat.mod_eq_of_lt hroom
    have hc0 : ¬ ((s.cnt + 1) % 4294967296 = 0) := by omega
    simp only [hc0, if_false]
    refine ⟨_, _, rfl, Or.inl rfl, ?_, ?_, ?_, rfl⟩
    · refine ⟨h0, hlt, ?_, ?_, ?_⟩
      · simp [bucket_prepend, hlen]
      · rw [entries_prepend _ _ _ (by simpa using hb)]
        show (s.cnt + 1) % 4294967296 = dict_entries s + 1
        omega
      · show (s.cnt + 1) % 4294967296 < 4294967296
        omega
    · simp [bucket_prepend, hc]
    · exact probe_prepend km kq e b0 _ _ _ h2 hinv
  | some n =>
    simp only []
    have hn := find_loop_lt km _ _ n hl
    have hkeep : set_wf (bucket_prepend (bucket_unlink s (bucket_index (key_hash km key) s.size) n)
          (bucket_index (key_hash km key) s.size) { first := key_cached km key, second := val })
        ∧ (bucket_prepend (bucket_unlink s (bucket_index (key_hash km key) s.size) n)
            (bucket_index (key_hash km key) s.size)
            { first := key_cached km key, second := val }).cnt ≤ s.cnt + 1
        ∧ probe_stops_at km kq e b0
            (bucket_prepend (bucket_unlink s (bucket_index (key_hash km key) s.size) n)
              (bucket_index (key_hash km key) s.size)
              { first := key_cached km key, second := val }) := by
      refine ⟨⟨h0, hlt, ?_, ?_, hcb⟩, ?_, ?_⟩
      · simp [bucket_prepend, bucket_unlink, hlen]
      · have hu := entries_unlink s _ n hb hn
        have hp := entries_prepend (bucket_unlink s (bucket_index (key_hash km key) s.size) n)
          (bucket_index (key_hash km key) s.size) { first := key_cached km key, second := val }
          (by simpa [bucket_unlink] using hb)
        rw [hp]
        show s.cnt = _
        omega
      · show s.cnt ≤ s.cnt + 1
        omega
      · exact probe_prepend km kq e b0 _ _ _ h2 (probe_unlink km kq _ e b0 s _ n hl h1 hinv)
    cases hv : (key_cached km key).val with
    | strval obj ks =>
      simp only []
      by_cases hcn : is_const_name ks.size ks.data = true
      · simp only [hcn, if_true]
        exact ⟨_, _, rfl, Or.inr ⟨_, rfl⟩, ⟨h0, hlt, hlen, hcnt, hcb⟩, by omega, hinv, rfl⟩
      · simp only [hcn, if_false]
        exact ⟨_, _, rfl, Or.inl rfl, hkeep.1, hkeep.2.1, hkeep.2.2, rfl⟩
    | objval _ => exact ⟨_, _, rfl, Or.inl rfl, hkeep.1, hkeep.2.1, hkeep.2.2, rfl⟩
    | boolval _ => exact ⟨_, _, rfl, Or.inl rfl, hkeep.1, hkeep.2.1, hkeep.2.2, rfl⟩
    | intval _ => exact ⟨_, _, rfl, Or.inl rfl, hkeep.1, hkeep.2.1, hkeep.2.2, rfl⟩
    | floatval _ => exact ⟨_, _, rfl, Or.inl rfl, hkeep.1, hkeep.2.1, hkeep.2.2, rfl⟩
    | codemethodval _ => exact ⟨_, _, rfl, Or.inl rfl, hkeep.1, hkeep.2.1, hkeep.2.2, rfl⟩
    | methodval _ => exact ⟨_, _, rfl, Or.inl rfl, hkeep.1, hkeep.2.1, hkeep.2.2, rfl⟩

theorem dict_del_keeps (km : key_methods) (kq : ovm_inst) (e : ovm_obj_pair)
    (b0 : Nat) (s : ovm_dict) (key : ovm_inst)
    (hwf : set_wf s)
    (hinv : probe_stops_at km kq e b0 s)
    (h1 : km.equal (key_cached km key) e.first = false) :
    ∃ s1, dict_del km s key = (s1, none)
      ∧ set_wf s1 ∧ s1.cnt ≤ s.cnt + 1 ∧ probe_stops_at km kq e b0 s1
      ∧ s1.size = s.size := by
  obtain ⟨h0, hlt, hlen, hcnt, hcb⟩ := hwf
  obtain ⟨hb, hfind⟩ := dict_find_ok km s key h0 hlt hlen
  unfold dict_del
  rw [hfind]
  simp only []
  cases hl : dict_find_loop km (key_cached km key)
      (s.data.getD (bucket_index (key_hash km key) s.size) []) with
  | none => exact ⟨s, rfl, ⟨h0, hlt, hlen, hcnt, hcb⟩, by omega, hinv, rfl⟩
  | some n =>
    simp only []
    have hn := find_loop_lt km _ _ n hl
    have hu := entries_unlink s _ n hb hn
    have hpos : ¬ (s.cnt = 0) := by omega
    simp only [hpos, if_false]
    refine ⟨_, rfl, ⟨h0, hlt, ?_, ?_, ?_⟩, ?_, ?_, rfl⟩
    · simp [bucket_unlink, hlen]
    · show s.cnt - 1 = dict_entries (bucket_unlink s _ n)
      omega
    · show s.cnt - 1 < 4294967296
      omega
    · show s.cnt - 1 ≤ s.cnt + 1
      omega
    · exact probe_unlink km kq _ e b0 s _ n hl h1 hinv

theorem dict_at_eq (km : key_methods) (s : ovm_dict) (key : ovm_inst)
    (hwf : set_wf s) :
    dict_at km s key
      = .ok (match dict_find_loop km (key_cached km key)
                (s.data.getD (bucket_index (key_hash km key) s.size) []) with
             | none => none
             | some n => (s.data.getD (bucket_index (key_hash km key) s.size) []).get? n) := by
  obtain ⟨h0, hlt, hlen, _, _⟩ := hwf
  obtain ⟨_, hfind⟩ := dict_find_ok km s key h0 hlt hlen
  unfold dict_at
  rw [hfind]
  simp only []
  cases dict_find_loop km (key_cached km key)
      (s.data.getD (bucket_index (key_hash km key) s.size) []) <;> rfl

theorem dict_step_keeps (km : key_methods) (base : Nat) (kq : ovm_inst) (e : ovm_obj_pair)
    (b0 : Nat) (s : ovm_dict) (op : dict_op)
    (hwf : set_wf s) (hroom : s.cnt + 1 < 4294967296)
    (hinv : probe_stops_at km kq e b0 s)
    (h1 : km.equal (key_cached km op.key) e.first = false)
    (h2 : km.equal kq (key_cached km op.key) = false) :
    ∃ s1 r, dict_step km base s op = (s1, r)
      ∧ (r = none ∨ ∃ x, r = some (.raised x))
      ∧ set_wf s1 ∧ s1.cnt ≤ s.cnt + 1 ∧ probe_stops_at km kq e b0 s1
      ∧ s1.size = s.size := by
  cases op with
  | atput key val => exact dict_at_put_keeps km base kq e b0 s key val hwf hroom hinv h1 h2
  | put pr => exact dict_at_put_keeps km base kq e b0 s pr.first pr.second hwf hroom hinv h1 h2
  | del key =>
    obtain ⟨s1, hd, hw, hc, hp, hs⟩ := dict_del_keeps km kq e b0 s key hwf hinv h1
    exact ⟨s1, none, hd, Or.inl rfl, hw, hc, hp, hs⟩
  | atputnew key val =>
    simp only [dict_step]
    rw [dict_at_eq km s key hwf]
    simp only [dict_op.key] at h1 h2
    cases hl : dict_find_loop km (key_cached km key)
        (s.data.getD (bucket_index (key_hash km key) s.size) []) with
    | none =>
      simp only []
      have := dict_at_put_keeps km base kq e b0 s (key_cached km key) val hwf hroom hinv
        (by rw [key_cached_idem]; exact h1) (by rw [key_cached_idem]; exact h2)
      exact this
    | some n =>
      simp only []
      have hn := find_loop_lt km _ _ n hl
      have hg : (s.data.getD (bucket_index (key_hash km key) s.size) []).get? n
          = some ((s.data.getD (bucket_index (key_hash km key) s.size) []).get ⟨n, hn⟩) :=
        List.get?_eq_get hn
      rw [hg]
      exact ⟨s, none, rfl, Or.inl rfl, hwf, by omega, hinv, rfl⟩

theorem dict_run_keeps (km : key_methods) (base : Nat) (kq : ovm_inst) (e : ovm_obj_pair)
    (b0 : Nat) :
    ∀ (ops : List dict_op) (s : ovm_dict),
      set_wf s → s.cnt + ops.length < 4294967296 →
      probe_stops_at km kq e b0 s →
      (∀ op ∈ ops, km.equal (key_cached km op.key) e.first = false
        ∧ km.equal kq (key_cached km op.key) = false) →
      ∃ s2, dict_run km base s ops = some s2 ∧ set_wf s2 ∧ probe_stops_at km kq e b0 s2
        ∧ s2.size = s.size := by
  intro ops
  induction ops with
  | nil => intro s hwf _ hinv _; exact ⟨s, rfl, hwf, hinv, rfl⟩
  | cons op rest ih =>
    intro s hwf hroom hinv hother
    simp only [List.length_cons] at hroom
    obtain ⟨h1, h2⟩ := hother op (List.mem_cons_self _ _)
    obtain ⟨s1, r, hstep, hr, hwf1, hc1, hinv1, hs1⟩ :=
      dict_step_keeps km base kq e b0 s op hwf (by omega) hinv h1 h2
    obtain ⟨s2, hrun, hwf2, hinv2, hs2⟩ := ih s1 hwf1 (by omega) hinv1
      (fun op2 h => hother op2 (List.mem_cons_of_mem _ h))
    refine ⟨s2, ?_, hwf2, hinv2, by rw [hs2, hs1]⟩
    unfold dict_run
    rw [hstep]
    rcases hr with rfl | ⟨x, rfl⟩
    · exact hrun
    · exact hrun

theorem get?_append_length {α : Type} (e : α) (post : List α) :
    ∀ (pre : List α), (pre ++ e :: post).get? pre.length = some e := by
  intro pre
  induction pre with
  | nil => rfl
  | cons x xs ih => simpa using ih

theorem probe_lookup (km : key_methods) (kq : ovm_inst) (e : ovm_obj_pair) (s : ovm_dict)
    (hwf : set_wf s)
    (hinv : probe_stops_at km (key_cached km kq) e (bucket_index (key_hash km kq) s.size) s)
    (heq : km.equal (key_cached km kq) e.first = true) :
    dict_at km s kq = .ok (some e) := by
  obtain ⟨_, pre, post, hbk, hpre⟩ := hinv
  rw [dict_at_eq km s kq hwf, hbk, dict_find_loop_append km _ e post heq pre hpre]
  simp only []
  rw [get?_append_length]

theorem dict_at_put_new_entry (km : key_methods) (base : Nat) (s : ovm_dict)
    (key val : ovm_inst) (hwf : set_wf s)
    (hput : (dict_at_put km base s key val).2 = none) :
    set_wf (dict_at_put km base s key val).1
      ∧ (dict_at_put km base s key val).1.size = s.size
      ∧ (dict_at_put km base s key val).1.cnt ≤ s.cnt + 1
      ∧ ∃ post, (dict_at_put km base s key val).1.data.getD
            (bucket_index (key_hash km key) s.size) []
          = { first := key_cached km key, second := val } :: post := by
  obtain ⟨h0, hlt, hlen, hcnt, hcb⟩ := hwf
  obtain ⟨hb, hfind⟩ := dict_find_ok km s key h0 hlt hlen
  unfold dict_at_put at hput ⊢
  rw [hfind] at hput ⊢
  simp only [] at hput ⊢
  cases hl : dict_find_loop km (key_cached km key)
      (s.data.getD (bucket_index (key_hash km key) s.size) []) with
  | none =>
    rw [hl] at hput
    simp only [] at hput ⊢
    by_cases hc0 : (s.cnt + 1) % 4294967296 = 0
    · simp [hc0] at hput
    · simp only [hc0, if_false]
      refine ⟨⟨h0, hlt, ?_, ?_, ?_⟩, rfl, ?_, ?_⟩
      · simp [bucket_prepend, hlen]
      · rw [entries_prepend _ _ _ (by simpa using hb)]
        show (s.cnt + 1) % 4294967296 = dict_entries s + 1
        omega
      · show (s.cnt + 1) % 4294967296 < 4294967296
        omega
      · show (s.cnt + 1) % 4294967296 ≤ s.cnt + 1
        omega
      · refine ⟨s.data.getD (bucket_index (key_hash km key) s.size) [], ?_⟩
        simp only [bucket_prepend]
        rw [getD_set_same _ _ _ hb]
  | some n =>
    rw [hl] at hput
    simp only [] at hput ⊢
    have hn := find_loop_lt km _ _ n hl
    have hgoal : set_wf (bucket_prepend (bucket_unlink s (bucket_index (key_hash km key) s.size) n)
          (bucket_index (key_hash km key) s.size) { first := key_cached km key, second := val })
        ∧ (bucket_prepend (bucket_unlink s (bucket_index (key_hash km key) s.size) n)
            (bucket_index (key_hash km key) s.size)
            { first := key_cached km key, second := val }).size = s.size
        ∧ (bucket_prepend (bucket_unlink s (bucket_index (key_hash km key) s.size) n)
            (bucket_index (key_hash km key) s.size)
            { first := key_cached km key, second := val }).cnt ≤ s.cnt + 1
        ∧ ∃ post, (bucket_prepend (bucket_unlink s (bucket_index (key_hash km key) s.size) n)
            (bucket_index (key_hash km key) s.size)
            { first := key_cached km key, second := val }).data.getD
              (bucket_index (key_hash km key) s.size) []
            = { first := key_cached km key, second := val } :: post := by
      refine ⟨⟨h0, hlt, ?_, ?_, hcb⟩, rfl, ?_, ?_⟩
      · simp [bucket_prepend, bucket_unlink, hlen]
      · have hu := entries_unlink s _ n hb hn
        have hp := entries_prepend (bucket_unlink s (bucket_index (key_hash km key) s.size) n)
          (bucket_index (key_hash km key) s.size) { first := key_cached km key, second := val }
          (by simpa [bucket_unlink] using hb)
        rw [hp]
        show s.cnt = _
        omega
      · show s.cnt ≤ s.cnt + 1
        omega
      · refine ⟨(s.data.getD (bucket_index (key_hash km key) s.size) []).eraseIdx n, ?_⟩
        simp only [bucket_prepend, bucket_unlink]
        rw [getD_set_same _ _ _ (by simpa using hb), getD_set_same _ _ _ hb]
    cases hv : (key_cached km key).val with
    | strval obj ks =>
      rw [hv] at hput
      simp only [] at hput ⊢
      by_cases hcn : is_const_name ks.size ks.data = true
      · simp [hcn] at hput
      · simp only [hcn, if_false]
        exact hgoal
    | objval _ => exact hgoal
    | boolval _ => exact hgoal
    | intval _ => exact hgoal
    | floatval _ => exact hgoal
    | codemethodval _ => exact hgoal
    | methodval _ => exact hgoal


/-- C8: Dictionary round trip.  In a well-formed Dictionary with room for
the entries to come, after a call `atput(k, v)` that returned, and then any
sequence of `atput`, `atputnew`, `put` and `del` calls on other keys (keys on
which the `equal` methods answer false either way round, whether a call of
the sequence returns or raises), every call runs to its end, `ate` of a key
cell that hashes and compares as `k` does returns `v`, and `at` returns a Pair
whose second is `v`. -/
theorem dict_round_trip (km : key_methods) (base : Nat) (recvr : ovm_inst) (d : ovm_dict)
    (k v : ovm_inst) (ops : List dict_op) (k2 : ovm_inst)
    (hwf : set_wf d) (hroom : d.cnt + 1 + ops.length < 4294967296)
    (hput : (dict_at_put km base d k v).2 = none)
    (hhash : key_hash km k2 = key_hash km k)
    (heq : km.equal (key_cached km k2) (key_cached km k) = true)
    (hother : ∀ op ∈ ops, km.equal (key_cached km op.key) (key_cached km k) = false
      ∧ km.equal (key_cached km k2) (key_cached km op.key) = false) :
    ∃ d2, dict_run km base (dict_at_put km base d k v).1 ops = some d2
      ∧ Dictionary_ate km recvr d2 k2 = .ok v
      ∧ ∃ pr, Dictionary_at km d2 k2 = .ok (some pr) ∧ pr.second = v := by
  obtain ⟨hwf1, hsize1, hcnt1, post, hbk⟩ := dict_at_put_new_entry km base d k v hwf hput
  have hinv1 : probe_stops_at km (key_cached km k2) { first := key_cached km k, second := v }
      (bucket_index (key_hash km k) d.size) (dict_at_put km base d k v).1 := by
    refine ⟨?_, [], post, hbk, by simp⟩
    obtain ⟨h0, hlt, hlen, _, _⟩ := hwf
    obtain ⟨h0a, hlta, hlena, _, _⟩ := hwf1
    rw [hlena, hsize1]
    exact bucket_index_lt _ _ h0 hlt
  obtain ⟨d2, hrun, hwf2, hinv2, hsize2⟩ :=
    dict_run_keeps km base (key_cached km k2) { first := key_cached km k, second := v }
      (bucket_index (key_hash km k) d.size) ops (dict_at_put km base d k v).1 hwf1
      (by omega) hinv1 hother
  have hat : dict_at km d2 k2 = .ok (some { first := key_cached km k, second := v }) := by
    apply probe_lookup km k2 _ d2 hwf2 _ heq
    rw [hhash, hsize2, hsize1]
    exact hinv2
  refine ⟨d2, hrun, ?_, ⟨_, hat, rfl⟩⟩
  unfold Dictionary_ate
  rw [hat]

/-- Witness of C8: in the sample Dictionary, `atput("ab", 5)`, then
`atput(7, 71)`, `del("#K")`, `atputnew("cd", 9)`, `put((9, 90))`, then the
lookup of `"ab"`. -/
theorem dict_round_trip_witness :
    ∃ d2, dict_run sample_km 700
        (dict_at_put sample_km 700 sample_dict (inst_str 720 3 "ab".toList) (inst_int 5)).1
        [.atput (inst_int 7) (inst_int 71), .del (inst_str 721 3 "#K".toList),
         .atputnew (inst_str 722 3 "cd".toList) (inst_int 9),
         .put { first := inst_int 9, second := inst_int 90 }] = some d2
      ∧ Dictionary_ate sample_km (inst_obj 700) d2 (inst_str 723 3 "ab".toList)
          = .ok (inst_int 5)
      ∧ ∃ pr, Dictionary_at sample_km d2 (inst_str 723 3 "ab".toList) = .ok (some pr)
          ∧ pr.second = inst_int 5 :=
  dict_round_trip sample_km 700 (inst_obj 700) sample_dict (inst_str 720 3 "ab".toList)
    (inst_int 5)
    [.atput (inst_int 7) (inst_int 71), .del (inst_str 721 3 "#K".toList),
     .atputnew (inst_str 722 3 "cd".toList) (inst_int 9),
     .put { first := inst_int 9, second := inst_int 90 }]
    (inst_str 723 3 "ab".toList)
    (by unfold set_wf; decide) (by decide) (by decide) (by decide) (by decide) (by decide)
theorem is_const_name_iff (ks : ovm_obj_str) (hsize : ks.size = ks.data.length + 1) :
    is_const_name ks.size ks.data = true ↔ (ks.data.head? = some '#' ∧ 2 ≤ ks.data.length) := by
  unfold is_const_name c_at
  cases hd : ks.data with
  | nil =>
    rw [hd] at hsize
    simp at hsize
    simp [hsize]
  | cons ch rest =>
    rw [hd] at hsize
    simp only [List.length_cons] at hsize
    simp only [List.getD_cons_zero, List.head?_cons, Bool.and_eq_true, decide_eq_true_eq,
      beq_iff_eq, Option.some.injEq, List.length_cons]
    constructor
    · rintro ⟨h1, h2⟩; exact ⟨h2, by omega⟩
    · rintro ⟨h1, h2⟩; exact ⟨by omega, h1⟩

theorem dict_at_put_found_string (km : key_methods) (base : Nat) (d : ovm_dict)
    (k v : ovm_inst) (obj : Nat) (ks : ovm_obj_str) (b n : Nat)
    (hk : k.val = .strval obj ks)
    (hfound : dict_find km d k = .ok (b, some n)) :
    dict_at_put km base d k v
      = if is_const_name ks.size ks.data then
          (d, some (.raised (ovm_except_modify_const (inst_obj base) (.inst (key_cached km k)))))
        else
          (bucket_prepend (bucket_unlink d b n) b { first := key_cached km k, second := v },
           none) := by
  unfold dict_at_put
  rw [hfound]
  have hv : (key_cached km k).val = .strval obj ks := by simp [key_cached, hk]
  simp only [hv]

theorem dict_at_put_found_other (km : key_methods) (base : Nat) (d : ovm_dict)
    (k v : ovm_inst) (b n : Nat)
    (hk : ∀ obj ks, k.val ≠ .strval obj ks)
    (hfound : dict_find km d k = .ok (b, some n)) :
    dict_at_put km base d k v
      = (bucket_prepend (bucket_unlink d b n) b { first := key_cached km k, second := v },
         none) := by
  unfold dict_at_put
  rw [hfound]
  have hv : (key_cached km k).val = k.val := by simp [key_cached]
  simp only []
  cases hkv : k.val with
  | strval obj ks => exact absurd hkv (hk obj ks)
  | objval _ => rw [hv, hkv]
  | boolval _ => rw [hv, hkv]
  | intval _ => rw [hv, hkv]
  | floatval _ => rw [hv, hkv]
  | codemethodval _ => rw [hv, hkv]
  | methodval _ => rw [hv, hkv]

theorem dict_ats_put_found_const (base : Nat) (d : ovm_dict) (size : Nat) (data : List Char)
    (hash : Nat) (val : ovm_inst) (newstr b n : Nat)
    (hc : is_const_name size data = true)
    (hfound : dict_finds d size data hash = .ok (b, some n)) :
    dict_ats_put base d size data hash val newstr
      = (d, some (.raised (ovm_except_modify_const (inst_obj base) (.newstr size data)))) := by
  unfold dict_ats_put
  rw [hfound]
  simp only [hc, if_true]

/-- C9: for a Dictionary at `base` that holds a String key `k` (the probe of
`dict_find` finds it) beginning with `#` and of 2 characters or more,
`atput(k, v)` raises an exception of type `system.modify-constant` whose
`instance` is the Dictionary and whose `key` is the key cell `k` (the same
String object), and leaves size, count and buckets of the Dictionary as they
were; `dict_ats_put` with such a name found does the same, its `key` being a
new String of the same bytes. -/
theorem atput_constant_key_raises (km : key_methods) (base : Nat) (d : ovm_dict)
    (k v : ovm_inst) (obj : Nat) (ks : ovm_obj_str)
    (hk : k.val = .strval obj ks)
    (hsize : ks.size = ks.data.length + 1)
    (h0 : ks.data.head? = some '#') (hlen : 2 ≤ ks.data.length)
    (hfound : ∃ b n, dict_find km d k = .ok (b, some n)) :
    (∃ x, Dictionary_atput km base d k v = (d, .error (.raised x))
        ∧ x.type = "system.modify-constant"
        ∧ x.fields = [("instance", .inst (inst_obj base)), ("key", .inst (key_cached km k))]
        ∧ (key_cached km k).val = .strval obj ks)
      ∧ ∀ (hash : Nat) (val : ovm_inst) (newstr : Nat),
          (∃ b n, dict_finds d ks.size ks.data hash = .ok (b, some n)) →
          ∃ x, dict_ats_put base d ks.size ks.data hash val newstr = (d, some (.raised x))
            ∧ x.type = "system.modify-constant"
            ∧ x.fields = [("instance", .inst (inst_obj base)),
                          ("key", .newstr ks.size ks.data)] := by
  have hc : is_const_name ks.size ks.data = true := (is_const_name_iff ks hsize).mpr ⟨h0, hlen⟩
  constructor
  · obtain ⟨b, n, hf⟩ := hfound
    refine ⟨ovm_except_modify_const (inst_obj base) (.inst (key_cached km k)), ?_, rfl, rfl, ?_⟩
    · unfold Dictionary_atput
      rw [dict_at_put_found_string km base d k v obj ks b n hk hf]
      simp only [hc, if_true]
    · simp [key_cached, hk]
  · intro hash val newstr hf
    obtain ⟨b, n, hf⟩ := hf
    exact ⟨_, dict_ats_put_found_const base d ks.size ks.data hash val newstr b n hc hf,
      rfl, rfl⟩

/-- Witness of C9: `atput("#K", 2)` on the sample Dictionary. -/
theorem atput_constant_key_raises_witness :
    (∃ x, Dictionary_atput sample_km 700 sample_dict (inst_str 720 3 "#K".toList) (inst_int 2)
          = (sample_dict, .error (.raised x))
        ∧ x.type = "system.modify-constant"
        ∧ x.fields = [("instance", .inst (inst_obj 700)),
                      ("key", .inst (key_cached sample_km (inst_str 720 3 "#K".toList)))]
        ∧ (key_cached sample_km (inst_str 720 3 "#K".toList)).val
            = .strval 720 { size := 3, data := "#K".toList })
      ∧ ∀ (hash : Nat) (val : ovm_inst) (newstr : Nat),
          (∃ b n, dict_finds sample_dict 3 "#K".toList hash = .ok (b, some n)) →
          ∃ x, dict_ats_put 700 sample_dict 3 "#K".toList hash val newstr
              = (sample_dict, some (.raised x))
            ∧ x.type = "system.modify-constant"
            ∧ x.fields = [("instance", .inst (inst_obj 700)),
                          ("key", .newstr 3 "#K".toList)] :=
  atput_constant_key_raises sample_km 700 sample_dict (inst_str 720 3 "#K".toList) (inst_int 2)
    720 { size := 3, data := "#K".toList } rfl (by decide) (by decide) (by decide)
    ⟨2, 0, rfl⟩

theorem is_const_name_cached (km : key_methods) (k : ovm_inst) :
    (key_cached km k).val = k.val := by
  simp [key_cached]

/-- C10 (amended): for a key `k` that a well-formed Dictionary holds (the
probe of `dict_find` finds it) and whose `equal` method answers true on
itself: when `k` is a String, `atput(k, v)` raises `system.modify-constant`
exactly when `k` begins with `#` and has 2 characters or more (its size, which
counts the terminating NUL, is above 2); for every other key, a String not
beginning with `#` or of fewer than 2 characters or a key that is no String,
`atput(k, v)` returns, the count is unchanged, and `ate(k)` then returns
`v`. -/
theorem reassign_existing_key (km : key_methods) (base : Nat) (recvr : ovm_inst)
    (d : ovm_dict) (k v : ovm_inst) (b n : Nat)
    (hwf : set_wf d)
    (hstr : ∀ obj ks, k.val = .strval obj ks → ks.size = ks.data.length + 1)
    (hfound : dict_find km d k = .ok (b, some n))
    (hrefl : km.equal (key_cached km k) (key_cached km k) = true) :
    (∀ obj ks, k.val = .strval obj ks →
      ((∃ x, (dict_at_put km base d k v).2 = some (.raised x)
          ∧ x.type = "system.modify-constant")
        ↔ (ks.data.head? = some '#' ∧ 2 ≤ ks.data.length)))
    ∧ ((∀ obj ks, k.val = .strval obj ks → ¬ (ks.data.head? = some '#' ∧ 2 ≤ ks.data.length)) →
        (dict_at_put km base d k v).2 = none
          ∧ (dict_at_put km base d k v).1.cnt = d.cnt
          ∧ Dictionary_ate km recvr (dict_at_put km base d k v).1 k = .ok v) := by
  constructor
  · intro obj ks hk
    rw [dict_at_put_found_string km base d k v obj ks b n hk hfound]
    rw [← is_const_name_iff ks (hstr obj ks hk)]
    by_cases hc : is_const_name ks.size ks.data = true
    · simp only [hc, if_true, iff_true]
      exact ⟨_, rfl, rfl⟩
    · have hc2 : is_const_name ks.size ks.data = false := by simpa using hc
      rw [hc2]
      constructor
      · rintro ⟨x, hx, _⟩
        simp at hx
      · intro h
        cases h
  · intro hnot
    have hres : dict_at_put km base d k v
        = (bucket_prepend (bucket_unlink d b n) b { first := key_cached km k, second := v },
           none) := by
      cases hkv : k.val with
      | strval obj ks =>
        rw [dict_at_put_found_string km base d k v obj ks b n hkv hfound]
        have hc : ¬ is_const_name ks.size ks.data = true := by
          rw [is_const_name_iff ks (hstr obj ks hkv)]
          exact hnot obj ks hkv
        have hc2 : is_const_name ks.size ks.data = false := by simpa using hc
        rw [hc2]
        rfl
      | objval _ =>
        exact dict_at_put_found_other km base d k v b n (by intro o s h; rw [hkv] at h; cases h) hfound
      | boolval _ =>
        exact dict_at_put_found_other km base d k v b n (by intro o s h; rw [hkv] at h; cases h) hfound
      | intval _ =>
        exact dict_at_put_found_other km base d k v b n (by intro o s h; rw [hkv] at h; cases h) hfound
      | floatval _ =>
        exact dict_at_put_found_other km base d k v b n (by intro o s h; rw [hkv] at h; cases h) hfound
      | codemethodval _ =>
        exact dict_at_put_found_other km base d k v b n (by intro o s h; rw [hkv] at h; cases h) hfound
      | methodval _ =>
        exact dict_at_put_found_other km base d k v b n (by intro o s h; rw [hkv] at h; cases h) hfound
    have hput : (dict_at_put km base d k v).2 = none := by rw [hres]
    obtain ⟨hwf1, hsize1, _, post, hbk⟩ := dict_at_put_new_entry km base d k v hwf hput
    refine ⟨hput, by rw [hres]; rfl, ?_⟩
    have hinv : probe_stops_at km (key_cached km k) { first := key_cached km k, second := v }
        (bucket_index (key_hash km k) (dict_at_put km base d k v).1.size)
        (dict_at_put km base d k v).1 := by
      rw [hsize1]
      refine ⟨?_, [], post, hbk, by simp⟩
      obtain ⟨h0, hlt, _, _, _⟩ := hwf
      obtain ⟨_, _, hlena, _, _⟩ := hwf1
      rw [hlena, hsize1]
      exact bucket_index_lt _ _ h0 hlt
    have hat := probe_lookup km k _ _ hwf1 hinv hrefl
    unfold Dictionary_ate
    rw [hat]

/-- Witness of C10 (amended): `atput("ab", 9)` on the sample Dictionary. -/
theorem reassign_existing_key_witness :
    (∀ obj ks, (inst_str 720 3 "ab".toList).val = .strval obj ks →
      ((∃ x, (dict_at_put sample_km 700 sample_dict (inst_str 720 3 "ab".toList)
                (inst_int 9)).2 = some (.raised x)
          ∧ x.type = "system.modify-constant")
        ↔ (ks.data.head? = some '#' ∧ 2 ≤ ks.data.length)))
    ∧ ((∀ obj ks, (inst_str 720 3 "ab".toList).val = .strval obj ks →
          ¬ (ks.data.head? = some '#' ∧ 2 ≤ ks.data.length)) →
        (dict_at_put sample_km 700 sample_dict (inst_str 720 3 "ab".toList) (inst_int 9)).2
            = none
          ∧ (dict_at_put sample_km 700 sample_dict (inst_str 720 3 "ab".toList)
              (inst_int 9)).1.cnt = sample_dict.cnt
          ∧ Dictionary_ate sample_km (inst_obj 700)
              (dict_at_put sample_km 700 sample_dict (inst_str 720 3 "ab".toList)
                (inst_int 9)).1 (inst_str 720 3 "ab".toList) = .ok (inst_int 9)) :=
  reassign_existing_key sample_km 700 (inst_obj 700) sample_dict (inst_str 720 3 "ab".toList)
    (inst_int 9) 2 1 (by unfold set_wf; decide)
    (by intro obj ks h; cases h; rfl) rfl (by decide)

/-- C10, counterexample to the claim as stated: the sample Dictionary holds
the key `#K`, which is not longer than 2 characters, and reassigning it
raises `system.modify-constant` and leaves the Dictionary as it was. -/
theorem reassign_existing_key_counterexample :
    "#K".toList.length ≤ 2
      ∧ dict_find sample_km sample_dict (inst_str 720 3 "#K".toList) = .ok (2, some 0)
      ∧ dict_at_put sample_km 700 sample_dict (inst_str 720 3 "#K".toList) (inst_int 2)
          = (sample_dict, some (.raised
              { type := "system.modify-constant",
                fields := [("instance", .inst (inst_obj 700)),
                           ("key", .inst (key_cached sample_km
                              (inst_str 720 3 "#K".toList)))] }))
      ∧ (dict_at_put sample_km 700 sample_dict (inst_str 720 3 "#K".toList) (inst_int 2)).2
          ≠ none := by
  refine ⟨by decide, rfl, rfl, by decide⟩


/-! ### Raising an exception -/

/-- Unwinding the frames above the catch frame `X`: the loop pops them all
and leaves the registers as they were when `X` was pushed, the stack pointer
no higher than the one saved in `X`. -/
theorem frame_unwind_loop_above (X ns0 mc0 sp0 : Nat) (th : ovm_thread)
    (hX : X ≤ th.frame_stack_top) :
    ∀ (fp nsfp mcfp sp : Nat), frames_above th X ns0 mc0 sp0 fp nsfp mcfp sp →
      ∀ (fuel : Nat) (t : ovm_thread), X - fp < fuel →
        t.fp = fp → t.nsfp = nsfp → t.mcfp = mcfp → t.sp = sp →
        t.frames = th.frames → t.stack_top = th.stack_top →
        t.frame_stack_top = th.frame_stack_top →
        fp ≤ X ∧
        ∃ t2, frame_unwind_loop fuel t X = .ok t2
          ∧ t2.fp = X ∧ t2.nsfp = ns0 ∧ t2.mcfp = mc0 ∧ t2.sp ≤ sp0 ∧ sp ≤ t2.sp
          ∧ t2.frames = t.frames ∧ t2.cells = t.cells ∧ t2.xfp = t.xfp ∧ t2.pc = t.pc
          ∧ t2.exceptf = t.exceptf ∧ t2.except_lvl = t.except_lvl
          ∧ t2.stack = t.stack ∧ t2.stack_top = t.stack_top
          ∧ t2.frame_stack = t.frame_stack ∧ t2.frame_stack_top = t.frame_stack_top := by
  intro fp nsfp mcfp sp h
  induction h with
  | base sp hsp =>
    intro fuel t hfuel hfp hns hmc hsp2 _ _ _
    refine ⟨le_refl _, t, ?_, hfp, hns, hmc, by omega, by omega, rfl, rfl, rfl, rfl, rfl, rfl,
      rfl, rfl, rfl, rfl⟩
    cases fuel with
    | zero => omega
    | succ fuel => simp [frame_unwind_loop, hfp]
  | ns fp size prev ns mcfp sp hfr hsize _ ih =>
    intro fuel t hfuel hfp hns hmc hsp2 hframes hst hfst
    cases fuel with
    | zero => omega
    | succ fuel =>
      have hstep : frame_pop1 t = .ok { t with nsfp := prev, fp := t.fp + size } ∨ X < fp + size
          := by
        by_cases hle : fp + size ≤ X
        · left
          have hfr2 : t.frames t.fp = some (.ns size prev ns) := by
            rw [hframes, hfp]; exact hfr
          have : ¬ (t.fp + size > t.frame_stack_top) := by rw [hfst, hfp]; omega
          simp only [frame_pop1, hfr2, ovm_frame.size, this, if_false]
        · right; omega
      have hih := ih fuel { t with nsfp := prev, fp := t.fp + size }
      have hle : fp + size ≤ X := by
        by_contra hc
        have := (ih 1 { t with nsfp := prev, fp := t.fp + size } (by omega) (by simp [hfp]) rfl
          hmc hsp2 hframes hst hfst).1
        omega
      obtain ⟨_, t2, hrun, h1, h2, h3, h4, h5, h6, h7, h8, h9, h10, h11, h12, h13, h14, h15⟩ :=
        hih (by omega) (by simp [hfp]) rfl hmc hsp2 hframes hst hfst
      refine ⟨by omega, t2, ?_, h1, h2, h3, h4, h5, h6, h7, h8, h9, h10, h11, h12, h13, h14, h15⟩
      rcases hstep with hstep | hbad
      · unfold frame_unwind_loop
        have hlt : t.fp < X := by omega
        simp only [hlt, if_true, hstep]
        exact hrun
      · omega
  | mc fp size prev cl method dst bp argc ap nsfp sp hfr hsize hspbp hbp _ ih =>
    intro fuel t hfuel hfp hns hmc hsp2 hframes hst hfst
    cases fuel with
    | zero => omega
    | succ fuel =>
      have hle : fp + size ≤ X := by
        by_contra hc
        have := (ih 1 { t with sp := bp, mcfp := prev, fp := t.fp + size } (by omega)
          (by simp [hfp]) hns rfl rfl hframes hst hfst).1
        omega
      have hstep : frame_pop1 t = .ok { t with sp := bp, mcfp := prev, fp := t.fp + size } := by
        have hfr2 : t.frames t.fp = some (.mc size prev cl method dst bp argc ap) := by
          rw [hframes, hfp]; exact hfr
        have h1 : ¬ (t.fp + size > t.frame_stack_top) := by rw [hfst, hfp]; omega
        have h2 : ¬ (bp > t.stack_top) := by rw [hst]; omega
        have h3 : ¬ (bp < t.sp) := by rw [hsp2]; omega
        simp only [frame_pop1, hfr2, ovm_frame.size, h1, if_false, ovm_stack_unwind, h2, h3]
      obtain ⟨_, t2, hrun, h1, h2, h3, h4, h5, h6, h7, h8, h9, h10, h11, h12, h13, h14, h15⟩ :=
        ih fuel { t with sp := bp, mcfp := prev, fp := t.fp + size } (by omega)
          (by simp [hfp]) hns rfl rfl hframes hst hfst
      refine ⟨by omega, t2, ?_, h1, h2, h3, h4, by omega, h6, h7, h8, h9, h10, h11,
        h12, h13, h14, h15⟩
      unfold frame_unwind_loop
      have hlt : t.fp < X := by omega
      simp only [hlt, if_true, hstep]
      exact hrun

theorem frames_above_le (th : ovm_thread) (X ns0 mc0 sp0 : Nat) :
    ∀ (fp nsfp mcfp sp : Nat), frames_above th X ns0 mc0 sp0 fp nsfp mcfp sp →
      fp ≤ X ∧ sp ≤ sp0 := by
  intro fp nsfp mcfp sp h
  induction h with
  | base sp hsp => exact ⟨le_refl _, hsp⟩
  | ns fp size prev ns mcfp sp _ _ _ ih => exact ⟨by omega, ih.2⟩
  | mc fp size prev cl method dst bp argc ap nsfp sp _ _ hspbp _ _ ih => exact ⟨by omega, by omega⟩

/-- The shape of the frames above `X` depends on the frame memory between
`fp` and `X` only. -/
theorem frames_above_congr (th t : ovm_thread) (X ns0 mc0 sp0 : Nat)
    (hst : t.stack_top = th.stack_top) :
    ∀ (fp nsfp mcfp sp : Nat), frames_above th X ns0 mc0 sp0 fp nsfp mcfp sp →
      (∀ a, fp ≤ a → a < X → t.frames a = th.frames a) →
      frames_above t X ns0 mc0 sp0 fp nsfp mcfp sp := by
  intro fp nsfp mcfp sp h
  induction h with
  | base sp hsp => intro _; exact .base sp hsp
  | ns fp size prev ns mcfp sp hfr hsize hsub ih =>
    intro hmem
    have hle := (frames_above_le th X ns0 mc0 sp0 _ _ _ _ hsub).1
    exact .ns fp size prev ns mcfp sp (by rw [hmem fp (le_refl _) (by omega)]; exact hfr) hsize
      (ih (fun a h1 h2 => hmem a (by omega) h2))
  | mc fp size prev cl method dst bp argc ap nsfp sp hfr hsize hspbp hbp hsub ih =>
    intro hmem
    have hle := (frames_above_le th X ns0 mc0 sp0 _ _ _ _ hsub).1
    exact .mc fp size prev cl method dst bp argc ap nsfp sp
      (by rw [hmem fp (le_refl _) (by omega)]; exact hfr) hsize hspbp (by rw [hst]; exact hbp)
      (ih (fun a h1 h2 => hmem a (by omega) h2))

/-- Lowering the stack pointer keeps the shape of the frames above `X`. -/
theorem frames_above_sp_le (th : ovm_thread) (X ns0 mc0 sp0 : Nat) :
    ∀ (fp nsfp mcfp sp : Nat), frames_above th X ns0 mc0 sp0 fp nsfp mcfp sp →
      ∀ sp1, sp1 ≤ sp → frames_above th X ns0 mc0 sp0 fp nsfp mcfp sp1 := by
  intro fp nsfp mcfp sp h
  induction h with
  | base sp hsp => intro sp1 hle; exact .base sp1 (by omega)
  | ns fp size prev ns mcfp sp hfr hsize _ ih =>
    intro sp1 hle
    exact .ns fp size prev ns mcfp sp1 hfr hsize (ih sp1 hle)
  | mc fp size prev cl method dst bp argc ap nsfp sp hfr hsize hspbp hbp hsub _ =>
    intro sp1 hle
    exact .mc fp size prev cl method dst bp argc ap nsfp sp1 hfr hsize (by omega) hbp hsub

/-- Pushing a catch frame: it becomes the innermost one, records the
destination cell, the stack pointer and the byte-code pointer, and no frame is
above it. -/
theorem frames_above_except_push (th t : ovm_thread) (a : Nat)
    (h : ovm_frame_except_push th a = .ok t) :
    t.xfp = t.fp ∧ t.fp < th.fp
      ∧ t.frames t.fp = some (.xc SIZEOF_FRAME_EXCEPT th.xfp a false th.sp th.pc)
      ∧ frames_above t t.fp th.nsfp th.mcfp th.sp t.fp t.nsfp t.mcfp t.sp := by
  by_cases hroom : th.fp < th.frame_stack + SIZEOF_FRAME_EXCEPT
  · simp [ovm_frame_except_push, frame_push, ovm_frame.size, hroom] at h
  · simp only [ovm_frame_except_push, frame_push, ovm_frame.size, hroom, if_false] at h
    injection h with h
    subst h
    refine ⟨rfl, ?_, by simp, .base _ (le_refl _)⟩
    show th.fp - SIZEOF_FRAME_EXCEPT < th.fp
    unfold SIZEOF_FRAME_EXCEPT at hroom ⊢
    omega

/-- Pushing a namespace frame above `X` keeps the shape. -/
theorem frames_above_ns_push (th t : ovm_thread) (X ns0 mc0 sp0 ns : Nat)
    (h : frame_ns_push th ns = .ok t)
    (habove : frames_above th X ns0 mc0 sp0 th.fp th.nsfp th.mcfp th.sp) :
    frames_above t X ns0 mc0 sp0 t.fp t.nsfp t.mcfp t.sp
      ∧ t.frames X = th.frames X ∧ t.xfp = th.xfp ∧ t.sp = th.sp := by
  have hfpX := (frames_above_le th X ns0 mc0 sp0 _ _ _ _ habove).1
  by_cases hroom : th.fp < th.frame_stack + SIZEOF_FRAME_NS
  · simp [frame_ns_push, frame_push, ovm_frame.size, hroom] at h
  · simp only [frame_ns_push, frame_push, ovm_frame.size, hroom, if_false] at h
    injection h with h
    subst h
    unfold SIZEOF_FRAME_NS at hroom
    have hne : ¬ (X = th.fp - SIZEOF_FRAME_NS) := by unfold SIZEOF_FRAME_NS; omega
    refine ⟨?_, by simp [hne], rfl, rfl⟩
    refine .ns (th.fp - SIZEOF_FRAME_NS) SIZEOF_FRAME_NS th.nsfp ns th.mcfp th.sp (by simp)
      (by decide) ?_
    have hback : th.fp - SIZEOF_FRAME_NS + SIZEOF_FRAME_NS = th.fp := by
      unfold SIZEOF_FRAME_NS; omega
    rw [hback]
    refine frames_above_congr th _ X ns0 mc0 sp0 (by rfl) _ _ _ _ habove ?_
    intro a1 h1 _
    have : ¬ (a1 = th.fp - SIZEOF_FRAME_NS) := by unfold SIZEOF_FRAME_NS; omega
    simp [this]

/-- Pushing a method-call frame above `X` keeps the shape. -/
theorem frames_above_mc_push (th t : ovm_thread) (X ns0 mc0 sp0 dst cl method argc argv : Nat)
    (h : frame_mc_push th dst cl method argc argv = .ok t)
    (hsp0 : sp0 ≤ th.stack_top)
    (habove : frames_above th X ns0 mc0 sp0 th.fp th.nsfp th.mcfp th.sp) :
    frames_above t X ns0 mc0 sp0 t.fp t.nsfp t.mcfp t.sp
      ∧ t.frames X = th.frames X ∧ t.xfp = th.xfp ∧ t.sp = th.sp := by
  obtain ⟨hfpX, hspsp0⟩ := frames_above_le th X ns0 mc0 sp0 _ _ _ _ habove
  by_cases hroom : th.fp < th.frame_stack + SIZEOF_FRAME_MC
  · simp [frame_mc_push, frame_push, ovm_frame.size, hroom] at h
  · simp only [frame_mc_push, frame_push, ovm_frame.size, hroom, if_false] at h
    injection h with h
    subst h
    unfold SIZEOF_FRAME_MC at hroom
    have hne : ¬ (X = th.fp - SIZEOF_FRAME_MC) := by unfold SIZEOF_FRAME_MC; omega
    refine ⟨?_, by simp [hne], rfl, rfl⟩
    refine .mc (th.fp - SIZEOF_FRAME_MC) SIZEOF_FRAME_MC th.mcfp cl method dst th.sp argc argv
      th.nsfp th.sp (by simp) (by decide) (le_refl _) (by show th.sp ≤ th.stack_top; omega) ?_
    have hback : th.fp - SIZEOF_FRAME_MC + SIZEOF_FRAME_MC = th.fp := by
      unfold SIZEOF_FRAME_MC; omega
    rw [hback]
    refine frames_above_congr th _ X ns0 mc0 sp0 (by rfl) _ _ _ _ habove ?_
    intro a1 h1 _
    have : ¬ (a1 = th.fp - SIZEOF_FRAME_MC) := by unfold SIZEOF_FRAME_MC; omega
    simp [this]

/-- Allocating cells on the value stack keeps the shape. -/
theorem frames_above_stack_alloc (th t : ovm_thread) (X ns0 mc0 sp0 n p : Nat)
    (h : ovm_stack_alloc th n = .ok (t, p))
    (habove : frames_above th X ns0 mc0 sp0 th.fp th.nsfp th.mcfp th.sp) :
    frames_above t X ns0 mc0 sp0 t.fp t.nsfp t.mcfp t.sp
      ∧ t.frames X = th.frames X ∧ t.xfp = th.xfp := by
  by_cases hroom : th.sp < th.stack + n
  · simp [ovm_stack_alloc, _ovm_stack_alloc, hroom] at h
  · simp only [ovm_stack_alloc, _ovm_stack_alloc, hroom, if_false] at h
    injection h with h
    injection h with h1 h2
    subst h1
    refine ⟨?_, rfl, rfl⟩
    refine frames_above_congr th _ X ns0 mc0 sp0 (by rfl) _ _ _ _ ?_ (fun _ _ _ => rfl)
    exact frames_above_sp_le th X ns0 mc0 sp0 _ _ _ _ habove _ (Nat.sub_le _ _)

theorem except_longjmp_delivers (fuel : Nat) (th : ovm_thread)
    (x a X size prev sp0 pc0 ns0 mc0 : Nat) (av : Bool)
    (hXf : th.frames X = some (.xc size prev a av sp0 pc0))
    (hXtop : X < th.frame_stack_top)
    (habove : frames_above th X ns0 mc0 sp0 th.fp th.nsfp th.mcfp th.sp)
    (hsp0 : sp0 ≤ th.stack_top)
    (hfuel : X - th.fp < fuel) :
    ∃ t, except_longjmp fuel th X x = .ok t
      ∧ t.cells a = th.cells x
      ∧ t.frames X = some (.xc size prev a true sp0 pc0)
      ∧ t.fp = X ∧ t.xfp = th.xfp ∧ t.mcfp = mc0 ∧ t.nsfp = ns0
      ∧ t.sp = sp0 ∧ t.pc = pc0 ∧ t.exceptf = true ∧ t.except_lvl = th.except_lvl := by
  obtain ⟨hfpX, hspsp0⟩ := frames_above_le th X ns0 mc0 sp0 _ _ _ _ habove
  have habove3 : frames_above (catch_store th X size prev a sp0 pc0 x) X ns0 mc0 sp0
      th.fp th.nsfp th.mcfp th.sp := by
    refine frames_above_congr th (catch_store th X size prev a sp0 pc0 x) X ns0 mc0 sp0 rfl
      _ _ _ _ habove ?_
    intro a1 _ ha1
    have : a1 ≠ X := by omega
    simp only [catch_store, this, if_false]
  obtain ⟨_, t2, hrun, h1, h2, h3, h4, h5, h6, h7, h8, h9, h10, h11, h12, h13, h14, h15⟩ :=
    frame_unwind_loop_above X ns0 mc0 sp0 (catch_store th X size prev a sp0 pc0 x)
      (Nat.le_of_lt hXtop) _ _ _ _ habove3 fuel (catch_store th X size prev a sp0 pc0 x)
      hfuel rfl rfl rfl rfl rfl rfl rfl
  have hnotop : ¬ ((catch_store th X size prev a sp0 pc0 x).fp
      ≥ (catch_store th X size prev a sp0 pc0 x).frame_stack_top) := by
    show ¬ (th.fp ≥ th.frame_stack_top)
    omega
  have hu1 : ¬ (sp0 > t2.stack_top) := by
    rw [h13]; show ¬ (sp0 > th.stack_top); omega
  have hu2 : ¬ (sp0 < t2.sp) := by omega
  refine ⟨{ t2 with sp := sp0, pc := pc0, exceptf := true }, ?_, ?_, ?_, h1, h8, h3, h2,
    rfl, rfl, rfl, h11⟩
  · simp only [except_longjmp, hXf, frame_unwind, hnotop, if_false, hrun, ovm_stack_unwind,
      hu1, hu2]
  · show t2.cells a = th.cells x
    rw [h7]
    simp [catch_store, cell_assign]
  · show t2.frames X = _
    rw [h6]
    simp [catch_store]

/-- C4 (amended): for every thread state in which no exception is being
handled (`except_lvl = 0`), the value stack has a free cell, the current
method-call frame exists, and the innermost exception frame `X` was pushed with
destination cell `a`, saved stack pointer `sp0` and saved byte-code pointer
`pc0`, the frames pushed after `X` being namespace and method-call frames
(`frames_above`, with `ns0` and `mc0` the values of `nsfp` and `mcfp` when `X`
was pushed), `ovm_except_raise(x)` reaches the jump, given fuel for the frames
to pop, and leaves: cell `a` holding what cell `x` held (the same object), the
argument-valid flag of `X` set, `fp = X`, `xfp = X`, `mcfp = mc0`, `nsfp = ns0`,
`sp = sp0`, `pc = pc0`, the exception flag set, and `except_lvl = 1`. -/
theorem except_raise_delivers (bt pr : ovm_thread → Except ovm_stop ovm_thread) (fuel : Nat)
    (th : ovm_thread) (x w a X size prev sp0 pc0 ns0 mc0 : Nat) (av : Bool)
    (hlvl : th.except_lvl = 0) (hcell : th.stack < th.sp)
    (hmc : th.mcfp ≠ 0)
    (hmcf : ∃ s p c m d b n q, th.frames th.mcfp = some (.mc s p c m d b n q))
    (hxfp : th.xfp = X) (hX0 : X ≠ 0)
    (hXf : th.frames X = some (.xc size prev a av sp0 pc0))
    (hXtop : X < th.frame_stack_top)
    (habove : frames_above th X ns0 mc0 sp0 th.fp th.nsfp th.mcfp th.sp)
    (hsp0 : sp0 ≤ th.stack_top) (hx : x + 1 ≠ th.sp)
    (hfuel : X - th.fp < fuel) :
    ∃ t, ovm_except_raise bt pr fuel th x w = .ok t
      ∧ t.cells a = th.cells x
      ∧ t.frames X = some (.xc size prev a true sp0 pc0)
      ∧ t.fp = X ∧ t.xfp = X ∧ t.mcfp = mc0 ∧ t.nsfp = ns0
      ∧ t.sp = sp0 ∧ t.pc = pc0 ∧ t.exceptf = true ∧ t.except_lvl = 1 := by
  obtain ⟨hfpX, hspsp0⟩ := frames_above_le th X ns0 mc0 sp0 _ _ _ _ habove
  obtain ⟨s, p, c, m, d, b, n, q, hmcf⟩ := hmcf
  -- the thread before the jump: counter raised, work cell written
  obtain ⟨th2, hwork, e1, e2, e3, e4, e5, e6, e7, e8, e9, e10⟩ :
      ∃ th2, dict_ats_put_work { th with except_lvl := 1 } w = .ok th2
        ∧ th2.frames = th.frames ∧ th2.fp = th.fp ∧ th2.nsfp = th.nsfp ∧ th2.mcfp = th.mcfp
        ∧ th2.sp = th.sp ∧ th2.stack_top = th.stack_top
        ∧ th2.frame_stack_top = th.frame_stack_top ∧ th2.xfp = th.xfp
        ∧ th2.except_lvl = 1 ∧ th2.cells x = th.cells x := by
    have h1 : ¬ (th.sp < th.stack + 1) := by omega
    have h2 : ¬ (th.sp > th.stack_top) := by omega
    have h3 : ¬ (th.sp < th.sp - 1) := by omega
    refine ⟨{ th with
        except_lvl := 1
        cells := fun a1 =>
          if a1 = th.sp - 1 then inst_obj w
          else if th.sp - 1 ≤ a1 ∧ a1 < th.sp - 1 + 1 then inst_obj 0 else th.cells a1 },
      by simp only [dict_ats_put_work, ovm_stack_alloc, _ovm_stack_alloc, h1,
        if_false, ovm_stack_unwind, h2, h3], rfl, rfl, rfl, rfl, rfl, rfl, rfl, rfl, rfl, ?_⟩
    have hx1 : ¬ (x = th.sp - 1) := by omega
    have hx2 : ¬ (th.sp - 1 ≤ x ∧ x < th.sp - 1 + 1) := by omega
    simp only [hx1, hx2, if_false]
  have habove2 : frames_above th2 X ns0 mc0 sp0 th2.fp th2.nsfp th2.mcfp th2.sp := by
    rw [e2, e3, e4, e5]
    exact frames_above_congr th th2 X ns0 mc0 sp0 e6 _ _ _ _ habove (fun a1 _ _ => by rw [e1])
  obtain ⟨t, hjump, r1, r2, r3, r4, r5, r6, r7, r8, r9, r10⟩ :=
    except_longjmp_delivers fuel th2 x a X size prev sp0 pc0 ns0 mc0 av
      (by rw [e1]; exact hXf) (by rw [e7]; exact hXtop) habove2 (by rw [e6]; exact hsp0)
      (by rw [e2]; exact hfuel)
  refine ⟨t, ?_, by rw [r1, e10], r2, r3, by rw [r4, e8, hxfp], r5, r6, r7, r8, r9,
    by rw [r10, e9]⟩
  have hr1 : except_raise1 bt th = .ok { th with except_lvl := 1 } := by
    simp [except_raise1, hlvl]
  have hxfp2 : ¬ (th2.xfp = 0) := by rw [e8, hxfp]; exact hX0
  have hxfp3 : th2.xfp = X := by rw [e8, hxfp]
  simp only [ovm_except_raise, hr1, hmc, if_false, hmcf, except_raise2, hwork, hxfp2, hxfp3,
    hjump, hX0]


/-- Witness of C4 (amended): the raise of the object in cell 61 in the sample
thread, whose catch frame is at 652 below a namespace frame and a method-call
frame. -/
theorem except_raise_delivers_witness :
    ∃ t, ovm_except_raise (fun t => .ok t) (fun t => .ok t) 100 sample_catch_thread 61 301
          = .ok t
      ∧ t.cells 62 = sample_catch_thread.cells 61
      ∧ t.frames 652 = some (.xc 248 0 62 true 60 7)
      ∧ t.fp = 652 ∧ t.xfp = 652 ∧ t.mcfp = 900 ∧ t.nsfp = 0
      ∧ t.sp = 60 ∧ t.pc = 7 ∧ t.exceptf = true ∧ t.except_lvl = 1 :=
  except_raise_delivers (fun t => .ok t) (fun t => .ok t) 100 sample_catch_thread 61 301 62 652
    248 0 60 7 0 900 false
    rfl (by decide) (by decide) ⟨64, 900, 40, 58, 59, 58, 1, 58, rfl⟩ rfl (by decide) rfl
    (by decide)
    (.mc 564 64 900 40 58 59 58 1 58 628 58 rfl (by decide) (by decide) (by decide)
      (.ns 628 24 0 11 900 58 rfl (by decide) (.base 58 (by decide))))
    (by decide) (by decide) (by decide)

/-- C4, counterexample to the claim as stated: in the sample thread the raise
is delivered to the catch frame at 652, which stays the innermost exception
frame, and leaves the counter at 1; a raise in the handler, before that frame
is popped, delivers nothing: it is left through `ovm_thread_fatal` (here, the
backtrace returning, with `OVM_THREAD_FATAL_DOUBLE_EXCEPT`).  Nor does a raise
deliver when the value stack has no free cell: `dict_ats_put` is fatal with
`OVM_THREAD_FATAL_STACK_OVERFLOW`. -/
theorem except_raise_delivers_counterexample :
    (∃ t, ovm_except_raise (fun t => .ok t) (fun t => .ok t) 100 sample_catch_thread 61 301
          = .ok t
      ∧ t.xfp = 652 ∧ t.frames 652 = some (.xc 248 0 62 true 60 7) ∧ t.except_lvl = 1
      ∧ ovm_except_raise (fun t => .ok t) (fun t => .ok t) 100 t 61 302
          = .error (.fatal OVM_THREAD_FATAL_DOUBLE_EXCEPT))
    ∧ ovm_except_raise (fun t => .ok t) (fun t => .ok t) 100
          { sample_catch_thread with stack := 58 } 61 301
        = .error (.fatal OVM_THREAD_FATAL_STACK_OVERFLOW) :=
  ⟨⟨_, rfl, rfl, rfl, rfl, rfl⟩, rfl⟩

/-! ### The collector: marking -/

theorem refs_from_append (h : ovm_heap) (a b : List Nat) (q : Nat) :
    refs_from h (a ++ b) q = refs_from h a q + refs_from h b q := by
  simp [refs_from]

theorem refs_from_perm (h : ovm_heap) (a b : List Nat) (hp : a.Perm b) (q : Nat) :
    refs_from h a q = refs_from h b q := by
  unfold refs_from
  exact (hp.map _).sum_eq

/-- Reachable objects are objects of the graph. -/
theorem reachable_mem (G : ovm_heap) (roots L : List Nat) (hwf : graph_wf G roots L) :
    ∀ q, reachable G roots q → q ∈ L := by
  intro q hq
  induction hq with
  | root q hq h0 =>
    rcases hwf.2.2.1 q hq with h | h
    · exact absurd h h0
    · exact h
  | step p q _ hq h0 ih =>
    rcases hwf.2.2.2.1 p ih q hq with h | h
    · exact absurd h h0
    · exact h

/-- The count of an object and its pending visits stay below `2^32`. -/
theorem mark_inv_bound (G : ovm_heap) (roots L : List Nat) (h : ovm_heap) (work : List Nat)
    (hwf : graph_wf G roots L) (inv : mark_inv G roots L h work) (q : Nat) (hq : q ∈ L) :
    h.ref_cnt q + work.count q < 4294967296 := by
  have h1 := inv.count q hq
  have h2 : refs_from G h.white q + refs_from G h.grey q = refs_from G L q := by
    rw [← refs_from_append]
    exact refs_from_perm G _ _ inv.perm q
  have h3 := hwf.2.2.2.2.2.2 q hq
  omega

/-- A pending pointer that is not null points to an object. -/
theorem mark_inv_work_mem (G : ovm_heap) (roots L : List Nat) (h : ovm_heap) (p : Nat)
    (rs : List Nat) (hwf : graph_wf G roots L) (inv : mark_inv G roots L h (p :: rs))
    (hp : p ≠ 0) : p ∈ L := by
  rcases inv.work_reach p (List.mem_cons_self _ _) with h0 | hr
  · exact absurd h0 hp
  · exact reachable_mem G roots L hwf p hr

/-- A visit of the null pointer. -/
theorem mark_inv_null (G : ovm_heap) (roots L : List Nat) (h : ovm_heap) (rs : List Nat)
    (hwf : graph_wf G roots L) (inv : mark_inv G roots L h (0 :: rs)) :
    mark_inv G roots L h rs := by
  refine { inv with count := ?_, closed := ?_, roots_in := ?_, work_reach := ?_ }
  · intro q hq
    have hq0 : q ≠ 0 := fun h0 => hwf.2.1 (h0 ▸ hq)
    have := inv.count q hq
    rw [List.count_cons_of_ne hq0] at this
    exact this
  · intro p hp q hq
    rcases inv.closed p hp q hq with h0 | hw | hw
    · exact Or.inl h0
    · exact Or.inr (Or.inl hw)
    · rcases List.mem_cons.mp hw with h0 | hw
      · exact Or.inl h0
      · exact Or.inr (Or.inr hw)
  · intro q hq
    rcases inv.roots_in q hq with h0 | hw | hw
    · exact Or.inl h0
    · exact Or.inr (Or.inl hw)
    · rcases List.mem_cons.mp hw with h0 | hw
      · exact Or.inl h0
      · exact Or.inr (Or.inr hw)
  · intro q hq
    exact inv.work_reach q (List.mem_cons_of_mem _ hq)

/-- An object of the graph is white or grey, by its count. -/
theorem mark_inv_colour (G : ovm_heap) (roots L : List Nat) (h : ovm_heap) (work : List Nat)
    (inv : mark_inv G roots L h work) (p : Nat) (hp : p ∈ L) :
    (p ∈ h.white ∧ p ∉ h.grey ∧ 1 ≤ h.ref_cnt p) ∨ (p ∈ h.grey ∧ p ∉ h.white ∧ h.ref_cnt p = 0)
    := by
  have hmem : p ∈ h.white ++ h.grey := inv.perm.symm.subset hp
  rcases List.mem_append.mp hmem with hw | hg
  · left
    refine ⟨hw, ?_, inv.white_cnt p hw⟩
    intro hg
    have := inv.grey_cnt p hg
    have := inv.white_cnt p hw
    omega
  · right
    refine ⟨hg, ?_, inv.grey_cnt p hg⟩
    intro hw
    have := inv.grey_cnt p hg
    have := inv.white_cnt p hw
    omega

/-- A visit of an object that has been visited before: its count goes up. -/
theorem mark_inv_seen (G : ovm_heap) (roots L : List Nat) (h : ovm_heap) (p : Nat)
    (rs : List Nat) (hwf : graph_wf G roots L) (inv : mark_inv G roots L h (p :: rs))
    (hp : p ≠ 0) (hc : (ref_cnt_incr h p).ref_cnt p > 1) :
    mark_inv G roots L (ref_cnt_incr h p) rs := by
  have hpL := mark_inv_work_mem G roots L h p rs hwf inv hp
  have hb := mark_inv_bound G roots L h (p :: rs) hwf inv p hpL
  rw [List.count_cons_self] at hb
  have hcnt : (ref_cnt_incr h p).ref_cnt p = h.ref_cnt p + 1 := by
    simp only [ref_cnt_incr, if_true]
    exact Nat.mod_eq_of_lt (by omega)
  rw [hcnt] at hc
  have hwhite : p ∈ h.white := by
    rcases mark_inv_colour G roots L h _ inv p hpL with hw | hg
    · exact hw.1
    · omega
  refine { body_eq := inv.body_eq, inst_eq := inv.inst_eq, trace_eq := inv.trace_eq,
           flag_eq := inv.flag_eq, perm := inv.perm, grey_eq := inv.grey_eq,
           grey_cnt := ?_, white_cnt := ?_, count := ?_, closed := ?_, roots_in := ?_,
           white_reach := inv.white_reach, work_reach := ?_ }
  · intro q hq
    have hne : q ≠ p := by
      rintro rfl
      have := inv.grey_cnt q hq
      omega
    simp only [ref_cnt_incr, hne, if_false]
    exact inv.grey_cnt q hq
  · intro q hq
    by_cases hqp : q = p
    · subst hqp; rw [hcnt]; omega
    · simp only [ref_cnt_incr, hqp, if_false]
      exact inv.white_cnt q hq
  · intro q hq
    have := inv.count q hq
    by_cases hqp : q = p
    · subst hqp
      rw [List.count_cons_self] at this
      show (ref_cnt_incr h q).ref_cnt q + List.count q rs
        = List.count q roots + refs_from G h.white q
      rw [hcnt]
      omega
    · rw [List.count_cons_of_ne hqp] at this
      show (ref_cnt_incr h p).ref_cnt q + List.count q rs
        = List.count q roots + refs_from G h.white q
      simp only [ref_cnt_incr, hqp, if_false]
      exact this
  · intro a ha q hq
    rcases inv.closed a ha q hq with h0 | hw | hw
    · exact Or.inl h0
    · exact Or.inr (Or.inl hw)
    · rcases List.mem_cons.mp hw with h1 | hw
      · exact Or.inr (Or.inl (h1 ▸ hwhite))
      · exact Or.inr (Or.inr hw)
  · intro q hq
    rcases inv.roots_in q hq with h0 | hw | hw
    · exact Or.inl h0
    · exact Or.inr (Or.inl hw)
    · rcases List.mem_cons.mp hw with h1 | hw
      · exact Or.inr (Or.inl (h1 ▸ hwhite))
      · exact Or.inr (Or.inr hw)
  · intro q hq
    exact inv.work_reach q (List.mem_cons_of_mem _ hq)

/-- A first visit of an object: it becomes white with count 1, and what it
points to is pending. -/
theorem mark_inv_fresh (G : ovm_heap) (roots L : List Nat) (h : ovm_heap) (p : Nat)
    (rs : List Nat) (hwf : graph_wf G roots L) (inv : mark_inv G roots L h (p :: rs))
    (hp : p ≠ 0) (hc : ¬ (ref_cnt_incr h p).ref_cnt p > 1) :
    mark_inv G roots L (to_white (ref_cnt_incr h p) p) (obj_refs G p ++ rs)
      ∧ (to_white (ref_cnt_incr h p) p).grey.length + 1 = h.grey.length := by
  have hpL := mark_inv_work_mem G roots L h p rs hwf inv hp
  have hb := mark_inv_bound G roots L h (p :: rs) hwf inv p hpL
  rw [List.count_cons_self] at hb
  have hcnt : (ref_cnt_incr h p).ref_cnt p = h.ref_cnt p + 1 := by
    simp only [ref_cnt_incr, if_true]
    exact Nat.mod_eq_of_lt (by omega)
  rw [hcnt] at hc
  obtain ⟨hg, hnw, hzero⟩ : p ∈ h.grey ∧ p ∉ h.white ∧ h.ref_cnt p = 0 := by
    rcases mark_inv_colour G roots L h _ inv p hpL with hw | hg
    · omega
    · exact hg
  have hnd : (h.white ++ h.grey).Nodup := inv.perm.nodup_iff.mpr hwf.1
  have hgnd : h.grey.Nodup := (List.nodup_append.mp hnd).2.1
  have hwhite : (to_white (ref_cnt_incr h p) p).white = h.white ++ [p] := by
    show h.white.erase p ++ [p] = _
    rw [List.erase_of_not_mem hnw]
  have hgrey : (to_white (ref_cnt_incr h p) p).grey = h.grey.erase p := rfl
  have hpreach : reachable G roots p := by
    rcases inv.work_reach p (List.mem_cons_self _ _) with h0 | hr
    · exact absurd h0 hp
    · exact hr
  refine ⟨{ body_eq := inv.body_eq, inst_eq := inv.inst_eq, trace_eq := inv.trace_eq,
            flag_eq := inv.flag_eq, perm := ?_, grey_eq := ?_,
            grey_cnt := ?_, white_cnt := ?_, count := ?_, closed := ?_, roots_in := ?_,
            white_reach := ?_, work_reach := ?_ }, ?_⟩
  · rw [hwhite, hgrey]
    have h1 : (p :: h.grey.erase p).Perm h.grey := (List.perm_cons_erase hg).symm
    have h2 : (h.white ++ [p] ++ h.grey.erase p) = h.white ++ (p :: h.grey.erase p) := by simp
    rw [h2]
    exact (List.Perm.append_left _ h1).trans inv.perm
  · rw [hwhite, hgrey, hgnd.erase_eq_filter, inv.grey_eq, List.filter_filter]
    apply List.filter_congr
    intro q _
    by_cases hqp : q = p
    · subst hqp; simp
    · simp [hqp]
  · intro q hq
    rw [hgrey] at hq
    have hq2 := (hgnd.mem_erase_iff).mp hq
    show (ref_cnt_incr h p).ref_cnt q = 0
    simp only [ref_cnt_incr, hq2.1, if_false]
    exact inv.grey_cnt q hq2.2
  · intro q hq
    rw [hwhite] at hq
    show 1 ≤ (ref_cnt_incr h p).ref_cnt q
    rcases List.mem_append.mp hq with hq | hq
    · have hne : q ≠ p := fun e => hnw (e ▸ hq)
      simp only [ref_cnt_incr, hne, if_false]
      exact inv.white_cnt q hq
    · have hqp : q = p := by simpa using hq
      subst hqp
      rw [hcnt]; omega
  · intro q hq
    have := inv.count q hq
    rw [hwhite, refs_from_append, List.count_append]
    have hone : refs_from G [p] q = (obj_refs G p).count q := by simp [refs_from]
    rw [hone]
    show (ref_cnt_incr h p).ref_cnt q + _ = _
    by_cases hqp : q = p
    · subst hqp
      rw [List.count_cons_self] at this
      rw [hcnt]
      omega
    · rw [List.count_cons_of_ne hqp] at this
      simp only [ref_cnt_incr, hqp, if_false]
      omega
  · intro a ha q hq
    rw [hwhite] at ha ⊢
    rcases List.mem_append.mp ha with ha | ha
    · rcases inv.closed a ha q hq with h0 | hw | hw
      · exact Or.inl h0
      · exact Or.inr (Or.inl (List.mem_append_left _ hw))
      · rcases List.mem_cons.mp hw with h1 | hw
        · exact Or.inr (Or.inl (by rw [h1]; simp))
        · exact Or.inr (Or.inr (List.mem_append_right _ hw))
    · have hap : a = p := by simpa using ha
      subst hap
      exact Or.inr (Or.inr (List.mem_append_left _ hq))
  · intro q hq
    rw [hwhite]
    rcases inv.roots_in q hq with h0 | hw | hw
    · exact Or.inl h0
    · exact Or.inr (Or.inl (List.mem_append_left _ hw))
    · rcases List.mem_cons.mp hw with h1 | hw
      · exact Or.inr (Or.inl (by rw [h1]; simp))
      · exact Or.inr (Or.inr (List.mem_append_right _ hw))
  · intro q hq
    rw [hwhite] at hq
    rcases List.mem_append.mp hq with hq | hq
    · exact inv.white_reach q hq
    · have hqp : q = p := by simpa using hq
      subst hqp
      exact hpreach
  · intro q hq
    rcases List.mem_append.mp hq with hq | hq
    · by_cases h0 : q = 0
      · exact Or.inl h0
      · exact Or.inr (.step p q hpreach hq h0)
    · exact inv.work_reach q (List.mem_cons_of_mem _ hq)
  · rw [hgrey, List.length_erase_of_mem hg]
    have : 0 < h.grey.length := List.length_pos_of_mem hg
    omega


theorem mark_matches_cases (h : ovm_heap) (p : Nat) (hm : mark_matches h p = true) :
    ∃ b, h.body p = some b
      ∧ ((class_mark_of h (h.inst_of p) = some none ∧ body_refs b = [])
        ∨ (∃ f, class_mark_of h (h.inst_of p) = some (some f)
            ∧ mark_walk f b = some (body_refs b))) := by
  unfold mark_matches at hm
  cases hb : h.body p with
  | none => simp [hb] at hm
  | some b =>
    refine ⟨b, rfl, ?_⟩
    cases hc : class_mark_of h (h.inst_of p) with
    | none => simp [hb, hc] at hm
    | some m =>
      cases m with
      | none =>
        left
        simp only [hb, hc, decide_eq_true_eq] at hm
        exact ⟨rfl, hm⟩
      | some f =>
        right
        simp only [hb, hc, decide_eq_true_eq] at hm
        exact ⟨f, rfl, hm⟩

theorem list_next_ok_cases (h : ovm_heap) (p : Nat) (item : ovm_inst) (next : Nat)
    (hl : list_next_ok h p = true) (hbody : h.body p = some (.list item next)) :
    next = 0 ∨ ∃ item1 next1, h.body next = some (.list item1 next1) := by
  unfold list_next_ok at hl
  rw [hbody] at hl
  by_cases h0 : next = 0
  · exact Or.inl h0
  · right
    cases hb : h.body next with
    | none => simp [hb, h0] at hl
    | some b =>
      cases b <;> simp [hb, h0] at hl
      exact ⟨_, _, rfl⟩

theorem class_mark_of_congr (h G : ovm_heap) (hb : h.body = G.body) (cl : Nat) :
    class_mark_of h cl = class_mark_of G cl := by
  unfold class_mark_of
  rw [hb]

/-- A loop over pointers keeps the invariant, given a mark function that
does. -/
theorem mark_each_inv (G : ovm_heap) (roots L : List Nat)
    (mark : ovm_heap → Nat → Except ovm_stop ovm_heap) (n : Nat)
    (hm : marks_ok G roots L mark n) :
    ∀ (ps : List Nat) (h : ovm_heap) (rs : List Nat),
      mark_inv G roots L h (ps ++ rs) → h.grey.length < n →
      ∃ h1, mark_each mark ps h = .ok h1 ∧ mark_inv G roots L h1 rs
        ∧ h1.grey.length ≤ h.grey.length := by
  intro ps
  induction ps with
  | nil =>
    intro h rs inv _
    exact ⟨h, rfl, inv, le_refl _⟩
  | cons p ps ih =>
    intro h rs inv hlen
    obtain ⟨h1, hrun, inv1, hle1⟩ := hm h p (ps ++ rs) inv hlen
    obtain ⟨h2, hrun2, inv2, hle2⟩ := ih h1 rs inv1 (by omega)
    refine ⟨h2, ?_, inv2, by omega⟩
    simp only [mark_each, hrun, hrun2]

/-- The loop of `list_mark` keeps the invariant, given a mark function that
does. -/
theorem list_mark_loop_inv (G : ovm_heap) (roots L : List Nat) (hwf : graph_wf G roots L)
    (mark : ovm_heap → Nat → Except ovm_stop ovm_heap) (n : Nat)
    (hm : marks_ok G roots L mark n) :
    ∀ (k : Nat) (h : ovm_heap) (q : Nat) (rs : List Nat),
      mark_inv G roots L h (q :: rs) →
      (q = 0 ∨ ∃ item next, G.body q = some (.list item next)) →
      h.grey.length < k → h.grey.length < n →
      ∃ h1, list_mark_loop mark k h q = .ok h1 ∧ mark_inv G roots L h1 rs
        ∧ h1.grey.length ≤ h.grey.length := by
  intro k
  induction k with
  | zero => intro h q rs _ _ hk; omega
  | succ k ih =>
    intro h q rs inv hq hk hn
    by_cases hq0 : q = 0
    · subst hq0
      exact ⟨h, by simp [list_mark_loop], mark_inv_null G roots L h rs hwf inv, le_refl _⟩
    · rcases hq with hq | ⟨item, next, hbody⟩
      · exact absurd hq hq0
      · have hqL := mark_inv_work_mem G roots L h q rs hwf inv hq0
        have hbody2 : h.body q = some (.list item next) := by rw [inv.body_eq]; exact hbody
        by_cases hc : (ref_cnt_incr h q).ref_cnt q > 1
        · refine ⟨ref_cnt_incr h q, ?_, mark_inv_seen G roots L h q rs hwf inv hq0 hc, le_refl _⟩
          simp only [list_mark_loop, hq0, if_false, hbody2, hc, if_true]
        · obtain ⟨inv2, hlen2⟩ := mark_inv_fresh G roots L h q rs hwf inv hq0 hc
          have hrefs : obj_refs G q = G.inst_of q :: inst_target item :: next :: [] := by
            simp [obj_refs, hbody, body_refs]
          rw [hrefs] at inv2
          have hcl : (to_white (ref_cnt_incr h q) q).inst_of q = G.inst_of q := by
            rw [inv2.inst_eq]
          obtain ⟨h3, hrun3, inv3, hle3⟩ := hm _ _ _ inv2 (by omega)
          obtain ⟨h4, hrun4, inv4, hle4⟩ := hm _ _ _ inv3 (by omega)
          have hnext : next = 0 ∨ ∃ item1 next1, G.body next = some (.list item1 next1) := by
            have hl := hwf.2.2.2.2.2.1 q hqL
            exact list_next_ok_cases G q item next hl hbody
          obtain ⟨h5, hrun5, inv5, hle5⟩ := ih h4 next rs inv4 hnext (by omega) (by omega)
          refine ⟨h5, ?_, inv5, by omega⟩
          simp only [list_mark_loop, hq0, if_false, hbody2, hc, hcl, hrun3, hrun4, hrun5]

/-- `ovm_obj_mark` returns, given fuel for the grey objects, and keeps the
invariant of the marking. -/
theorem ovm_obj_mark_inv (G : ovm_heap) (roots L : List Nat) (hwf : graph_wf G roots L) :
    ∀ fuel, marks_ok G roots L (ovm_obj_mark fuel) fuel := by
  intro fuel
  induction fuel with
  | zero => intro h p rs _ hlen; omega
  | succ fuel ih =>
    intro h p rs inv hlen
    by_cases hp0 : p = 0
    · subst hp0
      refine ⟨h, ?_, mark_inv_null G roots L h rs hwf inv, le_refl _⟩
      unfold ovm_obj_mark
      simp
    · have hpL := mark_inv_work_mem G roots L h p rs hwf inv hp0
      obtain ⟨b, hbody, hcases⟩ := mark_matches_cases G p (hwf.2.2.2.2.1 p hpL)
      have hbody2 : h.body p = some b := by rw [inv.body_eq]; exact hbody
      by_cases hc : (ref_cnt_incr h p).ref_cnt p > 1
      · refine ⟨ref_cnt_incr h p, ?_, mark_inv_seen G roots L h p rs hwf inv hp0 hc, le_refl _⟩
        unfold ovm_obj_mark
        simp only [hp0, if_false, hbody2, hc, if_true]
      · obtain ⟨inv2, hlen2⟩ := mark_inv_fresh G roots L h p rs hwf inv hp0 hc
        have hrefs : obj_refs G p = G.inst_of p :: body_refs b := by
          simp [obj_refs, hbody]
        rw [hrefs] at inv2
        have hcl : (to_white (ref_cnt_incr h p) p).inst_of p = G.inst_of p := by
          rw [inv2.inst_eq]
        obtain ⟨h3, hrun3, inv3, hle3⟩ := ih _ _ _ inv2 (by omega)
        have hcm : class_mark_of h3 (G.inst_of p) = class_mark_of G (G.inst_of p) :=
          class_mark_of_congr h3 G inv3.body_eq _
        rcases hcases with ⟨hnone, hnil⟩ | ⟨f, hsome, hwalk⟩
        · rw [hnil] at inv3
          refine ⟨h3, ?_, inv3, by omega⟩
          unfold ovm_obj_mark
          simp only [hp0, if_false, hbody2, hc, hcl, hrun3, hcm, hnone]
        · by_cases hf : f = .list_mark
          · subst hf
            obtain ⟨item, next, hb⟩ : ∃ item next, b = .list item next := by
              cases b <;> simp [mark_walk] at hwalk
              exact ⟨_, _, rfl⟩
            subst hb
            have hbr : body_refs (.list item next) = [inst_target item, next] := rfl
            rw [hbr] at inv3
            obtain ⟨h4, hrun4, inv4, hle4⟩ := ih _ _ _ inv3 (by omega)
            have hnext : next = 0 ∨ ∃ item1 next1, G.body next = some (.list item1 next1) := by
              have hl := hwf.2.2.2.2.2.1 p hpL
              exact list_next_ok_cases G p item next hl hbody
            obtain ⟨h5, hrun5, inv5, hle5⟩ :=
              list_mark_loop_inv G roots L hwf (ovm_obj_mark fuel) fuel ih fuel h4 next rs inv4
                hnext (by omega) (by omega)
            refine ⟨h5, ?_, inv5, by omega⟩
            unfold ovm_obj_mark
            simp only [hp0, if_false, hbody2, hc, hcl, hrun3, hcm, hsome, if_true, hrun4, hrun5]
          · obtain ⟨h4, hrun4, inv4, hle4⟩ :=
              mark_each_inv G roots L (ovm_obj_mark fuel) fuel ih (body_refs b) h3 rs inv3
                (by omega)
            refine ⟨h4, ?_, inv4, by omega⟩
            unfold ovm_obj_mark
            simp only [hp0, if_false, hbody2, hc, hcl, hrun3, hcm, hsome, hf, hwalk, hrun4]


/-! ### The collector: sweep and `collect` -/

theorem class_cleanup_of_keep (h h2 : ovm_heap) (cl : Nat)
    (hb : cl = 0 ∨ h2.body cl = h.body cl) :
    class_cleanup_of h2 cl = class_cleanup_of h cl := by
  unfold class_cleanup_of
  by_cases h0 : cl = 0
  · simp [h0]
  · rcases hb with hb | hb
    · exact absurd hb h0
    · rw [hb]

/-- The sweep destroys the grey objects in list order, each after the
cleanup function of its class was called, when the class of none of them is
grey. -/
theorem collect_sweep_spec :
    ∀ (n : Nat) (h : ovm_heap), h.grey.length ≤ n → h.grey.Nodup →
      (∀ p ∈ h.grey, h.inst_of p ∉ h.grey ∧ class_cleanup_of h (h.inst_of p) ≠ none) →
      ∃ h1, collect_sweep n h = .ok h1 ∧ h1.grey = [] ∧ h1.white = h.white
        ∧ h1.ref_cnt = h.ref_cnt ∧ h1.inst_of = h.inst_of
        ∧ (∀ a, h1.body a = if a ∈ h.grey then none else h.body a)
        ∧ h1.trace = h.trace ++ h.grey.flatMap (sweep_events h)
        ∧ h1.collectingf = h.collectingf ∧ h1.collect_againf = h.collect_againf := by
  intro n
  induction n with
  | zero =>
    intro h hlen _ _
    have hnil : h.grey = [] := List.length_eq_zero.mp (by omega)
    refine ⟨h, ?_, hnil, rfl, rfl, rfl, ?_, ?_, rfl, rfl⟩
    · unfold collect_sweep; simp [hnil]
    · intro a; simp [hnil]
    · simp [hnil]
  | succ n ih =>
    intro h hlen hnd hcl
    cases hg : h.grey with
    | nil =>
      refine ⟨h, ?_, hg, rfl, rfl, rfl, ?_, ?_, rfl, rfl⟩
      · unfold collect_sweep; simp [hg]
      · intro a; simp
      · simp
    | cons obj rest =>
      rw [hg] at hnd hlen hcl
      obtain ⟨hobj, hrest⟩ := List.nodup_cons.mp hnd
      obtain ⟨hclobj, hclean⟩ := hcl obj (List.mem_cons_self _ _)
      cases hf : class_cleanup_of h (h.inst_of obj) with
      | none => exact absurd hf hclean
      | some f =>
        let h2 := obj_destroy { run_cleanup h f obj with grey := rest } obj
        have hgrey2 : h2.grey = rest := rfl
        have hinst2 : h2.inst_of = h.inst_of := by cases f <;> rfl
        have hbody2 : ∀ a, h2.body a = if a = obj then none else h.body a := by
          intro a; cases f <;> rfl
        have hkeep : ∀ p ∈ rest, class_cleanup_of h2 (h.inst_of p)
            = class_cleanup_of h (h.inst_of p) := by
          intro p hp
          apply class_cleanup_of_keep
          right
          rw [hbody2]
          have hne : h.inst_of p ≠ obj := by
            intro e
            exact (hcl p (List.mem_cons_of_mem _ hp)).1 (e ▸ List.mem_cons_self _ _)
          simp [hne]
        obtain ⟨h3, hrun, e1, e2, e3, e4, e5, e6, e7, e8⟩ := ih h2 (by
            rw [hgrey2]; simp at hlen; omega) (by rw [hgrey2]; exact hrest) (by
            intro p hp
            rw [hgrey2] at hp
            rw [hinst2, hgrey2, hkeep p hp]
            exact ⟨fun hm => (hcl p (List.mem_cons_of_mem _ hp)).1 (List.mem_cons_of_mem _ hm),
              (hcl p (List.mem_cons_of_mem _ hp)).2⟩)
        refine ⟨h3, ?_, e1, ?_, ?_, ?_, ?_, ?_, ?_, ?_⟩
        · unfold collect_sweep
          simp only [hg, hf]
          have herase : (run_cleanup h f obj).grey.erase obj = rest := by
            have : (run_cleanup h f obj).grey = obj :: rest := by cases f <;> exact hg
            rw [this]; simp
          rw [herase]
          exact hrun
        · rw [e2]; cases f <;> rfl
        · rw [e3]; cases f <;> rfl
        · rw [e4, hinst2]
        · intro a
          rw [e5, hgrey2, hbody2]
          by_cases ha : a = obj
          · subst ha; simp
          · simp [ha]
        · rw [e6, hgrey2]
          have hev : rest.flatMap (sweep_events h2) = rest.flatMap (sweep_events h) := by
            apply List.flatMap_congr
            intro p hp
            unfold sweep_events
            rw [hinst2, hkeep p hp]
          rw [hev]
          have htr : h2.trace = h.trace ++ sweep_events h obj := by
            unfold sweep_events
            rw [hf]
            cases f <;> simp [h2, obj_destroy, run_cleanup]
          rw [htr]
          simp [List.flatMap_cons]
        · rw [e7]; cases f <;> rfl
        · rw [e8]; cases f <;> rfl


theorem obj_refs_congr (h1 h2 : ovm_heap) (hb : h1.body = h2.body)
    (hi : h1.inst_of = h2.inst_of) (p : Nat) : obj_refs h1 p = obj_refs h2 p := by
  unfold obj_refs
  rw [hb, hi]

theorem reachable_congr (h1 h2 : ovm_heap) (roots : List Nat) (hb : h1.body = h2.body)
    (hi : h1.inst_of = h2.inst_of) (q : Nat) (hq : reachable h1 roots q) :
    reachable h2 roots q := by
  induction hq with
  | root q hq h0 => exact .root q hq h0
  | step p q _ hq h0 ih => exact .step p q ih (by rw [← obj_refs_congr h1 h2 hb hi]; exact hq) h0

theorem refs_from_congr (h1 h2 : ovm_heap) (hb : h1.body = h2.body)
    (hi : h1.inst_of = h2.inst_of) (ps : List Nat) (q : Nat) :
    refs_from h1 ps q = refs_from h2 ps q := by
  unfold refs_from
  simp only [obj_refs_congr h1 h2 hb hi]

theorem graph_wf_congr (h1 h2 : ovm_heap) (roots L : List Nat) (hb : h1.body = h2.body)
    (hi : h1.inst_of = h2.inst_of) (hwf : graph_wf h1 roots L) : graph_wf h2 roots L := by
  obtain ⟨w1, w2, w3, w4, w5, w6, w7⟩ := hwf
  refine ⟨w1, w2, w3, ?_, ?_, ?_, ?_⟩
  · intro p hp q hq
    rw [← obj_refs_congr h1 h2 hb hi] at hq
    exact w4 p hp q hq
  · intro p hp
    have := w5 p hp
    unfold mark_matches at this ⊢
    rw [← hb, ← hi, class_mark_of_congr h2 h1 hb.symm]
    exact this
  · intro p hp
    have := w6 p hp
    unfold list_next_ok at this ⊢
    rw [← hb]
    exact this
  · intro q hq
    rw [← refs_from_congr h1 h2 hb hi]
    exact w7 q hq

/-- The loop over the stacks of the threads keeps the invariant. -/
theorem mark_threads_inv (G : ovm_heap) (roots L : List Nat)
    (mark : ovm_heap → Nat → Except ovm_stop ovm_heap) (n : Nat)
    (hm : marks_ok G roots L mark n) :
    ∀ (ths : List ovm_thread) (h : ovm_heap) (rs : List Nat),
      mark_inv G roots L h ((ths.map stack_targets).flatten ++ rs) → h.grey.length < n →
      ∃ h1, mark_threads mark ths h = .ok h1 ∧ mark_inv G roots L h1 rs
        ∧ h1.grey.length ≤ h.grey.length := by
  intro ths
  induction ths with
  | nil =>
    intro h rs inv _
    exact ⟨h, rfl, by simpa using inv, le_refl _⟩
  | cons th ths ih =>
    intro h rs inv hlen
    have inv0 : mark_inv G roots L h
        (stack_targets th ++ ((ths.map stack_targets).flatten ++ rs)) := by
      simpa using inv
    obtain ⟨h1, hrun, inv1, hle1⟩ := mark_each_inv G roots L mark n hm _ h _ inv0 hlen
    obtain ⟨h2, hrun2, inv2, hle2⟩ := ih h1 rs inv1 (by omega)
    refine ⟨h2, ?_, inv2, by omega⟩
    simp only [mark_threads, hrun, hrun2]

/-- The invariant of the marking holds after the swap of the lists, with all
roots pending. -/
theorem mark_inv_start (h : ovm_heap) (roots : List Nat) (hgrey : h.grey = []) :
    mark_inv (collect_swap h) roots h.white (collect_swap h) roots := by
  refine { body_eq := rfl, inst_eq := rfl, trace_eq := rfl, flag_eq := ⟨rfl, rfl⟩,
           perm := ?_, grey_eq := ?_, grey_cnt := ?_, white_cnt := ?_, count := ?_,
           closed := ?_, roots_in := ?_, white_reach := ?_, work_reach := ?_ }
  · show (h.grey ++ h.white).Perm h.white
    rw [hgrey]; simp
  · show h.white = h.white.filter (fun q => decide (q ∉ h.grey))
    rw [hgrey]; simp
  · intro p hp
    have hp2 : p ∈ h.white := hp
    simp [collect_swap, hp2]
  · intro p hp
    have hp2 : p ∈ h.grey := hp
    rw [hgrey] at hp2
    cases hp2
  · intro q _
    show (collect_swap h).ref_cnt q + _ = _ + refs_from _ h.grey q
    rw [hgrey]
    have : q ∈ h.white := by assumption
    simp [collect_swap, this, refs_from]
  · intro p hp
    have hp2 : p ∈ h.grey := hp
    rw [hgrey] at hp2
    cases hp2
  · intro q hq
    exact Or.inr (Or.inr hq)
  · intro p hp
    have hp2 : p ∈ h.grey := hp
    rw [hgrey] at hp2
    cases hp2
  · intro q hq
    by_cases h0 : q = 0
    · exact Or.inl h0
    · exact Or.inr (.root q hq h0)

/-- When the marking is over, the white objects are the reachable ones. -/
theorem mark_inv_white (G : ovm_heap) (roots L : List Nat) (h : ovm_heap)
    (inv : mark_inv G roots L h []) (q : Nat) : q ∈ h.white ↔ reachable G roots q := by
  constructor
  · exact inv.white_reach q
  · intro hq
    induction hq with
    | root q hq h0 =>
      rcases inv.roots_in q hq with e | hw | hw
      · exact absurd e h0
      · exact hw
      · cases hw
    | step p q _ hq h0 ih =>
      rcases inv.closed p ih q hq with e | hw | hw
      · exact absurd e h0
      · exact hw
      · cases hw


theorem class_cleanup_of_some (h : ovm_heap) (cl : Nat) (hm : class_mark_of h cl ≠ none) :
    class_cleanup_of h cl ≠ none := by
  unfold class_mark_of at hm
  unfold class_cleanup_of
  by_cases h0 : cl = 0
  · simp [h0]
  · simp only [h0, if_false] at hm ⊢
    cases hb : h.body cl with
    | none => simp [hb] at hm
    | some b => cases b <;> simp [hb] at hm ⊢

/-- One turn of the loop of `collect`, on a well-formed heap in which the
class of every object is null or reachable: the turn returns; the white list
holds the reachable objects; the grey list is empty; the other objects were
destroyed, in list order, each after the cleanup function of its class was
called; and the count of a white object is the number of references to it from
the roots and the white objects. -/
theorem collect_pass_spec (fuel : Nat) (r : ovm_roots) (h : ovm_heap)
    (hwf : heap_wf h (collect_roots r))
    (hsafe : ∀ p ∈ h.white, h.inst_of p = 0 ∨ reachable h (collect_roots r) (h.inst_of p))
    (hfuel : h.white.length < fuel) :
    ∃ h1, collect_pass fuel r h = .ok h1
      ∧ (∀ q, q ∈ h1.white ↔ reachable h (collect_roots r) q)
      ∧ h1.grey = [] ∧ h1.white.Nodup
      ∧ (∀ a, h1.body a = if a ∈ h.white ∧ a ∉ h1.white then none else h.body a)
      ∧ h1.inst_of = h.inst_of
      ∧ h1.trace = h.trace
          ++ (h.white.filter (fun q => decide (q ∉ h1.white))).flatMap (sweep_events h)
      ∧ (∀ q ∈ h1.white,
          h1.ref_cnt q = (collect_roots r).count q + refs_from h h1.white q
            ∧ 1 ≤ h1.ref_cnt q)
      ∧ h1.collectingf = h.collectingf ∧ h1.collect_againf = false := by
  obtain ⟨hgrey, hgw⟩ := hwf
  have hwfG : graph_wf (collect_swap h) (collect_roots r) h.white :=
    graph_wf_congr h (collect_swap h) _ _ rfl rfl hgw
  have hm := ovm_obj_mark_inv (collect_swap h) (collect_roots r) h.white hwfG fuel
  have inv0 := mark_inv_start h (collect_roots r) hgrey
  have hlen0 : (collect_swap h).grey.length < fuel := hfuel
  have inv0a : mark_inv (collect_swap h) (collect_roots r) h.white (collect_swap h)
      (ovm_consts_list r.consts
        ++ (r.ns_main :: ((r.thread_list.map stack_targets).flatten ++ []))) := by
    simpa [collect_roots] using inv0
  obtain ⟨h1, hrun1, inv1, hle1⟩ :=
    mark_each_inv _ _ _ (ovm_obj_mark fuel) fuel hm _ _ _ inv0a hlen0
  obtain ⟨h2, hrun2, inv2, hle2⟩ := hm h1 _ _ inv1 (by omega)
  obtain ⟨h3, hrun3, inv3, hle3⟩ :=
    mark_threads_inv _ _ _ (ovm_obj_mark fuel) fuel hm _ h2 [] inv2 (by omega)
  have hnd : (h3.white ++ h3.grey).Nodup := inv3.perm.nodup_iff.mpr hgw.1
  have hwhite : ∀ q, q ∈ h3.white ↔ reachable h (collect_roots r) q := by
    intro q
    rw [mark_inv_white _ _ _ h3 inv3 q]
    exact ⟨reachable_congr (collect_swap h) h _ rfl rfl q,
      reachable_congr h (collect_swap h) _ rfl rfl q⟩
  have hgreyL : ∀ p ∈ h3.grey, p ∈ h.white := fun p hp =>
    inv3.perm.subset (List.mem_append_right _ hp)
  obtain ⟨h4, hrun4, s1, s2, s3, s4, s5, s6, s7, s8⟩ := collect_sweep_spec fuel h3
    (by have : (collect_swap h).grey.length = h.white.length := rfl
        omega)
    (List.nodup_append.mp hnd).2.1
    (by
      intro p hp
      have hpL := hgreyL p hp
      have hi : h3.inst_of p = h.inst_of p := by rw [inv3.inst_eq]; rfl
      rw [hi]
      constructor
      · intro hcg
        rcases hsafe p hpL with h0 | hr
        · rw [h0] at hcg
          exact hgw.2.1 (hgreyL 0 hcg)
        · have hw := (hwhite _).mpr hr
          exact (List.nodup_append.mp hnd).2.2 hw hcg
      · apply class_cleanup_of_some
        rw [class_mark_of_congr h3 (collect_swap h) inv3.body_eq]
        obtain ⟨b, _, hc⟩ := mark_matches_cases _ p (hwfG.2.2.2.2.1 p hpL)
        rcases hc with ⟨hc, _⟩ | ⟨f, hc, _⟩
        · intro e
          have : class_mark_of (collect_swap h) ((collect_swap h).inst_of p) = none := e
          rw [this] at hc; cases hc
        · intro e
          have : class_mark_of (collect_swap h) ((collect_swap h).inst_of p) = none := e
          rw [this] at hc; cases hc)
  have hbody3 : h3.body = h.body := inv3.body_eq
  have hinst3 : h3.inst_of = h.inst_of := inv3.inst_eq
  have hev : ∀ p, sweep_events h3 p = sweep_events h p := by
    intro p
    unfold sweep_events
    rw [hinst3, class_cleanup_of_keep h h3 _ (Or.inr (by rw [hbody3]))]
  refine ⟨h4, ?_, ?_, s1, ?_, ?_, ?_, ?_, ?_, ?_, ?_⟩
  · unfold collect_pass
    simp only [hrun1, hrun2, hrun3, hrun4]
  · intro q; rw [s2]; exact hwhite q
  · rw [s2]; exact (List.nodup_append.mp hnd).1
  · intro a
    rw [s5 a, s2, hbody3]
    by_cases hag : a ∈ h3.grey
    · have h1 : a ∈ h.white := hgreyL a hag
      have h2 : a ∉ h3.white := fun hw => (List.nodup_append.mp hnd).2.2 hw hag
      simp [hag, h1, h2]
    · by_cases haL : a ∈ h.white
      · have hmem : a ∈ h3.white ++ h3.grey := inv3.perm.symm.subset haL
        have haw : a ∈ h3.white := by
          rcases List.mem_append.mp hmem with hw | hg
          · exact hw
          · exact absurd hg hag
        simp [hag, haw]
      · simp [hag, haL]
  · rw [s4, hinst3]
  · rw [s6, s2, inv3.trace_eq, inv3.grey_eq]
    have : h3.grey.flatMap (sweep_events h3) = h3.grey.flatMap (sweep_events h) := by
      apply List.flatMap_congr
      intro p _
      exact hev p
    rw [inv3.grey_eq] at this
    rw [this]
    rfl
  · intro q hq
    rw [s2] at hq ⊢
    rw [s3]
    have hqL : q ∈ h.white := inv3.perm.subset (List.mem_append_left _ hq)
    have hcount := inv3.count q hqL
    simp only [List.count_nil, add_zero] at hcount
    rw [refs_from_congr (collect_swap h) h rfl rfl] at hcount
    exact ⟨hcount, inv3.white_cnt q hq⟩
  · rw [s7, inv3.flag_eq.1]; rfl
  · rw [s8, inv3.flag_eq.2]; rfl


/-- `collect` on a well-formed heap in which the class of every object is
null or reachable, with fuel for the objects: what `collect_pass_spec` states
of its one turn. -/
theorem collect_spec (fuel : Nat) (r : ovm_roots) (h : ovm_heap)
    (hwf : heap_wf h (collect_roots r))
    (hsafe : ∀ p ∈ h.white, h.inst_of p = 0 ∨ reachable h (collect_roots r) (h.inst_of p))
    (hfuel : h.white.length < fuel) :
    ∃ h1, collect fuel r h = .ok h1
      ∧ (∀ q, q ∈ h1.white ↔ reachable h (collect_roots r) q)
      ∧ h1.grey = [] ∧ h1.white.Nodup
      ∧ (∀ a, h1.body a = if a ∈ h.white ∧ a ∉ h1.white then none else h.body a)
      ∧ h1.inst_of = h.inst_of
      ∧ h1.trace = h.trace
          ++ (h.white.filter (fun q => decide (q ∉ h1.white))).flatMap (sweep_events h)
      ∧ (∀ q ∈ h1.white,
          h1.ref_cnt q = (collect_roots r).count q + refs_from h h1.white q
            ∧ 1 ≤ h1.ref_cnt q)
      ∧ h1.collectingf = false ∧ h1.collect_againf = false := by
  have hwf2 : heap_wf { h with collectingf := true } (collect_roots r) :=
    ⟨hwf.1, graph_wf_congr h _ _ _ rfl rfl hwf.2⟩
  obtain ⟨h1, hrun, c1, c2, c3, c4, c5, c6, c7, c8, c9⟩ :=
    collect_pass_spec fuel r { h with collectingf := true } hwf2
      (by
        intro p hp
        rcases hsafe p hp with h0 | hr
        · exact Or.inl h0
        · exact Or.inr (reachable_congr h { h with collectingf := true } _ rfl rfl _ hr))
      hfuel
  refine ⟨{ h1 with collectingf := false }, ?_, ?_, c2, c3, c4, c5, ?_, ?_, rfl, c9⟩
  · cases fuel with
    | zero => omega
    | succ n =>
      unfold collect collect_loop
      simp [hrun, c9]
  · intro q
    rw [← show q ∈ h1.white ↔ q ∈ ({ h1 with collectingf := false } : ovm_heap).white
      from Iff.rfl, c1 q]
    exact ⟨reachable_congr { h with collectingf := true } h _ rfl rfl q,
      reachable_congr h { h with collectingf := true } _ rfl rfl q⟩
  · exact c6
  · intro q hq
    have := c7 q hq
    rw [refs_from_congr { h with collectingf := true } h rfl rfl] at this
    exact this


/-- In the sample heap the class of every object is null or a root. -/
theorem sample_heap_safe :
    ∀ p ∈ sample_heap.white,
      sample_heap.inst_of p = 0
        ∨ reachable sample_heap (collect_roots sample_gc_roots) (sample_heap.inst_of p) := by
  intro p hp
  have hp2 : p ∈ [1, 2, 9, 10, 23, 24, 60, 40, 41, 42, 50, 51, 52] := hp
  simp only [List.mem_cons, List.mem_singleton, List.not_mem_nil, or_false] at hp2
  rcases hp2 with rfl | rfl | rfl | rfl | rfl | rfl | rfl | rfl | rfl | rfl | rfl | rfl | rfl
  · exact Or.inl rfl
  all_goals exact Or.inr (.root _ (by decide) (by decide))

/-- For every well-formed heap and root set (the constants table, the main
namespace and the cells from `sp` to `stack_top` of every thread) in which
the class of every object is null or reachable, `collect`, given fuel for the
objects, returns; then the white list holds exactly the objects reachable from
the roots through cells, object fields and class pointers; the grey list is
empty; every unreachable object is destroyed, the reachable ones are as they
were; and the events of the sweep are, for the unreachable objects in list
order, the call of the cleanup function of the class followed by the
destruction of the object. -/
theorem collect_keeps_reachable (fuel : Nat) (r : ovm_roots) (h : ovm_heap)
    (hwf : heap_wf h (collect_roots r))
    (hsafe : ∀ p ∈ h.white, h.inst_of p = 0 ∨ reachable h (collect_roots r) (h.inst_of p))
    (hfuel : h.white.length < fuel) :
    ∃ h1, collect fuel r h = .ok h1
      ∧ (∀ q, q ∈ h1.white ↔ reachable h (collect_roots r) q)
      ∧ h1.grey = []
      ∧ (∀ q ∈ h.white, ¬ reachable h (collect_roots r) q →
          h1.body q = none ∧ ∃ pre post, h1.trace = pre ++ sweep_events h q ++ post)
      ∧ (∀ q, reachable h (collect_roots r) q → h1.body q = h.body q)
      ∧ h1.trace = h.trace
          ++ (h.white.filter (fun q => decide (q ∉ h1.white))).flatMap (sweep_events h) := by
  obtain ⟨h1, hrun, c1, c2, _, c4, _, c6, _, _, _⟩ := collect_spec fuel r h hwf hsafe hfuel
  refine ⟨h1, hrun, c1, c2, ?_, ?_, c6⟩
  · intro q hq hnr
    have hnw : q ∉ h1.white := fun hw => hnr ((c1 q).mp hw)
    constructor
    · rw [c4 q]; simp [hq, hnw]
    · have hmem : q ∈ h.white.filter (fun q => decide (q ∉ h1.white)) := by
        simp [List.mem_filter, hq, hnw]
      obtain ⟨l1, l2, hl⟩ := List.append_of_mem hmem
      refine ⟨h.trace ++ l1.flatMap (sweep_events h), l2.flatMap (sweep_events h), ?_⟩
      rw [c6, hl]
      simp [List.flatMap_append, List.flatMap_cons]
  · intro q hr
    have hw := (c1 q).mpr hr
    rw [c4 q]; simp [hw]

/-- The collection of the sample heap, in which the pairs 50 and 51 form a
cycle that nothing else points to. -/
theorem collect_keeps_reachable_sample :
    ∃ h1, collect 20 sample_gc_roots sample_heap = .ok h1
      ∧ (∀ q, q ∈ h1.white ↔ reachable sample_heap (collect_roots sample_gc_roots) q)
      ∧ h1.grey = []
      ∧ (∀ q ∈ sample_heap.white, ¬ reachable sample_heap (collect_roots sample_gc_roots) q →
          h1.body q = none
            ∧ ∃ pre post, h1.trace = pre ++ sweep_events sample_heap q ++ post)
      ∧ (∀ q, reachable sample_heap (collect_roots sample_gc_roots) q →
          h1.body q = sample_heap.body q)
      ∧ h1.trace = sample_heap.trace
          ++ (sample_heap.white.filter (fun q => decide (q ∉ h1.white))).flatMap
              (sweep_events sample_heap) :=
  collect_keeps_reachable 20 sample_gc_roots sample_heap
    (by unfold heap_wf graph_wf; decide) sample_heap_safe (by decide)

theorem refs_from_survivors (h h1 : ovm_heap) (ps : List Nat) (q : Nat)
    (hsame : ∀ p ∈ ps, obj_refs h1 p = obj_refs h p) :
    refs_from h1 ps q = refs_from h ps q := by
  unfold refs_from
  congr 1
  apply List.map_congr_left
  intro p hp
  rw [hsame p hp]

theorem filter_split {α : Type} (f : α → Bool) :
    ∀ (L g1 : List α) (p : α) (g2 : List α), L.filter f = g1 ++ p :: g2 →
      ∃ l1 l2, L = l1 ++ p :: l2 ∧ l1.filter f = g1 ∧ f p = true := by
  intro L
  induction L with
  | nil =>
    intro g1 p g2 h
    cases g1 <;> simp at h
  | cons a L ih =>
    intro g1 p g2 h
    by_cases ha : f a = true
    · rw [List.filter_cons_of_pos ha] at h
      cases g1 with
      | nil =>
        simp only [List.nil_append, List.cons.injEq] at h
        obtain ⟨e1, _⟩ := h
        subst e1
        exact ⟨[], L, rfl, rfl, ha⟩
      | cons b g1 =>
        simp only [List.cons_append, List.cons.injEq] at h
        obtain ⟨e1, e2⟩ := h
        obtain ⟨l1, l2, h1, h2, h3⟩ := ih g1 p g2 e2
        refine ⟨a :: l1, l2, by rw [h1]; rfl, ?_, h3⟩
        rw [List.filter_cons_of_pos ha, h2, e1]
    · rw [List.filter_cons_of_neg ha] at h
      obtain ⟨l1, l2, h1, h2, h3⟩ := ih g1 p g2 h
      refine ⟨a :: l1, l2, by rw [h1]; rfl, ?_, h3⟩
      rw [List.filter_cons_of_neg ha, h2]

/-- The sweep returns when the class of each grey object is there at the
start and does not come before the object in the grey list. -/
theorem collect_sweep_returns :
    ∀ (n : Nat) (h : ovm_heap), h.grey.length ≤ n →
      (∀ g1 p g2, h.grey = g1 ++ p :: g2 →
        class_cleanup_of h (h.inst_of p) ≠ none ∧ h.inst_of p ∉ g1) →
      ∃ h1, collect_sweep n h = .ok h1 := by
  intro n
  induction n with
  | zero =>
    intro h hlen _
    have hnil : h.grey = [] := List.length_eq_zero.mp (by omega)
    exact ⟨h, by unfold collect_sweep; simp [hnil]⟩
  | succ n ih =>
    intro h hlen hcl
    cases hg : h.grey with
    | nil => exact ⟨h, by unfold collect_sweep; simp [hg]⟩
    | cons obj rest =>
      obtain ⟨hclean, _⟩ := hcl [] obj rest (by rw [hg]; rfl)
      cases hf : class_cleanup_of h (h.inst_of obj) with
      | none => exact absurd hf hclean
      | some f =>
        let h2 := obj_destroy { run_cleanup h f obj with grey := rest } obj
        have hgrey2 : h2.grey = rest := rfl
        have hinst2 : h2.inst_of = h.inst_of := by cases f <;> rfl
        have hbody2 : ∀ a, h2.body a = if a = obj then none else h.body a := by
          intro a; cases f <;> rfl
        obtain ⟨h3, hrun⟩ := ih h2 (by rw [hgrey2]; rw [hg] at hlen; simp at hlen; omega) (by
          intro g1 p g2 hsplit
          rw [hgrey2] at hsplit
          obtain ⟨k1, k2⟩ := hcl (obj :: g1) p g2 (by rw [hg, hsplit]; rfl)
          rw [hinst2]
          refine ⟨?_, fun hm => k2 (List.mem_cons_of_mem _ hm)⟩
          rw [class_cleanup_of_keep h h2 _ (Or.inr (by
            rw [hbody2]
            have hne : h.inst_of p ≠ obj := fun e => k2 (e ▸ List.mem_cons_self _ _)
            simp [hne]))]
          exact k1)
        refine ⟨h3, ?_⟩
        unfold collect_sweep
        simp only [hg, hf]
        have herase : (run_cleanup h f obj).grey.erase obj = rest := by
          have : (run_cleanup h f obj).grey = obj :: rest := by cases f <;> exact hg
          rw [this]; simp
        rw [herase]
        exact hrun

/-- The marking of `collect`, on a well-formed heap: the three loops over the
roots return and leave the invariant of the marking with nothing pending. -/
theorem collect_marks (fuel : Nat) (r : ovm_roots) (h : ovm_heap)
    (hwf : heap_wf h (collect_roots r)) (hfuel : h.white.length < fuel) :
    ∃ h1 h2 h3, mark_each (ovm_obj_mark fuel) (ovm_consts_list r.consts) (collect_swap h) = .ok h1
      ∧ ovm_obj_mark fuel h1 r.ns_main = .ok h2
      ∧ mark_threads (ovm_obj_mark fuel) r.thread_list h2 = .ok h3
      ∧ mark_inv (collect_swap h) (collect_roots r) h.white h3 []
      ∧ h3.grey.length ≤ h.white.length := by
  obtain ⟨hgrey, hgw⟩ := hwf
  have hwfG : graph_wf (collect_swap h) (collect_roots r) h.white :=
    graph_wf_congr h (collect_swap h) _ _ rfl rfl hgw
  have hm := ovm_obj_mark_inv (collect_swap h) (collect_roots r) h.white hwfG fuel
  have inv0 := mark_inv_start h (collect_roots r) hgrey
  have hlen0 : (collect_swap h).grey.length < fuel := hfuel
  have inv0a : mark_inv (collect_swap h) (collect_roots r) h.white (collect_swap h)
      (ovm_consts_list r.consts
        ++ (r.ns_main :: ((r.thread_list.map stack_targets).flatten ++ []))) := by
    simpa [collect_roots] using inv0
  obtain ⟨h1, hrun1, inv1, hle1⟩ :=
    mark_each_inv _ _ _ (ovm_obj_mark fuel) fuel hm _ _ _ inv0a hlen0
  obtain ⟨h2, hrun2, inv2, hle2⟩ := hm h1 _ _ inv1 (by omega)
  obtain ⟨h3, hrun3, inv3, hle3⟩ :=
    mark_threads_inv _ _ _ (ovm_obj_mark fuel) fuel hm _ h2 [] inv2 (by omega)
  refine ⟨h1, h2, h3, hrun1, hrun2, hrun3, inv3, ?_⟩
  have : (collect_swap h).grey.length = h.white.length := rfl
  omega

/-- The sweep stops in no other way than at the read of a class that is no
longer there, or for want of fuel. -/
theorem collect_sweep_error :
    ∀ (n : Nat) (h : ovm_heap) (e : ovm_stop), collect_sweep n h = .error e → e = .undefined := by
  intro n
  induction n with
  | zero =>
    intro h e hrun
    unfold collect_sweep at hrun
    cases hg : h.grey with
    | nil => simp [hg] at hrun
    | cons obj rest =>
      simp only [hg] at hrun
      cases hrun
      rfl
  | succ n ih =>
    intro h e hrun
    unfold collect_sweep at hrun
    cases hg : h.grey with
    | nil => simp [hg] at hrun
    | cons obj rest =>
      simp only [hg] at hrun
      cases hf : class_cleanup_of h (h.inst_of obj) with
      | none =>
        simp only [hf] at hrun
        cases hrun
        rfl
      | some f =>
        simp only [hf] at hrun
        exact ih _ e hrun

/-- When the sweep returns, the grey objects are destroyed and nothing else
has changed but the events. -/
theorem collect_sweep_ok :
    ∀ (n : Nat) (h h1 : ovm_heap), h.grey.Nodup → collect_sweep n h = .ok h1 →
      h1.grey = [] ∧ h1.white = h.white ∧ h1.ref_cnt = h.ref_cnt ∧ h1.inst_of = h.inst_of
        ∧ (∀ a, h1.body a = if a ∈ h.grey then none else h.body a)
        ∧ h1.collectingf = h.collectingf ∧ h1.collect_againf = h.collect_againf := by
  intro n
  induction n with
  | zero =>
    intro h h1 _ hrun
    unfold collect_sweep at hrun
    cases hg : h.grey with
    | nil =>
      simp only [hg] at hrun
      cases hrun
      exact ⟨hg, rfl, rfl, rfl, fun a => by simp, rfl, rfl⟩
    | cons obj rest =>
      simp only [hg] at hrun
      cases hrun
  | succ n ih =>
    intro h h1 hnd hrun
    unfold collect_sweep at hrun
    cases hg : h.grey with
    | nil =>
      simp only [hg] at hrun
      cases hrun
      exact ⟨hg, rfl, rfl, rfl, fun a => by simp, rfl, rfl⟩
    | cons obj rest =>
      simp only [hg] at hrun
      rw [hg] at hnd
      obtain ⟨hobj, hrest⟩ := List.nodup_cons.mp hnd
      cases hf : class_cleanup_of h (h.inst_of obj) with
      | none =>
        simp only [hf] at hrun
        cases hrun
      | some f =>
        simp only [hf] at hrun
        have herase : (run_cleanup h f obj).grey.erase obj = rest := by
          have : (run_cleanup h f obj).grey = obj :: rest := by cases f <;> exact hg
          rw [this]; simp
        rw [herase] at hrun
        let h2 := obj_destroy { run_cleanup h f obj with grey := rest } obj
        have hgrey2 : h2.grey = rest := rfl
        have hbody2 : ∀ a, h2.body a = if a = obj then none else h.body a := by
          intro a; cases f <;> rfl
        obtain ⟨e1, e2, e3, e4, e5, e6, e7⟩ := ih h2 h1 (by rw [hgrey2]; exact hrest) hrun
        refine ⟨e1, ?_, ?_, ?_, ?_, ?_, ?_⟩
        · rw [e2]; cases f <;> rfl
        · rw [e3]; cases f <;> rfl
        · rw [e4]; cases f <;> rfl
        · intro a
          rw [e5, hgrey2, hbody2]
          by_cases ha : a = obj
          · subst ha; simp
          · simp [ha]
        · rw [e6]; cases f <;> rfl
        · rw [e7]; cases f <;> rfl

/-- One turn of the loop of `collect` on a well-formed heap returns with the
reachable objects white, the others destroyed and the counts those of the
references, or stops at the sweep's read of a class that it has destroyed. -/
theorem collect_pass_cases (fuel : Nat) (r : ovm_roots) (h : ovm_heap)
    (hwf : heap_wf h (collect_roots r)) (hfuel : h.white.length < fuel) :
    (∃ h1, collect_pass fuel r h = .ok h1
      ∧ (∀ q, q ∈ h1.white ↔ reachable h (collect_roots r) q)
      ∧ h1.grey = []
      ∧ (∀ a, h1.body a = if a ∈ h.white ∧ a ∉ h1.white then none else h.body a)
      ∧ h1.inst_of = h.inst_of
      ∧ (∀ q ∈ h1.white,
          h1.ref_cnt q = (collect_roots r).count q + refs_from h h1.white q
            ∧ 1 ≤ h1.ref_cnt q)
      ∧ h1.collectingf = h.collectingf ∧ h1.collect_againf = false)
    ∨ (collect_pass fuel r h = .error .undefined
        ∧ class_swept_first h (collect_roots r)) := by
  obtain ⟨h1, h2, h3, hrun1, hrun2, hrun3, inv3, hlen3⟩ := collect_marks fuel r h hwf hfuel
  obtain ⟨hgrey, hgw⟩ := hwf
  have hwfG : graph_wf (collect_swap h) (collect_roots r) h.white :=
    graph_wf_congr h (collect_swap h) _ _ rfl rfl hgw
  have hnd : (h3.white ++ h3.grey).Nodup := inv3.perm.nodup_iff.mpr hgw.1
  have hwhite : ∀ q, q ∈ h3.white ↔ reachable h (collect_roots r) q := by
    intro q
    rw [mark_inv_white _ _ _ h3 inv3 q]
    exact ⟨reachable_congr (collect_swap h) h _ rfl rfl q,
      reachable_congr h (collect_swap h) _ rfl rfl q⟩
  have hgreyL : ∀ p ∈ h3.grey, p ∈ h.white := fun p hp =>
    inv3.perm.subset (List.mem_append_right _ hp)
  have hbody3 : h3.body = h.body := inv3.body_eq
  have hinst3 : h3.inst_of = h.inst_of := inv3.inst_eq
  cases hs : collect_sweep fuel h3 with
  | error e =>
    right
    have he := collect_sweep_error fuel h3 e hs
    subst he
    refine ⟨by unfold collect_pass; simp only [hrun1, hrun2, hrun3, hs], ?_⟩
    by_contra hno
    obtain ⟨h4, hrun4⟩ := collect_sweep_returns fuel h3 (by omega) (by
      intro g1 p g2 hsplit
      have hp : p ∈ h3.grey := by rw [hsplit]; simp
      have hpL := hgreyL p hp
      have hi : h3.inst_of p = h.inst_of p := by rw [hinst3]
      rw [hi]
      constructor
      · apply class_cleanup_of_some
        rw [class_mark_of_congr h3 (collect_swap h) inv3.body_eq]
        obtain ⟨b, _, hc⟩ := mark_matches_cases _ p (hwfG.2.2.2.2.1 p hpL)
        rcases hc with ⟨hc, _⟩ | ⟨f, hc, _⟩
        · intro e
          have : class_mark_of (collect_swap h) ((collect_swap h).inst_of p) = none := e
          rw [this] at hc; cases hc
        · intro e
          have : class_mark_of (collect_swap h) ((collect_swap h).inst_of p) = none := e
          rw [this] at hc; cases hc
      · intro hmem
        apply hno
        have hge : h.white.filter (fun q => decide (q ∉ h3.white)) = g1 ++ p :: g2 := by
          rw [← inv3.grey_eq]; exact hsplit
        obtain ⟨l1, l2, e1, e2, _⟩ := filter_split _ h.white g1 p g2 hge
        have hcg : h.inst_of p ∈ h3.grey := by rw [hsplit]; simp [hmem]
        refine ⟨l1, p, l2, e1, ?_, ?_, ?_⟩
        · intro hr
          exact (List.nodup_append.mp hnd).2.2 ((hwhite p).mpr hr) hp
        · rw [← e2] at hmem
          exact (List.mem_filter.mp hmem).1
        · intro hr
          exact (List.nodup_append.mp hnd).2.2 ((hwhite _).mpr hr) hcg)
    rw [hs] at hrun4
    cases hrun4
  | ok h4 =>
    left
    obtain ⟨s1, s2, s3, s4, s5, s7, s8⟩ :=
      collect_sweep_ok fuel h3 h4 (List.nodup_append.mp hnd).2.1 hs
    refine ⟨h4, ?_, ?_, s1, ?_, ?_, ?_, ?_, ?_⟩
    · unfold collect_pass
      simp only [hrun1, hrun2, hrun3, hs]
    · intro q; rw [s2]; exact hwhite q
    · intro a
      rw [s5 a, s2, hbody3]
      by_cases hag : a ∈ h3.grey
      · have h1 : a ∈ h.white := hgreyL a hag
        have h2 : a ∉ h3.white := fun hw => (List.nodup_append.mp hnd).2.2 hw hag
        simp [hag, h1, h2]
      · by_cases haL : a ∈ h.white
        · have hmem : a ∈ h3.white ++ h3.grey := inv3.perm.symm.subset haL
          have haw : a ∈ h3.white := by
            rcases List.mem_append.mp hmem with hw | hg
            · exact hw
            · exact absurd hg hag
          simp [hag, haw]
        · simp [hag, haL]
    · rw [s4, hinst3]
    · intro q hq
      rw [s2] at hq ⊢
      rw [s3]
      have hqL : q ∈ h.white := inv3.perm.subset (List.mem_append_left _ hq)
      have hcount := inv3.count q hqL
      simp only [List.count_nil, add_zero] at hcount
      rw [refs_from_congr (collect_swap h) h rfl rfl] at hcount
      exact ⟨hcount, inv3.white_cnt q hq⟩
    · rw [s7, inv3.flag_eq.1]; rfl
    · rw [s8, inv3.flag_eq.2]; rfl

/-- `collect` on a well-formed heap, with fuel for the objects: it returns
with the reachable objects white, the others destroyed and the counts those of
the references, or it stops at the sweep's read of a class that it has
destroyed. -/
theorem collect_cases (fuel : Nat) (r : ovm_roots) (h : ovm_heap)
    (hwf : heap_wf h (collect_roots r)) (hfuel : h.white.length < fuel) :
    (∃ h1, collect fuel r h = .ok h1
      ∧ (∀ q, q ∈ h1.white ↔ reachable h (collect_roots r) q)
      ∧ h1.grey = []
      ∧ (∀ a, h1.body a = if a ∈ h.white ∧ a ∉ h1.white then none else h.body a)
      ∧ h1.inst_of = h.inst_of
      ∧ (∀ q ∈ h1.white,
          h1.ref_cnt q = (collect_roots r).count q + refs_from h h1.white q
            ∧ 1 ≤ h1.ref_cnt q)
      ∧ h1.collectingf = false ∧ h1.collect_againf = false)
    ∨ (collect fuel r h = .error .undefined ∧ class_swept_first h (collect_roots r)) := by
  have hwf2 : heap_wf { h with collectingf := true } (collect_roots r) :=
    ⟨hwf.1, graph_wf_congr h _ _ _ rfl rfl hwf.2⟩
  obtain ⟨n, rfl⟩ : ∃ n, fuel = n + 1 := ⟨fuel - 1, by omega⟩
  rcases collect_pass_cases (n + 1) r { h with collectingf := true } hwf2 hfuel with
    ⟨h1, hrun, c1, c2, c4, c5, c7, c8, c9⟩ | ⟨herr, l1, p, l2, b1, b2, b3, b4⟩
  · left
    refine ⟨{ h1 with collectingf := false }, ?_, ?_, c2, c4, c5, ?_, rfl, c9⟩
    · unfold collect collect_loop
      simp [hrun, c9]
    · intro q
      rw [← show q ∈ h1.white ↔ q ∈ ({ h1 with collectingf := false } : ovm_heap).white
        from Iff.rfl, c1 q]
      exact ⟨reachable_congr { h with collectingf := true } h _ rfl rfl q,
        reachable_congr h { h with collectingf := true } _ rfl rfl q⟩
    · intro q hq
      have := c7 q hq
      rw [refs_from_congr { h with collectingf := true } h rfl rfl] at this
      exact this
  · right
    refine ⟨by unfold collect collect_loop; simp [herr], l1, p, l2, b1, ?_, b3, ?_⟩
    · exact fun hr => b2 (reachable_congr h { h with collectingf := true } _ rfl rfl _ hr)
    · exact fun hr => b4 (reachable_congr h { h with collectingf := true } _ rfl rfl _ hr)

theorem sample_class_heap_wf :
    heap_wf sample_class_heap (collect_roots sample_class_roots) := by
  unfold heap_wf graph_wf; decide

theorem sample_class_heap_late_wf :
    heap_wf sample_class_heap_late (collect_roots sample_class_roots) := by
  unfold heap_wf graph_wf; decide

/-- In the sample the reachable objects are the four classes of the constants
table and the main namespace. -/
theorem sample_class_reachable (q : Nat) :
    reachable sample_class_heap (collect_roots sample_class_roots) q
      ↔ q ∈ [1, 2, 60, 23, 11] := by
  obtain ⟨h0, e0, w0⟩ : ∃ h0, collect 20 sample_class_roots sample_class_heap_late = .ok h0
      ∧ h0.white = [1, 2, 60, 23, 11] := ⟨_, rfl, rfl⟩
  rcases collect_cases 20 sample_class_roots sample_class_heap_late sample_class_heap_late_wf
    (by decide) with ⟨h1, hrun, c1, _⟩ | ⟨herr, _⟩
  · rw [e0] at hrun
    cases hrun
    rw [← w0, c1 q]
    exact ⟨reachable_congr sample_class_heap sample_class_heap_late _ rfl rfl q,
      reachable_congr sample_class_heap_late sample_class_heap _ rfl rfl q⟩
  · rw [e0] at herr
    cases herr

/-- C1, evaluated on `sample_class_heap`, a well-formed heap whose unreachable
objects are, in list order, the class 30, the Array 54 that holds itself, and
the instance 53 of the class, held by the Array.  The sweep destroys the class
first; when it comes to the instance it reads the field `cleanup` of the
destroyed class, so that `collect` has no defined result and the cleanup
function of the class is not known to run.  With the class behind its
instance in the list the same collection returns, `regexp_cleanup` called on
the instance before it is destroyed. -/
theorem collect_sweeps_class_first :
    heap_wf sample_class_heap (collect_roots sample_class_roots)
      ∧ (∀ q, reachable sample_class_heap (collect_roots sample_class_roots) q
          ↔ q ∈ [1, 2, 60, 23, 11])
      ∧ sample_class_heap.inst_of 53 = 30
      ∧ class_cleanup_of sample_class_heap 30 = some (some .regexp_cleanup)
      ∧ class_cleanup_of (obj_destroy sample_class_heap 30) 30 = none
      ∧ collect 20 sample_class_roots sample_class_heap = .error .undefined
      ∧ ∃ h1, collect 20 sample_class_roots sample_class_heap_late = .ok h1
          ∧ h1.white = [1, 2, 60, 23, 11]
          ∧ h1.trace = [.destroy 54, .cleanup .regexp_cleanup 53, .destroy 53, .destroy 30] :=
  ⟨sample_class_heap_wf, sample_class_reachable, rfl, rfl, rfl, rfl, _, rfl, rfl, rfl⟩

/-- C2: on every well-formed heap, with any root set (constants table, main
namespace, stacks of the threads), `collect`, given fuel for the objects,
finishes, unless the sweep destroys the class of an unreachable object before
the object (`class_swept_first`) and stops at its read of that class.  After
it has finished, the surviving objects are exactly the reachable ones, they
are as they were, and the reference count of each is the number of references
to it, each counted once, from the root cells and from the cells, fields and
class pointers of the surviving objects; it is not zero. -/
theorem collect_ref_cnt (fuel : Nat) (r : ovm_roots) (h : ovm_heap)
    (hwf : heap_wf h (collect_roots r)) (hfuel : h.white.length < fuel) :
    (∃ h1, collect fuel r h = .ok h1
        ∧ (∀ q, q ∈ h1.white ↔ reachable h (collect_roots r) q)
        ∧ (∀ q ∈ h1.white, h1.body q = h.body q ∧ h1.inst_of q = h.inst_of q)
        ∧ ∀ q ∈ h1.white,
            h1.ref_cnt q = (collect_roots r).count q + refs_from h1 h1.white q
              ∧ h1.ref_cnt q ≠ 0)
      ∨ (collect fuel r h = .error .undefined ∧ class_swept_first h (collect_roots r)) := by
  rcases collect_cases fuel r h hwf hfuel with ⟨h1, hrun, c1, _, c4, c5, c7, _, _⟩ | herr
  · left
    refine ⟨h1, hrun, c1, ?_, ?_⟩
    · intro q hq
      constructor
      · rw [c4 q]; simp [hq]
      · rw [c5]
    · intro q hq
      obtain ⟨h2, h3⟩ := c7 q hq
      refine ⟨?_, by omega⟩
      rw [h2, refs_from_survivors h h1 h1.white q]
      intro p hp
      unfold obj_refs
      rw [c4 p, c5]
      simp [hp]
  · exact Or.inr herr

/-- The collection of `sample_class_heap_late`, a heap with an unreachable
object whose class is unreachable: the class 30 comes after its instance 53
in the list, and `collect` returns. -/
theorem collect_ref_cnt_witness :
    (heap_wf sample_class_heap_late (collect_roots sample_class_roots)
        ∧ sample_class_heap_late.white.length < 20)
      ∧ ∃ h1, collect 20 sample_class_roots sample_class_heap_late = .ok h1
        ∧ (∀ q, q ∈ h1.white
            ↔ reachable sample_class_heap_late (collect_roots sample_class_roots) q)
        ∧ (∀ q ∈ h1.white, h1.body q = sample_class_heap_late.body q
            ∧ h1.inst_of q = sample_class_heap_late.inst_of q)
        ∧ ∀ q ∈ h1.white,
            h1.ref_cnt q
                = (collect_roots sample_class_roots).count q + refs_from h1 h1.white q
              ∧ h1.ref_cnt q ≠ 0 :=
  ⟨⟨sample_class_heap_late_wf, by decide⟩,
   (collect_ref_cnt 20 sample_class_roots sample_class_heap_late sample_class_heap_late_wf
      (by decide)).resolve_right (fun hbad => by
        have h1 : (match collect 20 sample_class_roots sample_class_heap_late with
                   | .ok _ => true
                   | .error _ => false) = true := rfl
        rw [hbad.1] at h1
        cases h1)⟩

/-- The collection of the sample heap: the survivors in the order of their
marking, their counts, and the events of the sweep. -/
theorem collect_sample :
    ∃ h1, collect 20 sample_gc_roots sample_heap = .ok h1
      ∧ h1.white = [1, 2, 60, 23, 9, 10, 24, 40, 41, 42]
      ∧ h1.white.map h1.ref_cnt = [6, 6, 7, 2, 2, 3, 1, 2, 1, 1]
      ∧ h1.trace = [.destroy 50, .destroy 51, .cleanup .file_cleanup 52, .destroy 52] :=
  ⟨_, rfl, rfl, rfl, rfl⟩


/-! ### Releases and `ovm_inst_assign` -/

theorem refs_from_erase (G : ovm_heap) (A : List Nat) (p q : Nat) (hp : p ∈ A) :
    refs_from G A q = (obj_refs G p).count q + refs_from G (A.erase p) q := by
  rw [refs_from_perm G A (p :: A.erase p) (List.perm_cons_erase hp) q]
  simp [refs_from]

theorem count_le_refs_from (G : ovm_heap) (A : List Nat) (p q : Nat) (hp : p ∈ A) :
    (obj_refs G p).count q ≤ refs_from G A q := by
  rw [refs_from_erase G A p q hp]
  omega

theorem release_inv_white_sub (G : ovm_heap) (iw : List Nat) (h : ovm_heap) (work F : List Nat)
    (inv : release_inv G iw h work F) (q : Nat) (hq : q ∈ h.white) : q ∈ G.white ∧ q ∉ F := by
  rw [inv.white_eq] at hq
  simpa [List.mem_filter] using hq

/-- A release of the null pointer. -/
theorem release_inv_null (G : ovm_heap) (iw : List Nat) (h : ovm_heap) (rs F : List Nat)
    (hwf : release_wf G) (inv : release_inv G iw h (0 :: rs) F) :
    release_inv G iw h rs F := by
  have hne : ∀ q ∈ h.white, q ≠ 0 := by
    intro q hq e
    exact hwf.2.1 (e ▸ (release_inv_white_sub G iw h _ F inv q hq).1)
  refine { inv with cnt_eq := ?_, cover := ?_, pinned := ?_, work_alive := ?_ }
  · intro q hq
    have := inv.cnt_eq q hq
    rw [List.count_cons_of_ne (hne q hq)] at this
    exact this
  · intro q hq
    have := inv.cover q hq
    rw [List.count_cons_of_ne (hne q hq)] at this
    exact this
  · intro p hp
    rcases inv.pinned p hp with h0 | ⟨hw, hlt⟩
    · exact Or.inl h0
    · rw [List.count_cons_of_ne (hne _ hw)] at hlt
      exact Or.inr ⟨hw, hlt⟩
  · intro q hq
    exact inv.work_alive q (List.mem_cons_of_mem _ hq)

/-- The pointer released points to an object, whose count is at least 1 and
below `2^32`. -/
theorem release_inv_head (G : ovm_heap) (iw : List Nat) (h : ovm_heap) (p : Nat)
    (rs F : List Nat) (hwf : release_wf G) (inv : release_inv G iw h (p :: rs) F)
    (hp : p ≠ 0) :
    p ∈ h.white ∧ 1 ≤ h.ref_cnt p ∧ h.ref_cnt p < 4294967296
      ∧ (ref_cnt_decr h p).ref_cnt p = h.ref_cnt p - 1 := by
  have hw : p ∈ h.white := by
    rcases inv.work_alive p (List.mem_cons_self _ _) with h0 | hw
    · exact absurd h0 hp
    · exact hw
  have hc := inv.cover p hw
  rw [List.count_cons_self] at hc
  have hle := inv.le_start p hw
  have hb := hwf.2.2.2.2.2 p (release_inv_white_sub G iw h _ F inv p hw).1
  refine ⟨hw, by omega, by omega, ?_⟩
  simp only [ref_cnt_decr, if_true]
  omega

/-- A release that leaves the count above 0. -/
theorem release_inv_seen (G : ovm_heap) (iw : List Nat) (h : ovm_heap) (p : Nat)
    (rs F : List Nat) (hwf : release_wf G) (inv : release_inv G iw h (p :: rs) F)
    (hp : p ≠ 0) (hc : (ref_cnt_decr h p).ref_cnt p > 0) :
    release_inv G iw (ref_cnt_decr h p) rs F := by
  obtain ⟨hw, h1, h2, hd⟩ := release_inv_head G iw h p rs F hwf inv hp
  rw [hd] at hc
  refine { inst_eq := inv.inst_eq, body_eq := inv.body_eq, grey_eq := inv.grey_eq,
           flag_eq := inv.flag_eq, white_eq := inv.white_eq, cnt_eq := ?_, le_start := ?_,
           cover := ?_, pinned := ?_, work_alive := ?_, dead := inv.dead }
  · intro q hq
    have := inv.cnt_eq q hq
    show (ref_cnt_decr h p).ref_cnt q + _ + _ = _
    by_cases hqp : q = p
    · subst hqp
      rw [hd]
      rw [List.count_cons_self] at this
      omega
    · rw [List.count_cons_of_ne hqp] at this
      simp only [ref_cnt_decr, hqp, if_false]
      exact this
  · intro q hq
    have := inv.le_start q hq
    show (ref_cnt_decr h p).ref_cnt q ≤ _
    by_cases hqp : q = p
    · subst hqp; rw [hd]; omega
    · simp only [ref_cnt_decr, hqp, if_false]
      exact this
  · intro q hq
    have := inv.cover q hq
    show refs_from G h.white q + _ ≤ (ref_cnt_decr h p).ref_cnt q
    by_cases hqp : q = p
    · subst hqp
      rw [hd]
      rw [List.count_cons_self] at this
      omega
    · rw [List.count_cons_of_ne hqp] at this
      simp only [ref_cnt_decr, hqp, if_false]
      exact this
  · intro a ha
    rcases inv.pinned a ha with h0 | ⟨hcw, hlt⟩
    · exact Or.inl h0
    · right
      refine ⟨hcw, ?_⟩
      show refs_from G h.white _ + _ < (ref_cnt_decr h p).ref_cnt _
      by_cases hqp : G.inst_of a = p
      · rw [hqp] at hlt ⊢
        rw [hd]
        rw [List.count_cons_self] at hlt
        omega
      · rw [List.count_cons_of_ne hqp] at hlt
        simp only [ref_cnt_decr, hqp, if_false]
        exact hlt
  · intro q hq
    exact inv.work_alive q (List.mem_cons_of_mem _ hq)


/-- A release that brings the count to 0: the object is unlinked, and what it
points to is to be released. -/
theorem release_inv_free (G : ovm_heap) (iw : List Nat) (h : ovm_heap) (p : Nat)
    (rs F : List Nat) (hwf : release_wf G) (inv : release_inv G iw h (p :: rs) F)
    (hp : p ≠ 0) (hc : ¬ (ref_cnt_decr h p).ref_cnt p > 0) :
    release_inv G iw (obj_unlink (ref_cnt_decr h p) p) (obj_refs G p ++ rs) (F ++ [p])
      ∧ (obj_unlink (ref_cnt_decr h p) p).white.length + 1 = h.white.length
      ∧ h.ref_cnt p = 1 := by
  obtain ⟨hw, h1, h2, hd⟩ := release_inv_head G iw h p rs F hwf inv hp
  rw [hd] at hc
  have hone : h.ref_cnt p = 1 := by omega
  have hcov := inv.cover p hw
  rw [List.count_cons_self] at hcov
  have hnoref : refs_from G h.white p = 0 := by omega
  have hnors : rs.count p = 0 := by omega
  have hnd : h.white.Nodup := by rw [inv.white_eq]; exact hwf.1.filter _
  have hpG := (release_inv_white_sub G iw h _ F inv p hw).1
  have hwhite : (obj_unlink (ref_cnt_decr h p) p).white = h.white.erase p := rfl
  have hmem : ∀ q, q ∈ h.white.erase p ↔ q ≠ p ∧ q ∈ h.white := fun q => hnd.mem_erase_iff
  have hcnt : ∀ q, q ≠ p → (obj_unlink (ref_cnt_decr h p) p).ref_cnt q = h.ref_cnt q := by
    intro q hq
    show (ref_cnt_decr h p).ref_cnt q = _
    simp only [ref_cnt_decr, hq, if_false]
  have hsplit : ∀ q, refs_from G h.white q
      = (obj_refs G p).count q + refs_from G (h.white.erase p) q :=
    fun q => refs_from_erase G h.white p q hw
  refine ⟨{ inst_eq := inv.inst_eq, body_eq := ?_, grey_eq := ?_, flag_eq := inv.flag_eq,
            white_eq := ?_, cnt_eq := ?_, le_start := ?_, cover := ?_, pinned := ?_,
            work_alive := ?_, dead := ?_ }, ?_, hone⟩
  · intro a ha
    rw [hwhite] at ha
    exact inv.body_eq a ((hmem a).mp ha).2
  · show h.grey.erase p = []
    rw [inv.grey_eq]; rfl
  · rw [hwhite, hnd.erase_eq_filter, inv.white_eq, List.filter_filter]
    apply List.filter_congr
    intro q _
    by_cases hqp : q = p
    · subst hqp; simp
    · simp [hqp]
  · intro q hq
    rw [hwhite] at hq
    obtain ⟨hqp, hqw⟩ := (hmem q).mp hq
    have := inv.cnt_eq q hqw
    rw [List.count_cons_of_ne hqp] at this
    rw [hcnt q hqp, refs_from_append, List.count_append]
    have hone2 : refs_from G [p] q = (obj_refs G p).count q := by simp [refs_from]
    rw [hone2]
    omega
  · intro q hq
    rw [hwhite] at hq
    obtain ⟨hqp, hqw⟩ := (hmem q).mp hq
    rw [hcnt q hqp]
    exact inv.le_start q hqw
  · intro q hq
    rw [hwhite] at hq ⊢
    obtain ⟨hqp, hqw⟩ := (hmem q).mp hq
    have := inv.cover q hqw
    rw [List.count_cons_of_ne hqp, hsplit q] at this
    rw [hcnt q hqp, List.count_append]
    omega
  · intro a ha
    rcases inv.pinned a ha with h0 | ⟨hcw, hlt⟩
    · exact Or.inl h0
    · right
      have hne : G.inst_of a ≠ p := by
        intro e
        rw [e, List.count_cons_self] at hlt
        omega
      rw [List.count_cons_of_ne hne, hsplit] at hlt
      rw [hwhite, hcnt _ hne, List.count_append]
      exact ⟨(hmem _).mpr ⟨hne, hcw⟩, by omega⟩
  · intro q hq
    by_cases h0 : q = 0
    · exact Or.inl h0
    right
    rw [hwhite]
    rcases List.mem_append.mp hq with hq | hq
    · have hqG : q ∈ G.white := by
        rcases hwf.2.2.1 p hpG q hq with e | hqG
        · exact absurd e h0
        · exact hqG
      have hcount : 1 ≤ (obj_refs G p).count q := List.count_pos_iff.mpr hq
      have hle := count_le_refs_from G h.white p q hw
      have hqF : q ∉ F := by
        intro hF
        have := (inv.dead q hF).2
        omega
      have hqw : q ∈ h.white := by
        rw [inv.white_eq]
        simp [List.mem_filter, hqG, hqF]
      have hqp : q ≠ p := by
        intro e
        rw [e] at hle hcount
        omega
      exact (hmem q).mpr ⟨hqp, hqw⟩
    · have hqw : q ∈ h.white := by
        rcases inv.work_alive q (List.mem_cons_of_mem _ hq) with e | hqw
        · exact absurd e h0
        · exact hqw
      have hrs : 1 ≤ rs.count q := List.count_pos_iff.mpr hq
      have hqp : q ≠ p := by
        intro e
        rw [e] at hrs
        omega
      exact (hmem q).mpr ⟨hqp, hqw⟩
  · intro q hq
    rw [hwhite]
    rcases List.mem_append.mp hq with hq | hq
    · obtain ⟨hqG, hz⟩ := inv.dead q hq
      refine ⟨hqG, ?_⟩
      have := hsplit q
      omega
    · have hqp : q = p := by simpa using hq
      subst hqp
      refine ⟨hpG, ?_⟩
      have := hsplit q
      omega
  · rw [hwhite, List.length_erase_of_mem hw]
    have : 0 < h.white.length := List.length_pos_of_mem hw
    omega

/-- The destruction of an unlinked object, after the call of a cleanup
function. -/
theorem release_inv_destroy (G : ovm_heap) (iw : List Nat) (h : ovm_heap) (p : Nat)
    (rs F : List Nat) (f : Option cleanup_fn) (inv : release_inv G iw h rs F) (hp : p ∈ F) :
    release_inv G iw (obj_destroy (run_cleanup h f p) p) rs F := by
  have hfields : (obj_destroy (run_cleanup h f p) p).white = h.white
      ∧ (obj_destroy (run_cleanup h f p) p).grey = h.grey
      ∧ (obj_destroy (run_cleanup h f p) p).ref_cnt = h.ref_cnt
      ∧ (obj_destroy (run_cleanup h f p) p).inst_of = h.inst_of
      ∧ (obj_destroy (run_cleanup h f p) p).collectingf = h.collectingf
      ∧ ∀ a, (obj_destroy (run_cleanup h f p) p).body a = if a = p then none else h.body a := by
    cases f <;> exact ⟨rfl, rfl, rfl, rfl, rfl, fun _ => rfl⟩
  obtain ⟨e1, e2, e3, e4, e5, e6⟩ := hfields
  refine { inst_eq := by rw [e4]; exact inv.inst_eq, body_eq := ?_,
           grey_eq := by rw [e2]; exact inv.grey_eq,
           flag_eq := by rw [e5]; exact inv.flag_eq,
           white_eq := by rw [e1]; exact inv.white_eq,
           cnt_eq := by rw [e1, e3]; exact inv.cnt_eq,
           le_start := by rw [e1, e3]; exact inv.le_start,
           cover := by rw [e1, e3]; exact inv.cover,
           pinned := by rw [e1, e3]; exact inv.pinned,
           work_alive := by rw [e1]; exact inv.work_alive,
           dead := by rw [e1]; exact inv.dead }
  intro a ha
  rw [e1] at ha
  have hne : a ≠ p := by
    rintro rfl
    exact (release_inv_white_sub G iw h rs F inv a ha).2 hp
  rw [e6, if_neg hne]
  exact inv.body_eq a ha


theorem body_compose (b0 b1 b2 : Nat → Option ovm_body) (F F1 F2 : List Nat)
    (hsub : ∀ q ∈ F, q ∈ F1) (hsub2 : ∀ q ∈ F1, q ∈ F2)
    (h1 : ∀ a, b1 a = if a ∈ F1 ∧ a ∉ F then none else b0 a)
    (h2 : ∀ a, b2 a = if a ∈ F2 ∧ a ∉ F1 then none else b1 a) :
    ∀ a, b2 a = if a ∈ F2 ∧ a ∉ F then none else b0 a := by
  intro a
  rw [h2 a, h1 a]
  by_cases c1 : a ∈ F1
  · by_cases c0 : a ∈ F
    · simp [c1, c0]
    · simp [c1, c0, hsub2 a c1]
  · have c0 : a ∉ F := fun h => c1 (hsub a h)
    by_cases c2 : a ∈ F2
    · simp [c1, c0, c2]
    · simp [c1, c0, c2]

theorem body_after_free (b0 b4 : Nat → Option ovm_body) (F F4 : List Nat) (q : Nat)
    (hq4 : q ∈ F4) (hqF : q ∉ F)
    (h4 : ∀ a, b4 a = if a ∈ F4 ∧ a ∉ F ++ [q] then none else b0 a) :
    ∀ a, (if a = q then none else b4 a) = if a ∈ F4 ∧ a ∉ F then none else b0 a := by
  intro a
  by_cases c : a = q
  · subst c; simp [hq4, hqF]
  · rw [h4 a]; simp [c]

theorem free_matches_cases (h : ovm_heap) (p : Nat) (hm : free_matches h p = true) :
    ∃ b, h.body p = some b
      ∧ ((class_free_of h (h.inst_of p) = some none ∧ body_refs b = [])
        ∨ (∃ f, class_free_of h (h.inst_of p) = some (some f)
            ∧ free_walk f b = some (body_refs b))) := by
  unfold free_matches at hm
  cases hb : h.body p with
  | none => simp [hb] at hm
  | some b =>
    refine ⟨b, rfl, ?_⟩
    cases hc : class_free_of h (h.inst_of p) with
    | none => simp [hb, hc] at hm
    | some m =>
      cases m with
      | none =>
        left
        simp only [hb, hc, decide_eq_true_eq] at hm
        exact ⟨rfl, hm⟩
      | some f =>
        right
        simp only [hb, hc, decide_eq_true_eq] at hm
        exact ⟨f, rfl, hm⟩

theorem class_free_of_keep (h G : ovm_heap) (cl : Nat) (hb : cl = 0 ∨ h.body cl = G.body cl) :
    class_free_of h cl = class_free_of G cl := by
  unfold class_free_of
  by_cases h0 : cl = 0
  · simp [h0]
  · rcases hb with hb | hb
    · exact absurd hb h0
    · rw [hb]

/-- A loop of releases keeps the invariant, given a release function that
does. -/
theorem release_each_inv (G : ovm_heap) (iw : List Nat)
    (release : ovm_heap → Nat → Except ovm_stop ovm_heap) (n : Nat)
    (hm : releases_ok G iw release n) :
    ∀ (ps : List Nat) (h : ovm_heap) (rs F : List Nat),
      release_inv G iw h (ps ++ rs) F → h.white.length < n →
      ∃ h1 F1, release_each release ps h = .ok h1 ∧ release_inv G iw h1 rs F1
        ∧ h1.white.length ≤ h.white.length ∧ (∀ q ∈ F, q ∈ F1)
        ∧ (∀ a, h1.body a = if a ∈ F1 ∧ a ∉ F then none else h.body a) := by
  intro ps
  induction ps with
  | nil =>
    intro h rs F inv _
    exact ⟨h, F, rfl, inv, le_refl _, fun _ hq => hq, fun a => by simp⟩
  | cons p ps ih =>
    intro h rs F inv hlen
    obtain ⟨h1, F1, hrun, inv1, hle1, hs1, _, _, hb1⟩ := hm h p (ps ++ rs) F inv hlen
    obtain ⟨h2, F2, hrun2, inv2, hle2, hs2, hb2⟩ := ih h1 rs F1 inv1 (by omega)
    refine ⟨h2, F2, ?_, inv2, by omega, fun q hq => hs2 q (hs1 q hq),
      body_compose _ _ _ F F1 F2 hs1 hs2 hb1 hb2⟩
    simp only [release_each, hrun, hrun2]

/-- The loop of `list_free` keeps the invariant, given a release function
that does. -/
theorem list_free_loop_inv (G : ovm_heap) (iw : List Nat) (hwf : release_wf G)
    (release : ovm_heap → Nat → Except ovm_stop ovm_heap) (n : Nat)
    (hm : releases_ok G iw release n) :
    ∀ (k : Nat) (h : ovm_heap) (q : Nat) (rs F : List Nat),
      release_inv G iw h (q :: rs) F →
      (q = 0 ∨ ∃ item next, G.body q = some (.list item next)) →
      h.white.length < k → h.white.length < n + 1 →
      ∃ h1 F1, list_free_loop release k h q = .ok h1 ∧ release_inv G iw h1 rs F1
        ∧ h1.white.length ≤ h.white.length ∧ (∀ a ∈ F, a ∈ F1)
        ∧ (∀ a, h1.body a = if a ∈ F1 ∧ a ∉ F then none else h.body a) := by
  intro k
  induction k with
  | zero => intro h q rs F _ _ hk; omega
  | succ k ih =>
    intro h q rs F inv hq hk hn
    by_cases hq0 : q = 0
    · subst hq0
      exact ⟨h, F, by simp [list_free_loop], release_inv_null G iw h rs F hwf inv, le_refl _,
        fun _ ha => ha, fun a => by simp⟩
    · rcases hq with hq | ⟨item, next, hbody⟩
      · exact absurd hq hq0
      · obtain ⟨hqw, _, _, _⟩ := release_inv_head G iw h q rs F hwf inv hq0
        obtain ⟨hqG, hqF⟩ := release_inv_white_sub G iw h _ F inv q hqw
        have hbody2 : h.body q = some (.list item next) := by
          rw [inv.body_eq q hqw]; exact hbody
        by_cases hc : (ref_cnt_decr h q).ref_cnt q > 0
        · refine ⟨ref_cnt_decr h q, F, ?_, release_inv_seen G iw h q rs F hwf inv hq0 hc,
            le_refl _, fun _ ha => ha, fun a => by simp [ref_cnt_decr]⟩
          simp only [list_free_loop, hq0, if_false, hbody2, hc, if_true]
        · obtain ⟨inv2, hlen2, _⟩ := release_inv_free G iw h q rs F hwf inv hq0 hc
          have hrefs : obj_refs G q = G.inst_of q :: inst_target item :: next :: [] := by
            simp [obj_refs, hbody, body_refs]
          rw [hrefs] at inv2
          have hcl : (obj_unlink (ref_cnt_decr h q) q).inst_of q = G.inst_of q := by
            rw [inv2.inst_eq]
          obtain ⟨h3, F3, hrun3, inv3, hle3, hs3, _, _, hb3⟩ := hm _ _ _ _ inv2 (by omega)
          obtain ⟨h4, F4, hrun4, inv4, hle4, hs4, _, _, hb4⟩ := hm _ _ _ _ inv3 (by omega)
          have hq4 : q ∈ F4 := hs4 q (hs3 q (by simp))
          have inv5 := release_inv_destroy G iw h4 q _ F4 none inv4 hq4
          have hnext : next = 0 ∨ ∃ item1 next1, G.body next = some (.list item1 next1) :=
            list_next_ok_cases G q item next (hwf.2.2.2.2.1 q hqG) hbody
          obtain ⟨h6, F6, hrun6, inv6, hle6, hs6, hb6⟩ :=
            ih (obj_destroy h4 q) next rs F4 inv5
              hnext (by show h4.white.length < k; omega) (by show h4.white.length < n + 1; omega)
          have hb04 : ∀ a, h4.body a
              = if a ∈ F4 ∧ a ∉ F ++ [q] then none else h.body a :=
            body_compose _ _ _ (F ++ [q]) F3 F4 hs3 hs4 hb3 hb4
          have hb05 : ∀ a, (obj_destroy h4 q).body a
              = if a ∈ F4 ∧ a ∉ F then none else h.body a :=
            body_after_free _ _ F F4 q hq4 hqF hb04
          have hsF : ∀ a ∈ F, a ∈ F4 := fun a ha => hs4 a (hs3 a (by simp [ha]))
          refine ⟨h6, F6, ?_, inv6, ?_, fun a ha => hs6 a (hsF a ha),
            body_compose _ _ _ F F4 F6 hsF hs6 hb05 hb6⟩
          · simp only [list_free_loop, hq0, if_false, hbody2, hc, hcl, hrun3, hrun4]
            exact hrun6
          · have : (obj_destroy h4 q).white.length = h4.white.length := rfl
            omega


/-- `_ovm_obj_free` keeps the invariant, for an object whose count has just
come down to 0, given a release function that does. -/
theorem obj_free_inv (G : ovm_heap) (iw : List Nat) (hwf : release_wf G)
    (release : ovm_heap → Nat → Except ovm_stop ovm_heap) (n : Nat)
    (hm : releases_ok G iw release n) (h : ovm_heap) (p : Nat) (rs F : List Nat)
    (inv : release_inv G iw h (p :: rs) F) (hp : p ≠ 0)
    (hc : ¬ (ref_cnt_decr h p).ref_cnt p > 0) (hlen : h.white.length < n + 1) :
    ∃ h1 F1, _ovm_obj_free release n (ref_cnt_decr h p) p = .ok h1
      ∧ release_inv G iw h1 rs F1
      ∧ h1.white.length ≤ h.white.length ∧ (∀ q ∈ F, q ∈ F1) ∧ p ∈ F1
      ∧ (∀ a, h1.body a = if a ∈ F1 ∧ a ∉ F then none else h.body a) := by
  obtain ⟨hpw, _, _, _⟩ := release_inv_head G iw h p rs F hwf inv hp
  obtain ⟨hpG, hpF⟩ := release_inv_white_sub G iw h _ F inv p hpw
  obtain ⟨b, hbody, hcases⟩ := free_matches_cases G p (hwf.2.2.2.1 p hpG)
  have hbody2 : (ref_cnt_decr h p).body p = some b := by
    show h.body p = some b
    rw [inv.body_eq p hpw]; exact hbody
  have hflag : (ref_cnt_decr h p).collectingf = false := inv.flag_eq
  obtain ⟨inv2, hlen2, _⟩ := release_inv_free G iw h p rs F hwf inv hp hc
  have hrefs : obj_refs G p = G.inst_of p :: body_refs b := by simp [obj_refs, hbody]
  rw [hrefs] at inv2
  have hcl : (obj_unlink (ref_cnt_decr h p) p).inst_of p = G.inst_of p := by rw [inv2.inst_eq]
  obtain ⟨h3, F3, hrun3, inv3, hle3, hs3, _, _, hb3⟩ := hm _ _ _ _ inv2 (by omega)
  have hp3 : p ∈ F3 := hs3 p (by simp)
  have hcf : class_free_of h3 (G.inst_of p) = class_free_of G (G.inst_of p) := by
    apply class_free_of_keep
    rcases inv3.pinned p hpG with h0 | ⟨hw, _⟩
    · exact Or.inl h0
    · exact Or.inr (inv3.body_eq _ hw)
  have hsF3 : ∀ a ∈ F, a ∈ F3 := fun a ha => hs3 a (by simp [ha])
  rcases hcases with ⟨hnone, hnil⟩ | ⟨f, hsome, hwalk⟩
  · rw [hnil] at inv3
    have inv4 := release_inv_destroy G iw h3 p rs F3 none inv3 hp3
    refine ⟨obj_destroy h3 p, F3, ?_, inv4, ?_, hsF3, hp3,
      body_after_free _ _ F F3 p hp3 hpF hb3⟩
    · unfold _ovm_obj_free
      simp only [hflag, Bool.false_eq_true, if_false, hbody2, hcl, hrun3, hcf, hnone]
    · have : (obj_destroy h3 p).white.length = h3.white.length := rfl
      omega
  · by_cases hf : f = .list_free
    · subst hf
      obtain ⟨item, next, hb⟩ : ∃ item next, b = .list item next := by
        cases b <;> simp [free_walk] at hwalk
        exact ⟨_, _, rfl⟩
      subst hb
      have hbr : body_refs (.list item next) = [inst_target item, next] := rfl
      rw [hbr] at inv3
      obtain ⟨h4, F4, hrun4, inv4, hle4, hs4, _, _, hb4⟩ := hm _ _ _ _ inv3 (by omega)
      have hnext : next = 0 ∨ ∃ item1 next1, G.body next = some (.list item1 next1) :=
        list_next_ok_cases G p item next (hwf.2.2.2.2.1 p hpG) hbody
      obtain ⟨h5, F5, hrun5, inv5, hle5, hs5, hb5⟩ :=
        list_free_loop_inv G iw hwf release n hm n h4 next rs F4 inv4 hnext
          (by omega) (by omega)
      have hp5 : p ∈ F5 := hs5 p (hs4 p hp3)
      have inv6 := release_inv_destroy G iw h5 p rs F5 none inv5 hp5
      have hb05 : ∀ a, h5.body a = if a ∈ F5 ∧ a ∉ F ++ [p] then none else h.body a :=
        body_compose _ _ _ (F ++ [p]) F4 F5 (fun a ha => hs4 a (hs3 a ha)) hs5
          (body_compose _ _ _ (F ++ [p]) F3 F4 hs3 hs4 hb3 hb4) hb5
      refine ⟨obj_destroy h5 p, F5, ?_, inv6, ?_, fun a ha => hs5 a (hs4 a (hsF3 a ha)), hp5,
        body_after_free _ _ F F5 p hp5 hpF hb05⟩
      · unfold _ovm_obj_free
        simp only [hflag, Bool.false_eq_true, if_false, hbody2, hcl, hrun3, hcf, hsome,
          if_true, hrun4, hrun5]
      · have : (obj_destroy h5 p).white.length = h5.white.length := rfl
        omega
    · obtain ⟨h4, F4, hrun4, inv4, hle4, hs4, hb4⟩ :=
        release_each_inv G iw release n hm (body_refs b) h3 rs F3 inv3 (by omega)
      have hp4 : p ∈ F4 := hs4 p hp3
      have inv5 := release_inv_destroy G iw h4 p rs F4 (free_cleanup f) inv4 hp4
      have hb04 : ∀ a, h4.body a = if a ∈ F4 ∧ a ∉ F ++ [p] then none else h.body a :=
        body_compose _ _ _ (F ++ [p]) F3 F4 hs3 hs4 hb3 hb4
      have hbd : ∀ a, (obj_destroy (run_cleanup h4 (free_cleanup f) p) p).body a
          = if a = p then none else h4.body a := by
        intro a
        cases free_cleanup f <;> rfl
      refine ⟨obj_destroy (run_cleanup h4 (free_cleanup f) p) p, F4, ?_, inv5, ?_,
        fun a ha => hs4 a (hsF3 a ha), hp4, ?_⟩
      · unfold _ovm_obj_free
        simp only [hflag, Bool.false_eq_true, if_false, hbody2, hcl, hrun3, hcf, hsome, hf,
          hwalk, hrun4]
      · have : (obj_destroy (run_cleanup h4 (free_cleanup f) p) p).white.length
            = h4.white.length := by cases free_cleanup f <;> rfl
        omega
      · intro a
        rw [hbd a]
        exact body_after_free _ _ F F4 p hp4 hpF hb04 a

/-- `ovm_obj_release` returns, given fuel for the objects, and keeps the
invariant of the release. -/
theorem ovm_obj_release_inv (G : ovm_heap) (iw : List Nat) (hwf : release_wf G) :
    ∀ fuel, releases_ok G iw (ovm_obj_release fuel) fuel := by
  intro fuel
  induction fuel with
  | zero => intro h p rs F _ hlen; omega
  | succ fuel ih =>
    intro h p rs F inv hlen
    by_cases hp0 : p = 0
    · subst hp0
      refine ⟨h, F, ?_, release_inv_null G iw h rs F hwf inv, le_refl _, fun _ hq => hq,
        fun hc => absurd rfl hc.1, fun _ => rfl, fun a => by simp⟩
      unfold ovm_obj_release
      simp
    · obtain ⟨hpw, hge, hlt, hd⟩ := release_inv_head G iw h p rs F hwf inv hp0
      obtain ⟨hpG, hpF⟩ := release_inv_white_sub G iw h _ F inv p hpw
      obtain ⟨b, hbody, _⟩ := free_matches_cases G p (hwf.2.2.2.1 p hpG)
      have hbody2 : h.body p = some b := by rw [inv.body_eq p hpw]; exact hbody
      have hnz : ¬ (h.ref_cnt p = 0) := by omega
      by_cases hc : (ref_cnt_decr h p).ref_cnt p > 0
      · refine ⟨ref_cnt_decr h p, F, ?_, release_inv_seen G iw h p rs F hwf inv hp0 hc,
          le_refl _, fun _ hq => hq, ?_, fun _ => rfl, fun a => by simp [ref_cnt_decr]⟩
        · unfold ovm_obj_release
          simp only [hp0, if_false, hbody2, hnz, hc, if_true]
        · intro hone
          rw [hd] at hc
          omega
      · obtain ⟨h1, F1, hrun, inv1, hle1, hs1, hp1, hb1⟩ :=
          obj_free_inv G iw hwf (ovm_obj_release fuel) fuel ih h p rs F inv hp0 hc hlen
        refine ⟨h1, F1, ?_, inv1, hle1, hs1, fun _ => hp1, ?_, hb1⟩
        · unfold ovm_obj_release
          simp only [hp0, if_false, hbody2, hnz, hc]
          exact hrun
        · intro hnot
          rw [hd] at hc
          exact absurd ⟨hp0, by omega⟩ hnot


theorem free_matches_congr (h G : ovm_heap) (hb : h.body = G.body) (hi : h.inst_of = G.inst_of)
    (p : Nat) : free_matches h p = free_matches G p := by
  unfold free_matches class_free_of
  rw [hb, hi]

theorem list_next_ok_congr (h G : ovm_heap) (hb : h.body = G.body) (p : Nat) :
    list_next_ok h p = list_next_ok G p := by
  unfold list_next_ok
  rw [hb]

/-- For a heap outside a collection that is well-formed for the assignment
(`assign_wf`), `ovm_inst_assign(dst, src)`, given fuel for the
objects, returns, and then: `dst` holds the value of `src` and no other cell
has changed; with `new` the object of `src`, `old` the object `dst` held and
`D` the objects finalized, `old` is in `D` exactly when it is an object other
than `new` whose count was 1, and otherwise `D` is empty; the objects of `D`
are unlinked and destroyed, the others are as they were; and the count of
every other object is its count before, plus 1 if it is `new`, minus 1 if it
is `old`, minus the references to it from the objects of `D`.  So without
finalization the count of `new` has gone up by 1 and that of `old` down by 1,
a count is unchanged when `old` and `new` are the same object, and no other
count changes. -/
theorem ovm_inst_assign_counts (fuel : Nat) (h : ovm_heap) (cells : Nat → ovm_inst)
    (dst src : Nat)
    (hwf : assign_wf h (inst_target (cells dst)) (inst_target (cells src)))
    (hfuel : h.white.length < fuel) :
    ∃ h1 cells1 D, ovm_inst_assign fuel h cells dst src = .ok (h1, cells1)
      ∧ cells1 dst = cells src ∧ (∀ a, a ≠ dst → cells1 a = cells a)
      ∧ ((inst_target (cells dst) ≠ 0 ∧ inst_target (cells dst) ≠ inst_target (cells src)
            ∧ h.ref_cnt (inst_target (cells dst)) = 1) → inst_target (cells dst) ∈ D)
      ∧ (¬ (inst_target (cells dst) ≠ 0 ∧ inst_target (cells dst) ≠ inst_target (cells src)
            ∧ h.ref_cnt (inst_target (cells dst)) = 1) → D = [])
      ∧ h1.white = h.white.filter (fun q => decide (q ∉ D))
      ∧ (∀ a, h1.body a = if a ∈ D then none else h.body a)
      ∧ (∀ q ∈ h1.white,
          h1.ref_cnt q + [inst_target (cells dst)].count q + refs_from h D q
            = h.ref_cnt q + [inst_target (cells src)].count q) := by
  obtain ⟨w1, w2, w3, w4, w5, w6, w7, w8, w9, w10, w11, w12⟩ := hwf
  generalize hold : inst_target (cells dst) = old at *
  generalize hnew : inst_target (cells src) = new at *
  -- the retain
  obtain ⟨G, hret, gb, gi, gw, gg, gf, gc⟩ :
      ∃ G, ovm_obj_retain h new = .ok G ∧ G.body = h.body ∧ G.inst_of = h.inst_of
        ∧ G.white = h.white ∧ G.grey = h.grey ∧ G.collectingf = h.collectingf
        ∧ ∀ q ∈ h.white, G.ref_cnt q = h.ref_cnt q + [new].count q := by
    by_cases hn0 : new = 0
    · refine ⟨h, by simp [ovm_obj_retain, hn0], rfl, rfl, rfl, rfl, rfl, ?_⟩
      intro q hq
      have : q ≠ 0 := fun e => w4 (e ▸ hq)
      subst hn0
      simp [List.count_cons_of_ne this]
    · have hnw : new ∈ h.white := by
        rcases w6 with e | hnw
        · exact absurd e hn0
        · exact hnw
      obtain ⟨b, hb, _⟩ := free_matches_cases h new (w8 new hnw)
      have hlt := w12 new hnw
      have hinc : (ref_cnt_incr h new).ref_cnt new = h.ref_cnt new + 1 := by
        simp only [ref_cnt_incr, if_true]
        exact Nat.mod_eq_of_lt (by omega)
      refine ⟨ref_cnt_incr h new, ?_, rfl, rfl, rfl, rfl, rfl, ?_⟩
      · simp only [ovm_obj_retain, hn0, if_false, hb, hinc]
        simp
      · intro q _
        by_cases hqn : q = new
        · subst hqn; rw [hinc]; simp
        · simp [ref_cnt_incr, hqn, List.count_cons_of_ne hqn]
  have hrefs : ∀ ps q, refs_from G ps q = refs_from h ps q :=
    fun ps q => refs_from_congr G h gb gi ps q
  have hwfG : release_wf G := by
    refine ⟨by rw [gw]; exact w3, by rw [gw]; exact w4, ?_, ?_, ?_, ?_⟩
    · intro p hp q hq
      rw [gw] at hp ⊢
      rw [obj_refs_congr G h gb gi] at hq
      exact w7 p hp q hq
    · intro p hp
      rw [gw] at hp
      rw [free_matches_congr G h gb gi]
      exact w8 p hp
    · intro p hp
      rw [gw] at hp
      rw [list_next_ok_congr G h gb]
      exact w9 p hp
    · intro q hq
      rw [gw] at hq
      have := gc q hq
      have := w12 q hq
      have : [new].count q ≤ 1 := by
        by_cases e : q = new
        · subst e; simp
        · simp [List.count_cons_of_ne e]
      omega
  have inv0 : release_inv G [old] G [old] [] := by
    refine { inst_eq := rfl, body_eq := fun _ _ => rfl, grey_eq := by rw [gg]; exact w2,
             flag_eq := by rw [gf]; exact w1, white_eq := by simp,
             cnt_eq := ?_, le_start := fun _ _ => le_refl _, cover := ?_, pinned := ?_,
             work_alive := ?_, dead := ?_ }
    · intro q _
      simp [refs_from]
    · intro q hq
      rw [gw] at hq ⊢
      have := w10 q hq
      rw [hrefs, gc q hq]
      omega
    · intro p hp
      rw [gw] at hp
      rw [gi]
      by_cases h0 : h.inst_of p = 0
      · exact Or.inl h0
      · right
        have hlt : refs_from h h.white (h.inst_of p) + [old].count (h.inst_of p)
            < h.ref_cnt (h.inst_of p) := by
          rcases w11 p hp with e | hlt
          · exact absurd e h0
          · exact hlt
        have hcw : h.inst_of p ∈ h.white := by
          have hmem : h.inst_of p ∈ obj_refs h p := by
            obtain ⟨b, hb, _⟩ := free_matches_cases h p (w8 p hp)
            simp [obj_refs, hb]
          rcases w7 p hp _ hmem with e | hcw
          · exact absurd e h0
          · exact hcw
        rw [gw, hrefs, gc _ hcw]
        exact ⟨hcw, by omega⟩
    · intro q hq
      have : q = old := by simpa using hq
      subst this
      rw [gw]
      exact w5
    · intro q hq
      cases hq
  obtain ⟨h2, D, hrun, inv2, _, _, hfin, hnofin, hbody⟩ :=
    ovm_obj_release_inv G [old] hwfG fuel G old [] [] inv0 (by rw [gw]; exact hfuel)
  have hGold : old ≠ 0 → G.ref_cnt old = h.ref_cnt old + [new].count old := by
    intro h0
    rcases w5 with e | how
    · exact absurd e h0
    · exact gc old how
  have hcond : (old ≠ 0 ∧ G.ref_cnt old = 1) ↔ (old ≠ 0 ∧ old ≠ new ∧ h.ref_cnt old = 1) := by
    constructor
    · rintro ⟨h0, h1⟩
      have how : old ∈ h.white := by
        rcases w5 with e | how
        · exact absurd e h0
        · exact how
      have hc := w10 old how
      rw [hGold h0] at h1
      simp only [List.count_cons_self, List.count_nil] at hc
      by_cases e : old = new
      · subst e
        simp at h1
        omega
      · rw [List.count_cons_of_ne e] at h1
        exact ⟨h0, e, by simpa using h1⟩
    · rintro ⟨h0, h1, h2⟩
      refine ⟨h0, ?_⟩
      rw [hGold h0, List.count_cons_of_ne h1]
      simpa using h2
  refine ⟨h2, fun a => if a = dst then cells src else cells a, D, ?_, by simp,
    fun a ha => by simp [ha], fun hc => hfin (hcond.mpr hc),
    fun hc => hnofin (fun hc2 => hc (hcond.mp hc2)), ?_, ?_, ?_⟩
  · unfold ovm_inst_assign
    simp only [hold, if_true, eq_self_iff_true, hnew, hret, hrun]
  · rw [inv2.white_eq, gw]
  · intro a
    rw [hbody a, gb]
    simp
  · intro q hq
    have hqw : q ∈ h.white := by
      have := (release_inv_white_sub G [old] h2 [] D inv2 q hq).1
      rw [gw] at this
      exact this
    have := inv2.cnt_eq q hq
    rw [hrefs, gc q hqw] at this
    simp only [List.count_nil, add_zero] at this
    omega


/-- In the sample, the cell 61, which holds the pair 70 with count 1, is
assigned the Integer of cell 63, and the pair and the two list cells behind
it are finalized. -/
theorem ovm_inst_assign_counts_sample :
    ∃ h1 cells1 D, ovm_inst_assign 20 sample_assign_heap sample_cells 61 63 = .ok (h1, cells1)
      ∧ cells1 61 = sample_cells 63 ∧ (∀ a, a ≠ 61 → cells1 a = sample_cells a)
      ∧ ((inst_target (sample_cells 61) ≠ 0
            ∧ inst_target (sample_cells 61) ≠ inst_target (sample_cells 63)
            ∧ sample_assign_heap.ref_cnt (inst_target (sample_cells 61)) = 1) →
          inst_target (sample_cells 61) ∈ D)
      ∧ (¬ (inst_target (sample_cells 61) ≠ 0
            ∧ inst_target (sample_cells 61) ≠ inst_target (sample_cells 63)
            ∧ sample_assign_heap.ref_cnt (inst_target (sample_cells 61)) = 1) → D = [])
      ∧ h1.white = sample_assign_heap.white.filter (fun q => decide (q ∉ D))
      ∧ (∀ a, h1.body a = if a ∈ D then none else sample_assign_heap.body a)
      ∧ (∀ q ∈ h1.white,
          h1.ref_cnt q + [inst_target (sample_cells 61)].count q
              + refs_from sample_assign_heap D q
            = sample_assign_heap.ref_cnt q + [inst_target (sample_cells 63)].count q) :=
  ovm_inst_assign_counts 20 sample_assign_heap sample_cells 61 63
    (by unfold assign_wf; decide) (by decide)

/-- The assignments of the sample: one that finalizes the pair 70 and the
list cells 71 and 72, the count of the pair 40 going down with the cell 72
that pointed to it; and one of a cell to itself, which changes nothing. -/
theorem ovm_inst_assign_sample :
    (∃ h1 cells1, ovm_inst_assign 20 sample_assign_heap sample_cells 61 63 = .ok (h1, cells1)
      ∧ h1.white = [1, 2, 9, 10, 23, 24, 60, 40, 41, 42, 50, 51, 52]
      ∧ h1.white.map h1.ref_cnt = [6, 6, 4, 3, 2, 2, 7, 2, 1, 1, 2, 1, 1]
      ∧ h1.trace = [.destroy 72, .destroy 71, .destroy 70])
    ∧ (∃ h1 cells1, ovm_inst_assign 20 sample_assign_heap sample_cells 62 62 = .ok (h1, cells1)
      ∧ h1.white = sample_assign_heap.white
      ∧ h1.white.map h1.ref_cnt = sample_assign_heap.white.map sample_assign_heap.ref_cnt
      ∧ h1.trace = []) :=
  ⟨⟨_, _, rfl, rfl, rfl, rfl⟩, ⟨_, _, rfl, rfl, rfl, rfl⟩⟩

/-- C3, evaluated on `sample_release_heap`: the assignment of an Integer to
cell 61, which holds the only reference to the instance 53, takes the count of
53 from 1 to 0; `_ovm_obj_free` releases the class 30 of the instance, whose
only reference that was, so that the class is finalized and destroyed, and
then reads the field `free` of the destroyed class: the assignment has no
defined result.  With one more reference to the class (count 2) the same
assignment returns, the instance finalized and the count of the class 1. -/
theorem assign_reads_freed_class :
    release_wf sample_release_heap
      ∧ (∀ q ∈ sample_release_heap.white,
          refs_from sample_release_heap sample_release_heap.white q + [53].count q
              + (collect_roots sample_class_roots).count q
            = sample_release_heap.ref_cnt q)
      ∧ inst_target (sample_release_cells 61) = 53
      ∧ sample_release_heap.inst_of 53 = 30
      ∧ sample_release_heap.ref_cnt 53 = 1
      ∧ sample_release_heap.ref_cnt 30 = 1
      ∧ ovm_inst_assign 20 sample_release_heap sample_release_cells 61 62 = .error .undefined
      ∧ ∃ h1 cells1,
          ovm_inst_assign 20
              { sample_release_heap with
                ref_cnt := fun a => if a = 30 then 2 else sample_release_heap.ref_cnt a }
              sample_release_cells 61 62 = .ok (h1, cells1)
            ∧ cells1 61 = inst_int 3
            ∧ h1.body 53 = none ∧ h1.ref_cnt 30 = 1
            ∧ h1.trace = [.cleanup .regexp_cleanup 53, .destroy 53] :=
  ⟨by unfold release_wf; decide, by decide, rfl, rfl, rfl, rfl, rfl, _, _, rfl, rfl, rfl, rfl,
    rfl⟩

/-! ### Table sizes -/

theorem clear_low_even (m : Nat) (hm : 0 < m) :
    Nat.land (2 * m) (2 * m - 1) = 2 * Nat.land m (m - 1) := by
  have e : 2 * m - 1 = 2 * (m - 1) + 1 := by omega
  rw [e]
  show (2 * m) &&& (2 * (m - 1) + 1) = 2 * (m &&& (m - 1))
  apply Nat.eq_of_testBit_eq
  intro i
  cases i with
  | zero => simp [Nat.testBit_zero, Nat.testBit_and]
  | succ i => 
    rw [Nat.testBit_and, Nat.testBit_succ, Nat.testBit_succ, Nat.testBit_succ]
    have a1 : 2 * m / 2 = m := by omega
    have a2 : (2 * (m - 1) + 1) / 2 = m - 1 := by omega
    have a3 : 2 * (m &&& (m - 1)) / 2 = m &&& (m - 1) := by omega
    rw [a1, a2, a3, Nat.testBit_and]
theorem clear_low_odd (m : Nat) :
    Nat.land (2 * m + 1) (2 * m + 1 - 1) = 2 * m := by
  show (2 * m + 1) &&& (2 * m + 1 - 1) = 2 * m
  apply Nat.eq_of_testBit_eq
  intro i
  cases i with
  | zero => simp [Nat.testBit_zero, Nat.testBit_and]
  | succ i => 
    rw [Nat.testBit_and, Nat.testBit_succ, Nat.testBit_succ, Nat.testBit_succ]
    have a1 : (2 * m + 1) / 2 = m := by omega
    have a2 : (2 * m + 1 - 1) / 2 = m := by omega
    have a3 : 2 * m / 2 = m := by omega
    rw [a1, a2, a3, Bool.and_self]

theorem clear_low_lt (v : Nat) (hv : 0 < v) : Nat.land v (v - 1) < v := by
  have h : v &&& (v - 1) ≤ v - 1 := Nat.and_le_right
  show v &&& (v - 1) < v
  omega

theorem clear_low_dvd (i : Nat) : ∀ v : Nat, 0 < v → 2 ^ i ∣ v →
    2 ^ (i + 1) ∣ Nat.land v (v - 1) := by
  induction i with
  | zero =>
    intro v hv _
    rcases Nat.even_or_odd' v with ⟨m, rfl | rfl⟩
    · rw [clear_low_even m (by omega)]; simp
    · rw [clear_low_odd m]; simp
  | succ i ih =>
    intro v hv hd
    rcases Nat.even_or_odd' v with ⟨m, rfl | rfl⟩
    · rw [clear_low_even m (by omega)]
      have hm : 2 ^ i ∣ m := by
        rw [pow_succ, mul_comm] at hd
        exact (Nat.mul_dvd_mul_iff_left (by norm_num)).mp hd
      have := ih m (by omega) hm
      rw [pow_succ (2 : Nat) (i + 1), mul_comm]
      exact Nat.mul_dvd_mul_left 2 this
    · exfalso
      have h2 : 2 ∣ 2 * m + 1 := Dvd.dvd.trans (Dvd.intro_left (2 ^ i) rfl) hd
      omega

theorem clear_low_ge (j : Nat) : ∀ v : Nat, 2 ^ j ≤ v → v < 2 ^ (j + 1) →
    Nat.land v (v - 1) ≠ 0 → 2 ^ j ≤ Nat.land v (v - 1) := by
  induction j with
  | zero =>
    intro v h1 h2 h3
    have e : v = 1 := by simp at h1 h2; omega
    subst e
    exact absurd (by decide) h3
  | succ j ih =>
    intro v h1 h2 h3
    rw [pow_succ] at h1 h2
    rcases Nat.even_or_odd' v with ⟨m, rfl | rfl⟩
    · have hm : 0 < m := by
        have : 0 < 2 ^ j := Nat.pos_pow_of_pos j (by norm_num)
        omega
      rw [clear_low_even m hm] at h3 ⊢
      have := ih m (by omega) (by omega) (by omega)
      rw [pow_succ]; omega
    · rw [clear_low_odd m]
      rw [pow_succ]; omega

theorem clear_low_zero (j : Nat) : ∀ v : Nat, 2 ^ j ≤ v → v < 2 ^ (j + 1) →
    Nat.land v (v - 1) = 0 → v = 2 ^ j := by
  induction j with
  | zero =>
    intro v h1 h2 _
    simp at h1 h2; simp; omega
  | succ j ih =>
    intro v h1 h2 h3
    rw [pow_succ] at h1 h2
    have hp : 0 < 2 ^ j := Nat.pos_pow_of_pos j (by norm_num)
    rcases Nat.even_or_odd' v with ⟨m, rfl | rfl⟩
    · rw [clear_low_even m (by omega)] at h3
      have := ih m (by omega) (by omega) (by omega)
      rw [pow_succ]; omega
    · rw [clear_low_odd m] at h3
      omega

theorem round_up_loop_spec (fuel : Nat) : ∀ (i j val : Nat), 0 < val → 2 ^ j ≤ val →
    val < 2 ^ (j + 1) → j ≤ 30 → 2 ^ i ∣ val → 32 ≤ fuel + i →
    round_up_loop fuel val (2 * val) = .ok (2 ^ (j + 1)) := by
  induction fuel with
  | zero =>
    intro i j val hv h1 h2 hj hd hf
    exfalso
    have h31 : 2 ^ (j + 1) ≤ 2 ^ 31 := Nat.pow_le_pow_right (by norm_num) (by omega)
    have h32 : 2 ^ 32 ≤ 2 ^ i := Nat.pow_le_pow_right (by norm_num) (by omega)
    have := Nat.le_of_dvd hv hd
    norm_num at h31 h32
    omega
  | succ fuel ih =>
    intro i j val hv h1 h2 hj hd hf
    have h31 : 2 ^ (j + 1) ≤ 2 ^ 31 := Nat.pow_le_pow_right (by norm_num) (by omega)
    norm_num at h31
    have e1 : (val + 4294967295) % 4294967296 = val - 1 := by omega
    have hlt := clear_low_lt val hv
    unfold round_up_loop
    simp only [e1]
    by_cases hk : Nat.land val (val - 1) = 0
    · simp only [hk, if_true]
      rw [clear_low_zero j val h1 h2 hk, pow_succ, mul_comm]
    · have hge := clear_low_ge j val h1 h2 hk
      have e2 : (Nat.land val (val - 1) * 2) % 4294967296 = 2 * Nat.land val (val - 1) := by
        omega
      have e3 : ¬ 2 * Nat.land val (val - 1) = 0 := by omega
      simp only [hk, if_false, e2, e3]
      exact ih (i + 1) j _ (by omega) hge (by omega) hj (clear_low_dvd i val hv hd) (by omega)

theorem round_up_spec (fuel n : Nat) (hfuel : 32 ≤ fuel) (h1 : 1 ≤ n) (h2 : n ≤ 2147483648) :
    ∃ j, round_up_to_power_of_2 fuel n = .ok (2 ^ j) ∧ j ≤ 31 ∧ n ≤ 2 ^ j ∧
      ∀ i, n ≤ 2 ^ i → 2 ^ j ≤ 2 ^ i := by
  obtain ⟨fuel, rfl⟩ : ∃ f, fuel = f + 1 := ⟨fuel - 1, by omega⟩
  have hlog1 : 2 ^ Nat.log 2 n ≤ n := Nat.pow_log_le_self 2 (by omega)
  have hlog2 : n < 2 ^ (Nat.log 2 n + 1) := Nat.lt_pow_succ_log_self (by norm_num) n
  have hj : Nat.log 2 n ≤ 31 := by
    by_contra hc
    have : 2 ^ 32 ≤ 2 ^ Nat.log 2 n := Nat.pow_le_pow_right (by norm_num) (by omega)
    norm_num at this
    omega
  have e1 : (n + 4294967295) % 4294967296 = n - 1 := by omega
  have hlt := clear_low_lt n (by omega)
  unfold round_up_to_power_of_2 round_up_loop
  simp only [e1]
  by_cases hk : Nat.land n (n - 1) = 0
  · have e := clear_low_zero _ n hlog1 hlog2 hk
    refine ⟨Nat.log 2 n, ?_, hj, by omega, ?_⟩
    · simp only [hk, if_true]; rw [← e]
    · intro i hi
      rw [← e]; exact hi
  · have hge := clear_low_ge _ n hlog1 hlog2 hk
    have hj30 : Nat.log 2 n ≤ 30 := by
      by_contra hc
      have : 2 ^ 31 ≤ 2 ^ Nat.log 2 n := Nat.pow_le_pow_right (by norm_num) (by omega)
      norm_num at this
      omega
    have h31 : 2 ^ (Nat.log 2 n + 1) ≤ 2 ^ 31 := Nat.pow_le_pow_right (by norm_num) (by omega)
    norm_num at h31
    have e2 : (Nat.land n (n - 1) * 2) % 4294967296 = 2 * Nat.land n (n - 1) := by omega
    have e3 : ¬ 2 * Nat.land n (n - 1) = 0 := by omega
    refine ⟨Nat.log 2 n + 1, ?_, by omega, by omega, ?_⟩
    · simp only [hk, if_false, e2, e3]
      exact round_up_loop_spec fuel 1 _ _ (by omega) hge (by omega) hj30
        (clear_low_dvd 0 n (by omega) (by simp)) (by omega)
    · intro i hi
      apply Nat.pow_le_pow_right (by norm_num)
      have : 2 ^ Nat.log 2 n < 2 ^ i := by omega
      have := (Nat.pow_lt_pow_iff_right (by norm_num : 1 < 2)).mp this
      omega

theorem bucket_index_pow (hash j : Nat) (hj : j ≤ 31) :
    bucket_index hash (2 ^ j) = hash % 2 ^ j := by
  have hp : 0 < 2 ^ j := Nat.pos_pow_of_pos j (by norm_num)
  have h31 : 2 ^ j ≤ 2 ^ 31 := Nat.pow_le_pow_right (by norm_num) hj
  norm_num at h31
  unfold bucket_index
  have e1 : (2 ^ j + 4294967295) % 4294967296 = 2 ^ j - 1 := by omega
  rw [e1]
  show (hash % 4294967296) &&& (2 ^ j - 1) = hash % 2 ^ j
  rw [Nat.and_pow_two_sub_one_eq_mod]
  have hd : 2 ^ j ∣ 4294967296 := by
    have : (4294967296 : Nat) = 2 ^ 32 := by norm_num
    rw [this]
    exact Nat.pow_dvd_pow 2 (by omega)
  exact Nat.mod_mod_of_dvd hash hd

/-- For every requested table size `n` with `1 ≤ n ≤ 2^28`, `set_newc(n)`,
`Set.new(n)` and `Dictionary.new(n)` return (given 32 rounds of the loop) a
table with no entries whose size is the least power of two greater than or
equal to `n`; for that size `hash & (size - 1)` is `hash mod size`. -/
theorem table_size_power_of_two (fuel n : Nat) (hfuel : 32 ≤ fuel) (h1 : 1 ≤ n)
    (h2 : n ≤ 268435456) :
    ∃ j, n ≤ 2 ^ j ∧ (∀ i, n ≤ 2 ^ i → 2 ^ j ≤ 2 ^ i)
      ∧ (set_newc fuel n : Except ovm_stop (ovm_obj_set ovm_inst))
          = .ok { size := 2 ^ j, cnt := 0, data := List.replicate (2 ^ j) [] }
      ∧ (Set_new fuel (n : Int) : Except ovm_stop (ovm_obj_set ovm_inst))
          = .ok { size := 2 ^ j, cnt := 0, data := List.replicate (2 ^ j) [] }
      ∧ Dictionary_new fuel (n : Int)
          = .ok { size := 2 ^ j, cnt := 0, data := List.replicate (2 ^ j) [] }
      ∧ ∀ hash, bucket_index hash (2 ^ j) = hash % 2 ^ j := by
  obtain ⟨j, hr, hj, hle, hleast⟩ := round_up_spec fuel n hfuel h1 (by omega)
  have hi : ¬ ((n : Int) < 1) := by omega
  have hn : (n : Int).toNat % 4294967296 = n := by
    rw [Int.toNat_ofNat]; omega
  have h28 : 2 ^ j ≤ 268435456 := by
    have := hleast 28 (by norm_num; exact h2)
    norm_num at this
    exact this
  have hfit : set_alloc_fits (2 ^ j) = true := by
    unfold set_alloc_fits SIZEOF_OBJ_SET
    rw [decide_eq_true_eq]
    omega
  refine ⟨j, hle, hleast, ?_, ?_, ?_, fun hash => bucket_index_pow hash j hj⟩
  · simp only [set_newc, hr, hfit, if_true]
  · simp only [Set_new, hi, if_false, hn, set_newc, hr, hfit, if_true]
  · simp only [Dictionary_new, hi, if_false, hn, set_newc, hr, hfit, if_true]

/-- A table of 5 requested buckets. -/
theorem table_size_power_of_two_sample :
    (32 ≤ 32 ∧ 1 ≤ 5 ∧ 5 ≤ 268435456)
      ∧ ∃ j, 5 ≤ 2 ^ j ∧ (∀ i, 5 ≤ 2 ^ i → 2 ^ j ≤ 2 ^ i)
        ∧ (set_newc 32 5 : Except ovm_stop (ovm_obj_set ovm_inst))
            = .ok { size := 2 ^ j, cnt := 0, data := List.replicate (2 ^ j) [] }
        ∧ (Set_new 32 ((5 : Nat) : Int) : Except ovm_stop (ovm_obj_set ovm_inst))
            = .ok { size := 2 ^ j, cnt := 0, data := List.replicate (2 ^ j) [] }
        ∧ Dictionary_new 32 ((5 : Nat) : Int)
            = .ok { size := 2 ^ j, cnt := 0, data := List.replicate (2 ^ j) [] }
        ∧ ∀ hash, bucket_index hash (2 ^ j) = hash % 2 ^ j :=
  ⟨by decide, table_size_power_of_two 32 5 (by decide) (by decide) (by decide)⟩

/-- C12, evaluated on three requested sizes that `Set.new` and
`Dictionary.new` accept. For `2^31 + 1` the shift in
`round_up_to_power_of_2` gives 0 and the assertion `result != 0` fails,
whatever the number of rounds. The Integer `2^32` is not below 1 and
becomes the `unsigned` 0, for which the table has size 0, which is no power
of two and is below the request. For `2^29` the number of bytes
`88 + 2^29 * 8` does not fit the `unsigned` parameter of `ovm_obj_alloc`,
so that `set_obj_init` clears memory past the object. -/
theorem table_size_no_power_of_two (fuel : Nat) :
    (set_newc fuel 2147483649 : Except ovm_stop (ovm_obj_set ovm_inst)) = .error .undefined
      ∧ (Set_new fuel 2147483649 : Except ovm_stop (ovm_obj_set ovm_inst))
          = .error .undefined
      ∧ Dictionary_new fuel 2147483649 = .error .undefined
      ∧ (Set_new 32 4294967296 : Except ovm_stop (ovm_obj_set ovm_inst))
          = .ok { size := 0, cnt := 0, data := [] }
      ∧ Dictionary_new 32 4294967296 = .ok { size := 0, cnt := 0, data := [] }
      ∧ round_up_to_power_of_2 32 536870912 = .ok 536870912
      ∧ set_alloc_fits 536870912 = false
      ∧ (Set_new 32 536870912 : Except ovm_stop (ovm_obj_set ovm_inst)) = .error .undefined
      ∧ Dictionary_new 32 536870912 = .error .undefined := by
  have h : (set_newc fuel 2147483649 : Except ovm_stop (ovm_obj_set ovm_inst))
        = .error .undefined
      ∧ (Set_new fuel 2147483649 : Except ovm_stop (ovm_obj_set ovm_inst))
          = .error .undefined
      ∧ Dictionary_new fuel 2147483649 = .error .undefined := by
    cases fuel with
    | zero => exact ⟨rfl, rfl, rfl⟩
    | succ fuel => exact ⟨rfl, rfl, rfl⟩
  exact ⟨h.1, h.2.1, h.2.2, rfl, rfl, rfl, rfl, rfl, rfl⟩

/-! ### Slices -/

theorem wrap64_id (x : Int) (h : in64 x) : wrap64 x = x := by
  unfold in64 at h
  unfold wrap64
  omega

theorem slice_no_overflow (ofs len n : Int)
    (h1 : ofs < 0 → in64 (ofs + n))
    (h2 : len < 0 → in64 ((if ofs < 0 then ofs + n else ofs) + len) ∧ in64 (-len))
    (h3 : in64 ((if len < 0 then (if ofs < 0 then ofs + n else ofs) + len
                  else (if ofs < 0 then ofs + n else ofs))
                + (if len < 0 then -len else len))) :
    slice ofs len n =
      if 0 ≤ (if len < 0 then (if ofs < 0 then ofs + n else ofs) + len
                else (if ofs < 0 then ofs + n else ofs))
          ∧ (if len < 0 then (if ofs < 0 then ofs + n else ofs) + len
                else (if ofs < 0 then ofs + n else ofs))
              + (if len < 0 then -len else len) ≤ n
      then some ((if len < 0 then (if ofs < 0 then ofs + n else ofs) + len
                    else (if ofs < 0 then ofs + n else ofs)),
                 (if len < 0 then -len else len))
      else none := by
  unfold slice
  by_cases ho : ofs < 0
  · have e1 := wrap64_id _ (h1 ho)
    by_cases hl : len < 0
    · have hh := h2 hl
      simp only [ho, if_true] at hh h3
      simp only [hl, if_true] at h3
      have e2 := wrap64_id _ hh.1
      have e3 := wrap64_id _ hh.2
      have e4 := wrap64_id _ h3
      simp only [ho, hl, if_true, e1, e2, e3, e4]
      by_cases hc : 0 ≤ ofs + n + len ∧ ofs + n + len + -len ≤ n
      · have : ¬ (ofs + n + len < 0 ∨ ofs + n + len + -len > n) := by omega
        simp only [hc, this, if_true, if_false, and_self]
      · have : (ofs + n + len < 0 ∨ ofs + n + len + -len > n) := by omega
        simp only [hc, this, if_true, if_false]
    · simp only [ho, if_true] at h3
      simp only [hl, if_false] at h3
      have e4 := wrap64_id _ h3
      simp only [ho, hl, if_true, if_false, e1, e4]
      by_cases hc : 0 ≤ ofs + n ∧ ofs + n + len ≤ n
      · have : ¬ (ofs + n < 0 ∨ ofs + n + len > n) := by omega
        simp only [hc, this, if_true, if_false, and_self]
      · have : (ofs + n < 0 ∨ ofs + n + len > n) := by omega
        simp only [hc, this, if_true, if_false]
  · by_cases hl : len < 0
    · have hh := h2 hl
      simp only [ho, if_false] at hh h3
      simp only [hl, if_true] at h3
      have e2 := wrap64_id _ hh.1
      have e3 := wrap64_id _ hh.2
      have e4 := wrap64_id _ h3
      simp only [ho, hl, if_true, if_false, e2, e3, e4]
      by_cases hc : 0 ≤ ofs + len ∧ ofs + len + -len ≤ n
      · have : ¬ (ofs + len < 0 ∨ ofs + len + -len > n) := by omega
        simp only [hc, this, if_true, if_false, and_self]
      · have : (ofs + len < 0 ∨ ofs + len + -len > n) := by omega
        simp only [hc, this, if_true, if_false]
    · simp only [ho, if_false] at h3
      simp only [hl, if_false] at h3
      have e4 := wrap64_id _ h3
      simp only [ho, hl, if_false, e4]
      by_cases hc : 0 ≤ ofs ∧ ofs + len ≤ n
      · have : ¬ (ofs + len > n) := by omega
        simp only [hc, this, if_true, if_false, and_self, false_or]
      · have : ofs + len > n := by omega
        simp only [hc, this, if_true, if_false, or_true]

theorem slice_eq_spec (ofs len n : Int) (h : slice_in_range ofs len n) :
    slice ofs len n =
      if 0 ≤ (slice_spec ofs len n).1
          ∧ (slice_spec ofs len n).1 + (slice_spec ofs len n).2 ≤ n
      then some (slice_spec ofs len n) else none := by
  obtain ⟨a1, a2, a3, a4⟩ := h
  by_cases hl : len < 0
  · simp only [slice_spec, hl, if_true] at a2 a3 a4
    rw [slice_no_overflow ofs len n (fun ho => by simpa only [ho, if_true] using a1)
      (fun _ => ⟨a2, a3⟩) (by simpa only [hl, if_true] using a4)]
    simp only [slice_spec, hl, if_true]
  · simp only [slice_spec, hl, if_false] at a2 a3 a4
    rw [slice_no_overflow ofs len n (fun ho => by simpa only [ho, if_true] using a1)
      (fun hc => absurd hc hl) (by simpa only [hl, if_false] using a4)]
    simp only [slice_spec, hl, if_false]

theorem str_slicec_in_range (s : ovm_obj_str) (o l : Int)
    (hsize : s.size = s.data.length + 1) (h32 : s.size < 4294967296)
    (ho : 0 ≤ o) (hl : 0 ≤ l) (hle : o + l ≤ (s.data.length : Int)) :
    str_slicec s (o % 4294967296).toNat (l % 4294967296).toNat
      = .ok { size := l.toNat + 1, data := (s.data.drop o.toNat).take l.toNat } := by
  have eo : (o % 4294967296).toNat = o.toNat := by omega
  have el : (l % 4294967296).toNat = l.toNat := by omega
  have e1 : (l.toNat + 1) % 4294967296 = l.toNat + 1 := by omega
  have e2 : ¬ (l.toNat + 1 = 0) := by omega
  have e3 : o.toNat + (l.toNat + 1 - 1) ≤ s.size := by omega
  unfold str_slicec
  simp only [eo, el, e1, e2, e3, if_true, if_false]
  congr 2
  have e4 : l.toNat + 1 - 1 = l.toNat := by omega
  rw [e4, List.drop_append_of_le_length (by omega), List.take_append_of_le_length]
  rw [List.length_drop]; omega

theorem slice_spec_len_nonneg (ofs len n : Int) : 0 ≤ (slice_spec ofs len n).2 := by
  unfold slice_spec
  by_cases hl : len < 0
  · simp only [hl, if_true]; omega
  · simp only [hl, if_false]; omega

/-- C14: when no sum and no negation overflows, `slice(ofs, len, n)` accepts
exactly when `0 ≤ o2` and `o2 + l2 ≤ n`, and then returns `(o2, l2)`, where
`o1 = ofs + n` if `ofs < 0` else `ofs` and `(o2, l2) = (o1 + len, -len)` if
`len < 0` else `(o1, len)`; `String.slice` on a String of `n` bytes returns
the String of the `l2` bytes from offset `o2` when `slice` accepts and raises
`system.index-range` otherwise.  On "abcdef": `slice(-2, 2)` is "ef",
`slice(5, -3)` is "cde", `slice(-1, -3)` is "cde". -/
theorem slice_normalises (ofs len n : Int) (hr : slice_in_range ofs len n) :
    slice ofs len n =
        (if 0 ≤ (slice_spec ofs len n).1
            ∧ (slice_spec ofs len n).1 + (slice_spec ofs len n).2 ≤ n
         then some (slice_spec ofs len n) else none)
      ∧ (∀ s : ovm_obj_str, s.size = s.data.length + 1 → s.size < 4294967296 →
          n = (s.data.length : Int) →
          String_slice s ofs len =
            if 0 ≤ (slice_spec ofs len n).1
                ∧ (slice_spec ofs len n).1 + (slice_spec ofs len n).2 ≤ n
            then .ok { size := (slice_spec ofs len n).2.toNat + 1,
                       data := (s.data.drop (slice_spec ofs len n).1.toNat).take
                                 (slice_spec ofs len n).2.toNat }
            else .error (.raised (ovm_except_idx_range (inst_int ofs) (inst_int len))))
      ∧ (ovm_except_idx_range (inst_int ofs) (inst_int len)).type = "system.index-range"
      ∧ String_slice sample_str (-2) 2 = .ok { size := 3, data := "ef".toList }
      ∧ String_slice sample_str 5 (-3) = .ok { size := 4, data := "cde".toList }
      ∧ String_slice sample_str (-1) (-3) = .ok { size := 4, data := "cde".toList } := by
  refine ⟨slice_eq_spec ofs len n hr, ?_, rfl, rfl, rfl, rfl⟩
  intro s hsize h32 hn
  have e1 : (((s.size + 4294967295) % 4294967296 : Nat) : Int) = n := by
    have e0 : (s.size + 4294967295) % 4294967296 = s.data.length := by omega
    rw [e0, hn]
  unfold String_slice
  rw [e1, slice_eq_spec ofs len n hr]
  by_cases hc : 0 ≤ (slice_spec ofs len n).1
      ∧ (slice_spec ofs len n).1 + (slice_spec ofs len n).2 ≤ n
  · simp only [hc, and_self, if_true]
    exact str_slicec_in_range s _ _ hsize h32 hc.1 (slice_spec_len_nonneg ofs len n)
      (by rw [← hn]; exact hc.2)
  · simp only [hc, if_false]

/-- Witness of C14: `slice(-1, -3)` on a String of 6 bytes. -/
theorem slice_normalises_witness :
    slice_in_range (-1) (-3) 6
      ∧ (slice (-1) (-3) 6 =
          (if 0 ≤ (slice_spec (-1) (-3) 6).1
              ∧ (slice_spec (-1) (-3) 6).1 + (slice_spec (-1) (-3) 6).2 ≤ 6
           then some (slice_spec (-1) (-3) 6) else none)
        ∧ (∀ s : ovm_obj_str, s.size = s.data.length + 1 → s.size < 4294967296 →
            (6 : Int) = (s.data.length : Int) →
            String_slice s (-1) (-3) =
              if 0 ≤ (slice_spec (-1) (-3) 6).1
                  ∧ (slice_spec (-1) (-3) 6).1 + (slice_spec (-1) (-3) 6).2 ≤ 6
              then .ok { size := (slice_spec (-1) (-3) 6).2.toNat + 1,
                         data := (s.data.drop (slice_spec (-1) (-3) 6).1.toNat).take
                                   (slice_spec (-1) (-3) 6).2.toNat }
              else .error (.raised (ovm_except_idx_range (inst_int (-1)) (inst_int (-3)))))
        ∧ (ovm_except_idx_range (inst_int (-1)) (inst_int (-3))).type = "system.index-range"
        ∧ String_slice sample_str (-2) 2 = .ok { size := 3, data := "ef".toList }
        ∧ String_slice sample_str 5 (-3) = .ok { size := 4, data := "cde".toList }
        ∧ String_slice sample_str (-1) (-3) = .ok { size := 4, data := "cde".toList }) :=
  ⟨by decide, slice_normalises (-1) (-3) 6 (by decide)⟩

/-- C13, evaluated on inputs that `slice` accepts out of range.  With
`n = 6`, `ofs = 2^63 - 1` and `len = 1` the sum `ofs + len` wraps to `-2^63`,
`slice` accepts and returns `(2^63 - 1, 1)`, so `ofs' + len' ≤ n` fails, and
`String.slice` on "abcdef" then reads past the String.  With `n = 0`,
`ofs = -1` and `len = -2^63` it accepts with `len' = -2^63`. -/
theorem slice_accepts_out_of_range :
    (in64 9223372036854775807 ∧ in64 1 ∧ in64 (-1) ∧ in64 (-9223372036854775808))
      ∧ slice 9223372036854775807 1 6 = some (9223372036854775807, 1)
      ∧ ¬ ((9223372036854775807 : Int) + 1 ≤ 6)
      ∧ String_slice sample_str 9223372036854775807 1 = .error .undefined
      ∧ slice (-1) (-9223372036854775808) 0
          = some (9223372036854775807, -9223372036854775808)
      ∧ ¬ ((0 : Int) ≤ -9223372036854775808) := by
  refine ⟨by norm_num [in64], rfl, by norm_num, rfl, rfl, by norm_num⟩

/-! ### Hash and equality of Strings -/

/-- C15, evaluated on the Strings of the 3 bytes `a NUL b` and `a NUL c` (as
`File.read` returns them for files with these bytes), neither with a cached
hash: `String.equal` compares with `strcmp`, which stops at the NUL, and
answers true, while `String.hash` is the CRC-32 of all 3 bytes of each
String, and the two differ. -/
theorem string_equal_hash_differ :
    String_equal sample_consts (fun _ => 0)
        (inst_str 720 4 ['a', NUL, 'b']) (inst_str 721 4 ['a', NUL, 'c']) = .ok true
      ∧ String_hash mem_hash (inst_str 720 4 ['a', NUL, 'b']) = .ok 357981852
      ∧ String_hash mem_hash (inst_str 721 4 ['a', NUL, 'c']) = .ok 1649503754
      ∧ ∀ mh : Nat → List Char → Nat,
          String_hash mh (inst_str 720 4 ['a', NUL, 'b'])
              = .ok ((mh 3 ['a', NUL, 'b'] % 4294967296 : Nat) : Int)
            ∧ String_hash mh (inst_str 721 4 ['a', NUL, 'c'])
              = .ok ((mh 3 ['a', NUL, 'c'] % 4294967296 : Nat) : Int) := by
  refine ⟨rfl, ?_, ?_, fun mh => ⟨rfl, rfl⟩⟩
  · have e : mem_hash 3 ['a', NUL, 'b'] = 357981852 := by decide
    show Except.ok (((mem_hash 3 ['a', NUL, 'b'] % 4294967296 : Nat) : Int)) = _
    rw [e]; rfl
  · have e : mem_hash 3 ['a', NUL, 'c'] = 1649503754 := by decide
    show Except.ok (((mem_hash 3 ['a', NUL, 'c'] % 4294967296 : Nat) : Int)) = _
    rw [e]; rfl

/-! ### Lists: reverse and concat -/

theorem list_seg_cons (s : ovm_objs) (p a : Nat) (x : ovm_inst) (rest : List (Nat × ovm_inst))
    (q : Nat) :
    list_seg s p ((a, x) :: rest) q = true ↔
      p = a ∧ a ≠ 0 ∧ ∃ next, s.body a = some (.list x next) ∧ list_seg s next rest q = true := by
  have e : list_seg s p ((a, x) :: rest) q =
      (p == a && a != 0 &&
        match s.body a with
        | some (.list item next) => item == x && list_seg s next rest q
        | _ => false) := rfl
  rw [e]
  constructor
  · intro h
    simp only [Bool.and_eq_true, beq_iff_eq, bne_iff_ne, ne_eq] at h
    obtain ⟨⟨h1, h2⟩, h3⟩ := h
    refine ⟨h1, h2, ?_⟩
    cases hb : s.body a with
    | none => rw [hb] at h3; exact absurd h3 (by simp)
    | some b =>
      rw [hb] at h3
      cases b with
      | list item next =>
        simp only [Bool.and_eq_true, beq_iff_eq] at h3
        exact ⟨next, by rw [h3.1], h3.2⟩
      | _ => exact absurd h3 (by simp)
  · rintro ⟨h1, h2, next, hb, hr⟩
    simp only [Bool.and_eq_true, beq_iff_eq, bne_iff_ne, ne_eq]
    refine ⟨⟨h1, h2⟩, ?_⟩
    rw [hb]
    simp only [Bool.and_eq_true, beq_iff_eq]
    exact ⟨trivial, hr⟩

theorem list_seg_nil (s : ovm_objs) (p q : Nat) : list_seg s p [] q = true ↔ p = q := by
  unfold list_seg
  simp

theorem list_seg_congr (s s1 : ovm_objs) (cells : List (Nat × ovm_inst)) :
    ∀ (p q : Nat), (∀ a ∈ cells.map Prod.fst, s1.body a = s.body a) →
      list_seg s1 p cells q = list_seg s p cells q := by
  induction cells with
  | nil => intro p q _; rfl
  | cons cx rest ih =>
    intro p q h
    obtain ⟨a, x⟩ := cx
    have ha : s1.body a = s.body a := h a (by simp)
    have hrest : ∀ b ∈ rest.map Prod.fst, s1.body b = s.body b := by
      intro b hb
      exact h b (by simp only [List.map_cons, List.mem_cons]; exact Or.inr hb)
    have e : ∀ t : ovm_objs, list_seg t p ((a, x) :: rest) q =
        (p == a && a != 0 &&
          match t.body a with
          | some (.list item next) => item == x && list_seg t next rest q
          | _ => false) := fun _ => rfl
    rw [e s1, e s, ha]
    cases hb : s.body a with
    | none => rfl
    | some b =>
      cases b <;> try rfl
      rename_i item next
      simp only [ih next q hrest]

theorem list_seg_append (s : ovm_objs) (l1 l2 : List (Nat × ovm_inst)) :
    ∀ (p m q : Nat), list_seg s p l1 m = true → list_seg s m l2 q = true →
      list_seg s p (l1 ++ l2) q = true := by
  induction l1 with
  | nil =>
    intro p m q h1 h2
    rw [list_seg_nil] at h1
    subst h1
    exact h2
  | cons cx rest ih =>
    intro p m q h1 h2
    obtain ⟨a, x⟩ := cx
    rw [list_seg_cons] at h1
    obtain ⟨e, ha, next, hb, hr⟩ := h1
    rw [List.cons_append, list_seg_cons]
    exact ⟨e, ha, next, hb, ih next m q hr h2⟩

theorem list_seg_body (s : ovm_objs) (cells : List (Nat × ovm_inst)) :
    ∀ (p q : Nat), list_seg s p cells q = true →
      ∀ a ∈ cells.map Prod.fst, a ≠ 0 ∧ s.body a ≠ none := by
  induction cells with
  | nil => intro p q _ a ha; simp at ha
  | cons cx rest ih =>
    intro p q h a ha
    obtain ⟨a0, x⟩ := cx
    rw [list_seg_cons] at h
    obtain ⟨_, h0, next, hb, hr⟩ := h
    simp only [List.map_cons, List.mem_cons] at ha
    rcases ha with rfl | ha
    · exact ⟨h0, by rw [hb]; simp⟩
    · exact ih next q hr a ha

theorem list_seg_not_free (s : ovm_objs) (cells : List (Nat × ovm_inst)) (p q : Nat)
    (h : list_seg s p cells q = true) (hf : free_ok s) :
    ∀ a ∈ cells.map Prod.fst, a ∉ s.free := by
  intro a ha hmem
  exact (list_seg_body s cells p q h a ha).2 (hf.2.2 a hmem)

theorem ovm_obj_alloc_spec (s : ovm_objs) (cl : Nat) (b : ovm_body) (a : Nat) (rest : List Nat)
    (h : s.free = a :: rest) :
    ∃ s1, ovm_obj_alloc s cl b = .ok (s1, a) ∧ s1.free = rest ∧ s1.body a = some b
      ∧ s1.inst_of a = cl ∧ s1.locked a = false
      ∧ ∀ p, p ≠ a →
          s1.body p = s.body p ∧ s1.inst_of p = s.inst_of p ∧ s1.locked p = s.locked p := by
  refine ⟨{ inst_of := fun p => if p = a then cl else s.inst_of p,
            body := fun p => if p = a then some b else s.body p,
            locked := fun p => if p = a then false else s.locked p,
            free := rest }, ?_, rfl, by simp, by simp, by simp, ?_⟩
  · unfold ovm_obj_alloc
    rw [h]
  · intro p hp
    simp [hp]

theorem free_ok_tail (s s1 : ovm_objs) (a : Nat) (rest : List Nat) (hf : free_ok s)
    (h : s.free = a :: rest) (h1 : s1.free = rest)
    (hb : ∀ p, p ≠ a → s1.body p = s.body p) : free_ok s1 := by
  obtain ⟨hn, h0, hnone⟩ := hf
  rw [h] at hn h0 hnone
  rw [List.nodup_cons] at hn
  refine ⟨by rw [h1]; exact hn.2, by rw [h1]; exact fun hc => h0 (List.mem_cons_of_mem _ hc), ?_⟩
  intro p hp
  rw [h1] at hp
  have hpa : p ≠ a := fun e => hn.1 (e ▸ hp)
  rw [hb p hpa]
  exact hnone p (List.mem_cons_of_mem _ hp)

theorem free_cons_of_le (s : ovm_objs) (n : Nat) (h : n + 1 ≤ s.free.length) :
    ∃ b F, s.free = b :: F := by
  cases hs : s.free with
  | nil => rw [hs] at h; simp at h
  | cons b F => exact ⟨b, F, rfl⟩

theorem list_reverse_loop_spec (c : ovm_consts) (cells : List (Nat × ovm_inst)) :
    ∀ (fuel : Nat) (s : ovm_objs) (li dst : Nat), list_at s li cells = true → free_ok s →
      cells.length < fuel → cells.length ≤ s.free.length →
      ∃ s1 r, list_reverse_loop c fuel s li dst = .ok (s1, r)
        ∧ list_seg s1 r ((s.free.take cells.length).zip (cells.map Prod.snd)).reverse dst = true
        ∧ s1.free = s.free.drop cells.length
        ∧ (∀ a, a ∉ s.free.take cells.length →
            s1.body a = s.body a ∧ s1.inst_of a = s.inst_of a ∧ s1.locked a = s.locked a)
        ∧ (∀ a ∈ s.free.take cells.length, s1.inst_of a = c.List)
        ∧ free_ok s1 := by
  induction cells with
  | nil =>
    intro fuel s li dst hl hf hfuel _
    obtain ⟨fuel, rfl⟩ : ∃ f, fuel = f + 1 := ⟨fuel - 1, by simp at hfuel; omega⟩
    have e : li = 0 := by
      unfold list_at at hl
      rwa [list_seg_nil] at hl
    refine ⟨s, dst, ?_, ?_, by simp, fun a _ => ⟨rfl, rfl, rfl⟩, by simp, hf⟩
    · unfold list_reverse_loop
      simp only [e, if_true]
    · simp [list_seg_nil]
  | cons cx rest ih =>
    intro fuel s li dst hl hf hfuel hmem
    obtain ⟨a, x⟩ := cx
    obtain ⟨fuel, rfl⟩ : ∃ f, fuel = f + 1 := ⟨fuel - 1, by omega⟩
    unfold list_at at hl
    rw [list_seg_cons] at hl
    obtain ⟨rfl, ha0, next, hbody, hrest⟩ := hl
    simp only [List.length_cons] at hfuel hmem
    obtain ⟨b, F, hF⟩ := free_cons_of_le s rest.length hmem
    have hb0 : b ≠ 0 := fun e => hf.2.1 (by rw [hF, e]; simp)
    have hbF : b ∉ F := by
      have := hf.1; rw [hF, List.nodup_cons] at this; exact this.1
    have hnot := list_seg_not_free s rest next 0 hrest hf
    obtain ⟨s1, halloc, hfr1, hbody1, hcl1, _, hframe1⟩ :=
      ovm_obj_alloc_spec s c.List (.list x dst) b F hF
    have hfree1 := free_ok_tail s s1 b F hf hF hfr1 (fun p hp => (hframe1 p hp).1)
    have hrest1 : list_at s1 next rest = true := by
      unfold list_at
      rw [list_seg_congr s s1 rest next 0 ?_]
      · exact hrest
      · intro p hp
        exact (hframe1 p (fun e => hnot p hp (by rw [hF, e]; simp))).1
    rw [hF] at hmem
    simp only [List.length_cons] at hmem
    obtain ⟨s2, r2, hrun, hseg, hfree2, hframe, hcls, hok2⟩ :=
      ih fuel s1 next b hrest1 hfree1 (by omega) (by rw [hfr1]; omega)
    rw [hfr1] at hseg hfree2 hframe hcls
    refine ⟨s2, r2, ?_, ?_, ?_, ?_, ?_, hok2⟩
    · unfold list_reverse_loop
      simp only [ha0, if_false, hbody, list_new, halloc]
      exact hrun
    · rw [hF]
      simp only [List.length_cons, List.take_succ_cons, List.map_cons, List.zip_cons_cons,
        List.reverse_cons]
      apply list_seg_append s2 _ _ r2 b dst hseg
      rw [list_seg_cons]
      refine ⟨rfl, hb0, dst, ?_, by rw [list_seg_nil]⟩
      have hbt : b ∉ List.take rest.length F := fun hc => hbF (List.mem_of_mem_take hc)
      rw [(hframe b hbt).1, hbody1]
    · rw [hfree2, hF]; rfl
    · intro p hp
      rw [hF] at hp
      simp only [List.length_cons, List.take_succ_cons, List.mem_cons, not_or] at hp
      obtain ⟨h1, h2, h3⟩ := hframe p hp.2
      obtain ⟨g1, g2, g3⟩ := hframe1 p hp.1
      exact ⟨h1.trans g1, h2.trans g2, h3.trans g3⟩
    · intro p hp
      rw [hF] at hp
      simp only [List.length_cons, List.take_succ_cons, List.mem_cons] at hp
      by_cases hpt : p ∈ List.take rest.length F
      · exact hcls p hpt
      · have hpb : p = b := by
          rcases hp with h | h
          · exact h
          · exact absurd h hpt
        rw [(hframe p hpt).2.1, hpb, hcl1]

theorem list_seg_head (s : ovm_objs) (p q : Nat) (cells : List (Nat × ovm_inst))
    (h : list_seg s p cells q = true) : p = q ∨ p ∈ cells.map Prod.fst := by
  cases cells with
  | nil => rw [list_seg_nil] at h; exact Or.inl h
  | cons cx rest =>
    obtain ⟨a, x⟩ := cx
    rw [list_seg_cons] at h
    exact Or.inr (by simp [h.1])

theorem ovm_inst_listval_obj (c : ovm_consts) (s : ovm_objs) (li : Nat)
    (h : li = 0 ∨ s.inst_of li = c.List) : ovm_inst_listval c s (inst_obj li) = .ok li := by
  unfold ovm_inst_listval inst_obj
  simp only [h, if_true]

theorem List_reverse_spec (c : ovm_consts) (fuel : Nat) (s : ovm_objs) (li : Nat)
    (cells : List (Nat × ovm_inst))
    (hl : list_at s li cells = true) (hcl : li = 0 ∨ s.inst_of li = c.List)
    (hf : free_ok s) (hfuel : cells.length < fuel) (hmem : cells.length ≤ s.free.length) :
    ∃ s1 r, List_reverse c fuel s (inst_obj li) = .ok (s1, inst_obj r)
      ∧ list_at s1 r ((s.free.take cells.length).zip (cells.map Prod.snd)).reverse = true
      ∧ (r = 0 ∨ s1.inst_of r = c.List)
      ∧ s1.free = s.free.drop cells.length
      ∧ (∀ a, a ∉ s.free.take cells.length →
          s1.body a = s.body a ∧ s1.inst_of a = s.inst_of a ∧ s1.locked a = s.locked a)
      ∧ free_ok s1 := by
  obtain ⟨s1, r, hrun, hseg, hfree, hframe, hcls, hok⟩ :=
    list_reverse_loop_spec c cells fuel s li 0 hl hf hfuel hmem
  refine ⟨s1, r, ?_, hseg, ?_, hfree, hframe, hok⟩
  · unfold List_reverse list_reverse_unsafe
    rw [ovm_inst_listval_obj c s li hcl]
    simp only [hrun]
  · rcases list_seg_head s1 r 0 _ hseg with h | h
    · exact Or.inl h
    · right
      apply hcls
      rw [List.map_reverse, List.mem_reverse, List.map_fst_zip] at h
      · exact h
      · simp [hmem]

/-- C18: for every list `l` (the cells `cells` at `li`), given memory for the
new cells, `l.reverse()` returns a list `r1` of as many cells, each taken
from the free memory (none an object before), holding the items of `l` in
reverse order, and leaves `l` as it was; `r1.reverse()` returns a list with
as many cells as `l` holding the items of `l` in the same order. -/
theorem reverse_reverse (c : ovm_consts) (fuel : Nat) (s : ovm_objs) (li : Nat)
    (cells : List (Nat × ovm_inst))
    (hl : list_at s li cells = true) (hcl : li = 0 ∨ s.inst_of li = c.List)
    (hf : free_ok s) (hfuel : cells.length < fuel) (hmem : 2 * cells.length ≤ s.free.length) :
    ∃ s1 r1 cells1 s2 r2 cells2,
      List_reverse c fuel s (inst_obj li) = .ok (s1, inst_obj r1)
        ∧ list_at s1 r1 cells1 = true
        ∧ cells1.length = cells.length
        ∧ cells1.map Prod.snd = (cells.map Prod.snd).reverse
        ∧ (∀ a ∈ cells1.map Prod.fst, a ∈ s.free ∧ s.body a = none)
        ∧ list_at s1 li cells = true
        ∧ List_reverse c fuel s1 (inst_obj r1) = .ok (s2, inst_obj r2)
        ∧ list_at s2 r2 cells2 = true
        ∧ cells2.length = cells.length
        ∧ cells2.map Prod.snd = cells.map Prod.snd := by
  obtain ⟨s1, r1, hrun1, hat1, hcl1, hfree1, hframe1, hok1⟩ :=
    List_reverse_spec c fuel s li cells hl hcl hf hfuel (by omega)
  have hlen : (List.take cells.length s.free).length = cells.length := by
    rw [List.length_take]; omega
  have hlen1 : (((s.free.take cells.length).zip (cells.map Prod.snd)).reverse).length
      = cells.length := by
    rw [List.length_reverse, List.length_zip, hlen, List.length_map, Nat.min_self]
  have hmem1 : (((s.free.take cells.length).zip (cells.map Prod.snd)).reverse).length
      ≤ s1.free.length := by
    rw [hlen1, hfree1, List.length_drop]; omega
  obtain ⟨s2, r2, hrun2, hat2, _, _, _, _⟩ :=
    List_reverse_spec c fuel s1 r1 _ hat1 hcl1 hok1 (by rw [hlen1]; exact hfuel) hmem1
  have hsnd1 : (((s.free.take cells.length).zip (cells.map Prod.snd)).reverse).map Prod.snd
      = (cells.map Prod.snd).reverse := by
    rw [List.map_reverse, List.map_snd_zip]
    rw [hlen, List.length_map]
  refine ⟨s1, r1, _, s2, r2, _, hrun1, hat1, hlen1, hsnd1, ?_, ?_, hrun2, hat2, ?_, ?_⟩
  · intro a ha
    rw [List.map_reverse, List.mem_reverse, List.map_fst_zip] at ha
    · have := List.mem_of_mem_take ha
      exact ⟨this, hf.2.2 a this⟩
    · rw [hlen, List.length_map]
  · unfold list_at
    rw [list_seg_congr s s1 cells li 0 ?_]
    · exact hl
    · intro a ha
      exact (hframe1 a (fun hc =>
        list_seg_not_free s cells li 0 hl hf a ha (List.mem_of_mem_take hc))).1
  · rw [List.length_reverse, List.length_zip, List.length_take, List.length_map, hlen1]
    omega
  · rw [List.map_reverse, List.map_snd_zip, hsnd1, List.reverse_reverse]
    rw [List.length_map, List.length_take, hlen1]
    omega

/-- Witness of C18: the list `(1, 2, 3)` of the sample store. -/
theorem reverse_reverse_witness :
    (list_at sample_objs 100 [(100, inst_int 1), (101, inst_int 2), (102, inst_int 3)] = true
      ∧ (100 = 0 ∨ sample_objs.inst_of 100 = sample_consts.List)
      ∧ free_ok sample_objs
      ∧ [(100, inst_int 1), (101, inst_int 2), (102, inst_int 3)].length < 4
      ∧ 2 * [(100, inst_int 1), (101, inst_int 2), (102, inst_int 3)].length
          ≤ sample_objs.free.length)
      ∧ ∃ s1 r1 cells1 s2 r2 cells2,
        List_reverse sample_consts 4 sample_objs (inst_obj 100) = .ok (s1, inst_obj r1)
          ∧ list_at s1 r1 cells1 = true
          ∧ cells1.length = [(100, inst_int 1), (101, inst_int 2), (102, inst_int 3)].length
          ∧ cells1.map Prod.snd
              = ([(100, inst_int 1), (101, inst_int 2), (102, inst_int 3)].map Prod.snd).reverse
          ∧ (∀ a ∈ cells1.map Prod.fst, a ∈ sample_objs.free ∧ sample_objs.body a = none)
          ∧ list_at s1 100 [(100, inst_int 1), (101, inst_int 2), (102, inst_int 3)] = true
          ∧ List_reverse sample_consts 4 s1 (inst_obj r1) = .ok (s2, inst_obj r2)
          ∧ list_at s2 r2 cells2 = true
          ∧ cells2.length = [(100, inst_int 1), (101, inst_int 2), (102, inst_int 3)].length
          ∧ cells2.map Prod.snd
              = [(100, inst_int 1), (101, inst_int 2), (102, inst_int 3)].map Prod.snd :=
  ⟨⟨by decide, by decide, by decide, by decide, by decide⟩,
   reverse_reverse sample_consts 4 sample_objs 100 _ (by decide) (by decide) (by decide)
     (by decide) (by decide)⟩

theorem list_seg_split (s : ovm_objs) (l1 l2 : List (Nat × ovm_inst)) :
    ∀ (p q : Nat), list_seg s p (l1 ++ l2) q = true →
      ∃ m, list_seg s p l1 m = true ∧ list_seg s m l2 q = true := by
  induction l1 with
  | nil =>
    intro p q h
    exact ⟨p, by rw [list_seg_nil], h⟩
  | cons cx rest ih =>
    intro p q h
    obtain ⟨a, x⟩ := cx
    rw [List.cons_append, list_seg_cons] at h
    obtain ⟨e, ha, next, hb, hr⟩ := h
    obtain ⟨m, h1, h2⟩ := ih next q hr
    exact ⟨m, by rw [list_seg_cons]; exact ⟨e, ha, next, hb, h1⟩, h2⟩

theorem list_newlc_last_spec (s : ovm_objs) (cells : List (Nat × ovm_inst)) :
    ∀ (fuel li : Nat), list_at s li cells = true → cells ≠ [] → cells.length ≤ fuel →
      ∃ last, list_newlc_last fuel s li = .ok last
        ∧ cells.getLast?.map Prod.fst = some last := by
  induction cells with
  | nil => intro fuel li _ h; exact absurd rfl h
  | cons cx rest ih =>
    intro fuel li hl _ hfuel
    obtain ⟨a, x⟩ := cx
    simp only [List.length_cons] at hfuel
    obtain ⟨fuel, rfl⟩ : ∃ f, fuel = f + 1 := ⟨fuel - 1, by omega⟩
    unfold list_at at hl
    rw [list_seg_cons] at hl
    obtain ⟨rfl, ha0, next, hbody, hrest⟩ := hl
    unfold list_newlc_last
    simp only [hbody]
    cases rest with
    | nil =>
      rw [list_seg_nil] at hrest
      simp only [hrest, if_true]
      exact ⟨li, rfl, rfl⟩
    | cons cy rest2 =>
      have hn : next ≠ 0 := by
        obtain ⟨b, y⟩ := cy
        rw [list_seg_cons] at hrest
        rw [hrest.1]; exact hrest.2.1
      simp only [hn, if_false]
      obtain ⟨last, h1, h2⟩ := ih fuel next hrest (by simp) (by simp at hfuel ⊢; omega)
      exact ⟨last, h1, by rw [← h2]; simp [List.getLast?_cons_cons]⟩

theorem list_newlc_concat_spec (fuel : Nat) (s : ovm_objs) (dst : Nat) (ctxt : Option Nat)
    (built cells : List (Nat × ovm_inst)) (li : Nat)
    (hok : list_newlc_ok s dst ctxt built) (hl : list_at s li cells = true)
    (hne : cells ≠ []) (hdis : ∀ a ∈ built.map Prod.fst, a ∉ cells.map Prod.fst)
    (hfuel : cells.length ≤ fuel) :
    ∃ s1 dst1 last, list_newlc_concat fuel s dst ctxt li = .ok (s1, dst1, some last)
      ∧ list_at s1 dst1 (built ++ cells) = true
      ∧ cells.getLast?.map Prod.fst = some last
      ∧ s1.free = s.free ∧ s1.inst_of = s.inst_of ∧ s1.locked = s.locked
      ∧ ∀ a, a ∉ built.map Prod.fst → s1.body a = s.body a := by
  obtain ⟨hat, hnd, hctxt⟩ := hok
  rcases List.eq_nil_or_concat built with rfl | ⟨pre, ⟨nk, xk⟩, rfl⟩
  · simp only [List.getLast?_nil, Option.map_none'] at hctxt
    subst hctxt
    obtain ⟨last, hlast, hget⟩ := list_newlc_last_spec s cells fuel li hl hne hfuel
    refine ⟨s, li, last, ?_, by simpa using hl, hget, rfl, rfl, rfl, fun _ _ => rfl⟩
    unfold list_newlc_concat list_newlc_store
    simp only [hlast]
  · have hg : (pre.concat (nk, xk)).getLast?.map Prod.fst = some nk := by
      simp
    rw [hg] at hctxt
    subst hctxt
    simp only [List.concat_eq_append] at hat hnd hdis ⊢
    unfold list_at at hat
    obtain ⟨m, hpre, hlastc⟩ := list_seg_split s pre [(nk, xk)] dst 0 hat
    rw [list_seg_cons] at hlastc
    obtain ⟨rfl, hm0, nx, hbody, hnx⟩ := hlastc
    rw [list_seg_nil] at hnx
    subst hnx
    rw [List.map_append, List.nodup_append] at hnd
    have hmpre : m ∉ pre.map Prod.fst := fun hc => hnd.2.2 hc (by simp)
    have hmcells : m ∉ cells.map Prod.fst := hdis m (by simp)
    obtain ⟨s1, hs1⟩ : ∃ s1 : ovm_objs, s1 =
        { s with body := fun p => if p = m then some (.list xk li) else s.body p } := ⟨_, rfl⟩
    have hb1 : ∀ p, p ≠ m → s1.body p = s.body p := by
      intro p hp; rw [hs1]; simp [hp]
    have hbm : s1.body m = some (.list xk li) := by rw [hs1]; simp
    have hl1 : list_at s1 li cells = true := by
      unfold list_at
      rw [list_seg_congr s s1 cells li 0 (fun p hp => hb1 p (fun e => hmcells (e ▸ hp)))]
      exact hl
    obtain ⟨last, hlast, hget⟩ := list_newlc_last_spec s1 cells fuel li hl1 hne hfuel
    refine ⟨s1, dst, last, ?_, ?_, hget, by rw [hs1], by rw [hs1], by rw [hs1], ?_⟩
    · unfold list_newlc_concat list_newlc_store
      simp only [hbody, ← hs1, hlast]
    · unfold list_at
      rw [List.append_assoc]
      apply list_seg_append s1 pre _ dst m 0
      · rw [list_seg_congr s s1 pre dst m (fun p hp => hb1 p (fun e => hmpre (e ▸ hp)))]
        exact hpre
      · rw [List.singleton_append, list_seg_cons]
        exact ⟨rfl, hm0, li, hbm, hl1⟩
    · intro a ha
      apply hb1
      intro e
      apply ha
      rw [e]; simp

theorem list_concat_loop_spec (c : ovm_consts) (cells : List (Nat × ovm_inst)) :
    ∀ (fuel : Nat) (s : ovm_objs) (li1 dst : Nat) (ctxt : Option Nat)
      (built : List (Nat × ovm_inst)),
      list_at s li1 cells = true → free_ok s → cells.length < fuel →
      cells.length ≤ s.free.length → list_newlc_ok s dst ctxt built →
      (∀ a ∈ built.map Prod.fst, a ∉ cells.map Prod.fst) →
      ∃ s1 dst1 ctxt1, list_concat_loop c fuel s li1 dst ctxt = .ok (s1, dst1, ctxt1)
        ∧ list_newlc_ok s1 dst1 ctxt1
            (built ++ (s.free.take cells.length).zip (cells.map Prod.snd))
        ∧ s1.free = s.free.drop cells.length
        ∧ (∀ a, a ∉ s.free.take cells.length →
            s1.inst_of a = s.inst_of a ∧ s1.locked a = s.locked a
              ∧ (a ∉ built.map Prod.fst → s1.body a = s.body a))
        ∧ (∀ a ∈ s.free.take cells.length, s1.inst_of a = c.List)
        ∧ free_ok s1 := by
  induction cells with
  | nil =>
    intro fuel s li1 dst ctxt built hl hf hfuel _ hok _
    obtain ⟨fuel, rfl⟩ : ∃ f, fuel = f + 1 := ⟨fuel - 1, by simp at hfuel; omega⟩
    have e : li1 = 0 := by
      unfold list_at at hl
      rwa [list_seg_nil] at hl
    refine ⟨s, dst, ctxt, ?_, by simpa using hok, by simp,
      fun a _ => ⟨rfl, rfl, fun _ => rfl⟩, by simp, hf⟩
    unfold list_concat_loop
    simp only [e, if_true]
  | cons cx rest ih =>
    intro fuel s li1 dst ctxt built hl hf hfuel hmem hok hdis
    obtain ⟨a, x⟩ := cx
    obtain ⟨fuel, rfl⟩ : ∃ f, fuel = f + 1 := ⟨fuel - 1, by omega⟩
    have hnotc := list_seg_not_free s _ li1 0 hl hf
    unfold list_at at hl
    rw [list_seg_cons] at hl
    obtain ⟨rfl, ha0, next, hbody, hrest⟩ := hl
    simp only [List.length_cons] at hfuel hmem
    obtain ⟨b, F, hF⟩ := free_cons_of_le s rest.length hmem
    have hb0 : b ≠ 0 := fun e => hf.2.1 (by rw [hF, e]; simp)
    have hbF : b ∉ F := by
      have := hf.1; rw [hF, List.nodup_cons] at this; exact this.1
    have hbfree : b ∈ s.free := by rw [hF]; simp
    have hnotb := list_seg_not_free s built dst 0 hok.1 hf
    have hbb : b ∉ built.map Prod.fst := fun hc => hnotb b hc hbfree
    obtain ⟨s1, halloc, hfr1, hbody1, hcl1, _, hframe1⟩ :=
      ovm_obj_alloc_spec s c.List (.list x 0) b F hF
    have hfree1 := free_ok_tail s s1 b F hf hF hfr1 (fun p hp => (hframe1 p hp).1)
    have hok1 : list_newlc_ok s1 dst ctxt built := by
      refine ⟨?_, hok.2.1, hok.2.2⟩
      unfold list_at
      rw [list_seg_congr s s1 built dst 0
        (fun p hp => (hframe1 p (fun e => hbb (e ▸ hp))).1)]
      exact hok.1
    have hw : list_at s1 b [(b, x)] = true := by
      unfold list_at
      rw [list_seg_cons]
      exact ⟨rfl, hb0, 0, hbody1, by rw [list_seg_nil]⟩
    obtain ⟨s2, dst2, last, hcat, hat2, hlast, hfr2, hin2, hlk2, hframe2⟩ :=
      list_newlc_concat_spec (fuel + 1) s1 dst ctxt built [(b, x)] b hok1 hw (by simp)
        (fun p hp hq => by
          simp only [List.map_cons, List.map_nil, List.mem_singleton] at hq
          exact hbb (hq ▸ hp)) (by simp)
    simp only [List.getLast?_singleton, Option.map_some', Option.some.injEq] at hlast
    subst hlast
    have hok2 : list_newlc_ok s2 dst2 (some b) (built ++ [(b, x)]) := by
      refine ⟨hat2, ?_, by simp⟩
      rw [List.map_append, List.nodup_append]
      refine ⟨hok.2.1, by simp, ?_⟩
      intro p hp hq
      simp only [List.map_cons, List.map_nil, List.mem_singleton] at hq
      exact hbb (hq ▸ hp)
    have hrest2 : list_at s2 next rest = true := by
      unfold list_at
      rw [list_seg_congr s s2 rest next 0 ?_]
      · exact hrest
      · intro p hp
        have hpc : p ∈ List.map Prod.fst ((li1, x) :: rest) := by
          simp only [List.map_cons, List.mem_cons]; exact Or.inr hp
        have hpb : p ≠ b := fun e => hnotc p hpc (e ▸ hbfree)
        have hpbuilt : p ∉ built.map Prod.fst := fun hc => hdis p hc hpc
        rw [hframe2 p hpbuilt]
        exact (hframe1 p hpb).1
    have hfree2 : free_ok s2 := by
      refine ⟨by rw [hfr2]; exact hfree1.1, by rw [hfr2]; exact hfree1.2.1, ?_⟩
      intro p hp
      rw [hfr2] at hp
      have hpfree : p ∈ s.free := by rw [hF, ← hfr1]; exact List.mem_cons_of_mem _ hp
      rw [hframe2 p (fun hc => hnotb p hc hpfree)]
      exact hfree1.2.2 p hp
    have hdis2 : ∀ p ∈ (built ++ [(b, x)]).map Prod.fst, p ∉ rest.map Prod.fst := by
      intro p hp hq
      have hqc : p ∈ List.map Prod.fst ((li1, x) :: rest) := by
        simp only [List.map_cons, List.mem_cons]; exact Or.inr hq
      simp only [List.map_append, List.map_cons, List.map_nil, List.mem_append,
        List.mem_singleton] at hp
      rcases hp with hp | hp
      · exact hdis p hp hqc
      · exact hnotc p hqc (hp ▸ hbfree)
    rw [hF] at hmem
    simp only [List.length_cons] at hmem
    obtain ⟨s3, dst3, ctxt3, hrun, hok3, hfr3, hframe3, hcls3, hfree3⟩ :=
      ih fuel s2 next dst2 (some b) (built ++ [(b, x)]) hrest2 hfree2 (by omega)
        (by rw [hfr2, hfr1]; omega) hok2 hdis2
    rw [hfr2, hfr1] at hok3 hfr3 hframe3 hcls3
    refine ⟨s3, dst3, ctxt3, ?_, ?_, ?_, ?_, ?_, hfree3⟩
    · unfold list_concat_loop
      simp only [ha0, if_false, hbody, list_new, halloc, hcat]
      exact hrun
    · rw [hF]
      simp only [List.length_cons, List.take_succ_cons, List.map_cons, List.zip_cons_cons]
      rw [List.append_assoc] at hok3
      exact hok3
    · rw [hfr3, hF]; rfl
    · intro p hp
      rw [hF] at hp
      simp only [List.length_cons, List.take_succ_cons, List.mem_cons, not_or] at hp
      obtain ⟨h1, h2, h3⟩ := hframe3 p hp.2
      obtain ⟨g1, g2, g3⟩ := hframe1 p hp.1
      refine ⟨by rw [h1, hin2, g2], by rw [h2, hlk2, g3], ?_⟩
      intro hpb
      rw [h3 ?_, hframe2 p hpb, g1]
      simp only [List.map_append, List.map_cons, List.map_nil, List.mem_append,
        List.mem_singleton, not_or]
      exact ⟨hpb, hp.1⟩
    · intro p hp
      rw [hF] at hp
      simp only [List.length_cons, List.take_succ_cons, List.mem_cons] at hp
      by_cases hpt : p ∈ List.take rest.length F
      · exact hcls3 p hpt
      · have hpb : p = b := by
          rcases hp with h | h
          · exact h
          · exact absurd h hpt
        rw [(hframe3 p hpt).1, hin2, hpb, hcl1]

theorem take_zip_fst (F : List Nat) (cells : List (Nat × ovm_inst))
    (h : cells.length ≤ F.length) :
    ((F.take cells.length).zip (cells.map Prod.snd)).map Prod.fst = F.take cells.length := by
  rw [List.map_fst_zip]
  rw [List.length_take, List.length_map]
  omega

theorem take_zip_snd (F : List Nat) (cells : List (Nat × ovm_inst))
    (h : cells.length ≤ F.length) :
    ((F.take cells.length).zip (cells.map Prod.snd)).map Prod.snd = cells.map Prod.snd := by
  rw [List.map_snd_zip]
  rw [List.length_take, List.length_map]
  omega

theorem not_mem_take_of_mem_drop (F : List Nat) (n p : Nat) (hn : F.Nodup)
    (hp : p ∈ F.drop n) : p ∉ F.take n := by
  intro hc
  have h := hn
  rw [← List.take_append_drop n F, List.nodup_append] at h
  exact h.2.2 hc hp

theorem list_concat_unsafe_spec (c : ovm_consts) (fuel : Nat) (s : ovm_objs) (li1 li2 : Nat)
    (cells1 cells2 : List (Nat × ovm_inst))
    (h1 : list_at s li1 cells1 = true) (h2 : list_at s li2 cells2 = true) (hne : li2 ≠ 0)
    (hf : free_ok s) (hfuel1 : cells1.length < fuel) (hfuel2 : cells2.length ≤ fuel)
    (hmem : cells1.length ≤ s.free.length) :
    ∃ s1 r, list_concat_unsafe c fuel s li1 li2 = .ok (s1, r)
      ∧ list_at s1 r ((s.free.take cells1.length).zip (cells1.map Prod.snd) ++ cells2) = true
      ∧ s1.free = s.free.drop cells1.length
      ∧ (∀ a, a ∉ s.free.take cells1.length →
          s1.body a = s.body a ∧ s1.inst_of a = s.inst_of a ∧ s1.locked a = s.locked a)
      ∧ (∀ a ∈ s.free.take cells1.length, s1.inst_of a = c.List)
      ∧ free_ok s1 := by
  have hne2 : cells2 ≠ [] := by
    intro e
    rw [e] at h2
    unfold list_at at h2
    rw [list_seg_nil] at h2
    exact hne h2
  obtain ⟨s1, dst1, ctxt1, hrun, hok1, hfr1, hframe1, hcls1, hfree1⟩ :=
    list_concat_loop_spec c cells1 fuel s li1 0 none [] h1 hf hfuel1 hmem
      ⟨by unfold list_at; rw [list_seg_nil], by simp, by simp⟩ (by simp)
  simp only [List.nil_append] at hok1
  have hnot2 := list_seg_not_free s cells2 li2 0 h2 hf
  have h21 : list_at s1 li2 cells2 = true := by
    unfold list_at
    rw [list_seg_congr s s1 cells2 li2 0 ?_]
    · exact h2
    · intro p hp
      exact (hframe1 p (fun hc => hnot2 p hp (List.mem_of_mem_take hc))).2.2 (by simp)
  have hdis : ∀ a ∈ ((s.free.take cells1.length).zip (cells1.map Prod.snd)).map Prod.fst,
      a ∉ cells2.map Prod.fst := by
    intro a ha hc
    rw [take_zip_fst s.free cells1 hmem] at ha
    exact hnot2 a hc (List.mem_of_mem_take ha)
  obtain ⟨s2, dst2, last, hcat, hat2, _, hfr2, hin2, hlk2, hframe2⟩ :=
    list_newlc_concat_spec fuel s1 dst1 ctxt1 _ cells2 li2 hok1 h21 hne2 hdis hfuel2
  rw [take_zip_fst s.free cells1 hmem] at hframe2
  refine ⟨s2, dst2, ?_, hat2, by rw [hfr2, hfr1], ?_, ?_, ?_⟩
  · unfold list_concat_unsafe
    simp only [hne, if_false, hrun, hcat]
  · intro a ha
    obtain ⟨g1, g2, g3⟩ := hframe1 a ha
    exact ⟨by rw [hframe2 a ha]; exact g3 (by simp), by rw [hin2, g1], by rw [hlk2, g2]⟩
  · intro a ha
    rw [hin2]; exact hcls1 a ha
  · refine ⟨by rw [hfr2]; exact hfree1.1, by rw [hfr2]; exact hfree1.2.1, ?_⟩
    intro p hp
    rw [hfr2] at hp
    have hpt : p ∉ s.free.take cells1.length := by
      rw [hfr1] at hp
      exact not_mem_take_of_mem_drop s.free _ p hf.1 hp
    rw [hframe2 p hpt]
    exact hfree1.2.2 p hp

theorem List_concat_spec (c : ovm_consts) (fuel : Nat) (s : ovm_objs) (li1 li2 : Nat)
    (cells1 cells2 : List (Nat × ovm_inst))
    (h1 : list_at s li1 cells1 = true) (h2 : list_at s li2 cells2 = true)
    (hcl1 : li1 = 0 ∨ s.inst_of li1 = c.List) (hcl2 : li2 = 0 ∨ s.inst_of li2 = c.List)
    (hf : free_ok s) (hfuel1 : cells1.length < fuel) (hfuel2 : cells2.length ≤ fuel)
    (hmem : cells1.length ≤ s.free.length) :
    ∃ s1 r cells, List_concat c fuel s (inst_obj li1) (inst_obj li2) = .ok (s1, inst_obj r)
      ∧ list_at s1 r cells = true
      ∧ cells.map Prod.snd = cells1.map Prod.snd ++ cells2.map Prod.snd
      ∧ (r = 0 ∨ s1.inst_of r = c.List)
      ∧ s.free.length ≤ s1.free.length + cells1.length
      ∧ (∀ a, s.body a ≠ none →
          s1.body a = s.body a ∧ s1.inst_of a = s.inst_of a ∧ s1.locked a = s.locked a)
      ∧ free_ok s1 := by
  by_cases hne : li2 = 0
  · have e2 : cells2 = [] := by
      cases cells2 with
      | nil => rfl
      | cons cx rest =>
        obtain ⟨a, x⟩ := cx
        unfold list_at at h2
        rw [list_seg_cons] at h2
        exact absurd (h2.1 ▸ hne) h2.2.1
    refine ⟨s, li1, cells1, ?_, h1, by rw [e2]; simp, hcl1, by omega,
      fun a _ => ⟨rfl, rfl, rfl⟩, hf⟩
    unfold List_concat
    rw [ovm_inst_listval_obj c s li1 hcl1, ovm_inst_listval_obj c s li2 hcl2]
    simp only [ list_concat_unsafe, hne, if_true]
  · obtain ⟨s1, r, hrun, hat, hfr, hframe, hcls, hfree⟩ :=
      list_concat_unsafe_spec c fuel s li1 li2 cells1 cells2 h1 h2 hne hf hfuel1 hfuel2 hmem
    refine ⟨s1, r, _, ?_, hat, ?_, ?_, ?_, ?_, hfree⟩
    · unfold List_concat
      rw [ovm_inst_listval_obj c s li1 hcl1, ovm_inst_listval_obj c s li2 hcl2]
      simp only [hrun]
    · rw [List.map_append, take_zip_snd s.free cells1 hmem]
    · unfold list_at at hat
      obtain ⟨m, hseg1, hseg2⟩ := list_seg_split s1 _ cells2 r 0 hat
      rcases list_seg_head s1 r m _ hseg1 with h | h
      · right
        have hm : m = li2 := by
          cases cells2 with
          | nil =>
            unfold list_at at h2
            rw [list_seg_nil] at h2
            exact absurd h2 hne
          | cons cx rest =>
            obtain ⟨a, x⟩ := cx
            unfold list_at at h2
            rw [list_seg_cons] at h2 hseg2
            rw [hseg2.1, h2.1]
        rw [h, hm]
        have hnf : li2 ∉ s.free.take cells1.length := by
          intro hc
          have hb := hf.2.2 li2 (List.mem_of_mem_take hc)
          cases cells2 with
          | nil =>
            unfold list_at at h2
            rw [list_seg_nil] at h2
            exact absurd h2 hne
          | cons cx rest =>
            obtain ⟨a, x⟩ := cx
            unfold list_at at h2
            rw [list_seg_cons] at h2
            obtain ⟨e, _, next, hbd, _⟩ := h2
            rw [e, hbd] at hb
            exact absurd hb (by simp)
        rw [(hframe li2 hnf).2.1]
        rcases hcl2 with h0 | h0
        · exact absurd h0 hne
        · exact h0
      · right
        rw [take_zip_fst s.free cells1 hmem] at h
        exact hcls r h
    · rw [hfr, List.length_drop]; omega
    · intro a ha
      exact hframe a (fun hc => ha (hf.2.2 a (List.mem_of_mem_take hc)))

theorem list_at_frame (s s1 : ovm_objs) (p : Nat) (cells : List (Nat × ovm_inst))
    (h : list_at s p cells = true) (hframe : ∀ a, s.body a ≠ none → s1.body a = s.body a) :
    list_at s1 p cells = true := by
  unfold list_at at h ⊢
  rw [list_seg_congr s s1 cells p 0 (fun a ha => hframe a (list_seg_body s cells p 0 h a ha).2)]
  exact h

theorem list_class_frame (c : ovm_consts) (s s1 : ovm_objs) (p : Nat)
    (cells : List (Nat × ovm_inst)) (h : list_at s p cells = true)
    (hcl : p = 0 ∨ s.inst_of p = c.List)
    (hframe : ∀ a, s.body a ≠ none → s1.inst_of a = s.inst_of a) :
    p = 0 ∨ s1.inst_of p = c.List := by
  rcases hcl with h0 | h0
  · exact Or.inl h0
  · unfold list_at at h
    rcases list_seg_head s p 0 cells h with e | e
    · exact Or.inl e
    · right
      rw [hframe p (list_seg_body s cells p 0 h p e).2]
      exact h0

/-- C19: for all lists `a`, `b` and `c`, given memory for the new cells,
`a.concat(b).concat(c)` and `a.concat(b.concat(c))` both return a list, and
the two hold the same items in the same order: those of `a`, then those of
`b`, then those of `c`. -/
theorem concat_assoc (c : ovm_consts) (fuel : Nat) (s : ovm_objs) (la lb lc : Nat)
    (cellsA cellsB cellsC : List (Nat × ovm_inst))
    (hA : list_at s la cellsA = true) (hB : list_at s lb cellsB = true)
    (hC : list_at s lc cellsC = true)
    (hclA : la = 0 ∨ s.inst_of la = c.List) (hclB : lb = 0 ∨ s.inst_of lb = c.List)
    (hclC : lc = 0 ∨ s.inst_of lc = c.List)
    (hf : free_ok s) (hfuel : cellsA.length + cellsB.length + cellsC.length < fuel)
    (hmem : 2 * cellsA.length + cellsB.length ≤ s.free.length) :
    ∃ s1 ab s2 r1 cells1 s3 bc s4 r2 cells2,
      List_concat c fuel s (inst_obj la) (inst_obj lb) = .ok (s1, inst_obj ab)
        ∧ List_concat c fuel s1 (inst_obj ab) (inst_obj lc) = .ok (s2, inst_obj r1)
        ∧ list_at s2 r1 cells1 = true
        ∧ List_concat c fuel s (inst_obj lb) (inst_obj lc) = .ok (s3, inst_obj bc)
        ∧ List_concat c fuel s3 (inst_obj la) (inst_obj bc) = .ok (s4, inst_obj r2)
        ∧ list_at s4 r2 cells2 = true
        ∧ cells1.map Prod.snd = cells2.map Prod.snd
        ∧ cells1.map Prod.snd
            = cellsA.map Prod.snd ++ cellsB.map Prod.snd ++ cellsC.map Prod.snd := by
  obtain ⟨s1, ab, cellsAB, hrun1, hatAB, hsndAB, hclAB, hfr1, hframe1, hfree1⟩ :=
    List_concat_spec c fuel s la lb cellsA cellsB hA hB hclA hclB hf (by omega) (by omega)
      (by omega)
  have hlenAB : cellsAB.length = cellsA.length + cellsB.length := by
    have := congrArg List.length hsndAB
    simpa using this
  have hC1 := list_at_frame s s1 lc cellsC hC (fun a ha => (hframe1 a ha).1)
  have hclC1 := list_class_frame c s s1 lc cellsC hC hclC (fun a ha => (hframe1 a ha).2.1)
  obtain ⟨s2, r1, cells1, hrun2, hat1, hsnd1, _, _, _, _⟩ :=
    List_concat_spec c fuel s1 ab lc cellsAB cellsC hatAB hC1 hclAB hclC1 hfree1 (by omega)
      (by omega) (by omega)
  obtain ⟨s3, bc, cellsBC, hrun3, hatBC, hsndBC, hclBC, hfr3, hframe3, hfree3⟩ :=
    List_concat_spec c fuel s lb lc cellsB cellsC hB hC hclB hclC hf (by omega) (by omega)
      (by omega)
  have hlenBC : cellsBC.length = cellsB.length + cellsC.length := by
    have := congrArg List.length hsndBC
    simpa using this
  have hA3 := list_at_frame s s3 la cellsA hA (fun a ha => (hframe3 a ha).1)
  have hclA3 := list_class_frame c s s3 la cellsA hA hclA (fun a ha => (hframe3 a ha).2.1)
  obtain ⟨s4, r2, cells2, hrun4, hat2, hsnd2, _, _, _, _⟩ :=
    List_concat_spec c fuel s3 la bc cellsA cellsBC hA3 hatBC hclA3 hclBC hfree3 (by omega)
      (by omega) (by omega)
  refine ⟨s1, ab, s2, r1, cells1, s3, bc, s4, r2, cells2, hrun1, hrun2, hat1, hrun3, hrun4,
    hat2, ?_, ?_⟩
  · rw [hsnd1, hsnd2, hsndAB, hsndBC, List.append_assoc]
  · rw [hsnd1, hsndAB]

/-- Witness of C19: the lists `(1, 2, 3)`, `(4)` and `(1, 2, 3)` again of the
sample store. -/
theorem concat_assoc_witness :
    (list_at sample_objs 100 [(100, inst_int 1), (101, inst_int 2), (102, inst_int 3)] = true
      ∧ list_at sample_objs 103 [(103, inst_int 4)] = true
      ∧ (100 = 0 ∨ sample_objs.inst_of 100 = sample_consts.List)
      ∧ (103 = 0 ∨ sample_objs.inst_of 103 = sample_consts.List)
      ∧ free_ok sample_objs
      ∧ [(100, inst_int 1), (101, inst_int 2), (102, inst_int 3)].length
          + [(103, inst_int 4)].length
          + [(100, inst_int 1), (101, inst_int 2), (102, inst_int 3)].length < 8
      ∧ 2 * [(100, inst_int 1), (101, inst_int 2), (102, inst_int 3)].length
          + [(103, inst_int 4)].length ≤ sample_objs.free.length)
      ∧ ∃ s1 ab s2 r1 cells1 s3 bc s4 r2 cells2,
        List_concat sample_consts 8 sample_objs (inst_obj 100) (inst_obj 103)
            = .ok (s1, inst_obj ab)
          ∧ List_concat sample_consts 8 s1 (inst_obj ab) (inst_obj 100) = .ok (s2, inst_obj r1)
          ∧ list_at s2 r1 cells1 = true
          ∧ List_concat sample_consts 8 sample_objs (inst_obj 103) (inst_obj 100)
              = .ok (s3, inst_obj bc)
          ∧ List_concat sample_consts 8 s3 (inst_obj 100) (inst_obj bc) = .ok (s4, inst_obj r2)
          ∧ list_at s4 r2 cells2 = true
          ∧ cells1.map Prod.snd = cells2.map Prod.snd
          ∧ cells1.map Prod.snd
              = [(100, inst_int 1), (101, inst_int 2), (102, inst_int 3)].map Prod.snd
                ++ [(103, inst_int 4)].map Prod.snd
                ++ [(100, inst_int 1), (101, inst_int 2), (102, inst_int 3)].map Prod.snd :=
  ⟨⟨by decide, by decide, by decide, by decide, by decide, by decide, by decide⟩,
   concat_assoc sample_consts 8 sample_objs 100 103 100 _ _ _ (by decide) (by decide)
     (by decide) (by decide) (by decide) (by decide) (by decide) (by decide) (by decide)⟩

/-- C20 (amended): for all lists `a` (of `m` cells) and `b`, `b` not empty,
given memory for `m` cells, `a.concat(b)` returns a list that consists of
`m` cells taken from the free memory (none an object before, so none a cell
of `a`), holding the items of `a` in order, followed by the very cells of
`b`; no object that existed before is changed, so `a` and `b` are as they
were.  For the empty list `b`, `a.concat(b)` returns `a` itself and
allocates nothing. -/
theorem concat_cells (c : ovm_consts) (fuel : Nat) (s : ovm_objs) (la lb : Nat)
    (cellsA cellsB : List (Nat × ovm_inst))
    (hA : list_at s la cellsA = true) (hB : list_at s lb cellsB = true)
    (hclA : la = 0 ∨ s.inst_of la = c.List) (hclB : lb = 0 ∨ s.inst_of lb = c.List)
    (hne : lb ≠ 0) (hf : free_ok s) (hfuel1 : cellsA.length < fuel)
    (hfuel2 : cellsB.length ≤ fuel) (hmem : cellsA.length ≤ s.free.length) :
    (∃ s1 r new, List_concat c fuel s (inst_obj la) (inst_obj lb) = .ok (s1, inst_obj r)
        ∧ list_at s1 r (new ++ cellsB) = true
        ∧ new.length = cellsA.length
        ∧ new.map Prod.snd = cellsA.map Prod.snd
        ∧ (∀ a ∈ new.map Prod.fst, a ∈ s.free ∧ s.body a = none ∧ a ∉ cellsA.map Prod.fst)
        ∧ (∀ a, s.body a ≠ none → s1.body a = s.body a)
        ∧ list_at s1 la cellsA = true ∧ list_at s1 lb cellsB = true)
      ∧ List_concat c fuel s (inst_obj la) (inst_obj 0) = .ok (s, inst_obj la) := by
  constructor
  · obtain ⟨s1, r, hrun, hat, _, hframe, _, _⟩ :=
      list_concat_unsafe_spec c fuel s la lb cellsA cellsB hA hB hne hf hfuel1 hfuel2 hmem
    have hfr : ∀ a, s.body a ≠ none → s1.body a = s.body a := fun a ha =>
      (hframe a (fun hc => ha (hf.2.2 a (List.mem_of_mem_take hc)))).1
    refine ⟨s1, r, _, ?_, hat, ?_, take_zip_snd s.free cellsA hmem, ?_, hfr,
      list_at_frame s s1 la cellsA hA hfr, list_at_frame s s1 lb cellsB hB hfr⟩
    · unfold List_concat
      rw [ovm_inst_listval_obj c s la hclA, ovm_inst_listval_obj c s lb hclB]
      simp only [hrun]
    · rw [List.length_zip, List.length_take, List.length_map]
      omega
    · intro a ha
      rw [take_zip_fst s.free cellsA hmem] at ha
      have hm := List.mem_of_mem_take ha
      exact ⟨hm, hf.2.2 a hm, fun hc => list_seg_not_free s cellsA la 0 hA hf a hc hm⟩
  · unfold List_concat
    rw [ovm_inst_listval_obj c s la hclA, ovm_inst_listval_obj c s 0 (Or.inl rfl)]
    simp only [ list_concat_unsafe, if_true]

/-- Witness of C20: `(1, 2, 3).concat((4))` in the sample store. -/
theorem concat_cells_witness :
    (list_at sample_objs 100 [(100, inst_int 1), (101, inst_int 2), (102, inst_int 3)] = true
      ∧ list_at sample_objs 103 [(103, inst_int 4)] = true
      ∧ (100 = 0 ∨ sample_objs.inst_of 100 = sample_consts.List)
      ∧ (103 = 0 ∨ sample_objs.inst_of 103 = sample_consts.List)
      ∧ 103 ≠ 0 ∧ free_ok sample_objs
      ∧ [(100, inst_int 1), (101, inst_int 2), (102, inst_int 3)].length < 4
      ∧ [(103, inst_int 4)].length ≤ 4
      ∧ [(100, inst_int 1), (101, inst_int 2), (102, inst_int 3)].length
          ≤ sample_objs.free.length)
      ∧ ((∃ s1 r new,
            List_concat sample_consts 4 sample_objs (inst_obj 100) (inst_obj 103)
                = .ok (s1, inst_obj r)
              ∧ list_at s1 r (new ++ [(103, inst_int 4)]) = true
              ∧ new.length = [(100, inst_int 1), (101, inst_int 2), (102, inst_int 3)].length
              ∧ new.map Prod.snd
                  = [(100, inst_int 1), (101, inst_int 2), (102, inst_int 3)].map Prod.snd
              ∧ (∀ a ∈ new.map Prod.fst, a ∈ sample_objs.free ∧ sample_objs.body a = none
                  ∧ a ∉ [(100, inst_int 1), (101, inst_int 2), (102, inst_int 3)].map Prod.fst)
              ∧ (∀ a, sample_objs.body a ≠ none → s1.body a = sample_objs.body a)
              ∧ list_at s1 100 [(100, inst_int 1), (101, inst_int 2), (102, inst_int 3)] = true
              ∧ list_at s1 103 [(103, inst_int 4)] = true)
          ∧ List_concat sample_consts 4 sample_objs (inst_obj 100) (inst_obj 0)
              = .ok (sample_objs, inst_obj 100)) :=
  ⟨⟨by decide, by decide, by decide, by decide, by decide, by decide, by decide, by decide,
     by decide⟩,
   concat_cells sample_consts 4 sample_objs 100 103 _ _ (by decide) (by decide) (by decide)
     (by decide) (by decide) (by decide) (by decide) (by decide) (by decide)⟩

/-- Counterexample to C20 as stated: for `a = (1, 2, 3)` and the empty list
`b`, `a.concat(b)` is the list at the first cell of `a`, an object that
existed before and no address of the free memory, and the store is as it
was: no cell has been allocated. -/
theorem concat_cells_counterexample :
    list_at sample_objs 100 [(100, inst_int 1), (101, inst_int 2), (102, inst_int 3)] = true
      ∧ list_at sample_objs 0 [] = true
      ∧ List_concat sample_consts 4 sample_objs (inst_obj 100) (inst_obj 0)
          = .ok (sample_objs, inst_obj 100)
      ∧ 100 ∉ sample_objs.free ∧ sample_objs.body 100 ≠ none := by
  refine ⟨by decide, by decide, rfl, by decide, by decide⟩

/-! ### Dictionaries as objects -/

theorem list_seg_is_list (s : ovm_objs) (cells : List (Nat × ovm_inst)) :
    ∀ (p q : Nat), list_seg s p cells q = true →
      ∀ a ∈ cells.map Prod.fst, ∃ item next, s.body a = some (.list item next) := by
  induction cells with
  | nil => intro p q _ a ha; simp at ha
  | cons cx rest ih =>
    intro p q h a ha
    obtain ⟨a0, x⟩ := cx
    rw [list_seg_cons] at h
    obtain ⟨_, _, next, hb, hr⟩ := h
    simp only [List.map_cons, List.mem_cons] at ha
    rcases ha with rfl | ha
    · exact ⟨x, next, hb⟩
    · exact ih next q hr a ha

theorem list_seg_unique (s : ovm_objs) (l1 : List (Nat × ovm_inst)) :
    ∀ (l2 : List (Nat × ovm_inst)) (p : Nat), list_seg s p l1 0 = true →
      list_seg s p l2 0 = true → l1 = l2 := by
  induction l1 with
  | nil =>
    intro l2 p h1 h2
    rw [list_seg_nil] at h1
    cases l2 with
    | nil => rfl
    | cons cx rest =>
      obtain ⟨a, x⟩ := cx
      rw [list_seg_cons] at h2
      exact absurd (h2.1 ▸ h1) h2.2.1
  | cons cx rest ih =>
    intro l2 p h1 h2
    obtain ⟨a, x⟩ := cx
    rw [list_seg_cons] at h1
    obtain ⟨e1, ha, next, hb, hr⟩ := h1
    cases l2 with
    | nil =>
      rw [list_seg_nil] at h2
      exact absurd (e1 ▸ h2) ha
    | cons cy rest2 =>
      obtain ⟨b, y⟩ := cy
      rw [list_seg_cons] at h2
      obtain ⟨e2, _, next2, hb2, hr2⟩ := h2
      have hab : a = b := e1.symm.trans e2
      subst hab
      rw [hb] at hb2
      simp only [Option.some.injEq, ovm_body.list.injEq] at hb2
      obtain ⟨hx, hn⟩ := hb2
      subst hx
      subst hn
      rw [ih rest2 next hr hr2]

theorem list_at_nodup (s : ovm_objs) (cells : List (Nat × ovm_inst)) :
    ∀ (p : Nat), list_at s p cells = true → (cells.map Prod.fst).Nodup := by
  induction cells with
  | nil => intro p _; simp
  | cons cx rest ih =>
    intro p h
    obtain ⟨a, x⟩ := cx
    unfold list_at at h
    have h0 := h
    rw [list_seg_cons] at h
    obtain ⟨e1, ha, next, hb, hr⟩ := h
    rw [List.map_cons, List.nodup_cons]
    refine ⟨?_, ih next hr⟩
    intro hmem
    rw [List.mem_map] at hmem
    obtain ⟨⟨a2, x2⟩, hin, rfl⟩ := hmem
    obtain ⟨r1, r2, hsplit⟩ := List.append_of_mem hin
    rw [hsplit] at hr
    obtain ⟨m, _, hs2⟩ := list_seg_split s r1 ((a2, x2) :: r2) next 0 hr
    have hm : m = a2 := by
      rw [list_seg_cons] at hs2
      exact hs2.1
    rw [hm] at hs2
    rw [e1] at h0
    have := list_seg_unique s _ _ a2 h0 hs2
    have hlen := congrArg List.length this
    rw [hsplit] at hlen
    simp at hlen
    omega

theorem bucket_at_cons (s : ovm_objs) (head : Nat) (e : dict_entry) (es : List dict_entry) :
    bucket_at s head (e :: es) ↔
      head = e.cell ∧ e.cell ≠ 0 ∧ s.body e.item.objval = some (.pair e.first e.second)
        ∧ ∃ next, s.body e.cell = some (.list e.item next) ∧ bucket_at s next es := by
  unfold bucket_at list_at
  rw [List.map_cons, list_seg_cons]
  constructor
  · rintro ⟨⟨h1, h2, next, hb, hr⟩, hp⟩
    exact ⟨h1, h2, hp e (by simp), next, hb, hr, fun e1 he1 => hp e1 (by simp [he1])⟩
  · rintro ⟨h1, h2, hpe, next, hb, hr, hp⟩
    refine ⟨⟨h1, h2, next, hb, hr⟩, ?_⟩
    intro e1 he1
    simp only [List.mem_cons] at he1
    rcases he1 with rfl | he1
    · exact hpe
    · exact hp e1 he1

theorem obj_dict_find_loop_spec (km : key_methods) (key : ovm_inst) (s : ovm_objs)
    (e : dict_entry) (post : List dict_entry) (pre : List dict_entry) :
    ∀ (fuel : Nat) (p : obj_slot) (li : Nat), slot_read s p = .ok li →
      bucket_at s li (pre ++ e :: post) → (∀ e1 ∈ pre, km.equal key e1.first = false) →
      km.equal key e.first = true → pre.length < fuel →
      obj_dict_find_loop km key fuel s p
        = .ok (some (match pre.getLast? with
                     | none => p
                     | some l => .next l.cell)) := by
  induction pre with
  | nil =>
    intro fuel p li hread hb _ he hfuel
    obtain ⟨fuel, rfl⟩ : ∃ f, fuel = f + 1 := ⟨fuel - 1, by simp at hfuel; omega⟩
    rw [List.nil_append, bucket_at_cons] at hb
    obtain ⟨h1, h2, hp, next, hbody, _⟩ := hb
    unfold obj_dict_find_loop
    simp only [hread, h1, h2, if_false, hbody, hp, he, if_true, List.getLast?_nil]
  | cons e0 pre1 ih =>
    intro fuel p li hread hb hpre he hfuel
    obtain ⟨fuel, rfl⟩ : ∃ f, fuel = f + 1 := ⟨fuel - 1, by simp at hfuel; omega⟩
    rw [List.cons_append, bucket_at_cons] at hb
    obtain ⟨h1, h2, hp, next, hbody, hrest⟩ := hb
    have h0 : km.equal key e0.first = false := hpre e0 (by simp)
    have hread1 : slot_read s (.next e0.cell) = .ok next := by
      unfold slot_read
      simp only [hbody]
    have hrec := ih fuel (.next e0.cell) next hread1 hrest
      (fun e1 he1 => hpre e1 (by simp [he1])) he (by simp at hfuel; omega)
    unfold obj_dict_find_loop
    simp only [hread, h1, h2, if_false, hbody, hp, h0, Bool.false_eq_true]
    rw [hrec]
    cases pre1 with
    | nil => simp
    | cons e1 pre2 =>
      rw [List.getLast?_cons_cons, List.getLast?_eq_getLast _ (List.cons_ne_nil e1 pre2)]

theorem bucket_at_body (s : ovm_objs) (head : Nat) (es : List dict_entry)
    (h : bucket_at s head es) :
    ∀ e ∈ es, (∃ next, s.body e.cell = some (.list e.item next))
      ∧ s.body e.item.objval = some (.pair e.first e.second) := by
  induction es generalizing head with
  | nil => intro e he; simp at he
  | cons e0 rest ih =>
    intro e he
    rw [bucket_at_cons] at h
    obtain ⟨_, _, hp, next, hb, hr⟩ := h
    simp only [List.mem_cons] at he
    rcases he with rfl | he
    · exact ⟨⟨next, hb⟩, hp⟩
    · exact ih next hr e he

theorem bucket_at_congr (s s1 : ovm_objs) (head : Nat) (es : List dict_entry)
    (h : bucket_at s head es)
    (hc : ∀ e ∈ es, s1.body e.cell = s.body e.cell
      ∧ s1.body e.item.objval = s.body e.item.objval) : bucket_at s1 head es := by
  unfold bucket_at at h ⊢
  refine ⟨?_, fun e he => by rw [(hc e he).2]; exact h.2 e he⟩
  unfold list_at at h ⊢
  rw [list_seg_congr s s1 _ head 0 ?_]
  · exact h.1
  · intro a ha
    rw [List.mem_map] at ha
    obtain ⟨⟨a1, x1⟩, hin, rfl⟩ := ha
    rw [List.mem_map] at hin
    obtain ⟨e, he, heq⟩ := hin
    simp only [Prod.mk.injEq] at heq
    rw [← heq.1]
    exact (hc e he).1

theorem bucket_at_append (s : ovm_objs) (head : Nat) (es1 es2 : List dict_entry) :
    bucket_at s head (es1 ++ es2) ↔
      ∃ m, list_seg s head (es1.map (fun e => (e.cell, e.item))) m = true
        ∧ (∀ e ∈ es1, s.body e.item.objval = some (.pair e.first e.second))
        ∧ bucket_at s m es2 := by
  unfold bucket_at list_at
  rw [List.map_append]
  constructor
  · rintro ⟨hl, hp⟩
    obtain ⟨m, h1, h2⟩ := list_seg_split s _ _ head 0 hl
    exact ⟨m, h1, fun e he => hp e (by simp [he]), h2, fun e he => hp e (by simp [he])⟩
  · rintro ⟨m, h1, hp1, h2, hp2⟩
    refine ⟨list_seg_append s _ _ head m 0 h1 h2, ?_⟩
    intro e he
    rw [List.mem_append] at he
    rcases he with he | he
    · exact hp1 e he
    · exact hp2 e he

theorem bucket_at_nodup (s : ovm_objs) (head : Nat) (es : List dict_entry)
    (h : bucket_at s head es) : (es.map (fun e => e.cell)).Nodup := by
  have := list_at_nodup s _ head h.1
  rw [List.map_map] at this
  exact this

theorem obj_dict_at_put_unlink_spec (s : ovm_objs) (base size cnt : Nat) (data : List Nat)
    (b head : Nat) (key1 : ovm_inst) (pre post : List dict_entry) (e : dict_entry)
    (hset : s.body base = some (.set size cnt data)) (hhead : data.get? b = some head)
    (hb : bucket_at s head (pre ++ e :: post))
    (hconst : ∀ obj ks, key1.val = .strval obj ks → is_const_name ks.size ks.data = false) :
    ∃ s1 data1 head1,
      obj_dict_at_put_unlink s base key1
          (some (match pre.getLast? with
                 | none => .bucket base b
                 | some l => .next l.cell)) = .ok s1
        ∧ s1.body base = some (.set size cnt data1) ∧ data1.get? b = some head1
        ∧ (∀ x, data1.set b x = data.set b x)
        ∧ bucket_at s1 head1 (pre ++ post)
        ∧ s1.free = s.free ∧ s1.inst_of = s.inst_of ∧ s1.locked = s.locked
        ∧ ∀ a, a ≠ base → (∀ e1 ∈ pre, a ≠ e1.cell) → s1.body a = s.body a := by
  have hc : (match key1.val with
      | .strval _ ks => is_const_name ks.size ks.data
      | _ => false) = false := by
    cases hv : key1.val with
    | strval obj ks => exact hconst obj ks hv
    | _ => rfl
  have hbodies := bucket_at_body s head _ hb
  have hblt : b < data.length := by
    rw [List.get?_eq_some] at hhead
    exact hhead.1
  rcases List.eq_nil_or_concat pre with rfl | ⟨pre0, l, rfl⟩
  · rw [List.nil_append, bucket_at_cons] at hb
    obtain ⟨h1, h2, hp, next, hbody, hrest⟩ := hb
    have hread : slot_read s (.bucket base b) = .ok head := by
      unfold slot_read
      simp only [hset, hhead]
    obtain ⟨s1, hs1⟩ : ∃ s1 : ovm_objs, s1 =
        { s with body := fun p =>
            if p = base then some (ovm_body.set size cnt (data.set b next)) else s.body p } :=
      ⟨_, rfl⟩
    have hb1 : ∀ a, a ≠ base → s1.body a = s.body a := by
      intro a ha; rw [hs1]; simp [ha]
    refine ⟨s1, data.set b next, next, ?_, by rw [hs1]; simp, ?_, ?_, ?_, by rw [hs1],
      by rw [hs1], by rw [hs1], fun a ha _ => hb1 a ha⟩
    · unfold obj_dict_at_put_unlink
      simp only [List.getLast?_nil, hc, Bool.false_eq_true, if_false, hread, h1 ▸ hbody]
      unfold slot_write
      simp only [hset, hblt, if_true, ← hs1]
    · rw [List.get?_eq_getElem?, List.getElem?_set_self hblt]
    · intro x
      rw [List.set_set]
    · rw [List.nil_append]
      apply bucket_at_congr s s1 next post hrest
      intro e1 he1
      obtain ⟨⟨n1, g1⟩, g2⟩ := hbodies e1 (by simp [he1])
      refine ⟨hb1 _ ?_, hb1 _ ?_⟩
      · intro hc1; rw [hc1, hset] at g1; simp at g1
      · intro hc1; rw [hc1, hset] at g2; simp at g2
  · have hg : (pre0.concat l).getLast? = some l := by simp
    simp only [hg]
    simp only [List.concat_eq_append] at hb hbodies ⊢
    have hnd := bucket_at_nodup s head _ hb
    rw [List.append_assoc, bucket_at_append] at hb
    obtain ⟨m, hseg0, hp0, hrest⟩ := hb
    rw [List.singleton_append, bucket_at_cons] at hrest
    obtain ⟨hm, hl0, hpl, n1, hbl, hrest1⟩ := hrest
    rw [bucket_at_cons] at hrest1
    obtain ⟨hn1, he0, hpe, next, hbe, hpost⟩ := hrest1
    subst hm
    subst hn1
    have hread : slot_read s (.next l.cell) = .ok e.cell := by
      unfold slot_read
      simp only [hbl]
    obtain ⟨s1, hs1⟩ : ∃ s1 : ovm_objs, s1 =
        { s with body := fun p =>
            if p = l.cell then some (ovm_body.list l.item next) else s.body p } := ⟨_, rfl⟩
    have hb1 : ∀ a, a ≠ l.cell → s1.body a = s.body a := by
      intro a ha; rw [hs1]; simp [ha]
    have hbl1 : s1.body l.cell = some (.list l.item next) := by rw [hs1]; simp
    have hbase : base ≠ l.cell := by
      intro hc1; rw [hc1, hbl] at hset; simp at hset
    simp only [List.map_append, List.map_cons, List.map_nil, List.append_assoc,
      List.singleton_append] at hnd
    rw [List.nodup_append] at hnd
    obtain ⟨_, hnd2, hdis⟩ := hnd
    rw [List.nodup_cons] at hnd2
    have hl_pre0 : ∀ e1 ∈ pre0, e1.cell ≠ l.cell := by
      intro e1 he1 hc1
      exact hdis (List.mem_map_of_mem _ he1) (by rw [hc1]; simp)
    have hl_post : ∀ e1 ∈ post, e1.cell ≠ l.cell := by
      intro e1 he1 hc1
      apply hnd2.1
      rw [← hc1]
      simp only [List.mem_cons]
      exact Or.inr (List.mem_map_of_mem _ he1)
    have hpair_ne : ∀ e1 ∈ pre0 ++ [l] ++ e :: post, e1.item.objval ≠ l.cell := by
      intro e1 he1 hc1
      have := (hbodies e1 he1).2
      rw [hc1, hbl] at this
      simp at this
    refine ⟨s1, data, head, ?_, by rw [hb1 base hbase]; exact hset, hhead, fun _ => rfl, ?_,
      by rw [hs1], by rw [hs1], by rw [hs1], ?_⟩
    · unfold obj_dict_at_put_unlink
      simp only [hc, Bool.false_eq_true, if_false, hread, hbe]
      unfold slot_write
      simp only [hbl, ← hs1]
    · rw [List.append_assoc, bucket_at_append]
      refine ⟨l.cell, ?_, fun e1 he1 => by
        rw [hb1 _ (hpair_ne e1 (by simp [he1]))]; exact hp0 e1 he1, ?_⟩
      · rw [list_seg_congr s s1 _ head l.cell ?_]
        · exact hseg0
        · intro a ha
          rw [List.map_map, List.mem_map] at ha
          obtain ⟨e1, he1, rfl⟩ := ha
          exact hb1 _ (hl_pre0 e1 he1)
      · rw [List.singleton_append, bucket_at_cons]
        refine ⟨rfl, hl0, ?_, next, hbl1, ?_⟩
        · rw [hb1 _ (hpair_ne l (by simp))]; exact hpl
        · apply bucket_at_congr s s1 next post hpost
          intro e1 he1
          exact ⟨hb1 _ (hl_post e1 he1), hb1 _ (hpair_ne e1 (by simp [he1]))⟩
    · intro a _ ha
      exact hb1 a (ha l (by simp))

/-- C11: for a Dictionary (at `base`, not locked by the running thread) whose
bucket for the key holds the entries `pre ++ e :: post`, the probe finding
`e`, and a key that is not the name of a constant, `atput(key, val)` returns
(given memory for two objects) with: a Pair and a list cell newly allocated;
the bucket now the new cell, whose item is the new Pair of the key and the
new value, in front of `pre ++ post`, the old cell being unlinked; the Pair
stored before unchanged, with the old value as its second; the fields `size`
and `cnt` of the Dictionary unchanged, as is the number of entries of the
bucket; and no object other than the Dictionary and the cells in front of
the old one changed. -/
theorem atput_reassign_new_pair (km : key_methods) (c : ovm_consts) (fuel : Nat)
    (s : ovm_objs) (base size cnt : Nat) (data : List Nat) (key val : ovm_inst) (head : Nat)
    (pre post : List dict_entry) (e : dict_entry)
    (hset : s.body base = some (.set size cnt data)) (hlock : s.locked base = false)
    (hhead : data.get? (bucket_index (key_hash km key) size) = some head)
    (hb : bucket_at s head (pre ++ e :: post))
    (hpre : ∀ e1 ∈ pre, km.equal (key_cached km key) e1.first = false)
    (he : km.equal (key_cached km key) e.first = true)
    (hconst : ∀ obj ks, key.val = .strval obj ks → is_const_name ks.size ks.data = false)
    (hf : free_ok s) (hmem : 2 ≤ s.free.length) (hfuel : pre.length < fuel) :
    ∃ s1 pr cl rest,
      obj_dict_at_put km c fuel s base key val = .ok s1
        ∧ s.free = pr :: cl :: rest ∧ s1.free = rest
        ∧ s.body pr = none ∧ s.body cl = none
        ∧ s1.body base
            = some (.set size cnt (data.set (bucket_index (key_hash km key) size) cl))
        ∧ bucket_at s1 cl
            ({ cell := cl, item := inst_obj pr, first := key_cached km key, second := val }
              :: (pre ++ post))
        ∧ ({ cell := cl, item := inst_obj pr, first := key_cached km key, second := val }
              :: (pre ++ post)).length = (pre ++ e :: post).length
        ∧ e.item.objval ≠ pr
        ∧ s1.body e.item.objval = some (.pair e.first e.second)
        ∧ s1.body e.cell = s.body e.cell
        ∧ ∀ a, s.body a ≠ none → a ≠ base → (∀ e1 ∈ pre, a ≠ e1.cell) →
            s1.body a = s.body a := by
  obtain ⟨pr, F, hF⟩ := free_cons_of_le s 1 hmem
  obtain ⟨cl, rest, hF2⟩ : ∃ cl rest, F = cl :: rest := by
    cases F with
    | nil => rw [hF] at hmem; simp at hmem
    | cons cl rest => exact ⟨cl, rest, rfl⟩
  subst hF2
  have hprfree : pr ∈ s.free := by rw [hF]; simp
  have hclfree : cl ∈ s.free := by rw [hF]; simp
  have hprcl : pr ≠ cl := by
    have := hf.1
    rw [hF, List.nodup_cons] at this
    intro hc
    exact this.1 (by rw [hc]; simp)
  have hnofree : ∀ a, s.body a ≠ none → a ∉ s.free := fun a ha hc => ha (hf.2.2 a hc)
  have hbase_nf : base ∉ s.free := hnofree base (by rw [hset]; simp)
  have hbodies := bucket_at_body s head _ hb
  have hnd := bucket_at_nodup s head _ hb
  -- the probe
  have hread : slot_read s (.bucket base (bucket_index (key_hash km key) size)) = .ok head := by
    unfold slot_read
    simp only [hset, hhead]
  have hfind := obj_dict_find_loop_spec km (key_cached km key) s e post pre fuel _ head hread hb
    hpre he hfuel
  -- the old cell unlinked
  obtain ⟨s1, data1, head1, hunlink, hset1, hhead1, hdata1, hb1, hfr1, hin1, hlk1, hframe1⟩ :=
    obj_dict_at_put_unlink_spec s base size cnt data (bucket_index (key_hash km key) size)
      head (key_cached km key) pre post e hset hhead hb hconst
  have hcell_frame : ∀ a, s.body a ≠ none → a ≠ base → (∀ e1 ∈ pre, a ≠ e1.cell) →
      s1.body a = s.body a := fun a _ h2 h3 => hframe1 a h2 h3
  have hf1 : free_ok s1 := by
    refine ⟨by rw [hfr1]; exact hf.1, by rw [hfr1]; exact hf.2.1, ?_⟩
    intro a ha
    rw [hfr1] at ha
    rw [hframe1 a (fun hc => hbase_nf (hc ▸ ha)) ?_]
    · exact hf.2.2 a ha
    · intro e1 he1 hc
      obtain ⟨⟨n1, g1⟩, _⟩ := hbodies e1 (by simp [he1])
      exact hnofree _ (by rw [g1]; simp) (hc ▸ ha)
  -- the new Pair
  obtain ⟨s2, halloc2, hfr2, hbody2, _, _, hframe2⟩ :=
    ovm_obj_alloc_spec s1 c.Pair (.pair (key_cached km key) val) pr (cl :: rest)
      (by rw [hfr1, hF])
  have hbase_pr : base ≠ pr := fun hc => hbase_nf (hc ▸ hprfree)
  have hbase_cl : base ≠ cl := fun hc => hbase_nf (hc ▸ hclfree)
  have hread2 : slot_read s2 (.bucket base (bucket_index (key_hash km key) size))
      = .ok head1 := by
    unfold slot_read
    simp only [(hframe2 base hbase_pr).1, hset1, hhead1]
  -- the new cell
  obtain ⟨s3, halloc3, hfr3, hbody3, _, _, hframe3⟩ :=
    ovm_obj_alloc_spec s2 c.List (.list (inst_obj pr) head1) cl rest hfr2
  have hset3 : s3.body base = some (.set size cnt data1) := by
    rw [(hframe3 base hbase_cl).1, (hframe2 base hbase_pr).1, hset1]
  have hblt : bucket_index (key_hash km key) size < data1.length := by
    rw [List.get?_eq_some] at hhead1
    exact hhead1.1
  obtain ⟨s4, hs4⟩ : ∃ s4 : ovm_objs, s4 =
      { s3 with body := fun p =>
          if p = base then
            some (ovm_body.set size cnt (data1.set (bucket_index (key_hash km key) size) cl))
          else s3.body p } := ⟨_, rfl⟩
  have hb4 : ∀ a, a ≠ base → s4.body a = s3.body a := by
    intro a ha; rw [hs4]; simp [ha]
  have hwrite : slot_write s3 (.bucket base (bucket_index (key_hash km key) size)) cl
      = .ok s4 := by
    unfold slot_write
    simp only [hset3, hblt, if_true, ← hs4]
  -- what is left unchanged after the unlinking
  have hkeep : ∀ a, a ≠ base → a ≠ pr → a ≠ cl → s4.body a = s1.body a := by
    intro a h1 h2 h3
    rw [hb4 a h1, (hframe3 a h3).1, (hframe2 a h2).1]
  have hbodies1 := bucket_at_body s1 head1 _ hb1
  have hnf1 : ∀ a, s1.body a ≠ none → a ≠ pr ∧ a ≠ cl := by
    intro a ha
    constructor
    · intro hc; exact ha (hf1.2.2 a (by rw [hfr1, hc]; exact hprfree))
    · intro hc; exact ha (hf1.2.2 a (by rw [hfr1, hc]; exact hclfree))
  have hb4' : bucket_at s4 head1 (pre ++ post) := by
    apply bucket_at_congr s1 s4 head1 _ hb1
    intro e1 he1
    obtain ⟨⟨n1, g1⟩, g2⟩ := hbodies1 e1 he1
    have k1 := hnf1 e1.cell (by rw [g1]; simp)
    have k2 := hnf1 e1.item.objval (by rw [g2]; simp)
    refine ⟨hkeep _ ?_ k1.1 k1.2, hkeep _ ?_ k2.1 k2.2⟩
    · intro hc; rw [hc, hset1] at g1; simp at g1
    · intro hc; rw [hc, hset1] at g2; simp at g2
  have hpe := (hbodies e (by simp)).2
  obtain ⟨ne, hce⟩ := (hbodies e (by simp)).1
  have he_base : e.item.objval ≠ base := by
    intro hc; rw [hc, hset] at hpe; simp at hpe
  have he_pr : e.item.objval ≠ pr := fun hc => hnofree _ (by rw [hpe]; simp) (hc ▸ hprfree)
  have he_cl : e.item.objval ≠ cl := fun hc => hnofree _ (by rw [hpe]; simp) (hc ▸ hclfree)
  have he_pre : ∀ e1 ∈ pre, e.item.objval ≠ e1.cell := by
    intro e1 he1 hc
    obtain ⟨⟨n1, g1⟩, _⟩ := hbodies e1 (by simp [he1])
    rw [hc, g1] at hpe
    simp at hpe
  have hce_base : e.cell ≠ base := by
    intro hc; rw [hc, hset] at hce; simp at hce
  have hce_pre : ∀ e1 ∈ pre, e.cell ≠ e1.cell := by
    intro e1 he1 hc
    rw [List.map_append, List.map_cons, List.nodup_append] at hnd
    exact hnd.2.2 (List.mem_map_of_mem _ he1) (by rw [← hc]; simp)
  refine ⟨s4, pr, cl, rest, ?_, hF, by rw [hs4]; exact hfr3, hf.2.2 pr hprfree,
    hf.2.2 cl hclfree, ?_, ?_, by simp; omega, he_pr, ?_, ?_, ?_⟩
  · unfold obj_dict_at_put
    simp only [hlock, Bool.false_eq_true, if_false, hset]
    have e1 : (key_cached km key).hash = key_hash km key := rfl
    simp only [e1, hfind, hunlink, pair_new, halloc2, hread2, list_new, halloc3, hwrite]
  · rw [hs4]
    simp only [if_true]
    rw [hdata1]
  · rw [bucket_at_cons]
    refine ⟨rfl, fun hc => hf.2.1 (hc ▸ hclfree), ?_, head1, ?_, hb4'⟩
    · show s4.body pr = _
      rw [hb4 pr (Ne.symm hbase_pr), (hframe3 pr hprcl).1, hbody2]
    · show s4.body cl = _
      rw [hb4 cl (Ne.symm hbase_cl), hbody3]
  · rw [hkeep _ he_base he_pr he_cl, hframe1 _ he_base he_pre]
    exact hpe
  · have k := hnf1 e.cell (by rw [hframe1 _ hce_base hce_pre, hce]; simp)
    rw [hkeep _ hce_base k.1 k.2, hframe1 _ hce_base hce_pre]
  · intro a ha h1 h2
    have k1 : a ≠ pr := fun hc => hnofree a ha (hc ▸ hprfree)
    have k2 : a ≠ cl := fun hc => hnofree a ha (hc ▸ hclfree)
    rw [hkeep a h1 k1 k2, hframe1 a h1 h2]

/-- Witness of C11: `atput(5, 51)` on the sample Dictionary, where the key 5
is the second entry of its bucket. -/
theorem atput_reassign_new_pair_witness :
    (sample_dict_objs.body 300 = some (.set 2 2 [0, 310])
      ∧ sample_dict_objs.locked 300 = false
      ∧ [0, 310].get? (bucket_index (key_hash sample_km (inst_int 5)) 2) = some 310
      ∧ bucket_at sample_dict_objs 310 ([sample_entry_7] ++ sample_entry_5 :: [])
      ∧ (∀ e1 ∈ [sample_entry_7],
          sample_km.equal (key_cached sample_km (inst_int 5)) e1.first = false)
      ∧ sample_km.equal (key_cached sample_km (inst_int 5)) sample_entry_5.first = true
      ∧ (∀ obj ks, (inst_int 5).val = .strval obj ks → is_const_name ks.size ks.data = false)
      ∧ free_ok sample_dict_objs ∧ 2 ≤ sample_dict_objs.free.length
      ∧ [sample_entry_7].length < 3)
      ∧ ∃ s1 pr cl rest,
        obj_dict_at_put sample_km sample_consts 3 sample_dict_objs 300 (inst_int 5) (inst_int 51)
            = .ok s1
          ∧ sample_dict_objs.free = pr :: cl :: rest ∧ s1.free = rest
          ∧ sample_dict_objs.body pr = none ∧ sample_dict_objs.body cl = none
          ∧ s1.body 300
              = some (.set 2 2
                  ([0, 310].set (bucket_index (key_hash sample_km (inst_int 5)) 2) cl))
          ∧ bucket_at s1 cl
              ({ cell := cl, item := inst_obj pr,
                 first := key_cached sample_km (inst_int 5), second := inst_int 51 }
                :: ([sample_entry_7] ++ []))
          ∧ ({ cell := cl, item := inst_obj pr,
               first := key_cached sample_km (inst_int 5), second := inst_int 51 }
                :: ([sample_entry_7] ++ [])).length
              = ([sample_entry_7] ++ sample_entry_5 :: []).length
          ∧ sample_entry_5.item.objval ≠ pr
          ∧ s1.body sample_entry_5.item.objval
              = some (.pair sample_entry_5.first sample_entry_5.second)
          ∧ s1.body sample_entry_5.cell = sample_dict_objs.body sample_entry_5.cell
          ∧ ∀ a, sample_dict_objs.body a ≠ none → a ≠ 300 →
              (∀ e1 ∈ [sample_entry_7], a ≠ e1.cell) → s1.body a = sample_dict_objs.body a :=
  ⟨⟨by decide, by decide, by decide, by decide, by decide, by decide,
     fun obj ks h => by simp [inst_int] at h, by decide, by decide, by decide⟩,
   atput_reassign_new_pair sample_km sample_consts 3 sample_dict_objs 300 2 2 [0, 310]
     (inst_int 5) (inst_int 51) 310 [sample_entry_7] [] sample_entry_5 (by decide) (by decide)
     (by decide) (by decide) (by decide) (by decide)
     (fun obj ks h => by simp [inst_int] at h) (by decide) (by decide) (by decide)⟩

/-! ### Descent through containers: `write` -/

theorem ovm_write_locked_list (c : ovm_consts) (atom : ovm_inst → Except ovm_stop ovm_obj_str)
    (fuel : Nat) (s : ovm_objs) (li : Nat) (item : ovm_inst) (next : Nat)
    (hli : li ≠ 0) (hcl : s.inst_of li = c.List)
    (hbody : s.body li = some (.list item next)) (hlock : s.locked li = true) :
    ovm_write c atom (fuel + 1) s (inst_obj li)
      = .error (.raised ovm_except_descent_loop) := by
  have hraw : ovm_inst_of_raw c s.inst_of (inst_obj li) = c.List := by
    simp [ovm_inst_of_raw, inst_obj, hli, hcl]
  unfold ovm_write
  simp only [hraw, if_true]
  unfold List_write
  rw [ovm_inst_listval_obj c s li (Or.inr hcl)]
  simp only [obj_lock_loop_chk, hbody, hlock, if_true]

theorem obj_lock_loop_chk_ok (s : ovm_objs) (obj : Nat) (b : ovm_body)
    (hbody : s.body obj = some b) (hlock : s.locked obj = false) :
    ∃ s1, obj_lock_loop_chk s obj = .ok s1 ∧ s1.locked obj = true ∧ s1.body = s.body
      ∧ s1.inst_of = s.inst_of ∧ s1.free = s.free
      ∧ ∀ p, p ≠ obj → s1.locked p = s.locked p := by
  refine ⟨{ s with locked := fun p => if p = obj then true else s.locked p }, ?_, by simp,
    rfl, rfl, rfl, fun p hp => by simp [hp]⟩
  unfold obj_lock_loop_chk
  simp only [hbody, hlock, Bool.false_eq_true, if_false]

/-- For a list cell `L` (not locked) whose item is `L`
itself, or an Array (not locked) whose first element is `L`, `write` on `L`
ends by raising `system.descent-loop`; and so does every `write` on a list
cell whose lock the running thread holds. -/
theorem list_write_descent_loop (c : ovm_consts)
    (atom : ovm_inst → Except ovm_stop ovm_obj_str) (fuel : Nat) (s : ovm_objs)
    (li : Nat) (x : ovm_inst) (next : Nat)
    (hli : li ≠ 0) (hcl : s.inst_of li = c.List) (hne : c.List ≠ c.Array)
    (hbody : s.body li = some (.list x next)) (hlock : s.locked li = false)
    (hx : x = inst_obj li ∨
      ∃ a rest, x = inst_obj a ∧ a ≠ 0 ∧ s.inst_of a = c.Array
        ∧ s.body a = some (.array (inst_obj li :: rest)) ∧ s.locked a = false) :
    ovm_write c atom (fuel + 3) s (inst_obj li) = .error (.raised ovm_except_descent_loop)
      ∧ ∀ (s1 : ovm_objs) (item : ovm_inst) (n : Nat), s1.inst_of li = c.List →
          s1.body li = some (.list item n) → s1.locked li = true →
          ovm_write c atom (fuel + 1) s1 (inst_obj li)
            = .error (.raised ovm_except_descent_loop) := by
  refine ⟨?_, fun s1 item n h1 h2 h3 => ovm_write_locked_list c atom fuel s1 li item n hli h1 h2 h3⟩
  have hraw : ovm_inst_of_raw c s.inst_of (inst_obj li) = c.List := by
    simp [ovm_inst_of_raw, inst_obj, hli, hcl]
  obtain ⟨s1, hlk, hl1, hb1, hi1, _, hother⟩ := obj_lock_loop_chk_ok s li _ hbody hlock
  unfold ovm_write
  simp only [hraw, if_true]
  unfold List_write
  rw [ovm_inst_listval_obj c s li (Or.inr hcl)]
  simp only [hlk]
  unfold List_write_loop
  simp only [hli, if_false, hb1, hbody]
  rcases hx with rfl | ⟨a, rest, rfl, ha, hacl, habody, halock⟩
  · rw [ovm_write_locked_list c atom (fuel + 1) s1 li _ next hli (by rw [hi1]; exact hcl)
      (by rw [hb1]; exact hbody) hl1]
  · have hali : a ≠ li := by
      intro hc
      rw [hc, hcl] at hacl
      exact hne hacl
    have hrawa : ovm_inst_of_raw c s1.inst_of (inst_obj a) = c.Array := by
      simp [ovm_inst_of_raw, inst_obj, ha, hi1, hacl]
    obtain ⟨s2, hlk2, _, hb2, hi2, _, hother2⟩ :=
      obj_lock_loop_chk_ok s1 a _ (by rw [hb1]; exact habody)
        (by rw [hother a hali]; exact halock)
    have hinner : ovm_write c atom (fuel + 2) s1 (inst_obj a)
        = .error (.raised ovm_except_descent_loop) := by
      unfold ovm_write
      simp only [hrawa, hne.symm, if_false, if_true]
      unfold Array_write
      have hobj : (inst_obj a).objval = a := rfl
      simp only [hrawa, ne_eq, not_true_eq_false, if_false, hobj, hb1, habody, hlk2]
      unfold array_write_loop
      rw [ovm_write_locked_list c atom fuel s2 li _ next hli (by rw [hi2, hi1]; exact hcl)
        (by rw [hb2, hb1]; exact hbody) (by rw [hother2 li (Ne.symm hali)]; exact hl1)]
    rw [hinner]

/-- The list cell 500 of the sample store, whose item is an Array that holds
the list: `write` raises `system.descent-loop`. -/
theorem list_write_descent_loop_sample :
    (500 ≠ 0 ∧ sample_item_loop_objs.inst_of 500 = sample_consts.List
      ∧ sample_consts.List ≠ sample_consts.Array
      ∧ sample_item_loop_objs.body 500 = some (.list (inst_obj 510) 0)
      ∧ sample_item_loop_objs.locked 500 = false
      ∧ (inst_obj 510 = inst_obj 500 ∨
          ∃ a rest, inst_obj 510 = inst_obj a ∧ a ≠ 0
            ∧ sample_item_loop_objs.inst_of a = sample_consts.Array
            ∧ sample_item_loop_objs.body a = some (.array (inst_obj 500 :: rest))
            ∧ sample_item_loop_objs.locked a = false))
      ∧ (ovm_write sample_consts sample_atom_write (0 + 3) sample_item_loop_objs (inst_obj 500)
            = .error (.raised ovm_except_descent_loop)
          ∧ ∀ (s1 : ovm_objs) (item : ovm_inst) (n : Nat),
              s1.inst_of 500 = sample_consts.List →
              s1.body 500 = some (.list item n) → s1.locked 500 = true →
              ovm_write sample_consts sample_atom_write (0 + 1) s1 (inst_obj 500)
                = .error (.raised ovm_except_descent_loop)) :=
  ⟨⟨by decide, by decide, by decide, by decide, by decide,
     Or.inr ⟨510, [], rfl, by decide, by decide, by decide, by decide⟩⟩,
   list_write_descent_loop sample_consts sample_atom_write 0 sample_item_loop_objs 500
     (inst_obj 510) 0 (by decide) (by decide) (by decide) (by decide) (by decide)
     (Or.inr ⟨510, [], rfl, by decide, by decide, by decide, by decide⟩)⟩

theorem List_write_loop_tail (w : ovm_objs → ovm_inst → Except ovm_stop (ovm_objs × ovm_obj_str))
    (li : Nat) (item : ovm_inst) (hli : li ≠ 0)
    (hw : ∀ s, w s item = .error .undefined ∨
      ∃ s1 str, w s item = .ok (s1, str) ∧ s1.body = s.body) (m : Nat) :
    ∀ (s : ovm_objs) (f : Bool) (size : Nat) (parts : List ovm_obj_str),
      s.body li = some (.list item li) →
      List_write_loop w m s li f size parts = .error .undefined := by
  induction m with
  | zero => intro s f size parts _; rfl
  | succ m ih =>
    intro s f size parts hbody
    unfold List_write_loop
    simp only [hli, if_false, hbody]
    rcases hw s with h | ⟨s1, str, h, hb⟩
    · simp only [h]
    · simp only [h, hb, hbody]
      exact ih s1 true _ _ (by rw [hb]; exact hbody)

/-- On a list cell 500 whose tail is the cell itself (and whose item is an
Integer), a cell that no function of the code builds, `write` visits the cell again
and again without locking or checking it: whatever the number of rounds,
the run is cut off by the bound, and never raises `system.descent-loop`. -/
theorem list_write_self_tail :
    sample_tail_loop_objs.body 500 = some (.list (inst_int 1) 500)
      ∧ sample_tail_loop_objs.inst_of 500 = sample_consts.List
      ∧ ∀ fuel, ovm_write sample_consts sample_atom_write fuel sample_tail_loop_objs
            (inst_obj 500) = .error .undefined := by
  refine ⟨rfl, rfl, fun fuel => ?_⟩
  cases fuel with
  | zero => rfl
  | succ n =>
    obtain ⟨s1, hlk, _, hb1, _, _, _⟩ :=
      obj_lock_loop_chk_ok sample_tail_loop_objs 500 _ (by rfl) (by rfl)
    have hraw : ovm_inst_of_raw sample_consts sample_tail_loop_objs.inst_of (inst_obj 500)
        = sample_consts.List := by decide
    have hw : ∀ s, ovm_write sample_consts sample_atom_write n s (inst_int 1)
          = .error .undefined ∨
        ∃ s1 str, ovm_write sample_consts sample_atom_write n s (inst_int 1) = .ok (s1, str)
          ∧ s1.body = s.body := by
      intro s
      cases n with
      | zero => exact Or.inl rfl
      | succ k => exact Or.inr ⟨s, _, rfl, rfl⟩
    unfold ovm_write
    simp only [hraw, if_true]
    unfold List_write
    rw [ovm_inst_listval_obj sample_consts sample_tail_loop_objs 500 (Or.inr (by decide))]
    simp only [hlk]
    rw [List_write_loop_tail _ 500 (inst_int 1) (by decide) hw (n + 1) s1 false 3 []
      (by rw [hb1]; rfl)]

/-! ### Deep copies -/

theorem built_from_objval (c : ovm_consts) (s : ovm_objs) (d : Nat) (anc : List Nat)
    (v : ovm_inst) (obj : Nat) (hv : v.val = .objval obj)
    (h : built_from c s (d + 1) anc v = true) :
    obj ≠ 0 ∧ obj ∉ anc ∧
      ((∃ f g, s.body obj = some (.pair f g) ∧ s.inst_of obj = c.Pair
          ∧ built_from c s d (obj :: anc) f = true ∧ built_from c s d (obj :: anc) g = true)
        ∨ (∃ data, s.body obj = some (.array data) ∧ s.inst_of obj = c.Array
          ∧ ∀ x ∈ data, built_from c s d (obj :: anc) x = true)) := by
  unfold built_from at h
  simp only [hv, Bool.and_eq_true, bne_iff_ne, ne_eq, Bool.not_eq_true', List.contains_eq_any_beq,
    List.any_eq_false, beq_iff_eq] at h
  obtain ⟨⟨h0, hanc⟩, hb⟩ := h
  refine ⟨h0, fun hc => hanc obj hc rfl, ?_⟩
  cases hbody : s.body obj with
  | none => rw [hbody] at hb; exact absurd hb (by simp)
  | some b =>
    rw [hbody] at hb
    cases b with
    | pair f g =>
      simp only [Bool.and_eq_true, beq_iff_eq] at hb
      exact Or.inl ⟨f, g, rfl, hb.1.1, hb.1.2, hb.2⟩
    | array data =>
      simp only [Bool.and_eq_true, beq_iff_eq, List.all_eq_true] at hb
      exact Or.inr ⟨data, rfl, hb.1, hb.2⟩
    | _ => exact absurd hb (by simp)

theorem built_from_cases (c : ovm_consts) (s : ovm_objs) (d : Nat) (anc : List Nat)
    (v : ovm_inst) (h : built_from c s (d + 1) anc v = true) :
    (∃ i, v.val = .intval i) ∨ (∃ b, v.val = .boolval b) ∨ (∃ obj str, v.val = .strval obj str)
      ∨ ∃ obj, v.val = .objval obj := by
  cases hv : v.val with
  | intval i => exact Or.inl ⟨i, rfl⟩
  | boolval b => exact Or.inr (Or.inl ⟨b, rfl⟩)
  | strval obj str => exact Or.inr (Or.inr (Or.inl ⟨obj, str, rfl⟩))
  | objval obj => exact Or.inr (Or.inr (Or.inr ⟨obj, rfl⟩))
  | _ =>
    unfold built_from at h
    rw [hv] at h
    exact absurd h (by simp)

theorem built_from_zero (c : ovm_consts) (s : ovm_objs) (anc : List Nat) (v : ovm_inst) :
    built_from c s 0 anc v = false := by
  unfold built_from
  rfl

theorem containers_of_atom (s : ovm_objs) (d : Nat) (v : ovm_inst)
    (hv : ∀ obj, v.val ≠ .objval obj) : containers_of s d v = [] := by
  cases d with
  | zero => rfl
  | succ d =>
    unfold containers_of
    cases h : v.val with
    | objval obj => exact absurd h (hv obj)
    | _ => rfl

theorem pairs_of_atom (s : ovm_objs) (d : Nat) (v : ovm_inst)
    (hv : ∀ obj, v.val ≠ .objval obj) : pairs_of s d v = [] := by
  cases d with
  | zero => rfl
  | succ d =>
    unfold pairs_of
    cases h : v.val with
    | objval obj => exact absurd h (hv obj)
    | _ => rfl

theorem containers_of_pair (s : ovm_objs) (d : Nat) (v : ovm_inst) (obj : Nat)
    (f g : ovm_inst) (hv : v.val = .objval obj) (hb : s.body obj = some (.pair f g)) :
    containers_of s (d + 1) v = obj :: (containers_of s d f ++ containers_of s d g)
      ∧ pairs_of s (d + 1) v = obj :: (pairs_of s d f ++ pairs_of s d g) := by
  constructor
  · rw [containers_of]
    simp only [hv, hb]
  · rw [pairs_of]
    simp only [hv, hb]

theorem containers_of_array (s : ovm_objs) (d : Nat) (v : ovm_inst) (obj : Nat)
    (data : List ovm_inst) (hv : v.val = .objval obj) (hb : s.body obj = some (.array data)) :
    containers_of s (d + 1) v = obj :: data.flatMap (fun x => containers_of s d x)
      ∧ pairs_of s (d + 1) v = data.flatMap (fun x => pairs_of s d x) := by
  constructor
  · rw [containers_of]
    simp only [hv, hb]
  · rw [pairs_of]
    simp only [hv, hb]

theorem built_from_frame (c : ovm_consts) (s s1 : ovm_objs) (d : Nat) :
    ∀ (anc : List Nat) (v : ovm_inst), built_from c s d anc v = true →
      (∀ a ∈ containers_of s d v, s1.body a = s.body a ∧ s1.inst_of a = s.inst_of a) →
      built_from c s1 d anc v = true ∧ containers_of s1 d v = containers_of s d v
        ∧ pairs_of s1 d v = pairs_of s d v := by
  induction d with
  | zero => intro anc v h; rw [built_from_zero] at h; exact absurd h (by simp)
  | succ d ih =>
    intro anc v h hk
    rcases built_from_cases c s d anc v h with ⟨i, hv⟩ | ⟨b, hv⟩ | ⟨o, str, hv⟩ | ⟨obj, hv⟩
    · have hna : ∀ obj, v.val ≠ .objval obj := by intro obj; rw [hv]; simp
      refine ⟨?_, by rw [containers_of_atom _ _ _ hna, containers_of_atom _ _ _ hna],
        by rw [pairs_of_atom _ _ _ hna, pairs_of_atom _ _ _ hna]⟩
      unfold built_from; simp only [hv]
    · have hna : ∀ obj, v.val ≠ .objval obj := by intro obj; rw [hv]; simp
      refine ⟨?_, by rw [containers_of_atom _ _ _ hna, containers_of_atom _ _ _ hna],
        by rw [pairs_of_atom _ _ _ hna, pairs_of_atom _ _ _ hna]⟩
      unfold built_from; simp only [hv]
    · have hna : ∀ obj, v.val ≠ .objval obj := by intro obj; rw [hv]; simp
      refine ⟨?_, by rw [containers_of_atom _ _ _ hna, containers_of_atom _ _ _ hna],
        by rw [pairs_of_atom _ _ _ hna, pairs_of_atom _ _ _ hna]⟩
      unfold built_from; simp only [hv]
    · obtain ⟨h0, hanc, hc⟩ := built_from_objval c s d anc v obj hv h
      rcases hc with ⟨f, g, hb, hcl, hf, hg⟩ | ⟨data, hb, hcl, hall⟩
      · obtain ⟨e1, e2⟩ := containers_of_pair s d v obj f g hv hb
        obtain ⟨hb1, hcl1⟩ := hk obj (by rw [e1]; simp)
        rw [hb] at hb1
        rw [hcl] at hcl1
        obtain ⟨f1, f2, f3⟩ := ih (obj :: anc) f hf
          (fun a ha => hk a (by rw [e1]; simp [ha]))
        obtain ⟨g1, g2, g3⟩ := ih (obj :: anc) g hg
          (fun a ha => hk a (by rw [e1]; simp [ha]))
        obtain ⟨e3, e4⟩ := containers_of_pair s1 d v obj f g hv hb1
        refine ⟨?_, by rw [e1, e3, f2, g2], by rw [e2, e4, f3, g3]⟩
        unfold built_from
        simp only [hv, hb1, hcl1, f1, g1, Bool.and_eq_true, bne_iff_ne, ne_eq, beq_self_eq_true,
          and_true, Bool.not_eq_true', List.contains_eq_any_beq, List.any_eq_false, beq_iff_eq]
        exact ⟨h0, fun x hx e => hanc (e ▸ hx)⟩
      · obtain ⟨e1, e2⟩ := containers_of_array s d v obj data hv hb
        obtain ⟨hb1, hcl1⟩ := hk obj (by rw [e1]; simp)
        rw [hb] at hb1
        rw [hcl] at hcl1
        obtain ⟨e3, e4⟩ := containers_of_array s1 d v obj data hv hb1
        have hsub : ∀ x ∈ data, ∀ a ∈ containers_of s d x,
            s1.body a = s.body a ∧ s1.inst_of a = s.inst_of a := by
          intro x hx a ha
          apply hk
          rw [e1]
          simp only [List.mem_cons, List.mem_flatMap]
          exact Or.inr ⟨x, hx, ha⟩
        refine ⟨?_, ?_, ?_⟩
        · unfold built_from
          simp only [hv, hb1, hcl1, Bool.and_eq_true, bne_iff_ne, ne_eq, beq_self_eq_true,
            true_and, Bool.not_eq_true', List.contains_eq_any_beq, List.any_eq_false,
            beq_iff_eq, List.all_eq_true]
          exact ⟨⟨h0, fun x hx e => hanc (e ▸ hx)⟩,
            fun x hx => (ih (obj :: anc) x (hall x hx) (hsub x hx)).1⟩
        · rw [e1, e3]
          congr 1
          exact List.flatMap_congr (fun x hx => (ih (obj :: anc) x (hall x hx) (hsub x hx)).2.1)
        · rw [e2, e4]
          exact List.flatMap_congr (fun x hx => (ih (obj :: anc) x (hall x hx) (hsub x hx)).2.2)

theorem built_from_containers (c : ovm_consts) (s : ovm_objs) (d : Nat) :
    ∀ (anc : List Nat) (v : ovm_inst), built_from c s d anc v = true →
      ∀ a ∈ containers_of s d v, a ∉ anc ∧ a ≠ 0 ∧ s.body a ≠ none := by
  induction d with
  | zero => intro anc v h; rw [built_from_zero] at h; exact absurd h (by simp)
  | succ d ih =>
    intro anc v h a ha
    rcases built_from_cases c s d anc v h with ⟨i, hv⟩ | ⟨b, hv⟩ | ⟨o, str, hv⟩ | ⟨obj, hv⟩
    · rw [containers_of_atom _ _ _ (by intro obj; rw [hv]; simp)] at ha; simp at ha
    · rw [containers_of_atom _ _ _ (by intro obj; rw [hv]; simp)] at ha; simp at ha
    · rw [containers_of_atom _ _ _ (by intro obj; rw [hv]; simp)] at ha; simp at ha
    · obtain ⟨h0, hanc, hc⟩ := built_from_objval c s d anc v obj hv h
      rcases hc with ⟨f, g, hb, _, hf, hg⟩ | ⟨data, hb, _, hall⟩
      · rw [(containers_of_pair s d v obj f g hv hb).1] at ha
        simp only [List.mem_cons, List.mem_append] at ha
        rcases ha with rfl | ha | ha
        · exact ⟨hanc, h0, by rw [hb]; simp⟩
        · obtain ⟨k1, k2, k3⟩ := ih (obj :: anc) f hf a ha
          exact ⟨fun hc => k1 (List.mem_cons_of_mem _ hc), k2, k3⟩
        · obtain ⟨k1, k2, k3⟩ := ih (obj :: anc) g hg a ha
          exact ⟨fun hc => k1 (List.mem_cons_of_mem _ hc), k2, k3⟩
      · rw [(containers_of_array s d v obj data hv hb).1] at ha
        simp only [List.mem_cons, List.mem_flatMap] at ha
        rcases ha with rfl | ⟨x, hx, ha⟩
        · exact ⟨hanc, h0, by rw [hb]; simp⟩
        · obtain ⟨k1, k2, k3⟩ := ih (obj :: anc) x (hall x hx) a ha
          exact ⟨fun hc => k1 (List.mem_cons_of_mem _ hc), k2, k3⟩

theorem pairs_of_body (s : ovm_objs) (d : Nat) :
    ∀ (v : ovm_inst) (a : Nat), a ∈ pairs_of s d v →
      a ∈ containers_of s d v ∧ ∃ f g, s.body a = some (.pair f g) := by
  induction d with
  | zero => intro v a ha; simp [pairs_of] at ha
  | succ d ih =>
    intro v a ha
    cases hv : v.val with
    | objval obj =>
      cases hb : s.body obj with
      | none => rw [pairs_of] at ha; simp [hv, hb] at ha
      | some b =>
        cases b with
        | pair f g =>
          obtain ⟨e1, e2⟩ := containers_of_pair s d v obj f g hv hb
          rw [e2] at ha
          rw [e1]
          simp only [List.mem_cons, List.mem_append] at ha ⊢
          rcases ha with rfl | ha | ha
          · exact ⟨Or.inl rfl, f, g, hb⟩
          · exact ⟨Or.inr (Or.inl (ih f a ha).1), (ih f a ha).2⟩
          · exact ⟨Or.inr (Or.inr (ih g a ha).1), (ih g a ha).2⟩
        | array data =>
          obtain ⟨e1, e2⟩ := containers_of_array s d v obj data hv hb
          rw [e2] at ha
          rw [e1]
          simp only [List.mem_cons, List.mem_flatMap] at ha ⊢
          obtain ⟨x, hx, ha⟩ := ha
          exact ⟨Or.inr ⟨x, hx, (ih x a ha).1⟩, (ih x a ha).2⟩
        | _ => rw [pairs_of] at ha; simp [hv, hb] at ha
    | _ => rw [pairs_of_atom _ _ _ (by intro obj; rw [hv]; simp)] at ha; simp at ha

theorem containers_of_kind (s : ovm_objs) (d : Nat) :
    ∀ (v : ovm_inst) (a : Nat), a ∈ containers_of s d v →
      a ∈ pairs_of s d v ∨ ∃ data, s.body a = some (.array data) := by
  induction d with
  | zero => intro v a ha; simp [containers_of] at ha
  | succ d ih =>
    intro v a ha
    cases hv : v.val with
    | objval obj =>
      cases hb : s.body obj with
      | none => rw [containers_of] at ha; simp [hv, hb] at ha
      | some b =>
        cases b with
        | pair f g =>
          obtain ⟨e1, e2⟩ := containers_of_pair s d v obj f g hv hb
          rw [e1] at ha
          rw [e2]
          simp only [List.mem_cons, List.mem_append] at ha ⊢
          rcases ha with rfl | ha | ha
          · exact Or.inl (Or.inl rfl)
          · rcases ih f a ha with h | h
            · exact Or.inl (Or.inr (Or.inl h))
            · exact Or.inr h
          · rcases ih g a ha with h | h
            · exact Or.inl (Or.inr (Or.inr h))
            · exact Or.inr h
        | array data =>
          obtain ⟨e1, e2⟩ := containers_of_array s d v obj data hv hb
          rw [e1] at ha
          rw [e2]
          simp only [List.mem_cons, List.mem_flatMap] at ha ⊢
          rcases ha with rfl | ⟨x, hx, ha⟩
          · exact Or.inr ⟨data, hb⟩
          · rcases ih x a ha with h | h
            · exact Or.inl ⟨x, hx, h⟩
            · exact Or.inr h
        | _ => rw [containers_of] at ha; simp [hv, hb] at ha
    | _ => rw [containers_of_atom _ _ _ (by intro obj; rw [hv]; simp)] at ha; simp at ha

theorem built_from_kept (c : ovm_consts) (s s1 : ovm_objs) (hk : objs_kept s s1) (d : Nat)
    (anc : List Nat) (v : ovm_inst) (h : built_from c s d anc v = true) :
    built_from c s1 d anc v = true ∧ containers_of s1 d v = containers_of s d v
      ∧ pairs_of s1 d v = pairs_of s d v :=
  built_from_frame c s s1 d anc v h
    (fun a ha => hk a (built_from_containers c s d anc v h a ha).2.2)

theorem deep_copy_atom (c : ovm_consts) (s : ovm_objs) (new : List Nat) (d : Nat)
    (v w : ovm_inst)
    (hv : (∃ i, v.val = .intval i) ∨ (∃ b, v.val = .boolval b)
      ∨ ∃ obj str, v.val = .strval obj str) :
    deep_copy c s new (d + 1) v w ↔ w = v := by
  unfold deep_copy
  rcases hv with ⟨i, hv⟩ | ⟨b, hv⟩ | ⟨o, str, hv⟩ <;> simp only [hv]

theorem deep_copy_pair (c : ovm_consts) (s : ovm_objs) (new : List Nat) (d : Nat)
    (v w : ovm_inst) (obj : Nat) (f g : ovm_inst) (hv : v.val = .objval obj)
    (hb : s.body obj = some (.pair f g)) :
    deep_copy c s new (d + 1) v w ↔
      ∃ obj1 f1 g1, w = inst_obj obj1 ∧ obj1 ∈ new ∧ obj1 ≠ 0 ∧ s.inst_of obj1 = c.Pair
        ∧ s.body obj1 = some (.pair f1 g1)
        ∧ deep_copy c s new d f f1 ∧ deep_copy c s new d g g1 := by
  rw [deep_copy]
  simp only [hv, hb]

theorem deep_copy_array (c : ovm_consts) (s : ovm_objs) (new : List Nat) (d : Nat)
    (v w : ovm_inst) (obj : Nat) (data : List ovm_inst) (hv : v.val = .objval obj)
    (hb : s.body obj = some (.array data)) :
    deep_copy c s new (d + 1) v w ↔
      ∃ obj1 data1, w = inst_obj obj1 ∧ obj1 ∈ new ∧ obj1 ≠ 0 ∧ s.inst_of obj1 = c.Array
        ∧ s.body obj1 = some (.array data1)
        ∧ List.Forall₂ (deep_copy c s new d) data data1 := by
  rw [deep_copy]
  simp only [hv, hb]

theorem forall2_mono_mem {α β : Type} (R S : α → β → Prop) (l1 : List α) (l2 : List β)
    (h : List.Forall₂ R l1 l2) (himp : ∀ x ∈ l1, ∀ y, R x y → S x y) :
    List.Forall₂ S l1 l2 := by
  induction h with
  | nil => exact List.Forall₂.nil
  | cons hxy _ ih =>
    exact List.Forall₂.cons (himp _ (by simp) _ hxy)
      (ih (fun x hx y hr => himp x (by simp [hx]) y hr))

theorem deep_copy_mono (c : ovm_consts) (s s2 : ovm_objs) (new new2 : List Nat)
    (hsub : ∀ a ∈ new, a ∈ new2) (d : Nat) :
    ∀ (anc : List Nat) (v w : ovm_inst), built_from c s d anc v = true →
      deep_copy c s new d v w →
      (∀ a, (a ∈ containers_of s d v ∨ a ∈ new) →
        s2.body a = s.body a ∧ s2.inst_of a = s.inst_of a) →
      deep_copy c s2 new2 d v w := by
  induction d with
  | zero => intro anc v w h; rw [built_from_zero] at h; exact absurd h (by simp)
  | succ d ih =>
    intro anc v w h hd hag
    rcases built_from_cases c s d anc v h with ⟨i, hv⟩ | ⟨b, hv⟩ | ⟨o, str, hv⟩ | ⟨obj, hv⟩
    · rw [deep_copy_atom c s new d v w (Or.inl ⟨i, hv⟩)] at hd
      rw [deep_copy_atom c s2 new2 d v w (Or.inl ⟨i, hv⟩)]
      exact hd
    · rw [deep_copy_atom c s new d v w (Or.inr (Or.inl ⟨b, hv⟩))] at hd
      rw [deep_copy_atom c s2 new2 d v w (Or.inr (Or.inl ⟨b, hv⟩))]
      exact hd
    · rw [deep_copy_atom c s new d v w (Or.inr (Or.inr ⟨o, str, hv⟩))] at hd
      rw [deep_copy_atom c s2 new2 d v w (Or.inr (Or.inr ⟨o, str, hv⟩))]
      exact hd
    · obtain ⟨h0, hanc, hc⟩ := built_from_objval c s d anc v obj hv h
      rcases hc with ⟨f, g, hb, _, hf, hg⟩ | ⟨data, hb, _, hall⟩
      · obtain ⟨e1, _⟩ := containers_of_pair s d v obj f g hv hb
        rw [deep_copy_pair c s new d v w obj f g hv hb] at hd
        obtain ⟨obj1, f1, g1, hw, hnew, h10, hcl1, hb1, hdf, hdg⟩ := hd
        have hb2 : s2.body obj = some (.pair f g) := by
          rw [(hag obj (Or.inl (by rw [e1]; simp))).1, hb]
        rw [deep_copy_pair c s2 new2 d v w obj f g hv hb2]
        refine ⟨obj1, f1, g1, hw, hsub obj1 hnew, h10, ?_, ?_, ?_, ?_⟩
        · rw [(hag obj1 (Or.inr hnew)).2, hcl1]
        · rw [(hag obj1 (Or.inr hnew)).1, hb1]
        · apply ih (obj :: anc) f f1 hf hdf
          intro a ha
          apply hag
          rcases ha with ha | ha
          · left; rw [e1]; simp [ha]
          · exact Or.inr ha
        · apply ih (obj :: anc) g g1 hg hdg
          intro a ha
          apply hag
          rcases ha with ha | ha
          · left; rw [e1]; simp [ha]
          · exact Or.inr ha
      · obtain ⟨e1, _⟩ := containers_of_array s d v obj data hv hb
        rw [deep_copy_array c s new d v w obj data hv hb] at hd
        obtain ⟨obj1, data1, hw, hnew, h10, hcl1, hb1, hall2⟩ := hd
        have hb2 : s2.body obj = some (.array data) := by
          rw [(hag obj (Or.inl (by rw [e1]; simp))).1, hb]
        rw [deep_copy_array c s2 new2 d v w obj data hv hb2]
        refine ⟨obj1, data1, hw, hsub obj1 hnew, h10, ?_, ?_, ?_⟩
        · rw [(hag obj1 (Or.inr hnew)).2, hcl1]
        · rw [(hag obj1 (Or.inr hnew)).1, hb1]
        · apply forall2_mono_mem _ _ data data1 hall2
          intro x hx y hr
          apply ih (obj :: anc) x y (hall x hx) hr
          intro a ha
          apply hag
          rcases ha with ha | ha
          · left
            rw [e1]
            simp only [List.mem_cons, List.mem_flatMap]
            exact Or.inr ⟨x, hx, ha⟩
          · exact Or.inr ha

theorem deep_copy_new (c : ovm_consts) (s : ovm_objs) (new : List Nat) (d : Nat) :
    ∀ (anc : List Nat) (v w : ovm_inst), built_from c s d anc v = true →
      deep_copy c s new d v w →
      (∀ a ∈ containers_of s d w, a ∈ new) ∧ strings_of s d w = strings_of s d v := by
  induction d with
  | zero => intro anc v w h; rw [built_from_zero] at h; exact absurd h (by simp)
  | succ d ih =>
    intro anc v w h hd
    rcases built_from_cases c s d anc v h with ⟨i, hv⟩ | ⟨b, hv⟩ | ⟨o, str, hv⟩ | ⟨obj, hv⟩
    · rw [deep_copy_atom c s new d v w (Or.inl ⟨i, hv⟩)] at hd
      subst hd
      rw [containers_of_atom _ _ _ (by intro obj; rw [hv]; simp)]
      exact ⟨by simp, rfl⟩
    · rw [deep_copy_atom c s new d v w (Or.inr (Or.inl ⟨b, hv⟩))] at hd
      subst hd
      rw [containers_of_atom _ _ _ (by intro obj; rw [hv]; simp)]
      exact ⟨by simp, rfl⟩
    · rw [deep_copy_atom c s new d v w (Or.inr (Or.inr ⟨o, str, hv⟩))] at hd
      subst hd
      rw [containers_of_atom _ _ _ (by intro obj; rw [hv]; simp)]
      exact ⟨by simp, rfl⟩
    · obtain ⟨h0, hanc, hc⟩ := built_from_objval c s d anc v obj hv h
      rcases hc with ⟨f, g, hb, _, hf, hg⟩ | ⟨data, hb, _, hall⟩
      · rw [deep_copy_pair c s new d v w obj f g hv hb] at hd
        obtain ⟨obj1, f1, g1, hw, hnew, h10, hcl1, hb1, hdf, hdg⟩ := hd
        have hwv : w.val = .objval obj1 := by rw [hw]; rfl
        rw [(containers_of_pair s d w obj1 f1 g1 hwv hb1).1]
        obtain ⟨k1, k2⟩ := ih (obj :: anc) f f1 hf hdf
        obtain ⟨k3, k4⟩ := ih (obj :: anc) g g1 hg hdg
        constructor
        · intro a ha
          simp only [List.mem_cons, List.mem_append] at ha
          rcases ha with rfl | ha | ha
          · exact hnew
          · exact k1 a ha
          · exact k3 a ha
        · rw [strings_of, strings_of]
          simp only [hwv, hb1, hv, hb, k2, k4]
      · rw [deep_copy_array c s new d v w obj data hv hb] at hd
        obtain ⟨obj1, data1, hw, hnew, h10, hcl1, hb1, hall2⟩ := hd
        have hwv : w.val = .objval obj1 := by rw [hw]; rfl
        rw [(containers_of_array s d w obj1 data1 hwv hb1).1]
        have key : ∀ (l1 l2 : List ovm_inst), List.Forall₂ (deep_copy c s new d) l1 l2 →
            (∀ x ∈ l1, built_from c s d (obj :: anc) x = true) →
            (∀ a ∈ l2.flatMap (fun x => containers_of s d x), a ∈ new)
              ∧ l2.flatMap (fun x => strings_of s d x)
                  = l1.flatMap (fun x => strings_of s d x) := by
          intro l1 l2 hfa
          induction hfa with
          | nil => intro _; exact ⟨by simp, rfl⟩
          | cons hxy _ ih2 =>
            intro hbf
            obtain ⟨k1, k2⟩ := ih (obj :: anc) _ _ (hbf _ (by simp)) hxy
            obtain ⟨k3, k4⟩ := ih2 (fun x hx => hbf x (by simp [hx]))
            constructor
            · intro a ha
              simp only [List.flatMap_cons, List.mem_append] at ha
              rcases ha with ha | ha
              · exact k1 a ha
              · exact k3 a ha
            · simp only [List.flatMap_cons, k2, k4]
        obtain ⟨k1, k2⟩ := key data data1 hall2 hall
        constructor
        · intro a ha
          simp only [List.mem_cons] at ha
          rcases ha with rfl | ha
          · exact hnew
          · exact k1 a ha
        · rw [strings_of, strings_of]
          simp only [hwv, hb1, hv, hb, k2]

theorem str_equal_self (str : ovm_obj_str) : str_equal str str = true := by
  simp [str_equal, str_equalc]

theorem ovm_is_subclass_of_self (fuel : Nat) (s : ovm_objs) (cl : Nat) (h : cl ≠ 0) :
    ovm_is_subclass_of (fuel + 1) s cl cl = .ok true := by
  unfold ovm_is_subclass_of
  simp only [h, if_false, if_true]

theorem array_equal_loop_true (equal : ovm_inst → ovm_inst → Except ovm_stop Bool)
    (R : ovm_inst → ovm_inst → Prop) (l1 l2 : List ovm_inst) (h : List.Forall₂ R l1 l2)
    (heq : ∀ x ∈ l1, ∀ y, R x y → equal x y = .ok true) :
    array_equal_loop equal l1 l2 = .ok true := by
  induction h with
  | nil => rfl
  | cons hxy _ ih =>
    unfold array_equal_loop
    rw [heq _ (by simp) _ hxy]
    exact ih (fun x hx y hr => heq x (by simp [hx]) y hr)

theorem deep_copy_equal (c : ovm_consts)
    (other : ovm_objs → ovm_inst → ovm_inst → Except ovm_stop Bool) (s : ovm_objs)
    (new : List Nat) (hne : c.Pair ≠ c.Array) (ha0 : c.Array ≠ 0) (d : Nat) :
    ∀ (fuel : Nat) (anc : List Nat) (v w : ovm_inst), built_from c s d anc v = true →
      deep_copy c s new d v w → d ≤ fuel → ovm_equal c other fuel s v w = .ok true := by
  induction d with
  | zero => intro fuel anc v w h; rw [built_from_zero] at h; exact absurd h (by simp)
  | succ d ih =>
    intro fuel anc v w h hd hfuel
    obtain ⟨fuel, rfl⟩ : ∃ k, fuel = k + 1 := ⟨fuel - 1, by omega⟩
    rcases built_from_cases c s d anc v h with ⟨i, hv⟩ | ⟨b, hv⟩ | ⟨o, str, hv⟩ | ⟨obj, hv⟩
    · rw [deep_copy_atom c s new d v w (Or.inl ⟨i, hv⟩)] at hd
      subst hd
      unfold ovm_equal
      simp [hv, Integer_equal]
    · rw [deep_copy_atom c s new d v w (Or.inr (Or.inl ⟨b, hv⟩))] at hd
      subst hd
      unfold ovm_equal
      simp [hv, Boolean_equal]
    · rw [deep_copy_atom c s new d v w (Or.inr (Or.inr ⟨o, str, hv⟩))] at hd
      subst hd
      unfold ovm_equal
      simp [hv, String_equal, ovm_inst_of_raw, str_equal_self]
    · obtain ⟨h0, hanc, hc⟩ := built_from_objval c s d anc v obj hv h
      rcases hc with ⟨f, g, hb, hcl, hf, hg⟩ | ⟨data, hb, hcl, hall⟩
      · rw [deep_copy_pair c s new d v w obj f g hv hb] at hd
        obtain ⟨obj1, f1, g1, hw, hnew, h10, hcl1, hb1, hdf, hdg⟩ := hd
        have hraw : ovm_inst_of_raw c s.inst_of w = c.Pair := by
          rw [hw]; simp [ovm_inst_of_raw, inst_obj, h10, hcl1]
        have hwo : w.objval = obj1 := by rw [hw]; rfl
        unfold ovm_equal
        simp only [hv, h0, if_false, hcl, if_true]
        unfold Pair_equal
        simp only [hraw, if_true, hb, hwo, hb1,
          ih fuel (obj :: anc) f f1 hf hdf (by omega),
          ih fuel (obj :: anc) g g1 hg hdg (by omega)]
      · rw [deep_copy_array c s new d v w obj data hv hb] at hd
        obtain ⟨obj1, data1, hw, hnew, h10, hcl1, hb1, hall2⟩ := hd
        have hraw : ovm_inst_of_raw c s.inst_of w = c.Array := by
          rw [hw]; simp [ovm_inst_of_raw, inst_obj, h10, hcl1]
        have hwo : w.objval = obj1 := by rw [hw]; rfl
        have hnp : ¬ (c.Array = c.Pair) := fun e => hne e.symm
        unfold ovm_equal
        simp only [hv, h0, if_false, hcl, hnp, if_true]
        unfold Array_equal
        simp only [hraw, ovm_is_subclass_of_self fuel s c.Array ha0, hb, hwo, hb1,
          (List.Forall₂.length_eq hall2).symm, if_true]
        exact array_equal_loop_true _ _ data data1 hall2
          (fun x hx y hr => ih fuel (obj :: anc) x y (hall x hx) hr (by omega))

theorem free_split (F : List Nat) (nf ng : Nat) (h : nf + ng + 1 ≤ F.length) :
    ∃ obj1 rest, (F.drop nf).drop ng = obj1 :: rest
      ∧ F.take (nf + ng + 1) = F.take nf ++ (F.drop nf).take ng ++ [obj1]
      ∧ F.drop (nf + ng + 1) = rest := by
  have hlen : ((F.drop nf).drop ng).length = F.length - nf - ng := by
    rw [List.length_drop, List.length_drop]
  cases hd : (F.drop nf).drop ng with
  | nil => rw [hd] at hlen; simp at hlen; omega
  | cons obj1 rest =>
    refine ⟨obj1, rest, rfl, ?_, ?_⟩
    · rw [List.drop_drop] at hd
      rw [List.take_add, List.take_add, hd]
      rfl
    · rw [List.drop_drop] at hd
      have : F.drop (nf + ng + 1) = (F.drop (nf + ng)).drop 1 := by
        rw [List.drop_drop]
      rw [this, hd]
      rfl

theorem objs_kept_of_frame (s s1 : ovm_objs) (n : Nat) (hf : free_ok s)
    (hframe : ∀ a, a ∉ s.free.take n → s1.body a = s.body a ∧ s1.inst_of a = s.inst_of a) :
    objs_kept s s1 := by
  intro a ha
  exact hframe a (fun hc => ha (hf.2.2 a (List.mem_of_mem_take hc)))

theorem obj_unlock_ok (s : ovm_objs) (obj : Nat) (b : ovm_body) (hbody : s.body obj = some b) :
    ∃ s1, obj_unlock s obj = .ok s1 ∧ s1.locked obj = false ∧ s1.body = s.body
      ∧ s1.inst_of = s.inst_of ∧ s1.free = s.free
      ∧ ∀ p, p ≠ obj → s1.locked p = s.locked p := by
  refine ⟨{ s with locked := fun p => if p = obj then false else s.locked p }, ?_, by simp,
    rfl, rfl, rfl, fun p hp => by simp [hp]⟩
  unfold obj_unlock
  simp only [hbody]

theorem pair_copydeep_ok (c : ovm_consts)
    (cd : ovm_objs → ovm_inst → Except ovm_stop (ovm_objs × ovm_inst)) (d : Nat)
    (hcd : copydeep_ok c cd d) (s : ovm_objs) (anc : List Nat) (v : ovm_inst) (obj : Nat)
    (f g : ovm_inst) (hv : v.val = .objval obj) (hb : s.body obj = some (.pair f g))
    (hf : built_from c s d (obj :: anc) f = true) (hg : built_from c s d (obj :: anc) g = true)
    (hfree : free_ok s) (hmem : (containers_of s (d + 1) v).length ≤ s.free.length)
    (hlock : ∀ a ∈ containers_of s (d + 1) v, s.locked a = false)
    (hnd : (pairs_of s (d + 1) v).Nodup) :
    ∃ s1 w, pair_copydeep c cd s obj = .ok (s1, w)
      ∧ s1.free = s.free.drop (containers_of s (d + 1) v).length
      ∧ free_ok s1
      ∧ (∀ a, a ∉ s.free.take (containers_of s (d + 1) v).length →
          s1.body a = s.body a ∧ s1.inst_of a = s.inst_of a)
      ∧ (∀ a, a ∉ s.free.take (containers_of s (d + 1) v).length → a ∉ pairs_of s (d + 1) v →
          s1.locked a = s.locked a)
      ∧ deep_copy c s1 (s.free.take (containers_of s (d + 1) v).length) (d + 1) v w := by
  obtain ⟨e1, e2⟩ := containers_of_pair s d v obj f g hv hb
  rw [e1] at hmem hlock ⊢
  rw [e2] at hnd ⊢
  simp only [List.length_cons, List.length_append] at hmem ⊢
  rw [List.nodup_cons, List.nodup_append] at hnd
  obtain ⟨hobjp, hndf, hndg, hdisj⟩ := hnd
  have hnofree : ∀ a, s.body a ≠ none → a ∉ s.free := fun a ha hc => ha (hfree.2.2 a hc)
  have hobj_nf : obj ∉ s.free := hnofree obj (by rw [hb]; simp)
  -- the lock
  obtain ⟨s0, hlk0, hl0, hb0, hi0, hfr0, hother0⟩ :=
    obj_lock_loop_chk_ok s obj _ hb (hlock obj (by simp))
  have hk0 : objs_kept s s0 := fun a _ => ⟨by rw [hb0], by rw [hi0]⟩
  have hfree0 : free_ok s0 := by
    refine ⟨by rw [hfr0]; exact hfree.1, by rw [hfr0]; exact hfree.2.1, ?_⟩
    intro a ha
    rw [hb0]
    exact hfree.2.2 a (by rw [← hfr0]; exact ha)
  -- the first
  obtain ⟨hf0, hcf0, hpf0⟩ := built_from_kept c s s0 hk0 d _ f hf
  have hcf := built_from_containers c s d _ f hf
  have hcg := built_from_containers c s d _ g hg
  obtain ⟨s1, w1, hrun1, hfr1, hfree1, hframe1, hlock1, hdc1⟩ :=
    hcd s0 (obj :: anc) f hf0 hfree0 (by rw [hcf0, hfr0]; omega)
      (fun a ha => by
        rw [hcf0] at ha
        rw [hother0 a (fun e => (hcf a ha).1 (by rw [e]; simp))]
        exact hlock a (by simp [ha]))
      (by rw [hpf0]; exact hndf)
  rw [hcf0, hfr0] at hfr1 hframe1 hlock1 hdc1
  rw [hpf0] at hlock1
  rw [hb0, hi0] at hframe1
  have hk1 : objs_kept s s1 := objs_kept_of_frame s s1 _ hfree hframe1
  -- the second
  obtain ⟨hg1, hcg1, hpg1⟩ := built_from_kept c s s1 hk1 d _ g hg
  obtain ⟨s2, w2, hrun2, hfr2, hfree2, hframe2, hlock2, hdc2⟩ :=
    hcd s1 (obj :: anc) g hg1 hfree1
      (by rw [hcg1, hfr1, List.length_drop]; omega)
      (fun a ha => by
        rw [hcg1] at ha
        have hab := (hcg a ha).2.2
        have hnt : a ∉ s.free.take (containers_of s d f).length :=
          fun hc => hnofree a hab (List.mem_of_mem_take hc)
        have hnp : a ∉ pairs_of s d f := by
          intro hc
          rcases containers_of_kind s d g a ha with hk | ⟨data, hk⟩
          · exact hdisj hc hk
          · obtain ⟨_, x, y, hxy⟩ := pairs_of_body s d f a hc
            rw [hxy] at hk
            simp at hk
        rw [hlock1 a hnt hnp, hother0 a (fun e => (hcg a ha).1 (by rw [e]; simp))]
        exact hlock a (by simp [ha]))
      (by rw [hpg1]; exact hndg)
  rw [hcg1, hfr1] at hfr2 hframe2 hlock2 hdc2
  rw [hpg1] at hlock2
  -- the new Pair
  obtain ⟨obj1, rest, hsplit, htake, hdrop⟩ :=
    free_split s.free (containers_of s d f).length (containers_of s d g).length (by omega)
  obtain ⟨s3, halloc, hfr3, hbody3, hcl3, _, hframe3⟩ :=
    ovm_obj_alloc_spec s2 c.Pair (.pair w1 w2) obj1 rest (by rw [hfr2, hsplit])
  obtain ⟨s4, hunlock, _, hb4, hi4, hfr4, hother4⟩ := obj_unlock_ok s3 obj1 _ hbody3
  have hfree3 : free_ok s3 :=
    free_ok_tail s2 s3 obj1 rest hfree2 (by rw [hfr2, hsplit]) hfr3 (fun p hp => (hframe3 p hp).1)
  have hF : s.free.take (containers_of s d f).length
      ++ (s.free.drop (containers_of s d f).length).take (containers_of s d g).length
      ++ [obj1] = s.free.take ((containers_of s d f).length + (containers_of s d g).length + 1) :=
    htake.symm
  have hndF : (s.free.take (containers_of s d f).length
      ++ (s.free.drop (containers_of s d f).length).take (containers_of s d g).length
      ++ [obj1]).Nodup := by
    rw [hF]
    exact List.Nodup.sublist (List.take_sublist _ _) hfree.1
  rw [List.nodup_append, List.nodup_append] at hndF
  obtain ⟨⟨_, _, hd12⟩, _, hd3⟩ := hndF
  have hobj1_mem : obj1 ∈ s.free := by
    have : obj1 ∈ s.free.take
        ((containers_of s d f).length + (containers_of s d g).length + 1) := by
      rw [← hF]; simp
    exact List.mem_of_mem_take this
  have hobj1_0 : obj1 ≠ 0 := fun e => hfree.2.1 (e ▸ hobj1_mem)
  have hsplit_mem : ∀ a, a ∉ s.free.take
      ((containers_of s d f).length + (containers_of s d g).length + 1) →
      a ∉ s.free.take (containers_of s d f).length
        ∧ a ∉ (s.free.drop (containers_of s d f).length).take (containers_of s d g).length
        ∧ a ≠ obj1 := by
    intro a ha
    rw [← hF] at ha
    simp only [List.mem_append, List.mem_singleton, not_or] at ha
    exact ⟨ha.1.1, ha.1.2, ha.2⟩
  have hfull : ∀ a, a ∉ s.free.take (containers_of s d f).length →
      a ∉ (s.free.drop (containers_of s d f).length).take (containers_of s d g).length →
      a ≠ obj1 → s4.body a = s.body a ∧ s4.inst_of a = s.inst_of a := by
    intro a h1 h2 h3
    rw [hb4, hi4, (hframe3 a h3).1, (hframe3 a h3).2.1, (hframe2 a h2).1, (hframe2 a h2).2]
    exact hframe1 a h1
  refine ⟨s4, inst_obj obj1, ?_, ?_, ?_, ?_, ?_, ?_⟩
  · unfold pair_copydeep
    simp only [hlk0, hb0, hb, hrun1, (hk1 obj (by rw [hb]; simp)).1, hrun2, pair_new, halloc,
      hunlock]
  · rw [hfr4, hfr3, hdrop]
  · refine ⟨by rw [hfr4]; exact hfree3.1, by rw [hfr4]; exact hfree3.2.1, ?_⟩
    intro a ha
    rw [hb4]
    exact hfree3.2.2 a (by rw [← hfr4]; exact ha)
  · intro a ha
    obtain ⟨h1, h2, h3⟩ := hsplit_mem a ha
    exact hfull a h1 h2 h3
  · intro a ha hnp
    obtain ⟨h1, h2, h3⟩ := hsplit_mem a ha
    simp only [List.mem_cons, List.mem_append, not_or] at hnp
    rw [hother4 a h3, (hframe3 a h3).2.2, hlock2 a h2 hnp.2.2, hlock1 a h1 hnp.2.1,
      hother0 a hnp.1]
  · have hbobj : s4.body obj = some (.pair f g) := by
      have hobj_nt : ∀ n, obj ∉ s.free.take n := fun n hc => hobj_nf (List.mem_of_mem_take hc)
      have hobj_nt2 : obj ∉ (s.free.drop (containers_of s d f).length).take
          (containers_of s d g).length :=
        fun hc => hobj_nf (List.mem_of_mem_drop (List.mem_of_mem_take hc))
      rw [(hfull obj (hobj_nt _) hobj_nt2 (fun e => hobj_nf (e ▸ hobj1_mem))).1, hb]
    rw [deep_copy_pair c s4 _ d v (inst_obj obj1) obj f g hv hbobj]
    refine ⟨obj1, w1, w2, rfl, by rw [← hF]; simp, hobj1_0, by rw [hi4]; exact hcl3,
      by rw [hb4]; exact hbody3, ?_, ?_⟩
    · have hf1 := (built_from_kept c s s1 hk1 d _ f hf)
      apply deep_copy_mono c s1 s4 _ _ (fun a ha => by rw [← hF]; simp [ha]) d (obj :: anc)
        f w1 hf1.1 hdc1
      intro a ha
      have hlate : a ∉ (s.free.drop (containers_of s d f).length).take
          (containers_of s d g).length ∧ a ≠ obj1 := by
        rcases ha with ha | ha
        · rw [hf1.2.1] at ha
          have hnf := hnofree a (hcf a ha).2.2
          exact ⟨fun hc => hnf (List.mem_of_mem_drop (List.mem_of_mem_take hc)),
            fun e => hnf (e ▸ hobj1_mem)⟩
        · exact ⟨fun hc => hd12 ha hc,
            fun e => hd3 (List.mem_append_left _ ha) (by rw [e]; simp)⟩
      rw [hb4, hi4, (hframe3 a hlate.2).1, (hframe3 a hlate.2).2.1]
      exact hframe2 a hlate.1
    · have hk2 : objs_kept s s2 := by
        intro a ha
        have hnf := hnofree a ha
        rw [(hframe2 a (fun hc => hnf (List.mem_of_mem_drop (List.mem_of_mem_take hc)))).1,
          (hframe2 a (fun hc => hnf (List.mem_of_mem_drop (List.mem_of_mem_take hc)))).2]
        exact hframe1 a (fun hc => hnf (List.mem_of_mem_take hc))
      have hg2 := (built_from_kept c s s2 hk2 d _ g hg)
      apply deep_copy_mono c s2 s4 _ _ (fun a ha => by rw [← hF]; simp [ha]) d (obj :: anc)
        g w2 hg2.1 hdc2
      intro a ha
      have hlate : a ≠ obj1 := by
        rcases ha with ha | ha
        · rw [hg2.2.1] at ha
          exact fun e => hnofree a (hcg a ha).2.2 (e ▸ hobj1_mem)
        · exact fun e => hd3 (List.mem_append_right _ ha) (by rw [e]; simp)
      rw [hb4, hi4]
      exact ⟨(hframe3 a hlate).1, (hframe3 a hlate).2.1⟩

theorem deep_copy_subset (c : ovm_consts) (s : ovm_objs) (new new2 : List Nat)
    (hsub : ∀ a ∈ new, a ∈ new2) (d : Nat) :
    ∀ (v w : ovm_inst), deep_copy c s new d v w → deep_copy c s new2 d v w := by
  induction d with
  | zero => intro v w h; rw [deep_copy] at h; exact absurd h id
  | succ d ih =>
    intro v w h
    cases hv : v.val with
    | intval i =>
      rw [deep_copy_atom c s _ d v w (Or.inl ⟨i, hv⟩)] at h ⊢
      exact h
    | boolval b =>
      rw [deep_copy_atom c s _ d v w (Or.inr (Or.inl ⟨b, hv⟩))] at h ⊢
      exact h
    | strval o str =>
      rw [deep_copy_atom c s _ d v w (Or.inr (Or.inr ⟨o, str, hv⟩))] at h ⊢
      exact h
    | objval obj =>
      cases hb : s.body obj with
      | none => rw [deep_copy] at h; simp only [hv, hb] at h
      | some b =>
        cases b with
        | pair f g =>
          rw [deep_copy_pair c s _ d v w obj f g hv hb] at h ⊢
          obtain ⟨obj1, f1, g1, hw, hnew, h10, hcl1, hb1, hdf, hdg⟩ := h
          exact ⟨obj1, f1, g1, hw, hsub _ hnew, h10, hcl1, hb1, ih f f1 hdf, ih g g1 hdg⟩
        | array data =>
          rw [deep_copy_array c s _ d v w obj data hv hb] at h ⊢
          obtain ⟨obj1, data1, hw, hnew, h10, hcl1, hb1, hall⟩ := h
          exact ⟨obj1, data1, hw, hsub _ hnew, h10, hcl1, hb1,
            forall2_mono_mem _ _ data data1 hall (fun x _ y hr => ih x y hr)⟩
        | _ => rw [deep_copy] at h; simp only [hv, hb] at h
    | _ => rw [deep_copy] at h; simp only [hv] at h

theorem set_append_at (pre : List ovm_inst) (x w : ovm_inst) (R : List ovm_inst) :
    (pre ++ x :: R).set pre.length w = pre ++ w :: R := by
  induction pre with
  | nil => rfl
  | cons p pre ih => simp [ih]

theorem get_append_at (pre : List ovm_inst) (x : ovm_inst) (R : List ovm_inst) :
    (pre ++ x :: R).get? pre.length = some x := by
  induction pre with
  | nil => rfl
  | cons p pre ih => simpa using ih

theorem array_copydeep_loop_ok (c : ovm_consts)
    (cd : ovm_objs → ovm_inst → Except ovm_stop (ovm_objs × ovm_inst)) (d : Nat)
    (hcd : copydeep_ok c cd d) (a aa : Nat) (haaa : a ≠ aa) (anc : List Nat) :
    ∀ (rest : List ovm_inst) (i : Nat) (s : ovm_objs) (pre done : List ovm_inst),
      s.body a = some (.array (done ++ rest)) → done.length = i →
      s.body aa = some (.array (pre ++ List.replicate rest.length inst_nil)) →
      pre.length = i → aa ∉ s.free →
      (∀ x ∈ rest, built_from c s d anc x = true) →
      (∀ x ∈ rest, aa ∉ containers_of s d x) →
      free_ok s → (rest.flatMap (fun x => containers_of s d x)).length ≤ s.free.length →
      (∀ a ∈ rest.flatMap (fun x => containers_of s d x), s.locked a = false) →
      (rest.flatMap (fun x => pairs_of s d x)).Nodup →
      ∃ s1 copies, array_copydeep_loop cd a aa rest.length i s = .ok s1
        ∧ s1.body aa = some (.array (pre ++ copies))
        ∧ s1.free = s.free.drop (rest.flatMap (fun x => containers_of s d x)).length
        ∧ free_ok s1
        ∧ (∀ a, a ∉ s.free.take (rest.flatMap (fun x => containers_of s d x)).length →
            s1.inst_of a = s.inst_of a ∧ (a ≠ aa → s1.body a = s.body a))
        ∧ (∀ a, a ∉ s.free.take (rest.flatMap (fun x => containers_of s d x)).length →
            a ∉ rest.flatMap (fun x => pairs_of s d x) → s1.locked a = s.locked a)
        ∧ List.Forall₂
            (deep_copy c s1 (s.free.take (rest.flatMap (fun x => containers_of s d x)).length) d)
            rest copies := by
  intro rest
  induction rest with
  | nil =>
    intro i s pre done _ _ hb _ _ _ _ hfree _ _ _
    refine ⟨s, [], rfl, by simpa using hb, by simp, hfree, fun a _ => ⟨rfl, fun _ => rfl⟩,
      fun a _ _ => rfl, List.Forall₂.nil⟩
  | cons x rest ih =>
    intro i s pre done hba0 hdone hb hi haa hbf hnaa hfree hmem hlock hnd
    simp only [List.flatMap_cons, List.length_append] at hmem hlock hnd ⊢
    rw [List.nodup_append] at hnd
    obtain ⟨hndx, hndr, hdisj⟩ := hnd
    have hnofree : ∀ a, s.body a ≠ none → a ∉ s.free := fun a ha hc => ha (hfree.2.2 a hc)
    have hcx := built_from_containers c s d anc x (hbf x (by simp))
    -- the cell
    obtain ⟨sa, w, hrun, hfra, hfreea, hframea, hlocka, hdca⟩ :=
      hcd s anc x (hbf x (by simp)) hfree (by omega)
        (fun a ha => hlock a (by simp [ha])) hndx
    have haa_t : ∀ n, aa ∉ s.free.take n := fun n hc => haa (List.mem_of_mem_take hc)
    have hba : sa.body aa
        = some (.array (pre ++ inst_nil :: List.replicate rest.length inst_nil)) := by
      rw [(hframea aa (haa_t _)).1, hb]
      rfl
    obtain ⟨sb, hsb⟩ : ∃ sb : ovm_objs, sb =
        { sa with body := fun a =>
            if a = aa then
              some (ovm_body.array
                ((pre ++ inst_nil :: List.replicate rest.length inst_nil).set i w))
            else sa.body a } := ⟨_, rfl⟩
    have hbb : sb.body aa
        = some (.array ((pre ++ [w]) ++ List.replicate rest.length inst_nil)) := by
      rw [hsb, ← hi, set_append_at]
      simp
    have hbo : ∀ a, a ≠ aa → sb.body a = sa.body a := by
      intro a ha; rw [hsb]; simp [ha]
    have ha_nf : a ∉ s.free := hnofree a (by rw [hba0]; simp)
    have hbab : sb.body a = some (.array ((done ++ [x]) ++ rest)) := by
      rw [hbo a haaa, (hframea a (fun hc => ha_nf (List.mem_of_mem_take hc))).1, hba0]
      simp
    have hget : (done ++ x :: rest).get? i = some x := by
      rw [← hdone]
      exact get_append_at done x rest
    have hib : sb.inst_of = sa.inst_of := by rw [hsb]
    have hlb : sb.locked = sa.locked := by rw [hsb]
    have hfb : sb.free = sa.free := by rw [hsb]
    -- the footprints of the cells to come are as they were
    have hfoot : ∀ y ∈ rest, ∀ a ∈ containers_of s d y,
        sb.body a = s.body a ∧ sb.inst_of a = s.inst_of a := by
      intro y hy a ha
      have hab := (built_from_containers c s d anc y (hbf y (by simp [hy])) a ha).2.2
      have hne : a ≠ aa := fun e => hnaa y (by simp [hy]) (e ▸ ha)
      have hnt : a ∉ s.free.take (containers_of s d x).length :=
        fun hc => hnofree a hab (List.mem_of_mem_take hc)
      rw [hbo a hne, hib]
      exact hframea a hnt
    have hfr_y : ∀ y ∈ rest, built_from c sb d anc y = true
        ∧ containers_of sb d y = containers_of s d y ∧ pairs_of sb d y = pairs_of s d y :=
      fun y hy => built_from_frame c s sb d anc y (hbf y (by simp [hy])) (hfoot y hy)
    have hcon : rest.flatMap (fun y => containers_of sb d y)
        = rest.flatMap (fun y => containers_of s d y) :=
      List.flatMap_congr (fun y hy => (hfr_y y hy).2.1)
    have hpai : rest.flatMap (fun y => pairs_of sb d y)
        = rest.flatMap (fun y => pairs_of s d y) :=
      List.flatMap_congr (fun y hy => (hfr_y y hy).2.2)
    have hfreeb : free_ok sb := by
      refine ⟨by rw [hfb]; exact hfreea.1, by rw [hfb]; exact hfreea.2.1, ?_⟩
      intro a ha
      rw [hfb] at ha
      have hne : a ≠ aa := by
        intro e
        rw [hfra, e] at ha
        exact haa (List.mem_of_mem_drop ha)
      rw [hbo a hne]
      exact hfreea.2.2 a ha
    obtain ⟨s1, copies, hloop, hb1, hfr1, hfree1, hframe1, hlock1, hall1⟩ :=
      ih (i + 1) sb (pre ++ [w]) (done ++ [x]) hbab (by simp [hdone]) hbb (by simp [hi])
        (by rw [hfb, hfra]; exact fun hc => haa (List.mem_of_mem_drop hc))
        (fun y hy => (hfr_y y hy).1)
        (fun y hy => by rw [(hfr_y y hy).2.1]; exact hnaa y (by simp [hy]))
        hfreeb
        (by rw [hcon, hfb, hfra, List.length_drop]; omega)
        (fun a ha => by
          rw [hcon] at ha
          obtain ⟨y, hy, hay⟩ := List.mem_flatMap.mp ha
          have hab := (built_from_containers c s d anc y (hbf y (by simp [hy])) a hay).2.2
          have hnt : a ∉ s.free.take (containers_of s d x).length :=
            fun hc => hnofree a hab (List.mem_of_mem_take hc)
          have hnp : a ∉ pairs_of s d x := by
            intro hc
            rcases containers_of_kind s d y a hay with hk | ⟨data, hk⟩
            · exact hdisj hc (List.mem_flatMap.mpr ⟨y, hy, hk⟩)
            · obtain ⟨_, p, q, hpq⟩ := pairs_of_body s d x a hc
              rw [hpq] at hk
              simp at hk
          rw [hlb, hlocka a hnt hnp]
          exact hlock a (by simp [ha]))
        (by rw [hpai]; exact hndr)
    rw [hcon, hfb, hfra] at hfr1 hframe1 hlock1 hall1
    rw [hpai] at hlock1
    have htake : s.free.take ((containers_of s d x).length
          + (rest.flatMap (fun y => containers_of s d y)).length)
        = s.free.take (containers_of s d x).length
          ++ (s.free.drop (containers_of s d x).length).take
              (rest.flatMap (fun y => containers_of s d y)).length := List.take_add _ _ _
    have hndF := List.Nodup.sublist (List.take_sublist ((containers_of s d x).length
          + (rest.flatMap (fun y => containers_of s d y)).length) s.free) hfree.1
    rw [htake, List.nodup_append] at hndF
    obtain ⟨_, _, hd12⟩ := hndF
    refine ⟨s1, w :: copies, ?_, ?_, ?_, hfree1, ?_, ?_, ?_⟩
    · rw [List.length_cons, array_copydeep_loop]
      simp only [hba0, hget, hrun, hba, ← hsb]
      exact hloop
    · rw [hb1]; simp
    · rw [hfr1, List.drop_drop]
    · intro a ha
      rw [htake, List.mem_append, not_or] at ha
      obtain ⟨k1, k2⟩ := hframe1 a ha.2
      refine ⟨by rw [k1, hib]; exact (hframea a ha.1).2, fun hne => ?_⟩
      rw [k2 hne, hbo a hne]
      exact (hframea a ha.1).1
    · intro a ha hnp
      rw [htake, List.mem_append, not_or] at ha
      rw [List.mem_append, not_or] at hnp
      rw [hlock1 a ha.2 hnp.2, hlb]
      exact hlocka a ha.1 hnp.1
    · apply List.Forall₂.cons
      · have hka : objs_kept s sa := objs_kept_of_frame s sa _ hfree hframea
        have hxa := built_from_kept c s sa hka d anc x (hbf x (by simp))
        apply deep_copy_mono c sa s1 _ _ (fun a ha => by rw [htake]; exact List.mem_append.mpr (Or.inl ha)) d anc x w
          hxa.1 hdca
        intro a ha
        have hne : a ≠ aa ∧ a ∉ (s.free.drop (containers_of s d x).length).take
            (rest.flatMap (fun y => containers_of s d y)).length := by
          rcases ha with ha | ha
          · rw [hxa.2.1] at ha
            have hnf := hnofree a (hcx a ha).2.2
            exact ⟨fun e => hnaa x (by simp) (e ▸ ha),
              fun hc => hnf (List.mem_of_mem_drop (List.mem_of_mem_take hc))⟩
          · exact ⟨fun e => haa_t _ (e ▸ ha), fun hc => hd12 ha hc⟩
        obtain ⟨k1, k2⟩ := hframe1 a hne.2
        exact ⟨by rw [k2 hne.1, hbo a hne.1], by rw [k1, hib]⟩
      · exact forall2_mono_mem _ _ rest copies hall1
          (fun y _ z hr => deep_copy_subset c s1 _ _
            (fun a ha => by rw [htake]; exact List.mem_append.mpr (Or.inr ha)) d y z hr)

theorem deep_copy_congr (c : ovm_consts) (s s2 : ovm_objs) (new new2 : List Nat)
    (hbody : s2.body = s.body) (hcl : s2.inst_of = s.inst_of)
    (hsub : ∀ a ∈ new, a ∈ new2) (d : Nat) :
    ∀ (v w : ovm_inst), deep_copy c s new d v w → deep_copy c s2 new2 d v w := by
  induction d with
  | zero => intro v w h; rw [deep_copy] at h; exact absurd h id
  | succ d ih =>
    intro v w h
    cases hv : v.val with
    | intval i =>
      rw [deep_copy_atom c s _ d v w (Or.inl ⟨i, hv⟩)] at h
      rw [deep_copy_atom c s2 _ d v w (Or.inl ⟨i, hv⟩)]
      exact h
    | boolval b =>
      rw [deep_copy_atom c s _ d v w (Or.inr (Or.inl ⟨b, hv⟩))] at h
      rw [deep_copy_atom c s2 _ d v w (Or.inr (Or.inl ⟨b, hv⟩))]
      exact h
    | strval o str =>
      rw [deep_copy_atom c s _ d v w (Or.inr (Or.inr ⟨o, str, hv⟩))] at h
      rw [deep_copy_atom c s2 _ d v w (Or.inr (Or.inr ⟨o, str, hv⟩))]
      exact h
    | objval obj =>
      cases hb : s.body obj with
      | none => rw [deep_copy] at h; simp only [hv, hb] at h
      | some b =>
        cases b with
        | pair f g =>
          rw [deep_copy_pair c s _ d v w obj f g hv hb] at h
          rw [deep_copy_pair c s2 _ d v w obj f g hv (by rw [hbody]; exact hb)]
          obtain ⟨obj1, f1, g1, hw, hnew, h10, hcl1, hb1, hdf, hdg⟩ := h
          exact ⟨obj1, f1, g1, hw, hsub _ hnew, h10, by rw [hcl]; exact hcl1,
            by rw [hbody]; exact hb1, ih f f1 hdf, ih g g1 hdg⟩
        | array data =>
          rw [deep_copy_array c s _ d v w obj data hv hb] at h
          rw [deep_copy_array c s2 _ d v w obj data hv (by rw [hbody]; exact hb)]
          obtain ⟨obj1, data1, hw, hnew, h10, hcl1, hb1, hall⟩ := h
          exact ⟨obj1, data1, hw, hsub _ hnew, h10, by rw [hcl]; exact hcl1,
            by rw [hbody]; exact hb1,
            forall2_mono_mem _ _ data data1 hall (fun x _ y hr => ih x y hr)⟩
        | _ => rw [deep_copy] at h; simp only [hv, hb] at h
    | _ => rw [deep_copy] at h; simp only [hv] at h

theorem array_copydeep_ok (c : ovm_consts)
    (cd : ovm_objs → ovm_inst → Except ovm_stop (ovm_objs × ovm_inst)) (d : Nat)
    (hcd : copydeep_ok c cd d) (s : ovm_objs) (anc : List Nat) (v : ovm_inst) (obj : Nat)
    (data : List ovm_inst) (hv : v.val = .objval obj) (hb : s.body obj = some (.array data))
    (hcl : s.inst_of obj = c.Array)
    (hall : ∀ x ∈ data, built_from c s d (obj :: anc) x = true)
    (hfree : free_ok s) (hmem : (containers_of s (d + 1) v).length ≤ s.free.length)
    (hlock : ∀ a ∈ containers_of s (d + 1) v, s.locked a = false)
    (hnd : (pairs_of s (d + 1) v).Nodup) :
    ∃ s1 w, array_copydeep_unsafe cd s (s.inst_of obj) obj = .ok (s1, w)
      ∧ s1.free = s.free.drop (containers_of s (d + 1) v).length
      ∧ free_ok s1
      ∧ (∀ a, a ∉ s.free.take (containers_of s (d + 1) v).length →
          s1.body a = s.body a ∧ s1.inst_of a = s.inst_of a)
      ∧ (∀ a, a ∉ s.free.take (containers_of s (d + 1) v).length → a ∉ pairs_of s (d + 1) v →
          s1.locked a = s.locked a)
      ∧ deep_copy c s1 (s.free.take (containers_of s (d + 1) v).length) (d + 1) v w := by
  obtain ⟨e1, e2⟩ := containers_of_array s d v obj data hv hb
  rw [e1] at hmem hlock ⊢
  rw [e2] at hnd ⊢
  simp only [List.length_cons] at hmem ⊢
  have hnofree : ∀ a, s.body a ≠ none → a ∉ s.free := fun a ha hc => ha (hfree.2.2 a hc)
  have hobj_nf : obj ∉ s.free := hnofree obj (by rw [hb]; simp)
  -- the lock
  obtain ⟨s0, hlk0, hl0, hb0, hi0, hfr0, hother0⟩ :=
    obj_lock_loop_chk_ok s obj _ hb (hlock obj (by simp))
  have hfree0 : free_ok s0 := by
    refine ⟨by rw [hfr0]; exact hfree.1, by rw [hfr0]; exact hfree.2.1, ?_⟩
    intro a ha
    rw [hb0]
    exact hfree.2.2 a (by rw [← hfr0]; exact ha)
  -- the new Array
  obtain ⟨aa, rest, hsf⟩ : ∃ aa rest, s.free = aa :: rest := by
    cases hs : s.free with
    | nil => rw [hs] at hmem; simp at hmem
    | cons aa rest => exact ⟨aa, rest, rfl⟩
  have haa_mem : aa ∈ s.free := by rw [hsf]; simp
  have haa0 : aa ≠ 0 := fun e => hfree.2.1 (e ▸ haa_mem)
  have haa_obj : obj ≠ aa := fun e => hobj_nf (e ▸ haa_mem)
  have hndf := hfree.1
  rw [hsf, List.nodup_cons] at hndf
  obtain ⟨s2, halloc, hfr2, hbody2, hcl2, _, hframe2⟩ :=
    ovm_obj_alloc_spec s0 (s.inst_of obj) (.array (List.replicate data.length inst_nil)) aa rest
      (by rw [hfr0, hsf])
  have hfree2 : free_ok s2 :=
    free_ok_tail s0 s2 aa rest hfree0 (by rw [hfr0, hsf]) hfr2 (fun p hp => (hframe2 p hp).1)
  have hk2 : objs_kept s s2 := by
    intro a ha
    have hne : a ≠ aa := fun e => hnofree a ha (e ▸ haa_mem)
    rw [(hframe2 a hne).1, (hframe2 a hne).2.1, hb0, hi0]
    exact ⟨rfl, rfl⟩
  have hfr_y : ∀ y ∈ data, built_from c s2 d (obj :: anc) y = true
      ∧ containers_of s2 d y = containers_of s d y ∧ pairs_of s2 d y = pairs_of s d y :=
    fun y hy => built_from_kept c s s2 hk2 d _ y (hall y hy)
  have hcon : data.flatMap (fun y => containers_of s2 d y)
      = data.flatMap (fun y => containers_of s d y) :=
    List.flatMap_congr (fun y hy => (hfr_y y hy).2.1)
  have hpai : data.flatMap (fun y => pairs_of s2 d y)
      = data.flatMap (fun y => pairs_of s d y) :=
    List.flatMap_congr (fun y hy => (hfr_y y hy).2.2)
  have hcfacts : ∀ a ∈ data.flatMap (fun y => containers_of s d y),
      a ≠ obj ∧ a ≠ aa ∧ a ∉ s.free := by
    intro a ha
    obtain ⟨y, hy, hay⟩ := List.mem_flatMap.mp ha
    obtain ⟨h1, _, h3⟩ := built_from_containers c s d _ y (hall y hy) a hay
    exact ⟨fun e => h1 (by rw [e]; simp), fun e => hnofree a h3 (e ▸ haa_mem), hnofree a h3⟩
  have hlen : rest.length + 1 = s.free.length := by rw [hsf]; rfl
  obtain ⟨s3, copies, hloop, hb3, hfr3, hfree3, hframe3, hlock3, hall3⟩ :=
    array_copydeep_loop_ok c cd d hcd obj aa haa_obj (obj :: anc) data 0 s2 [] []
      (by rw [(hframe2 obj haa_obj).1, hb0, hb]; rfl) rfl
      (by rw [hbody2]; rfl) rfl (by rw [hfr2]; exact hndf.1)
      (fun y hy => (hfr_y y hy).1)
      (fun y hy hc => by
        rw [(hfr_y y hy).2.1] at hc
        exact (hcfacts aa (List.mem_flatMap.mpr ⟨y, hy, hc⟩)).2.1 rfl)
      hfree2
      (by rw [hcon, hfr2]; omega)
      (fun a ha => by
        rw [hcon] at ha
        obtain ⟨h1, h2, _⟩ := hcfacts a ha
        rw [(hframe2 a h2).2.2, hother0 a h1]
        exact hlock a (by simp [ha]))
      (by rw [hpai]; exact hnd)
  rw [hcon, hfr2] at hfr3 hframe3 hlock3 hall3
  rw [hpai] at hlock3
  simp only [List.nil_append] at hb3
  have hobj_nt : obj ∉ rest.take (data.flatMap (fun y => containers_of s d y)).length :=
    fun hc => hobj_nf (by rw [hsf]; exact List.mem_cons_of_mem _ (List.mem_of_mem_take hc))
  have haa_nt : aa ∉ rest.take (data.flatMap (fun y => containers_of s d y)).length :=
    fun hc => hndf.1 (List.mem_of_mem_take hc)
  have hbobj3 : s3.body obj = some (.array data) := by
    rw [(hframe3 obj hobj_nt).2 haa_obj, (hframe2 obj haa_obj).1, hb0, hb]
  obtain ⟨s4, hunlock, hl4, hb4, hi4, hfr4, hother4⟩ := obj_unlock_ok s3 obj _ hbobj3
  have htake : s.free.take ((data.flatMap (fun y => containers_of s d y)).length + 1)
      = aa :: rest.take (data.flatMap (fun y => containers_of s d y)).length := by
    rw [hsf]; rfl
  have hdrop : s.free.drop ((data.flatMap (fun y => containers_of s d y)).length + 1)
      = rest.drop (data.flatMap (fun y => containers_of s d y)).length := by
    rw [hsf]; rfl
  refine ⟨s4, inst_obj aa, ?_, ?_, ?_, ?_, ?_, ?_⟩
  · unfold array_copydeep_unsafe
    simp only [hlk0, hb0, hb, halloc, hloop, hunlock]
  · rw [hfr4, hfr3, hdrop]
  · refine ⟨by rw [hfr4]; exact hfree3.1, by rw [hfr4]; exact hfree3.2.1, ?_⟩
    intro a ha
    rw [hb4]
    exact hfree3.2.2 a (by rw [← hfr4]; exact ha)
  · intro a ha
    rw [htake, List.mem_cons, not_or] at ha
    rw [hb4, hi4, (hframe3 a ha.2).1, (hframe3 a ha.2).2 ha.1, (hframe2 a ha.1).1,
      (hframe2 a ha.1).2.1, hb0, hi0]
    exact ⟨rfl, rfl⟩
  · intro a ha hnp
    rw [htake, List.mem_cons, not_or] at ha
    by_cases hao : a = obj
    · rw [hao, hl4]
      exact (hlock obj (by simp)).symm
    · rw [hother4 a hao, hlock3 a ha.2 hnp, (hframe2 a ha.1).2.2, hother0 a hao]
  · have hbobj4 : s4.body obj = some (.array data) := by rw [hb4]; exact hbobj3
    rw [deep_copy_array c s4 _ d v (inst_obj aa) obj data hv hbobj4]
    refine ⟨aa, copies, rfl, by rw [htake]; simp, haa0, ?_, by rw [hb4]; exact hb3, ?_⟩
    · rw [hi4, (hframe3 aa haa_nt).1, hcl2, hcl]
    · exact forall2_mono_mem _ _ data copies hall3
        (fun y _ z hr => deep_copy_congr c s3 s4 _ _ hb4 hi4
          (fun a ha => by rw [htake]; exact List.mem_cons_of_mem _ ha) d y z hr)

theorem ovm_copydeep_ok (c : ovm_consts)
    (other : ovm_objs → ovm_inst → Except ovm_stop (ovm_objs × ovm_inst))
    (hPA : c.Pair ≠ c.Array) (hLA : c.List ≠ c.Array) :
    ∀ (d fuel : Nat), d ≤ fuel → copydeep_ok c (ovm_copydeep c other fuel) d := by
  intro d
  induction d with
  | zero =>
    intro fuel _ s anc v h
    rw [built_from_zero] at h
    exact absurd h (by simp)
  | succ d ih =>
    intro fuel hfuel s anc v h hfree hmem hlock hnd
    obtain ⟨fuel, rfl⟩ : ∃ k, fuel = k + 1 := ⟨fuel - 1, by omega⟩
    have hcd := ih fuel (by omega)
    have hatom : ((∃ i, v.val = .intval i) ∨ (∃ b, v.val = .boolval b)
        ∨ ∃ obj str, v.val = .strval obj str) →
        ovm_copydeep c other (fuel + 1) s v = .ok (s, v) →
        ∃ s1 w, ovm_copydeep c other (fuel + 1) s v = .ok (s1, w)
          ∧ s1.free = s.free.drop (containers_of s (d + 1) v).length
          ∧ free_ok s1
          ∧ (∀ a, a ∉ s.free.take (containers_of s (d + 1) v).length →
              s1.body a = s.body a ∧ s1.inst_of a = s.inst_of a)
          ∧ (∀ a, a ∉ s.free.take (containers_of s (d + 1) v).length →
              a ∉ pairs_of s (d + 1) v → s1.locked a = s.locked a)
          ∧ deep_copy c s1 (s.free.take (containers_of s (d + 1) v).length) (d + 1) v w := by
      intro hk hrun
      have hna : ∀ obj, v.val ≠ .objval obj := by
        intro obj
        rcases hk with ⟨i, hv⟩ | ⟨b, hv⟩ | ⟨o, str, hv⟩ <;> rw [hv] <;> simp
      rw [containers_of_atom _ _ _ hna]
      refine ⟨s, v, hrun, rfl, hfree, fun a _ => ⟨rfl, rfl⟩, fun a _ _ => rfl, ?_⟩
      rw [deep_copy_atom c s _ d v v hk]
    rcases built_from_cases c s d anc v h with ⟨i, hv⟩ | ⟨b, hv⟩ | ⟨o, str, hv⟩ | ⟨obj, hv⟩
    · exact hatom (Or.inl ⟨i, hv⟩) (by rw [ovm_copydeep]; simp only [hv])
    · exact hatom (Or.inr (Or.inl ⟨b, hv⟩)) (by rw [ovm_copydeep]; simp only [hv])
    · exact hatom (Or.inr (Or.inr ⟨o, str, hv⟩)) (by rw [ovm_copydeep]; simp only [hv])
    · obtain ⟨h0, _, hc⟩ := built_from_objval c s d anc v obj hv h
      rcases hc with ⟨f, g, hb, hcl, hf, hg⟩ | ⟨data, hb, hcl, hall⟩
      · have hrun : ovm_copydeep c other (fuel + 1) s v
            = pair_copydeep c (ovm_copydeep c other fuel) s obj := by
          rw [ovm_copydeep]
          simp only [hv, h0, hcl, if_false, if_true]
        rw [hrun]
        exact pair_copydeep_ok c _ d hcd s anc v obj f g hv hb hf hg hfree hmem hlock hnd
      · have hrun : ovm_copydeep c other (fuel + 1) s v
            = array_copydeep_unsafe (ovm_copydeep c other fuel) s (s.inst_of obj) obj := by
          rw [ovm_copydeep]
          simp only [hv, h0, hcl, if_false, if_true, hPA.symm, hLA.symm]
        rw [hrun]
        exact array_copydeep_ok c _ d hcd s anc v obj data hv hb hcl hall hfree hmem hlock hnd

theorem deep_copy_containers (c : ovm_consts) (s : ovm_objs) (new : List Nat) (d : Nat) :
    ∀ (v w : ovm_inst), deep_copy c s new d v w →
      ∀ (k a : Nat), a ∈ containers_of s k w → a ∈ new := by
  induction d with
  | zero => intro v w h; rw [deep_copy] at h; exact absurd h id
  | succ d ih =>
    intro v w h k a ha
    have hatom : w = v → (∀ obj, v.val ≠ .objval obj) → a ∈ new := by
      intro e hna
      rw [e, containers_of_atom _ _ _ hna] at ha
      simp at ha
    cases hv : v.val with
    | intval i =>
      rw [deep_copy_atom c s _ d v w (Or.inl ⟨i, hv⟩)] at h
      exact hatom h (by intro obj; rw [hv]; simp)
    | boolval b =>
      rw [deep_copy_atom c s _ d v w (Or.inr (Or.inl ⟨b, hv⟩))] at h
      exact hatom h (by intro obj; rw [hv]; simp)
    | strval o str =>
      rw [deep_copy_atom c s _ d v w (Or.inr (Or.inr ⟨o, str, hv⟩))] at h
      exact hatom h (by intro obj; rw [hv]; simp)
    | objval obj =>
      cases k with
      | zero => simp [containers_of] at ha
      | succ k =>
        cases hb : s.body obj with
        | none => rw [deep_copy] at h; simp only [hv, hb] at h
        | some b =>
          cases b with
          | pair f g =>
            rw [deep_copy_pair c s _ d v w obj f g hv hb] at h
            obtain ⟨obj1, f1, g1, hw, hnew, _, _, hb1, hdf, hdg⟩ := h
            have hwv : w.val = .objval obj1 := by rw [hw]; rfl
            rw [(containers_of_pair s k w obj1 f1 g1 hwv hb1).1] at ha
            simp only [List.mem_cons, List.mem_append] at ha
            rcases ha with rfl | ha | ha
            · exact hnew
            · exact ih f f1 hdf k a ha
            · exact ih g g1 hdg k a ha
          | array data =>
            rw [deep_copy_array c s _ d v w obj data hv hb] at h
            obtain ⟨obj1, data1, hw, hnew, _, _, hb1, hall⟩ := h
            have hwv : w.val = .objval obj1 := by rw [hw]; rfl
            rw [(containers_of_array s k w obj1 data1 hwv hb1).1] at ha
            simp only [List.mem_cons] at ha
            rcases ha with rfl | ha
            · exact hnew
            · obtain ⟨y, hy, hay⟩ := List.mem_flatMap.mp ha
              have key : ∀ (l1 l2 : List ovm_inst), List.Forall₂ (deep_copy c s new d) l1 l2 →
                  ∀ y ∈ l2, ∃ x, deep_copy c s new d x y := by
                intro l1 l2 hfa
                induction hfa with
                | nil => intro y hy; simp at hy
                | cons hxy _ ih2 =>
                  intro y hy
                  rcases List.mem_cons.mp hy with rfl | hy
                  · exact ⟨_, hxy⟩
                  · exact ih2 y hy
              obtain ⟨x, hx⟩ := key data data1 hall y hy
              exact ih x y hx k a hay
          | _ => rw [deep_copy] at h; simp only [hv, hb] at h
    | _ => rw [deep_copy] at h; simp only [hv] at h

theorem containers_of_depth (c : ovm_consts) (s : ovm_objs) (d : Nat) :
    ∀ (anc : List Nat) (v : ovm_inst), built_from c s d anc v = true →
      ∀ (j a : Nat), a ∈ containers_of s j v → a ∈ containers_of s d v := by
  induction d with
  | zero => intro anc v h; rw [built_from_zero] at h; exact absurd h (by simp)
  | succ d ih =>
    intro anc v h j a ha
    rcases built_from_cases c s d anc v h with ⟨i, hv⟩ | ⟨b, hv⟩ | ⟨o, str, hv⟩ | ⟨obj, hv⟩
    · rw [containers_of_atom _ _ _ (by intro obj; rw [hv]; simp)] at ha; simp at ha
    · rw [containers_of_atom _ _ _ (by intro obj; rw [hv]; simp)] at ha; simp at ha
    · rw [containers_of_atom _ _ _ (by intro obj; rw [hv]; simp)] at ha; simp at ha
    · cases j with
      | zero => simp [containers_of] at ha
      | succ j =>
        obtain ⟨_, _, hc⟩ := built_from_objval c s d anc v obj hv h
        rcases hc with ⟨f, g, hb, _, hf, hg⟩ | ⟨data, hb, _, hall⟩
        · rw [(containers_of_pair s j v obj f g hv hb).1] at ha
          rw [(containers_of_pair s d v obj f g hv hb).1]
          simp only [List.mem_cons, List.mem_append] at ha ⊢
          rcases ha with ha | ha | ha
          · exact Or.inl ha
          · exact Or.inr (Or.inl (ih _ f hf j a ha))
          · exact Or.inr (Or.inr (ih _ g hg j a ha))
        · rw [(containers_of_array s j v obj data hv hb).1] at ha
          rw [(containers_of_array s d v obj data hv hb).1]
          simp only [List.mem_cons] at ha ⊢
          rcases ha with ha | ha
          · exact Or.inl ha
          · obtain ⟨y, hy, hay⟩ := List.mem_flatMap.mp ha
            exact Or.inr (List.mem_flatMap.mpr ⟨y, hy, ih _ y (hall y hy) j a hay⟩)

/-- C16 (amended): for a value `v` built from Integers, Booleans, Strings,
Pairs and Arrays (of depth at most `d`, no Pair or Array below itself) in
which no Pair or Array is locked and no Pair occurs twice, and with memory
for one object per Pair and Array of `v`, `copydeep` returns a value `w`
such that `v.equal(w)` is true and every Pair and Array reachable from `w`
is a new object, free before the call and not reachable from `v`; the
Strings of `w` are the String objects of `v`. -/
theorem copydeep_equal_new (c : ovm_consts)
    (other : ovm_objs → ovm_inst → Except ovm_stop (ovm_objs × ovm_inst))
    (other_equal : ovm_objs → ovm_inst → ovm_inst → Except ovm_stop Bool)
    (hPA : c.Pair ≠ c.Array) (hLA : c.List ≠ c.Array) (hA0 : c.Array ≠ 0)
    (d fuel : Nat) (hfuel : d ≤ fuel) (s : ovm_objs) (v : ovm_inst)
    (hv : built_from c s d [] v = true) (hfree : free_ok s)
    (hmem : (containers_of s d v).length ≤ s.free.length)
    (hlock : ∀ a ∈ containers_of s d v, s.locked a = false)
    (hnd : (pairs_of s d v).Nodup) :
    ∃ s1 w, ovm_copydeep c other fuel s v = .ok (s1, w)
      ∧ ovm_equal c other_equal fuel s1 v w = .ok true
      ∧ (∀ k a, a ∈ containers_of s1 k w → a ∈ s.free ∧ ∀ j, a ∉ containers_of s1 j v)
      ∧ strings_of s1 d w = strings_of s1 d v := by
  obtain ⟨s1, w, hrun, _, _, hframe, _, hdc⟩ :=
    ovm_copydeep_ok c other hPA hLA d fuel hfuel s [] v hv hfree hmem hlock hnd
  have hk : objs_kept s s1 := objs_kept_of_frame s s1 _ hfree hframe
  obtain ⟨hv1, hc1, _⟩ := built_from_kept c s s1 hk d [] v hv
  refine ⟨s1, w, hrun, deep_copy_equal c other_equal s1 _ hPA hA0 d fuel [] v w hv1 hdc hfuel,
    ?_, (deep_copy_new c s1 _ d [] v w hv1 hdc).2⟩
  intro k a ha
  have hnew : a ∈ s.free :=
    List.mem_of_mem_take (deep_copy_containers c s1 _ d v w hdc k a ha)
  refine ⟨hnew, fun j hj => ?_⟩
  have hjd := containers_of_depth c s1 d [] v hv1 j a hj
  rw [hc1] at hjd
  exact (built_from_containers c s d [] v hv a hjd).2.2 (hfree.2.2 a hnew)

theorem copydeep_equal_new_witness :
    ∃ s1 w, ovm_copydeep sample_consts sample_other_copydeep 3 sample_copy_objs (inst_obj 610)
        = .ok (s1, w)
      ∧ ovm_equal sample_consts sample_other_equal 3 s1 (inst_obj 610) w = .ok true
      ∧ (∀ k a, a ∈ containers_of s1 k w →
          a ∈ sample_copy_objs.free ∧ ∀ j, a ∉ containers_of s1 j (inst_obj 610))
      ∧ strings_of s1 3 w = strings_of s1 3 (inst_obj 610) :=
  copydeep_equal_new sample_consts sample_other_copydeep sample_other_equal
    (by decide) (by decide) (by decide) 3 3 (le_refl 3) sample_copy_objs (inst_obj 610)
    (by decide) (by decide) (by decide) (fun _ _ => rfl) (by decide)

/-- The method `copydeep` of a String is `copy`: the result is the String
object of the receiver, object 620 here, which both values reach. -/
theorem copydeep_equal_new_counterexample :
    ovm_copydeep sample_consts sample_other_copydeep 1 sample_copy_objs
        (inst_str 620 3 "ab".toList) = .ok (sample_copy_objs, inst_str 620 3 "ab".toList)
      ∧ strings_of sample_copy_objs 1 (inst_str 620 3 "ab".toList) = [620]
      ∧ sample_copy_objs.body 620 = some .raw :=
  ⟨rfl, rfl, rfl⟩

/-- The method `copydeep` of a List ends in `obj_unlock` of the null
pointer: on the list (1, 2, 3) of the sample store it is undefined. -/
theorem list_copydeep_sample :
    ovm_copydeep sample_consts sample_other_copydeep 5 sample_objs (inst_obj 100)
      = .error .undefined := rfl

/-- After `copydeep` of the sample Array its Pair 611 stays locked, the
Array 610 does not, and a second `copydeep` raises
`system.descent-loop`. -/
theorem pair_copydeep_lock_sample :
    ∃ s1, ovm_copydeep sample_consts sample_other_copydeep 3 sample_copy_objs (inst_obj 610)
        = .ok (s1, inst_obj 700)
      ∧ s1.locked 611 = true ∧ s1.locked 610 = false
      ∧ ovm_copydeep sample_consts sample_other_copydeep 3 s1 (inst_obj 610)
        = .error (.raised ovm_except_descent_loop) :=
  ⟨_, rfl, by decide, by decide, by rfl⟩

/-! ### Checks on the number of arguments -/

/-- C23: in a thread whose current method-call frame has argument count
`argc`, `ovm_method_argc_chk_exact(expected)` raises exactly when `argc`
differs from `expected`; the exception has type
`system.number-of-arguments`, field `expected` the Integer `expected` and
field `got` the Integer `argc`; with equal counts it returns and the thread
is as before. -/
theorem argc_chk_exact_raises (th : ovm_thread) (expected size prev cl method dst bp argc ap : Nat)
    (hmc : th.mcfp ≠ 0)
    (hfr : th.frames th.mcfp = some (.mc size prev cl method dst bp argc ap))
    (hargc : argc < 4294967296) (hexp : expected < 4294967296) :
    ((∃ x, ovm_method_argc_chk_exact th expected = .error (.raised x)) ↔ argc ≠ expected)
      ∧ (argc ≠ expected →
          ovm_method_argc_chk_exact th expected
            = .error (.raised
                { type := "system.number-of-arguments",
                  fields := [("expected", .inst (inst_int (expected : Int))),
                             ("got", .inst (inst_int (argc : Int)))] }))
      ∧ (argc = expected → ovm_method_argc_chk_exact th expected = .ok th) := by
  have e1 : argc % 4294967296 = argc := Nat.mod_eq_of_lt hargc
  have e2 : expected % 4294967296 = expected := Nat.mod_eq_of_lt hexp
  have hne : argc ≠ expected →
      ovm_method_argc_chk_exact th expected
        = .error (.raised (ovm_except_num_args expected argc)) := by
    intro h
    simp only [ovm_method_argc_chk_exact, thread_mcfp, hmc, if_false, hfr, e1, e2, ne_eq, h,
      not_false_eq_true, if_true]
  have heq : argc = expected → ovm_method_argc_chk_exact th expected = .ok th := by
    intro h
    simp only [ovm_method_argc_chk_exact, thread_mcfp, hmc, if_false, hfr, e1, e2, ne_eq, h,
      not_true_eq_false]
  refine ⟨⟨?_, fun h => ⟨_, hne h⟩⟩, hne, heq⟩
  rintro ⟨x, hx⟩ h
  rw [heq h] at hx
  cases hx

theorem argc_chk_exact_raises_witness :
    ((∃ x, ovm_method_argc_chk_exact sample_argc_thread 2 = .error (.raised x)) ↔ 1 ≠ 2)
      ∧ (1 ≠ 2 →
          ovm_method_argc_chk_exact sample_argc_thread 2
            = .error (.raised
                { type := "system.number-of-arguments",
                  fields := [("expected", .inst (inst_int ((2 : Nat) : Int))),
                             ("got", .inst (inst_int ((1 : Nat) : Int)))] }))
      ∧ (1 = 2 → ovm_method_argc_chk_exact sample_argc_thread 2 = .ok sample_argc_thread) :=
  argc_chk_exact_raises sample_argc_thread 2 64 0 40 59 58 60 1 60 (by decide) rfl
    (by decide) (by decide)

/-! ### Free followed by allocation on the value stack -/

theorem stack_released_succ (th : ovm_thread) (p n : Nat) :
    stack_released th p (n + 1) = cell_release (th.cells p) ++ stack_released th (p + 1) n := by
  unfold stack_released
  rw [List.range_succ_eq_map]
  simp only [List.flatMap_cons, List.flatMap_map, Nat.add_zero]
  congr 1
  apply List.flatMap_congr
  intro k _
  show cell_release (th.cells (p + (k + 1))) = cell_release (th.cells (p + 1 + k))
  rw [Nat.add_assoc, Nat.add_comm 1 k]

theorem stack_released_append (th : ovm_thread) (n : Nat) :
    ∀ (p m : Nat), stack_released th p (m + n)
      = stack_released th p m ++ stack_released th (p + m) n := by
  intro p m
  induction m generalizing p with
  | zero => simp [stack_released]
  | succ m ih =>
    have e : m + 1 + n = (m + n) + 1 := by omega
    rw [e, stack_released_succ, stack_released_succ, ih (p + 1), List.append_assoc]
    have e2 : p + 1 + m = p + (m + 1) := by omega
    rw [e2]

theorem stack_released_congr (th t : ovm_thread) (p n : Nat)
    (h : ∀ a, p ≤ a → a < p + n → t.cells a = th.cells a) :
    stack_released t p n = stack_released th p n := by
  unfold stack_released
  apply List.flatMap_congr
  intro k hk
  rw [h (p + k) (by omega) (by have := List.mem_range.mp hk; omega)]

/-- The loop of `ovm_stack_free_alloc`: `n` cells from `p` become nil with
their `hash` left, the other cells and the registers stay, and the objects of
the `n` cells are released in order. -/
theorem free_alloc_loop_spec :
    ∀ (n p : Nat) (th : ovm_thread) (rel : List Nat),
      ∃ t, free_alloc_loop n p th rel = (t, p + n, rel ++ stack_released th p n)
        ∧ t.stack = th.stack ∧ t.stack_top = th.stack_top ∧ t.sp = th.sp
        ∧ t.frame_stack = th.frame_stack ∧ t.frame_stack_top = th.frame_stack_top
        ∧ t.fp = th.fp ∧ t.nsfp = th.nsfp ∧ t.mcfp = th.mcfp
        ∧ t.except_lvl = th.except_lvl ∧ t.xfp = th.xfp ∧ t.exceptf = th.exceptf
        ∧ t.pc = th.pc ∧ t.frames = th.frames
        ∧ (∀ a, p ≤ a → a < p + n →
            t.cells a = { hash_valid := false, hash := (th.cells a).hash, val := .objval 0 })
        ∧ (∀ a, ¬ (p ≤ a ∧ a < p + n) → t.cells a = th.cells a) := by
  intro n
  induction n with
  | zero =>
    intro p th rel
    refine ⟨th, by simp [free_alloc_loop, stack_released], rfl, rfl, rfl, rfl, rfl, rfl, rfl,
      rfl, rfl, rfl, rfl, rfl, rfl, fun a h1 h2 => by omega, fun a _ => rfl⟩
  | succ n ih =>
    intro p th rel
    obtain ⟨t, hrun, h1, h2, h3, h4, h5, h6, h7, h8, h9, h10, h11, h12, h13, hin, hout⟩ :=
      ih (p + 1) (cell_assign_obj th p 0) (rel ++ cell_release (th.cells p))
    have hrel : stack_released (cell_assign_obj th p 0) (p + 1) n
        = stack_released th (p + 1) n := by
      apply stack_released_congr
      intro a ha _
      have : a ≠ p := by omega
      simp [cell_assign_obj, this]
    refine ⟨t, ?_, h1, h2, h3, h4, h5, h6, h7, h8, h9, h10, h11, h12, h13, ?_, ?_⟩
    · rw [free_alloc_loop, hrun, hrel, stack_released_succ, List.append_assoc]
      have e : p + 1 + n = p + (n + 1) := by omega
      rw [e]
    · intro a ha1 ha2
      by_cases hap : a = p
      · rw [hout a (by omega), hap]
        simp [cell_assign_obj]
      · rw [hin a (by omega) (by omega)]
        simp [cell_assign_obj, hap]
    · intro a ha
      have hap : a ≠ p := by omega
      rw [hout a (by omega)]
      simp [cell_assign_obj, hap]

theorem free_alloc_loop_flvl :
    ∀ (n p : Nat) (th : ovm_thread) (rel : List Nat),
      (free_alloc_loop n p th rel).1.fatal_lvl = th.fatal_lvl := by
  intro n
  induction n with
  | zero => intro p th rel; rfl
  | succ n ih =>
    intro p th rel
    rw [free_alloc_loop, ih]
    rfl

/-- C29: `ovm_stack_free_alloc(th, f, a)` against `ovm_stack_free(th, f)`
followed by `ovm_stack_alloc(th, a)`, in a thread whose stack pointer is not
below the base of the stack.  Both end the thread with
`OVM_THREAD_FATAL_STACK_UNDERFLOW` when the stack holds fewer than `f` cells,
both end it with `OVM_THREAD_FATAL_STACK_OVERFLOW` when `a` cells do not fit
above the base after the free, and otherwise both return `sp + f`, release
the objects of the `f` freed cells in the same order, and leave threads that
agree: `sp` is `sp + f - a`, the `a` top cells are nil and every other cell
is as before. -/
theorem stack_free_alloc_refines (th : ovm_thread) (f a : Nat) (hwf : th.stack ≤ th.sp) :
    (th.sp + f > th.stack_top →
        ovm_stack_free_alloc th f a = .error (.fatal OVM_THREAD_FATAL_STACK_UNDERFLOW)
        ∧ stack_free_then_alloc th f a = .error (.fatal OVM_THREAD_FATAL_STACK_UNDERFLOW))
    ∧ (th.sp + f ≤ th.stack_top → th.sp + f < th.stack + a →
        ovm_stack_free_alloc th f a = .error (.fatal OVM_THREAD_FATAL_STACK_OVERFLOW)
        ∧ stack_free_then_alloc th f a = .error (.fatal OVM_THREAD_FATAL_STACK_OVERFLOW))
    ∧ (th.sp + f ≤ th.stack_top → th.stack + a ≤ th.sp + f →
        ∃ t u, ovm_stack_free_alloc th f a
              = .ok (t, th.sp + f, stack_released th th.sp f)
          ∧ stack_free_then_alloc th f a = .ok (u, th.sp + f, stack_released th th.sp f)
          ∧ thread_same t u
          ∧ t.sp + a = th.sp + f
          ∧ (∀ x, t.sp ≤ x → x < t.sp + a → ovm_inst_is_nil (t.cells x) = true)
          ∧ (∀ x, ¬ (t.sp ≤ x ∧ x < t.sp + a) → t.cells x = th.cells x)) := by
  refine ⟨?_, ?_, ?_⟩
  · intro h
    have h2 : ¬ (th.sp + f < th.sp) := by omega
    constructor
    · simp only [ovm_stack_free_alloc, h, if_true]
    · simp only [stack_free_then_alloc, ovm_stack_free, ovm_stack_unwind, h, if_true]
  · intro h1 h2
    have hu : ¬ (th.sp + f > th.stack_top) := by omega
    have hu2 : ¬ (th.sp + f < th.sp) := by omega
    have haf : a ≥ f := by omega
    constructor
    · obtain ⟨t, hrun, e1, _, e3, _⟩ := free_alloc_loop_spec f th.sp th []
      have ho : t.sp < t.stack + (a - f) := by rw [e3, e1]; omega
      simp only [ovm_stack_free_alloc, hu, if_false, haf, if_true, hrun, ovm_stack_alloc,
        _ovm_stack_alloc, ho]
    · have ho : th.sp + f < th.stack + a := h2
      simp only [stack_free_then_alloc, ovm_stack_free, ovm_stack_unwind, hu, hu2, if_false,
        ovm_stack_alloc, _ovm_stack_alloc, ho, if_true]
  · intro h1 h2
    have hu : ¬ (th.sp + f > th.stack_top) := by omega
    have hu2 : ¬ (th.sp + f < th.sp) := by omega
    have ho : ¬ (th.sp + f < th.stack + a) := by omega
    -- the sequence
    have hseq : stack_free_then_alloc th f a
        = .ok ({ th with sp := th.sp + f - a,
                         cells := fun x =>
                           if th.sp + f - a ≤ x ∧ x < th.sp + f - a + a then inst_obj 0
                           else th.cells x },
               th.sp + f, stack_released th th.sp f) := by
      simp only [stack_free_then_alloc, ovm_stack_free, ovm_stack_unwind, hu, hu2, if_false,
        ovm_stack_alloc, _ovm_stack_alloc, ho]
    by_cases haf : a ≥ f
    · obtain ⟨t1, hrun, e1, e2, e3, e4, e5, e6, e7, e8, e9, e10, e11, e12, e13, hin, hout⟩ :=
        free_alloc_loop_spec f th.sp th []
      have ho1 : ¬ (t1.sp < t1.stack + (a - f)) := by rw [e3, e1]; omega
      have hsp : t1.sp - (a - f) = th.sp + f - a := by rw [e3]; omega
      refine ⟨{ t1 with sp := t1.sp - (a - f),
                        cells := fun x =>
                          if t1.sp - (a - f) ≤ x ∧ x < t1.sp - (a - f) + (a - f) then inst_obj 0
                          else t1.cells x }, _, ?_, hseq, ?_, ?_, ?_, ?_⟩
      · simp only [ovm_stack_free_alloc, hu, if_false, haf, if_true, hrun, ovm_stack_alloc,
          _ovm_stack_alloc, ho1, List.nil_append]
      · have efl : t1.fatal_lvl = th.fatal_lvl := by
          have h := free_alloc_loop_flvl f th.sp th []
          rw [hrun] at h
          exact h
        refine ⟨e1, e2, hsp, e4, e5, e6, e7, e8, e9, e10, e11, e12, e13, efl, ?_⟩
        intro x
        show cell_same (if t1.sp - (a - f) ≤ x ∧ x < t1.sp - (a - f) + (a - f) then inst_obj 0
            else t1.cells x)
          (if th.sp + f - a ≤ x ∧ x < th.sp + f - a + a then inst_obj 0 else th.cells x)
        by_cases hx1 : t1.sp - (a - f) ≤ x ∧ x < t1.sp - (a - f) + (a - f)
        · have hx2 : th.sp + f - a ≤ x ∧ x < th.sp + f - a + a := by rw [e3] at hx1; omega
          simp only [hx1, hx2, and_self, if_true]
          exact ⟨rfl, rfl, fun _ => rfl⟩
        · simp only [hx1, if_false]
          by_cases hx3 : th.sp ≤ x ∧ x < th.sp + f
          · have hx2 : th.sp + f - a ≤ x ∧ x < th.sp + f - a + a := by omega
            rw [hin x hx3.1 hx3.2]
            simp only [hx2, and_self, if_true]
            exact ⟨rfl, rfl, fun h => by cases h⟩
          · have hx2 : ¬ (th.sp + f - a ≤ x ∧ x < th.sp + f - a + a) := by
              rw [e3] at hx1; omega
            rw [hout x hx3]
            simp only [hx2, if_false]
            exact ⟨rfl, rfl, fun _ => rfl⟩
      · show t1.sp - (a - f) + a = th.sp + f
        rw [e3]; omega
      · intro x hx1 hx2
        show ovm_inst_is_nil (if t1.sp - (a - f) ≤ x ∧ x < t1.sp - (a - f) + (a - f)
          then inst_obj 0 else t1.cells x) = true
        have hx1' : t1.sp - (a - f) ≤ x := hx1
        have hx2' : x < t1.sp - (a - f) + a := hx2
        by_cases hx3 : t1.sp - (a - f) ≤ x ∧ x < t1.sp - (a - f) + (a - f)
        · simp only [hx3, and_self, if_true]; rfl
        · simp only [hx3, if_false]
          rw [hin x (by rw [e3] at hx3 hx1'; omega) (by rw [e3] at hx2'; omega)]
          rfl
      · intro x hx
        have hx' : ¬ (t1.sp - (a - f) ≤ x ∧ x < t1.sp - (a - f) + a) := hx
        show (if t1.sp - (a - f) ≤ x ∧ x < t1.sp - (a - f) + (a - f) then inst_obj 0
          else t1.cells x) = th.cells x
        have hx3 : ¬ (t1.sp - (a - f) ≤ x ∧ x < t1.sp - (a - f) + (a - f)) := by omega
        simp only [hx3, if_false]
        exact hout x (by rw [e3] at hx'; omega)
    · have hfa : ¬ (a ≥ f) := haf
      have hu3 : ¬ (th.sp + (f - a) > th.stack_top) := by omega
      have hu4 : ¬ (th.sp + (f - a) < th.sp) := by omega
      obtain ⟨t1, hrun, e1, e2, e3, e4, e5, e6, e7, e8, e9, e10, e11, e12, e13, hin, hout⟩ :=
        free_alloc_loop_spec a (th.sp + (f - a)) { th with sp := th.sp + (f - a) }
          (stack_released th th.sp (f - a))
      have hrel : stack_released th th.sp (f - a)
            ++ stack_released { th with sp := th.sp + (f - a) } (th.sp + (f - a)) a
          = stack_released th th.sp f := by
        have e : f = (f - a) + a := by omega
        rw [stack_released_congr th { th with sp := th.sp + (f - a) } _ _ (fun _ _ _ => rfl)]
        conv_rhs => rw [e]
        rw [stack_released_append]
      have hp : th.sp + (f - a) + a = th.sp + f := by omega
      have hsp : th.sp + (f - a) = th.sp + f - a := by omega
      refine ⟨t1, _, ?_, hseq, ?_, ?_, ?_, ?_⟩
      · simp only [ovm_stack_free_alloc, hu, if_false, hfa, ovm_stack_free, ovm_stack_unwind,
          hu3, hu4]
        rw [hrun, hrel, hp]
      · have efl : t1.fatal_lvl = th.fatal_lvl := by
          have h := free_alloc_loop_flvl a (th.sp + (f - a)) { th with sp := th.sp + (f - a) }
            (stack_released th th.sp (f - a))
          rw [hrun] at h
          exact h
        refine ⟨e1, e2, by rw [e3]; exact hsp, e4, e5, e6, e7, e8, e9, e10, e11, e12, e13, efl,
          ?_⟩
        intro x
        show cell_same (t1.cells x)
          (if th.sp + f - a ≤ x ∧ x < th.sp + f - a + a then inst_obj 0 else th.cells x)
        by_cases hx : th.sp + (f - a) ≤ x ∧ x < th.sp + (f - a) + a
        · have hx2 : th.sp + f - a ≤ x ∧ x < th.sp + f - a + a := by omega
          rw [hin x hx.1 hx.2]
          simp only [hx2, and_self, if_true]
          exact ⟨rfl, rfl, fun h => by cases h⟩
        · have hx2 : ¬ (th.sp + f - a ≤ x ∧ x < th.sp + f - a + a) := by omega
          rw [hout x hx]
          simp only [hx2, if_false]
          exact ⟨rfl, rfl, fun _ => rfl⟩
      · rw [e3]; show th.sp + (f - a) + a = th.sp + f; omega
      · intro x hx1 hx2
        rw [e3] at hx1 hx2
        rw [hin x hx1 hx2]
        rfl
      · intro x hx
        rw [e3] at hx
        exact hout x hx

theorem stack_free_alloc_refines_witness :
    (sample_stack_thread.sp + 3 > sample_stack_thread.stack_top →
        ovm_stack_free_alloc sample_stack_thread 3 2
          = .error (.fatal OVM_THREAD_FATAL_STACK_UNDERFLOW)
        ∧ stack_free_then_alloc sample_stack_thread 3 2
          = .error (.fatal OVM_THREAD_FATAL_STACK_UNDERFLOW))
    ∧ (sample_stack_thread.sp + 3 ≤ sample_stack_thread.stack_top →
        sample_stack_thread.sp + 3 < sample_stack_thread.stack + 2 →
        ovm_stack_free_alloc sample_stack_thread 3 2
          = .error (.fatal OVM_THREAD_FATAL_STACK_OVERFLOW)
        ∧ stack_free_then_alloc sample_stack_thread 3 2
          = .error (.fatal OVM_THREAD_FATAL_STACK_OVERFLOW))
    ∧ (sample_stack_thread.sp + 3 ≤ sample_stack_thread.stack_top →
        sample_stack_thread.stack + 2 ≤ sample_stack_thread.sp + 3 →
        ∃ t u, ovm_stack_free_alloc sample_stack_thread 3 2
              = .ok (t, sample_stack_thread.sp + 3,
                  stack_released sample_stack_thread sample_stack_thread.sp 3)
          ∧ stack_free_then_alloc sample_stack_thread 3 2
              = .ok (u, sample_stack_thread.sp + 3,
                  stack_released sample_stack_thread sample_stack_thread.sp 3)
          ∧ thread_same t u
          ∧ t.sp + 2 = sample_stack_thread.sp + 3
          ∧ (∀ x, t.sp ≤ x → x < t.sp + 2 → ovm_inst_is_nil (t.cells x) = true)
          ∧ (∀ x, ¬ (t.sp ≤ x ∧ x < t.sp + 2) → t.cells x = sample_stack_thread.cells x)) :=
  stack_free_alloc_refines sample_stack_thread 3 2 (by decide)

/-- The sample thread: freeing three cells and allocating two releases the
objects 300 and 301 and returns 63; the cell 61 keeps its stale `hash`. -/
theorem stack_free_alloc_sample :
    (∃ t, ovm_stack_free_alloc sample_stack_thread 3 2 = .ok (t, 63, [300, 301])
      ∧ t.sp = 61
      ∧ t.cells 61 = { hash_valid := false, hash := 9, val := .objval 0 }
      ∧ t.cells 60 = inst_obj 300)
    ∧ (∃ u, stack_free_then_alloc sample_stack_thread 3 2 = .ok (u, 63, [300, 301])
      ∧ u.sp = 61 ∧ u.cells 61 = inst_obj 0 ∧ u.cells 60 = inst_obj 300) :=
  ⟨⟨_, rfl, rfl, rfl, rfl⟩, ⟨_, rfl, rfl, rfl, rfl⟩⟩

/-! ### Operands of the byte code: variable-length integers -/

theorem lor_shift_byte (r b : Nat) (hr : r < 72057594037927936) (hb : b < 256) :
    Nat.lor ((r <<< 8) % 18446744073709551616) b = r * 256 + b := by
  have e1 : r <<< 8 = r * 256 := by rw [Nat.shiftLeft_eq]
  have e2 : (r * 256) % 18446744073709551616 = r * 256 := Nat.mod_eq_of_lt (by omega)
  rw [e1, e2]
  have := Nat.mul_add_lt_is_or (show b < 2 ^ 8 by omega) r
  show r * 256 ||| b = r * 256 + b
  rw [Nat.mul_comm r 256]
  exact this.symm

theorem big_endian_cons (acc b : Nat) (bs : List Nat) :
    big_endian acc (b :: bs) = big_endian (acc * 256 + b % 256) bs := rfl

theorem big_endian_acc (bs : List Nat) :
    ∀ acc, big_endian acc bs = acc * 256 ^ bs.length + big_endian 0 bs := by
  induction bs with
  | nil => intro acc; simp [big_endian]
  | cons b bs ih =>
    intro acc
    rw [big_endian_cons, big_endian_cons, ih (acc * 256 + b % 256), ih (0 * 256 + b % 256)]
    simp only [List.length_cons, Nat.zero_mul, Nat.zero_add]
    ring

theorem big_endian_lt (bs : List Nat) : big_endian 0 bs < 256 ^ bs.length := by
  induction bs using List.reverseRecOn with
  | nil => simp [big_endian]
  | append_singleton bs b ih =>
    have hb : b % 256 < 256 := Nat.mod_lt _ (by decide)
    simp only [big_endian, List.foldl_append, List.foldl_cons, List.foldl_nil,
      List.length_append, List.length_singleton] at ih ⊢
    rw [Nat.pow_succ]
    omega

theorem code_bytes_succ (code : List Nat) (pc n : Nat) (bs : List Nat)
    (h : code_bytes code pc (n + 1) = some bs) :
    ∃ b rest, bs = b :: rest ∧ code.get? pc = some b
      ∧ code_bytes code (pc + 1) n = some rest := by
  unfold code_bytes at h ⊢
  by_cases hl : pc + (n + 1) ≤ code.length
  · simp only [hl, if_true, Option.some.injEq] at h
    have hpc : pc < code.length := by omega
    have hd : code.drop pc = code[pc] :: code.drop (pc + 1) := List.drop_eq_getElem_cons hpc
    refine ⟨code[pc], (code.drop (pc + 1)).take n, ?_, ?_, ?_⟩
    · rw [← h, hd]; rfl
    · simp [hpc]
    · have : pc + 1 + n ≤ code.length := by omega
      simp only [this, if_true]
  · simp [hl] at h

/-- The loop of `_interp_intval` on `n` bytes: the bytes are appended to
`result`, which stays below 2^64, and `pc` moves past them. -/
theorem interp_intval_loop_spec (code : List Nat) :
    ∀ (n pc result k : Nat) (bs : List Nat), code_bytes code pc n = some bs →
      result < 256 ^ k → k + n ≤ 8 →
      interp_intval_loop code n pc result = .ok (big_endian result bs, pc + n)
        ∧ bs.length = n ∧ big_endian result bs < 256 ^ (k + n) := by
  intro n
  induction n with
  | zero =>
    intro pc result k bs h hr _
    have : bs = [] := by
      unfold code_bytes at h
      by_cases hl : pc + 0 ≤ code.length
      · simp only [hl, if_true, Option.some.injEq, List.take_zero] at h
        exact h.symm
      · simp only [hl, if_false] at h
        cases h
    subst this
    exact ⟨rfl, rfl, by simpa [big_endian] using hr⟩
  | succ n ih =>
    intro pc result k bs h hr hk
    obtain ⟨b, rest, rfl, hget, hrest⟩ := code_bytes_succ code pc n bs h
    have hb : b % 256 < 256 := Nat.mod_lt _ (by decide)
    have hk7 : (256 : Nat) ^ k ≤ 256 ^ 7 := Nat.pow_le_pow_right (by decide) (by omega)
    have hr56 : result < 72057594037927936 := by
      have : (256 : Nat) ^ 7 = 72057594037927936 := by norm_num
      omega
    have hstep : result * 256 + b % 256 < 256 ^ (k + 1) := by
      rw [Nat.pow_succ]; omega
    obtain ⟨hrun, hlen, hlt⟩ := ih (pc + 1) (result * 256 + b % 256) (k + 1) rest hrest hstep
      (by omega)
    refine ⟨?_, by simp [hlen], ?_⟩
    · rw [interp_intval_loop]
      simp only [code_byte, hget, lor_shift_byte result (b % 256) hr56 hb]
      rw [hrun, big_endian_cons]
      congr 2
      omega
    · rw [big_endian_cons]
      have e : k + 1 + n = k + (n + 1) := by omega
      rw [← e]; exact hlt

theorem land_sign_clear (r s : Nat) (h : r < 2 ^ s) : Nat.land r (1 <<< s) = 0 := by
  show r &&& 1 <<< s = 0
  rw [Nat.shiftLeft_eq, Nat.one_mul, Nat.and_two_pow, Nat.testBit_lt_two_pow h]
  simp

theorem land_sign_set (r s : Nat) (h1 : 2 ^ s ≤ r) (h2 : r < 2 ^ (s + 1)) :
    Nat.land r (1 <<< s) = 2 ^ s := by
  show r &&& 1 <<< s = 2 ^ s
  have hlow : r - 2 ^ s < 2 ^ s := by rw [Nat.pow_succ] at h2; omega
  have hr : r = 2 ^ s + (r - 2 ^ s) := by omega
  have ht : r.testBit s = true := by
    rw [hr, Nat.testBit_two_pow_add_eq, Nat.testBit_lt_two_pow hlow]
    rfl
  rw [Nat.shiftLeft_eq, Nat.one_mul, Nat.and_two_pow, ht]
  simp

/-- Sign extension from bit `s` of a number of `s + 1` bits whose bit `s`
is set: as a `long long` the result is the number less 2^(s+1). -/
theorem lor_sign_extend (r s : Nat) (hs : s < 63) (h1 : 2 ^ s ≤ r) (h2 : r < 2 ^ (s + 1)) :
    wrap64 ((Nat.lor r (18446744073709551616 - 1 <<< s) : Nat) : Int)
      = (r : Int) - 2 ^ (s + 1) := by
  have hlow : r - 2 ^ s < 2 ^ s := by rw [Nat.pow_succ] at h2; omega
  have hP : (2 : Nat) ^ (s + 1) * 2 ^ (63 - s) = 18446744073709551616 := by
    rw [← Nat.pow_add]
    have : s + 1 + (63 - s) = 64 := by omega
    rw [this]
  have hK : 1 ≤ (2 : Nat) ^ (63 - s) := Nat.one_le_two_pow
  have hss : (2 : Nat) ^ (s + 1) = 2 * 2 ^ s := by rw [Nat.pow_succ]; ring
  have hX : 18446744073709551616 - 1 <<< s = 2 ^ (s + 1) * (2 ^ (63 - s) - 1) + 2 ^ s := by
    rw [Nat.shiftLeft_eq, Nat.one_mul, Nat.mul_sub, hP, Nat.mul_one]
    have : (2 : Nat) ^ (s + 1) ≤ 18446744073709551616 := by
      rw [← hP]; exact Nat.le_mul_of_pos_right _ (by omega)
    omega
  have hs1 : (2 : Nat) ^ s < 2 ^ (s + 1) := by omega
  have e1 : 2 ^ (s + 1) * (2 ^ (63 - s) - 1) + 2 ^ s
      = 2 ^ (s + 1) * (2 ^ (63 - s) - 1) ||| 2 ^ s := Nat.mul_add_lt_is_or hs1 _
  have e2 : 2 ^ s * 1 + (r - 2 ^ s) = 2 ^ s * 1 ||| (r - 2 ^ s) := Nat.mul_add_lt_is_or hlow 1
  have hr : r = 2 ^ s ||| (r - 2 ^ s) := by
    rw [Nat.mul_one] at e2
    rw [← e2]; omega
  have e3 : 2 ^ (s + 1) * (2 ^ (63 - s) - 1) + r
      = 2 ^ (s + 1) * (2 ^ (63 - s) - 1) ||| r := Nat.mul_add_lt_is_or h2 _
  have hor : Nat.lor r (18446744073709551616 - 1 <<< s)
      = 2 ^ (s + 1) * (2 ^ (63 - s) - 1) + r := by
    show r ||| (18446744073709551616 - 1 <<< s) = _
    rw [hX, e1, e3]
    have hrs : r ||| 2 ^ s = r := by
      conv_lhs => rw [hr]
      rw [Nat.or_comm (2 ^ s) (r - 2 ^ s), Nat.or_assoc, Nat.or_self,
        Nat.or_comm (r - 2 ^ s) (2 ^ s), ← hr]
    rw [Nat.or_comm r, Nat.or_assoc, Nat.or_comm (2 ^ s) r, hrs]
  rw [hor]
  have hval : 2 ^ (s + 1) * (2 ^ (63 - s) - 1) + r = 18446744073709551616 - 2 ^ (s + 1) + r := by
    rw [Nat.mul_sub, hP, Nat.mul_one]
  have hle : (2 : Nat) ^ (s + 1) ≤ 9223372036854775808 := by
    have : (2 : Nat) ^ (s + 1) ≤ 2 ^ 63 := Nat.pow_le_pow_right (by decide) (by omega)
    simpa using this
  rw [hval]
  unfold wrap64
  have hc : (((18446744073709551616 - 2 ^ (s + 1) + r : Nat)) : Int)
      = 18446744073709551616 - ((2 ^ (s + 1) : Nat) : Int) + (r : Int) := by
    push_cast [Nat.cast_sub (show 2 ^ (s + 1) ≤ 18446744073709551616 by omega)]
    ring
  rw [hc]
  have hpc : ((2 ^ (s + 1) : Nat) : Int) = (2 : Int) ^ (s + 1) := by push_cast; rfl
  rw [← hpc]
  have h2' : (r : Int) < ((2 ^ (s + 1) : Nat) : Int) := by exact_mod_cast h2
  have h1' : ((2 ^ s : Nat) : Int) ≤ (r : Int) := by exact_mod_cast h1
  have hle' : ((2 ^ (s + 1) : Nat) : Int) ≤ 9223372036854775808 := by exact_mod_cast hle
  have hpos : (0 : Int) ≤ ((2 ^ s : Nat) : Int) := by positivity
  omega

/-- C30: `_interp_intval` with `b` initial bits (1 to 8, so 5 and 3) on a
code whose byte at `pc` is `op`, with `n = op >> 5`.  For `n < 7` and `n`
bytes after `pc`, the number `V` made of the low `b` bits of `op` followed
by the `n` bytes, big-endian, has `b + 8n` bits; the unsigned form returns
`V`, the signed form `V` sign-extended from bit `b + 8n - 1`, and `pc`
advances by `1 + n`.  For `n = 7` and eight bytes after `pc`, both forms
return the 64-bit big-endian number of the eight bytes as a `long long`
(`interp_uintval` as an `unsigned long long`), and `pc` advances by 9. -/
theorem interp_intval_decodes (code : List Nat) (pc b op : Nat) (hb1 : 1 ≤ b) (hb8 : b ≤ 8)
    (hop : code_byte code pc = .ok op) :
    (op >>> 5 < 7 → ∀ bs, code_bytes code (pc + 1) (op >>> 5) = some bs →
      big_endian (op % 2 ^ b) bs < 2 ^ (b + 8 * (op >>> 5))
      ∧ _interp_intval code pc b true
          = .ok ((big_endian (op % 2 ^ b) bs : Int), pc + (1 + (op >>> 5)))
      ∧ _interp_intval code pc b false
          = .ok (if big_endian (op % 2 ^ b) bs < 2 ^ (b + 8 * (op >>> 5) - 1)
                 then (big_endian (op % 2 ^ b) bs : Int)
                 else (big_endian (op % 2 ^ b) bs : Int) - (2 : Int) ^ (b + 8 * (op >>> 5)),
               pc + (1 + (op >>> 5))))
    ∧ (op >>> 5 = 7 → ∀ bs, code_bytes code (pc + 1) 8 = some bs →
      (∀ u, _interp_intval code pc b u = .ok (wrap64 (big_endian 0 bs : Int), pc + 9))
      ∧ interp_uintval code pc = .ok (big_endian 0 bs, pc + 9)
      ∧ big_endian 0 bs < 18446744073709551616) := by
  have hop256 : op < 256 := by
    unfold code_byte at hop
    cases hg : code.get? pc with
    | none => rw [hg] at hop; cases hop
    | some x =>
      rw [hg] at hop
      injection hop with hop
      rw [← hop]
      exact Nat.mod_lt _ (by decide)
  constructor
  · intro hn bs hbs
    have hn7 : ¬ (op >>> 5 = 7) := by omega
    have hb31 : ¬ (b ≥ 31) := by omega
    have hmask : Nat.land op ((1 <<< b) - 1) = op % 2 ^ b := by
      show op &&& (1 <<< b) - 1 = op % 2 ^ b
      rw [Nat.shiftLeft_eq, Nat.one_mul, Nat.and_pow_two_sub_one_eq_mod]
    have hlow : op % 2 ^ b < 256 ^ 1 := by
      have : op % 2 ^ b ≤ op := Nat.mod_le _ _
      omega
    obtain ⟨hrun, hlen, _⟩ :=
      interp_intval_loop_spec code (op >>> 5) (pc + 1) (op % 2 ^ b) 1 bs hbs hlow (by omega)
    -- the size of the number
    have hV : big_endian (op % 2 ^ b) bs < 2 ^ (b + 8 * (op >>> 5)) := by
      rw [big_endian_acc, hlen, Nat.pow_add]
      have h1 := big_endian_lt bs
      rw [hlen] at h1
      have h256 : (256 : Nat) ^ (op >>> 5) = 2 ^ (8 * (op >>> 5)) := by
        rw [Nat.pow_mul]
      rw [h256] at h1 ⊢
      have h2 : op % 2 ^ b < 2 ^ b := Nat.mod_lt _ (by positivity)
      have h3 : (op % 2 ^ b + 1) * 2 ^ (8 * (op >>> 5)) ≤ 2 ^ b * 2 ^ (8 * (op >>> 5)) :=
        Nat.mul_le_mul_right _ h2
      rw [Nat.add_mul, Nat.one_mul] at h3
      omega
    have hV56 : big_endian (op % 2 ^ b) bs < 72057594037927936 := by
      have : (2 : Nat) ^ (b + 8 * (op >>> 5)) ≤ 2 ^ 56 :=
        Nat.pow_le_pow_right (by decide) (by omega)
      have e : (2 : Nat) ^ 56 = 72057594037927936 := by norm_num
      omega
    have hwrap : wrap64 (big_endian (op % 2 ^ b) bs : Int)
        = (big_endian (op % 2 ^ b) bs : Int) := by
      apply wrap64_id
      unfold in64
      omega
    have hpc : pc + 1 + (op >>> 5) = pc + (1 + (op >>> 5)) := by omega
    have hsb : (b + (op >>> 5) <<< 3 + 4294967295) % 4294967296 = b + 8 * (op >>> 5) - 1 := by
      rw [Nat.shiftLeft_eq]
      omega
    refine ⟨hV, ?_, ?_⟩
    · simp only [_interp_intval, hop, hn7, if_false, hb31, hmask, hrun, if_true, hwrap, hpc]
    · have hs63 : ¬ (b + 8 * (op >>> 5) - 1 ≥ 63) := by omega
      have hV2 : big_endian (op % 2 ^ b) bs < 2 ^ (b + 8 * (op >>> 5) - 1 + 1) := by
        have : b + 8 * (op >>> 5) - 1 + 1 = b + 8 * (op >>> 5) := by omega
        rw [this]; exact hV
      by_cases hsign : big_endian (op % 2 ^ b) bs < 2 ^ (b + 8 * (op >>> 5) - 1)
      · have hz := land_sign_clear _ _ hsign
        simp only [_interp_intval, hop, hn7, if_false, hb31, hmask, hrun, hsb, hs63,
          Bool.false_eq_true, hz, ne_eq, not_true_eq_false, hwrap, hpc, hsign, if_true]
      · have hset := land_sign_set _ _ (Nat.le_of_not_lt hsign) hV2
        have hne : ¬ ((2 : Nat) ^ (b + 8 * (op >>> 5) - 1) = 0) := by positivity
        have hext := lor_sign_extend _ _ (by omega) (Nat.le_of_not_lt hsign) hV2
        have e : b + 8 * (op >>> 5) - 1 + 1 = b + 8 * (op >>> 5) := by omega
        rw [e] at hext
        simp only [_interp_intval, hop, hn7, if_false, hb31, hmask, hrun, hsb, hs63,
          Bool.false_eq_true, hset, ne_eq, hne, not_false_eq_true, if_true, hext, hpc, hsign]
  · intro hn bs hbs
    obtain ⟨hrun, hlen, hlt⟩ :=
      interp_intval_loop_spec code 8 (pc + 1) 0 0 bs hbs (by norm_num) (by omega)
    have hlt64 : big_endian 0 bs < 18446744073709551616 := by
      have e : (256 : Nat) ^ (0 + 8) = 18446744073709551616 := by norm_num
      omega
    have hpc : pc + 1 + 8 = pc + 9 := by omega
    have hall : ∀ b1 u, _interp_intval code pc b1 u
        = .ok (wrap64 (big_endian 0 bs : Int), pc + 9) := by
      intro b1 u
      simp only [_interp_intval, hop, hn, if_true, hrun, hpc]
    refine ⟨hall b, ?_, hlt64⟩
    rw [interp_uintval, hall 5 true]
    have e : (wrap64 (big_endian 0 bs : Int) % 18446744073709551616).toNat
        = big_endian 0 bs := by
      unfold wrap64
      omega
    simp only [e]

/-- The operand `0x3f 0xff`: `n = 1`, and the 13-bit number is 0x1fff, all
ones; and the nine-byte form of -2. -/
theorem interp_intval_sample :
    interp_intval [63, 255] 0 = .ok (-1, 2)
      ∧ interp_uintval [63, 255] 0 = .ok (8191, 2)
      ∧ _interp_intval [35, 255] 0 3 false = .ok (1023, 2)
      ∧ interp_intval [224, 255, 255, 255, 255, 255, 255, 255, 254] 0 = .ok (-2, 9)
      ∧ interp_uintval [224, 255, 255, 255, 255, 255, 255, 255, 254] 0
          = .ok (18446744073709551614, 9) := by
  refine ⟨by rfl, by rfl, by rfl, by rfl, by rfl⟩

theorem interp_intval_decodes_witness :
    (63 >>> 5 < 7 → ∀ bs, code_bytes [63, 255] (0 + 1) (63 >>> 5) = some bs →
      big_endian (63 % 2 ^ 5) bs < 2 ^ (5 + 8 * (63 >>> 5))
      ∧ _interp_intval [63, 255] 0 5 true
          = .ok ((big_endian (63 % 2 ^ 5) bs : Int), 0 + (1 + (63 >>> 5)))
      ∧ _interp_intval [63, 255] 0 5 false
          = .ok (if big_endian (63 % 2 ^ 5) bs < 2 ^ (5 + 8 * (63 >>> 5) - 1)
                 then (big_endian (63 % 2 ^ 5) bs : Int)
                 else (big_endian (63 % 2 ^ 5) bs : Int) - (2 : Int) ^ (5 + 8 * (63 >>> 5)),
               0 + (1 + (63 >>> 5))))
    ∧ (63 >>> 5 = 7 → ∀ bs, code_bytes [63, 255] (0 + 1) 8 = some bs →
      (∀ u, _interp_intval [63, 255] 0 5 u = .ok (wrap64 (big_endian 0 bs : Int), 0 + 9))
      ∧ interp_uintval [63, 255] 0 = .ok (big_endian 0 bs, 0 + 9)
      ∧ big_endian 0 bs < 18446744073709551616) :=
  interp_intval_decodes [63, 255] 0 5 63 (by decide) (by decide) rfl

/-! ### Parsing Integers -/

theorem char_of_toNat (c : Char) (n : Nat) (h : c.toNat = n) : c = Char.ofNat n := by
  rw [← h, Char.ofNat_toNat]

theorem parse_digit_spec (c : Char) (base : Nat) (hb : base ≤ 36) (hc : c.toNat < 256) :
    parse_digit c base
      = match spec_digit c with
        | some d => if d < base then (d : Int) else -1
        | none => -1 := by
  have hm : c.toNat % 256 = c.toNat := Nat.mod_eq_of_lt hc
  unfold parse_digit char_byte toupper spec_digit
  simp only [hm]
  generalize c.toNat = n at hc
  split_ifs <;> simp only [] <;> (try split_ifs) <;>
    first
      | omega
      | congr 1

theorem positional_cons (base acc d : Nat) (ds : List Nat) :
    positional base acc (d :: ds) = positional base (base * acc + d) ds := rfl

theorem positional_mono (base : Nat) (hb : 1 ≤ base) (ds : List Nat) :
    ∀ acc, acc ≤ positional base acc ds := by
  induction ds with
  | nil => intro acc; exact le_refl _
  | cons d ds ih =>
    intro acc
    rw [positional_cons]
    have h1 : acc ≤ base * acc + d := by nlinarith
    exact le_trans h1 (ih _)

theorem spec_digit_minus : spec_digit '-' = none := by decide

/-- The loop of `parse_int_base` on digits of the base whose value fits:
it returns the positional value. -/
theorem parse_loop_digits (base : Nat) (allow : Bool) (hb1 : 1 ≤ base) (hb36 : base ≤ 36) :
    ∀ (cs : List Char) (ds : List Nat) (i val : Nat) (negf : Bool),
      (∀ c ∈ cs, c.toNat < 256) → spec_digits base cs = some ds →
      positional base val ds < 9223372036854775808 →
      parse_int_base_loop base allow cs.length i cs (val : Int) negf
        = some ((positional base val ds : Int), negf) := by
  intro cs
  induction cs with
  | nil =>
    intro ds i val negf _ hds _
    simp only [spec_digits, Option.some.injEq] at hds
    subst hds
    rfl
  | cons c cs ih =>
    intro ds i val negf hbytes hds hbound
    have hc := hbytes c (by simp)
    cases hd : spec_digit c with
    | none => simp [spec_digits, hd] at hds
    | some d =>
      have hcm : c ≠ '-' := by
        intro e
        rw [e, spec_digit_minus] at hd
        cases hd
      by_cases hdb : d < base
      · cases hrest : spec_digits base cs with
        | none => simp [spec_digits, hd, hdb, hrest] at hds
        | some ds1 =>
          simp only [spec_digits, hd, hdb, if_true, hrest, Option.map_some',
            Option.some.injEq] at hds
          subst hds
          rw [positional_cons] at hbound ⊢
          have hpd : parse_digit c base = (d : Int) := by
            rw [parse_digit_spec c base hb36 hc, hd]
            simp only [hdb, if_true]
          have hmono := positional_mono base hb1 ds1 (base * val + d)
          have hw : wrap64 ((base : Int) * (val : Int) + (d : Int))
              = ((base * val + d : Nat) : Int) := by
            rw [wrap64_id]
            · push_cast; ring
            · unfold in64
              have : ((base * val + d : Nat) : Int) < 9223372036854775808 := by
                exact_mod_cast lt_of_le_of_lt hmono hbound
              push_cast at this
              constructor
              · have h0 : (0 : Int) ≤ (base : Int) * (val : Int) + (d : Int) := by positivity
                omega
              · exact this
          have hnn : ¬ ((d : Int) < 0) := by omega
          rw [List.length_cons, parse_int_base_loop]
          simp only [c_at, List.getD_cons_zero, hcm, false_and, if_false, hpd, hnn,
            List.drop_succ_cons, List.drop_zero, hw]
          exact ih ds1 (i + 1) (base * val + d) negf
            (fun x hx => hbytes x (List.mem_cons_of_mem _ hx)) hrest hbound
      · simp [spec_digits, hd, hdb] at hds

/-- The loop of `parse_int_base` on characters one of which is not a digit
of the base: the result is `false`. -/
theorem parse_loop_invalid (base : Nat) (allow : Bool) (hb36 : base ≤ 36) :
    ∀ (cs : List Char) (i : Nat) (val : Int) (negf : Bool),
      (∀ c ∈ cs, c.toNat < 256) → spec_digits base cs = none →
      ¬ (i = 0 ∧ allow = true ∧ cs.head? = some '-') →
      parse_int_base_loop base allow cs.length i cs val negf = none := by
  intro cs
  induction cs with
  | nil => intro i val negf _ hds; simp [spec_digits] at hds
  | cons c cs ih =>
    intro i val negf hbytes hds hfirst
    have hc := hbytes c (by simp)
    have hskip : ¬ (c = '-' ∧ i = 0 ∧ allow = true) := by
      rintro ⟨h1, h2, h3⟩
      exact hfirst ⟨h2, h3, by simp [h1]⟩
    rw [List.length_cons, parse_int_base_loop]
    simp only [c_at, List.getD_cons_zero, hskip, if_false, List.drop_succ_cons, List.drop_zero]
    rw [parse_digit_spec c base hb36 hc]
    cases hd : spec_digit c with
    | none => simp
    | some d =>
      by_cases hdb : d < base
      · have hrest : spec_digits base cs = none := by
          cases hr : spec_digits base cs with
          | none => rfl
          | some ds1 => simp [spec_digits, hd, hdb, hr] at hds
        have hnn : ¬ ((d : Int) < 0) := by omega
        simp only [hdb, if_true, hnn, if_false]
        exact ih (i + 1) _ negf (fun x hx => hbytes x (List.mem_cons_of_mem _ hx)) hrest
          (by omega)
      · simp [hdb]

theorem spec_digits_positional_bound (base : Nat) (ds : List Nat) (v : Int)
    (h : (positional base 0 ds : Int) = v ∨ -(positional base 0 ds : Int) = v)
    (hv : v.natAbs < 9223372036854775808) : positional base 0 ds < 9223372036854775808 := by
  rcases h with h | h <;> omega

/-- `parse_int_base` on all the characters of `cs`, for a base up to 36:
the value the specification gives to digits with an optional `-`, when that
value is within ±(2^63 - 1), and `false` when a character is no digit. -/
theorem parse_int_base_spec (base : Nat) (allow : Bool) (hb1 : 1 ≤ base) (hb36 : base ≤ 36)
    (cs : List Char) (hbytes : ∀ c ∈ cs, c.toNat < 256)
    (hbound : ∀ v, spec_parse base allow cs = some v → v.natAbs < 9223372036854775808) :
    parse_int_base cs.length cs base allow = spec_parse base allow cs := by
  by_cases hm : cs.head? = some '-'
  · obtain ⟨rest, rfl⟩ : ∃ rest, cs = '-' :: rest := by
      cases cs with
      | nil => simp at hm
      | cons c rest =>
        simp only [List.head?_cons, Option.some.injEq] at hm
        exact ⟨rest, by rw [hm]⟩
    have hbr : ∀ c ∈ rest, c.toNat < 256 := fun c hc => hbytes c (List.mem_cons_of_mem _ hc)
    cases allow with
    | false =>
      have hpd : parse_digit '-' base = -1 := by
        rw [parse_digit_spec '-' base hb36 (by decide), spec_digit_minus]
      simp only [spec_parse, List.head?_cons, if_true, Bool.false_eq_true, if_false,
        parse_int_base, List.length_cons, parse_int_base_loop, c_at, List.getD_cons_zero,
        and_false, hpd]
      rfl
    | true =>
      have hstep : parse_int_base_loop base true ('-' :: rest).length 0 ('-' :: rest) 0 false
          = parse_int_base_loop base true rest.length 1 rest ((0 : Nat) : Int) true := by
        rw [List.length_cons, parse_int_base_loop]
        simp only [c_at, List.getD_cons_zero, true_and, if_true, List.drop_succ_cons,
          List.drop_zero, and_self]
        rfl
      cases hds : spec_digits base rest with
      | none =>
        have hl := parse_loop_invalid base true hb36 rest 1 ((0 : Nat) : Int) true hbr hds
          (by simp)
        simp only [spec_parse, List.head?_cons, if_true, List.tail_cons, hds, Option.map_none',
          parse_int_base, hstep, hl]
      | some ds =>
        have hv := hbound (-(positional base 0 ds : Int))
          (by simp only [spec_parse, List.head?_cons, if_true, List.tail_cons, hds,
            Option.map_some'])
        have hb := spec_digits_positional_bound base ds _ (Or.inr rfl) hv
        have hl := parse_loop_digits base true hb1 hb36 rest ds 1 0 true hbr hds hb
        have hw : wrap64 (-(positional base 0 ds : Int)) = -(positional base 0 ds : Int) := by
          apply wrap64_id
          unfold in64
          omega
        simp only [spec_parse, List.head?_cons, if_true, List.tail_cons, hds, Option.map_some',
          parse_int_base, hstep, hl, hw]
  · have hfirst : ¬ (0 = 0 ∧ allow = true ∧ cs.head? = some '-') := fun h => hm h.2.2
    cases hds : spec_digits base cs with
    | none =>
      have hl := parse_loop_invalid base allow hb36 cs 0 ((0 : Nat) : Int) false hbytes hds
        hfirst
      have hl0 : parse_int_base_loop base allow cs.length 0 cs 0 false = none := hl
      simp only [spec_parse, hm, if_false, hds, Option.map_none', parse_int_base, hl0]
    | some ds =>
      have hv := hbound (positional base 0 ds : Int)
        (by simp only [spec_parse, hm, if_false, hds, Option.map_some'])
      have hb := spec_digits_positional_bound base ds _ (Or.inl rfl) hv
      have hl := parse_loop_digits base allow hb1 hb36 cs ds 0 0 false hbytes hds hb
      have hl0 : parse_int_base_loop base allow cs.length 0 cs 0 false
          = some ((positional base 0 ds : Int), false) := hl
      simp only [spec_parse, hm, if_false, hds, Option.map_some', parse_int_base, hl0,
        Bool.false_eq_true]

theorem toupper_eq_iff (c : Char) (hc : c.toNat < 256) (u : Nat) (hu1 : 65 ≤ u) (hu2 : u ≤ 90) :
    toupper (char_byte c) = u ↔ (c = Char.ofNat (u + 32) ∨ c = Char.ofNat u) := by
  have hm : c.toNat % 256 = c.toNat := Nat.mod_eq_of_lt hc
  have hv1 : (Char.ofNat (u + 32)).toNat = u + 32 := by
    interval_cases u <;> rfl
  have hv2 : (Char.ofNat u).toNat = u := by
    interval_cases u <;> rfl
  unfold toupper char_byte
  rw [hm]
  constructor
  · intro h
    by_cases hl : 97 ≤ c.toNat ∧ c.toNat ≤ 122
    · simp only [hl, and_self, if_true] at h
      exact Or.inl (char_of_toNat c _ (by omega))
    · simp only [hl, if_false] at h
      exact Or.inr (char_of_toNat c _ h)
  · rintro (h | h)
    · rw [h, hv1]
      have : 97 ≤ u + 32 ∧ u + 32 ≤ 122 := by omega
      simp only [this, and_self, if_true]
      omega
    · rw [h, hv2]
      have : ¬ (97 ≤ u ∧ u ≤ 122) := by omega
      simp only [this, if_false]

/-- `parse_int` on all the characters of `cs`: what the specification has
`String.Integer` do without a base, when the value is within ±(2^63 - 1). -/
theorem parse_int_spec (cs : List Char) (hbytes : ∀ c ∈ cs, c.toNat < 256)
    (hbound : ∀ v, spec_Integer cs = some v → v.natAbs < 9223372036854775808) :
    parse_int cs.length cs = spec_Integer cs := by
  have hB : ∀ c : Char, c.toNat < 256 →
      (toupper (char_byte c) = 66 ↔ (c = 'b' ∨ c = 'B')) :=
    fun c hc => toupper_eq_iff c hc 66 (by decide) (by decide)
  have hX : ∀ c : Char, c.toNat < 256 →
      (toupper (char_byte c) = 88 ↔ (c = 'x' ∨ c = 'X')) :=
    fun c hc => toupper_eq_iff c hc 88 (by decide) (by decide)
  have hdrop : ∀ k, ∀ c ∈ cs.drop k, c.toNat < 256 :=
    fun k c hc => hbytes c (List.mem_of_mem_drop hc)
  match cs, hbytes, hbound, hdrop with
  | [], _, hbound, _ =>
    have h := parse_int_base_spec 10 true (by decide) (by decide) [] (by simp)
      (fun v hv => hbound v (by simpa [spec_Integer] using hv))
    simpa [parse_int, spec_Integer, c_at] using h
  | [c], hbytes, hbound, _ =>
    have h := parse_int_base_spec 10 true (by decide) (by decide) [c] hbytes
      (fun v hv => hbound v (by simpa [spec_Integer] using hv))
    simpa [parse_int, spec_Integer, c_at] using h
  | [c, x], hbytes, hbound, _ =>
    by_cases h0 : c = '0'
    · have h := parse_int_base_spec 8 false (by decide) (by decide) [x]
        (fun y hy => hbytes y (by simp at hy; simp [hy]))
        (fun v hv => hbound v (by simpa [spec_Integer, h0] using hv))
      simpa [parse_int, spec_Integer, c_at, h0] using h
    · have h := parse_int_base_spec 10 true (by decide) (by decide) [c, x] hbytes
        (fun v hv => hbound v (by simpa [spec_Integer, h0] using hv))
      simpa [parse_int, spec_Integer, c_at, h0] using h
  | c :: x :: y :: rest, hbytes, hbound, _ =>
    have hx := hbytes x (by simp)
    have hrest : ∀ z ∈ y :: rest, z.toNat < 256 :=
      fun z hz => hbytes z (List.mem_cons_of_mem _ (List.mem_cons_of_mem _ hz))
    have hlen : (c :: x :: y :: rest).length - 2 = (y :: rest).length := by simp
    have hlen1 : (c :: x :: y :: rest).length - 1 = (x :: y :: rest).length := by simp
    have hge3 : (c :: x :: y :: rest).length ≥ 3 := by simp
    have hge2 : (c :: x :: y :: rest).length ≥ 2 := by simp
    by_cases h0 : c = '0'
    · subst h0
      by_cases hb : x = 'b' ∨ x = 'B'
      · have hnx : ¬ (x = 'x' ∨ x = 'X') := by
          rcases hb with h | h <;> rw [h] <;> decide
        have hsp : spec_Integer ('0' :: x :: y :: rest) = spec_parse 2 false (y :: rest) := by
          simp only [spec_Integer, hge3, List.head?_cons, true_and, List.get?_cons_succ,
            List.get?_cons_zero, Option.some.injEq, hnx, if_false, hb, if_true,
            List.drop_succ_cons, List.drop_zero]
        have h := parse_int_base_spec 2 false (by decide) (by decide) (y :: rest) hrest
          (fun v hv => hbound v (by rw [hsp]; exact hv))
        rw [hsp, ← h]
        simp only [parse_int, hge3, c_at, List.getD_cons_zero, List.getD_cons_succ, true_and,
          if_true, (hB x hx).mpr hb, hlen, List.drop_succ_cons, List.drop_zero]
      · by_cases hxx : x = 'x' ∨ x = 'X'
        · have hsp : spec_Integer ('0' :: x :: y :: rest)
              = spec_parse 16 false (y :: rest) := by
            simp only [spec_Integer, hge3, List.head?_cons, true_and, List.get?_cons_succ,
              List.get?_cons_zero, Option.some.injEq, hxx, if_true,
              List.drop_succ_cons, List.drop_zero]
          have h := parse_int_base_spec 16 false (by decide) (by decide) (y :: rest) hrest
            (fun v hv => hbound v (by rw [hsp]; exact hv))
          have hnb : ¬ (toupper (char_byte x) = 66) := fun e => hb ((hB x hx).mp e)
          rw [hsp, ← h]
          simp only [parse_int, hge3, c_at, List.getD_cons_zero, List.getD_cons_succ, true_and,
            if_true, hnb, if_false, (hX x hx).mpr hxx, hlen, List.drop_succ_cons,
            List.drop_zero, (by decide : ¬ ((88 : Nat) = 66))]
        · have hsp : spec_Integer ('0' :: x :: y :: rest)
              = spec_parse 8 false (x :: y :: rest) := by
            simp only [spec_Integer, hge3, hge2, List.head?_cons, true_and,
              List.get?_cons_succ, List.get?_cons_zero, Option.some.injEq, hxx, hb, if_false,
              if_true, List.drop_succ_cons, List.drop_zero]
          have h := parse_int_base_spec 8 false (by decide) (by decide) (x :: y :: rest)
            (fun z hz => hbytes z (List.mem_cons_of_mem _ hz))
            (fun v hv => hbound v (by rw [hsp]; exact hv))
          have hnb : ¬ (toupper (char_byte x) = 66) := fun e => hb ((hB x hx).mp e)
          have hnx : ¬ (toupper (char_byte x) = 88) := fun e => hxx ((hX x hx).mp e)
          rw [hsp, ← h]
          simp only [parse_int, hge3, hge2, c_at, List.getD_cons_zero, List.getD_cons_succ,
            true_and, if_true, hnb, hnx, if_false, hlen1, List.drop_succ_cons, List.drop_zero]
    · have hsp : spec_Integer (c :: x :: y :: rest)
          = spec_parse 10 true (c :: x :: y :: rest) := by
        simp only [spec_Integer, List.head?_cons, Option.some.injEq, h0, false_and, and_false,
          if_false]
      have h := parse_int_base_spec 10 true (by decide) (by decide) (c :: x :: y :: rest)
        hbytes (fun v hv => hbound v (by rw [hsp]; exact hv))
      rw [hsp, ← h]
      simp only [parse_int, c_at, List.getD_cons_zero, h0, and_false, if_false]

/-- C22 (amended): for a String of bytes, `String.Integer` without a base
parses `0x`/`0X` and at least one more character in base 16, `0b`/`0B` and
at least one more in base 2, `0` and at least one more in base 8, anything
else in base 10 with an optional leading `-`; with a base argument from 2 to
16 it parses in that base with an optional leading `-`.  When every
character is a digit of the base and the positional value is below 2^63 the
result is that value (negated after `-`); when a character is no digit of
the base the method raises `system.invalid-value` on the receiver. -/
theorem string_integer_parses (recvr : ovm_inst) (obj : Nat) (s : ovm_obj_str)
    (hr : recvr.val = .strval obj s) (hsize : s.size = s.data.length + 1)
    (hbytes : ∀ c ∈ s.data, c.toNat < 256) :
    ((∀ v, spec_Integer s.data = some v → v.natAbs < 9223372036854775808) →
        String_Integer recvr none
          = match spec_Integer s.data with
            | some v => .ok v
            | none => .error (.raised (ovm_except_inv_value recvr)))
    ∧ (∀ (a : ovm_inst) (b : Int), a.val = .intval b → 2 ≤ b → b ≤ 16 →
        (∀ v, spec_parse b.toNat true s.data = some v → v.natAbs < 9223372036854775808) →
        String_Integer recvr (some a)
          = match spec_parse b.toNat true s.data with
            | some v => .ok v
            | none => .error (.raised (ovm_except_inv_value recvr))) := by
  have hlen : s.size - 1 = s.data.length := by omega
  constructor
  · intro hbound
    have h := parse_int_spec s.data hbytes hbound
    simp only [String_Integer, hr, hlen, h]
  · intro a b ha hb2 hb16 hbound
    have hbase : b.toNat % 4294967296 = b.toNat := by omega
    have h := parse_int_base_spec b.toNat true (by omega) (by omega) s.data hbytes hbound
    have hrange : ¬ (b < 2 ∨ b > 16) := by omega
    simp only [String_Integer, hr, ha, hrange, if_false, hlen, hbase, h]

theorem string_integer_parses_witness :
    String_Integer (sample_str_inst "0x1F") none = .ok 31
      ∧ String_Integer (sample_str_inst "101") (some (inst_int 2)) = .ok 5 :=
  ⟨(string_integer_parses (sample_str_inst "0x1F") 620 { size := 5, data := "0x1F".toList }
      rfl rfl (by decide)).1
      (fun v hv => by
        have e : spec_Integer "0x1F".toList = some 31 := by rfl
        rw [e] at hv
        cases hv
        decide),
   (string_integer_parses (sample_str_inst "101") 620 { size := 4, data := "101".toList }
      rfl rfl (by decide)).2 (inst_int 2) 2 rfl (by decide) (by decide)
      (fun v hv => by
        have e : spec_parse (2 : Int).toNat true "101".toList = some 5 := by rfl
        rw [e] at hv
        cases hv
        decide)⟩

/-- The results the specification lists, and a character that is no digit. -/
theorem string_integer_sample :
    String_Integer (sample_str_inst "0x1F") none = .ok 31
      ∧ String_Integer (sample_str_inst "101") (some (inst_int 2)) = .ok 5
      ∧ String_Integer (sample_str_inst "0b11") none = .ok 3
      ∧ String_Integer (sample_str_inst "077") none = .ok 63
      ∧ String_Integer (sample_str_inst "-12") none = .ok (-12)
      ∧ String_Integer (sample_str_inst "12a") none
          = .error (.raised (ovm_except_inv_value (sample_str_inst "12a")))
      ∧ spec_Integer "0x1F".toList = some 31
      ∧ spec_parse 2 true "101".toList = some 5 := by
  refine ⟨by rfl, by rfl, by rfl, by rfl, by rfl, by rfl, by rfl, by rfl⟩

set_option maxRecDepth 100000 in
/-- The digits of 2^63 are digits of base 10 with the positional value
2^63; `val = base * val + d` wraps and the method returns -2^63. -/
theorem string_integer_parses_counterexample :
    String_Integer (sample_str_inst "9223372036854775808") none = .ok (-9223372036854775808)
      ∧ spec_Integer "9223372036854775808".toList = some 9223372036854775808 :=
  ⟨by rfl, by rfl⟩

/-! ### Memory: size classes and buffers -/

theorem mem_tbl_get (p i : Nat) (h : i < p - 7) :
    ((List.range (p - 7)).map (fun i => 64 * 2 ^ i)).get? i = some (64 * 2 ^ i) := by
  simp [h]

theorem mem_tbl_getD (p i : Nat) (h : i < p - 7) :
    ((List.range (p - 7)).map (fun i => 64 * 2 ^ i)).getD i 0 = 64 * 2 ^ i := by
  rw [List.getD_eq_getElem?_getD, ← List.get?_eq_getElem?, mem_tbl_get p i h]
  rfl

theorem mem_tbl_lt (j k : Nat) (h : j < k) : 64 * 2 ^ j < 64 * 2 ^ k :=
  Nat.mul_lt_mul_of_pos_left (Nat.pow_lt_pow_right (by decide) h) (by decide)

theorem mem_tbl_last (p : Nat) (hp : 8 ≤ p) : 64 * 2 ^ (p - 8) = 2 ^ (p - 2) := by
  have e : p - 2 = 6 + (p - 8) := by omega
  rw [e, Nat.pow_add]

/-- The binary search of `ovm_mem_alloc` in the table of sizes 64 * 2^i:
it ends at the first entry with room for `size`, or past the table when no
entry has room. -/
theorem mem_search_loop_spec (p size : Nat) :
    ∀ (fuel a b i : Nat) (cmp : Int), a ≤ b → b ≤ p - 7 → b - a < fuel →
      (∀ j, j < a → 64 * 2 ^ j < size) → (∀ j, b ≤ j → size < 64 * 2 ^ j) →
      (a = b → (cmp ≤ 0 ∧ i = b) ∨ (cmp > 0 ∧ i + 1 = b)) →
      ∃ i1 cmp1,
        mem_search_loop ((List.range (p - 7)).map (fun i => 64 * 2 ^ i)) size fuel a b i cmp
          = .ok (i1, cmp1)
        ∧ (if cmp1 > 0 then i1 + 1 else i1) ≤ p - 7
        ∧ (∀ j, j < (if cmp1 > 0 then i1 + 1 else i1) → 64 * 2 ^ j < size)
        ∧ (∀ j, (if cmp1 > 0 then i1 + 1 else i1) ≤ j → size ≤ 64 * 2 ^ j) := by
  intro fuel
  induction fuel with
  | zero => intro a b i cmp _ _ h; omega
  | succ fuel ih =>
    intro a b i cmp hab hbN hfuel hlow hhigh hend
    by_cases hgt : b > a
    · have hm : (a + b) / 2 < p - 7 := by omega
      have hma : a ≤ (a + b) / 2 := by omega
      have hmb : (a + b) / 2 < b := by omega
      rw [mem_search_loop]
      simp only [hgt, if_true, mem_tbl_get p _ hm]
      by_cases heq : size = 64 * 2 ^ ((a + b) / 2)
      · refine ⟨(a + b) / 2, 0, by simp only [heq, if_true], ?_, ?_, ?_⟩
        · simp only [gt_iff_lt, lt_self_iff_false, if_false]; omega
        · intro j hj
          simp only [gt_iff_lt, lt_self_iff_false, if_false] at hj
          rw [heq]; exact mem_tbl_lt j _ hj
        · intro j hj
          simp only [gt_iff_lt, lt_self_iff_false, if_false] at hj
          rw [heq]
          rcases Nat.eq_or_lt_of_le hj with e | e
          · rw [e]
          · exact Nat.le_of_lt (mem_tbl_lt _ j e)
      · simp only [heq, if_false]
        by_cases hlt : size < 64 * 2 ^ ((a + b) / 2)
        · simp only [hlt, if_true]
          exact ih a ((a + b) / 2) ((a + b) / 2) (-1) hma (by omega) (by omega) hlow
            (fun j hj => by
              rcases Nat.eq_or_lt_of_le hj with e | e
              · rw [← e]; exact hlt
              · exact lt_trans hlt (mem_tbl_lt _ j e))
            (fun _ => Or.inl ⟨by decide, rfl⟩)
        · simp only [hlt, if_false]
          have hgt2 : 64 * 2 ^ ((a + b) / 2) < size := by omega
          exact ih ((a + b) / 2 + 1) b ((a + b) / 2) 1 (by omega) hbN (by omega)
            (fun j hj => by
              rcases Nat.eq_or_lt_of_le (Nat.le_of_lt_succ hj) with e | e
              · rw [e]; exact hgt2
              · exact lt_trans (mem_tbl_lt j _ e) hgt2)
            hhigh
            (fun e => Or.inr ⟨by decide, e⟩)
    · have hab2 : a = b := by omega
      rw [mem_search_loop]
      simp only [hgt, if_false]
      refine ⟨i, cmp, rfl, ?_, ?_, ?_⟩
      · rcases hend hab2 with ⟨h1, h2⟩ | ⟨h1, h2⟩
        · have : ¬ (cmp > 0) := by omega
          simp only [this, if_false]; omega
        · simp only [h1, if_true]; omega
      · intro j hj
        have hr : (if cmp > 0 then i + 1 else i) = b := by
          rcases hend hab2 with ⟨h1, h2⟩ | ⟨h1, h2⟩
          · have : ¬ (cmp > 0) := by omega
            simp only [this, if_false]; exact h2
          · simp only [h1, if_true]; exact h2
        rw [hr] at hj
        exact hlow j (by omega)
      · intro j hj
        have hr : (if cmp > 0 then i + 1 else i) = b := by
          rcases hend hab2 with ⟨h1, h2⟩ | ⟨h1, h2⟩
          · have : ¬ (cmp > 0) := by omega
            simp only [this, if_false]; exact h2
          · simp only [h1, if_true]; exact h2
        rw [hr] at hj
        exact Nat.le_of_lt (hhigh j hj)

/-- The loop that cuts a page: the new buffers lie between `p` and
`p + rem`, whole, and there is one when a buffer fits. -/
theorem mem_carve_spec (bs : Nat) (hbs : 0 < bs) :
    ∀ (fuel p rem : Nat) (free : List Nat), rem < fuel →
      ∃ news, mem_carve bs fuel p rem free = .ok (free ++ news)
        ∧ (∀ x ∈ news, p ≤ x ∧ x + bs ≤ p + rem)
        ∧ (bs ≤ rem → news ≠ []) := by
  intro fuel
  induction fuel with
  | zero => intro p rem free h; omega
  | succ fuel ih =>
    intro p rem free hfuel
    rw [mem_carve]
    by_cases hge : rem ≥ bs
    · obtain ⟨news, hrun, hin, _⟩ := ih (p + bs) (rem - bs) (free ++ [p]) (by omega)
      refine ⟨p :: news, ?_, ?_, fun _ => by simp⟩
      · simp only [hge, if_true, hrun, List.append_assoc, List.singleton_append]
      · intro x hx
        rcases List.mem_cons.mp hx with rfl | hx
        · omega
        · have := hin x hx
          omega
    · refine ⟨[], by simp only [hge, if_false, List.append_nil], by simp, fun h => by omega⟩
/-- The choice of the entry in a well-formed allocator: an entry with room,
and the first such entry when the hint is not used. -/
theorem mem_class_spec (st : mem_state) (p : Nat) (hwf : mem_wf st p) (size : Nat) (hint : Int)
    (hsize : size ≤ st.ovm_mem_max_buf_size) :
    ∃ i, mem_class st size hint = .ok i ∧ i < p - 7 ∧ size ≤ 64 * 2 ^ i
      ∧ (¬ (0 ≤ hint ∧ hint.toNat < st.mem_buf_tbl_size
            ∧ size ≤ st.buf_size.getD hint.toNat 0) →
          ∀ j, j < i → 64 * 2 ^ j < size) := by
  obtain ⟨hp8, hp31, hps, hmax, hN, htbl, _, _, _⟩ := hwf
  by_cases hu : 0 ≤ hint ∧ hint.toNat < st.mem_buf_tbl_size
      ∧ size ≤ st.buf_size.getD hint.toNat 0
  · obtain ⟨h0, h1, h2⟩ := hu
    have hi : hint.toNat < p - 7 := by rw [← hN]; exact h1
    have hg : st.buf_size.get? hint.toNat = some (64 * 2 ^ hint.toNat) := by
      rw [htbl]; exact mem_tbl_get p _ hi
    have hgd : st.buf_size.getD hint.toNat 0 = 64 * 2 ^ hint.toNat := by
      rw [htbl]; exact mem_tbl_getD p _ hi
    rw [hgd] at h2
    refine ⟨hint.toNat, ?_, hi, h2, fun hn => absurd ⟨h0, h1, by rw [hgd]; exact h2⟩ hn⟩
    unfold mem_class
    have hc : hint ≥ 0 ∧ hint.toNat < st.mem_buf_tbl_size
        ∧ (match st.buf_size.get? hint.toNat with
           | some bs => decide (size ≤ bs)
           | none => false) = true := by
      refine ⟨h0, h1, ?_⟩
      rw [hg]
      simp only [decide_eq_true_eq]
      exact h2
    simp only [hc, and_self, if_true]
  · have hc : ¬ (hint ≥ 0 ∧ hint.toNat < st.mem_buf_tbl_size
        ∧ (match st.buf_size.get? hint.toNat with
           | some bs => decide (size ≤ bs)
           | none => false) = true) := by
      rintro ⟨h0, h1, h2⟩
      have hi : hint.toNat < p - 7 := by rw [← hN]; exact h1
      have hg : st.buf_size.get? hint.toNat = some (64 * 2 ^ hint.toNat) := by
        rw [htbl]; exact mem_tbl_get p _ hi
      have hgd : st.buf_size.getD hint.toNat 0 = 64 * 2 ^ hint.toNat := by
        rw [htbl]; exact mem_tbl_getD p _ hi
      rw [hg] at h2
      simp only [decide_eq_true_eq] at h2
      exact hu ⟨h0, h1, by rw [hgd]; exact h2⟩
    obtain ⟨i1, cmp1, hrun, hle, hlow, hhigh⟩ :=
      mem_search_loop_spec p size (p - 7 + 1) 0 (p - 7) 0 0 (Nat.zero_le _) (le_refl _)
        (by omega) (fun j hj => by omega) (fun j hj => by
          have h1 : 2 ^ (p - 2) ≤ 64 * 2 ^ (p - 8) := by rw [mem_tbl_last p hp8]
          have h2 : 64 * 2 ^ (p - 8) < 64 * 2 ^ j := mem_tbl_lt _ _ (by omega)
          rw [hmax] at hsize
          omega)
        (fun e => by omega)
    have hlt : (if cmp1 > 0 then i1 + 1 else i1) < p - 7 := by
      by_contra hc2
      have h1 := hlow (p - 8) (by omega)
      rw [mem_tbl_last p hp8, ← hmax] at h1
      omega
    refine ⟨if cmp1 > 0 then i1 + 1 else i1, ?_, hlt, hhigh _ (le_refl _), fun _ => hlow⟩
    unfold mem_class
    rw [if_neg hc]
    simp only [hN, htbl, hrun]
theorem buf_in_page_of_offset (st : mem_state) (p i page x : Nat)
    (hps : st.mem_page_size = 2 ^ p) (hpage : page % 2 ^ p = 0)
    (h1 : page + SIZEOF_MEM_BUF_PAGE ≤ x)
    (h2 : x + st.buf_size.getD i 0 ≤ page + SIZEOF_MEM_BUF_PAGE + (2 ^ p - SIZEOF_MEM_BUF_PAGE))
    (h24 : SIZEOF_MEM_BUF_PAGE ≤ 2 ^ p) (hpos : 0 < st.buf_size.getD i 0) :
    buf_in_page st i x := by
  unfold buf_in_page
  rw [hps]
  obtain ⟨q, hq⟩ := Nat.dvd_of_mod_eq_zero hpage
  have hx : x = (x - page) + 2 ^ p * q := by omega
  have hlt : x - page < 2 ^ p := by omega
  have hm : x % 2 ^ p = x - page := by
    rw [hx, Nat.add_mul_mod_self_left, Nat.mod_eq_of_lt hlt]
    omega
  rw [hm]
  omega

theorem mem_wf_set (st : mem_state) (p i : Nat) (free1 : List Nat) (rest : List Nat)
    (hwf : mem_wf st p) (hi : i < p - 7)
    (hfree : ∀ b ∈ free1, buf_in_page st i b) (hrest : ∀ a ∈ rest, a % 2 ^ p = 0) :
    mem_wf { st with pages := rest, free_buf_list := st.free_buf_list.set i free1 } p := by
  obtain ⟨hp8, hp31, hps, hmax, hN, htbl, hlen, hlists, _⟩ := hwf
  refine ⟨hp8, hp31, hps, hmax, hN, htbl, by simp [hlen], ?_, hrest⟩
  intro j free hj b hb
  change buf_in_page st j b
  change (st.free_buf_list.set i free1).get? j = some free at hj
  simp only [List.get?_eq_getElem?] at hj
  by_cases hij : i = j
  · subst hij
    rw [List.getElem?_set_self (by rw [hlen]; exact hi)] at hj
    injection hj with hj
    rw [← hj] at hb
    exact hfree b hb
  · rw [List.getElem?_set_ne hij] at hj
    exact hlists j free (by rw [List.get?_eq_getElem?]; exact hj) b hb

/-- C28: in an allocator as `mem_init` and the allocations leave it, for a
request of at most `ovm_mem_max_buf_size` bytes and any hint,
`ovm_mem_alloc` takes a buffer of an entry `i` of the table whose buffer
size is at least `size`; when the hint is negative, beyond the table or
names a smaller entry, `i` is the first entry with room.  The buffer
returned lies whole in one page and the allocator stays well formed; only
when the free list is empty and `mmap` has no page does the process exit. -/
theorem mem_alloc_class (st : mem_state) (p : Nat) (hwf : mem_wf st p) (size : Nat) (hint : Int)
    (hsize : size ≤ st.ovm_mem_max_buf_size) :
    ∃ i, mem_class st size hint = .ok i ∧ i < st.mem_buf_tbl_size
      ∧ size ≤ st.buf_size.getD i 0
      ∧ (¬ (0 ≤ hint ∧ hint.toNat < st.mem_buf_tbl_size
            ∧ size ≤ st.buf_size.getD hint.toNat 0) →
          ∀ j, j < i → st.buf_size.getD j 0 < size)
      ∧ ((st.free_buf_list.getD i [] ≠ [] ∨ st.pages ≠ []) →
          ∃ st1 b, ovm_mem_alloc st size hint = .ok (st1, b)
            ∧ buf_in_page st i b ∧ mem_wf st1 p)
      ∧ (st.free_buf_list.getD i [] = [] → st.pages = [] →
          ovm_mem_alloc st size hint = .error (.fatal 1)) := by
  obtain ⟨i, hcl, hi, hroom, hmin⟩ := mem_class_spec st p hwf size hint hsize
  have hwf0 := hwf
  obtain ⟨hp8, hp31, hps, hmax, hN, htbl, hlen, hlists, hpages⟩ := hwf
  have hgd : ∀ j, j < p - 7 → st.buf_size.getD j 0 = 64 * 2 ^ j := by
    intro j hj; rw [htbl]; exact mem_tbl_getD p j hj
  have hg : st.buf_size.get? i = some (64 * 2 ^ i) := by
    rw [htbl]; exact mem_tbl_get p i hi
  obtain ⟨free, hfg⟩ : ∃ free, st.free_buf_list.get? i = some free := by
    have : i < st.free_buf_list.length := by rw [hlen]; exact hi
    exact ⟨st.free_buf_list[i], by rw [List.get?_eq_getElem?, List.getElem?_eq_getElem this]⟩
  have hfd : st.free_buf_list.getD i [] = free := by
    rw [List.getD_eq_getElem?_getD, ← List.get?_eq_getElem?, hfg]
    rfl
  have hbig : ¬ (size > st.ovm_mem_max_buf_size) := by omega
  have hbs_le : 64 * 2 ^ i ≤ 2 ^ (p - 2) := by
    rw [← mem_tbl_last p hp8]
    rcases Nat.eq_or_lt_of_le (show i ≤ p - 8 by omega) with e | e
    · rw [e]
    · exact Nat.le_of_lt (mem_tbl_lt _ _ e)
  have hpow : (2 : Nat) ^ p = 4 * 2 ^ (p - 2) := by
    have e : p = 2 + (p - 2) := by omega
    conv_lhs => rw [e, Nat.pow_add]
  have h64 : 64 ≤ (2 : Nat) ^ (p - 2) := by
    have : (2 : Nat) ^ 6 ≤ 2 ^ (p - 2) := Nat.pow_le_pow_right (by decide) (by omega)
    simpa using this
  have hpos : 0 < 64 * 2 ^ i := by positivity
  refine ⟨i, hcl, by rw [hN]; exact hi, by rw [hgd i hi]; exact hroom, ?_, ?_, ?_⟩
  · intro hn j hj
    rw [hgd j (by omega)]
    exact hmin hn j hj
  · intro havail
    rw [hfd] at havail
    by_cases hfe : free = []
    · -- a new page is cut
      have hpg : st.pages ≠ [] := by
        rcases havail with h | h
        · exact absurd hfe h
        · exact h
      obtain ⟨page, rest, hpr⟩ : ∃ page rest, st.pages = page :: rest := by
        cases hs : st.pages with
        | nil => exact absurd hs hpg
        | cons page rest => exact ⟨page, rest, rfl⟩
      have hpage : page % 2 ^ p = 0 := hpages page (by rw [hpr]; simp)
      obtain ⟨news, hcarve, hin, hne⟩ :=
        mem_carve_spec (64 * 2 ^ i) hpos (2 ^ p) (page + SIZEOF_MEM_BUF_PAGE)
          (2 ^ p - SIZEOF_MEM_BUF_PAGE) [] (by unfold SIZEOF_MEM_BUF_PAGE; omega)
      have hnews : news ≠ [] := hne (by unfold SIZEOF_MEM_BUF_PAGE; omega)
      obtain ⟨b, hb⟩ : ∃ b, news.getLast? = some b :=
        ⟨news.getLast hnews, List.getLast?_eq_getLast _ hnews⟩
      have hbmem : b ∈ news := List.mem_of_getLast?_eq_some hb
      have hslot : ∀ x ∈ news, buf_in_page st i x := by
        intro x hx
        obtain ⟨h1, h2⟩ := hin x hx
        exact buf_in_page_of_offset st p i page x hps hpage h1 (by rw [hgd i hi]; exact h2)
          (by unfold SIZEOF_MEM_BUF_PAGE; omega) (by rw [hgd i hi]; exact hpos)
      refine ⟨{ st with pages := rest, free_buf_list := st.free_buf_list.set i news.dropLast },
        b, ?_, hslot b hbmem, ?_⟩
      · unfold ovm_mem_alloc
        simp only [hbig, if_false, hcl, hg, hfg, hfe, if_true, mem_pages_alloc, hpr, hps]
        rw [hcarve]
        simp only [List.nil_append, hb]
      · exact mem_wf_set st p i news.dropLast rest hwf0 hi
          (fun x hx => hslot x (List.mem_of_mem_dropLast hx))
          (fun a ha => hpages a (by rw [hpr]; exact List.mem_cons_of_mem _ ha))
    · obtain ⟨b, hb⟩ : ∃ b, free.getLast? = some b :=
        ⟨free.getLast hfe, List.getLast?_eq_getLast _ hfe⟩
      have hbmem : b ∈ free := List.mem_of_getLast?_eq_some hb
      refine ⟨{ st with free_buf_list := st.free_buf_list.set i free.dropLast }, b, ?_,
        hlists i free hfg b hbmem, ?_⟩
      · unfold ovm_mem_alloc
        simp only [hbig, if_false, hcl, hg, hfg, hfe, hb]
      · exact mem_wf_set st p i free.dropLast st.pages hwf0 hi
          (fun x hx => hlists i free hfg x (List.mem_of_mem_dropLast hx)) hpages
  · intro hfe hpg
    rw [hfd] at hfe
    unfold ovm_mem_alloc
    simp only [hbig, if_false, hcl, hg, hfg, hfe, if_true, mem_pages_alloc, hpg]

/-- `mem_init` for pages of 4096 bytes leaves a well-formed allocator. -/
theorem sample_mem_wf : mem_wf sample_mem 12 := by
  refine ⟨by decide, by decide, by decide, by decide, by decide, by decide, by decide, ?_, ?_⟩
  · intro i free h b hb
    have hl : i < 5 := by
      by_contra hc
      have : sample_mem.free_buf_list.get? i = none := by
        rw [List.get?_eq_none]
        show List.length [[], [], [], [], []] ≤ i
        simp only [List.length_cons, List.length_nil]
        omega
      rw [this] at h
      cases h
    have hfl : sample_mem.free_buf_list = [[], [], [], [], []] := by decide
    rw [hfl] at h
    interval_cases i <;> simp at h <;> subst h <;> simp at hb
  · intro a ha
    have hp : sample_mem.pages = [40960, 81920] := by decide
    rw [hp] at ha
    simp only [List.mem_cons, List.mem_singleton, List.not_mem_nil, or_false] at ha
    rcases ha with rfl | rfl <;> decide

theorem mem_alloc_class_witness :
    ∃ i, mem_class sample_mem 100 3 = .ok i ∧ i < sample_mem.mem_buf_tbl_size
      ∧ 100 ≤ sample_mem.buf_size.getD i 0
      ∧ (¬ (0 ≤ (3 : Int) ∧ (3 : Int).toNat < sample_mem.mem_buf_tbl_size
            ∧ 100 ≤ sample_mem.buf_size.getD (3 : Int).toNat 0) →
          ∀ j, j < i → sample_mem.buf_size.getD j 0 < 100)
      ∧ ((sample_mem.free_buf_list.getD i [] ≠ [] ∨ sample_mem.pages ≠ []) →
          ∃ st1 b, ovm_mem_alloc sample_mem 100 3 = .ok (st1, b)
            ∧ buf_in_page sample_mem i b ∧ mem_wf st1 12)
      ∧ (sample_mem.free_buf_list.getD i [] = [] → sample_mem.pages = [] →
          ovm_mem_alloc sample_mem 100 3 = .error (.fatal 1)) :=
  mem_alloc_class sample_mem 12 sample_mem_wf 100 3 (by decide)

/-- The sample allocator: without a usable hint a request of 100 bytes is
served from the entry of 128 bytes, with the hint 3 from the entry of 512
bytes; the first buffer handed out is the last of the new page at 40960. -/
theorem mem_alloc_sample :
    sample_mem.buf_size = [64, 128, 256, 512, 1024]
      ∧ mem_class sample_mem 100 (-1) = .ok 1
      ∧ mem_class sample_mem 100 0 = .ok 1
      ∧ mem_class sample_mem 100 7 = .ok 1
      ∧ mem_class sample_mem 100 3 = .ok 3
      ∧ (∃ st, ovm_mem_alloc sample_mem 1000 (-1) = .ok (st, 43032)
          ∧ st.free_buf_list = [[], [], [], [], [40984, 42008]]) :=
  ⟨by decide, by rfl, by rfl, by rfl, by rfl, ⟨_, rfl, by decide⟩⟩

/-! ### The exception nesting counter -/

theorem stack_unwind_lvl (th t : ovm_thread) (p : Nat) (h : ovm_stack_unwind th p = .ok t) :
    t.except_lvl = th.except_lvl := by
  unfold ovm_stack_unwind at h
  split_ifs at h
  injection h with h
  subst h
  rfl

theorem stack_alloc_lvl (th t : ovm_thread) (n p : Nat) (h : ovm_stack_alloc th n = .ok (t, p)) :
    t.except_lvl = th.except_lvl := by
  unfold ovm_stack_alloc _ovm_stack_alloc at h
  split_ifs at h
  injection h with h
  injection h with h1 h2
  subst h1
  rfl

theorem frame_push_lvl (th t : ovm_thread) (fr : ovm_frame) (h : frame_push th fr = .ok t) :
    t.except_lvl = th.except_lvl := by
  unfold frame_push at h
  split_ifs at h
  injection h with h
  subst h
  rfl

theorem frame_pop1_lvl (th t : ovm_thread) (h : frame_pop1 th = .ok t) :
    t.except_lvl = th.except_lvl := by
  unfold frame_pop1 at h
  cases hf : th.frames th.fp with
  | none => simp [hf] at h
  | some fr =>
    simp only [hf] at h
    split_ifs at h
    cases fr with
    | ns size prev ns =>
      simp only at h
      injection h with h
      subst h
      rfl
    | mc size prev cl method dst bp argc ap =>
      simp only at h
      cases hu : ovm_stack_unwind th bp with
      | error e => simp [hu] at h
      | ok th1 =>
        simp only [hu] at h
        injection h with h
        subst h
        exact stack_unwind_lvl th th1 bp hu
    | xc size prev arg av sp pc =>
      simp only at h
      cases hu : ovm_stack_unwind th sp with
      | error e => simp [hu] at h
      | ok th1 =>
        simp only [hu] at h
        injection h with h
        subst h
        exact stack_unwind_lvl th th1 sp hu

theorem frame_unwind_loop_lvl :
    ∀ (fuel : Nat) (th t : ovm_thread) (fp : Nat), frame_unwind_loop fuel th fp = .ok t →
      t.except_lvl = th.except_lvl := by
  intro fuel
  induction fuel with
  | zero => intro th t fp h; simp [frame_unwind_loop] at h
  | succ fuel ih =>
    intro th t fp h
    unfold frame_unwind_loop at h
    split_ifs at h
    · cases hp : frame_pop1 th with
      | error e => simp [hp] at h
      | ok th1 =>
        simp only [hp] at h
        rw [ih th1 t fp h, frame_pop1_lvl th th1 hp]
    · injection h with h
      subst h
      rfl

theorem frame_pop_loop_lvl :
    ∀ (fuel : Nat) (th t : ovm_thread) (fp : Nat), frame_pop_loop fuel th fp = .ok t →
      t.except_lvl = th.except_lvl := by
  intro fuel
  induction fuel with
  | zero => intro th t fp h; simp [frame_pop_loop] at h
  | succ fuel ih =>
    intro th t fp h
    unfold frame_pop_loop at h
    split_ifs at h
    · cases hp : frame_pop1 th with
      | error e => simp [hp] at h
      | ok th1 =>
        simp only [hp] at h
        rw [ih th1 t fp h, frame_pop1_lvl th th1 hp]
    · injection h with h
      subst h
      rfl

theorem frame_except_pop_loop_lvl :
    ∀ (fuel : Nat) (th t : ovm_thread) (n : Nat), frame_except_pop_loop fuel th n = .ok t →
      t.except_lvl = th.except_lvl := by
  intro fuel
  induction fuel with
  | zero => intro th t n h; simp [frame_except_pop_loop] at h
  | succ fuel ih =>
    intro th t n h
    unfold frame_except_pop_loop at h
    split_ifs at h
    · cases hp : frame_pop1 th with
      | error e => simp [hp] at h
      | ok th1 =>
        simp only [hp] at h
        have e1 := frame_pop1_lvl th th1 hp
        split at h
        · rw [ih th1 t _ h, e1]
        · rw [ih th1 t _ h, e1]
    · injection h with h
      subst h
      rfl

theorem except_longjmp_lvl (fuel : Nat) (th t : ovm_thread) (xfr arg : Nat)
    (h : except_longjmp fuel th xfr arg = .ok t) : t.except_lvl = th.except_lvl := by
  unfold except_longjmp at h
  split at h
  · rename_i size prev xarg av xsp xpc hf
    unfold frame_unwind at h
    split_ifs at h
    · cases hl : frame_unwind_loop fuel (catch_store th xfr size prev xarg xsp xpc arg) xfr with
      | error e => simp [hl] at h
      | ok th3 =>
        simp only [hl] at h
        cases hu : ovm_stack_unwind th3 xsp with
        | error e => simp [hu] at h
        | ok th4 =>
          simp only [hu] at h
          injection h with h
          subst h
          show th4.except_lvl = _
          rw [stack_unwind_lvl th3 th4 xsp hu, frame_unwind_loop_lvl fuel _ th3 xfr hl]
          rfl
  · simp at h

theorem dict_ats_put_work_lvl (th t : ovm_thread) (w : Nat)
    (h : dict_ats_put_work th w = .ok t) : t.except_lvl = th.except_lvl := by
  unfold dict_ats_put_work at h
  cases ha : ovm_stack_alloc th 1 with
  | error e => simp [ha] at h
  | ok r =>
    obtain ⟨th1, work⟩ := r
    simp only [ha] at h
    rw [stack_unwind_lvl _ t work h]
    exact stack_alloc_lvl th th1 1 work ha

theorem stack_unwind_flvl (th t : ovm_thread) (p : Nat) (h : ovm_stack_unwind th p = .ok t) :
    t.fatal_lvl = th.fatal_lvl := by
  unfold ovm_stack_unwind at h
  split_ifs at h
  injection h with h
  subst h
  rfl

theorem stack_alloc_flvl (th t : ovm_thread) (n p : Nat) (h : ovm_stack_alloc th n = .ok (t, p)) :
    t.fatal_lvl = th.fatal_lvl := by
  unfold ovm_stack_alloc _ovm_stack_alloc at h
  split_ifs at h
  injection h with h
  injection h with h1 h2
  subst h1
  rfl

theorem frame_push_flvl (th t : ovm_thread) (fr : ovm_frame) (h : frame_push th fr = .ok t) :
    t.fatal_lvl = th.fatal_lvl := by
  unfold frame_push at h
  split_ifs at h
  injection h with h
  subst h
  rfl

theorem frame_pop1_flvl (th t : ovm_thread) (h : frame_pop1 th = .ok t) :
    t.fatal_lvl = th.fatal_lvl := by
  unfold frame_pop1 at h
  cases hf : th.frames th.fp with
  | none => simp [hf] at h
  | some fr =>
    simp only [hf] at h
    split_ifs at h
    cases fr with
    | ns size prev ns =>
      simp only at h
      injection h with h
      subst h
      rfl
    | mc size prev cl method dst bp argc ap =>
      simp only at h
      cases hu : ovm_stack_unwind th bp with
      | error e => simp [hu] at h
      | ok th1 =>
        simp only [hu] at h
        injection h with h
        subst h
        exact stack_unwind_flvl th th1 bp hu
    | xc size prev arg av sp pc =>
      simp only at h
      cases hu : ovm_stack_unwind th sp with
      | error e => simp [hu] at h
      | ok th1 =>
        simp only [hu] at h
        injection h with h
        subst h
        exact stack_unwind_flvl th th1 sp hu

theorem frame_unwind_loop_flvl :
    ∀ (fuel : Nat) (th t : ovm_thread) (fp : Nat), frame_unwind_loop fuel th fp = .ok t →
      t.fatal_lvl = th.fatal_lvl := by
  intro fuel
  induction fuel with
  | zero => intro th t fp h; simp [frame_unwind_loop] at h
  | succ fuel ih =>
    intro th t fp h
    unfold frame_unwind_loop at h
    split_ifs at h
    · cases hp : frame_pop1 th with
      | error e => simp [hp] at h
      | ok th1 =>
        simp only [hp] at h
        rw [ih th1 t fp h, frame_pop1_flvl th th1 hp]
    · injection h with h
      subst h
      rfl

theorem frame_pop_loop_flvl :
    ∀ (fuel : Nat) (th t : ovm_thread) (fp : Nat), frame_pop_loop fuel th fp = .ok t →
      t.fatal_lvl = th.fatal_lvl := by
  intro fuel
  induction fuel with
  | zero => intro th t fp h; simp [frame_pop_loop] at h
  | succ fuel ih =>
    intro th t fp h
    unfold frame_pop_loop at h
    split_ifs at h
    · cases hp : frame_pop1 th with
      | error e => simp [hp] at h
      | ok th1 =>
        simp only [hp] at h
        rw [ih th1 t fp h, frame_pop1_flvl th th1 hp]
    · injection h with h
      subst h
      rfl

theorem frame_except_pop_loop_flvl :
    ∀ (fuel : Nat) (th t : ovm_thread) (n : Nat), frame_except_pop_loop fuel th n = .ok t →
      t.fatal_lvl = th.fatal_lvl := by
  intro fuel
  induction fuel with
  | zero => intro th t n h; simp [frame_except_pop_loop] at h
  | succ fuel ih =>
    intro th t n h
    unfold frame_except_pop_loop at h
    split_ifs at h
    · cases hp : frame_pop1 th with
      | error e => simp [hp] at h
      | ok th1 =>
        simp only [hp] at h
        have e1 := frame_pop1_flvl th th1 hp
        split at h
        · rw [ih th1 t _ h, e1]
        · rw [ih th1 t _ h, e1]
    · injection h with h
      subst h
      rfl

theorem except_longjmp_flvl (fuel : Nat) (th t : ovm_thread) (xfr arg : Nat)
    (h : except_longjmp fuel th xfr arg = .ok t) : t.fatal_lvl = th.fatal_lvl := by
  unfold except_longjmp at h
  split at h
  · rename_i size prev xarg av xsp xpc hf
    unfold frame_unwind at h
    split_ifs at h
    · cases hl : frame_unwind_loop fuel (catch_store th xfr size prev xarg xsp xpc arg) xfr with
      | error e => simp [hl] at h
      | ok th3 =>
        simp only [hl] at h
        cases hu : ovm_stack_unwind th3 xsp with
        | error e => simp [hu] at h
        | ok th4 =>
          simp only [hu] at h
          injection h with h
          subst h
          show th4.fatal_lvl = _
          rw [stack_unwind_flvl th3 th4 xsp hu, frame_unwind_loop_flvl fuel _ th3 xfr hl]
          rfl
  · simp at h

theorem dict_ats_put_work_flvl (th t : ovm_thread) (w : Nat)
    (h : dict_ats_put_work th w = .ok t) : t.fatal_lvl = th.fatal_lvl := by
  unfold dict_ats_put_work at h
  cases ha : ovm_stack_alloc th 1 with
  | error e => simp [ha] at h
  | ok r =>
    obtain ⟨th1, work⟩ := r
    simp only [ha] at h
    rw [stack_unwind_flvl _ t work h]
    exact stack_alloc_flvl th th1 1 work ha

/-- `ovm_thread_fatal` in a thread that has had no fatal error and whose
value stack has no free cell: the allocation of the work cell of the
backtrace is a second fatal error, and the thread ends with
`OVM_THREAD_FATAL_STACK_OVERFLOW`, whatever the exit code passed. -/
theorem thread_fatal_stack_full (bt : ovm_thread → Except ovm_stop ovm_thread)
    (th : ovm_thread) (c : Nat) (hf : th.fatal_lvl = 0) (hsp : th.sp ≤ th.stack) :
    ovm_thread_fatal bt th c = .fatal OVM_THREAD_FATAL_STACK_OVERFLOW := by
  have h1 : th.sp < th.stack + 1 := by omega
  simp [ovm_thread_fatal, hf, backtrace, ovm_stack_alloc, _ovm_stack_alloc, h1]

/-- `ovm_thread_fatal` in a thread that has had no fatal error: when the
backtrace returns, the thread ends with the exit code passed. -/
theorem thread_fatal_backtrace (bt : ovm_thread → Except ovm_stop ovm_thread)
    (th t : ovm_thread) (c : Nat) (hf : th.fatal_lvl = 0)
    (hbt : backtrace bt { th with fatal_lvl := 1 } = .ok t) :
    ovm_thread_fatal bt th c = .fatal c := by
  simp [ovm_thread_fatal, hf, hbt]

/-- The backtrace hands to its loop the thread it was called on, with one
more cell on the value stack. -/
theorem backtrace_enters (bt : ovm_thread → Except ovm_stop ovm_thread) (th : ovm_thread)
    (hsp : th.stack < th.sp) :
    ∃ t1, ovm_stack_alloc th 1 = .ok (t1, th.sp)
      ∧ t1.except_lvl = th.except_lvl ∧ t1.fatal_lvl = th.fatal_lvl ∧ t1.sp = th.sp - 1
      ∧ backtrace bt th
          = (match bt t1 with
             | .error e => .error e
             | .ok t2 => ovm_stack_unwind t2 th.sp) := by
  have h1 : ¬ (th.sp < th.stack + 1) := by omega
  refine ⟨{ th with
            sp := th.sp - 1
            cells := fun a =>
              if th.sp - 1 ≤ a ∧ a < th.sp - 1 + 1 then inst_obj 0 else th.cells a },
    ?_, rfl, rfl, rfl, ?_⟩
  · simp only [ovm_stack_alloc, _ovm_stack_alloc, h1, if_false]
  · simp only [backtrace, ovm_stack_alloc, _ovm_stack_alloc, h1, if_false]

theorem except_raise2_lvl (bt pr : ovm_thread → Except ovm_stop ovm_thread) (fuel : Nat)
    (th t : ovm_thread) (x w : Nat)
    (h : except_raise2 bt pr fuel th x w = .ok t) : t.except_lvl = th.except_lvl := by
  unfold except_raise2 at h
  cases hw : dict_ats_put_work th w with
  | error e => simp [hw] at h
  | ok th1 =>
    simp only [hw] at h
    split_ifs at h
    rw [except_longjmp_lvl fuel th1 t _ x h, dict_ats_put_work_lvl th th1 w hw]

theorem except_raise1_lvl (bt : ovm_thread → Except ovm_stop ovm_thread) (th : ovm_thread) :
    (th.except_lvl = 1 →
        except_raise1 bt th
          = .error (ovm_thread_fatal bt { th with except_lvl := 2 }
              OVM_THREAD_FATAL_DOUBLE_EXCEPT))
      ∧ (th.except_lvl = 0 → except_raise1 bt th = .ok { th with except_lvl := 1 }) := by
  constructor
  · intro h
    simp [except_raise1, h]
  · intro h
    simp [except_raise1, h]

/-- A raise: at counter 1 it takes the counter to 2 and calls
`ovm_thread_fatal`, and from 0 the counter is 1 where the thread goes on. -/
theorem except_raise_lvl (bt pr : ovm_thread → Except ovm_stop ovm_thread) (fuel : Nat)
    (th : ovm_thread) (x w : Nat) (hlvl : th.except_lvl ≤ 1) :
    (th.except_lvl = 1 →
        ovm_except_raise bt pr fuel th x w
          = .error (ovm_thread_fatal bt { th with except_lvl := 2 }
              OVM_THREAD_FATAL_DOUBLE_EXCEPT))
      ∧ (∀ t, ovm_except_raise bt pr fuel th x w = .ok t →
          th.except_lvl = 0 ∧ t.except_lvl = th.except_lvl + 1) := by
  obtain ⟨h1, h0⟩ := except_raise1_lvl bt th
  constructor
  · intro h
    simp only [ovm_except_raise, h1 h]
  · intro t ht
    have hz : th.except_lvl = 0 := by
      by_contra hc
      have : th.except_lvl = 1 := by omega
      simp [ovm_except_raise, h1 this] at ht
    refine ⟨hz, ?_⟩
    simp only [ovm_except_raise, h0 hz] at ht
    split_ifs at ht
    split at ht
    · rw [except_raise2_lvl bt pr fuel _ t x w ht, hz]
    · simp at ht

theorem except_inv_value_lvl (bt pr : ovm_thread → Except ovm_stop ovm_thread) (fuel : Nat)
    (th : ovm_thread) (xo w1 w : Nat) (hlvl : th.except_lvl ≤ 1) :
    (th.except_lvl = 1 →
        ovm_except_inv_value_thread bt pr fuel th xo w1 w
          = .error (ovm_thread_fatal bt { th with except_lvl := 2 }
              OVM_THREAD_FATAL_DOUBLE_EXCEPT))
      ∧ (∀ t, ovm_except_inv_value_thread bt pr fuel th xo w1 w = .ok t →
          th.except_lvl = 0 ∧ t.except_lvl = th.except_lvl + 1) := by
  obtain ⟨h1, h0⟩ := except_raise1_lvl bt th
  constructor
  · intro h
    simp only [ovm_except_inv_value_thread, h1 h]
  · intro t ht
    have hz : th.except_lvl = 0 := by
      by_contra hc
      have : th.except_lvl = 1 := by omega
      simp [ovm_except_inv_value_thread, h1 this] at ht
    refine ⟨hz, ?_⟩
    simp only [ovm_except_inv_value_thread, h0 hz] at ht
    cases ha : ovm_stack_alloc { th with except_lvl := 1 } 1 with
    | error e => simp [ha] at ht
    | ok r =>
      obtain ⟨th2, work⟩ := r
      simp only [ha] at ht
      cases hw : dict_ats_put_work (cell_assign_obj th2 (work - 1) xo) w1 with
      | error e => simp [hw] at ht
      | ok th3 =>
        simp only [hw] at ht
        split_ifs at ht
        split at ht
        · rw [except_raise2_lvl bt pr fuel _ t _ w ht, dict_ats_put_work_lvl _ th3 w1 hw, hz]
          show th2.except_lvl = 0 + 1
          rw [stack_alloc_lvl _ th2 1 work ha]
        · simp at ht

theorem except_reraise_lvl (bt pr : ovm_thread → Except ovm_stop ovm_thread) (fuel : Nat)
    (th t : ovm_thread) (h : ovm_except_reraise bt pr fuel th = .ok t) :
    t.except_lvl = th.except_lvl := by
  unfold ovm_except_reraise at h
  split_ifs at h
  split at h
  · split_ifs at h
    rw [except_longjmp_lvl fuel _ t _ _ h]
  · simp at h

theorem frame_except_pop_lvl (fuel : Nat) (th t : ovm_thread) (n : Nat)
    (h : ovm_frame_except_pop fuel th n = .ok t) : t.except_lvl = 0 := by
  unfold ovm_frame_except_pop at h
  simp only at h
  split_ifs at h with h1 h2 h3 h4 h5
  · rw [frame_except_pop_loop_lvl fuel _ t n h]
    simpa using h2
  · rw [frame_except_pop_loop_lvl fuel _ t n h]
    omega

theorem except_raise2_flvl (bt pr : ovm_thread → Except ovm_stop ovm_thread) (fuel : Nat)
    (th t : ovm_thread) (x w : Nat)
    (h : except_raise2 bt pr fuel th x w = .ok t) : t.fatal_lvl = th.fatal_lvl := by
  unfold except_raise2 at h
  cases hw : dict_ats_put_work th w with
  | error e => simp [hw] at h
  | ok th1 =>
    simp only [hw] at h
    split_ifs at h
    rw [except_longjmp_flvl fuel th1 t _ x h, dict_ats_put_work_flvl th th1 w hw]

theorem except_raise1_flvl (bt : ovm_thread → Except ovm_stop ovm_thread) (th t : ovm_thread)
    (h : except_raise1 bt th = .ok t) :
    t = { th with except_lvl := (th.except_lvl + 1) % 4294967296 } := by
  unfold except_raise1 at h
  simp only at h
  split_ifs at h
  injection h with h
  exact h.symm

theorem except_raise_flvl (bt pr : ovm_thread → Except ovm_stop ovm_thread) (fuel : Nat)
    (th t : ovm_thread) (x w : Nat) (h : ovm_except_raise bt pr fuel th x w = .ok t) :
    t.fatal_lvl = th.fatal_lvl := by
  unfold ovm_except_raise at h
  cases h1 : except_raise1 bt th with
  | error e => simp [h1] at h
  | ok th1 =>
    simp only [h1] at h
    have e1 := except_raise1_flvl bt th th1 h1
    split_ifs at h
    split at h
    · rw [except_raise2_flvl bt pr fuel _ t x w h, e1]
    · simp at h

theorem except_inv_value_flvl (bt pr : ovm_thread → Except ovm_stop ovm_thread) (fuel : Nat)
    (th t : ovm_thread) (xo w1 w : Nat)
    (h : ovm_except_inv_value_thread bt pr fuel th xo w1 w = .ok t) :
    t.fatal_lvl = th.fatal_lvl := by
  unfold ovm_except_inv_value_thread at h
  cases h1 : except_raise1 bt th with
  | error e => simp [h1] at h
  | ok th1 =>
    simp only [h1] at h
    have e1 := except_raise1_flvl bt th th1 h1
    cases ha : ovm_stack_alloc th1 1 with
    | error e => simp [ha] at h
    | ok r =>
      obtain ⟨th2, work⟩ := r
      simp only [ha] at h
      cases hw : dict_ats_put_work (cell_assign_obj th2 (work - 1) xo) w1 with
      | error e => simp [hw] at h
      | ok th3 =>
        simp only [hw] at h
        split_ifs at h
        split at h
        · rw [except_raise2_flvl bt pr fuel _ t _ w h, dict_ats_put_work_flvl _ th3 w1 hw]
          show th2.fatal_lvl = th.fatal_lvl
          rw [stack_alloc_flvl _ th2 1 work ha, e1]
        · simp at h

theorem except_reraise_flvl (bt pr : ovm_thread → Except ovm_stop ovm_thread) (fuel : Nat)
    (th t : ovm_thread) (h : ovm_except_reraise bt pr fuel th = .ok t) :
    t.fatal_lvl = th.fatal_lvl := by
  unfold ovm_except_reraise at h
  split_ifs at h
  split at h
  · split_ifs at h
    rw [except_longjmp_flvl fuel _ t _ _ h]
  · simp at h

theorem frame_except_pop_flvl (fuel : Nat) (th t : ovm_thread) (n : Nat)
    (h : ovm_frame_except_pop fuel th n = .ok t) : t.fatal_lvl = th.fatal_lvl := by
  unfold ovm_frame_except_pop at h
  simp only at h
  split_ifs at h with h1 h2 h3 h4 h5
  · rw [frame_except_pop_loop_flvl fuel _ t n h]
  · rw [frame_except_pop_loop_flvl fuel _ t n h]

theorem stack_free_alloc_flvl (th t : ovm_thread) (f a p : Nat) (rel : List Nat)
    (h : ovm_stack_free_alloc th f a = .ok (t, p, rel)) : t.fatal_lvl = th.fatal_lvl := by
  unfold ovm_stack_free_alloc at h
  split_ifs at h
  · have e9 := free_alloc_loop_flvl f th.sp th []
    cases hl : free_alloc_loop f th.sp th [] with
    | mk t1 r1 =>
      rw [hl] at h e9
      simp only at h e9
      cases ha : ovm_stack_alloc t1 (a - f) with
      | error e => simp [ha] at h
      | ok r =>
        obtain ⟨th2, q⟩ := r
        simp only [ha] at h
        injection h with h
        injection h with h1 h2
        subst h1
        rw [stack_alloc_flvl t1 _ _ q ha, e9]
  · cases hf : ovm_stack_free th (f - a) with
    | error e => simp [hf] at h
    | ok th1 =>
      simp only [hf] at h
      have e9 := free_alloc_loop_flvl a th1.sp th1 (stack_released th th.sp (f - a))
      injection h with h
      rw [h] at e9
      simp only at e9
      rw [e9]
      exact stack_unwind_flvl th th1 _ hf

theorem stack_free_alloc_lvl (th t : ovm_thread) (f a p : Nat) (rel : List Nat)
    (h : ovm_stack_free_alloc th f a = .ok (t, p, rel)) : t.except_lvl = th.except_lvl := by
  unfold ovm_stack_free_alloc at h
  split_ifs at h
  · obtain ⟨t1, hrun, _, _, _, _, _, _, _, _, e9, _⟩ := free_alloc_loop_spec f th.sp th []
    rw [hrun] at h
    simp only at h
    cases ha : ovm_stack_alloc t1 (a - f) with
    | error e => simp [ha] at h
    | ok r =>
      obtain ⟨th2, q⟩ := r
      simp only [ha] at h
      injection h with h
      injection h with h1 h2
      subst h1
      rw [stack_alloc_lvl t1 _ _ q ha, e9]
  · cases hf : ovm_stack_free th (f - a) with
    | error e => simp [hf] at h
    | ok th1 =>
      simp only [hf] at h
      obtain ⟨t1, hrun, _, _, _, _, _, _, _, _, e9, _⟩ :=
        free_alloc_loop_spec a th1.sp th1 (stack_released th th.sp (f - a))
      rw [hrun] at h
      injection h with h
      injection h with h1 h2
      subst h1
      rw [e9]
      exact stack_unwind_lvl th th1 _ hf

/-- One operation keeps the counter at 0 or 1. -/
theorem thread_step_lvl (bt pr : ovm_thread → Except ovm_stop ovm_thread) (fuel : Nat)
    (th t : ovm_thread) (op : thread_op) (hlvl : th.except_lvl ≤ 1)
    (h : thread_step bt pr fuel th op = .ok t) : t.except_lvl ≤ 1 := by
  cases op with
  | stack_alloc n =>
    simp only [thread_step] at h
    cases ha : ovm_stack_alloc th n with
    | error e => simp [ha, Except.map] at h
    | ok r =>
      obtain ⟨t1, p⟩ := r
      simp only [ha, Except.map] at h
      injection h with h
      subst h
      rw [stack_alloc_lvl th t1 n p ha]
      exact hlvl
  | stack_free n => rw [stack_unwind_lvl th t _ h]; exact hlvl
  | stack_unwind p => rw [stack_unwind_lvl th t _ h]; exact hlvl
  | stack_push x =>
    simp only [thread_step, ovm_stack_push, _ovm_stack_alloc] at h
    split_ifs at h
    injection h with h
    subst h
    exact hlvl
  | free_alloc f a =>
    simp only [thread_step] at h
    cases ha : ovm_stack_free_alloc th f a with
    | error e => simp [ha, Except.map] at h
    | ok r =>
      obtain ⟨t1, p, rel⟩ := r
      simp only [ha, Except.map] at h
      injection h with h
      subst h
      rw [stack_free_alloc_lvl th t1 f a p rel ha]
      exact hlvl
  | assign dst src =>
    simp only [thread_step] at h
    injection h with h
    subst h
    exact hlvl
  | assign_obj dst obj =>
    simp only [thread_step] at h
    injection h with h
    subst h
    exact hlvl
  | ns_push ns =>
    simp only [thread_step, frame_ns_push] at h
    cases hp : frame_push th (.ns SIZEOF_FRAME_NS th.nsfp ns) with
    | error e => simp [hp] at h
    | ok t1 =>
      simp only [hp] at h
      injection h with h
      subst h
      show t1.except_lvl ≤ 1
      rw [frame_push_lvl th t1 _ hp]
      exact hlvl
  | mc_push dst cl method argc argv =>
    simp only [thread_step, frame_mc_push] at h
    cases hp : frame_push th (.mc SIZEOF_FRAME_MC th.mcfp cl method dst th.sp argc argv) with
    | error e => simp [hp] at h
    | ok t1 =>
      simp only [hp] at h
      injection h with h
      subst h
      show t1.except_lvl ≤ 1
      rw [frame_push_lvl th t1 _ hp]
      exact hlvl
  | frame_pop fp =>
    simp only [thread_step, frame_pop] at h
    split_ifs at h
    rw [frame_pop_loop_lvl fuel th t fp h]
    exact hlvl
  | except_push arg =>
    simp only [thread_step, ovm_frame_except_push] at h
    cases hp : frame_push th (.xc SIZEOF_FRAME_EXCEPT th.xfp arg false th.sp th.pc) with
    | error e => simp [hp] at h
    | ok t1 =>
      simp only [hp] at h
      injection h with h
      subst h
      show t1.except_lvl ≤ 1
      rw [frame_push_lvl th t1 _ hp]
      exact hlvl
  | except_pop n =>
    rw [frame_except_pop_lvl fuel th t n h]
    exact Nat.zero_le _
  | except_chk =>
    simp only [thread_step] at h
    injection h with h
    subst h
    exact hlvl
  | set_pc pc =>
    simp only [thread_step] at h
    injection h with h
    subst h
    exact hlvl
  | raise x w =>
    obtain ⟨hz, ht⟩ := (except_raise_lvl bt pr fuel th x w hlvl).2 t h
    omega
  | raise_sys xo w1 w =>
    obtain ⟨hz, ht⟩ := (except_inv_value_lvl bt pr fuel th xo w1 w hlvl).2 t h
    omega
  | reraise =>
    rw [except_reraise_lvl bt pr fuel th t h]
    exact hlvl

theorem thread_run_lvl (bt pr : ovm_thread → Except ovm_stop ovm_thread) (fuel : Nat) :
    ∀ (ops : List thread_op) (th t : ovm_thread), th.except_lvl ≤ 1 →
      thread_run bt pr fuel th ops = .ok t → t.except_lvl ≤ 1 := by
  intro ops
  induction ops with
  | nil =>
    intro th t hlvl h
    simp only [thread_run] at h
    injection h with h
    subst h
    exact hlvl
  | cons op ops ih =>
    intro th t hlvl h
    simp only [thread_run] at h
    cases hs : thread_step bt pr fuel th op with
    | error e => simp [hs] at h
    | ok th1 =>
      simp only [hs] at h
      exact ih th1 t (thread_step_lvl bt pr fuel th th1 op hlvl hs) h

/-- One operation after which the thread goes on is no fatal error. -/
theorem thread_step_flvl (bt pr : ovm_thread → Except ovm_stop ovm_thread) (fuel : Nat)
    (th t : ovm_thread) (op : thread_op) (hlvl : th.fatal_lvl = 0)
    (h : thread_step bt pr fuel th op = .ok t) : t.fatal_lvl = 0 := by
  cases op with
  | stack_alloc n =>
    simp only [thread_step] at h
    cases ha : ovm_stack_alloc th n with
    | error e => simp [ha, Except.map] at h
    | ok r =>
      obtain ⟨t1, p⟩ := r
      simp only [ha, Except.map] at h
      injection h with h
      subst h
      rw [stack_alloc_flvl th t1 n p ha]
      exact hlvl
  | stack_free n => rw [stack_unwind_flvl th t _ h]; exact hlvl
  | stack_unwind p => rw [stack_unwind_flvl th t _ h]; exact hlvl
  | stack_push x =>
    simp only [thread_step, ovm_stack_push, _ovm_stack_alloc] at h
    split_ifs at h
    injection h with h
    subst h
    exact hlvl
  | free_alloc f a =>
    simp only [thread_step] at h
    cases ha : ovm_stack_free_alloc th f a with
    | error e => simp [ha, Except.map] at h
    | ok r =>
      obtain ⟨t1, p, rel⟩ := r
      simp only [ha, Except.map] at h
      injection h with h
      subst h
      rw [stack_free_alloc_flvl th t1 f a p rel ha]
      exact hlvl
  | assign dst src =>
    simp only [thread_step] at h
    injection h with h
    subst h
    exact hlvl
  | assign_obj dst obj =>
    simp only [thread_step] at h
    injection h with h
    subst h
    exact hlvl
  | ns_push ns =>
    simp only [thread_step, frame_ns_push] at h
    cases hp : frame_push th (.ns SIZEOF_FRAME_NS th.nsfp ns) with
    | error e => simp [hp] at h
    | ok t1 =>
      simp only [hp] at h
      injection h with h
      subst h
      show t1.fatal_lvl = 0
      rw [frame_push_flvl th t1 _ hp]
      exact hlvl
  | mc_push dst cl method argc argv =>
    simp only [thread_step, frame_mc_push] at h
    cases hp : frame_push th (.mc SIZEOF_FRAME_MC th.mcfp cl method dst th.sp argc argv) with
    | error e => simp [hp] at h
    | ok t1 =>
      simp only [hp] at h
      injection h with h
      subst h
      show t1.fatal_lvl = 0
      rw [frame_push_flvl th t1 _ hp]
      exact hlvl
  | frame_pop fp =>
    simp only [thread_step, frame_pop] at h
    split_ifs at h
    rw [frame_pop_loop_flvl fuel th t fp h]
    exact hlvl
  | except_push arg =>
    simp only [thread_step, ovm_frame_except_push] at h
    cases hp : frame_push th (.xc SIZEOF_FRAME_EXCEPT th.xfp arg false th.sp th.pc) with
    | error e => simp [hp] at h
    | ok t1 =>
      simp only [hp] at h
      injection h with h
      subst h
      show t1.fatal_lvl = 0
      rw [frame_push_flvl th t1 _ hp]
      exact hlvl
  | except_pop n =>
    rw [frame_except_pop_flvl fuel th t n h]
    exact hlvl
  | except_chk =>
    simp only [thread_step] at h
    injection h with h
    subst h
    exact hlvl
  | set_pc pc =>
    simp only [thread_step] at h
    injection h with h
    subst h
    exact hlvl
  | raise x w =>
    rw [except_raise_flvl bt pr fuel th t x w h]
    exact hlvl
  | raise_sys xo w1 w =>
    rw [except_inv_value_flvl bt pr fuel th t xo w1 w h]
    exact hlvl
  | reraise =>
    rw [except_reraise_flvl bt pr fuel th t h]
    exact hlvl

theorem thread_run_flvl (bt pr : ovm_thread → Except ovm_stop ovm_thread) (fuel : Nat) :
    ∀ (ops : List thread_op) (th t : ovm_thread), th.fatal_lvl = 0 →
      thread_run bt pr fuel th ops = .ok t → t.fatal_lvl = 0 := by
  intro ops
  induction ops with
  | nil =>
    intro th t hlvl h
    simp only [thread_run] at h
    injection h with h
    subst h
    exact hlvl
  | cons op ops ih =>
    intro th t hlvl h
    simp only [thread_run] at h
    cases hs : thread_step bt pr fuel th op with
    | error e => simp [hs] at h
    | ok th1 =>
      simp only [hs] at h
      exact ih th1 t (thread_step_flvl bt pr fuel th th1 op hlvl hs) h

/-- C24 (amended): in every state `th` that a thread created by
`ovm_thread_create` reaches through its operations, no fatal error has
occurred (`fatal_lvl = 0`) and the exception nesting counter is 0 or 1; it
stays so along any further operations.  There a raise (`ovm_except_raise`, or
a function that raises a system exception) that is delivered has taken the
counter from 0 to 1, `ovm_frame_except_pop` leaves the counter at 0, and a
re-raise leaves it as it is.  A raise at counter 1 takes the counter to 2 and
calls `ovm_thread_fatal` with `OVM_THREAD_FATAL_DOUBLE_EXCEPT`: with a free
cell on the value stack the loop of the backtrace is entered, the counter
being 2; the thread ends with `OVM_THREAD_FATAL_DOUBLE_EXCEPT` when the
backtrace returns, and with `OVM_THREAD_FATAL_STACK_OVERFLOW` when the value
stack has no free cell. -/
theorem except_lvl_zero_or_one (bt pr : ovm_thread → Except ovm_stop ovm_thread) (fuel : Nat)
    (stack stack_size frame_stack frame_stack_size : Nat) (ops0 : List thread_op)
    (th : ovm_thread)
    (hreach : thread_run bt pr fuel
      (ovm_thread_create stack stack_size frame_stack frame_stack_size) ops0 = .ok th) :
    (th.except_lvl = 0 ∨ th.except_lvl = 1)
      ∧ th.fatal_lvl = 0
      ∧ (∀ ops t, thread_run bt pr fuel th ops = .ok t → t.except_lvl = 0 ∨ t.except_lvl = 1)
      ∧ (th.except_lvl = 1 →
          (∀ x w, thread_step bt pr fuel th (.raise x w)
              = .error (ovm_thread_fatal bt { th with except_lvl := 2 }
                  OVM_THREAD_FATAL_DOUBLE_EXCEPT))
          ∧ (∀ xo w1 w, thread_step bt pr fuel th (.raise_sys xo w1 w)
              = .error (ovm_thread_fatal bt { th with except_lvl := 2 }
                  OVM_THREAD_FATAL_DOUBLE_EXCEPT))
          ∧ (th.stack < th.sp →
              ∃ t1, ovm_stack_alloc { th with except_lvl := 2, fatal_lvl := 1 } 1
                    = .ok (t1, th.sp)
                ∧ t1.except_lvl = 2
                ∧ backtrace bt { th with except_lvl := 2, fatal_lvl := 1 }
                    = (match bt t1 with
                       | .error e => .error e
                       | .ok t2 => ovm_stack_unwind t2 th.sp))
          ∧ (∀ t, backtrace bt { th with except_lvl := 2, fatal_lvl := 1 } = .ok t →
              ovm_thread_fatal bt { th with except_lvl := 2 } OVM_THREAD_FATAL_DOUBLE_EXCEPT
                = .fatal OVM_THREAD_FATAL_DOUBLE_EXCEPT)
          ∧ (th.sp ≤ th.stack →
              ovm_thread_fatal bt { th with except_lvl := 2 } OVM_THREAD_FATAL_DOUBLE_EXCEPT
                = .fatal OVM_THREAD_FATAL_STACK_OVERFLOW))
      ∧ (∀ x w t, thread_step bt pr fuel th (.raise x w) = .ok t →
          th.except_lvl = 0 ∧ t.except_lvl = th.except_lvl + 1)
      ∧ (∀ xo w1 w t, thread_step bt pr fuel th (.raise_sys xo w1 w) = .ok t →
          th.except_lvl = 0 ∧ t.except_lvl = th.except_lvl + 1)
      ∧ (∀ n t, thread_step bt pr fuel th (.except_pop n) = .ok t → t.except_lvl = 0)
      ∧ (∀ t, thread_step bt pr fuel th .reraise = .ok t → t.except_lvl = th.except_lvl) := by
  have hlvl : th.except_lvl ≤ 1 :=
    thread_run_lvl bt pr fuel ops0 _ th (Nat.zero_le 1) hreach
  have hf : th.fatal_lvl = 0 := thread_run_flvl bt pr fuel ops0 _ th rfl hreach
  refine ⟨by omega, hf, ?_, ?_, ?_, ?_, ?_, ?_⟩
  · intro ops t h
    have := thread_run_lvl bt pr fuel ops th t hlvl h
    omega
  · intro h1
    refine ⟨fun x w => (except_raise_lvl bt pr fuel th x w hlvl).1 h1,
      fun xo w1 w => (except_inv_value_lvl bt pr fuel th xo w1 w hlvl).1 h1, ?_, ?_, ?_⟩
    · intro hsp
      obtain ⟨t1, e1, e2, _, _, e5⟩ :=
        backtrace_enters bt { th with except_lvl := 2, fatal_lvl := 1 } hsp
      exact ⟨t1, e1, e2, e5⟩
    · intro t hbt
      exact thread_fatal_backtrace bt { th with except_lvl := 2 } t _ hf hbt
    · intro hsp
      exact thread_fatal_stack_full bt { th with except_lvl := 2 } _ hf hsp
  · intro x w t h
    exact (except_raise_lvl bt pr fuel th x w hlvl).2 t h
  · intro xo w1 w t h
    exact (except_inv_value_lvl bt pr fuel th xo w1 w hlvl).2 t h
  · intro n t h
    exact frame_except_pop_lvl fuel th t n h
  · intro t h
    exact except_reraise_lvl bt pr fuel th t h

/-- The thread in the handler of the sample, reached by the operations
`sample_handler_ops`. -/
theorem except_lvl_zero_or_one_witness :
    thread_run (fun t => .ok t) (fun t => .ok t) 100 (ovm_thread_create 0 64 100 900) sample_handler_ops
        = .ok sample_handler_thread
      ∧ ((sample_handler_thread.except_lvl = 0 ∨ sample_handler_thread.except_lvl = 1)
      ∧ sample_handler_thread.fatal_lvl = 0
      ∧ (∀ ops t, thread_run (fun t => .ok t) (fun t => .ok t) 100 sample_handler_thread ops = .ok t →
          t.except_lvl = 0 ∨ t.except_lvl = 1)
      ∧ (sample_handler_thread.except_lvl = 1 →
          (∀ x w, thread_step (fun t => .ok t) (fun t => .ok t) 100 sample_handler_thread (.raise x w)
              = .error (ovm_thread_fatal (fun t => .ok t) { sample_handler_thread with except_lvl := 2 }
                  OVM_THREAD_FATAL_DOUBLE_EXCEPT))
          ∧ (∀ xo w1 w, thread_step (fun t => .ok t) (fun t => .ok t) 100 sample_handler_thread (.raise_sys xo w1 w)
              = .error (ovm_thread_fatal (fun t => .ok t) { sample_handler_thread with except_lvl := 2 }
                  OVM_THREAD_FATAL_DOUBLE_EXCEPT))
          ∧ (sample_handler_thread.stack < sample_handler_thread.sp →
              ∃ t1, ovm_stack_alloc
                      { sample_handler_thread with except_lvl := 2, fatal_lvl := 1 } 1
                    = .ok (t1, sample_handler_thread.sp)
                ∧ t1.except_lvl = 2
                ∧ backtrace (fun t => .ok t) { sample_handler_thread with except_lvl := 2, fatal_lvl := 1 }
                    = (match ((fun t => .ok t) : ovm_thread → Except ovm_stop ovm_thread) t1 with
                       | .error e => .error e
                       | .ok t2 => ovm_stack_unwind t2 sample_handler_thread.sp))
          ∧ (∀ t, backtrace (fun t => .ok t) { sample_handler_thread with except_lvl := 2, fatal_lvl := 1 }
                = .ok t →
              ovm_thread_fatal (fun t => .ok t) { sample_handler_thread with except_lvl := 2 }
                  OVM_THREAD_FATAL_DOUBLE_EXCEPT
                = .fatal OVM_THREAD_FATAL_DOUBLE_EXCEPT)
          ∧ (sample_handler_thread.sp ≤ sample_handler_thread.stack →
              ovm_thread_fatal (fun t => .ok t) { sample_handler_thread with except_lvl := 2 }
                  OVM_THREAD_FATAL_DOUBLE_EXCEPT
                = .fatal OVM_THREAD_FATAL_STACK_OVERFLOW))
      ∧ (∀ x w t, thread_step (fun t => .ok t) (fun t => .ok t) 100 sample_handler_thread (.raise x w) = .ok t →
          sample_handler_thread.except_lvl = 0
            ∧ t.except_lvl = sample_handler_thread.except_lvl + 1)
      ∧ (∀ xo w1 w t, thread_step (fun t => .ok t) (fun t => .ok t) 100 sample_handler_thread
            (.raise_sys xo w1 w) = .ok t →
          sample_handler_thread.except_lvl = 0
            ∧ t.except_lvl = sample_handler_thread.except_lvl + 1)
      ∧ (∀ n t, thread_step (fun t => .ok t) (fun t => .ok t) 100 sample_handler_thread (.except_pop n) = .ok t →
          t.except_lvl = 0)
      ∧ (∀ t, thread_step (fun t => .ok t) (fun t => .ok t) 100 sample_handler_thread .reraise = .ok t →
          t.except_lvl = sample_handler_thread.except_lvl)) :=
  ⟨rfl, except_lvl_zero_or_one (fun t => .ok t) (fun t => .ok t) 100 0 64 100 900 sample_handler_ops
    sample_handler_thread rfl⟩

/-- C24, counterexample to the claim as stated.  The handler of the sample
fills the value stack; the thread has not terminated and its counter is 1.  A
raise there ends the thread with `OVM_THREAD_FATAL_STACK_OVERFLOW`, not with
the double-exception exit code: `ovm_thread_fatal` finds no cell for the
backtrace.  And in the handler of the sample a raise enters the loop of the
backtrace with the counter at 2: a loop that stops at counter 2 stops. -/
theorem except_lvl_zero_or_one_counterexample :
    (∃ t, thread_run (fun t => .ok t) (fun t => .ok t) 100 (ovm_thread_create 0 64 100 900)
            (sample_handler_ops ++ [.stack_alloc 60]) = .ok t
        ∧ t.except_lvl = 1 ∧ t.fatal_lvl = 0 ∧ t.sp = t.stack
        ∧ thread_step (fun t => .ok t) (fun t => .ok t) 100 t (.raise 61 302)
            = .error (.fatal OVM_THREAD_FATAL_STACK_OVERFLOW))
      ∧ OVM_THREAD_FATAL_STACK_OVERFLOW ≠ OVM_THREAD_FATAL_DOUBLE_EXCEPT
      ∧ thread_step (fun u => if u.except_lvl = 2 then .error .undefined else .ok u) (fun t => .ok t) 100
            sample_handler_thread (.raise 61 302)
          = .error .undefined
      ∧ thread_step (fun u => if u.except_lvl = 1 then .error .undefined else .ok u) (fun t => .ok t) 100
            sample_handler_thread (.raise 61 302)
          = .error (.fatal OVM_THREAD_FATAL_DOUBLE_EXCEPT) :=
  ⟨⟨_, rfl, rfl, rfl, rfl, rfl⟩, by decide, rfl, rfl⟩

/-- The sample: the raise in the `try` block is delivered and takes the
counter to 1; in the handler a raise or a system exception is fatal (the
backtrace returns, and the thread ends with
`OVM_THREAD_FATAL_DOUBLE_EXCEPT`), `ovm_frame_except_pop` takes the counter
back to 0 and pops the catch frame, after which a raise is delivered again
(here it is uncaught). -/
theorem except_lvl_sample :
    sample_handler_thread.except_lvl = 1
      ∧ sample_handler_thread.xfp = 688 ∧ sample_handler_thread.fp = 688
      ∧ sample_handler_thread.cells 62 = inst_obj 300
      ∧ thread_step (fun t => .ok t) (fun t => .ok t) 100 sample_handler_thread (.raise 61 302)
          = .error (.fatal OVM_THREAD_FATAL_DOUBLE_EXCEPT)
      ∧ thread_step (fun t => .ok t) (fun t => .ok t) 100 sample_handler_thread (.raise_sys 310 311 302)
          = .error (.fatal OVM_THREAD_FATAL_DOUBLE_EXCEPT)
      ∧ (∃ t, thread_step (fun t => .ok t) (fun t => .ok t) 100 sample_handler_thread (.except_pop 1) = .ok t
          ∧ t.except_lvl = 0 ∧ t.xfp = 0 ∧ t.fp = 936
          ∧ thread_step (fun t => .ok t) (fun t => .ok t) 100 t (.raise 61 302)
              = .error (.fatal OVM_THREAD_FATAL_UNCAUGHT_EXCEPT))
      ∧ (∃ t, thread_run (fun t => .ok t) (fun t => .ok t) 100 sample_handler_thread
            [.except_pop 1, .except_push 62, .raise_sys 310 311 302] = .ok t
          ∧ t.except_lvl = 1 ∧ t.cells 62 = inst_obj 310) :=
  ⟨rfl, rfl, rfl, rfl, rfl, rfl, ⟨_, rfl, rfl, rfl, rfl, rfl⟩, ⟨_, rfl, rfl, rfl⟩⟩

/-! ### Re-raising -/

theorem frame_unwind_loop_fuel :
    ∀ (k : Nat) (t t3 : ovm_thread) (Y : Nat), frame_unwind_loop k t Y = .ok t3 →
      ∀ m, frame_unwind_loop (k + m) t Y = .ok t3 := by
  intro k
  induction k with
  | zero => intro t t3 Y h; simp [frame_unwind_loop] at h
  | succ k ih =>
    intro t t3 Y h m
    have e : k + 1 + m = (k + m) + 1 := by omega
    rw [e]
    unfold frame_unwind_loop at h ⊢
    split_ifs at h ⊢ with hc
    · cases hp : frame_pop1 t with
      | error e => simp [hp] at h
      | ok t1 =>
        simp only [hp] at h ⊢
        exact ih t1 t3 Y h m
    · exact h

/-- Unwinding to `Y` passes through the state that unwinding to a frame `X`
below `Y` reaches. -/
theorem frame_unwind_loop_via (X Y : Nat) (hXY : X ≤ Y) :
    ∀ (fuel : Nat) (t t2 : ovm_thread), frame_unwind_loop fuel t X = .ok t2 →
      ∀ (k : Nat) (t3 : ovm_thread), frame_unwind_loop k t2 Y = .ok t3 →
        frame_unwind_loop (fuel + k) t Y = .ok t3 := by
  intro fuel
  induction fuel with
  | zero => intro t t2 h; simp [frame_unwind_loop] at h
  | succ fuel ih =>
    intro t t2 h k t3 h3
    unfold frame_unwind_loop at h
    split_ifs at h with hc
    · have e : fuel + 1 + k = (fuel + k) + 1 := by omega
      rw [e]
      unfold frame_unwind_loop
      have hY : t.fp < Y := by omega
      cases hp : frame_pop1 t with
      | error e => simp [hp] at h
      | ok t1 =>
        simp only [hp] at h
        simp only [hY, if_true, hp]
        exact ih t1 t2 h k t3 h3
    · injection h with h
      subst h
      have e : fuel + 1 + k = k + (fuel + 1) := by omega
      rw [e]
      exact frame_unwind_loop_fuel k t t3 Y h3 (fuel + 1)

/-- The jump of a re-raise: from a thread whose innermost catch frame `X`
(destination cell `a`) has the enclosing catch frame `P`, the frames above `X`
and between `X` and `P` being namespace and method-call frames. -/
theorem except_longjmp_enclosing (fuel : Nat) (th : ovm_thread)
    (X size a sp1 pc1 ns1 mc1 P psize pprev pa sp0 pc0 ns0 mc0 x : Nat) (av pav : Bool)
    (hXf : th.frames X = some (.xc size P a av sp1 pc1)) (hsize : 0 < size)
    (hPf : th.frames P = some (.xc psize pprev pa pav sp0 pc0))
    (hPtop : P < th.frame_stack_top)
    (habove1 : frames_above th X ns1 mc1 sp1 th.fp th.nsfp th.mcfp th.sp)
    (habove0 : frames_above th P ns0 mc0 sp0 (X + size) ns1 mc1 sp1)
    (hsp0 : sp0 ≤ th.stack_top)
    (hfuel : P - th.fp + 2 < fuel) :
    ∃ t, except_longjmp fuel th P x = .ok t
      ∧ t.cells pa = th.cells x
      ∧ (∀ c, c ≠ pa → t.cells c = th.cells c)
      ∧ t.frames P = some (.xc psize pprev pa true sp0 pc0)
      ∧ (∀ f, f ≠ P → t.frames f = th.frames f)
      ∧ t.fp = P ∧ t.xfp = P ∧ t.mcfp = mc0 ∧ t.nsfp = ns0
      ∧ t.sp = sp0 ∧ t.pc = pc0 ∧ t.exceptf = true ∧ t.except_lvl = th.except_lvl := by
  obtain ⟨hfpX, hspsp1⟩ := frames_above_le th X ns1 mc1 sp1 _ _ _ _ habove1
  obtain ⟨hXP, hsp10⟩ := frames_above_le th P ns0 mc0 sp0 _ _ _ _ habove0
  -- the thread after the store in the enclosing frame
  have hcs : ∀ f, f ≠ P → (catch_store th P psize pprev pa sp0 pc0 x).frames f = th.frames f := by
    intro f hf
    simp only [catch_store, hf, if_false]
  have hab1 : frames_above (catch_store th P psize pprev pa sp0 pc0 x) X ns1 mc1 sp1
      th.fp th.nsfp th.mcfp th.sp :=
    frames_above_congr th (catch_store th P psize pprev pa sp0 pc0 x) X ns1 mc1 sp1 rfl
      _ _ _ _ habove1
      (fun f _ hf => hcs f (by omega))
  have hab0 : frames_above (catch_store th P psize pprev pa sp0 pc0 x) P ns0 mc0 sp0
      (X + size) ns1 mc1 sp1 :=
    frames_above_congr th (catch_store th P psize pprev pa sp0 pc0 x) P ns0 mc0 sp0 rfl
      _ _ _ _ habove0
      (fun f _ hf => hcs f (by omega))
  -- to the inner frame
  obtain ⟨_, t2, hrun1, h1, h2, h3, h4, h5, h6, h7, h8, h9, h10, h11, h12, h13, h14, h15⟩ :=
    frame_unwind_loop_above X ns1 mc1 sp1 (catch_store th P psize pprev pa sp0 pc0 x)
      (by show X ≤ th.frame_stack_top; omega) _ _ _ _ hab1 (X - th.fp + 1)
      (catch_store th P psize pprev pa sp0 pc0 x) (by omega) rfl rfl rfl rfl rfl rfl rfl
  -- the inner frame is popped
  have hX2 : t2.frames t2.fp = some (.xc size P a av sp1 pc1) := by
    rw [h6, h1, hcs X (by omega)]
    exact hXf
  have hpop : frame_pop1 t2 = .ok { t2 with sp := sp1, xfp := P, fp := X + size } := by
    have c1 : ¬ (t2.fp + size > t2.frame_stack_top) := by
      rw [h1, h15]
      show ¬ (X + size > th.frame_stack_top)
      omega
    have c2 : ¬ (sp1 > t2.stack_top) := by
      rw [h13]
      show ¬ (sp1 > th.stack_top)
      omega
    have c3 : ¬ (sp1 < t2.sp) := by omega
    simp only [frame_pop1, hX2, ovm_frame.size, c1, if_false, ovm_stack_unwind, c2, c3]
    rw [h1]
  -- to the enclosing frame
  obtain ⟨_, t4, hrun3, g1, g2, g3, g4, g5, g6, g7, g8, g9, g10, g11, g12, g13, g14, g15⟩ :=
    frame_unwind_loop_above P ns0 mc0 sp0 (catch_store th P psize pprev pa sp0 pc0 x)
      (by show P ≤ th.frame_stack_top; omega) _ _ _ _ hab0 (P - (X + size) + 1)
      { t2 with sp := sp1, xfp := P, fp := X + size } (by omega) rfl h2 h3 rfl h6 h13 h15
  have hrun2 : frame_unwind_loop (P - (X + size) + 1 + 1) t2 P = .ok t4 := by
    show frame_unwind_loop ((P - (X + size) + 1) + 1) t2 P = .ok t4
    unfold frame_unwind_loop
    have hlt : t2.fp < P := by omega
    simp only [hlt, if_true, hpop]
    exact hrun3
  have hrun : frame_unwind_loop fuel (catch_store th P psize pprev pa sp0 pc0 x) P = .ok t4 := by
    have h := frame_unwind_loop_via X P (by omega) _ _ t2 hrun1 _ t4 hrun2
    have hm := frame_unwind_loop_fuel _ _ t4 P h
      (fuel - (X - th.fp + 1 + (P - (X + size) + 1 + 1)))
    have e : X - th.fp + 1 + (P - (X + size) + 1 + 1)
        + (fuel - (X - th.fp + 1 + (P - (X + size) + 1 + 1))) = fuel := by omega
    rw [e] at hm
    exact hm
  have hnotop : ¬ ((catch_store th P psize pprev pa sp0 pc0 x).fp
      ≥ (catch_store th P psize pprev pa sp0 pc0 x).frame_stack_top) := by
    show ¬ (th.fp ≥ th.frame_stack_top)
    omega
  have hu1 : ¬ (sp0 > t4.stack_top) := by
    rw [g13]
    show ¬ (sp0 > t2.stack_top)
    rw [h13]
    show ¬ (sp0 > th.stack_top)
    omega
  have hu2 : ¬ (sp0 < t4.sp) := by omega
  have hcells : t4.cells = (catch_store th P psize pprev pa sp0 pc0 x).cells := by
    rw [g7]
    exact h7
  have hframes : t4.frames = (catch_store th P psize pprev pa sp0 pc0 x).frames := by
    rw [g6]
    exact h6
  refine ⟨{ t4 with sp := sp0, pc := pc0, exceptf := true }, ?_, ?_, ?_, ?_, ?_, g1, g8, g3, g2,
    rfl, rfl, rfl, ?_⟩
  · simp only [except_longjmp, hPf, frame_unwind, hnotop, if_false, hrun, ovm_stack_unwind,
      hu1, hu2]
  · show t4.cells pa = th.cells x
    rw [hcells]
    simp [catch_store, cell_assign]
  · intro c hc
    show t4.cells c = th.cells c
    rw [hcells]
    simp [catch_store, cell_assign, hc]
  · show t4.frames P = _
    rw [hframes]
    simp [catch_store]
  · intro f hf
    show t4.frames f = th.frames f
    rw [hframes]
    exact hcs f hf
  · show t4.except_lvl = th.except_lvl
    rw [g11]
    exact h11

/-- C25 (amended): `ovm_except_reraise`.  Without an exception frame, or with
the argument-valid flag of the innermost one clear, it calls
`ovm_thread_fatal` with `OVM_THREAD_FATAL_NO_FRAME`: in a thread that has had
no fatal error the thread ends with `OVM_THREAD_FATAL_NO_FRAME` when the
backtrace returns, and with `OVM_THREAD_FATAL_STACK_OVERFLOW` when the value
stack has no free cell.  With the flag set and no enclosing exception frame
the thread ends as for an uncaught raise: the function does not return, it
runs `except_uncaught` on the destination cell of the frame, and once the
exception is pushed, printed and popped `ovm_thread_fatal` is called with
`OVM_THREAD_FATAL_UNCAUGHT_EXCEPT`, which is the exit code when the backtrace
returns.  With the flag set and an enclosing exception frame `P` (the frames
above the innermost frame `X` and between `X` and `P` being namespace and
method-call frames, `ns0` and `mc0` the values of `nsfp` and `mcfp` when `P`
was pushed), and fuel for the frames to pop: the destination cell of `P` holds
what the destination cell of `X` held (the same object), the other cells are
as before, the argument-valid flag of `P` is set, `X` and all that is above
`P` is popped (`fp = P`, `xfp = P`), and `sp` and `pc` are those saved in `P`;
the exception flag is set and the nesting counter is as before. -/
theorem except_reraise_branches (bt pr : ovm_thread → Except ovm_stop ovm_thread) (fuel : Nat)
    (th : ovm_thread) :
    (th.xfp = 0 →
        ovm_except_reraise bt pr fuel th
          = .error (ovm_thread_fatal bt th OVM_THREAD_FATAL_NO_FRAME))
      ∧ (∀ size prev a sp pc, th.xfp ≠ 0 →
          th.frames th.xfp = some (.xc size prev a false sp pc) →
          ovm_except_reraise bt pr fuel th
            = .error (ovm_thread_fatal bt th OVM_THREAD_FATAL_NO_FRAME))
      ∧ (th.fatal_lvl = 0 →
          (∀ t, backtrace bt { th with fatal_lvl := 1 } = .ok t →
            ovm_thread_fatal bt th OVM_THREAD_FATAL_NO_FRAME
              = .fatal OVM_THREAD_FATAL_NO_FRAME)
          ∧ (th.sp ≤ th.stack →
            ovm_thread_fatal bt th OVM_THREAD_FATAL_NO_FRAME
              = .fatal OVM_THREAD_FATAL_STACK_OVERFLOW))
      ∧ (∀ size a sp pc, th.xfp ≠ 0 →
          th.frames th.xfp = some (.xc size 0 a true sp pc) →
          ovm_except_reraise bt pr fuel th = .error (except_uncaught bt pr th a)
            ∧ (∀ t1 t2, ovm_stack_push th a = .ok t1 → pr t1 = .ok t2 → t2.sp < t2.stack_top →
                ovm_except_reraise bt pr fuel th
                    = .error (ovm_thread_fatal bt { t2 with sp := t2.sp + 1 }
                        OVM_THREAD_FATAL_UNCAUGHT_EXCEPT)
                  ∧ (t2.fatal_lvl = 0 →
                      ∀ t, backtrace bt { t2 with sp := t2.sp + 1, fatal_lvl := 1 } = .ok t →
                        ovm_except_reraise bt pr fuel th
                          = .error (.fatal OVM_THREAD_FATAL_UNCAUGHT_EXCEPT))))
      ∧ (∀ (X size a sp1 pc1 ns1 mc1 P psize pprev pa sp0 pc0 ns0 mc0 : Nat) (pav : Bool),
          th.xfp = X → X ≠ 0 → P ≠ 0 →
          th.frames X = some (.xc size P a true sp1 pc1) → 0 < size →
          th.frames P = some (.xc psize pprev pa pav sp0 pc0) →
          P < th.frame_stack_top →
          frames_above th X ns1 mc1 sp1 th.fp th.nsfp th.mcfp th.sp →
          frames_above th P ns0 mc0 sp0 (X + size) ns1 mc1 sp1 →
          sp0 ≤ th.stack_top → P - th.fp + 2 < fuel →
          ∃ t, ovm_except_reraise bt pr fuel th = .ok t
            ∧ t.cells pa = th.cells a
            ∧ (∀ c, c ≠ pa → t.cells c = th.cells c)
            ∧ t.frames P = some (.xc psize pprev pa true sp0 pc0)
            ∧ (∀ f, f ≠ P → t.frames f = th.frames f)
            ∧ t.fp = P ∧ t.xfp = P ∧ t.mcfp = mc0 ∧ t.nsfp = ns0
            ∧ t.sp = sp0 ∧ t.pc = pc0 ∧ t.exceptf = true
            ∧ t.except_lvl = th.except_lvl) := by
  refine ⟨?_, ?_, ?_, ?_, ?_⟩
  · intro h
    simp only [ovm_except_reraise, h, if_true]
  · intro size prev a sp pc h0 hf
    simp [ovm_except_reraise, h0, hf]
  · intro hf
    exact ⟨fun t hbt => thread_fatal_backtrace bt th t _ hf hbt,
      fun hsp => thread_fatal_stack_full bt th _ hf hsp⟩
  · intro size a sp pc h0 hf
    have hrun : ovm_except_reraise bt pr fuel th = .error (except_uncaught bt pr th a) := by
      simp [ovm_except_reraise, h0, hf]
    refine ⟨hrun, ?_⟩
    intro t1 t2 hpush hpr hsp
    have c1 : ¬ (t2.sp + 1 > t2.stack_top) := by omega
    have c2 : ¬ (t2.sp + 1 < t2.sp) := by omega
    have hcall : ovm_except_reraise bt pr fuel th
        = .error (ovm_thread_fatal bt { t2 with sp := t2.sp + 1 }
            OVM_THREAD_FATAL_UNCAUGHT_EXCEPT) := by
      rw [hrun]
      simp only [except_uncaught, hpush, hpr, ovm_stack_free, ovm_stack_unwind, c1, c2,
        if_false]
    refine ⟨hcall, ?_⟩
    intro hf2 t hbt
    rw [hcall]
    exact congrArg _ (thread_fatal_backtrace bt { t2 with sp := t2.sp + 1 } t _ hf2 hbt)
  · intro X size a sp1 pc1 ns1 mc1 P psize pprev pa sp0 pc0 ns0 mc0 pav hx hX0 hP0 hXf hsize hPf
      hPtop hab1 hab0 hsp0 hfuel
    have hab1x : frames_above { th with xfp := P } X ns1 mc1 sp1 th.fp th.nsfp th.mcfp th.sp :=
      frames_above_congr th { th with xfp := P } X ns1 mc1 sp1 rfl _ _ _ _ hab1
        (fun _ _ _ => rfl)
    have hab0x : frames_above { th with xfp := P } P ns0 mc0 sp0 (X + size) ns1 mc1 sp1 :=
      frames_above_congr th { th with xfp := P } P ns0 mc0 sp0 rfl _ _ _ _ hab0
        (fun _ _ _ => rfl)
    obtain ⟨t, hjump, r1, r2, r3, r4, r5, hxfp, r6, r7, r8, r9, r10, r11⟩ :=
      except_longjmp_enclosing fuel { th with xfp := P } X size a sp1 pc1 ns1 mc1 P psize pprev
        pa sp0 pc0 ns0 mc0 a true pav hXf hsize hPf hPtop hab1x hab0x hsp0 hfuel
    refine ⟨t, ?_, r1, r2, r3, r4, r5, hxfp, r6, r7, r8, r9, r10, r11⟩
    have hx0 : ¬ (th.xfp = 0) := by rw [hx]; exact hX0
    rw [← hx] at hXf
    simp only [ovm_except_reraise, hx0, if_false, hXf, Bool.not_true, hP0]
    exact hjump

/-- The re-raise in the inner handler of the sample, whose catch frame at 416
has the enclosing catch frame at 688. -/
theorem except_reraise_branches_witness :
    ∃ t, ovm_except_reraise (fun t => .ok t) (fun t => .ok t) 400 sample_nested_thread = .ok t
      ∧ t.cells 62 = sample_nested_thread.cells 60
      ∧ (∀ c, c ≠ 62 → t.cells c = sample_nested_thread.cells c)
      ∧ t.frames 688 = some (.xc 248 0 62 true 59 7)
      ∧ (∀ f, f ≠ 688 → t.frames f = sample_nested_thread.frames f)
      ∧ t.fp = 688 ∧ t.xfp = 688 ∧ t.mcfp = 936 ∧ t.nsfp = 0
      ∧ t.sp = 59 ∧ t.pc = 7 ∧ t.exceptf = true
      ∧ t.except_lvl = sample_nested_thread.except_lvl :=
  (except_reraise_branches (fun t => .ok t) (fun t => .ok t) 400 sample_nested_thread).2.2.2.2
    416 248 60 59 9 664 936 688 248 0 62 59 7 0 936 false
    rfl (by decide) (by decide) rfl (by decide) rfl (by decide)
    (.ns 392 24 664 13 936 59 rfl (by decide) (.base 59 (by decide)))
    (.ns 664 24 0 11 936 59 rfl (by decide) (.base 59 (by decide)))
    (by decide) (by decide)

/-- C25, counterexample to the claim as stated: a thread that has filled its
value stack and has no exception frame, or one whose argument-valid flag is
clear.  The re-raise ends it with `OVM_THREAD_FATAL_STACK_OVERFLOW`, not with
`OVM_THREAD_FATAL_NO_FRAME`: `ovm_thread_fatal` finds no cell for the
backtrace. -/
theorem except_reraise_branches_counterexample :
    (∃ t, thread_run (fun t => .ok t) (fun t => .ok t) 100 (ovm_thread_create 0 64 100 900)
              [.stack_alloc 64] = .ok t
        ∧ t.xfp = 0 ∧ t.fatal_lvl = 0 ∧ t.sp = t.stack
        ∧ ovm_except_reraise (fun t => .ok t) (fun t => .ok t) 400 t
            = .error (.fatal OVM_THREAD_FATAL_STACK_OVERFLOW))
      ∧ (∃ t, thread_run (fun t => .ok t) (fun t => .ok t) 100 (ovm_thread_create 0 64 100 900)
              [.stack_alloc 64, .except_push 62] = .ok t
        ∧ t.xfp = 752 ∧ t.frames 752 = some (.xc 248 0 62 false 0 0) ∧ t.sp = t.stack
        ∧ ovm_except_reraise (fun t => .ok t) (fun t => .ok t) 400 t
            = .error (.fatal OVM_THREAD_FATAL_STACK_OVERFLOW))
      ∧ OVM_THREAD_FATAL_STACK_OVERFLOW ≠ OVM_THREAD_FATAL_NO_FRAME :=
  ⟨⟨_, rfl, rfl, rfl, rfl, rfl⟩, ⟨_, rfl, rfl, rfl, rfl, rfl⟩, by decide⟩

/-- The sample: in the inner handler the counter is 1 and cell 60 holds the
object raised; the re-raise hands it to cell 62.  In the outer handler a
re-raise finds no enclosing frame and ends the thread as an uncaught
exception; in a thread that is in no handler a re-raise is fatal with
`OVM_THREAD_FATAL_NO_FRAME`, without a catch frame or with one whose flag is
clear (the backtrace returns). -/
theorem except_reraise_sample :
    sample_nested_thread.xfp = 416 ∧ sample_nested_thread.fp = 392
      ∧ sample_nested_thread.except_lvl = 1
      ∧ sample_nested_thread.cells 60 = inst_obj 300
      ∧ sample_nested_thread.frames 416 = some (.xc 248 688 60 true 59 9)
      ∧ (∃ t, ovm_except_reraise (fun t => .ok t) (fun t => .ok t) 400 sample_nested_thread = .ok t
          ∧ t.cells 62 = inst_obj 300
          ∧ ovm_except_reraise (fun t => .ok t) (fun t => .ok t) 400 t
              = .error (.fatal OVM_THREAD_FATAL_UNCAUGHT_EXCEPT)
          ∧ ovm_except_reraise (fun t => .ok t) (fun t => .ok t) 400 { t with stack := 59 }
              = .error (.fatal OVM_THREAD_FATAL_STACK_OVERFLOW))
      ∧ ovm_except_reraise (fun t => .ok t) (fun t => .ok t) 400 (ovm_thread_create 0 64 100 900)
          = .error (.fatal OVM_THREAD_FATAL_NO_FRAME)
      ∧ (∃ t, thread_run (fun t => .ok t) (fun t => .ok t) 100 (ovm_thread_create 0 64 100 900)
            [.stack_alloc 5, .except_push 62] = .ok t
          ∧ ovm_except_reraise (fun t => .ok t) (fun t => .ok t) 400 t
              = .error (.fatal OVM_THREAD_FATAL_NO_FRAME)) :=
  ⟨rfl, rfl, rfl, rfl, rfl, ⟨_, rfl, rfl, rfl, rfl⟩, rfl, ⟨_, rfl, rfl⟩⟩

/-! ### Every class is a subclass of Object -/

theorem cls_parent_some (s : ovm_objs) (a p : Nat) (h : cls_parent s a = some p) :
    ∃ n ns v cm im mk fr cu, s.body a = some (.cls n p ns v cm im mk fr cu) := by
  unfold cls_parent at h
  split at h
  · rename_i n parent ns v cm im mk fr cu hb
    injection h with h
    subst h
    exact ⟨n, ns, v, cm, im, mk, fr, cu, hb⟩
  · cases h

theorem cls_parent_body (s : ovm_objs) (a : Nat) (h : cls_parent s a ≠ none) : s.body a ≠ none := by
  intro hb
  apply h
  simp [cls_parent, hb]

theorem reaches_subclass (c : ovm_consts) (s : ovm_objs) (hobj : c.Object ≠ 0) (a : Nat)
    (h : reaches_object c s a) : ∃ fuel, ovm_is_subclass_of fuel s a c.Object = .ok true := by
  induction h with
  | object => exact ⟨1, by simp [ovm_is_subclass_of, hobj]⟩
  | parent a p ha hp _ ih =>
    obtain ⟨fuel, hf⟩ := ih
    by_cases hao : a = c.Object
    · exact ⟨1, by simp [ovm_is_subclass_of, hao, hobj]⟩
    · obtain ⟨n, ns, v, cm, im, mk, fr, cu, hb⟩ := cls_parent_some s a p hp
      exact ⟨fuel + 1, by simp only [ovm_is_subclass_of, ha, hao, if_false, hb]; exact hf⟩

theorem reaches_congr (c : ovm_consts) (s s1 : ovm_objs)
    (hsame : ∀ a, cls_parent s a ≠ none → cls_parent s1 a = cls_parent s a) (a : Nat)
    (h : reaches_object c s a) : reaches_object c s1 a := by
  induction h with
  | object => exact .object
  | parent a p ha hp _ ih =>
    exact .parent a p ha (by rw [hsame a (by rw [hp]; simp)]; exact hp) ih

theorem classes_kept_ok (c : ovm_consts) (s s1 : ovm_objs) (hok : classes_ok c s)
    (hk : classes_kept c s s1) : classes_ok c s1 := by
  obtain ⟨hwf, h1, h2, h3, h4, h5, h6, h7, hinst, hreach⟩ := hok
  obtain ⟨k1, k2, k3⟩ := hk
  refine ⟨k1 hwf, h1, h2, h3, h4, h5, h6, h7, ?_, ?_⟩
  · intro a ha hb hi
    by_contra hc
    rcases k3 a ha hb hc with ⟨hb0, hi0⟩ | ⟨n1, n2⟩
    · rw [hi0] at hi
      have := hinst a ha hb0 hi
      rw [← k2 a] at this
      exact this hc
    · rcases hi with hi | hi
      · exact n1 hi
      · exact n2 hi
  · intro a ha
    rw [k2 a] at ha
    exact reaches_congr c s s1 (fun x _ => k2 x) a (hreach a ha)

/-- An allocation, from a well-formed store. -/
theorem obj_alloc_spec (s s1 : ovm_objs) (cl a : Nat) (b : ovm_body) (hwf : objs_wf s)
    (h : ovm_obj_alloc s cl b = .ok (s1, a)) :
    a ≠ 0 ∧ s.body a = none ∧ objs_wf s1
      ∧ (∀ p, s1.body p = if p = a then some b else s.body p)
      ∧ (∀ p, s1.inst_of p = if p = a then cl else s.inst_of p)
      ∧ s.free = a :: s1.free := by
  obtain ⟨hnd, hfree, h0⟩ := hwf
  unfold ovm_obj_alloc at h
  cases hf : s.free with
  | nil => simp [hf] at h
  | cons x rest =>
    simp only [hf] at h
    injection h with h
    injection h with e1 e2
    subst e2
    subst e1
    rw [hf] at hnd hfree
    have hx := hfree x (List.mem_cons_self _ _)
    have hnd2 := List.nodup_cons.mp hnd
    refine ⟨hx.1, hx.2, ⟨hnd2.2, ?_, ?_⟩, fun _ => rfl, fun _ => rfl, rfl⟩
    · intro y hy
      have hy2 := hfree y (List.mem_cons_of_mem _ hy)
      have hne : y ≠ x := fun e => hnd2.1 (e ▸ hy)
      exact ⟨hy2.1, by simp only [hne, if_false]; exact hy2.2⟩
    · have hne : ¬ (0 = x) := fun e => hx.1 e.symm
      simp only [hne, if_false]
      exact h0

/-- The allocation of an object that is no class keeps the classes. -/
theorem obj_alloc_kept (c : ovm_consts) (s s1 : ovm_objs) (cl a : Nat) (b : ovm_body)
    (hwf : objs_wf s) (hcl : cl ≠ c.Metaclass) (hcl0 : cl ≠ 0)
    (hb : ∀ n p ns v cm im mk fr cu, b ≠ .cls n p ns v cm im mk fr cu)
    (h : ovm_obj_alloc s cl b = .ok (s1, a)) : classes_kept c s s1 := by
  obtain ⟨ha0, hfresh, hwf1, hbody, hinst, _⟩ := obj_alloc_spec s s1 cl a b hwf h
  refine ⟨fun _ => hwf1, ?_, ?_⟩
  · intro x
    unfold cls_parent
    rw [hbody x]
    by_cases hx : x = a
    · subst hx
      simp only [if_true, hfresh]
      cases b with
      | cls n p ns v cm im mk fr cu => exact absurd rfl (hb n p ns v cm im mk fr cu)
      | _ => rfl
    · simp only [hx, if_false]
  · intro x hx0 hxb _
    by_cases hx : x = a
    · right
      rw [hinst x]
      simp only [hx, if_true]
      exact ⟨hcl, hcl0⟩
    · left
      rw [hbody x] at hxb
      rw [hinst x]
      simp only [hx, if_false] at hxb ⊢
      exact ⟨hxb, trivial⟩

theorem obj_str_newc_kept (c : ovm_consts) (s s1 : ovm_objs) (cl a : Nat)
    (hwf : objs_wf s) (hcl : cl ≠ c.Metaclass) (hcl0 : cl ≠ 0)
    (h : obj_str_newc s cl = .ok (s1, a)) : classes_kept c s s1 :=
  obj_alloc_kept c s s1 cl a .raw hwf hcl hcl0 (by intros; simp) h

theorem obj_set_newc_kept (c : ovm_consts) (s s1 : ovm_objs) (cl size a : Nat)
    (hwf : objs_wf s) (hcl : cl ≠ c.Metaclass) (hcl0 : cl ≠ 0)
    (h : obj_set_newc s cl size = .ok (s1, a)) : classes_kept c s s1 := by
  unfold obj_set_newc at h
  cases hr : round_up_to_power_of_2 34 size with
  | error e => simp [hr] at h
  | ok n =>
    simp only [hr] at h
    by_cases hf : set_alloc_fits n = true
    · simp only [hf, if_true] at h
      exact obj_alloc_kept c s s1 cl a _ hwf hcl hcl0 (by intros; simp) h
    · simp [hf] at h

theorem classes_kept_trans (c : ovm_consts) (s s1 s2 : ovm_objs)
    (h1 : classes_kept c s s1) (h2 : classes_kept c s1 s2) : classes_kept c s s2 := by
  obtain ⟨a1, a2, a3⟩ := h1
  obtain ⟨b1, b2, b3⟩ := h2
  refine ⟨fun h => b1 (a1 h), fun a => by rw [b2 a, a2 a], ?_⟩
  intro a ha hb hc
  rcases b3 a ha hb hc with ⟨hb1, hi1⟩ | hnew
  · have hc1 : cls_parent s1 a = none := by rw [← b2 a]; exact hc
    rcases a3 a ha hb1 hc1 with ⟨hb0, hi0⟩ | ⟨n1, n2⟩
    · left
      exact ⟨hb0, by rw [hi1, hi0]⟩
    · right
      rw [hi1]
      exact ⟨n1, n2⟩
  · right
    exact hnew

theorem classes_kept_refl (c : ovm_consts) (s : ovm_objs) : classes_kept c s s :=
  ⟨fun h => h, fun _ => rfl, fun _ _ hb _ => Or.inl ⟨hb, rfl⟩⟩

/-- The allocation of a class whose parent's chain ends at Object. -/
theorem class_obj_alloc_ok (c : ovm_consts) (s s1 : ovm_objs) (a parent : Nat)
    (n ns v cm im : Nat) (mk : Option mark_fn) (fr : Option free_fn) (cu : Option cleanup_fn)
    (hok : classes_ok c s) (hp : reaches_object c s parent)
    (h : ovm_obj_alloc s c.Metaclass (.cls n parent ns v cm im mk fr cu) = .ok (s1, a)) :
    classes_ok c s1 ∧ cls_parent s1 a = some parent ∧ a ≠ 0 ∧ s.body a = none
      ∧ (∀ x, x ≠ a → s1.body x = s.body x) := by
  obtain ⟨hwf, h1, h2, h3, h4, h5, h6, h7, hinst, hreach⟩ := hok
  obtain ⟨ha0, hfresh, hwf1, hbody, hinstof, _⟩ := obj_alloc_spec s s1 _ a _ hwf h
  have hcp : ∀ x, cls_parent s1 x = if x = a then some parent else cls_parent s x := by
    intro x
    unfold cls_parent
    rw [hbody x]
    by_cases hx : x = a
    · simp only [hx, if_true]
    · simp only [hx, if_false]
  have hold : ∀ x, cls_parent s x ≠ none → cls_parent s1 x = cls_parent s x := by
    intro x hx
    have hne : x ≠ a := by
      intro e
      subst e
      exact cls_parent_body s x hx hfresh
    rw [hcp x]
    simp only [hne, if_false]
  have hpa : cls_parent s1 a = some parent := by rw [hcp a]; simp
  refine ⟨⟨hwf1, h1, h2, h3, h4, h5, h6, h7, ?_, ?_⟩, hpa, ha0, hfresh, ?_⟩
  · intro x hx0 hxb hxi
    by_cases hx : x = a
    · rw [hx, hpa]
      simp
    · rw [hcp x]
      simp only [hx, if_false]
      rw [hbody x] at hxb
      rw [hinstof x] at hxi
      simp only [hx, if_false] at hxb hxi
      exact hinst x hx0 hxb hxi
  · intro x hx
    by_cases hxa : x = a
    · rw [hxa]
      exact .parent a parent ha0 hpa (reaches_congr c s s1 hold parent hp)
    · rw [hcp x] at hx
      simp only [hxa, if_false] at hx
      exact reaches_congr c s s1 hold x (hreach x hx)
  · intro x hx
    rw [hbody x]
    simp only [hx, if_false]

/-- `ovm_inst_classval` under `classes_ok`: nil and Strings are refused, and
what is returned for a live cell is a class object. -/
theorem inst_classval_ok (c : ovm_consts) (s : ovm_objs) (hok : classes_ok c s) :
    ovm_inst_classval c s inst_nil = .error (.raised (ovm_except_inv_value inst_nil))
      ∧ (∀ inst p, cell_live s inst → ovm_inst_classval c s inst = .ok p →
          p ≠ 0 ∧ cls_parent s p ≠ none ∧ inst.val = .objval p) := by
  obtain ⟨hwf, h1, h2, h3, h4, h5, h6, h7, hinst, hreach⟩ := hok
  constructor
  · simp [ovm_inst_classval, inst_nil, inst_obj, ovm_inst_of_raw, h1, h5]
  · intro inst p hlive h
    unfold ovm_inst_classval at h
    cases hv : inst.val with
    | objval obj =>
      simp only [hv, ovm_inst_of_raw] at h
      by_cases hobj : obj = 0
      · simp [hobj, h1, h5] at h
      · simp only [hobj, if_false] at h
        split_ifs at h with hc
        injection h with h
        subst h
        exact ⟨hobj, hinst obj hobj (hlive obj hv hobj) hc, rfl⟩
    | strval obj str =>
      simp [hv, ovm_inst_of_raw, h3, h6] at h
    | boolval b => simp [hv] at h
    | intval i => simp [hv] at h
    | floatval f => simp [hv] at h
    | codemethodval f => simp [hv] at h
    | methodval m => simp [hv] at h

/-- `class_new` with a parent whose chain ends at Object. -/
theorem class_new_ok (env : classes_env) (c : ovm_consts) (henv : env_keeps c env)
    (s s6 : ovm_objs) (ns : Nat) (name : List Char) (parent cl : Nat) (mk : Option mark_fn)
    (fr : Option free_fn) (cu : Option cleanup_fn)
    (hok : classes_ok c s) (hp : reaches_object c s parent)
    (h : class_new env c s ns name parent mk fr cu = .ok (s6, cl)) :
    classes_ok c s6 ∧ cls_parent s6 cl = some parent ∧ cl ≠ 0 := by
  have hc := hok
  obtain ⟨hwf, h1, h2, h3, h4, h5, h6, h7, hinst, hreach⟩ := hc
  unfold class_new at h
  cases e1 : obj_str_newc s c.String with
  | error e => simp [e1] at h
  | ok r1 =>
    obtain ⟨s1, str⟩ := r1
    simp only [e1] at h
    have k1 := obj_str_newc_kept c s s1 _ str hwf h6 h3 e1
    have ok1 := classes_kept_ok c s s1 hok k1
    cases e2 : obj_set_newc s1 c.Dictionary 16 with
    | error e => simp [e2] at h
    | ok r2 =>
      obtain ⟨s2, d1⟩ := r2
      simp only [e2] at h
      have k2 := obj_set_newc_kept c s1 s2 _ 16 d1 ok1.1 h7 h4 e2
      have ok2 := classes_kept_ok c s1 s2 ok1 k2
      cases e3 : obj_set_newc s2 c.Dictionary 128 with
      | error e => simp [e3] at h
      | ok r3 =>
        obtain ⟨s3, d2⟩ := r3
        simp only [e3] at h
        have k3 := obj_set_newc_kept c s2 s3 _ 128 d2 ok2.1 h7 h4 e3
        have ok3 := classes_kept_ok c s2 s3 ok2 k3
        cases e4 : obj_set_newc s3 c.Dictionary 128 with
        | error e => simp [e4] at h
        | ok r4 =>
          obtain ⟨s4, d3⟩ := r4
          simp only [e4] at h
          have k4 := obj_set_newc_kept c s3 s4 _ 128 d3 ok3.1 h7 h4 e4
          have ok4 := classes_kept_ok c s3 s4 ok3 k4
          have k04 := classes_kept_trans c s s2 s4 (classes_kept_trans c s s1 s2 k1 k2)
            (classes_kept_trans c s2 s3 s4 k3 k4)
          have hp4 : reaches_object c s4 parent :=
            reaches_congr c s s4 (fun x _ => k04.2.1 x) parent hp
          cases e5 : ovm_obj_alloc s4 c.Metaclass
              (.cls str parent ns d1 d2 d3 mk fr cu) with
          | error e => simp [e5] at h
          | ok r5 =>
            obtain ⟨s5, a⟩ := r5
            simp only [e5] at h
            obtain ⟨ok5, hpa, ha0, _, _⟩ :=
              class_obj_alloc_ok c s4 s5 a parent str ns d1 d2 d3 mk fr cu ok4 hp4 e5
            have fin : ∀ dict, env.dict_ats_put s5 dict name (inst_obj a) = .ok s6 →
                classes_ok c s6 ∧ cls_parent s6 a = some parent ∧ a ≠ 0 := by
              intro dict hd
              have k6 := henv.1 s5 dict name (inst_obj a) s6 hd
              exact ⟨classes_kept_ok c s5 s6 ok5 k6, by rw [k6.2.1 a]; exact hpa, ha0⟩
            split at h
            · rename_i dict _
              cases e6 : env.dict_ats_put s5 dict name (inst_obj a) with
              | error e => simp [e6] at h
              | ok s7 =>
                simp only [e6] at h
                injection h with h
                injection h with g1 g2
                subst g1
                subst g2
                exact fin dict e6
            · rename_i dict _ _ _
              cases e6 : env.dict_ats_put s5 dict name (inst_obj a) with
              | error e => simp [e6] at h
              | ok s7 =>
                simp only [e6] at h
                injection h with h
                injection h with g1 g2
                subst g1
                subst g2
                exact fin dict e6
            · simp at h

/-- `ovm_class_new` and `Metaclass.new` keep the state of the classes; the
class made has the parent given, a class object. -/
theorem ovm_class_new_ok (env : classes_env) (c : ovm_consts) (henv : env_keeps c env)
    (fuel : Nat) (s s1 : ovm_objs) (parent_inst ns_inst : ovm_inst) (name : List Char)
    (mk : Option mark_fn) (fr : Option free_fn) (cu : Option cleanup_fn) (cl : Nat)
    (hok : classes_ok c s) (hlive : cell_live s parent_inst)
    (h : ovm_class_new env c fuel s parent_inst ns_inst name mk fr cu = .ok (s1, cl)) :
    classes_ok c s1 ∧ cl ≠ 0
      ∧ ∃ p, parent_inst.val = .objval p ∧ p ≠ 0 ∧ cls_parent s p ≠ none
          ∧ cls_parent s1 cl = some p := by
  unfold ovm_class_new at h
  cases e1 : ovm_inst_nsval c fuel s ns_inst with
  | error e => simp [e1] at h
  | ok ns =>
    simp only [e1] at h
    cases e2 : ovm_inst_classval c s parent_inst with
    | error e => simp [e2] at h
    | ok p =>
      simp only [e2] at h
      obtain ⟨hp0, hpc, hpv⟩ := (inst_classval_ok c s hok).2 parent_inst p hlive e2
      obtain ⟨r1, r2, r3⟩ := class_new_ok env c henv s s1 ns name p cl mk fr cu hok
        (hok.2.2.2.2.2.2.2.2.2 p hpc) h
      exact ⟨r1, r3, p, hpv, hp0, hpc, r2⟩

theorem Metaclass_new_ok (env : classes_env) (c : ovm_consts) (henv : env_keeps c env)
    (fuel : Nat) (s s2 : ovm_objs) (argv : List ovm_inst) (ns_up cl : Nat)
    (hok : classes_ok c s) (hlive : cell_live s (argv.getD 2 inst_nil))
    (h : Metaclass_new env c fuel s argv ns_up = .ok (s2, cl)) :
    classes_ok c s2 ∧ cl ≠ 0
      ∧ ∃ p, (argv.getD 2 inst_nil).val = .objval p ∧ p ≠ 0 ∧ cls_parent s p ≠ none
          ∧ cls_parent s2 cl = some p := by
  unfold Metaclass_new at h
  by_cases hargc : argv.length < 3 ∨ argv.length > 4
  · rw [if_pos hargc] at h
    cases h
  rw [if_neg hargc] at h
  split at h
  · rename_i o nm _
    cases e2 : ovm_inst_classval c s (argv.getD 2 inst_nil) with
    | error e => rw [e2] at h; cases h
    | ok p =>
      rw [e2] at h
      simp only at h
      obtain ⟨hp0, hpc, hpv⟩ := (inst_classval_ok c s hok).2 _ p hlive e2
      split at h
      · cases h
      · rename_i ns _
        cases e3 : class_new env c s ns nm.data p (some .set_mark) (some .set_free) none with
        | error e => simp [e3] at h
        | ok r =>
          obtain ⟨s1, a⟩ := r
          simp only [e3] at h
          obtain ⟨r1, r2, r3⟩ := class_new_ok env c henv s s1 ns nm.data p a _ _ _ hok
            (hok.2.2.2.2.2.2.2.2.2 p hpc) e3
          cases e4 : obj_cl_dict s1 a .CL_OFS_CL_METHODS_DICT with
          | error e => simp [e4] at h
          | ok d =>
            simp only [e4] at h
            split at h
            · cases h
            · rename_i s3 e5
              injection h with h
              injection h with g1 g2
              subst g1
              subst g2
              have k := henv.1 s1 d _ _ s3 e5
              exact ⟨classes_kept_ok c s1 s3 r1 k, r3, p, hpv, hp0, hpc,
                by rw [k.2.1 a]; exact r2⟩
  · simp at h

theorem pass1_spec (m : Nat) :
    ∀ (es : List cl_init_entry) (s : ovm_objs) (tbl : cl_id → Nat) (ids : List cl_id)
      (s1 : ovm_objs) (tbl1 : cl_id → Nat),
      pass1_state s tbl ids m → cl_id.Metaclass ∈ ids → (∀ e ∈ es, e.dst ∉ ids) →
      (es.map (fun e => e.dst)).Nodup → classes_pass1 es s tbl = .ok (s1, tbl1) →
      pass1_state s1 tbl1 (ids ++ es.map (fun e => e.dst)) m := by
  intro es
  induction es with
  | nil =>
    intro s tbl ids s1 tbl1 hst _ _ _ h
    simp only [classes_pass1] at h
    injection h with h
    injection h with g1 g2
    subst g1
    subst g2
    simpa using hst
  | cons e es ih =>
    intro s tbl ids s1 tbl1 hst hmeta hnot hnd h
    obtain ⟨hwf, hids, hzero, hinj, hbodies, hm⟩ := hst
    simp only [classes_pass1] at h
    cases ha : class_alloc s (tbl .Metaclass) with
    | error err => simp [ha] at h
    | ok r =>
      obtain ⟨s2, a⟩ := r
      simp only [ha] at h
      obtain ⟨ha0, hfresh, hwf2, hbody, hinst, _⟩ := obj_alloc_spec s s2 _ a _ hwf ha
      have hed : e.dst ∉ ids := hnot e (List.mem_cons_self _ _)
      have hnd2 : e.dst ∉ es.map (fun e => e.dst) ∧ (es.map (fun e => e.dst)).Nodup :=
        List.nodup_cons.mp hnd
      have hcp : ∀ x, x ≠ a → cls_parent s2 x = cls_parent s x := by
        intro x hx
        unfold cls_parent
        rw [hbody x]
        simp only [hx, if_false]
      have hcpa : cls_parent s2 a = some 0 := by
        unfold cls_parent
        rw [hbody a]
        simp
      have hne : ∀ i ∈ ids, tbl i ≠ a := by
        intro i hi e1
        have := (hids i hi).2
        rw [e1] at this
        exact cls_parent_body s a (by rw [this]; simp) hfresh
      have hst2 : pass1_state s2 (fun i => if i = e.dst then a else tbl i) (ids ++ [e.dst]) m := by
        refine ⟨hwf2, ?_, ?_, ?_, ?_, ?_⟩
        · intro i hi
          rcases List.mem_append.mp hi with hi | hi
          · have hie : i ≠ e.dst := fun e1 => hed (e1 ▸ hi)
            simp only [hie, if_false]
            exact ⟨(hids i hi).1, by rw [hcp _ (hne i hi)]; exact (hids i hi).2⟩
          · have hie : i = e.dst := by simpa using hi
            simp only [hie, if_true]
            exact ⟨ha0, hcpa⟩
        · intro i hi
          have h1 : i ∉ ids := fun x => hi (List.mem_append.mpr (Or.inl x))
          have h2 : i ≠ e.dst := fun x => hi (List.mem_append.mpr (Or.inr (by simp [x])))
          simp only [h2, if_false]
          exact hzero i h1
        · intro i hi j hj hij
          rcases List.mem_append.mp hi with hi | hi
          · have hie : i ≠ e.dst := fun e1 => hed (e1 ▸ hi)
            rcases List.mem_append.mp hj with hj | hj
            · have hje : j ≠ e.dst := fun e1 => hed (e1 ▸ hj)
              simp only [hie, hje, if_false] at hij
              exact hinj i hi j hj hij
            · have hje : j = e.dst := by simpa using hj
              simp only [hie, hje, if_false, if_true] at hij
              exact absurd hij (hne i hi)
          · have hie : i = e.dst := by simpa using hi
            rcases List.mem_append.mp hj with hj | hj
            · have hje : j ≠ e.dst := fun e1 => hed (e1 ▸ hj)
              simp only [hie, hje, if_false, if_true] at hij
              exact absurd hij.symm (hne j hj)
            · have hje : j = e.dst := by simpa using hj
              rw [hie, hje]
        · intro x hx
          rw [hbody x] at hx
          by_cases hxa : x = a
          · exact ⟨e.dst, List.mem_append.mpr (Or.inr (by simp)), by simp [hxa]⟩
          · simp only [hxa, if_false] at hx
            obtain ⟨i, hi, hxi⟩ := hbodies x hx
            have hie : i ≠ e.dst := fun e1 => hed (e1 ▸ hi)
            exact ⟨i, List.mem_append.mpr (Or.inl hi), by simp only [hie, if_false]; exact hxi⟩
        · have hme : cl_id.Metaclass ≠ e.dst := fun e1 => hed (e1 ▸ hmeta)
          simp only [hme, if_false]
          exact hm
      have hres := ih s2 _ (ids ++ [e.dst]) s1 tbl1 hst2
        (List.mem_append.mpr (Or.inl hmeta))
        (by
          intro e2 he2 hin
          rcases List.mem_append.mp hin with hin | hin
          · exact hnot e2 (List.mem_cons_of_mem _ he2) hin
          · have : e2.dst = e.dst := by simpa using hin
            exact hnd2.1 (List.mem_map.mpr ⟨e2, he2, this⟩))
        hnd2.2 h
      simpa [List.append_assoc] using hres

theorem pass2_state_kept (tbl : cl_id → Nat) (s s1 : ovm_objs) (hst : pass2_state s tbl)
    (hk : classes_kept (consts_of tbl) s s1) : pass2_state s1 tbl := by
  obtain ⟨hwf, hids, hcls, hinst⟩ := hst
  obtain ⟨k1, k2, k3⟩ := hk
  refine ⟨k1 hwf, fun i => ⟨(hids i).1, by rw [k2]; exact (hids i).2⟩,
    fun a ha => hcls a (by rw [← k2]; exact ha), ?_⟩
  intro a ha hb hi
  by_contra hc
  rcases k3 a ha hb hc with ⟨hb0, hi0⟩ | ⟨n1, n2⟩
  · rw [hi0] at hi
    have := hinst a ha hb0 hi
    rw [← k2 a] at this
    exact this hc
  · rcases hi with hi | hi
    · exact n1 hi
    · exact n2 hi

theorem pass2_spec (tbl : cl_id → Nat) (hinj : ∀ i j, tbl i = tbl j → i = j) :
    ∀ (es done : List cl_init_entry) (s s1 : ovm_objs),
      pass2_state s tbl →
      (∀ e ∈ done, cls_parent s (tbl e.dst) = some (parent_addr tbl e)) →
      (∀ e ∈ es, cls_parent s (tbl e.dst) = some 0) →
      ((done ++ es).map (fun e => e.dst)).Nodup →
      classes_pass2 es s tbl = .ok s1 →
      pass2_state s1 tbl
        ∧ (∀ e ∈ done ++ es, cls_parent s1 (tbl e.dst) = some (parent_addr tbl e)) := by
  intro es
  induction es with
  | nil =>
    intro done s s1 hst hdone _ _ h
    simp only [classes_pass2] at h
    injection h with h
    subst h
    exact ⟨hst, by simpa using hdone⟩
  | cons e es ih =>
    intro done s s1 hst hdone htodo hnd h
    have hids := hst.2.1
    have hS : tbl .String ≠ (consts_of tbl).Metaclass := fun e1 => by
      have := hinj _ _ e1
      cases this
    have hD : tbl .Dictionary ≠ (consts_of tbl).Metaclass := fun e1 => by
      have := hinj _ _ e1
      cases this
    simp only [classes_pass2] at h
    cases e1 : obj_str_newc s (tbl .String) with
    | error err => simp [e1] at h
    | ok r1 =>
      obtain ⟨t1, name⟩ := r1
      simp only [e1] at h
      have k1 := obj_str_newc_kept (consts_of tbl) s t1 _ name hst.1 hS (hids _).1 e1
      have st1 := pass2_state_kept tbl s t1 hst k1
      cases e2 : obj_set_newc t1 (tbl .Dictionary) 16 with
      | error err => simp [e2] at h
      | ok r2 =>
        obtain ⟨t2, d1⟩ := r2
        simp only [e2] at h
        have k2 := obj_set_newc_kept (consts_of tbl) t1 t2 _ 16 d1 st1.1 hD (hids _).1 e2
        have st2 := pass2_state_kept tbl t1 t2 st1 k2
        cases e3 : obj_set_newc t2 (tbl .Dictionary) 128 with
        | error err => simp [e3] at h
        | ok r3 =>
          obtain ⟨t3, d2⟩ := r3
          simp only [e3] at h
          have k3 := obj_set_newc_kept (consts_of tbl) t2 t3 _ 128 d2 st2.1 hD (hids _).1 e3
          have st3 := pass2_state_kept tbl t2 t3 st2 k3
          cases e4 : obj_set_newc t3 (tbl .Dictionary) 128 with
          | error err => simp [e4] at h
          | ok r4 =>
            obtain ⟨t4, d3⟩ := r4
            simp only [e4] at h
            have k4 := obj_set_newc_kept (consts_of tbl) t3 t4 _ 128 d3 st3.1 hD (hids _).1 e4
            have st4 := pass2_state_kept tbl t3 t4 st3 k4
            have hcp4 : ∀ x, cls_parent t4 x = cls_parent s x := by
              intro x
              rw [k4.2.1, k3.2.1, k2.2.1, k1.2.1]
            have hX : cls_parent t4 (tbl e.dst) = some 0 := by
              rw [hcp4]
              exact htodo e (List.mem_cons_self _ _)
            obtain ⟨n0, ns0, v0, cm0, im0, mk0, fr0, cu0, hb⟩ := cls_parent_some t4 _ 0 hX
            simp only [hb] at h
            have hpa : (match e.parent with
                | some q => tbl q
                | none => 0) = parent_addr tbl e := rfl
            rw [hpa] at h
            -- the store after the fields of the class are set
            obtain ⟨hwf4, hids4, hcls4, hinst4⟩ := st4
            have hcp5 : ∀ x, cls_parent
                { t4 with body := fun p =>
                    if p = tbl e.dst then
                      some (.cls name (parent_addr tbl e) ns0 d1 d2 d3 e.mark e.free e.cleanup)
                    else t4.body p } x
                = if x = tbl e.dst then some (parent_addr tbl e) else cls_parent t4 x := by
              intro x
              unfold cls_parent
              by_cases hx : x = tbl e.dst
              · simp only [hx, if_true]
              · simp only [hx, if_false]
            have hXb : t4.body (tbl e.dst) ≠ none := by rw [hb]; simp
            have st5 : pass2_state
                { t4 with body := fun p =>
                    if p = tbl e.dst then
                      some (.cls name (parent_addr tbl e) ns0 d1 d2 d3 e.mark e.free e.cleanup)
                    else t4.body p } tbl := by
              refine ⟨⟨hwf4.1, ?_, ?_⟩, ?_, ?_, ?_⟩
              · intro a ha
                have := hwf4.2.1 a ha
                have hne : a ≠ tbl e.dst := fun e1 => hXb (e1 ▸ this.2)
                exact ⟨this.1, by simp only [hne, if_false]; exact this.2⟩
              · have hne : ¬ (0 = tbl e.dst) := fun e1 => (hids4 e.dst).1 e1.symm
                simp only [hne, if_false]
                exact hwf4.2.2
              · intro i
                refine ⟨(hids4 i).1, ?_⟩
                rw [hcp5]
                by_cases hx : tbl i = tbl e.dst
                · simp [hx]
                · simp only [hx, if_false]
                  exact (hids4 i).2
              · intro a ha
                rw [hcp5] at ha
                by_cases hx : a = tbl e.dst
                · exact ⟨e.dst, hx⟩
                · simp only [hx, if_false] at ha
                  exact hcls4 a ha
              · intro a ha0 hab hai
                rw [hcp5]
                by_cases hx : a = tbl e.dst
                · simp [hx]
                · simp only [hx, if_false] at hab ⊢
                  exact hinst4 a ha0 hab hai
            have hnd' : ((done ++ [e] ++ es).map (fun e => e.dst)).Nodup := by
              simpa [List.append_assoc] using hnd
            have hndl : (done.map (fun e => e.dst) ++ e.dst :: es.map (fun e => e.dst)).Nodup := by
              simpa using hnd
            have hres := ih (done ++ [e]) _ s1 st5
              (by
                intro e2 he2
                rw [hcp5]
                rcases List.mem_append.mp he2 with he2 | he2
                · have hne : e2.dst ≠ e.dst := by
                    intro e1
                    have h1 : e2.dst ∈ done.map (fun e => e.dst) :=
                      List.mem_map.mpr ⟨e2, he2, rfl⟩
                    have h2 : e.dst ∈ e.dst :: es.map (fun e => e.dst) :=
                      List.mem_cons_self _ _
                    exact (List.nodup_append.mp hndl).2.2 h1 (e1 ▸ h2)
                  have hne2 : tbl e2.dst ≠ tbl e.dst := fun e1 => hne (hinj _ _ e1)
                  simp only [hne2, if_false]
                  rw [hcp4]
                  exact hdone e2 he2
                · have : e2 = e := by simpa using he2
                  subst this
                  simp)
              (by
                intro e2 he2
                rw [hcp5]
                have hne : e2.dst ≠ e.dst := by
                  intro e1
                  have h3 := (List.nodup_cons.mp (List.nodup_append.mp hndl).2.1).1
                  exact h3 (e1 ▸ List.mem_map.mpr ⟨e2, he2, rfl⟩)
                have hne2 : tbl e2.dst ≠ tbl e.dst := fun e1 => hne (hinj _ _ e1)
                simp only [hne2, if_false]
                rw [hcp4]
                exact htodo e2 (List.mem_cons_of_mem _ he2))
              hnd' h
            refine ⟨hres.1, ?_⟩
            intro e2 he2
            exact hres.2 e2 (by simpa [List.append_assoc] using he2)

theorem pass3_kept (env : classes_env) (c : ovm_consts) (henv : env_keeps c env)
    (tbl : cl_id → Nat) :
    ∀ (ms : List method_init_entry) (s s1 : ovm_objs),
      classes_pass3 env ms s tbl = .ok s1 → classes_kept c s s1 := by
  intro ms
  induction ms with
  | nil =>
    intro s s1 h
    simp only [classes_pass3] at h
    injection h with h
    subst h
    exact classes_kept_refl c s
  | cons m ms ih =>
    intro s s1 h
    simp only [classes_pass3] at h
    cases e1 : obj_cl_dict s (tbl m.cl) m.dict_ofs with
    | error err => simp [e1] at h
    | ok d =>
      simp only [e1] at h
      split at h
      · cases h
      · rename_i s2 e2
        exact classes_kept_trans c s s2 s1 (henv.1 s d _ _ s2 e2) (ih s2 s1 h)

/-- Setting the field `ns` of a class keeps the classes. -/
theorem set_ns_kept (c : ovm_consts) (s : ovm_objs) (X n p ns ns1 v cm im : Nat)
    (mk : Option mark_fn) (fr : Option free_fn) (cu : Option cleanup_fn)
    (hb : s.body X = some (.cls n p ns v cm im mk fr cu)) :
    classes_kept c s
      { s with body := fun q =>
          if q = X then some (.cls n p ns1 v cm im mk fr cu) else s.body q } := by
  have hXb : s.body X ≠ none := by rw [hb]; simp
  refine ⟨?_, ?_, ?_⟩
  · intro hwf
    refine ⟨hwf.1, ?_, ?_⟩
    · intro a ha
      have := hwf.2.1 a ha
      have hne : a ≠ X := fun e1 => hXb (e1 ▸ this.2)
      exact ⟨this.1, by simp only [hne, if_false]; exact this.2⟩
    · have hne : ¬ (0 = X) := fun e1 => hXb (e1 ▸ hwf.2.2)
      simp only [hne, if_false]
      exact hwf.2.2
  · intro a
    unfold cls_parent
    by_cases hx : a = X
    · simp only [hx, if_true, hb]
    · simp only [hx, if_false]
  · intro a _ hab hac
    left
    by_cases hx : a = X
    · exfalso
      revert hac
      simp [cls_parent, hx]
    · simp only [hx, if_false] at hab
      exact ⟨hab, rfl⟩

theorem pass5_kept (env : classes_env) (c : ovm_consts) (henv : env_keeps c env)
    (tbl : cl_id → Nat) (ns_main main_dict : Nat) :
    ∀ (es : List cl_init_entry) (s s1 : ovm_objs),
      classes_pass5 env ns_main main_dict es s tbl = .ok s1 → classes_kept c s s1 := by
  intro es
  induction es with
  | nil =>
    intro s s1 h
    simp only [classes_pass5] at h
    injection h with h
    subst h
    exact classes_kept_refl c s
  | cons e es ih =>
    intro s s1 h
    simp only [classes_pass5] at h
    split at h
    · rename_i n p ns v cm im mk fr cu hb
      split at h
      · cases h
      · rename_i s2 e2
        exact classes_kept_trans c s _ s1
          (classes_kept_trans c s _ s2 (set_ns_kept c s _ n p ns ns_main v cm im mk fr cu hb)
            (henv.1 _ _ _ _ s2 e2))
          (ih s2 s1 h)
    · cases h

/-- Every field of the table is the destination of one entry, and the
destinations are distinct. -/
theorem cl_init_tbl_dsts :
    (cl_init_tbl.map (fun e => e.dst)).Nodup
      ∧ ∀ i : cl_id, i ∈ cl_init_tbl.map (fun e => e.dst) := by
  constructor
  · decide
  · intro i
    cases i <;> decide

/-- In `cl_init_tbl`, every class but Object has Object as its parent or as
the parent of its parent. -/
theorem cl_init_tbl_parents (i : cl_id) :
    i = .Object
      ∨ (∃ e ∈ cl_init_tbl, e.dst = i ∧ e.parent = some .Object)
      ∨ (∃ e ∈ cl_init_tbl, ∃ e2 ∈ cl_init_tbl,
          e.dst = i ∧ e.parent = some e2.dst ∧ e2.parent = some .Object) := by
  cases i <;> decide

/-- `classes_init` on the empty store leaves the classes in order. -/
theorem classes_init_ok (env : classes_env) (fl : List Nat) (hnd : fl.Nodup) (h0 : 0 ∉ fl)
    (s : ovm_objs) (c : ovm_consts) (henv : env_keeps c env)
    (h : classes_init env (objs_init fl) = .ok (s, c)) : classes_ok c s := by
  have hwf0 : objs_wf (objs_init fl) :=
    ⟨hnd, fun a ha => ⟨fun e => h0 (e ▸ ha), rfl⟩, rfl⟩
  obtain ⟨hdnd, hdall⟩ := cl_init_tbl_dsts
  unfold classes_init at h
  -- pass 0
  cases e0 : class_alloc (objs_init fl) 0 with
  | error err => simp [e0] at h
  | ok r0 =>
    obtain ⟨s0, m⟩ := r0
    simp only [e0] at h
    obtain ⟨hm0, _, hwfs0, hbody0, _, _⟩ := obj_alloc_spec _ s0 _ m _ hwf0 e0
    have hst0 : pass1_state s0 (fun i => if i = cl_id.Metaclass then m else 0)
        [cl_id.Metaclass] m := by
      refine ⟨hwfs0, ?_, ?_, ?_, ?_, by simp⟩
      · intro i hi
        have : i = cl_id.Metaclass := by simpa using hi
        subst this
        refine ⟨by simpa using hm0, ?_⟩
        unfold cls_parent
        rw [hbody0]
        simp
      · intro i hi
        have : i ≠ cl_id.Metaclass := by simpa using hi
        simp [this]
      · intro i hi j hj _
        have h1 : i = cl_id.Metaclass := by simpa using hi
        have h2 : j = cl_id.Metaclass := by simpa using hj
        rw [h1, h2]
      · intro a ha
        rw [hbody0] at ha
        by_cases hx : a = m
        · exact ⟨cl_id.Metaclass, by simp, by simp [hx]⟩
        · simp only [hx, if_false] at ha
          exact absurd rfl ha
    -- pass 1
    cases e1 : classes_pass1 cl_init_tbl.tail s0
        (fun i => if i = cl_id.Metaclass then m else 0) with
    | error err => simp [e1] at h
    | ok r1 =>
      obtain ⟨s1, tbl⟩ := r1
      simp only [e1] at h
      have hst1 := pass1_spec m cl_init_tbl.tail s0 _ [cl_id.Metaclass] s1 tbl hst0
        (by simp) (by decide) (by decide) e1
      have hall : ∀ i : cl_id,
          i ∈ [cl_id.Metaclass] ++ cl_init_tbl.tail.map (fun e => e.dst) := by
        intro i
        exact hdall i
      obtain ⟨hwf1, hids1, _, hinj1, hbodies1, _⟩ := hst1
      have hinj : ∀ i j, tbl i = tbl j → i = j :=
        fun i j hij => hinj1 i (hall i) j (hall j) hij
      have hst2 : pass2_state s1 tbl := by
        refine ⟨hwf1, fun i => ⟨(hids1 i (hall i)).1, by rw [(hids1 i (hall i)).2]; simp⟩,
          ?_, ?_⟩
        · intro a ha
          obtain ⟨i, _, hi⟩ := hbodies1 a (cls_parent_body s1 a ha)
          exact ⟨i, hi⟩
        · intro a _ hab _
          obtain ⟨i, hi, hai⟩ := hbodies1 a hab
          rw [hai, (hids1 i hi).2]
          simp
      -- pass 2
      cases e2 : classes_pass2 cl_init_tbl s1 tbl with
      | error err => simp [e2] at h
      | ok s2 =>
        simp only [e2] at h
        obtain ⟨hst3, hpar⟩ := pass2_spec tbl hinj cl_init_tbl [] s1 s2 hst2
          (by intro e he; cases he) (fun e _ => (hids1 e.dst (hall e.dst)).2)
          (by simpa using hdnd) e2
        have hpar2 : ∀ e ∈ cl_init_tbl, cls_parent s2 (tbl e.dst) = some (parent_addr tbl e) :=
          fun e he => hpar e (by simpa using he)
        obtain ⟨hwf2, hids2, hcls2, hinst2⟩ := hst3
        have hreach : ∀ i, reaches_object (consts_of tbl) s2 (tbl i) := by
          intro i
          rcases cl_init_tbl_parents i with hi | ⟨e, he, hd, hp⟩ | ⟨e, he, e2, he2, hd, hp, hp2⟩
          · rw [hi]
            exact .object
          · have h1 := hpar2 e he
            rw [hd] at h1
            simp only [parent_addr, hp] at h1
            exact .parent _ _ (hids2 i).1 h1 .object
          · have h1 := hpar2 e he
            rw [hd] at h1
            simp only [parent_addr, hp] at h1
            have h2 := hpar2 e2 he2
            simp only [parent_addr, hp2] at h2
            exact .parent _ _ (hids2 i).1 h1 (.parent _ _ (hids2 e2.dst).1 h2 .object)
        have hok2 : classes_ok (consts_of tbl) s2 := by
          refine ⟨hwf2, (hids2 _).1, (hids2 _).1, (hids2 _).1, (hids2 _).1, ?_, ?_, ?_,
            hinst2, ?_⟩
          · intro e
            have := hinj _ _ e
            cases this
          · intro e
            have := hinj _ _ e
            cases this
          · intro e
            have := hinj _ _ e
            cases this
          · intro a ha
            obtain ⟨i, hi⟩ := hcls2 a ha
            rw [hi]
            exact hreach i
        -- passes 3 to 6
        have hN : tbl .Namespace ≠ (consts_of tbl).Metaclass := fun e => by
          have := hinj _ _ e
          cases this
        have hS : tbl .String ≠ (consts_of tbl).Metaclass := fun e => by
          have := hinj _ _ e
          cases this
        have hD : tbl .Dictionary ≠ (consts_of tbl).Metaclass := fun e => by
          have := hinj _ _ e
          cases this
        cases e3 : classes_pass3 env env.method_init_tbl s2 tbl with
        | error err => simp [e3] at h
        | ok s3 =>
          simp only [e3] at h
          cases e4 : obj_set_newc s3 (tbl .Dictionary) 64 with
          | error err => simp [e4] at h
          | ok r4 =>
            obtain ⟨s4, main_dict⟩ := r4
            simp only [e4] at h
            cases e5 : obj_str_newc s4 (tbl .String) with
            | error err => simp [e5] at h
            | ok r5 =>
              obtain ⟨s5, str⟩ := r5
              simp only [e5] at h
              cases e6 : ovm_obj_alloc s5 (tbl .Namespace) (.ns str 0 main_dict) with
              | error err => simp [e6] at h
              | ok r6 =>
                obtain ⟨s6, ns_main⟩ := r6
                simp only [e6] at h
                split at h
                · cases h
                · rename_i s7 e7
                  split at h
                  · cases h
                  · rename_i s8 e8
                    split at h
                    · cases h
                    · rename_i s9 e9
                      split at h
                      · cases h
                      · rename_i s10 e10
                        injection h with h
                        injection h with g1 g2
                        subst g1
                        subst g2
                        have henv' : env_keeps (consts_of tbl) env := henv
                        have k3 := pass3_kept env _ henv' tbl _ s2 s3 e3
                        have ok3 := classes_kept_ok _ s2 s3 hok2 k3
                        have k4 := obj_set_newc_kept (consts_of tbl) s3 s4 _ 64 main_dict
                          ok3.1 hD (hids2 _).1 e4
                        have ok4 := classes_kept_ok _ s3 s4 ok3 k4
                        have k5 := obj_str_newc_kept (consts_of tbl) s4 s5 _ str
                          ok4.1 hS (hids2 _).1 e5
                        have ok5 := classes_kept_ok _ s4 s5 ok4 k5
                        have k6 := obj_alloc_kept (consts_of tbl) s5 s6 _ ns_main _
                          ok5.1 hN (hids2 _).1 (by intros; simp) e6
                        have ok6 := classes_kept_ok _ s5 s6 ok5 k6
                        have ok7 := classes_kept_ok _ s6 s7 ok6 (henv'.1 _ _ _ _ s7 e7)
                        have ok8 := classes_kept_ok _ s7 s8 ok7
                          (pass5_kept env _ henv' tbl ns_main main_dict _ s7 s8 e8)
                        have ok9 := classes_kept_ok _ s8 s9 ok8 (henv'.2.1 _ _ s9 e9)
                        exact classes_kept_ok _ s9 _ ok9 (henv'.2.2 _ _ _ e10)

/-- C27: after `classes_init` (run on the empty store, with distinct non-null
addresses to allocate from) the classes are in the state `classes_ok`; in
every such state `ovm_is_subclass_of(C, Object)` is true of every class object
`C`, given fuel for the length of its parent chain, and `ovm_inst_classval`
refuses nil; and `ovm_class_new` and `Metaclass.new`, called with a parent
cell that holds no dangling pointer, where they return have made a class
whose parent is the non-nil class object in that cell, and leave the state
`classes_ok`.  The operations on dictionaries and the class hooks are those of
`env`, which act on other objects than the classes. -/
theorem classes_subclass_of_object (env : classes_env) (fl : List Nat) (hnd : fl.Nodup)
    (h0 : 0 ∉ fl) (s0 : ovm_objs) (c : ovm_consts) (henv : env_keeps c env)
    (hinit : classes_init env (objs_init fl) = .ok (s0, c)) :
    classes_ok c s0
      ∧ ∀ s, classes_ok c s →
          (∀ a, cls_parent s a ≠ none → ∃ fuel, ovm_is_subclass_of fuel s a c.Object = .ok true)
          ∧ ovm_inst_classval c s inst_nil = .error (.raised (ovm_except_inv_value inst_nil))
          ∧ (∀ fuel parent_inst ns_inst name mk fr cu s1 cl, cell_live s parent_inst →
              ovm_class_new env c fuel s parent_inst ns_inst name mk fr cu = .ok (s1, cl) →
              classes_ok c s1 ∧ cl ≠ 0
                ∧ ∃ p, parent_inst.val = .objval p ∧ p ≠ 0 ∧ cls_parent s p ≠ none
                    ∧ cls_parent s1 cl = some p)
          ∧ (∀ fuel argv ns_up s1 cl, cell_live s (argv.getD 2 inst_nil) →
              Metaclass_new env c fuel s argv ns_up = .ok (s1, cl) →
              classes_ok c s1 ∧ cl ≠ 0
                ∧ ∃ p, (argv.getD 2 inst_nil).val = .objval p ∧ p ≠ 0 ∧ cls_parent s p ≠ none
                    ∧ cls_parent s1 cl = some p) := by
  refine ⟨classes_init_ok env fl hnd h0 s0 c henv hinit, ?_⟩
  intro s hok
  refine ⟨?_, (inst_classval_ok c s hok).1, ?_, ?_⟩
  · intro a ha
    exact reaches_subclass c s hok.2.1 a (hok.2.2.2.2.2.2.2.2.2 a ha)
  · intro fuel parent_inst ns_inst name mk fr cu s1 cl hlive h
    exact ovm_class_new_ok env c henv fuel s s1 parent_inst ns_inst name mk fr cu cl hok hlive h
  · intro fuel argv ns_up s1 cl hlive h
    exact Metaclass_new_ok env c henv fuel s s1 argv ns_up cl hok hlive h

theorem sample_classes_env_keeps (c : ovm_consts) : env_keeps c sample_classes_env := by
  refine ⟨?_, ?_, ?_⟩
  · intro s d k v s1 h
    have : s = s1 := by
      simp only [sample_classes_env] at h
      injection h
    subst this
    exact classes_kept_refl c s
  · intro s cl s1 h
    have : s = s1 := by
      simp only [sample_classes_env] at h
      injection h
    subst this
    exact classes_kept_refl c s
  · intro s cl s1 h
    have : s = s1 := by
      simp only [sample_classes_env] at h
      injection h
    subst this
    exact classes_kept_refl c s

set_option maxRecDepth 100000 in
theorem classes_subclass_of_object_witness :
    classes_ok sample_classes.2 sample_classes.1
      ∧ ∀ s, classes_ok sample_classes.2 s →
          (∀ a, cls_parent s a ≠ none →
              ∃ fuel, ovm_is_subclass_of fuel s a sample_classes.2.Object = .ok true)
          ∧ ovm_inst_classval sample_classes.2 s inst_nil
              = .error (.raised (ovm_except_inv_value inst_nil))
          ∧ (∀ fuel parent_inst ns_inst name mk fr cu s1 cl, cell_live s parent_inst →
              ovm_class_new sample_classes_env sample_classes.2 fuel s parent_inst ns_inst name
                mk fr cu = .ok (s1, cl) →
              classes_ok sample_classes.2 s1 ∧ cl ≠ 0
                ∧ ∃ p, parent_inst.val = .objval p ∧ p ≠ 0 ∧ cls_parent s p ≠ none
                    ∧ cls_parent s1 cl = some p)
          ∧ (∀ fuel argv ns_up s1 cl, cell_live s (argv.getD 2 inst_nil) →
              Metaclass_new sample_classes_env sample_classes.2 fuel s argv ns_up
                = .ok (s1, cl) →
              classes_ok sample_classes.2 s1 ∧ cl ≠ 0
                ∧ ∃ p, (argv.getD 2 inst_nil).val = .objval p ∧ p ≠ 0 ∧ cls_parent s p ≠ none
                    ∧ cls_parent s1 cl = some p) :=
  classes_subclass_of_object sample_classes_env (List.range' 1000 200)
    (List.nodup_range' 1000 200) (by simp [List.mem_range'_1]) sample_classes.1 sample_classes.2
    (sample_classes_env_keeps _) rfl

set_option maxRecDepth 100000 in
/-- The sample: the built-in classes are at 1000 to 1026 and the main
namespace at 1137; Exception (1024) has the parent User (1022), whose parent
is Object (1001).  `Metaclass.new("A", Exception)` makes the class 1142, a
subclass of Object; with nil or an Integer as parent it raises
`system.invalid-value`. -/
theorem classes_sample :
    sample_classes.2.Metaclass = 1000 ∧ sample_classes.2.Object = 1001
      ∧ sample_classes.2.Exception = 1024
      ∧ cls_parent sample_classes.1 1024 = some 1022
      ∧ cls_parent sample_classes.1 1022 = some 1001
      ∧ cls_parent sample_classes.1 1001 = some 0
      ∧ cls_parent sample_classes.1 1000 = some 1001
      ∧ ovm_is_subclass_of 3 sample_classes.1 1024 1001 = .ok true
      ∧ (∃ s1, Metaclass_new sample_classes_env sample_classes.2 3 sample_classes.1
            [inst_obj 1000, inst_str 1200 2 "A".toList, inst_obj 1024] 1137 = .ok (s1, 1142)
          ∧ cls_parent s1 1142 = some 1024
          ∧ ovm_is_subclass_of 4 s1 1142 1001 = .ok true)
      ∧ Metaclass_new sample_classes_env sample_classes.2 3 sample_classes.1
          [inst_obj 1000, inst_str 1200 2 "A".toList, inst_nil] 1137
          = .error (.raised (ovm_except_inv_value inst_nil))
      ∧ Metaclass_new sample_classes_env sample_classes.2 3 sample_classes.1
          [inst_obj 1000, inst_str 1200 2 "A".toList, inst_int 5] 1137
          = .error (.raised (ovm_except_inv_value (inst_int 5))) :=
  ⟨rfl, rfl, rfl, rfl, rfl, rfl, rfl, rfl, ⟨_, rfl, rfl, rfl⟩, rfl, rfl⟩

/-! ### Store to the Environment -/

/-- C26, evaluated.  `ovm_environ_atcput(th, "x", val)` with the Integer 1 as
value: the cell of the name is overwritten with the value, `Environment.atput`
gets the arguments (Environment, 1, nil) and raises `system.invalid-value` for
the 1; nothing is stored.  With the String `v` as value the call returns, and
what it has stored in the namespace of the caller is nil under the name `v`:
`x` is bound nowhere and `ovm_environ_atc(th, dst, "x")` raises
`system.no-variable`.  The same two cells given to `Environment.atput` in the
order (Environment, name, value) store the value under the name. -/
theorem environ_atcput_loses_name :
    ovm_environ_atcput mem_hash sample_consts sample_environ_thread sample_environ
        2 "x".toList (mem_hash 1 "x".toList) 61 650 651
        = .error (.raised (ovm_except_inv_value (inst_int 1)))
      ∧ (∃ th1 e1,
          ovm_environ_atcput mem_hash sample_consts sample_environ_thread sample_environ
              2 "x".toList (mem_hash 1 "x".toList) 62 650 651 = .ok (th1, e1)
            ∧ ns_ats e1 801 2 "v".toList (mem_hash 1 "v".toList)
                = .ok (some { first := inst_str 651 2 "v".toList, second := inst_nil })
            ∧ ns_ats e1 801 2 "x".toList (mem_hash 1 "x".toList) = .ok none
            ∧ ns_ats e1 802 2 "x".toList (mem_hash 1 "x".toList) = .ok none
            ∧ ns_ats e1 803 2 "x".toList (mem_hash 1 "x".toList) = .ok none
            ∧ ovm_environ_atc mem_hash sample_consts th1 e1 63 2 "x".toList
                (mem_hash 1 "x".toList) 652
                = .error (.raised (ovm_except_no_var
                    { hash_valid := true, hash := mem_hash 1 "x".toList,
                      val := .strval 652 { size := 2, data := "x".toList } })))
      ∧ (∃ e1,
          Environment_atput mem_hash sample_environ
              [inst_obj sample_consts.Environment, inst_str 650 2 "x".toList, inst_int 1] 651
              = .ok (e1, inst_int 1)
            ∧ ∃ pr, ns_ats e1 801 2 "x".toList (mem_hash 1 "x".toList) = .ok (some pr)
                ∧ pr.second = inst_int 1) := by
  refine ⟨by rfl, ⟨_, _, by rfl, by rfl, by rfl, by rfl, by rfl, by rfl⟩,
    ⟨_, by rfl, _, by rfl, by rfl⟩⟩

/-- The same for every call: whenever the value is not a String (and the stack has
room for the three work cells, the value lying in none of them),
`ovm_environ_atcput` raises `system.invalid-value` for the value. -/
theorem environ_atcput_raises (mh : Nat → List Char → Nat) (c : ovm_consts) (th : ovm_thread)
    (e : ovm_environ) (nm_size : Nat) (nm : List Char) (hash val strobj newstr : Nat)
    (hroom : th.stack + 3 ≤ th.sp) (hval : th.sp ≤ val)
    (hns : ∀ o s, (th.cells val).val ≠ .strval o s) :
    ovm_environ_atcput mh c th e nm_size nm hash val strobj newstr
      = .error (.raised (ovm_except_inv_value (th.cells val))) := by
  have h1 : ¬ (th.sp < th.stack + 3) := by omega
  have hv1 : ¬ (val = th.sp - 2) := by omega
  have hv2 : ¬ (val = th.sp - 3) := by omega
  have hv3 : ¬ (th.sp - 3 ≤ val ∧ val < th.sp - 3 + 3) := by omega
  have hidx : th.sp - 3 + 1 = th.sp - 2 := by omega
  have harg : (callsch_argv
      (cell_assign (ovm_str_newch (cell_assign_obj
        { th with sp := th.sp - 3,
                  cells := fun a =>
                    if th.sp - 3 ≤ a ∧ a < th.sp - 3 + 3 then inst_obj 0 else th.cells a }
        (th.sp - 3) c.Environment) (th.sp - 2) nm_size nm hash strobj) (th.sp - 2) val)
      3).getD 1 inst_nil = th.cells val := by
    simp only [callsch_argv, List.range_succ, List.range_zero, List.nil_append, List.map_cons,
      List.map_nil, List.cons_append, List.getD_cons_succ, List.getD_cons_zero, cell_assign,
      ovm_str_newch, cell_assign_obj, hidx, if_true, hv1, hv2, hv3, if_false]
  simp only [ovm_environ_atcput, ovm_stack_alloc, _ovm_stack_alloc, h1, if_false]
  unfold Environment_atput
  have hlen : ∀ t, (callsch_argv t 3).length = 3 := by
    intro t
    simp [callsch_argv]
  simp only [hlen, ne_eq, not_true, if_false, harg]

/-! ### Writes to constant containers -/

/-- C21, evaluated on a Cdictionary and a Cslice.  On the Cdictionary 900
the dispatch of `atput` and of `atputnew` finds the code methods of the class
Dictionary, which take the receiver with `ovm_inst_dictval` and put the key:
`atput(9, 90)` and `atputnew(9, 90)` return 90 and the Cdictionary then holds
9; `del`, found in the same class, raises `system.invalid-value`.  On the
Cslice 920 of the Array 910 the dispatch of `atput` finds the code method of
the class Slice, which calls `atput` on the Array: `atput(0, 99)` returns 99
and the Array holds 10, 99, 30. -/
theorem constant_containers_written :
    ( method_findc_unsafe 5 sample_consts mem_hash sample_containers.st (sample_thread 40)
        (inst_obj 900) 6 "atput".toList (str_hashc mem_hash 6 "atput".toList)
        = .ok (inst_codemethod 6661, 21)
      ∧ method_findc_unsafe 5 sample_consts mem_hash sample_containers.st (sample_thread 40)
          (inst_obj 900) 9 "atputnew".toList (str_hashc mem_hash 9 "atputnew".toList)
          = .ok (inst_codemethod 6669, 21)
      ∧ method_findc_unsafe 5 sample_consts mem_hash sample_containers.st (sample_thread 40)
          (inst_obj 900) 4 "del".toList (str_hashc mem_hash 4 "del".toList)
          = .ok (inst_codemethod 6684, 21))
      ∧ (sample_containers.st.dicts 900).map (fun d => Dictionary_at sample_km d (inst_int 9))
          = some (.ok none)
      ∧ (∃ cs, main_Dictionary_atput sample_km 5 sample_consts sample_containers
            [inst_obj 900, inst_int 9, inst_int 90] = (cs, .ok (inst_int 90))
          ∧ (cs.st.dicts 900).map (fun d => Dictionary_at sample_km d (inst_int 9))
              = some (.ok (some { first := key_cached sample_km (inst_int 9),
                                  second := inst_int 90 })))
      ∧ (∃ cs, main_Dictionary_atputnew sample_km 5 sample_consts sample_containers
            [inst_obj 900, inst_int 9, inst_int 90] = (cs, .ok (inst_int 90))
          ∧ (cs.st.dicts 900).map (fun d => Dictionary_at sample_km d (inst_int 9))
              = some (.ok (some { first := key_cached sample_km (inst_int 9),
                                  second := inst_int 90 })))
      ∧ (main_Dictionary_del sample_km sample_consts sample_containers
            [inst_obj 900, inst_int 7]).2
          = .error (.raised (ovm_except_inv_value (inst_obj 900)))
      ∧ ( method_findc_unsafe 5 sample_consts mem_hash sample_containers.st (sample_thread 40)
            (inst_obj 920) 6 "atput".toList (str_hashc mem_hash 6 "atput".toList)
            = .ok (inst_codemethod 6070, 15)
          ∧ method_findc_unsafe 5 sample_consts mem_hash sample_containers.st (sample_thread 40)
              (inst_obj 910) 6 "atput".toList (str_hashc mem_hash 6 "atput".toList)
              = .ok (inst_codemethod 5539, 11))
      ∧ (∃ cs, main_Slice_atput (main_Array_atput sample_consts) 5 sample_consts
            sample_containers [inst_obj 920, inst_int 0, inst_int 99] = (cs, .ok (inst_int 99))
          ∧ cs.arrays 910 = some [inst_int 10, inst_int 99, inst_int 30]) := by
  refine ⟨⟨by rfl, by rfl, by rfl⟩, by rfl, ⟨_, by rfl, by rfl⟩, ⟨_, by rfl, by rfl⟩, by rfl,
    ⟨by rfl, by rfl⟩, ⟨_, by rfl, by rfl⟩⟩

/-- The guard of the sibling methods, for comparison: on a Dictionary itself
`atput` and `del` both act, and `main$Array$atput` refuses a receiver that is
not of the class Array itself. -/
theorem dictionary_methods_on_dictionary :
    (∃ cs, main_Dictionary_atput sample_km 5 sample_consts sample_containers
        [inst_obj 901, inst_int 9, inst_int 90] = (cs, .ok (inst_int 90)))
      ∧ (∃ cs, main_Dictionary_del sample_km sample_consts sample_containers
          [inst_obj 901, inst_int 7] = (cs, .ok (inst_int 7))
          ∧ (cs.st.dicts 901).map (fun d => Dictionary_at sample_km d (inst_int 7))
              = some (.ok none))
      ∧ (main_Array_atput sample_consts sample_containers
          [inst_obj 920, inst_int 0, inst_int 99]).2
          = .error (.raised (ovm_except_inv_value (inst_obj 920))) := by
  refine ⟨⟨_, by rfl⟩, ⟨_, by rfl, by rfl⟩, by rfl⟩

/-! ### Operand cells of the interpreter -/

/-- Without wrap of the pointer addition the cell is the sum. -/
theorem cell_add_small (p : Nat) (ofs : Int) (h0 : 0 ≤ (p : Int) + ofs)
    (h1 : (p : Int) + ofs < (CELL_SPACE : Int)) : (cell_add p ofs : Int) = (p : Int) + ofs := by
  unfold cell_add
  rw [Int.emod_eq_of_lt h0 h1]
  exact Int.toNat_of_nonneg h0

/-- The cell `interp_base_ofs` returns is in the range of its base whenever
the pointer addition does not wrap. -/
theorem interp_base_ofs_small (code : List Nat) (th : ovm_thread) (r pc1 pc2 : Nat)
    (ofs : Int) (size prev cl method dst bp argc ap : Nat)
    (hfr : th.frames th.mcfp = some (.mc size prev cl method dst bp argc ap))
    (hofs : _interp_intval code th.pc 3 false = .ok (ofs, pc2))
    (hbp0 : 0 ≤ (bp : Int) + ofs) (hsp1 : (th.sp : Int) + ofs < (CELL_SPACE : Int))
    (hbp1 : bp < CELL_SPACE) (hap : ap + argc ≤ CELL_SPACE)
    (h : interp_base_ofs code th = .ok (r, pc1)) :
    ∃ op, code_byte code th.pc = .ok op ∧
      (Nat.land op 24 = 0 → th.sp ≤ r ∧ r < bp) ∧
      (Nat.land op 24 = 8 → th.sp ≤ r ∧ r < bp) ∧
      (Nat.land op 24 = 16 → ap ≤ r ∧ r < ap + argc) ∧
      (Nat.land op 24 = 24 → r = dst ∧ op >>> 5 = 0 ∧ ofs = 0) := by
  unfold interp_base_ofs at h
  cases hop : code_byte code th.pc with
  | error e => rw [hop] at h; simp at h
  | ok op =>
    refine ⟨op, rfl, ?_⟩
    rw [hop] at h
    simp only [hofs] at h
    have hm : th.mcfp ≠ 0 := by
      intro h0
      simp [thread_mcfp, h0] at h
    simp only [thread_mcfp, if_neg hm, hfr] at h
    have hC : CELL_SPACE = 576460752303423488 := rfl
    rw [hC] at hsp1 hbp1 hap
    by_cases c0 : Nat.land op 24 = 0
    · rw [if_pos c0] at h
      split_ifs at h with a1 a2
      simp only [Except.ok.injEq, Prod.mk.injEq] at h
      have hs := cell_add_small th.sp ofs (by omega) (by rw [hC]; omega)
      refine ⟨fun _ => ?_, fun c => ?_, fun c => ?_, fun c => ?_⟩
      · rw [← h.1]; constructor <;> omega
      all_goals (rw [c0] at c; simp at c)
    · rw [if_neg c0] at h
      by_cases c8 : Nat.land op 24 = 8
      · rw [if_pos c8] at h
        split_ifs at h with a1 a2
        simp only [Except.ok.injEq, Prod.mk.injEq] at h
        have hs := cell_add_small bp ofs (by omega) (by rw [hC]; omega)
        refine ⟨fun c => absurd c c0, fun _ => ?_, fun c => ?_, fun c => ?_⟩
        · rw [← h.1]; constructor <;> omega
        all_goals (rw [c8] at c; simp at c)
      · rw [if_neg c8] at h
        by_cases c16 : Nat.land op 24 = 16
        · rw [if_pos c16] at h
          split_ifs at h with a1
          simp only [Except.ok.injEq, Prod.mk.injEq] at h
          have hs := cell_add_small ap ofs (by omega) (by rw [hC]; omega)
          refine ⟨fun c => absurd c c0, fun c => absurd c c8, fun _ => ?_, fun c => ?_⟩
          · rw [← h.1]; constructor <;> omega
          · rw [c16] at c; simp at c
        · rw [if_neg c16] at h
          split_ifs at h with a1
          simp only [Except.ok.injEq, Prod.mk.injEq] at h
          refine ⟨fun c => absurd c c0, fun c => absurd c c8, fun c => absurd c c16,
            fun _ => ?_⟩
          have a2 := not_or.mp a1
          exact ⟨h.1.symm, not_not.mp a2.1, not_not.mp a2.2⟩

/-- C31 (fails on the code): an operand on the base `sp` whose offset is
`2^59 - 1` returns the cell below `th->sp`, 55 for the stack pointer 56, and an
operand on the base `bp` whose offset is `- 2^59` returns the cell `bp`
itself, 60: neither is in the range from `sp` to `bp`, and the thread is not
ended.  The two bases test the pointer after the addition, which wraps; the
base of the arguments tests the offset. -/
theorem interp_base_ofs_wraps :
    sample_operand_thread.sp = 56
    ∧ sample_operand_thread.frames sample_operand_thread.mcfp
        = some (.mc 64 0 40 59 58 60 1 60)
    ∧ interp_base_ofs sample_operand_sp sample_operand_thread = .ok (55, 9)
    ∧ interp_base_ofs sample_operand_bp sample_operand_thread = .ok (60, 9) := by
  refine ⟨rfl, rfl, ?_, ?_⟩ <;> rfl

/-! ### Locks held after a deep copy -/

/-- C33 (fails on the code): `copydeep` of the Pair 611 of the sample store,
whose mutex is free, returns the new Pair 700 and leaves the mutex of the
receiver held, since `pair_copydeep` unlocks the Pair it has made; a second
`copydeep` of the same Pair raises `system.descent-loop`. -/
theorem pair_copydeep_keeps_lock :
    ∃ s1, sample_copy_objs.locked 611 = false
      ∧ sample_copy_objs.inst_of 611 = sample_consts.Pair
      ∧ ovm_copydeep sample_consts sample_other_copydeep 2 sample_copy_objs (inst_obj 611)
        = .ok (s1, inst_obj 700)
      ∧ s1.locked 611 = true ∧ s1.locked 700 = false
      ∧ ovm_copydeep sample_consts sample_other_copydeep 2 s1 (inst_obj 611)
        = .error (.raised ovm_except_descent_loop) :=
  ⟨_, rfl, rfl, rfl, by decide, by decide, by rfl⟩

/-! ### The element count of Sets and Dictionaries -/

/-- C34 (fails on the code): `set_clear` empties the buckets and leaves
`cnt`.  A Set made with four buckets holds 1 after `put(1)`, with `size()`
1; after `delall()` no entry is stored and `size()` is still 1.  The same
for a Dictionary after `atput(7, 70)` and `delall`. -/
theorem delall_keeps_cnt :
    ∃ s0 s1 d0 d1,
      Set_new 34 4 = .ok s0 ∧ dict_entries s0 = 0 ∧ Set_size s0 = 0
      ∧ set_put sample_km s0 (inst_int 1) = (s1, none)
      ∧ dict_entries s1 = 1 ∧ Set_size s1 = 1
      ∧ dict_entries (Set_delall s1) = 0 ∧ Set_size (Set_delall s1) = 1
      ∧ Dictionary_new 34 4 = .ok d0
      ∧ dict_at_put sample_km 700 d0 (inst_int 7) (inst_int 70) = (d1, none)
      ∧ dict_entries d1 = 1
      ∧ dict_entries (Set_delall d1) = 0 ∧ Set_size (Set_delall d1) = 1 :=
  ⟨_, _, _, _, rfl, rfl, rfl, rfl, rfl, rfl, rfl, rfl, rfl, rfl, rfl, rfl, rfl⟩

/-- C35 (fails on the code): the Array made from a Set has as many cells as
the Set has buckets.  The Set with four buckets and the one element 1 gives
the Array of the four cells 1, nil, nil, nil, while `size()` is 1; with more
elements than buckets the loop writes past the Array. -/
theorem set_array_has_table_size :
    ∃ s0, Set_new 34 4 = .ok s0
      ∧ set_put sample_km s0 (inst_int 1) = (sample_set, none)
      ∧ Set_size sample_set = 1
      ∧ Set_Array sample_set
        = .ok [key_cached sample_km (inst_int 1), inst_nil, inst_nil, inst_nil]
      ∧ Set_Array sample_set_full = .error .undefined :=
  ⟨_, rfl, rfl, rfl, rfl, rfl⟩

/-! ### Writing Integers -/

/-- C37 (fails on the code): with a base, `Integer.write` has no code for the
sign: for `-1` and base 2 the index `val % base` of the table of digits is
`-1`, a read in front of the table, and no `-` is written.  Without a base
the same receiver is written as `-1`, and `String.Integer` with base 2 takes
`-1` for the Integer -1.  For 5 and base 2 the String is `101`, which is read
back as 5. -/
theorem integer_write_negative :
    Integer_write (inst_int (-1)) (some (inst_int 2)) = .error .undefined
      ∧ Int.tmod (-1) 2 = -1
      ∧ Integer_write (inst_int (-2)) (some (inst_int 2)) = .error .undefined
      ∧ Integer_write (inst_int (-1)) none = .ok { size := 3, data := ['-', '1'] }
      ∧ String_Integer (sample_str_inst "-1") (some (inst_int 2)) = .ok (-1)
      ∧ Integer_write (inst_int 5) (some (inst_int 2))
        = .ok { size := 4, data := ['1', '0', '1'] }
      ∧ String_Integer (sample_str_inst "101") (some (inst_int 2)) = .ok 5 := by
  refine ⟨rfl, rfl, rfl, ?_, ?_, ?_, ?_⟩ <;> rfl

/-- C38 (fails on the code): `parse_int_base` counts no digits.  For every
base the empty input and, where a sign is allowed, the lone `-` are accepted
with the value 0; `String.Integer` returns 0 for both Strings, with a base
argument and without one. -/
theorem parse_int_accepts_no_digit (base : Nat) (allow_negf : Bool) :
    parse_int_base 0 [] base allow_negf = some 0
      ∧ parse_int_base 1 ['-'] base true = some 0
      ∧ parse_int 0 [] = some 0
      ∧ parse_int 1 ['-'] = some 0
      ∧ String_Integer (sample_str_inst "") none = .ok 0
      ∧ String_Integer (sample_str_inst "-") none = .ok 0
      ∧ String_Integer (sample_str_inst "") (some (inst_int 10)) = .ok 0
      ∧ String_Integer (sample_str_inst "-") (some (inst_int 16)) = .ok 0 := by
  refine ⟨rfl, ?_, ?_, ?_, ?_, ?_, ?_, ?_⟩
  · simp [parse_int_base, parse_int_base_loop, c_at, wrap64]
  all_goals rfl

/-! ### Writing and parsing Strings -/

/-- C36 (fails on the code): `barray_write` writes a backslash as it is,
and `_parse_string` reads a backslash as the start of an escape.  The String
of the two characters backslash and `n` is written as these two characters
between double quotes, which `String.parse` reads as the String of the one
character newline; the String of the one backslash is written as a text
that `parse_string` refuses.  A String without backslash, such as the one of
a double quote and the byte 1, is read back. -/
theorem string_write_parse_backslash
    (rest : Nat → List Char → Except ovm_stop (Option parse_val)) :
    String_write (inst_str 620 3 sample_backslash_n.data)
        = .ok { size := 5, data := [DQUOTE, BACKSLASH, 'n', DQUOTE] }
      ∧ String_parse rest (inst_str 621 5 [DQUOTE, BACKSLASH, 'n', DQUOTE])
        = .ok (.str { size := 2, data := [Char.ofNat 10] })
      ∧ String_write (inst_str 620 2 sample_backslash.data)
        = .ok { size := 4, data := [DQUOTE, BACKSLASH, DQUOTE] }
      ∧ parse_string 3 [DQUOTE, BACKSLASH, DQUOTE] = .ok none
      ∧ String_write (inst_str 620 3 [DQUOTE, Char.ofNat 1])
        = .ok { size := 9,
                data := [DQUOTE, BACKSLASH, DQUOTE, BACKSLASH, 'x', '0', '1', DQUOTE] }
      ∧ String_parse rest
          (inst_str 621 9 [DQUOTE, BACKSLASH, DQUOTE, BACKSLASH, 'x', '0', '1', DQUOTE])
        = .ok (.str { size := 3, data := [DQUOTE, Char.ofNat 1] }) := by
  refine ⟨rfl, ?_, rfl, rfl, rfl, ?_⟩ <;> rfl

/-! ### `write` on an instance of a user class -/

set_option maxRecDepth 100000 in
/-- C40 (fails on the code): the step of the inner loop of
`user_write_unsafe` sets the flag `f` also after the `continue` for
`__instanceof__`, so a separator is counted for the first attribute when
`__instanceof__` is visited before it, and `str_joinc_obj_init` writes none.
With the attribute `b` (bucket 11, behind the bucket 8 of `__instanceof__`)
the String returned has the 17 characters of `sample_user_text` and the size
20, two more than the text and its NUL; with the attribute `a` (bucket 1)
the size is 18 for the 17 characters. -/
theorem user_write_counts_separator :
    str_hashc mem_hash 15 INSTANCEOF % 16 = 8
      ∧ str_hashc mem_hash 2 ['b'] % 16 = 11
      ∧ str_hashc mem_hash 2 ['a'] % 16 = 1
      ∧ (∃ s1, main_Object_write sample_consts (ovm_write sample_consts sample_atom_write 2)
            sample_class_name sample_ptr_text 3 (sample_user_objs "b" 11) (inst_obj 800)
          = .ok (s1, { size := 20, data := sample_user_text 'b' }))
      ∧ (sample_user_text 'b').length = 17
      ∧ (∃ s1, main_Object_write sample_consts (ovm_write sample_consts sample_atom_write 2)
            sample_class_name sample_ptr_text 3 (sample_user_objs "a" 1) (inst_obj 800)
          = .ok (s1, { size := 18, data := sample_user_text 'a' })) := by
  refine ⟨rfl, rfl, rfl, ⟨_, rfl⟩, rfl, ⟨_, rfl⟩⟩

/-! ### Splitting Strings -/

/-- What stands at the start of a list is no longer than the list. -/
theorem starts_with_length (needle hay : List Char) (h : starts_with needle hay = true) :
    needle.length ≤ hay.length := by
  induction needle generalizing hay with
  | nil => simp
  | cons a rest ih =>
    cases hay with
    | nil => simp [starts_with] at h
    | cons b hay =>
      simp only [starts_with, Bool.and_eq_true] at h
      have := ih hay h.2
      simp only [List.length_cons]
      omega

/-- The place `strstr_loop` finds lies, with the needle, inside the
characters searched. -/
theorem strstr_loop_bound (needle hay : List Char) (r : Nat)
    (h : strstr_loop needle hay = some r) : r + needle.length ≤ hay.length := by
  induction hay generalizing r with
  | nil =>
    simp only [strstr_loop] at h
    split_ifs at h with hn
    simp only [Option.some.injEq] at h
    subst hn
    simp [← h]
  | cons c hay ih =>
    simp only [strstr_loop] at h
    split_ifs at h with hs
    · simp only [Option.some.injEq] at h
      have := starts_with_length _ _ hs
      omega
    · cases e : strstr_loop needle hay with
      | none => simp [e] at h
      | some r1 =>
        simp only [e, Option.map_some', Option.some.injEq] at h
        have := ih r1 e
        simp only [List.length_cons]
        omega

/-- A list without NUL is read by `strstr` as a whole. -/
theorem c_str_no_nul (l : List Char) (h : NUL ∉ l) : c_str l = l := by
  unfold c_str
  rw [List.takeWhile_eq_self_iff]
  intro c hc
  simp only [bne_iff_ne, ne_eq]
  intro e
  exact h (e ▸ hc)

/-- The characters `strstr` reads are among those of the buffer. -/
theorem c_str_length_le (l : List Char) : (c_str l).length ≤ l.length := by
  unfold c_str
  exact (List.takeWhile_prefix _).length_le

/-- The loop of `str_splitc_unsafe` returns a list when the delimiter is not
empty and holds no NUL, from any `size` within the data and the fuel; the
Strings of the list are well formed and their characters stand in `orig`
when that holds of the Strings in `parts` and `data` is an end of `orig`. -/
theorem str_splitc_loop_returns (delim_size : Nat) (delim orig : List Char)
    (hd : delim_size = delim.length + 1) (hne : delim ≠ []) (hnul : NUL ∉ delim)
    (hdsz : delim_size < 4294967296) :
    ∀ (fuel size : Nat) (data : List Char) (parts : List ovm_obj_str),
      size ≤ fuel → size = data.length → size < 4294967296 → data <:+ orig →
      (∀ p ∈ parts, p.size = p.data.length + 1 ∧ p.data <:+: orig) →
      ∃ l, str_splitc_loop delim_size delim fuel size data parts = .ok l
        ∧ l.length ≤ parts.length + size
        ∧ ∀ p ∈ l, p.size = p.data.length + 1 ∧ p.data <:+: orig := by
  intro fuel
  induction fuel with
  | zero =>
    intro size data parts h1 _ _ _ hp
    have : size = 0 := by omega
    exact ⟨parts, by simp [str_splitc_loop, this], by omega, hp⟩
  | succ fuel ih =>
    intro size data parts h1 h2 h3 hsuf hp
    unfold str_splitc_loop
    by_cases h0 : size = 0
    · exact ⟨parts, by simp [h0], by omega, hp⟩
    · rw [if_neg h0]
      cases e : strstr data delim with
      | none =>
        refine ⟨_, rfl, by simp; omega, ?_⟩
        intro p hp1
        rcases List.mem_append.mp hp1 with hp2 | hp2
        · exact hp p hp2
        · simp only [List.mem_singleton] at hp2
          subst hp2
          simp only [List.length_take]
          refine ⟨by omega, ?_⟩
          rw [h2, List.take_length]
          exact hsuf.isInfix
      | some r =>
        have hb := strstr_loop_bound _ _ _ e
        rw [c_str_no_nul delim hnul] at hb
        have hl := c_str_length_le data
        have hpos : 0 < delim.length := List.length_pos.mpr hne
        have hk : (r + (delim_size + 4294967295) % 4294967296) % 4294967296
            = r + delim.length := by omega
        simp only [hk]
        rw [if_neg (by omega), if_neg (by omega)]
        obtain ⟨l, hl1, hl2, hl3⟩ := ih (size - (r + delim.length))
          (data.drop (r + delim.length))
          (parts ++ [{ size := r + 1, data := data.take r }]) (by omega)
          (by simp only [List.length_drop]; omega) (by omega)
          ((List.drop_suffix _ _).trans hsuf)
          (by
            intro p hp1
            rcases List.mem_append.mp hp1 with hp2 | hp2
            · exact hp p hp2
            · simp only [List.mem_singleton] at hp2
              subst hp2
              simp only [List.length_take]
              refine ⟨by omega, ?_⟩
              exact (List.take_prefix _ _).isInfix.trans hsuf.isInfix)
        refine ⟨l, hl1, ?_, hl3⟩
        simp only [List.length_append, List.length_singleton] at hl2
        omega

/-- For every String and every delimiter that is not empty and holds no NUL
byte, `String.split` returns a list of Strings, of no more
items than the String has characters; each is well formed and its
characters stand, in a row, in the String split. -/
theorem string_split_returns (a b : Nat) (s d : ovm_obj_str)
    (hs : s.size = s.data.length + 1) (hssz : s.size < 4294967296)
    (hd : d.size = d.data.length + 1) (hdsz : d.size < 4294967296)
    (hne : d.data ≠ []) (hnul : NUL ∉ d.data) :
    ∃ l, String_split (inst_str a s.size s.data) (inst_str b d.size d.data) = .ok l
      ∧ l.length ≤ s.data.length
      ∧ ∀ p ∈ l, p.size = p.data.length + 1 ∧ p.data <:+: s.data := by
  have hm : (s.size + 4294967295) % 4294967296 = s.data.length := by omega
  obtain ⟨l, h1, h2, h3⟩ := str_splitc_loop_returns d.size d.data s.data hd hne hnul hdsz
    s.data.length s.data.length s.data [] (le_refl _) rfl (by omega) (List.suffix_refl _)
    (by simp)
  refine ⟨l, ?_, by simpa using h2, h3⟩
  simp only [String_split, ovm_inst_strval, inst_str, str_splitc_unsafe, hm]
  exact h1

/-- The String `a,b;c` split at `,` and at `;c`. -/
theorem string_split_returns_witness :
    (∃ l, String_split (inst_str 620 6 "a,b;c".toList) (inst_str 621 2 [',']) = .ok l
      ∧ l.length ≤ 5 ∧ ∀ p ∈ l, p.size = p.data.length + 1 ∧ p.data <:+: "a,b;c".toList)
      ∧ String_split (inst_str 620 6 "a,b;c".toList) (inst_str 621 2 [','])
          = .ok [{ size := 2, data := ['a'] }, { size := 4, data := ['b', ';', 'c'] }]
      ∧ String_split (inst_str 620 6 "a,b;c".toList) (inst_str 621 3 [';', 'c'])
          = .ok [{ size := 4, data := ['a', ',', 'b'] }] :=
  ⟨string_split_returns 620 621 { size := 6, data := "a,b;c".toList }
      { size := 2, data := [','] } (by decide) (by decide) (by decide) (by decide)
      (by decide) (by decide), by rfl, by rfl⟩

/-- C39, evaluated on the empty delimiter and on a delimiter with a NUL
byte.  With the empty delimiter the round of the loop takes no character, so
the String `a` is split without end, a new String appended in every round
until memory runs out; with the delimiter of
the bytes NUL, `x`, `y` the round takes three characters of the two of `ab`,
and `size` wraps. -/
theorem string_split_empty_delimiter :
    String_split (inst_str 620 2 ['a']) (inst_str 621 1 []) = .error (.fatal 1)
      ∧ strstr ['a'] [] = some 0
      ∧ String_split (inst_str 620 3 ['a', 'b']) (inst_str 621 4 [NUL, 'x', 'y'])
          = .error .undefined := by
  refine ⟨by rfl, by rfl, by rfl⟩

/-! ### Shallow copies: `Object.copy` on an instance of a user class -/

set_option maxRecDepth 100000 in
/-- C32 (fails on the code): `Object.copy` on an instance of a user class
makes the copy in its work cell `work[-1]` and assigns the cell `work[1]` to
the destination.  In a call made with `ovm_method_callsch` that cell is the
work cell of the caller with the method found, so the call `copy` on the
instance 800 leaves in the destination cell 62 the code method itself; the
copy, the Set 840 with the count 2 of the receiver and new list cells for
its Pairs, is in no cell of the stack. -/
theorem object_copy_assigns_method_cell :
    ∃ th1 s1,
      callsch_codemethod 3 sample_copy_thread sample_copy_user_objs 62 2 (inst_codemethod 3745) 1
          (main_Object_copy sample_consts 3) = .ok (th1, s1)
      ∧ sample_copy_thread.cells 59 = inst_obj 800
      ∧ th1.cells 62 = inst_codemethod 3745
      ∧ th1.sp = 59
      ∧ s1.inst_of 840 = sample_consts.User
      ∧ s1.body 840 = some (.set 16 2 (((List.replicate 16 0).set 8 841).set 11 842))
      ∧ s1.body 842 = some (.list (inst_obj 821) 0)
      ∧ th1.cells 59 = inst_obj 800 ∧ th1.cells 60 = inst_obj 0
      ∧ th1.cells 61 = inst_obj 0 ∧ th1.cells 63 = inst_obj 0 := by
  refine ⟨_, _, rfl, rfl, ?_, ?_, ?_, ?_, ?_, ?_, ?_, ?_, ?_⟩ <;> rfl

/-- `set_clear` leaves no entry in the buckets of a table with `size`
buckets, and leaves the count as it was. -/
theorem set_clear_spec {α : Type} (s : ovm_obj_set α) (hlen : s.data.length = s.size) :
    dict_entries (set_clear s) = 0 ∧ (set_clear s).cnt = s.cnt
      ∧ (set_clear s).data.length = s.size := by
  unfold set_clear dict_entries
  have hd : s.data.drop s.size = [] := by
    rw [List.drop_eq_nil_iff]; omega
  simp only [hd, List.append_nil, hlen, Nat.min_self, List.map_replicate, List.length_nil,
    List.length_replicate, List.sum_replicate, smul_eq_mul, Nat.mul_zero, and_self]

/-- The position `set_find_loop` finds is one of the bucket. -/
theorem set_find_loop_lt (km : key_methods) (key : ovm_inst) (bucket : List ovm_inst) (n : Nat)
    (h : set_find_loop km key bucket = some n) : n < bucket.length := by
  induction bucket generalizing n with
  | nil => simp [set_find_loop] at h
  | cons item rest ih =>
    simp only [set_find_loop] at h
    split_ifs at h with he
    · simp only [Option.some.injEq] at h
      simp only [List.length_cons]
      omega
    · cases e : set_find_loop km key rest with
      | none => simp [e] at h
      | some m =>
        simp only [e, Option.map_some', Option.some.injEq] at h
        have := ih m e
        simp only [List.length_cons]
        omega

/-- `set_put` and `set_del` on a well-formed Set with room for one more
element return and keep `cnt` the number of the entries in the buckets. -/
theorem set_put_del_keep (km : key_methods) (s : ovm_obj_set ovm_inst) (key : ovm_inst)
    (hwf : set_wf s) (hroom : s.cnt + 1 < 4294967296) :
    (∃ s1, set_put km s key = (s1, none) ∧ set_wf s1)
      ∧ (∃ s1, set_del km s key = (s1, none) ∧ set_wf s1) := by
  obtain ⟨h0, hlt, hlen, hcnt, hcb⟩ := hwf
  have hb : bucket_index (key_hash km key) s.size < s.data.length := by
    rw [hlen]; exact bucket_index_lt _ _ h0 hlt
  have hget : s.data.get? (bucket_index (key_hash km key) s.size)
      = some (s.data.getD (bucket_index (key_hash km key) s.size) []) := get?_eq_getD _ _ hb
  constructor
  · unfold set_put set_find
    simp only [hget]
    cases hl : set_find_loop km (key_cached km key)
        (s.data.getD (bucket_index (key_hash km key) s.size) []) with
    | none =>
      refine ⟨_, rfl, h0, hlt, ?_, ?_, ?_⟩
      · simp [bucket_prepend, hlen]
      · rw [entries_prepend _ _ _ (by simpa using hb)]
        show (s.cnt + 1) % 4294967296 = dict_entries s + 1
        omega
      · show (s.cnt + 1) % 4294967296 < 4294967296
        omega
    | some n => exact ⟨s, rfl, h0, hlt, hlen, hcnt, hcb⟩
  · unfold set_del set_find
    simp only [hget]
    cases hl : set_find_loop km (key_cached km key)
        (s.data.getD (bucket_index (key_hash km key) s.size) []) with
    | none => exact ⟨s, rfl, h0, hlt, hlen, hcnt, hcb⟩
    | some n =>
      simp only []
      have hn := set_find_loop_lt km _ _ n hl
      have hu := entries_unlink s _ n hb hn
      have hpos : ¬ (s.cnt = 0) := by omega
      simp only [hpos, if_false]
      refine ⟨_, rfl, h0, hlt, ?_, ?_, ?_⟩
      · simp [bucket_unlink, hlen]
      · show s.cnt - 1 = dict_entries (bucket_unlink s _ n)
        omega
      · show s.cnt - 1 < 4294967296
        omega

end Oovm
